import Mathlib

namespace limbo

/-- Modelled from the spec: `internal::BitInterleaver<u32>::merge` of limbo/internal/ints.h,
which is not among the sources. Bit `i` of `lo` goes to bit `2 i` and bit `i` of `hi` to bit
`2 i + 1` of the result, for the `w` low bits of both arguments. -/
def Bits.interleave : Nat → Nat → Nat → Nat
  | 0, _, _ => 0
  | w + 1, hi, lo => lo % 2 + 2 * (hi % 2) + 4 * Bits.interleave w (hi / 2) (lo / 2)

/-- Modelled from the spec: the inverse of the interleaving, reading every second bit of `z`
starting at bit 0, `w` bits in all. -/
def Bits.deinterleave : Nat → Nat → Nat
  | 0, _ => 0
  | w + 1, z => z % 2 + 2 * Bits.deinterleave w (z / 4)

/-- Modelled from the spec: `Bits::merge(hi, lo)` for 32-bit halves. -/
def Bits.merge (hi lo : Nat) : Nat := Bits.interleave 32 hi lo

/-- Modelled from the spec: `Bits::split_hi(z)`, the odd bits of `z`. -/
def Bits.split_hi (z : Nat) : Nat := Bits.deinterleave 32 (z >>> 1)

/-- Modelled from the spec: `Bits::split_lo(z)`, the even bits of `z`. -/
def Bits.split_lo (z : Nat) : Nat := Bits.deinterleave 32 z

/-- Modelled from the spec: `Bits::kHi`, the mask of the bits that hold the high half. -/
def Bits.kHi : Nat := 0xAAAAAAAAAAAAAAAA

/-- A literal `Lit`: the packed 64-bit identifier `id_`. -/
structure Lit where
  id : Nat
deriving DecidableEq, Repr

/-- Embedding of `Lit::Lit(pos, fun, name)`; `name.id() << 1` is computed in 32 bits. -/
def Lit.new (pos : Bool) (f n : Nat) : Lit :=
  ⟨Bits.merge f (((n <<< 1) % 2 ^ 32) ||| pos.toNat)⟩

def Lit.Eq (f n : Nat) : Lit := Lit.new true f n
def Lit.Neq (f n : Nat) : Lit := Lit.new false f n
def Lit.FromId (id : Nat) : Lit := ⟨id⟩
def Lit.pos (a : Lit) : Bool := a.id &&& 1 != 0
def Lit.neg (a : Lit) : Bool := !a.pos
def Lit.func (a : Lit) : Nat := Bits.split_hi a.id
def Lit.name (a : Lit) : Nat := Bits.split_lo a.id >>> 1
def Lit.null (a : Lit) : Bool := a.id == 0
def Lit.flip (a : Lit) : Lit := ⟨a.id ^^^ 1⟩

def Lit.Valid (a b : Lit) : Bool :=
  let x := a.id ^^^ b.id
  x == 1 || (x != 0 && a.neg && b.neg && (x &&& Bits.kHi) == 0)

def Lit.Complementary (a b : Lit) : Bool :=
  let x := a.id ^^^ b.id
  x == 1 || (x != 0 && a.pos && b.pos && (x &&& Bits.kHi) == 0)

def Lit.ProperlySubsumes (a b : Lit) : Bool :=
  let x := a.id ^^^ b.id
  x != 1 && (x &&& 1 != 0) && a.pos && (x &&& Bits.kHi) == 0

def Lit.Subsumes (a b : Lit) : Bool :=
  let x := a.id ^^^ b.id
  x == 0 || (x != 1 && (x &&& 1 != 0) && a.pos && (x &&& Bits.kHi) == 0)


/-- An assignment `M` of names to functions satisfies `f = n` iff it maps `f` to `n`, and
satisfies `f ≠ n` iff it maps `f` to another name. -/
def Lit.holds (M : Nat → Nat) (a : Lit) : Bool :=
  if a.pos then M a.func == a.name else M a.func != a.name

/-- Truth of a literal with polarity `p`, function `f` and name `n` under `M`. -/
def holdsP (p : Bool) (f n : Nat) (M : Nat → Nat) : Prop :=
  if p then M f = n else M f ≠ n

/-! ## The SAT solver of `examples/sat/solver.h`

Terms (functions and names) are identified with their index, `0` being the null term.  Dense
maps are lists; a read past the end of a list yields the null value and a write past the end
is dropped, so the model agrees with the source wherever the source stays inside the
capacity it has set up.  The assertions of the source are compiled out in a release build
and are not part of the model. -/

/-- Modelled from the spec: `Literal` of limbo/literal.h, which is not among the sources: a
triple of polarity, function (`lhs`) and name (`rhs`). -/
structure Literal where
  pos : Bool
  lhs : Nat
  rhs : Nat
deriving DecidableEq, Repr

/-- Modelled from the spec: `Literal()`, the null literal. -/
def Literal.null : Literal := ⟨false, 0, 0⟩

/-- Modelled from the spec: `Literal::Eq(f, n)`, the literal `f = n`. -/
def Literal.Eq (f n : Nat) : Literal := ⟨true, f, n⟩

/-- Modelled from the spec: `Literal::Neq(f, n)`, the literal `f ≠ n`. -/
def Literal.Neq (f n : Nat) : Literal := ⟨false, f, n⟩

/-- Modelled from the spec: `flip()` toggles the polarity only. -/
def Literal.flip (a : Literal) : Literal := ⟨!a.pos, a.lhs, a.rhs⟩

/-- Modelled from the spec: the packed identifier of the literal, as laid out by `Lit`. -/
def Literal.id (a : Literal) : Nat := (Lit.new a.pos a.lhs a.rhs).id

/-- Modelled from the spec: a valid pair is `f = n, f ≠ n` (in either order) or `f ≠ n1, f ≠ n2`
with distinct names. -/
def Literal.Valid (a b : Literal) : Bool :=
  a.lhs == b.lhs && ((a.rhs == b.rhs && a.pos != b.pos) || (!a.pos && !b.pos && a.rhs != b.rhs))

/-- Modelled from the spec: a complementary pair is `f = n, f ≠ n` (in either order) or
`f = n1, f = n2` with distinct names. -/
def Literal.Complementary (a b : Literal) : Bool :=
  a.lhs == b.lhs && ((a.rhs == b.rhs && a.pos != b.pos) || (a.pos && b.pos && a.rhs != b.rhs))

/-- Modelled from the spec: `f = n1` properly subsumes `f ≠ n2` iff `n1 ≠ n2`. -/
def Literal.ProperlySubsumes (a b : Literal) : Bool :=
  a.pos && !b.pos && a.lhs == b.lhs && a.rhs != b.rhs

/-- Modelled from the spec: a literal subsumes itself and what it properly subsumes. -/
def Literal.Subsumes (a b : Literal) : Bool :=
  a == b || a.ProperlySubsumes b

/-- Modelled from the spec: a literal is a tautology when it is `Valid` with itself. -/
def Literal.valid (a : Literal) : Bool := Literal.Valid a a

/-- Modelled from the spec: a literal is unsatisfiable when its conjunction with itself is. -/
def Literal.unsatisfiable (a : Literal) : Bool := Literal.Complementary a a

/-- Modelled from the spec: `Clause` of examples/sat/clause.h, which is not among the sources: an
ordered sequence of literals together with the mark of a tautological clause. -/
structure Clause where
  valid : Bool
  lits : List Literal
deriving DecidableEq, Repr

/-- Modelled from the spec: `size()`, the number of literals. -/
def Clause.size (c : Clause) : Nat := c.lits.length

/-- Modelled from the spec: `c[i]`, the literal in slot `i`. -/
def Clause.get (c : Clause) (i : Nat) : Literal := c.lits.getD i Literal.null

/-- Modelled from the spec: a clause is unsatisfiable iff it is empty after normalisation. -/
def Clause.unsatisfiable (c : Clause) : Bool := !c.valid && c.lits.isEmpty

/-- Modelled from the spec: `RemoveIf` drops the literals that meet the predicate and keeps the
order of the others. -/
def Clause.RemoveIf (c : Clause) (p : Literal → Bool) : Clause :=
  { c with lits := c.lits.filter (fun a => !p a) }

/-- Embedding of `std::swap(c[i], c[j])` on the slots of a clause. -/
def Clause.swap (c : Clause) (i j : Nat) : Clause :=
  { c with lits := (c.lits.set i (c.get j)).set j (c.get i) }

/-- Insertion of a literal into a list sorted by identifier, dropping a duplicate. -/
def Clause.insertSorted (a : Literal) : List Literal → List Literal
  | [] => [a]
  | b :: bs =>
    if a.id < b.id then a :: b :: bs
    else if a.id = b.id then b :: bs
    else b :: Clause.insertSorted a bs

/-- Modelled from the spec: sorting by identifier with duplicates removed. -/
def Clause.sortDedup (as : List Literal) : List Literal :=
  as.foldr Clause.insertSorted []

/-- Removal of repeated literals that keeps the first copy and the order. -/
def Clause.dedup : List Literal → List Literal
  | [] => []
  | a :: as => a :: (Clause.dedup as).filter (fun b => b != a)

/-- Modelled from the spec: the collapse of subsuming pairs. In a disjunction a literal that
properly subsumes another literal of the clause is redundant and is dropped. -/
def Clause.collapse (as : List Literal) : List Literal :=
  as.filter (fun a => !as.any (fun b => a.ProperlySubsumes b))

/-- Modelled from the spec: whether some pair of literals of the sequence is `Valid`. -/
def Clause.hasValidPair (as : List Literal) : Bool :=
  as.any (fun a => as.any (fun b => Literal.Valid a b))

/-- Modelled from the spec: the normalisation done by `Clause::Factory::New(lits)`: sort by
identifier, remove duplicates, mark the clause valid when a pair is `Valid`, and collapse
pairs where one literal subsumes the other. -/
def Clause.Normalize (as : List Literal) : Clause :=
  let bs := Clause.sortDedup as
  if Clause.hasValidPair bs then ⟨true, []⟩ else ⟨false, Clause.collapse bs⟩

/-- Modelled from the spec: `Clause::Normalize<kGuaranteeInvalid>`, the re-normalisation of a
learnt clause. The validity test is skipped and the order is kept, slot 0 holding the
literal of the unique implication point. -/
def Clause.NormalizeGuaranteeInvalid (as : List Literal) : List Literal :=
  Clause.collapse (Clause.dedup as)

/-- Modelled from the spec: `Clause::Factory`, a pool of clauses keyed by small integer
references. Reference `0` is the null reference and is never handed out; `freed` lists the
slots that were returned to the pool. -/
structure Factory where
  pool : List Clause
  freed : List Int
deriving DecidableEq, Repr

def Factory.init : Factory := ⟨[⟨false, []⟩], []⟩

/-- Embedding of `clause_factory_[cr]`. -/
def Factory.get (fac : Factory) (cr : Int) : Clause := fac.pool.getD cr.toNat ⟨false, []⟩

def Factory.set (fac : Factory) (cr : Int) (c : Clause) : Factory :=
  { fac with pool := fac.pool.set cr.toNat c }

/-- Modelled from the spec: `New(lits)` normalises and stores the clause and returns its
reference. -/
def Factory.New (fac : Factory) (as : List Literal) : Int × Factory :=
  ((fac.pool.length : Int), { fac with pool := fac.pool ++ [Clause.Normalize as] })

/-- Modelled from the spec: `New<kGuaranteeNormalized>(lits)` stores the literals as they are. -/
def Factory.NewNormalized (fac : Factory) (as : List Literal) : Int × Factory :=
  ((fac.pool.length : Int), { fac with pool := fac.pool ++ [⟨false, as⟩] })

/-- Modelled from the spec: `Delete(cr, size)` returns the slot to the pool. -/
def Factory.Delete (fac : Factory) (cr : Int) : Factory :=
  { fac with freed := cr :: fac.freed }

/-- Embedding of `DenseMap::Capacitate(Index i)`: grow to `i + 1` entries filled with the null value. -/
def DenseMap.Capacitate {α : Type} (null : α) (i : Nat) (v : List α) : List α :=
  if i ≥ v.length then v ++ List.replicate (i + 1 - v.length) null else v

/-- Embedding of `DenseSet::Contains(x)`. -/
def DenseSet.Contains (v : List Nat) (x : Nat) : Bool := x != 0 && v.getD x 0 == x

/-- Embedding of `DenseSet::Insert(x)`. -/
def DenseSet.Insert (v : List Nat) (x : Nat) : List Nat := v.set x x

/-- Embedding of `vector::resize(n)` with a fill value. -/
def resize {α : Type} (null : α) (n : Nat) (v : List α) : List α :=
  v.take n ++ List.replicate (n - v.length) null

/-- The binary heap `Heap<T, Less>`: `heap_` is 1-indexed (`heap_[0]` is null) and `index_` maps
an element to its position. -/
structure Heap where
  heap_ : List Nat
  index_ : List Nat
deriving DecidableEq, Repr

def Heap.init : Heap := ⟨[0], []⟩

def Heap.Capacitate (h : Heap) (i : Nat) : Heap :=
  { h with index_ := DenseMap.Capacitate 0 i h.index_ }

def Heap.size (h : Heap) : Int := (h.heap_.length : Int) - 1

def Heap.Contains (h : Heap) (x : Nat) : Bool := h.index_.getD x 0 != 0

def Heap.Top (h : Heap) : Nat := if h.size ≥ 1 then h.heap_.getD 1 0 else 0

/-- The loop of `SiftUp`; it returns the heap and the final position. -/
def Heap.SiftUpLoop (less : Nat → Nat → Bool) (x : Nat) : Nat → Heap → Nat → Heap × Nat
  | 0, h, i => (h, i)
  | fuel + 1, h, i =>
    let p := i / 2
    if p != 0 && less x (h.heap_.getD p 0) then
      let heap1 := h.heap_.set i (h.heap_.getD p 0)
      let index1 := h.index_.set (heap1.getD i 0) i
      Heap.SiftUpLoop less x fuel ⟨heap1, index1⟩ p
    else (h, i)

/-- Embedding of `SiftUp(i)`. The position halves in every round, so `i` rounds are enough. -/
def Heap.SiftUp (less : Nat → Nat → Bool) (h : Heap) (i : Nat) : Heap :=
  let x := h.heap_.getD i 0
  let r := Heap.SiftUpLoop less x i h i
  ⟨r.1.heap_.set r.2 x, r.1.index_.set x r.2⟩

/-- The loop of `SiftDown`; it returns the heap and the final position. -/
def Heap.SiftDownLoop (less : Nat → Nat → Bool) (x : Nat) : Nat → Heap → Nat → Heap × Nat
  | 0, h, i => (h, i)
  | fuel + 1, h, i =>
    if 2 * i < h.heap_.length then
      let min_child :=
        if 2 * i + 1 < h.heap_.length
            && less (h.heap_.getD (2 * i + 1) 0) (h.heap_.getD (2 * i) 0) then 2 * i + 1
        else 2 * i
      if !less (h.heap_.getD min_child 0) x then (h, i)
      else
        let heap1 := h.heap_.set i (h.heap_.getD min_child 0)
        let index1 := h.index_.set (heap1.getD i 0) i
        Heap.SiftDownLoop less x fuel ⟨heap1, index1⟩ min_child
    else (h, i)

/-- Embedding of `SiftDown(i)`. The position at least doubles in every round that moves, so the length of
`heap_` bounds the number of rounds. -/
def Heap.SiftDown (less : Nat → Nat → Bool) (h : Heap) (i : Nat) : Heap :=
  let x := h.heap_.getD i 0
  let r := Heap.SiftDownLoop less x (h.heap_.length + 1) h i
  ⟨r.1.heap_.set r.2 x, r.1.index_.set x r.2⟩

def Heap.Increase (less : Nat → Nat → Bool) (h : Heap) (x : Nat) : Heap :=
  Heap.SiftUp less h (h.index_.getD x 0)

def Heap.Insert (less : Nat → Nat → Bool) (h : Heap) (x : Nat) : Heap :=
  let i := h.heap_.length
  Heap.SiftUp less ⟨h.heap_ ++ [x], h.index_.set x i⟩ i

def Heap.Remove (less : Nat → Nat → Bool) (h : Heap) (x : Nat) : Heap :=
  let i := h.index_.getD x 0
  let heap1 := h.heap_.set i (h.heap_.getLastD 0)
  let index1 := h.index_.set (heap1.getD i 0) i
  let heap2 := heap1.dropLast
  let index2 := index1.set x 0
  if heap2.length > i then Heap.SiftDown less ⟨heap2, index2⟩ i else ⟨heap2, index2⟩

/-- Embedding of `Heapify()`: `SiftDown` at positions `1, 2, …` and then `SiftUp` at the positions from the
last down to `1`. -/
def Heap.Heapify (less : Nat → Nat → Bool) (h : Heap) : Heap :=
  let h1 := (List.range' 1 (h.heap_.length - 1)).foldl (fun g i => Heap.SiftDown less g i) h
  (List.range' 1 (h.heap_.length - 1)).reverse.foldl (fun g i => Heap.SiftUp less g i) h1

/-- Embedding of `Solver::Data`, the meta data of a pair `(f, n)`. -/
structure Data where
  seen_subsumed : Bool
  wanted : Bool
  occurs : Bool
  model_neq : Bool
  level : Nat
  reason : Int
deriving DecidableEq, Repr

/-- The value-initialised `Data`. -/
def Data.null : Data := ⟨false, false, false, false, 0, 0⟩

/-- Embedding of `Data::Update(neq, l, r)`; `level` is a bit-field of 28 bits. -/
def Data.Update (d : Data) (neq : Bool) (l : Nat) (r : Int) : Data :=
  { d with model_neq := neq, level := l % 2 ^ 28, reason := r }

/-- Embedding of `Data::Reset()`. -/
def Data.Reset (d : Data) : Data :=
  { d with model_neq := false, level := 0, reason := 0 }

/-- The state of `Solver`. The activities are of type `double` in the source and are taken
here as exact rationals. -/
structure Solver where
  empty_clause_ : Bool
  clause_factory_ : Factory
  clauses_ : List Int
  funcs_ : List Nat
  names_ : List (List Nat)
  name_extra_ : List Nat
  name_index_ : List Nat
  watchers_ : List (List Int)
  trail_ : List Literal
  level_size_ : List Nat
  trail_head_ : Nat
  model_ : List Nat
  data_ : List (List Data)
  domain_size_ : List Int
  order_ : Heap
  activity_ : List ℚ
  bump_step_ : ℚ

namespace Solver

def kNullRef : Int := 0

def kDomainRef : Int := -1

def kRootLevel : Nat := 1

/-- Embedding of `Solver()`: the freshly constructed solver. -/
def init : Solver :=
  { empty_clause_ := false
    clause_factory_ := Factory.init
    clauses_ := [0]
    funcs_ := []
    names_ := []
    name_extra_ := []
    name_index_ := []
    watchers_ := []
    trail_ := []
    level_size_ := [0]
    trail_head_ := 0
    model_ := []
    data_ := []
    domain_size_ := []
    order_ := Heap.init
    activity_ := []
    bump_step_ := 1 }

/-- Embedding of `ActivityCompare`: `t1` comes before `t2` when its activity is greater. -/
def ActivityCompare (activity : List ℚ) (t1 t2 : Nat) : Bool :=
  decide (activity.getD t1 0 > activity.getD t2 0)

/-- The statement `order_.Insert(f)`. -/
def orderInsert (s : Solver) (f : Nat) : Solver :=
  { s with order_ := s.order_.Insert (ActivityCompare s.activity_) f }

/-- The statement `order_.Remove(f)`. -/
def orderRemove (s : Solver) (f : Nat) : Solver :=
  { s with order_ := s.order_.Remove (ActivityCompare s.activity_) f }

/-- The statement `if (order_.Contains(f)) order_.Increase(f)`. -/
def orderIncrease (s : Solver) (f : Nat) : Solver :=
  if s.order_.Contains f then
    { s with order_ := s.order_.Increase (ActivityCompare s.activity_) f }
  else s

/-- Embedding of `clause(cr)`. -/
def clause (s : Solver) (cr : Int) : Clause := s.clause_factory_.get cr

/-- Embedding of `model_[f]`. -/
def model (s : Solver) (f : Nat) : Nat := s.model_.getD f 0

/-- Embedding of `data_[f][n]`. -/
def data (s : Solver) (f n : Nat) : Data := (s.data_.getD f []).getD n Data.null

/-- Assignment to `data_[f][n]`. -/
def setData (s : Solver) (f n : Nat) (d : Data) : Solver :=
  { s with data_ := s.data_.set f ((s.data_.getD f []).set n d) }

def current_level (s : Solver) : Nat := s.level_size_.length

/-- The statement `trail_.push_back(a)`. -/
def pushTrail (s : Solver) (a : Literal) : Solver :=
  { s with trail_ := s.trail_ ++ [a] }

/-- Assignment to `model_[f]`. -/
def setModel (s : Solver) (f n : Nat) : Solver :=
  { s with model_ := s.model_.set f n }

/-- Assignment to `name_index_[f]`. -/
def setNameIndex (s : Solver) (f i : Nat) : Solver :=
  { s with name_index_ := s.name_index_.set f i }

/-- Assignment to `domain_size_[f]`. -/
def setDomainSize (s : Solver) (f : Nat) (v : Int) : Solver :=
  { s with domain_size_ := s.domain_size_.set f v }

/-- Embedding of `satisfies(a, l)`; the source's default for `l` is `-1`. -/
def satisfies (s : Solver) (a : Literal) (l : Int) : Bool :=
  let p := a.pos
  let f := a.lhs
  let n := a.rhs
  let m := s.model f
  ((p && m == n) || (!p && ((m != 0 && m != n) || (s.data f n).model_neq))) &&
    (decide (l < 0) || decide (((s.data f n).level : Int) ≤ l))

/-- Embedding of `falsifies(a, l)`; the source's default for `l` is `-1`. -/
def falsifies (s : Solver) (a : Literal) (l : Int) : Bool :=
  let p := a.pos
  let f := a.lhs
  let n := a.rhs
  let m := s.model f
  ((!p && m == n) || (p && ((m != 0 && m != n) || (s.data f n).model_neq))) &&
    (decide (l < 0) || decide (((s.data f n).level : Int) ≤ l))

/-- Embedding of `satisfies(c, l)` for a clause. -/
def satisfiesClause (s : Solver) (c : Clause) (l : Int) : Bool :=
  c.lits.any (fun a => s.satisfies a l)

/-- Embedding of `falsifies(c, l)` for a clause. -/
def falsifiesClause (s : Solver) (c : Clause) (l : Int) : Bool :=
  c.lits.all (fun a => s.falsifies a l)

def level_of (s : Solver) (a : Literal) : Nat :=
  let m := s.model a.lhs
  if !a.pos && (s.data a.lhs a.rhs).model_neq then (s.data a.lhs a.rhs).level
  else (s.data a.lhs m).level

def level_of_complementary (s : Solver) (a : Literal) : Nat :=
  let m := s.model a.lhs
  if a.pos && (s.data a.lhs a.rhs).model_neq then (s.data a.lhs a.rhs).level
  else (s.data a.lhs m).level

def reason_of (s : Solver) (a : Literal) : Int :=
  let m := s.model a.lhs
  if !a.pos && (s.data a.lhs a.rhs).model_neq then (s.data a.lhs a.rhs).reason
  else (s.data a.lhs m).reason

/-- The block of `CapacitateMaps` that grows the maps indexed by functions. -/
def capacitateFuncs (s : Solver) (fig : Nat) : Solver :=
  { s with
    funcs_ := DenseMap.Capacitate 0 fig s.funcs_
    name_index_ := DenseMap.Capacitate 0 fig s.name_index_
    watchers_ := DenseMap.Capacitate [] fig s.watchers_
    model_ := DenseMap.Capacitate 0 fig s.model_
    data_ := DenseMap.Capacitate [] fig s.data_
    domain_size_ := DenseMap.Capacitate 0 fig s.domain_size_
    order_ := s.order_.Capacitate fig
    activity_ := DenseMap.Capacitate 0 fig s.activity_ }

/-- The block of `CapacitateMaps` that grows the maps indexed by sorts. -/
def capacitateSorts (s : Solver) (sig : Nat) : Solver :=
  { s with
    names_ := DenseMap.Capacitate [] sig s.names_
    name_extra_ := DenseMap.Capacitate 0 sig s.name_extra_ }

/-- The loop `for (ds : data_) ds.Capacitate(nig)`. -/
def capacitateData (s : Solver) (nig : Nat) : Solver :=
  { s with data_ := s.data_.map (DenseMap.Capacitate Data.null nig) }

/-- The loop `for (ns : names_) ns.Capacitate(nig)`. -/
def capacitateNames (s : Solver) (nig : Nat) : Solver :=
  { s with names_ := s.names_.map (DenseMap.Capacitate 0 nig) }

/-- The four conditional blocks of `CapacitateMaps`, for the values of `fi`, `si`, `ni`, `fig`,
`sig` and `nig` computed at its start. -/
def CapacitateWith (s : Solver) (fi si ni : Int) (fig sig nig : Nat) : Solver :=
  let s1 : Solver := if fi ≥ 0 then s.capacitateFuncs fig else s
  let s2 : Solver := if si ≥ 0 then s1.capacitateSorts sig else s1
  let s3 : Solver := if fi ≥ 0 || ni ≥ 0 then s2.capacitateData nig else s2
  if si ≥ 0 || ni ≥ 0 then (s3.capacitateNames nig).capacitateData nig else s3

/-- Embedding of `CapacitateMaps(s, f, n, extra_n)`. The products with `1.5` are exact on the
integers that occur and are truncated towards zero. -/
def CapacitateMaps (s : Solver) (srt f n extra_n : Nat) : Solver :=
  let max_ni : Int := if n > extra_n then n else extra_n
  let si : Int := if srt ≥ s.names_.length then srt else -1
  let fi : Int := if f ≥ s.funcs_.length then f else -1
  let ni : Int :=
    if s.names_.length == 0 || max_ni ≥ ((s.names_.getD 0 []).length : Int) then max_ni else -1
  let sig : Nat := ((si + 1) * 3 / 2).toNat
  let fig : Nat := ((fi + 1) * 3 / 2).toNat
  let nig : Nat := if ni ≥ 0 then ((ni + 1) * 3 / 2).toNat else (s.names_.getD 0 []).length
  s.CapacitateWith fi si ni fig sig nig

/-- The two statements `domain_size_[f] += 1 - data_[f][n].occurs; data_[f][n].occurs = true`. -/
def markOccurs (s : Solver) (f n : Nat) : Solver :=
  let d := s.data f n
  let s1 := s.setDomainSize f (s.domain_size_.getD f 0 + (1 - (if d.occurs then 1 else 0)))
  s1.setData f n { d with occurs := true }

/-- Embedding of `names_[s].Insert(n)`. -/
def insertName (s : Solver) (srt n : Nat) : Solver :=
  { s with names_ := s.names_.set srt (DenseSet.Insert (s.names_.getD srt []) n) }

/-- Embedding of `Register(s, f, n, extra_n)`. -/
def Register (s : Solver) (srt f n extra_n : Nat) : Solver :=
  let s1 := s.CapacitateMaps srt f n extra_n
  let s2 :=
    if !DenseSet.Contains s1.funcs_ f then
      let t1 := { s1 with funcs_ := DenseSet.Insert s1.funcs_ f }
      let t2 := (t1.orderInsert f).insertName srt extra_n
      t2.markOccurs f extra_n
    else s1
  let s3 := s2.markOccurs f n
  s3.insertName srt n

/-- Embedding of `AddLiteral(a, extra_name)`; `sort` gives the sort of a function and `extra_name` the extra
name of a sort. -/
def AddLiteral (sort extra_name : Nat → Nat) (s : Solver) (a : Literal) : Solver :=
  if a.valid then s
  else if a.unsatisfiable then { s with empty_clause_ := true }
  else
    (s.pushTrail a).Register (sort a.lhs) a.lhs a.rhs (extra_name (sort a.lhs))

/-- Embedding of `AddClause(as, extra_name)`. -/
def AddClause (sort extra_name : Nat → Nat) (s : Solver) (as : List Literal) : Solver :=
  if as.length == 0 then { s with empty_clause_ := true }
  else if as.length == 1 then AddLiteral sort extra_name s (as.getD 0 Literal.null)
  else
    let r := s.clause_factory_.New as
    let cr := r.1
    let s1 := { s with clause_factory_ := r.2 }
    let c := s1.clause cr
    if c.valid then { s1 with clause_factory_ := s1.clause_factory_.Delete cr }
    else if c.unsatisfiable then
      { s1 with empty_clause_ := true, clause_factory_ := s1.clause_factory_.Delete cr }
    else if c.size == 1 then
      let s2 := s1.pushTrail (c.get 0)
      { s2 with clause_factory_ := s2.clause_factory_.Delete cr }
    else
      c.lits.foldl
        (fun t a => t.Register (sort a.lhs) a.lhs a.rhs (extra_name (sort a.lhs)))
        { s1 with clauses_ := s1.clauses_ ++ [cr] }

/-- Embedding of `UpdateWatchers(cr, c)`. -/
def UpdateWatchers (s : Solver) (cr : Int) (c : Clause) : Solver :=
  let f0 := (c.get 0).lhs
  let f1 := (c.get 1).lhs
  let w1 := s.watchers_.set f0 (s.watchers_.getD f0 [] ++ [cr])
  let w2 := if f0 != f1 then w1.set f1 (w1.getD f1 [] ++ [cr]) else w1
  { s with watchers_ := w2 }

/-- Embedding of `RemoveWatchers(cr, c)`. -/
def RemoveWatchers (s : Solver) (cr : Int) (c : Clause) : Solver :=
  let f0 := (c.get 0).lhs
  let f1 := (c.get 1).lhs
  let w1 := s.watchers_.set f0 ((s.watchers_.getD f0 []).erase cr)
  let w2 := w1.set f1 ((w1.getD f1 []).erase cr)
  { s with watchers_ := w2 }

/-- The first loop of `CandidateName`: positions `i, i - 1, …, 0` with `i + 1` rounds left. -/
def CandidateNameDown (s : Solver) (f : Nat) (names : List Nat) : Nat → Option (Nat × Nat)
  | 0 => none
  | i + 1 =>
    let n := names.getD i 0
    if n != 0 && (s.data f n).occurs && !(s.data f n).model_neq then some (i, n)
    else CandidateNameDown s f names i

/-- The second loop of `CandidateName`: positions `offset + k, …, offset + 1`. -/
def CandidateNameWrap (s : Solver) (f : Nat) (names : List Nat) (offset : Nat) :
    Nat → Option (Nat × Nat)
  | 0 => none
  | k + 1 =>
    let n := names.getD (offset + k + 1) 0
    if n != 0 && (s.data f n).occurs && !(s.data f n).model_neq then some (offset + k + 1, n)
    else CandidateNameWrap s f names offset k

/-- The two loops of `CandidateName`: the position and the name found, if any. -/
def CandidateNameFind (sort : Nat → Nat) (s : Solver) (f : Nat) : Option (Nat × Nat) :=
  let names := s.names_.getD (sort f) []
  let offset := s.name_index_.getD f 0
  match CandidateNameDown s f names (offset + 1) with
  | some r => some r
  | none => CandidateNameWrap s f names offset (names.length - 1 - offset)

/-- Embedding of `CandidateName(f)`: the name found (null if none) and the solver with the cursor
`name_index_[f]` moved. -/
def CandidateName (sort : Nat → Nat) (s : Solver) (f : Nat) : Nat × Solver :=
  match CandidateNameFind sort s f with
  | some r => (r.2, s.setNameIndex f r.1)
  | none => (0, s)

/-- Embedding of `BumpToFront(f)`. -/
def BumpToFront (s : Solver) (f : Nat) : Solver :=
  let top := s.activity_.foldl (fun cur a => if cur < a then a else cur) (s.activity_.getD f 0)
  let s1 := { s with activity_ := s.activity_.set f (top + s.bump_step_) }
  s1.orderIncrease f

/-- Embedding of `Bump(f)`. -/
def Bump (s : Solver) (f : Nat) : Solver :=
  let act := s.activity_.set f (s.activity_.getD f 0 + s.bump_step_)
  let s1 : Solver :=
    if act.getD f 0 > (10 : ℚ) ^ 100 then
      { s with activity_ := act.map (fun a => a * (1 / (10 : ℚ) ^ 100))
               bump_step_ := s.bump_step_ * (1 / (10 : ℚ) ^ 100) }
    else { s with activity_ := act }
  s1.orderIncrease f

/-- The branch of `Enqueue` taken when `domain_size_[f]` has dropped to `1`: the name that is
left is put on the trail with the reason `kDomainRef`. -/
def EnqueueDomain (sort : Nat → Nat) (s : Solver) (f : Nat) : Solver :=
  let r := CandidateName sort s f
  let n := r.1
  let s1 := r.2.pushTrail (Literal.Eq f n)
  let s2 := s1.setData f n ((s1.data f n).Update false s1.current_level kDomainRef)
  (s2.setModel f n).orderRemove f

/-- Embedding of `Enqueue(a, reason)`. -/
def Enqueue (sort : Nat → Nat) (s : Solver) (a : Literal) (reason : Int) : Solver :=
  let p := a.pos
  let f := a.lhs
  let n := a.rhs
  let m := s.model f
  if m == 0 && (p || !(s.data f n).model_neq) then
    let s2 := (s.pushTrail a).setData f n ((s.data f n).Update (!p) s.current_level reason)
    if p then (s2.setModel f n).orderRemove f
    else
      let ds := s2.domain_size_.getD f 0 - 1
      let s3 := s2.setDomainSize f ds
      if ds == 1 then EnqueueDomain sort s3 f else s3.BumpToFront f
  else s

end Solver

namespace Solver

/-- Assignment to `watchers_[f][i]`. -/
def setWatcher (s : Solver) (f i : Nat) (cr : Int) : Solver :=
  { s with watchers_ := s.watchers_.set f ((s.watchers_.getD f []).set i cr) }

/-- The search for new watched literals in `Propagate(a)`: the loop over `k` from `size - n` to
`size - 1` that runs while `w ≠ 0`. It returns the solver and the final `w`. -/
def PropagateScan (s : Solver) (cr : Int) (f0 f1 : Nat) : Nat → Nat → Solver × Nat
  | 0, w => (s, w)
  | n + 1, w =>
    let c := s.clause cr
    let k := c.size - (n + 1)
    if w != 0 then
      if !s.falsifies (c.get k) (-1) then
        let l := w >>> 1
        let fk := (c.get k).lhs
        let s1 :=
          if fk != f0 && fk != f1 && fk != (c.get (1 - l)).lhs then
            { s with watchers_ := s.watchers_.set fk (s.watchers_.getD fk [] ++ [cr]) }
          else s
        let s2 := { s1 with clause_factory_ := s1.clause_factory_.set cr (c.swap l k) }
        PropagateScan s2 cr f0 f1 n ((w - 1) >>> 1)
      else PropagateScan s cr f0 f1 n w
    else (s, w)

/-- The loop `while (cr_ptr1 != ws.end()) *cr_ptr2++ = *cr_ptr1++` that flushes the remaining
watchers; it returns the solver and the final `cr_ptr2`. -/
def PropagateFlush (f : Nat) : Nat → Solver → Nat → Nat → Solver × Nat
  | 0, s, _, p2 => (s, p2)
  | n + 1, s, p1, p2 =>
    PropagateFlush f n (s.setWatcher f p2 ((s.watchers_.getD f []).getD p1 0)) (p1 + 1) (p2 + 1)

/-- The main loop of `Propagate(a)` with the read position `p1` (`cr_ptr1`) and the write
position `p2` (`cr_ptr2`) in `watchers_[f]`. It returns the solver, the final `cr_ptr2` and
the conflict. -/
def PropagateLoop (sort : Nat → Nat) (f : Nat) : Nat → Solver → Nat → Nat → Solver × Nat × Int
  | 0, s, _, p2 => (s, p2, kNullRef)
  | fuel + 1, s, p1, p2 =>
    let ws := s.watchers_.getD f []
    if p1 < ws.length then
      let cr := ws.getD p1 0
      let c := s.clause cr
      let f0 := (c.get 0).lhs
      let f1 := (c.get 1).lhs
      if f0 != f && f1 != f then PropagateLoop sort f fuel s (p1 + 1) p2
      else
        let w : Nat :=
          ((if s.falsifies (c.get 1) (-1) then 1 else 0) <<< 1) |||
            (if s.falsifies (c.get 0) (-1) then 1 else 0)
        if w == 0 || s.satisfies (c.get 0) (-1) || s.satisfies (c.get 1) (-1) then
          PropagateLoop sort f fuel (s.setWatcher f p2 cr) (p1 + 1) (p2 + 1)
        else
          let r := PropagateScan s cr f0 f1 (c.size - 2) w
          let s1 := r.1
          let w1 := r.2
          let c1 := s1.clause cr
          let p1' := if (c1.get 0).lhs != f && (c1.get 1).lhs != f then p1 + 1 else p1
          if w1 == 3 then
            let r2 := PropagateFlush f (ws.length - p1') s1 p1' p2
            let s2 := r2.1
            ({ s2 with trail_head_ := s2.trail_.length }, r2.2, cr)
          else if w1 != 0 then
            let b := c1.get (1 - (w1 >>> 1))
            PropagateLoop sort f fuel (Enqueue sort s1 b cr) p1' p2
          else PropagateLoop sort f fuel s1 p1' p2
    else (s, p2, kNullRef)

/-- Embedding of `Propagate(a)`. A watcher is looked at in at most two rounds of the loop (the second one
keeps or drops it), which bounds the number of rounds. -/
def PropagateLit (sort : Nat → Nat) (s : Solver) (a : Literal) : Solver × Int :=
  let f := a.lhs
  let ws := s.watchers_.getD f []
  let r := PropagateLoop sort f (2 * ws.length + 2) s 0 0
  let s1 := r.1
  ({ s1 with watchers_ := s1.watchers_.set f (resize 0 r.2.1 (s1.watchers_.getD f [])) }, r.2.2)

/-- The loop of `Propagate()`. -/
def PropagateAll (sort : Nat → Nat) : Nat → Solver → Int → Solver × Int
  | 0, s, conflict => (s, conflict)
  | fuel + 1, s, conflict =>
    if s.trail_head_ < s.trail_.length && conflict == kNullRef then
      let a := s.trail_.getD s.trail_head_ Literal.null
      let r := PropagateLit sort { s with trail_head_ := s.trail_head_ + 1 } a
      PropagateAll sort fuel r.1 r.2
    else (s, conflict)

/-- A bound on the rounds of `Propagate()`: each round consumes one trail literal, and a trail
literal is added at most once for each function and once for each pair `(f, n)`. -/
def propagateFuel (s : Solver) : Nat :=
  s.trail_.length + s.model_.length + (s.data_.map List.length).sum + 1

/-- Embedding of `Propagate()`. -/
def Propagate (sort : Nat → Nat) (s : Solver) : Solver × Int :=
  PropagateAll sort s.propagateFuel s kNullRef

def NewLevel (s : Solver) : Solver :=
  { s with level_size_ := s.level_size_ ++ [s.trail_.length] }

/-- The body of the loop of `Backtrack` for one trail literal. -/
def BacktrackStep (s : Solver) (a : Literal) : Solver :=
  let p := a.pos
  let f := a.lhs
  let n := a.rhs
  let s1 := s.setModel f 0
  if p then
    let s2 := if !(s1.data f n).model_neq then s1.setData f n (s1.data f n).Reset else s1
    s2.orderInsert f
  else
    let s2 := s1.setData f n (s1.data f n).Reset
    s2.setDomainSize f (s2.domain_size_.getD f 0 + 1)

/-- Embedding of `Backtrack(l)`. -/
def Backtrack (s : Solver) (l : Nat) : Solver :=
  let start := s.level_size_.getD l 0
  let s1 := (s.trail_.drop start).foldl BacktrackStep s
  let trail := resize Literal.null start s1.trail_
  { s1 with
    trail_ := trail
    level_size_ := resize 0 l s1.level_size_
    trail_head_ := trail.length }

/-- The temporaries of `Analyze`. -/
structure AnalyzeState where
  s : Solver
  learnt : List Literal
  depth : Int
  trail_a : Literal
  trail_i : Int

/-- The lambda `see_subsuming`. -/
def see_subsuming (s : Solver) (a : Literal) : Solver :=
  s.setData a.lhs a.rhs { s.data a.lhs a.rhs with seen_subsumed := true }

/-- The lambda `seen_subsumed`. -/
def seen_subsumed (s : Solver) (a : Literal) : Bool :=
  let m := s.model a.lhs
  (s.data a.lhs a.rhs).seen_subsumed || (a.pos && m != 0 && (s.data a.lhs m).seen_subsumed)

/-- The lambda `want_complementary_on_level`. -/
def want_complementary_on_level (s : Solver) (a : Literal) (l : Nat) : Solver :=
  let f := a.lhs
  let n := a.rhs
  let m := s.model f
  if !a.pos then s.setData f n { s.data f n with wanted := true }
  else if (s.data f n).level == l then s.setData f n { s.data f n with wanted := true }
  else s.setData f m { s.data f m with wanted := true }

/-- The lambda `wanted_complementary_on_level`. -/
def wanted_complementary_on_level (s : Solver) (a : Literal) (l : Nat) : Bool :=
  let f := a.lhs
  let n := a.rhs
  let m := s.model f
  if !a.pos then (s.data f n).wanted
  else ((s.data f n).level == l && (s.data f n).wanted) || (m != 0 && (s.data f m).wanted)

/-- The lambda `wanted`. -/
def wanted (s : Solver) (a : Literal) : Bool := (s.data a.lhs a.rhs).wanted

/-- The lambda `handle_conflict`. -/
def handle_conflict (st : AnalyzeState) (a : Literal) : AnalyzeState :=
  if st.trail_a == a then st
  else
    let l := st.s.level_of_complementary a
    if l == kRootLevel || st.s.seen_subsumed a || st.s.wanted_complementary_on_level a l then st
    else if l < st.s.current_level then
      { st with learnt := st.learnt ++ [a], s := ((st.s.see_subsuming a).Bump a.lhs) }
    else if l == st.s.current_level then
      { st with depth := st.depth + 1, s := ((st.s.want_complementary_on_level a l).Bump a.lhs) }
    else st

/-- The loop `while (!wanted(trail_[trail_i--]))`; it returns the final `trail_i`. -/
def AnalyzeSkip (s : Solver) : Nat → Int → Int
  | 0, i => i
  | fuel + 1, i =>
    if !s.wanted (if i < 0 then Literal.null else s.trail_.getD i.toNat Literal.null) then
      AnalyzeSkip s fuel (i - 1)
    else i - 1

/-- The `do … while (depth > 0)` loop of `Analyze`. -/
def AnalyzeLoop (sort : Nat → Nat) : Nat → AnalyzeState → Int → AnalyzeState
  | 0, st, _ => st
  | fuel + 1, st, conflict =>
    let st1 :=
      if conflict == kDomainRef then
        let f := st.trail_a.lhs
        (st.s.names_.getD (sort f) []).foldl
          (fun t n => if n != 0 && (t.s.data f n).occurs then handle_conflict t (Literal.Eq f n)
            else t) st
      else (st.s.clause conflict).lits.foldl handle_conflict st
    let i := AnalyzeSkip st1.s (st1.s.trail_.length + 1) st1.trail_i
    let trail_a := if i + 1 < 0 then Literal.null else st1.s.trail_.getD (i + 1).toNat Literal.null
    let s2 := st1.s.setData trail_a.lhs trail_a.rhs
      { st1.s.data trail_a.lhs trail_a.rhs with wanted := false }
    let depth := st1.depth - 1
    let st2 : AnalyzeState :=
      { s := s2, learnt := st1.learnt, depth := depth, trail_a := trail_a, trail_i := i }
    if depth > 0 then AnalyzeLoop sort fuel st2 (s2.reason_of trail_a) else st2

/-- The search for the literal of `learnt[1..]` with the greatest level in `Analyze`; it returns
`max` and `*btlevel`. -/
def AnalyzeMax (s : Solver) (learnt : List Literal) : Nat → Nat → Nat → Nat × Nat
  | 0, max, bt => (max, bt)
  | n + 1, max, bt =>
    let i := learnt.length - (n + 1)
    let l := s.level_of_complementary (learnt.getD i Literal.null)
    if bt < l then AnalyzeMax s learnt n i l else AnalyzeMax s learnt n max bt

/-- Embedding of `Analyze(conflict, learnt, btlevel)`, called with an empty `learnt`: the solver, the learnt
clause and the level to backtrack to. -/
def Analyze (sort : Nat → Nat) (s : Solver) (conflict : Int) : Solver × List Literal × Nat :=
  let st0 : AnalyzeState :=
    { s := s, learnt := [Literal.null], depth := 0, trail_a := Literal.null,
      trail_i := (s.trail_.length : Int) - 1 }
  let st := AnalyzeLoop sort (s.trail_.length + 1) st0 conflict
  let learnt1 := st.learnt.set 0 st.trail_a.flip
  let s1 := learnt1.foldl
    (fun t a => t.setData a.lhs a.rhs { t.data a.lhs a.rhs with seen_subsumed := false }) st.s
  let learnt2 := Clause.NormalizeGuaranteeInvalid learnt1
  if learnt2.length == 1 then (s1, learnt2, kRootLevel)
  else
    let r := AnalyzeMax s1 learnt2 (learnt2.length - 2) 1
      (s1.level_of_complementary (learnt2.getD 1 Literal.null))
    let learnt3 :=
      (learnt2.set 1 (learnt2.getD r.1 Literal.null)).set r.1 (learnt2.getD 1 Literal.null)
    (s1, learnt3, r.2)

/-- The first loop of `Init`, over the unit literals. The flag tells whether a falsified
literal was met, upon which the source sets `empty_clause_` and returns. -/
def InitUnits (sort : Nat → Nat) : List Literal → Solver → Solver × Bool
  | [], s => (s, false)
  | a :: as, s =>
    if s.falsifies a (-1) then ({ s with empty_clause_ := true }, true)
    else InitUnits sort as (Enqueue sort s a kNullRef)

/-- Embedding of `std::swap(clauses_[i], clauses_[j])`. -/
def swapClauses (s : Solver) (i j : Nat) : Solver :=
  { s with clauses_ :=
      (s.clauses_.set i (s.clauses_.getD j 0)).set j (s.clauses_.getD i 0) }

/-- The second loop of `Init`, over the clauses, with the counters `i` and `n_clauses`. The
flag tells whether a clause became empty, upon which the source sets `empty_clause_` and
returns. The difference `n_clauses - i` drops in every round. -/
def InitClauses (sort : Nat → Nat) : Nat → Solver → Nat → Nat → Solver × Nat × Bool
  | 0, s, _, n_clauses => (s, n_clauses, false)
  | fuel + 1, s, i, n_clauses =>
    if i < n_clauses then
      let cr := s.clauses_.getD i 0
      let c := (s.clause cr).RemoveIf (fun a => s.falsifies a (-1))
      let s1 := { s with clause_factory_ := s.clause_factory_.set cr c }
      if c.unsatisfiable then
        ({ s1 with empty_clause_ := true, clause_factory_ := s1.clause_factory_.Delete cr },
          n_clauses, true)
      else if s1.satisfiesClause c (-1) then
        let s2 := { s1 with clause_factory_ := s1.clause_factory_.Delete cr }
        InitClauses sort fuel (s2.swapClauses i (n_clauses - 1)) i (n_clauses - 1)
      else if c.size == 1 then
        let s2 := Enqueue sort s1 (c.get 0) kNullRef
        let s3 := { s2 with clause_factory_ := s2.clause_factory_.Delete cr }
        InitClauses sort fuel (s3.swapClauses i (n_clauses - 1)) i (n_clauses - 1)
      else InitClauses sort fuel (s1.UpdateWatchers cr c) (i + 1) n_clauses
    else (s, n_clauses, false)

/-- The third loop of `Init`, over the trail, with the counters `i`, `n_units` and `n_clauses`.
The difference `n_units - i` drops in every round. -/
def InitCompact : Nat → Solver → Nat → Nat → Nat → Solver × Nat × Nat
  | 0, s, _, n_units, n_clauses => (s, n_units, n_clauses)
  | fuel + 1, s, i, n_units, n_clauses =>
    if i < n_units then
      let a := s.trail_.getD i Literal.null
      let drop := !a.pos && s.model a.lhs != 0
      let s1 : Solver :=
        if drop then
          let last := s.trail_.getD (n_units - 1) Literal.null
          { s with trail_ := (s.trail_.set i last).set (n_units - 1) a }
        else s
      let n_units1 := if drop then n_units - 1 else n_units
      let i1 := if drop then i else i + 1
      let cr := s1.reason_of a
      if cr != kNullRef && cr != kDomainRef then
        let c := s1.clause cr
        let s2 := s1.RemoveWatchers cr c
        let s3 := { s2 with clause_factory_ := s2.clause_factory_.Delete cr }
        InitCompact fuel (s3.swapClauses cr.toNat (n_clauses - 1)) i1 n_units1 (n_clauses - 1)
      else InitCompact fuel s1 i1 n_units1 n_clauses
    else (s, n_units, n_clauses)

/-- The first part of `Init()`, up to the statement `clauses_.resize(n_clauses)` that precedes
the call of `Propagate()`: the solver, `n_clauses`, and the flag telling whether the source
has returned (with `empty_clause_` set). -/
def InitLoad (sort : Nat → Nat) (s : Solver) : Solver × Nat × Bool :=
  let lits := s.trail_
  let r1 := InitUnits sort lits { s with trail_ := [] }
  if r1.2 then (r1.1, r1.1.clauses_.length, true)
  else
    let r2 := InitClauses sort r1.1.clauses_.length r1.1 1 r1.1.clauses_.length
    if r2.2.2 then (r2.1, r2.2.1, true)
    else
      let t2 := r2.1
      ({ t2 with clauses_ := resize 0 r2.2.1 t2.clauses_ }, r2.2.1, false)

/-- Embedding of `Init()`. The value returned by the call of `Propagate()` is dropped, as in the
source. -/
def Init (sort : Nat → Nat) (s : Solver) : Solver :=
  let r := InitLoad sort s
  if r.2.2 then r.1
  else
    let s3 := (Propagate sort r.1).1
    let r3 := InitCompact s3.trail_.length s3 0 s3.trail_.length r.2.1
    let t3 := r3.1
    { t3 with
      trail_ := resize Literal.null r3.2.1 t3.trail_
      clauses_ := resize 0 r3.2.2 t3.clauses_ }

/-- The loop `while (go)` of `Solve` and what follows it. The callbacks may look at the solver
and carry a state of their own of type `σ`; `none` means that the rounds allowed by the
first argument did not suffice. -/
def SolveLoop {σ : Type} (sort : Nat → Nat)
    (conflict_predicate : σ → Solver → Nat → Int → List Literal → Nat → Bool × σ)
    (decision_predicate : σ → Solver → Nat → Literal → Bool × σ) :
    Nat → Solver → σ → Bool → Option (Int × Solver × σ)
  | 0, _, _, _ => none
  | fuel + 1, s, cb, go =>
    if go then
      let r := Propagate sort s
      let s1 := r.1
      let conflict := r.2
      if conflict != kNullRef then
        if s1.current_level == kRootLevel then some (-1, s1, cb)
        else
          let an := Analyze sort s1 conflict
          let s2 := an.1
          let learnt := an.2.1
          let btlevel := an.2.2
          let cr1 := conflict_predicate cb s2 s2.current_level conflict learnt btlevel
          let s3 := s2.Backtrack btlevel
          if learnt.length == 1 then
            SolveLoop sort conflict_predicate decision_predicate fuel
              (Enqueue sort s3 (learnt.getD 0 Literal.null) kNullRef) cr1.2 (go && cr1.1)
          else
            let nw := s3.clause_factory_.NewNormalized learnt
            let cr := nw.1
            let s4 := { s3 with clause_factory_ := nw.2 }
            let c := s4.clause cr
            let s5 := { s4 with clauses_ := s4.clauses_ ++ [cr] }
            let s6 := s5.UpdateWatchers cr c
            SolveLoop sort conflict_predicate decision_predicate fuel
              (Enqueue sort s6 (c.get 0) cr) cr1.2 (go && cr1.1)
      else
        let f := s1.order_.Top
        if f == 0 then some (1, s1, cb)
        else
          let cn := CandidateName sort s1 f
          let n := cn.1
          if n == 0 then some (-1, cn.2, cb)
          else
            let s3 := cn.2.NewLevel
            let a := Literal.Eq f n
            let s4 := Enqueue sort s3 a kNullRef
            let dr := decision_predicate cb s4 s4.current_level a
            SolveLoop sort conflict_predicate decision_predicate fuel s4 dr.2 (go && dr.1)
    else some (0, s.Backtrack kRootLevel, cb)

/-- Embedding of `Solve(conflict_predicate, decision_predicate)`: the returned value, the solver and the state
of the callbacks. -/
def Solve {σ : Type} (sort : Nat → Nat)
    (conflict_predicate : σ → Solver → Nat → Int → List Literal → Nat → Bool × σ)
    (decision_predicate : σ → Solver → Nat → Literal → Bool × σ)
    (fuel : Nat) (s : Solver) (cb : σ) : Option (Int × Solver × σ) :=
  if s.empty_clause_ then some (-1, s, cb)
  else SolveLoop sort conflict_predicate decision_predicate fuel s cb true

end Solver

namespace Solver

/-- The literal lies within the capacity that `Register` sets up for `model_` and `data_`. -/
def InCapacity (s : Solver) (a : Literal) : Prop :=
  a.lhs < s.model_.length ∧ a.lhs < s.data_.length ∧ a.rhs < (s.data_.getD a.lhs []).length

/-- An assignment `M` of names to functions satisfies `f = n` iff it maps `f` to `n`, and
satisfies `f ≠ n` iff it maps `f` to another name. -/
def holds (M : Nat → Nat) (a : Literal) : Bool :=
  if a.pos then M a.lhs == a.rhs else M a.lhs != a.rhs

/-- The maps indexed by functions have the capacity of `funcs_`, and every row of `data_` has
at least the capacity of the name set of the first sort. -/
def Capacitated (s : Solver) : Prop :=
  s.model_.length = s.funcs_.length ∧ s.data_.length = s.funcs_.length ∧
    ∀ row ∈ s.data_, (s.names_.getD 0 []).length ≤ row.length

/-- The solver `t` has the trail and the capacities of the solver `s`. -/
def SameCapacity (s t : Solver) : Prop :=
  t.trail_ = s.trail_ ∧ t.model_.length = s.model_.length ∧
    t.funcs_.length = s.funcs_.length ∧ t.data_.length = s.data_.length ∧
    (∀ g, (t.data_.getD g []).length = (s.data_.getD g []).length) ∧
    (t.names_.getD 0 []).length = (s.names_.getD 0 []).length

/-- The solver `t` has at least the capacities of the solver `s`. -/
def CapacityLe (s t : Solver) : Prop :=
  s.model_.length ≤ t.model_.length ∧ s.data_.length ≤ t.data_.length ∧
    ∀ g, (s.data_.getD g []).length ≤ (t.data_.getD g []).length

/-- The solvers that are reached from the fresh solver by `AddLiteral` and by `AddClause` with
literal sequences that do not normalise to a single literal. -/
inductive Loaded (sort extra_name : Nat → Nat) : Solver → Prop
  | fresh : Loaded sort extra_name init
  | literal (s : Solver) (a : Literal) :
      Loaded sort extra_name s → Loaded sort extra_name (AddLiteral sort extra_name s a)
  | clause (s : Solver) (as : List Literal) :
      Loaded sort extra_name s → (Clause.Normalize as).size ≠ 1 →
      Loaded sort extra_name (AddClause sort extra_name s as)

instance (s : Solver) (a : Literal) : Decidable (s.InCapacity a) := by
  unfold InCapacity
  infer_instance

/-- A conflict callback that always returns true and counts its invocations. -/
def conflictCount : Nat → Solver → Nat → Int → List Literal → Nat → Bool × Nat :=
  fun k _ _ _ _ _ => (true, k + 1)

/-- A decision callback that always returns true and counts its invocations. -/
def decisionCount : Nat → Solver → Nat → Literal → Bool × Nat :=
  fun k _ _ _ => (true, k + 1)

/-- A single sort, with index `0`. -/
def oneSort : Nat → Nat := fun _ => 0

/-- The extra name `9` for every sort. -/
def extraNine : Nat → Nat := fun _ => 9

/-- A conflict callback that always returns true and keeps no state. -/
def conflictTrue : Unit → Solver → Nat → Int → List Literal → Nat → Bool × Unit :=
  fun _ _ _ _ _ _ => (true, ())

/-- A decision callback that always returns true and keeps no state. -/
def decisionTrue : Unit → Solver → Nat → Literal → Bool × Unit :=
  fun _ _ _ _ => (true, ())

/-- The solver loaded with the unit `h ≠ 1` and the clauses `f = 1 ∨ g = 1`, `h = 1 ∨ f = 2`
and `h = 1 ∨ g = 2`, where `f`, `g`, `h` are the functions `1`, `2`, `3`. -/
def hiddenConflictInput : Solver :=
  let s1 := AddLiteral oneSort extraNine init ⟨false, 3, 1⟩
  let s2 := AddClause oneSort extraNine s1 [⟨true, 1, 1⟩, ⟨true, 2, 1⟩]
  let s3 := AddClause oneSort extraNine s2 [⟨true, 3, 1⟩, ⟨true, 1, 2⟩]
  AddClause oneSort extraNine s3 [⟨true, 3, 1⟩, ⟨true, 2, 2⟩]

/-- The solver loaded with the clause `f ≠ 5 ∨ f ≠ 5`, the clause `f = 1 ∨ g = 1` and the unit
`g ≠ 1`, where `f`, `g` are the functions `1`, `2`. -/
def repeatedLiteralInput : Solver :=
  let s1 := AddClause oneSort extraNine init [⟨false, 1, 5⟩, ⟨false, 1, 5⟩]
  let s2 := AddClause oneSort extraNine s1 [⟨true, 1, 1⟩, ⟨true, 2, 1⟩]
  AddLiteral oneSort extraNine s2 ⟨false, 2, 1⟩

/-- The solver loaded with the units `f = 1` and `f = 2` for the function `f = 1`. -/
def complementaryUnitsInput : Solver :=
  let s1 := AddLiteral oneSort extraNine init ⟨true, 1, 1⟩
  AddLiteral oneSort extraNine s1 ⟨true, 1, 2⟩

end Solver

/-! ## Further definitions for the heap, the solver runs and the driver -/

/-- The comparator `a < b` on indices, a strict weak order. -/
def ltNat : Nat → Nat → Bool := fun a b => decide (a < b)

/-- The heap order: for every position `i ≥ 2` the element at `i` is not less than the element
at its parent `i / 2`. -/
def Heap.Ordered (less : Nat → Nat → Bool) (h : Heap) : Bool :=
  (List.range h.heap_.length).all
    (fun i => decide (i < 2) || !less (h.heap_.getD i 0) (h.heap_.getD (i / 2) 0))

/-- The elements stored in the heap: the entries of `heap_` after the null entry at `0`. -/
def Heap.stored (h : Heap) : List Nat := h.heap_.drop 1

/-- The heap with room for the elements up to `15` into which `1, 10, 2, 11, 12, 5, 4` were
inserted in this order. -/
def heapSeven : Heap := [1, 10, 2, 11, 12, 5, 4].foldl (Heap.Insert ltNat) (Heap.init.Capacitate 15)

namespace Solver

/-- The solver with the clause `f = 1 ∨ f = 2` after `Enqueue(f ≠ 1)`: the function `f` is
unassigned and `data_[f][1].model_neq` is set. -/
def excludedNameInput : Solver :=
  Enqueue oneSort (AddClause oneSort extraNine init [⟨true, 1, 1⟩, ⟨true, 1, 2⟩]) ⟨false, 1, 1⟩
    kNullRef

/-- The solver loaded with the unit `f ≠ 1` and the clause `g = 1 ∨ h = 1`, where `f`, `g`, `h`
are the functions `1`, `2`, `3`. -/
def staleHeadInput : Solver :=
  AddClause oneSort extraNine (AddLiteral oneSort extraNine init ⟨false, 1, 1⟩)
    [⟨true, 2, 1⟩, ⟨true, 3, 1⟩]

/-- A decision callback that always returns true and records `trail_head_`, the length of the
trail at the start of the newest level, and the literal decided. -/
def decisionRecord : List (Nat × Nat × Literal) → Solver → Nat → Literal →
    Bool × List (Nat × Nat × Literal) :=
  fun k s _ a => (true, k ++ [(s.trail_head_, s.level_size_.getLastD 0, a)])

/-- A conflict callback that always returns true and leaves the record as it is. -/
def conflictKeep : List (Nat × Nat × Literal) → Solver → Nat → Int → List Literal → Nat →
    Bool × List (Nat × Nat × Literal) :=
  fun k _ _ _ _ _ => (true, k)

/-- The state in which the first round of the loop of `Solve` ends when `Propagate` finds no
conflict: the top function of `order_` is decided at a new level. -/
def firstDecision (sort : Nat → Nat) (s : Solver) : Solver :=
  let s1 := (Propagate sort s).1
  let f := s1.order_.Top
  let cn := CandidateName sort s1 f
  Enqueue sort cn.2.NewLevel (Literal.Eq f cn.1) kNullRef

/-- A decision callback that always returns true and records the trail and the model. -/
def decisionTrail : List (List Literal × List Nat) → Solver → Nat → Literal →
    Bool × List (List Literal × List Nat) :=
  fun k s _ _ => (true, k ++ [(s.trail_, s.model_)])

/-- A conflict callback that always returns true and leaves the recorded trails as they are. -/
def conflictTrail : List (List Literal × List Nat) → Solver → Nat → Int → List Literal → Nat →
    Bool × List (List Literal × List Nat) :=
  fun k _ _ _ _ _ => (true, k)

/-- The solver loaded with the clause `f = 1 ∨ g = 2` and the unit `f ≠ 1`, where `f`, `g` are
the functions `1`, `2` and `9` is the extra name. -/
def domainScenarioInput : Solver :=
  AddLiteral oneSort extraNine (AddClause oneSort extraNine init [⟨true, 1, 1⟩, ⟨true, 2, 2⟩])
    ⟨false, 1, 1⟩

/-- The state in which `Init` calls `Enqueue` for the first literal of the solver loaded with
`f ≠ 5 ∨ f ≠ 5`, `f = 1 ∨ g = 1` and `g ≠ 1`: the literals of the trail were moved to `lits`. -/
def firstUnitState : Solver := { repeatedLiteralInput with trail_ := [] }

/-- The solver loaded with the unit `h = 1` and the clauses `f = 1 ∨ g = 2`, `h = 2 ∨ f = 2`,
`h = 2 ∨ g ≠ 2` and `g = 1 ∨ f = 2`, where `f`, `g`, `h` are the functions `1`, `2`, `3`: the
units `f = 2` and `g ≠ 2` that `Init` derives falsify the first clause at root level. -/
def rootConflictInput : Solver :=
  let s1 := AddLiteral oneSort extraNine init ⟨true, 3, 1⟩
  let s2 := AddClause oneSort extraNine s1 [⟨true, 1, 1⟩, ⟨true, 2, 2⟩]
  let s3 := AddClause oneSort extraNine s2 [⟨true, 3, 2⟩, ⟨true, 1, 2⟩]
  let s4 := AddClause oneSort extraNine s3 [⟨true, 3, 2⟩, ⟨false, 2, 2⟩]
  AddClause oneSort extraNine s4 [⟨true, 2, 1⟩, ⟨true, 1, 2⟩]

/-- The solver loaded with the clauses `f = 1 ∨ g = 1` and `f = 1 ∨ g = 2` and the unit `h = 1`,
where `f`, `g`, `h` are the functions `1`, `2`, `3`. -/
def unitLearntInput : Solver :=
  let s1 := AddClause oneSort extraNine init [⟨true, 1, 1⟩, ⟨true, 2, 1⟩]
  let s2 := AddClause oneSort extraNine s1 [⟨true, 1, 1⟩, ⟨true, 2, 2⟩]
  AddLiteral oneSort extraNine s2 ⟨true, 3, 1⟩

end Solver
/-- The name is still possible for the function: `occurs` and not `model_neq`. -/
def Data.free (d : Data) : Bool := d.occurs && !d.model_neq

namespace Solver

/-- The number of names `n` of a row of `data_` with `occurs` and not `model_neq`. -/
def freeCount (row : List Data) : Int := ((row.filter Data.free).length : Int)

/-- The part of the trail above the root level, which `Backtrack` may pop. -/
def openTrail (s : Solver) : List Literal :=
  s.trail_.drop (s.level_size_.getD 1 s.trail_.length)

/-- What `Init` needs of the solver it is called on, and what `AddLiteral` and `AddClause`
leave: no clause is watched yet, and the entries of `clauses_` behind the null reference are
pairwise distinct clauses of the factory that are not marked valid. -/
def InitReady (s : Solver) : Prop :=
  (∀ ws ∈ s.watchers_, ws = []) ∧
  (∀ k, k < s.clauses_.length → ∀ j, j < k → 1 ≤ j →
    (s.clauses_.getD j 0).toNat ≠ (s.clauses_.getD k 0).toNat) ∧
  (∀ j, j < s.clauses_.length → 1 ≤ j → (s.clause (s.clauses_.getD j 0)).valid = false)

instance (s : Solver) : Decidable (InitReady s) := by
  unfold InitReady
  infer_instance

/-- The states reached from the fresh solver by `Register` with non-null terms, `AddLiteral` at the
root level, `AddClause` with non-null terms and a literal sequence that does not normalise to a
single literal, `Enqueue` of a literal that is not falsified and, when negative, is registered,
`NewLevel`, `Backtrack` to a level below the current one, and `Init` at the root level of a
solver that is `InitReady`. -/
inductive Reach (sort : Nat → Nat) : Solver → Prop
  | fresh : Reach sort init
  | register (s : Solver) (srt f n extra_n : Nat) :
      Reach sort s → f ≠ 0 → n ≠ 0 → extra_n ≠ 0 → Reach sort (s.Register srt f n extra_n)
  | literal (s : Solver) (extra_name : Nat → Nat) (a : Literal) :
      Reach sort s → s.current_level = kRootLevel → a.lhs ≠ 0 → a.rhs ≠ 0 →
      extra_name (sort a.lhs) ≠ 0 → Reach sort (AddLiteral sort extra_name s a)
  | clause (s : Solver) (extra_name : Nat → Nat) (as : List Literal) :
      Reach sort s → (Clause.Normalize as).size ≠ 1 → 2 ≤ as.length →
      (∀ a ∈ as, a.lhs ≠ 0 ∧ a.rhs ≠ 0 ∧ extra_name (sort a.lhs) ≠ 0) →
      Reach sort (AddClause sort extra_name s as)
  | enqueue (s : Solver) (a : Literal) (reason : Int) :
      Reach sort s → s.falsifies a (-1) = false →
      (a.pos = false → (s.data a.lhs a.rhs).occurs = true) →
      Reach sort (Enqueue sort s a reason)
  | level (s : Solver) : Reach sort s → Reach sort s.NewLevel
  | backtrack (s : Solver) (l : Nat) :
      Reach sort s → 1 ≤ l → l < s.current_level → Reach sort (s.Backtrack l)
  | init (s : Solver) :
      Reach sort s → s.current_level = kRootLevel → InitReady s → Reach sort (Init sort s)

/-- The part of the invariant that speaks of `data_` and `domain_size_` only. -/
structure DataInv (s : Solver) : Prop where
  capd : s.Capacitated
  cap : s.domain_size_.length = s.data_.length
  count : ∀ f, s.domain_size_.getD f 0 = freeCount (s.data_.getD f [])
  occ : ∀ f n, (s.data f n).model_neq = true → (s.data f n).occurs = true
  nonnull : ∀ f n, (s.data f n).occurs = true → f ≠ 0 ∧ n ≠ 0

/-- The invariant of the reachable states: the count of `domain_size_`, the negative literals of the
open trail are pairwise distinct and excluded in `data_`, the negative literals of the trail
are registered, and the level marks ascend from zero and lie within the trail. -/
structure DomInv (s : Solver) : Prop where
  dat : DataInv s
  negp : ∀ a ∈ s.openTrail, a.pos = false → (s.data a.lhs a.rhs).model_neq = true
  nodupp : (s.openTrail.filter (fun a => !a.pos)).Nodup
  trocc : ∀ a ∈ s.trail_, a.pos = false → (s.data a.lhs a.rhs).occurs = true
  levels : ∀ i j, i ≤ j → j < s.level_size_.length →
    s.level_size_.getD i 0 ≤ s.level_size_.getD j 0
  bound : ∀ i, i < s.level_size_.length → s.level_size_.getD i 0 ≤ s.trail_.length
  root : s.level_size_.head? = some 0

/-- The invariant of the clauses: the pairs of the literals of the clauses of the factory are
registered, and a watched clause has at least two literals. -/
structure ClauseInv (s : Solver) : Prop where
  pool : ∀ c ∈ s.clause_factory_.pool, ∀ a ∈ c.lits, (s.data a.lhs a.rhs).occurs = true
  watch : ∀ f, ∀ cr ∈ s.watchers_.getD f [], 2 ≤ (s.clause cr).size

/-- The solver `t` holds the entries of `s` in `data_` and `domain_size_`, possibly with more
capacity, and has its trail, level marks, watchers, clause list and clause factory. -/
structure Ext (s t : Solver) : Prop where
  data : ∀ f n, t.data f n = s.data f n
  count : ∀ f, freeCount (t.data_.getD f []) = freeCount (s.data_.getD f [])
  size : ∀ f, t.domain_size_.getD f 0 = s.domain_size_.getD f 0
  cap : s.domain_size_.length = s.data_.length → t.domain_size_.length = t.data_.length
  trail : t.trail_ = s.trail_
  level : t.level_size_ = s.level_size_
  watch : ∀ f, t.watchers_.getD f [] = s.watchers_.getD f []
  clauses : t.clauses_ = s.clauses_
  factory : t.clause_factory_ = s.clause_factory_

/-- The solver `t` has the exclusions, trail, level marks, watchers and clauses of `s`, and
registers at least the pairs of `s`. -/
structure Grow (s t : Solver) : Prop where
  neq : ∀ f n, (t.data f n).model_neq = (s.data f n).model_neq
  occurs : ∀ f n, (s.data f n).occurs = true → (t.data f n).occurs = true
  trail : t.trail_ = s.trail_
  level : t.level_size_ = s.level_size_
  watch : ∀ f, t.watchers_.getD f [] = s.watchers_.getD f []
  clauses : t.clauses_ = s.clauses_

/-- The solver `t` has the data and the clauses of the factory of `s`, a rearrangement of a
part of its trail, and watches only clauses that `s` watches. -/
structure Compacted (s t : Solver) : Prop where
  data : t.data_ = s.data_
  size : t.domain_size_ = s.domain_size_
  model : t.model_ = s.model_
  funcs : t.funcs_ = s.funcs_
  names : t.names_ = s.names_
  level : t.level_size_ = s.level_size_
  watch : ∀ f, ∀ cr ∈ t.watchers_.getD f [], ∃ g, cr ∈ s.watchers_.getD g []
  pool : t.clause_factory_.pool = s.clause_factory_.pool
  mem : ∀ a ∈ t.trail_, a ∈ s.trail_
  len : t.trail_.length = s.trail_.length

/-- One step of `Propagate`: the position in the trail moves; the watcher lists are rearranged
among the watched clauses; two literals of a watched clause change places; or a literal of a
watched clause that is not falsified, all other literals of the clause being falsified, is
enqueued with the clause as its reason. -/
inductive PStep (sort : Nat → Nat) : Solver → Solver → Prop
  | head (s : Solver) (h : Nat) : PStep sort s { s with trail_head_ := h }
  | watch (s : Solver) (w : List (List Int)) :
      (∀ f, ∀ cr ∈ w.getD f [], ∃ g, cr ∈ s.watchers_.getD g []) →
      PStep sort s { s with watchers_ := w }
  | swap (s : Solver) (cr : Int) (i j : Nat) :
      (∃ g, cr ∈ s.watchers_.getD g []) → i < (s.clause cr).size → j < (s.clause cr).size →
      PStep sort s { s with clause_factory_ := s.clause_factory_.set cr ((s.clause cr).swap i j) }
  | enqueue (s : Solver) (cr : Int) (b : Literal) :
      (∃ g, cr ∈ s.watchers_.getD g []) → b ∈ (s.clause cr).lits →
      s.falsifies b (-1) = false →
      (∀ a ∈ (s.clause cr).lits, a = b ∨ s.falsifies a (-1) = true) →
      PStep sort s (Enqueue sort s b cr)

/-- The bits of `w` in `Propagate(a)` tell which of the two watched literals of the clause are
falsified: bit `0` stands for slot `0` and bit `1` for slot `1`. -/
def WatchBits (s : Solver) (c : Clause) (w : Nat) : Prop :=
  w < 4 ∧ s.falsifies (c.get 0) (-1) = decide (w % 2 = 1) ∧
    s.falsifies (c.get 1) (-1) = decide (2 ≤ w)

/-- What `Propagate` leaves as it is while it deals with the clause `cr`, whose watched
literals have the functions `f0` and `f1`: the assignments, the watchers of the two functions,
the clause being watched, and the number of its literals. -/
structure ScanFrame (s t : Solver) (cr : Int) (f0 f1 : Nat) : Prop where
  data : t.data_ = s.data_
  model : t.model_ = s.model_
  watch0 : t.watchers_.getD f0 [] = s.watchers_.getD f0 []
  watch1 : t.watchers_.getD f1 [] = s.watchers_.getD f1 []
  watched : (∃ g, cr ∈ s.watchers_.getD g []) → ∃ g, cr ∈ t.watchers_.getD g []
  size : (t.clause cr).size = (s.clause cr).size

/-- The solver loaded with the clauses `g = 2 ∨ f = 3`, `g = 3 ∨ f ≠ 3` and
`g = 3 ∨ h = 1 ∨ f = 2` and the unit `g ≠ 3`, where `f`, `g`, `h` are the functions `1`, `2`,
`3`. -/
def compactedInput : Solver :=
  let s1 := AddClause oneSort extraNine init [⟨true, 2, 2⟩, ⟨true, 1, 3⟩]
  let s2 := AddClause oneSort extraNine s1 [⟨true, 2, 3⟩, ⟨false, 1, 3⟩]
  let s3 := AddClause oneSort extraNine s2 [⟨true, 2, 3⟩, ⟨true, 3, 1⟩, ⟨true, 1, 2⟩]
  AddLiteral oneSort extraNine s3 ⟨false, 2, 3⟩

/-- The solver `Init(compactedInput)` at a new level with `f ≠ 2` enqueued, which leaves `9` as
the only name of `f` and propagates `f = 9`. -/
def compactedScenario : Solver :=
  Enqueue oneSort (Init oneSort compactedInput).NewLevel ⟨false, 1, 2⟩ kNullRef

/-- The solver with the function `f = 1` registered for the name `1` and the extra name `9`. -/
def twoNamesInput : Solver := init.Register 0 1 1 9

end Solver
namespace Solver

/-- Embedding of the check that `Analyze` asserts on entry and on return: no entry of `data_` has
`seen_subsumed` or `wanted` set. -/
def flagsClear (s : Solver) : Bool :=
  s.data_.all (fun row => row.all (fun d => !d.seen_subsumed && !d.wanted))

/-- The number of entries of `data_` with `wanted` set. -/
def wantedCount (s : Solver) : Nat :=
  (s.data_.map (fun row => (row.filter (fun d => d.wanted)).length)).sum

/-- The temporaries of `Analyze` when it enters its loop. -/
def AnalyzeStart (s : Solver) : AnalyzeState :=
  { s := s, learnt := [Literal.null], depth := 0, trail_a := Literal.null,
    trail_i := (s.trail_.length : Int) - 1 }

/-- The first part of a round of the loop of `Analyze`: `handle_conflict` for the literals of the
conflict clause, or of the domain of the function of `trail_a`. -/
def AnalyzePass (sort : Nat → Nat) (st : AnalyzeState) (conflict : Int) : AnalyzeState :=
  if conflict == kDomainRef then
    let f := st.trail_a.lhs
    (st.s.names_.getD (sort f) []).foldl
      (fun t n => if n != 0 && (t.s.data f n).occurs then handle_conflict t (Literal.Eq f n)
        else t) st
  else (st.s.clause conflict).lits.foldl handle_conflict st

/-- Whether the loop `while (!wanted(trail_[trail_i--]))` of a round of `Analyze` stops at a
literal of the trail, as its `assert(trail_i >= 0)` demands; otherwise the source reads
before the start of the trail. -/
def AnalyzeFound (sort : Nat → Nat) (st : AnalyzeState) (conflict : Int) : Bool :=
  let st1 := AnalyzePass sort st conflict
  let i := AnalyzeSkip st1.s (st1.s.trail_.length + 1) st1.trail_i
  decide (0 ≤ i + 1) && st1.s.wanted (st1.s.trail_.getD (i + 1).toNat Literal.null)

/-- One round of the loop of `Analyze`, as in `AnalyzeLoop`. -/
def AnalyzeRound (sort : Nat → Nat) (st : AnalyzeState) (conflict : Int) : AnalyzeState :=
  let st1 := AnalyzePass sort st conflict
  let i := AnalyzeSkip st1.s (st1.s.trail_.length + 1) st1.trail_i
  let trail_a := if i + 1 < 0 then Literal.null else st1.s.trail_.getD (i + 1).toNat Literal.null
  let s2 := st1.s.setData trail_a.lhs trail_a.rhs
    { st1.s.data trail_a.lhs trail_a.rhs with wanted := false }
  { s := s2, learnt := st1.learnt, depth := st1.depth - 1, trail_a := trail_a, trail_i := i }

/-- Whether the loop of `Analyze` runs to its end within the given number of rounds with every
backward scan stopping at a literal of the trail. -/
def AnalyzeDefined (sort : Nat → Nat) : Nat → AnalyzeState → Int → Bool
  | 0, _, _ => false
  | fuel + 1, st, conflict =>
    AnalyzeFound sort st conflict &&
      (if (AnalyzeRound sort st conflict).depth > 0 then
        AnalyzeDefined sort fuel (AnalyzeRound sort st conflict)
          ((AnalyzeRound sort st conflict).s.reason_of (AnalyzeRound sort st conflict).trail_a)
      else true)

/-- The state in which `Solve` calls `Analyze` for the first time for the clauses `f = 1 ∨ g = 1`
and `f = 1 ∨ g = 2` and the unit `h = 1`: after `Init` and the first decision, `Propagate`
returns a conflict. -/
def firstConflict : Solver × Int :=
  Propagate oneSort (firstDecision oneSort (Init oneSort unitLearntInput))

/-- The invariant of the loop of `Analyze`: the pairs with `seen_subsumed` set are pairs of literals of
`learnt` behind slot `0`, and at most `depth` entries of `data_` have `wanted` set. -/
structure AnaInv (st : AnalyzeState) : Prop where
  nonempty : st.learnt ≠ []
  seen : ∀ g k, (st.s.data g k).seen_subsumed = true →
    ∃ a ∈ st.learnt.tail, a.lhs = g ∧ a.rhs = k
  wanted : (st.s.wantedCount : Int) ≤ st.depth

end Solver
/-- The maps `heap_` and `index_` of the heap agree: slot `0` of `heap_` exists, every element at a
position `i ≥ 1` has the index `i`, and every element with a non-null index is at that
position. -/
def Heap.Ok (h : Heap) : Prop :=
  1 ≤ h.heap_.length ∧
  (∀ i, i < h.heap_.length → 1 ≤ i → h.index_.getD (h.heap_.getD i 0) 0 = i) ∧
  (∀ x, x < h.index_.length → h.index_.getD x 0 ≠ 0 →
    h.index_.getD x 0 < h.heap_.length ∧ h.heap_.getD (h.index_.getD x 0) 0 = x)

instance (h : Heap) : Decidable h.Ok := by
  unfold Heap.Ok
  infer_instance

/-- The state of the heap inside `SiftUp` and `SiftDown`: the element `x` is held aside and the
position `j` is free for it; all other positions and elements agree. -/
def Heap.Hole (h : Heap) (j x : Nat) : Prop :=
  1 ≤ j ∧ j < h.heap_.length ∧ x < h.index_.length ∧
  (∀ k, k < h.heap_.length → 1 ≤ k → k ≠ j →
    h.heap_.getD k 0 ≠ x ∧ h.index_.getD (h.heap_.getD k 0) 0 = k) ∧
  (∀ y, y ≠ x → h.index_.getD y 0 ≠ 0 →
    h.index_.getD y 0 < h.heap_.length ∧ h.index_.getD y 0 ≠ j ∧
      h.heap_.getD (h.index_.getD y 0) 0 = y)
namespace Solver

/-- The number of negative literals of the function `g` in a segment of the trail. -/
def negCount (seg : List Literal) (g : Nat) : Nat :=
  (seg.filter (fun b => !b.pos && b.lhs == g)).length

/-- The literal can be assigned afresh above the solver `S`: its name is not null, its pair is in
the reset state in `S`, and, if it is positive, its function is in the order heap of `S` and
within the capacity of `model_`. -/
def Fresh (S : Solver) (b : Literal) : Prop :=
  b.rhs ≠ 0 ∧ (S.data b.lhs b.rhs).Reset = S.data b.lhs b.rhs ∧
    (b.pos = true → S.order_.index_.getD b.lhs 0 ≠ 0 ∧ b.lhs < S.model_.length)

instance (S : Solver) (b : Literal) : Decidable (Fresh S b) := by
  unfold Fresh
  infer_instance

/-- The states reached from the solver `S` by `NewLevel` and then by calls of `Enqueue` for literals
that are not falsified. -/
inductive Above (sort : Nat → Nat) (S : Solver) : Solver → Prop
  | level : Above sort S S.NewLevel
  | enqueue (T : Solver) (a : Literal) (reason : Int) :
      Above sort S T → T.falsifies a (-1) = false → Above sort S (Enqueue sort T a reason)

/-- The relation between the solver `S` and a solver `T` above it whose trail is longer by the
segment `seg`. -/
structure Fwd (S T : Solver) (seg : List Literal) : Prop where
  trail : T.trail_ = S.trail_ ++ seg
  level : T.level_size_ = S.level_size_ ++ [S.trail_.length]
  model_len : T.model_.length = S.model_.length
  model : ∀ g, seg.any (fun b => b.lhs == g) = false → T.model g = S.model g
  unassigned : ∀ b ∈ seg, S.model b.lhs = 0
  data : ∀ g k, seg.any (fun b => b.lhs == g && b.rhs == k) = false → T.data g k = S.data g k
  reset : ∀ g k, (T.data g k).Reset = (S.data g k).Reset
  size_len : T.domain_size_.length = S.domain_size_.length
  size : ∀ g, g < S.domain_size_.length →
    T.domain_size_.getD g 0 + negCount seg g = S.domain_size_.getD g 0
  heap : T.order_.Ok
  index_len : T.order_.index_.length = S.order_.index_.length
  contains : ∀ g, T.order_.index_.getD g 0 ≠ 0 ↔
    (S.order_.index_.getD g 0 ≠ 0 ∧ seg.any (fun b => b.pos && b.lhs == g) = false)
  posdistinct : ((seg.filter (fun b => b.pos)).map (fun b => b.lhs)).Nodup
  assigned : ∀ b ∈ seg, b.pos = true → T.model b.lhs ≠ 0
  posneq : ∀ b ∈ seg, b.pos = true → (T.data b.lhs b.rhs).model_neq = false

/-- The solver after `Init` for the clauses `f = 1 ∨ g = 1` and `f = 1 ∨ g = 2` and the unit
`h = 1`: it is at the root level with `h` assigned and `f` and `g` in the order heap. -/
def undoBase : Solver := Init oneSort unitLearntInput

/-- The solver `undoBase` after `NewLevel`, `Enqueue(f ≠ 1)`, which leaves `f` the extra name only
and propagates `f = 9`, and `Enqueue(g = 2)`. -/
def undoAbove : Solver :=
  Enqueue oneSort (Enqueue oneSort undoBase.NewLevel ⟨false, 1, 1⟩ kNullRef) ⟨true, 2, 2⟩
    kNullRef

end Solver

/-! ## The ECLiPSe-CLP interface of `eclipse-clp/ec_interface.cc` -/

namespace esbl

/-- The Prolog terms handed over by ECLiPSe (`EC_word`): atoms, integers, compound terms with
a functor name and arguments, and other terms such as unbound Prolog variables. -/
inductive ECWord where
  | atom (name : String)
  | long (v : Int)
  | functor (name : String) (args : List ECWord)
  | other (id : Nat)
deriving Repr

mutual
/-- Equality of Prolog terms, as decided by `EC_word_comparator` in the lookups of `std::map`. -/
def ECWord.beq : ECWord → ECWord → Bool
  | .atom a, .atom b => a == b
  | .long a, .long b => a == b
  | .functor f as, .functor g bs => f == g && ECWord.beqList as bs
  | .other a, .other b => a == b
  | _, _ => false
/-- Equality of argument lists of Prolog terms. -/
def ECWord.beqList : List ECWord → List ECWord → Bool
  | [], [] => true
  | a :: as, b :: bs => ECWord.beq a b && ECWord.beqList as bs
  | _, _ => false
end

/-- The terms of `term.cc`: a type (`1` for `VAR`, `2` for `NAME`), an id and a sort. -/
structure Term where
  type_ : Nat
  id_ : Int
  sort_ : Int
deriving DecidableEq, Repr

/-- Modelled from the spec: the formulas of formula.h, which is not among the sources, as far as
`Build` makes them: through `Formula::Lit`, `Neg`, `Or`, `And`, `Exists`, `Forall` and `Act`. -/
inductive Formula where
  | Lit (sign : Bool) (pred : Int) (args : List Term)
  | Neg (a : Formula)
  | Or (a b : Formula)
  | And (a b : Formula)
  | Exists (x : Term) (a : Formula)
  | Forall (x : Term) (a : Formula)
  | Act (t : Term) (a : Formula)
deriving DecidableEq, Repr

/-- Modelled from the spec: `Formula::Copy()` of formula.h returns a copy of the formula. -/
def Formula.Copy (a : Formula) : Formula := a

/-- The state of `FormulaBuilder` with its three builders and what they use of the BAT: the
lookups `StringToPred`, `StringToName`, `StringToSort` and the counter of the term factory. -/
structure FormulaBuilder where
  StringToPred : String → Option Int
  StringToName : String → Option Term
  StringToSort : String → Option Int
  var_id_ : Int
  preds_ : List (ECWord × Int)
  names_ : List (String × Term)
  vars_ : List (ECWord × List Term)

/-- Lookup in a `std::map` keyed by Prolog terms. -/
def find {α : Type} (m : List (ECWord × α)) (w : ECWord) : Option α :=
  (m.find? (fun e => ECWord.beq e.1 w)).map (fun e => e.2)

/-- Assignment `m[w] = v` in a `std::map` keyed by Prolog terms. -/
def assign {α : Type} (m : List (ECWord × α)) (w : ECWord) (v : α) : List (ECWord × α) :=
  if (m.find? (fun e => ECWord.beq e.1 w)).isSome then
    m.map (fun e => if ECWord.beq e.1 w then (e.1, v) else e)
  else m ++ [(w, v)]

namespace FormulaBuilder

/-- Embedding of `PredBuilder::Get(w)`. -/
def predGet (b : FormulaBuilder) (w : ECWord) : Option Int :=
  match find b.preds_ w with
  | some p => some p
  | none =>
    match w with
    | .atom s => b.StringToPred s
    | .functor s _ => b.StringToPred s
    | _ => none

/-- Embedding of `TermBuilder::GetName(a)` for the atom with the name `s`. -/
def GetName (b : FormulaBuilder) (s : String) : Option Term :=
  match (b.names_.find? (fun e => e.1 == s)).map (fun e => e.2) with
  | some n => some n
  | none => b.StringToName s

/-- Embedding of `TermBuilder::GetVar(w)`. -/
def GetVar (b : FormulaBuilder) (w : ECWord) : Option Term :=
  match find b.vars_ w with
  | some (x :: _) => some x
  | _ => none

/-- Embedding of `TermBuilder::PushVar(w, sort)`: the new variable and the builder. -/
def PushVar (b : FormulaBuilder) (w : ECWord) (sort : Int) : Term × FormulaBuilder :=
  let x : Term := ⟨1, b.var_id_, sort⟩
  (x, { b with var_id_ := b.var_id_ + 1, vars_ := assign b.vars_ w (x :: (find b.vars_ w).getD []) })

/-- Embedding of `TermBuilder::PopVar(w)`. -/
def PopVar (b : FormulaBuilder) (w : ECWord) : FormulaBuilder :=
  match find b.vars_ w with
  | some (_ :: xs) => { b with vars_ := assign b.vars_ w xs }
  | _ => b

/-- Embedding of `TermBuilder::Get(t)`. -/
def termGet (b : FormulaBuilder) (t : ECWord) : Option Term :=
  match t with
  | .atom s =>
    match b.GetName s with
    | some n => some n
    | none => b.GetVar t
  | _ => b.GetVar t

/-- Embedding of `SortBuilder::Get(w)`. -/
def sortGet (b : FormulaBuilder) (w : ECWord) : Option Int :=
  match w with
  | .atom s =>
    match b.StringToSort s with
    | some p => some p
    | none => (b.GetName s).map (fun n => n.sort_)
  | .long l => some l
  | _ => none

/-- The loop over the arguments of a predicate in `Build`. -/
def termArgs (b : FormulaBuilder) : List ECWord → Option (List Term)
  | [] => some []
  | t :: ts =>
    match b.termGet t with
    | none => none
    | some x => (termArgs b ts).map (fun xs => x :: xs)

/-- The branch of `Build` for a compound term that is none of the connectives. -/
def buildPred (b : FormulaBuilder) (w : ECWord) (args : List ECWord) : Option Formula :=
  match b.predGet w with
  | none => none
  | some p => (b.termArgs args).map (fun xs => Formula.Lit true p xs)

/-- Embedding of `FormulaBuilder::Build(ec_alpha)`: the formula, if any, and the builder, whose
variable bindings and variable counter the call may have changed. -/
def Build (b : FormulaBuilder) : ECWord → Option Formula × FormulaBuilder
  | .functor name [a1] =>
    if name == "~" then
      let r := Build b a1
      (r.1.map Formula.Neg, r.2)
    else (b.buildPred (.functor name [a1]) [a1], b)
  | .functor name [a1, a2] =>
    if name == "v" then
      let r1 := Build b a1
      match r1.1 with
      | none => (none, r1.2)
      | some beta1 =>
        let r2 := Build r1.2 a2
        (r2.1.map (fun beta2 => Formula.Or beta1 beta2), r2.2)
    else if name == "^" then
      let r1 := Build b a1
      match r1.1 with
      | none => (none, r1.2)
      | some beta1 =>
        let r2 := Build r1.2 a2
        (r2.1.map (fun beta2 => Formula.And beta1 beta2), r2.2)
    else if name == "->" then
      let r1 := Build b a1
      match r1.1 with
      | none => (none, r1.2)
      | some beta1 =>
        let r2 := Build r1.2 a2
        (r2.1.map (fun beta2 => Formula.Or (Formula.Neg beta1) beta2), r2.2)
    else if name == "<->" then
      let r1 := Build b a1
      match r1.1 with
      | none => (none, r1.2)
      | some beta1a =>
        let r2 := Build r1.2 a2
        (r2.1.map (fun beta2a =>
          let beta1b := beta1a.Copy
          let beta2b := beta1a.Copy
          Formula.And (Formula.Or (Formula.Neg beta1a) beta2a)
            (Formula.Or beta1b (Formula.Neg beta2b))), r2.2)
    else if name == ":" then
      match b.termGet a1 with
      | none => (none, b)
      | some term =>
        let r := Build b a2
        (r.1.map (fun beta => Formula.Act term beta), r.2)
    else (b.buildPred (.functor name [a1, a2]) [a1, a2], b)
  | .functor name [a1, a2, a3] =>
    if name == "exists" || name == "forall" then
      match b.sortGet a2 with
      | none => (none, b)
      | some sort =>
        let pv := b.PushVar a1 sort
        let r := Build pv.2 a3
        match r.1 with
        | none => (none, r.2)
        | some beta =>
          (some (if name == "exists" then Formula.Exists pv.1 beta else Formula.Forall pv.1 beta),
            r.2.PopVar a1)
    else (b.buildPred (.functor name [a1, a2, a3]) [a1, a2, a3], b)
  | .functor name args => (b.buildPred (.functor name args) args, b)
  | .atom s => ((b.predGet (.atom s)).map (fun p => Formula.Lit true p []), b)
  | _ => (none, b)

end FormulaBuilder

/-- Modelled from the spec: the truth value of a formula without quantifiers and actions under
an assignment of truth values to the ground atoms, with the classical reading of negation,
disjunction and conjunction; the other formulas are not evaluated here and count as false. -/
def Formula.holds (w : Int → List Term → Bool) : Formula → Bool
  | .Lit sign p args => sign == w p args
  | .Neg a => !a.holds w
  | .Or a b => a.holds w || b.holds w
  | .And a b => a.holds w && b.holds w
  | _ => false

/-- Embedding of `Context`: `regression_enabled_` is the member read by `UseRegression()`. -/
structure Context where
  bat : String
  formula_builder_ : FormulaBuilder
  regression_enabled_ : Bool

namespace Context

/-- Embedding of the constructor `Context(bat)` as called through `new Context(...)`: it
initialises `bat_` and `formula_builder_` and leaves `regression_enabled_` as it is in the
allocated storage, whose content is the last argument. -/
def mk_ (bat : String) (fb : FormulaBuilder) (storage : Bool) : Context :=
  { bat := bat, formula_builder_ := fb, regression_enabled_ := storage }

/-- Embedding of `Context::CreateInstance(ec_key, ec_bat, ec_k)` for a BAT name that is an atom:
the new context, or `none` for an unknown BAT. The builder of the BAT and the content of the
allocated storage are passed in. -/
def CreateInstance (ec_bat : String) (fb : FormulaBuilder) (storage : Bool) : Option Context :=
  let s := ec_bat.toUpper
  if s == "KR2014" || s == "ECAI2014" || s == "KITCHEN" then some (mk_ s fb storage) else none

/-- Embedding of `UseRegression()`. -/
def UseRegression (c : Context) : Bool := c.regression_enabled_

/-- Embedding of `UseRegression(enable)`. -/
def setUseRegression (c : Context) (enable : Bool) : Context :=
  { c with regression_enabled_ := enable }

end Context

/-- A builder for a BAT that knows the predicates `p` and `q` and nothing else. -/
def twoPreds : FormulaBuilder :=
  { StringToPred := fun s => if s == "p" then some 1 else if s == "q" then some 2 else none
    StringToName := fun _ => none
    StringToSort := fun _ => none
    var_id_ := 0
    preds_ := []
    names_ := []
    vars_ := [] }

/-- The assignment that makes `q` true and every other atom false. -/
def onlyQ : Int → List Term → Bool := fun p _ => p == 2

end esbl

/-! ## The limited satisfiability driver of `limbo/limsat.h` -/

/-- Modelled from the spec: the SAT core `Sat` of limbo/sat.h, which is not among the sources,
as far as `LimSat` talks to it outside `Solve`: the pairs registered through `Register`, the
names handed to `RegisterExtraName` (the last one is the extra name), the clauses added and the
number of calls of `Reset`. -/
structure Sat where
  registered_ : List (Nat × Nat)
  extra_names_ : List Nat
  clauses_ : List (List Lit)
  resets_ : Nat
deriving DecidableEq, Repr

namespace Sat

/-- Modelled from the spec: `Sat::registered(f, n)`. -/
def registered (s : Sat) (f n : Nat) : Bool := s.registered_.contains (f, n)

/-- Modelled from the spec: `Sat::Register(f, n)`. -/
def Register (s : Sat) (f n : Nat) : Sat := { s with registered_ := s.registered_ ++ [(f, n)] }

/-- Modelled from the spec: `Sat::RegisterExtraName(n)`. -/
def RegisterExtraName (s : Sat) (n : Nat) : Sat := { s with extra_names_ := s.extra_names_ ++ [n] }

/-- Modelled from the spec: `Sat::AddClause(c)`. -/
def AddClause (s : Sat) (c : List Lit) : Sat := { s with clauses_ := s.clauses_ ++ [c] }

/-- Modelled from the spec: `Sat::Reset(keep_learnt, activity)` keeps what was registered. -/
def Reset (s : Sat) : Sat := { s with resets_ := s.resets_ + 1 }

/-- The extra name that the SAT core knows: the argument of the last `RegisterExtraName`. -/
def extra_name (s : Sat) : Option Nat := s.extra_names_.getLast?

end Sat

/-- The state of `LimSat`. The set `clauses_` is kept as a list without repetitions in the
order of `std::set`, and the maps `domains_` as lists indexed by the ids. -/
structure LimSat where
  clauses_ : List (List Lit)
  clauses_vec_ : List (List Lit)
  domains_ : List (List Bool)
  extra_name_registered_ : Bool
  extra_name_id_ : Int
  sat_ : Sat
  sat_init_index_ : Nat
deriving DecidableEq, Repr

namespace LimSat

/-- Embedding of `LimSat()`. -/
def init : LimSat :=
  { clauses_ := [], clauses_vec_ := [], domains_ := [], extra_name_registered_ := false,
    extra_name_id_ := 1, sat_ := ⟨[], [], [], 0⟩, sat_init_index_ := 0 }

/-- Embedding of `std::sort(as.begin(), as.end())` with `Lit::operator<`, which compares the
packed identifiers. -/
def sortLits (as : List Lit) : List Lit := as.insertionSort (fun a b => a.id ≤ b.id)

/-- The order of `std::set<LitVec>`: lexicographic comparison with `Lit::operator<`. -/
def lexLess : List Lit → List Lit → Bool
  | [], [] => false
  | [], _ :: _ => true
  | _ :: _, [] => false
  | a :: as, b :: bs => decide (a.id < b.id) || (a.id == b.id && lexLess as bs)

/-- The position at which `std::set::insert` puts a new element. -/
def setPlace (x : List Lit) : List (List Lit) → List (List Lit)
  | [] => [x]
  | y :: ys => if lexLess x y then x :: y :: ys else y :: setPlace x ys

/-- Embedding of `clauses_.insert(as)`: the set and whether the element was inserted. -/
def setInsert (c : List (List Lit)) (x : List Lit) : List (List Lit) × Bool :=
  if x ∈ c then (c, false) else (setPlace x c, true)

/-- Modelled from the spec: `TermMap::FitForKey(k, init)` of limbo/internal/dense.h, which is
not among the sources, grows the map so that the key `k` is in range. -/
def FitForKey {α : Type} (init : α) (k : Nat) (m : List α) : List α :=
  DenseMap.Capacitate init k m

/-- The statements `domains_.FitForKey(f); domains_[f].FitForKey(n); domains_[f][n] = true`. -/
def setDomain (s : LimSat) (f n : Nat) : LimSat :=
  let d1 := FitForKey [] f s.domains_
  let row := (FitForKey false n (d1.getD f [])).set n true
  { s with domains_ := d1.set f row }

/-- The body of the loop over the literals of a new clause in `AddClause`. The conversion
`int(n)` yields the id of the name. -/
def addLit (s : LimSat) (a : Lit) : LimSat :=
  let f := a.func
  let n := a.name
  let s1 := s.setDomain f n
  let s2 := { s1 with extra_name_id_ := max ((n : Int) + 1) s1.extra_name_id_ }
  if !s2.sat_.registered f n then { s2 with sat_ := s2.sat_.Register f n } else s2

/-- Embedding of `AddClause(as)`: the returned value and the state. -/
def AddClause (s : LimSat) (as : List Lit) : Bool × LimSat :=
  let sorted := sortLits as
  let p := setInsert s.clauses_ sorted
  if p.2 then
    let s1 := { s with clauses_ := p.1, clauses_vec_ := s.clauses_vec_ ++ [sorted] }
    (true, sorted.foldl addLit s1)
  else (false, { s with clauses_ := p.1 })

/-- Embedding of `clauses()`. -/
def clauses (s : LimSat) : List (List Lit) := s.clauses_

/-- The body of the loop of `UpdateDomainsForQuery` for a stripped literal of the query. -/
def updateLit (s : LimSat) (a : Lit) : LimSat :=
  let f := a.func
  let n := a.name
  let d1 := FitForKey [] f s.domains_
  let row := FitForKey false n (d1.getD f [])
  let s1 := { s with domains_ := d1.set f row }
  if !row.getD n false then
    { s1 with
      domains_ := s1.domains_.set f (row.set n true)
      extra_name_id_ := max ((n : Int) + 1) s1.extra_name_id_
      sat_ := s1.sat_.Register f n }
  else s1

/-- Embedding of `UpdateDomainsForQuery(query)`. Modelled from the spec: iterating over the
query (formula.h is not among the sources) yields the stripped literals that occur in it, so
that the query is given by the list of these literals. -/
def UpdateDomainsForQuery (s : LimSat) (query : List Lit) : LimSat :=
  query.foldl updateLit s

/-- The loop of `InitSat` that hands the clauses not yet added to the SAT core. -/
def addPending (s : LimSat) : LimSat :=
  { s with
    sat_ := (s.clauses_vec_.drop s.sat_init_index_).foldl Sat.AddClause s.sat_
    sat_init_index_ := max s.sat_init_index_ s.clauses_vec_.length }

/-- Embedding of `InitSat(activity)`. -/
def InitSat (s : LimSat) : LimSat :=
  let s1 :=
    if !s.extra_name_registered_ then
      { s with sat_ := s.sat_.RegisterExtraName s.extra_name_id_.toNat,
               extra_name_registered_ := true }
    else s
  addPending { s1 with sat_ := s1.sat_.Reset }

/-- The state of `LimSat` when `Solve(k, query)` invokes the SAT core: `FindModels` calls
`UpdateDomainsForQuery`, and every call of `sat_.Solve` is made by `FindModel` right after
`InitSat`; apart from `sat_`, `FindModel` and its callers change no member of `LimSat`. -/
def atSatCall (s : LimSat) (query : List Lit) : LimSat :=
  InitSat (UpdateDomainsForQuery s query)

/-- The solver after the clauses of the list were added in turn. -/
def AddClauses (cs : List (List Lit)) : LimSat :=
  cs.foldl (fun s c => (AddClause s c).2) init

/-- Embedding of `FoundModel`. -/
structure FoundModel where
  model : List Nat
  succ : Bool
deriving DecidableEq, Repr

/-- Embedding of `FoundCoveringModels`. -/
structure FoundCoveringModels where
  models : List (List Nat)
  newly_assigned_in : List (List Nat)
  all_covered : Bool
deriving DecidableEq, Repr

/-- Embedding of `assigns(model, f)`. -/
def assigns (model : List Nat) (f : Nat) : Bool :=
  decide (f < model.length) && model.getD f 0 != 0

/-- Embedding of `AssignsAll(model, funs)` for a vector of functions. -/
def AssignsAll (model : List Nat) (funs : List Nat) : Bool := funs.all (assigns model)

/-- Embedding of `AssignsAll(model, wanted)` for a map of wanted functions. -/
def AssignsAllWanted (model : List Nat) (wanted : List Bool) : Bool :=
  (List.range wanted.length).all (fun f => !(wanted.getD f false) || assigns model f)

/-- Embedding of `Merge(xs, ys)`, the `std::set_union` of two sorted vectors. -/
def Merge : List Nat → List Nat → List Nat
  | [], ys => ys
  | x :: xs, [] => x :: xs
  | x :: xs, y :: ys =>
    if x < y then x :: Merge xs (y :: ys)
    else if y < x then y :: Merge (x :: xs) ys
    else x :: Merge xs ys
termination_by xs ys => xs.length + ys.length

/-- Embedding of `GetAndUnwantNewlyAssignedFunctions(model, wanted)`: the newly assigned
functions, whether all wanted functions are assigned, and the map `wanted` afterwards. -/
def GetAndUnwantNewlyAssignedFunctions (model : List Nat) (wanted : List Bool) :
    List Nat × Bool × List Bool :=
  (List.range wanted.length).foldl
    (fun r f =>
      if r.2.2.getD f false then
        if assigns model f then (r.1 ++ [f], r.2.1, r.2.2.set f false) else (r.1, false, r.2.2)
      else r)
    ([], true, wanted)

/-- What `Sat::Solve` shows to its callbacks: a conflict, a decision (with `sat_.model()` at
that moment), or a complete model handed to the third callback. -/
inductive SatEvent where
  | conflict
  | decision (model : List Nat)
  | solution (model : List Nat)
deriving DecidableEq, Repr

/-- A run of `Sat::Solve`: the events shown to the callbacks in order, the truth value returned
(`1` for `kSat`) and `sat_.model()` on return. -/
structure SatRun where
  events : List SatEvent
  truth : Int
  model : List Nat
deriving DecidableEq, Repr

/-- Modelled from the spec: `Sat::Solve` of limbo/sat.h, which is not among the sources, is a
parameter: given the SAT core, the propagation mode, the wanted functions that seed the
activity, and the evaluation of the query that the third callback returns, it yields a run. -/
abbrev SatSolve : Type := Sat → Bool → List Bool → (List Nat → Bool) → SatRun

/-- The truth value `Sat::Truth::kSat`. -/
def kSat : Int := 1

/-- Embedding of `sat_.model_size()`: the number of assigned functions. -/
def model_size (model : List Nat) : Int := (model.filter (fun n => n != 0)).length

/-- The variables captured by the callbacks of `FindModel`. -/
structure Snapshot where
  partial_model : List Nat
  partial_model_size : Int
  n_conflicts : Nat
deriving DecidableEq, Repr

/-- The three callbacks that `FindModel` hands to `Sat::Solve`, applied to one event. The first
one counts the conflicts (and answers whether at most `kMaxConflicts = 50` were met). -/
def onEvent (min_model_size : Int) (wanted_is_must : Bool) (wanted : List Bool)
    (SatisfiedBy : List Nat → Bool) (c : Snapshot) : SatEvent → Snapshot
  | .conflict => { c with n_conflicts := c.n_conflicts + 1 }
  | .decision m =>
    if min_model_size ≤ model_size m && c.partial_model_size < model_size m &&
        (!wanted_is_must || AssignsAllWanted m wanted) && !SatisfiedBy c.partial_model then
      { c with partial_model_size := model_size m, partial_model := m }
    else c
  | .solution m =>
    if !SatisfiedBy m && min_model_size ≤ model_size m && c.partial_model_size < model_size m &&
        (!wanted_is_must || AssignsAllWanted m wanted) then
      { c with partial_model_size := model_size m, partial_model := m }
    else c

/-- Embedding of `FindModel(min_model_size, query, propagate_with_learnt, wanted_is_must,
wanted)`: the model found and the state after `InitSat`. The query is given by its stripped
literals and by its evaluation `SatisfiedBy`. -/
def FindModel (solve : SatSolve) (s : LimSat) (min_model_size : Int)
    (SatisfiedBy : List Nat → Bool) (propagate_with_learnt wanted_is_must : Bool)
    (wanted : List Bool) : FoundModel × LimSat :=
  let s1 := InitSat s
  let run := solve s1.sat_ propagate_with_learnt wanted SatisfiedBy
  let c := run.events.foldl (onEvent min_model_size wanted_is_must wanted SatisfiedBy)
    ⟨[], -1, 0⟩
  if run.truth == kSat then (⟨run.model, true⟩, s1)
  else if c.partial_model_size ≥ min_model_size && !SatisfiedBy c.partial_model then
    (⟨c.partial_model, true⟩, s1)
  else (⟨[], false⟩, s1)

/-- The loop that removes the earlier models whose newly assigned functions the new model
assigns as well; it returns the merged `newly_assigned`, `models` and `newly_assigned_in`. -/
def pruneModels (model : List Nat) :
    List (List Nat) → List (List Nat) → List Nat → List Nat × List (List Nat) × List (List Nat)
  | m :: ms, na :: nas, newly =>
    if AssignsAll model na then pruneModels model ms nas (Merge newly na)
    else
      let r := pruneModels model ms nas newly
      (r.1, m :: r.2.1, na :: r.2.2)
  | _, _, newly => (newly, [], [])

/-- The loop `for (;;)` of `FindCoveringModels`; `none` means that the rounds allowed by the
first argument did not suffice. -/
def FindCoveringLoop (solve : SatSolve) (min_model_size : Int) (SatisfiedBy : List Nat → Bool) :
    Nat → LimSat → List (List Nat) → List (List Nat) → List Bool → Bool → Bool →
      Option (FoundCoveringModels × LimSat)
  | 0, _, _, _, _, _, _ => none
  | fuel + 1, s, models, newly_assigned_in, wanted, propagate_with_learnt, wanted_is_must =>
    let r := FindModel solve s min_model_size SatisfiedBy propagate_with_learnt wanted_is_must
      wanted
    let fm := r.1
    if !fm.succ && propagate_with_learnt then
      FindCoveringLoop solve min_model_size SatisfiedBy fuel r.2 models newly_assigned_in wanted
        false wanted_is_must
    else if !fm.succ then some (⟨[], [], false⟩, r.2)
    else if min_model_size == 0 then some (⟨models, newly_assigned_in, true⟩, r.2)
    else
      let gaf := GetAndUnwantNewlyAssignedFunctions fm.model wanted
      if gaf.1.isEmpty && !wanted_is_must then
        FindCoveringLoop solve min_model_size SatisfiedBy fuel r.2 models newly_assigned_in
          gaf.2.2 propagate_with_learnt true
      else
        let pr := pruneModels fm.model models newly_assigned_in gaf.1
        let models1 := pr.2.1 ++ [fm.model]
        let newly1 := pr.2.2 ++ [pr.1]
        if gaf.2.1 then some (⟨models1, newly1, true⟩, r.2)
        else
          FindCoveringLoop solve min_model_size SatisfiedBy fuel r.2 models1 newly1 gaf.2.2
            propagate_with_learnt wanted_is_must

/-- Embedding of `FindCoveringModels(min_model_size, query)`. -/
def FindCoveringModels (solve : SatSolve) (fuel : Nat) (s : LimSat) (min_model_size : Int)
    (SatisfiedBy : List Nat → Bool) : Option (FoundCoveringModels × LimSat) :=
  let wanted := (FitForKey false (s.domains_.length - 1) []).zipWith
    (fun _ row => !(row : List Bool).isEmpty) s.domains_
  FindCoveringLoop solve min_model_size SatisfiedBy fuel s [] [] wanted true false

/-- Modelled from the spec: the subsets of size `k` of a list of functions, for
`internal::AllCombinedSubsetsOfSize` of limbo/internal/subsets.h, which is not among the
sources. -/
def subsetsOfSize : Nat → List Nat → List (List Nat)
  | 0, _ => [[]]
  | _ + 1, [] => []
  | k + 1, x :: xs => (subsetsOfSize k xs).map (fun t => x :: t) ++ subsetsOfSize (k + 1) xs

/-- Embedding of `FindModels(min_model_size, query)`, which is `Solve(k, query)`: the answer,
or `none` when the rounds allowed for `FindCoveringModels` did not suffice. -/
def FindModels (solve : SatSolve) (fuel : Nat) (s : LimSat) (min_model_size : Nat)
    (query : List Lit) (SatisfiedBy : List Nat → Bool) : Option Bool :=
  let s1 := UpdateDomainsForQuery s query
  match FindCoveringModels solve fuel s1 min_model_size SatisfiedBy with
  | none => none
  | some (fcm, s2) =>
    if !fcm.all_covered then some false
    else
      some ((subsetsOfSize min_model_size (fcm.newly_assigned_in.foldl Merge [])).all
        (fun must =>
          fcm.models.any (fun model => AssignsAll model must) ||
            (FindModel solve s2 min_model_size SatisfiedBy false true
              (must.foldl (fun w f => w.set f true)
                (FitForKey false (s2.domains_.length - 1) []))).1.succ))

/-- The run of a SAT core on the clause `f = 1` for the function `f = 1`: unit propagation
assigns `f = 1`, the third callback is shown this model and answers that the query holds, and
no other model is left. -/
def unitRun : SatSolve := fun _ _ _ _ => ⟨[SatEvent.solution [0, 1]], -1, [0, 1]⟩

/-- The evaluation of the query `f = 1` for the function `f = 1`. -/
def queryEq : List Nat → Bool := fun m => m.getD 1 0 == 1

/-- The SAT core shows only models with `f = 1`, for the function `f = 1`, whenever the clause
`f = 1` was added to it. -/
def RespectsUnit (solve : SatSolve) : Prop :=
  ∀ (sat : Sat) (pwl : Bool) (wanted : List Bool) (sb : List Nat → Bool),
    [Lit.Eq 1 1] ∈ sat.clauses_ →
    (∀ e ∈ (solve sat pwl wanted sb).events, ∀ m,
      (e = SatEvent.decision m ∨ e = SatEvent.solution m) → m.getD 1 0 = 1) ∧
    (solve sat pwl wanted sb).model.getD 1 0 = 1

/-- The SAT core answers `kSat` only with a model for which the third callback returned false. -/
def SatMeansRejected (solve : SatSolve) : Prop :=
  ∀ (sat : Sat) (pwl : Bool) (wanted : List Bool) (sb : List Nat → Bool),
    (solve sat pwl wanted sb).truth = kSat → sb (solve sat pwl wanted sb).model = false

end LimSat

/-! ## The terms of `term.h` -/

/-- The enumeration `Term::Type` of term.h. -/
inductive TermType where
  | DUMMY
  | VAR
  | NAME
deriving DecidableEq, Repr

/-- The class `Term` of term.h: its members `type_` and `id_`. -/
structure Term where
  type_ : TermType
  id_ : Int
deriving DecidableEq, Repr

namespace Term

/-- Embedding of `Term::CreateVariable(id)`: as in term.cc, the private constructor is called
with the type `VAR`. -/
def CreateVariable (id : Int) : Term := ⟨TermType.VAR, id⟩

/-- Embedding of `Term::CreateStdName(id)`: as in term.cc, the private constructor is called
with the type `NAME`. -/
def CreateStdName (id : Int) : Term := ⟨TermType.NAME, id⟩

/-- Embedding of `Term::is_variable()`. -/
def is_variable (t : Term) : Bool := t.type_ == TermType.VAR

/-- Embedding of `Term::is_name()`. -/
def is_name (t : Term) : Bool := t.type_ == TermType.NAME

/-- Embedding of `Term::is_ground()`, which the header defines as `type_ == VAR`. -/
def is_ground (t : Term) : Bool := t.type_ == TermType.VAR

end Term

/-! ## The lexer of `lela/format/pdl/lexer.h` -/

namespace pdl

/-- The enumeration `Token::Id`. -/
inductive TokenId where
  | kError
  | kSort
  | kVar
  | kName
  | kFun
  | kKB
  | kLet
  | kEntails
  | kConsistent
  | kAssert
  | kRefute
  | kColon
  | kComma
  | kEndOfLine
  | kEquality
  | kInequality
  | kNot
  | kOr
  | kAnd
  | kForall
  | kExists
  | kAssign
  | kRArrow
  | kLRArrow
  | kSlash
  | kComment
  | kLeftParen
  | kRightParen
  | kUint
  | kIdentifier
deriving DecidableEq, Repr

/-- The class `Token`: an id and the text. -/
structure Token where
  id_ : TokenId
  str_ : List Char
deriving DecidableEq, Repr

/-- The enumeration `Lexer::Match`. -/
inductive Match where
  | kMismatch
  | kPrefixMatch
  | kFullMatch
deriving DecidableEq, Repr

/-- The value of an enumerator of `Match`, by which `std::max` compares. -/
def Match.toNat : Match → Nat
  | .kMismatch => 0
  | .kPrefixMatch => 1
  | .kFullMatch => 2

/-- Embedding of `std::max(m, n)` on `Match`. -/
def Match.max (m n : Match) : Match := if m.toNat < n.toNat then n else m

/-- Embedding of `IsNewLine(c)`. -/
def IsNewLine (c : Char) : Bool := c == '\r' || c == '\n'

/-- Embedding of `IsWhitespace(c)`. -/
def IsWhitespace (c : Char) : Bool := c == ' ' || c == '\t' || IsNewLine c

/-- Embedding of `IsDigit(c)`. -/
def IsDigit (c : Char) : Bool := decide ('0' ≤ c) && decide (c ≤ '9')

/-- Embedding of `IsAlpha(c)`. -/
def IsAlpha (c : Char) : Bool :=
  (decide ('A' ≤ c) && decide (c ≤ 'Z')) || (decide ('a' ≤ c) && decide (c ≤ 'z')) || c == '_'

/-- Embedding of `IsAlnum(c)`. -/
def IsAlnum (c : Char) : Bool := IsAlpha c || IsDigit c || c == '-'

/-- Embedding of `std::mismatch(r.begin(), r.end(), sentence.begin()).first != r.end()` for a
range `r` that is not longer than the sentence: some character of `r` differs from the character
of the sentence at its position. -/
def mismatches : List Char → List Char → Bool
  | [], _ => false
  | _ :: _, [] => true
  | c :: r, d :: s => c != d || mismatches r s

/-- Embedding of `IsPrefix(w, sentence)` for one sentence; the word is a list of characters and
`std::tolower` is applied to each of them. -/
def IsPrefix (w : List Char) (sentence : String) : Match :=
  let len := w.length
  let r := w.map Char.toLower
  if len > sentence.length || mismatches r sentence.toList then Match.kMismatch
  else if len < sentence.length then Match.kPrefixMatch else Match.kFullMatch

/-- Embedding of `IsPrefix(w, sentences)` for a list of sentences. -/
def IsPrefixAny (w : List Char) (sentences : List String) : Match :=
  sentences.foldl (fun m sentence => Match.max m (IsPrefix w sentence)) Match.kMismatch

/-- The lexeme of `kUint`: a single `0` or digits that do not start with `0`. -/
def uintLexeme (w : List Char) : Match :=
  match w with
  | [] => Match.kPrefixMatch
  | c :: rest =>
    if (c != '0' || rest.isEmpty) && w.all IsDigit then Match.kFullMatch else Match.kMismatch

/-- The lexeme of `kIdentifier`: a letter or underscore followed by letters, digits, underscores
and hyphens. -/
def identifierLexeme (w : List Char) : Match :=
  match w with
  | [] => Match.kPrefixMatch
  | c :: _ => if IsAlpha c && w.all IsAlnum then Match.kFullMatch else Match.kMismatch

/-- The type `LexemeVector`: ids paired with their matchers, in the order of registration. -/
abbrev LexemeVector : Type := List (TokenId × (List Char → Match))

/-- The lexemes that the constructor `Lexer(begin, end)` registers, in its order. -/
def lexemes : LexemeVector :=
  [ (TokenId.kSort, fun w => IsPrefix w "sort"),
    (TokenId.kVar, fun w => IsPrefixAny w ["var", "variable"]),
    (TokenId.kName, fun w => IsPrefixAny w ["name", "stdname"]),
    (TokenId.kFun, fun w => IsPrefixAny w ["fun", "function"]),
    (TokenId.kKB, fun w => IsPrefix w "kb"),
    (TokenId.kLet, fun w => IsPrefix w "let"),
    (TokenId.kEntails, fun w => IsPrefix w "entails"),
    (TokenId.kConsistent, fun w => IsPrefix w "consistent"),
    (TokenId.kAssert, fun w => IsPrefix w "assert"),
    (TokenId.kRefute, fun w => IsPrefix w "refute"),
    (TokenId.kColon, fun w => IsPrefix w ":"),
    (TokenId.kEndOfLine, fun w => IsPrefix w ";"),
    (TokenId.kComma, fun w => IsPrefix w ","),
    (TokenId.kEquality, fun w => IsPrefixAny w ["==", "="]),
    (TokenId.kInequality, fun w => IsPrefixAny w ["!=", "/="]),
    (TokenId.kNot, fun w => IsPrefixAny w ["!", "~"]),
    (TokenId.kOr, fun w => IsPrefixAny w ["||", "|", "v"]),
    (TokenId.kAnd, fun w => IsPrefixAny w ["&&", "&", "^"]),
    (TokenId.kForall, fun w => IsPrefix w "fa"),
    (TokenId.kExists, fun w => IsPrefix w "ex"),
    (TokenId.kAssign, fun w => IsPrefix w ":="),
    (TokenId.kRArrow, fun w => IsPrefix w "->"),
    (TokenId.kLRArrow, fun w => IsPrefix w "<->"),
    (TokenId.kSlash, fun w => IsPrefix w "/"),
    (TokenId.kComment, fun w => IsPrefix w "//"),
    (TokenId.kLeftParen, fun w => IsPrefix w "("),
    (TokenId.kRightParen, fun w => IsPrefix w ")"),
    (TokenId.kUint, uintLexeme),
    (TokenId.kIdentifier, identifierLexeme) ]

/-- The body of the loop of `LexemeMatch` for one lexeme. -/
def matchStep (w : List Char) (best : Match × TokenId) (p : TokenId × (List Char → Match)) :
    Match × TokenId :=
  let m := p.2 w
  if (best.1 == Match.kMismatch && m == Match.kPrefixMatch) ||
      (best.1 != Match.kFullMatch && m == Match.kFullMatch) then (m, p.1)
  else best

/-- Embedding of `LexemeMatch(w)` for a vector of lexemes. -/
def LexemeMatch (ls : LexemeVector) (w : List Char) : Match × TokenId :=
  ls.foldl (matchStep w) (Match.kMismatch, TokenId.kError)

/-- The loop of `CurrentWord`: `jt` runs over the remaining characters (the second argument),
`j` is its distance from `it`, and the loop stops at the first `j` for which the word of length
`j + 1` is a mismatch. -/
def wordEnd (ls : LexemeVector) (input : List Char) : List Char → Nat → Nat
  | [], j => j
  | _ :: rest, j =>
    if (LexemeMatch ls (input.take (j + 1))).1 == Match.kMismatch then j
    else wordEnd ls input rest (j + 1)

/-- Embedding of `CurrentWord()` for an iterator whose remaining input (from `it_` to `end_`)
is `input`: the text of the word; the word starts at `it_`. -/
def CurrentWord (ls : LexemeVector) (input : List Char) : List Char :=
  input.take (wordEnd ls input input 0)

/-- Embedding of `SkipWhile(p)` on the remaining input. -/
def SkipWhile (p : Char → Bool) (input : List Char) : List Char := input.dropWhile p

/-- The loop of `SkipToNext` that skips comments; a comment has at least one character, so the
length of the remaining input bounds the number of rounds. -/
def skipComments (ls : LexemeVector) : Nat → List Char → List Char
  | 0, input => input
  | fuel + 1, input =>
    if !input.isEmpty && (LexemeMatch ls (CurrentWord ls input)).2 == TokenId.kComment then
      skipComments ls fuel
        (SkipWhile IsWhitespace (SkipWhile (fun c => !IsNewLine c) input))
    else input

/-- Embedding of `SkipToNext()` on the remaining input. -/
def SkipToNext (ls : LexemeVector) (input : List Char) : List Char :=
  let input1 := SkipWhile IsWhitespace input
  skipComments ls input1.length input1

/-- Embedding of `Lexer::begin()`: the iterator is given by its remaining input. -/
def Lexer.begin (input : List Char) : List Char := SkipToNext lexemes input

/-- Embedding of `iterator::operator*()` for an iterator with the remaining input `it`. -/
def deref (it : List Char) : Token :=
  let w := CurrentWord lexemes it
  ⟨(LexemeMatch lexemes w).2, w⟩

/-- Embedding of `iterator::operator++()`: the remaining input of the iterator afterwards. -/
def next (it : List Char) : List Char :=
  SkipToNext lexemes (it.drop (CurrentWord lexemes it).length)

/-- The tokens that a loop from `begin()` to `end()` reads, for at most the given number of
steps; `none` when `end()` is not reached within these steps. -/
def tokensFrom : Nat → List Char → Option (List Token)
  | 0, it => if it.isEmpty then some [] else none
  | fuel + 1, it =>
    if it.isEmpty then some []
    else (tokensFrom fuel (next it)).map (fun ts => deref it :: ts)

/-- The first lexeme of the vector that matches the word in the given way. -/
def firstMatch (ls : LexemeVector) (w : List Char) (m : Match) :
    Option (TokenId × (List Char → Match)) :=
  ls.find? (fun p => p.2 w == m)

/-- The id that the first fully matching lexeme gives to a word, or else the first lexeme of
which the word is a prefix match, or else `kError`. -/
def firstId (ls : LexemeVector) (w : List Char) : TokenId :=
  match firstMatch ls w Match.kFullMatch with
  | some p => p.1
  | none =>
    match firstMatch ls w Match.kPrefixMatch with
    | some p => p.1
    | none => TokenId.kError

/-- A matcher is closed under prefixes when it rejects every word of which it rejects a
non-empty prefix. -/
def PrefixClosed (f : List Char → Match) : Prop :=
  ∀ (w : List Char) (n : Nat), 1 ≤ n → f (w.take n) = Match.kMismatch → f w = Match.kMismatch

end pdl

/-! ## The covering models of `LimSat::FindCoveringModels` -/

namespace LimSat

/-- The body of the loop of `GetAndUnwantNewlyAssignedFunctions` for one key. -/
def gafStep (model : List Nat) (r : List Nat × Bool × List Bool) (f : Nat) :
    List Nat × Bool × List Bool :=
  if r.2.2.getD f false then
    if assigns model f then (r.1 ++ [f], r.2.1, r.2.2.set f false) else (r.1, false, r.2.2)
  else r

/-- The number of the lists of `newly_assigned_in` that contain the function `f`. -/
def listsWith (f : Nat) (newly : List (List Nat)) : Nat :=
  newly.countP (fun l => l.contains f)

/-- The map `wanted` with which `FindCoveringModels` starts: the functions with a non-empty
domain. -/
def wantedOf (s : LimSat) : List Bool :=
  (FitForKey false (s.domains_.length - 1) []).zipWith
    (fun _ row => !(row : List Bool).isEmpty) s.domains_

/-- The number of functions with a non-empty domain. -/
def nonEmptyDomains (s : LimSat) : Nat := s.domains_.countP (fun row => !row.isEmpty)

/-- The state of the loop of `FindCoveringModels` with respect to the map `W` of the functions
wanted at the start: every model assigns the functions of its list, and every function of `W`
is either still wanted or in exactly one list, while no other function is in a list. -/
structure CoverInv (W : List Bool) (models newly : List (List Nat)) (wanted : List Bool) :
    Prop where
  assigned : List.Forall₂ (fun m na => AssignsAll m na = true) models newly
  count : ∀ f, listsWith f newly + (wanted.getD f false).toNat = (W.getD f false).toNat

/-- A bound on the number of calls of `FindModel` that the loop of `FindCoveringModels` still
makes: one for each wanted function and one for each of the two flags that can still flip. -/
def callsBound (wanted : List Bool) (propagate_with_learnt wanted_is_must : Bool) : Nat :=
  (if wanted_is_must then 1 else wanted.count true + 2) +
    (if propagate_with_learnt then 1 else 0)

/-- A run of the SAT core that shows the decision callback the model `f = 1`, later the model
`f = 2, g = 3` for the functions `f = 1` and `g = 2`, and does not end with `kSat`. -/
def twoDecisionsRun : SatSolve :=
  fun _ _ _ _ => ⟨[SatEvent.decision [0, 1], SatEvent.decision [0, 2, 3]], -1, []⟩

/-- A SAT core that answers `kSat` at once with a model that gives the name `1` to every
function in the range of the map `wanted`. -/
def assignAllRun : SatSolve := fun _ _ wanted _ => ⟨[], kSat, wanted.map (fun _ => 1)⟩

end LimSat

/-! ## The heap: its position map and `Heapify` -/

/-- The heaps that arise from the empty heap through `Capacitate`, `Insert`, `Remove`,
`Increase` and `Heapify` with any comparators, where `Insert(x)` is called for an element within
the capacity that is not in the heap, and `Remove(x)` and `Increase(x)` for an element of the
heap, as the assertions of these functions demand. -/
inductive Heap.Built : Heap → Prop
  | init : Heap.Built Heap.init
  | capacitate (h : Heap) (i : Nat) : Heap.Built h → Heap.Built (h.Capacitate i)
  | insert (less : Nat → Nat → Bool) (h : Heap) (x : Nat) : Heap.Built h →
      x < h.index_.length → h.Contains x = false → Heap.Built (Heap.Insert less h x)
  | remove (less : Nat → Nat → Bool) (h : Heap) (x : Nat) : Heap.Built h →
      h.Contains x = true → Heap.Built (Heap.Remove less h x)
  | increase (less : Nat → Nat → Bool) (h : Heap) (x : Nat) : Heap.Built h →
      h.Contains x = true → Heap.Built (Heap.Increase less h x)
  | heapify (less : Nat → Nat → Bool) (h : Heap) : Heap.Built h →
      Heap.Built (Heap.Heapify less h)

/-- A comparator in the way of `ActivityCompare`: the elements are compared by keys that are
held outside the heap. -/
def keyLess (keys : List Nat) : Nat → Nat → Bool :=
  fun a b => decide (keys.getD a 0 < keys.getD b 0)

/-- The heap into which the elements `1, …, 5` were inserted while all their keys were equal. -/
def heapOfFive : Heap :=
  [1, 2, 3, 4, 5].foldl (Heap.Insert (keyLess [0, 0, 0, 0, 0, 0])) (Heap.init.Capacitate 5)

/-- New keys for the elements `1, …, 5`: the keys `3, 4, 5, 1, 2`. -/
def newKeys : List Nat := [0, 3, 4, 5, 1, 2]

/-! ## Conflict analysis: the learnt clause is a consequence -/

namespace Solver

/-- The literal of the pair `(g, k)` that the model of the solver makes true when the pair is
assigned or excluded: `g = k` when `model_[g]` is `k`, and `g ≠ k` otherwise. -/
def satLit (s : Solver) (g k : Nat) : Literal := ⟨s.model g == k, g, k⟩

/-- Whether every round of the loop of `Analyze` starts with a conflict other than `kNullRef`,
as its `assert(conflict != kNullRef)` demands; otherwise the source reads the clause of the
null reference. -/
def AnalyzeResolves (sort : Nat → Nat) : Nat → AnalyzeState → Int → Bool
  | 0, _, _ => true
  | fuel + 1, st, conflict =>
    conflict != kNullRef &&
      (if (AnalyzeRound sort st conflict).depth > 0 then
        AnalyzeResolves sort fuel (AnalyzeRound sort st conflict)
          ((AnalyzeRound sort st conflict).s.reason_of (AnalyzeRound sort st conflict).trail_a)
      else true)

/-- The reference denotes a clause that the clause factory holds: it is not the null reference,
it was handed out by `New`, and it was not returned by `Delete`. -/
def Live (s : Solver) (cr : Int) : Prop :=
  0 < cr ∧ cr.toNat < s.clause_factory_.pool.length ∧ cr ∉ s.clause_factory_.freed

instance (s : Solver) (cr : Int) : Decidable (Live s cr) := by
  unfold Live
  infer_instance

/-- The assignment `M` satisfies every clause that the clause factory holds. -/
def ModelsClauses (s : Solver) (M : Nat → Nat) : Prop :=
  ∀ i, i < s.clause_factory_.pool.length → Live s (i : Int) →
    ∃ a ∈ (s.clause (i : Int)).lits, holds M a = true

instance (s : Solver) (M : Nat → Nat) : Decidable (ModelsClauses s M) := by
  unfold ModelsClauses
  infer_instance

/-- The assignment `M` agrees with what `data_` records for the pair `(f, n)` when the pair
has the root level: the exclusion of the name, or its assignment. -/
def ModelsPair (s : Solver) (M : Nat → Nat) (f n : Nat) : Prop :=
  (s.data f n).level = kRootLevel →
    ((s.data f n).model_neq = true → M f ≠ n) ∧ (s.model f = n → n ≠ 0 → M f = n)

instance (s : Solver) (M : Nat → Nat) (f n : Nat) : Decidable (ModelsPair s M f n) := by
  unfold ModelsPair
  infer_instance

/-- The assignment `M` agrees with every assignment and exclusion of the root level. -/
def ModelsRoot (s : Solver) (M : Nat → Nat) : Prop :=
  ∀ f, f < s.data_.length → ∀ n, n < (s.data_.getD f []).length → ModelsPair s M f n

instance (s : Solver) (M : Nat → Nat) : Decidable (ModelsRoot s M) := by
  unfold ModelsRoot
  infer_instance

/-- The assignment `M` gives every registered function one of its occurring names. -/
def ModelsDomain (sort : Nat → Nat) (s : Solver) (M : Nat → Nat) : Prop :=
  ∀ f, f < s.funcs_.length → DenseSet.Contains s.funcs_ f = true →
    M f ≠ 0 ∧ M f ∈ s.names_.getD (sort f) [] ∧ (s.data f (M f)).occurs = true

instance (sort : Nat → Nat) (s : Solver) (M : Nat → Nat) : Decidable (ModelsDomain sort s M) := by
  unfold ModelsDomain
  infer_instance

/-- An assignment `M` of names to functions satisfies what the solver holds: every clause that
the clause factory holds, every assignment and exclusion that `data_` records for the root
level (the unit clauses and what `Init` derived from them), and the constraint that every
registered function takes one of its occurring names. -/
def Models (sort : Nat → Nat) (s : Solver) (M : Nat → Nat) : Prop :=
  ModelsClauses s M ∧ ModelsRoot s M ∧ ModelsDomain sort s M

instance (sort : Nat → Nat) (s : Solver) (M : Nat → Nat) : Decidable (Models sort s M) := by
  unfold Models
  infer_instance

/-- The literals of the clause are falsified and have a name. -/
def AllFalsified (s : Solver) (cr : Int) : Prop :=
  ∀ a ∈ (s.clause cr).lits, s.falsifies a (-1) = true ∧ a.rhs ≠ 0

instance (s : Solver) (cr : Int) : Decidable (AllFalsified s cr) := by
  unfold AllFalsified
  infer_instance

/-- The literals of the clause, except for the literal `t`, are falsified and have a name. -/
def OthersFalsified (s : Solver) (cr : Int) (t : Literal) : Prop :=
  ∀ a ∈ (s.clause cr).lits, a = t ∨ (s.falsifies a (-1) = true ∧ a.rhs ≠ 0)

instance (s : Solver) (cr : Int) (t : Literal) : Decidable (OthersFalsified s cr t) := by
  unfold OthersFalsified
  infer_instance

/-- A literal of the trail has a name and is recorded: a positive literal in `model_`, a
negative literal in the flag `model_neq` of its pair. -/
def TrailTrue (s : Solver) : Prop :=
  ∀ t ∈ s.trail_, t.rhs ≠ 0 ∧ (t.pos = true → s.model t.lhs = t.rhs) ∧
    (t.pos = false → (s.data t.lhs t.rhs).model_neq = true)

instance (s : Solver) : Decidable (TrailTrue s) := by
  unfold TrailTrue
  infer_instance

/-- No pair is excluded and assigned at once, and no pair has a level above the current
one. -/
def Consistent (s : Solver) : Prop :=
  ∀ f, f < s.data_.length → ∀ n, n < (s.data_.getD f []).length →
    ((s.data f n).model_neq = true → s.model f ≠ n) ∧ (s.data f n).level ≤ s.current_level

instance (s : Solver) : Decidable (Consistent s) := by
  unfold Consistent
  infer_instance

/-- The reason of a literal of the trail above the root level is null, or the domain of its
function, which is registered, or a clause that the factory holds and whose other literals are
falsified. -/
def ReasonsHeld (s : Solver) : Prop :=
  ∀ t ∈ s.trail_, kRootLevel < s.level_of t → (s.reason_of t = kNullRef ∨
    (s.reason_of t = kDomainRef ∧ t.pos = true ∧ t.lhs < s.funcs_.length ∧
      DenseSet.Contains s.funcs_ t.lhs = true) ∨
    (s.reason_of t ≠ kDomainRef ∧ Live s (s.reason_of t) ∧
      OthersFalsified s (s.reason_of t) t))

instance (s : Solver) : Decidable (ReasonsHeld s) := by
  unfold ReasonsHeld
  infer_instance

/-- The state in which `Solve` calls `Analyze(conflict, …)`: above the root level and with the
flags of the analysis clear; the conflict is a clause that the factory holds and whose literals
are all falsified; the literals of the trail are recorded in `model_` and `data_`; no pair is
excluded and assigned at once or has a level above the current one; and the reason of a
literal of the trail above the root level is null, the domain of its function, or a clause
that the factory holds and whose other literals are falsified. -/
def ConflictState (s : Solver) (conflict : Int) : Prop :=
  s.flagsClear = true ∧ kRootLevel < s.current_level ∧ Live s conflict ∧
  AllFalsified s conflict ∧ TrailTrue s ∧ Consistent s ∧ ReasonsHeld s

instance (s : Solver) (conflict : Int) : Decidable (ConflictState s conflict) := by
  unfold ConflictState
  infer_instance

/-- An assigned or excluded pair has a level from the root level on. -/
def LevelsSet (s : Solver) : Prop :=
  (∀ f, f < s.data_.length → ∀ n, n < (s.data_.getD f []).length →
    (s.data f n).model_neq = true → kRootLevel ≤ (s.data f n).level) ∧
  (∀ f, f < s.model_.length → s.model f ≠ 0 → kRootLevel ≤ (s.data f (s.model f)).level)

instance (s : Solver) : Decidable (LevelsSet s) := by
  unfold LevelsSet
  infer_instance

/-- The pair `(f, n)`, when assigned or excluded above the root level, is on the trail. -/
def PairOnTrail (s : Solver) (f n : Nat) : Prop :=
  kRootLevel < (s.data f n).level →
    ((s.data f n).model_neq = true → Literal.Neq f n ∈ s.trail_) ∧
    (s.model f = n → n ≠ 0 → Literal.Eq f n ∈ s.trail_)

instance (s : Solver) (f n : Nat) : Decidable (PairOnTrail s f n) := by
  unfold PairOnTrail
  infer_instance

/-- What is assigned or excluded above the root level is on the trail. -/
def OnTrail (s : Solver) : Prop :=
  ∀ f, f < s.data_.length → ∀ n, n < (s.data_.getD f []).length → PairOnTrail s f n

instance (s : Solver) : Decidable (OnTrail s) := by
  unfold OnTrail
  infer_instance

/-- The literals of a level `L + 1` and above start at the position `level_size_[L]` of the
trail. -/
def LevelStarts (s : Solver) : Prop :=
  ∀ i, i < s.trail_.length → ∀ L, L < s.current_level → kRootLevel ≤ L →
    (s.level_size_.getD L 0 ≤ i ↔ L < s.level_of (s.trail_.getD i Literal.null))

instance (s : Solver) : Decidable (LevelStarts s) := by
  unfold LevelStarts
  infer_instance

/-- Of two literals of the trail for the same function, the earlier one is negative and has
another name. -/
def OnePerPair (s : Solver) : Prop :=
  ∀ j, j < s.trail_.length → ∀ i, i < j →
    (s.trail_.getD i Literal.null).lhs = (s.trail_.getD j Literal.null).lhs →
      (s.trail_.getD i Literal.null).pos = false ∧
      (s.trail_.getD i Literal.null).rhs ≠ (s.trail_.getD j Literal.null).rhs

instance (s : Solver) : Decidable (OnePerPair s) := by
  unfold OnePerPair
  infer_instance

/-- The order of the trail: assigned and excluded pairs have a level, those above the root
level are on the trail, the levels start at the positions that `level_size_` records, and a
function has at most one literal for each name, the positive one last. -/
def TrailOrdered (s : Solver) : Prop :=
  LevelsSet s ∧ OnTrail s ∧ LevelStarts s ∧ OnePerPair s

instance (s : Solver) : Decidable (TrailOrdered s) := by
  unfold TrailOrdered
  infer_instance

/-- The assignment `M` satisfies what `data_` records for the root level, for all pairs. -/
def RootFacts (s : Solver) (M : Nat → Nat) : Prop := ∀ f n, ModelsPair s M f n

/-- The parts of the solver that `Analyze` leaves as they are while it sets and clears the
flags `seen_subsumed` and `wanted` and bumps activities. -/
structure Frame (s t : Solver) : Prop where
  model : t.model_ = s.model_
  trail : t.trail_ = s.trail_
  levels : t.level_size_ = s.level_size_
  names : t.names_ = s.names_
  factory : t.clause_factory_ = s.clause_factory_
  data : ∀ g k, (t.data g k).model_neq = (s.data g k).model_neq ∧
    (t.data g k).level = (s.data g k).level ∧ (t.data g k).reason = (s.data g k).reason ∧
    (t.data g k).occurs = (s.data g k).occurs
  watchers : t.watchers_ = s.watchers_
  funcs : t.funcs_ = s.funcs_
  sizes : t.domain_size_ = s.domain_size_
  rows : t.data_.length = s.data_.length ∧
    ∀ g, (t.data_.getD g []).length = (s.data_.getD g []).length

/-- The resolvent that `Analyze` holds implicitly is true in `M`: a literal of `learnt` behind
slot `0` is true, or the literal of a pair marked as wanted is false. -/
def Pending (s : Solver) (M : Nat → Nat) (st : AnalyzeState) : Prop :=
  (∃ b ∈ st.learnt.tail, holds M b = true) ∨
  (∃ g k, (st.s.data g k).wanted = true ∧ holds M (satLit s g k) = false)

/-- The invariant of the loop of `Analyze` with respect to the state `s` in which it was
called. -/
structure Res (s : Solver) (st : AnalyzeState) : Prop where
  frame : Frame s st.s
  ana : AnaInv st
  falsified : ∀ b ∈ st.learnt.tail, s.falsifies b (-1) = true ∧ b.rhs ≠ 0
  below : ∀ b ∈ st.learnt.tail, s.level_of_complementary b < s.current_level ∧
    s.level_of_complementary b ≠ kRootLevel
  marked : ∀ g k, (st.s.data g k).wanted = true → (s.data g k).level = s.current_level
  index : st.trail_i < (s.trail_.length : Int)

/-- What holds of the conflict with which a round of the loop of `Analyze` starts: it is the
null reference; or it is a clause that the factory holds, all of whose literals are falsified in
the first round, and all but the literal resolved upon in the later rounds; or it is the domain
of the registered function of the positive literal resolved upon. -/
def RoundOK (s : Solver) (st : AnalyzeState) (conflict : Int) : Prop :=
  conflict = kNullRef ∨
  (conflict ≠ kDomainRef ∧ Live s conflict ∧
    ((AllFalsified s conflict ∧ st.trail_a = Literal.null) ∨
      OthersFalsified s conflict st.trail_a)) ∨
  (conflict = kDomainRef ∧ st.trail_a ∈ s.trail_ ∧ st.trail_a.pos = true ∧
    st.trail_a.lhs < s.funcs_.length ∧ DenseSet.Contains s.funcs_ st.trail_a.lhs = true)

/-- What holds when a round of the loop of `Analyze` starts with the conflict `conflict`: the
conflict is as `RoundOK` says, and in the later rounds the resolvent is true in `M` or the
literal resolved upon is false in `M`. -/
def RoundPre (s : Solver) (M : Nat → Nat) (st : AnalyzeState) (conflict : Int) : Prop :=
  conflict = kNullRef ∨
  (conflict ≠ kDomainRef ∧ Live s conflict ∧
    ((AllFalsified s conflict ∧ st.trail_a = Literal.null) ∨
      (OthersFalsified s conflict st.trail_a ∧
        (Pending s M st ∨ holds M st.trail_a = false)))) ∨
  (conflict = kDomainRef ∧ st.trail_a ∈ s.trail_ ∧ st.trail_a.pos = true ∧
    st.trail_a.lhs < s.funcs_.length ∧ DenseSet.Contains s.funcs_ st.trail_a.lhs = true ∧
    (Pending s M st ∨ holds M st.trail_a = false))

/-- The state in which `Solve` calls `Analyze` for the first time for `compactedInput`. `Init`
enqueues `g ≠ 3` and `f ≠ 3` and propagates `g = 2` from the clause `f = 3 ∨ g = 2`; its
compaction drops `g ≠ 3` from the trail and deletes that clause, the reason of `g = 2`. After
the decisions `f = 9` and `h = 9`, `Propagate` returns the clause `h = 1 ∨ f = 2`. -/
def compactedConflict : Solver × Int :=
  Propagate oneSort (firstDecision oneSort (firstDecision oneSort (Init oneSort compactedInput)))

/-- A model of the clauses of `compactedInput`: `f = 2`, `g = 2`, `h = 1`. -/
def compactedModel : Nat → Nat := fun f => if f = 3 then 1 else 2

end Solver
/-! ## The runs of `Solve` -/

namespace Solver

/-! ### The runs of `Solve` and the invariant of its loop -/

/-- The solvers that are reached from the fresh solver by `AddLiteral` and by `AddClause` with
at least two literals that do not normalise to a single literal, for non-null functions, names
and extra names. -/
inductive Ready (sort extra_name : Nat → Nat) : Solver → Prop
  | fresh : Ready sort extra_name init
  | literal (s : Solver) (a : Literal) :
      Ready sort extra_name s → a.lhs ≠ 0 → a.rhs ≠ 0 → extra_name (sort a.lhs) ≠ 0 →
      Ready sort extra_name (AddLiteral sort extra_name s a)
  | clause (s : Solver) (as : List Literal) :
      Ready sort extra_name s → (Clause.Normalize as).size ≠ 1 → 2 ≤ as.length →
      (∀ a ∈ as, a.lhs ≠ 0 ∧ a.rhs ≠ 0 ∧ extra_name (sort a.lhs) ≠ 0) →
      Ready sort extra_name (AddClause sort extra_name s as)

/-- The state in which a round of the loop of `Solve` ends when `Propagate` has returned a
conflict above the root level: after `Analyze` and `Backtrack(btlevel)` the learnt clause is
enqueued when it is a unit, and otherwise stored, watched and enqueued with itself as the
reason. -/
def conflictRound (sort : Nat → Nat) (s : Solver) : Solver :=
  let r := Propagate sort s
  let an := Analyze sort r.1 r.2
  let s3 := an.1.Backtrack an.2.2
  if an.2.1.length == 1 then Enqueue sort s3 (an.2.1.getD 0 Literal.null) kNullRef
  else
    let nw := s3.clause_factory_.NewNormalized an.2.1
    let s4 : Solver := { s3 with clause_factory_ := nw.2 }
    let s5 : Solver := { s4 with clauses_ := s4.clauses_ ++ [nw.1] }
    let s6 := s5.UpdateWatchers nw.1 (s4.clause nw.1)
    Enqueue sort s6 ((s4.clause nw.1).get 0) nw.1

/-- The states in which the rounds of the loop of `Solve` start, for a solver on which `Init`
was called after it was loaded and left no empty clause. A round with a conflict above the
root level goes on when `Analyze` meets its assertions `trail_i >= 0` and
`conflict != kNullRef`; a round with a decision goes on when the new level fits into the 28
bits of the bit-field `level` of `Data`. -/
inductive Run (sort extra_name : Nat → Nat) : Solver → Prop
  | start (s : Solver) :
      Ready sort extra_name s → (Init sort s).empty_clause_ = false →
      Run sort extra_name (Init sort s)
  | conflict (s : Solver) :
      Run sort extra_name s → (Propagate sort s).2 ≠ kNullRef →
      (Propagate sort s).1.current_level ≠ kRootLevel →
      AnalyzeDefined sort ((Propagate sort s).1.trail_.length + 1)
        (AnalyzeStart (Propagate sort s).1) (Propagate sort s).2 = true →
      AnalyzeResolves sort ((Propagate sort s).1.trail_.length + 1)
        (AnalyzeStart (Propagate sort s).1) (Propagate sort s).2 = true →
      Run sort extra_name (conflictRound sort s)
  | decision (s : Solver) :
      Run sort extra_name s → (Propagate sort s).2 = kNullRef →
      (Propagate sort s).1.order_.Top ≠ 0 →
      (CandidateName sort (Propagate sort s).1 (Propagate sort s).1.order_.Top).1 ≠ 0 →
      (Propagate sort s).1.current_level + 1 < 2 ^ 28 →
      Run sort extra_name (firstDecision sort s)

/-- The pair `(f, n)` is excluded or assigned. -/
def Recorded (s : Solver) (f n : Nat) : Prop :=
  (s.data f n).model_neq = true ∨ (s.model f = n ∧ n ≠ 0)

/-- The invariant of `model_` and `data_`: no pair is excluded and assigned at once; no level
is above the current one; a pair that is excluded or assigned has a level from the root level
on, and is registered; any other pair has the level zero; a name was excluded for a function
no later than the function was assigned; and the current level fits into the bit-field
`level`. -/
structure DataWF (s : Solver) : Prop where
  cons : ∀ f n, (s.data f n).model_neq = true → s.model f ≠ n
  lev : ∀ f n, (s.data f n).level ≤ s.current_level
  set : ∀ f n, Recorded s f n → kRootLevel ≤ (s.data f n).level
  unset : ∀ f n, ¬ Recorded s f n → (s.data f n).level = 0
  below : ∀ f n, (s.data f n).model_neq = true → s.model f ≠ 0 →
    (s.data f n).level ≤ (s.data f (s.model f)).level
  reg : ∀ f n, Recorded s f n → (s.data f n).occurs = true ∧ f ≠ 0 ∧ n ≠ 0
  bits : s.current_level < 2 ^ 28
  root : kRootLevel ≤ s.current_level

/-- The invariant of the trail: its literals are recorded, and it is in order. -/
structure TrailWF (s : Solver) : Prop where
  recd : TrailTrue s
  starts : LevelStarts s
  ontr : OnTrail s
  one : OnePerPair s
  marks : ∀ i, i < s.level_size_.length → s.level_size_.getD i 0 ≤ s.trail_.length

/-- The clause has a literal that is satisfied at the root level. -/
def RootSat (s : Solver) (cr : Int) : Prop :=
  ∃ a ∈ (s.clause cr).lits, s.satisfies a (-1) = true ∧ a.rhs ≠ 0 ∧ s.level_of a ≤ kRootLevel

/-- The reason of the literal `t` is null, or the domain of the function of the positive
literal `t`, or a clause with at least two literals among which is `t`, the others being
falsified at levels up to that of `t`. -/
def ReasonOK (s : Solver) (t : Literal) : Prop :=
  s.reason_of t = kNullRef ∨ (s.reason_of t = kDomainRef ∧ t.pos = true) ∨
  (0 < s.reason_of t ∧ 2 ≤ (s.clause (s.reason_of t)).size ∧
    t ∈ (s.clause (s.reason_of t)).lits ∧
    ∀ a ∈ (s.clause (s.reason_of t)).lits, a = t ∨
      (s.falsifies a (-1) = true ∧ a.rhs ≠ 0 ∧ s.level_of_complementary a ≤ s.level_of t))

/-- A clause that was returned to the factory lies within the pool and has fewer than two
literals or a literal that is satisfied at the root level. -/
def FreedOK (s : Solver) : Prop :=
  ∀ cr ∈ s.clause_factory_.freed, cr.toNat < s.clause_factory_.pool.length ∧
    ((s.clause cr).size < 2 ∨ RootSat s cr)

/-- A registered name is in the name set of the sort of its function. -/
def NamesOK (sort : Nat → Nat) (s : Solver) : Prop :=
  ∀ f n, (s.data f n).occurs = true → (s.names_.getD (sort f) []).getD n 0 = n

/-- The function of a registered pair is in `funcs_`. -/
def FuncsOK (s : Solver) : Prop :=
  ∀ f n, (s.data f n).occurs = true → DenseSet.Contains s.funcs_ f = true

/-- The invariant of the loop of `Solve`. -/
structure WF (sort : Nat → Nat) (s : Solver) : Prop where
  dom : DomInv s
  cls : ClauseInv s
  dat : DataWF s
  trl : TrailWF s
  rsn : ∀ t ∈ s.trail_, ReasonOK s t
  freed : FreedOK s
  wpos : ∀ f, ∀ cr ∈ s.watchers_.getD f [], 0 < cr
  names : NamesOK sort s
  funcs : FuncsOK s
  flags : s.flagsClear = true

/-- The solver `t` keeps what `s` records at the levels up to `l`, and excludes no further name
for a function that `s` has assigned. -/
structure Keeps (l : Nat) (s t : Solver) : Prop where
  model : ∀ g, s.model g ≠ 0 → (s.data g (s.model g)).level ≤ l → t.model g = s.model g
  data : ∀ g k, Recorded s g k → (s.data g k).level ≤ l → t.data g k = s.data g k
  neq : ∀ g k, (t.data g k).model_neq = true → (s.data g k).model_neq = true ∨ s.model g = 0
  factory : t.clause_factory_ = s.clause_factory_

/-- The solver `t` results from `s` when the literal `b` is put on the trail with the reason
`r`: what `Enqueue` does to the trail, `model_` and `data_`. -/
structure Push (s t : Solver) (b : Literal) (r : Int) : Prop where
  trail : t.trail_ = s.trail_ ++ [b]
  levels : t.level_size_ = s.level_size_
  model : ∀ g, t.model g = if b.pos = true ∧ g = b.lhs then b.rhs else s.model g
  data : ∀ g k, t.data g k = if g = b.lhs ∧ k = b.rhs
    then (s.data g k).Update (!b.pos) s.current_level r else s.data g k
  factory : t.clause_factory_ = s.clause_factory_

/-- The solver `t` results from `s` by `Backtrack(l)`: what it does to the trail, the level
marks, `model_` and `data_`. -/
structure Undo (s t : Solver) (l : Nat) : Prop where
  trail : t.trail_ = s.trail_.take (s.level_size_.getD l 0)
  levels : t.level_size_ = s.level_size_.take l
  keep : ∀ g k, (s.data g k).level ≤ l → t.data g k = s.data g k
  reset : ∀ g k, l < (s.data g k).level → t.data g k = (s.data g k).Reset
  model : ∀ g, t.model g = if l < (s.data g (s.model g)).level then 0 else s.model g
  factory : t.clause_factory_ = s.clause_factory_

/-- The literals that the loop of `Analyze` has put into `learnt` behind slot `0` are registered
in the solver `s` on which `Analyze` was called. -/
def LearntRegistered (s : Solver) (st : AnalyzeState) : Prop :=
  Frame s st.s ∧ st.learnt ≠ [] ∧ ∀ b ∈ st.learnt.tail, (s.data b.lhs b.rhs).occurs = true

/-- What the second loop of `Init` keeps at the counters `i` and `n`: the entries of
`clauses_` behind the null reference and before `n` are pairwise distinct positive
references to clauses that are not marked valid; the watched clauses are among the entries
before `i`; no clause is recorded as a reason; and the solver is at the root level. -/
structure ClauseList (s : Solver) (i n : Nat) : Prop where
  low : 1 ≤ i
  len : n ≤ s.clauses_.length
  distinct : ∀ k, k < n → ∀ j, j < k → 1 ≤ j →
    (s.clauses_.getD j 0).toNat ≠ (s.clauses_.getD k 0).toNat
  pos : ∀ j, 1 ≤ j → j < n → 0 < s.clauses_.getD j 0
  valid : ∀ j, 1 ≤ j → j < n → (s.clause (s.clauses_.getD j 0)).valid = false
  watched : ∀ f, ∀ x ∈ s.watchers_.getD f [],
    ∃ j, 1 ≤ j ∧ j < i ∧ j < n ∧ s.clauses_.getD j 0 = x
  noreason : ∀ g k, (s.data g k).reason ≤ 0
  root : s.level_size_ = [0]

/-- What the third loop of `Init` keeps at the counter `i`, with respect to the solver `B` on
which it starts: `model_` and `data_` stay as they are; the trail holds literals of the trail
of `B`, pairwise distinct; the literals before `i` are positive or have an unassigned
function; and a clause that was returned to the factory is the reason of a literal of the
trail of `B`. -/
structure Compacting (B s : Solver) (i : Nat) : Prop where
  model : s.model_ = B.model_
  data : s.data_ = B.data_
  mem : ∀ a ∈ s.trail_, a ∈ B.trail_
  distinct : ∀ p q, p < s.trail_.length → q < s.trail_.length → p ≠ q →
    s.trail_.getD p Literal.null ≠ s.trail_.getD q Literal.null
  kept : ∀ k, k < i → (s.trail_.getD k Literal.null).pos = true ∨
    B.model (s.trail_.getD k Literal.null).lhs = 0
  freed : ∀ cr ∈ s.clause_factory_.freed, cr ∈ B.clause_factory_.freed ∨
    ∃ a ∈ B.trail_, B.reason_of a = cr ∧ cr ≠ kNullRef ∧ cr ≠ kDomainRef

/-- What `Register` keeps while the solver is loaded: the invariant of `data_`; no function is
assigned; no pair is excluded, has a level or a reason, or is marked by `Analyze`; the
registered names and functions are in the sets `names_` and `funcs_`; and every name set is at
least as long as that of the first sort. -/
structure Quiet (sort : Nat → Nat) (s : Solver) : Prop where
  dat : DataInv s
  model : ∀ f, s.model f = 0
  fresh : ∀ f n, (s.data f n).model_neq = false ∧ (s.data f n).level = 0 ∧
    (s.data f n).reason = 0 ∧ (s.data f n).seen_subsumed = false ∧
    (s.data f n).wanted = false
  names : NamesOK sort s
  funcs : FuncsOK s
  ncap : ∀ r, r < s.names_.length → (s.names_.getD 0 []).length ≤ (s.names_.getD r []).length

/-- What `AddLiteral` and `AddClause` leave besides `InitReady`: the solver is at the root
level; the entries of `clauses_` behind the null reference are positive references into the
factory; the clauses that were returned to the factory have fewer than two literals; and the
literals of the trail are registered. -/
structure Prepared (sort : Nat → Nat) (s : Solver) : Prop where
  quiet : Quiet sort s
  root : s.level_size_ = [0]
  clauses : ∀ j, 1 ≤ j → j < s.clauses_.length → 0 < s.clauses_.getD j 0
  freed : ∀ cr ∈ s.clause_factory_.freed, cr.toNat < s.clause_factory_.pool.length ∧
    (s.clause cr).size < 2
  trail : ∀ a ∈ s.trail_, (s.data a.lhs a.rhs).occurs = true
  nonempty : 0 < s.clause_factory_.pool.length

/-- The state in which the round of the loop of `Solve` starts that meets the first conflict for
`compactedInput`: after `Init` and the rounds with the decisions `f = 9` and `h = 9`. -/
def compactedRound : Solver :=
  firstDecision oneSort (firstDecision oneSort (Init oneSort compactedInput))

/-- No two literals of the trail have the same function and the same name; no literal is both
satisfied and falsified; and no name is both assigned to a function and excluded for it. -/
def OneAssignment (s : Solver) : Prop :=
  (∀ j, j < s.trail_.length → ∀ i, i < j →
    ¬ ((s.trail_.getD i Literal.null).lhs = (s.trail_.getD j Literal.null).lhs ∧
      (s.trail_.getD i Literal.null).rhs = (s.trail_.getD j Literal.null).rhs)) ∧
  (∀ a : Literal, ¬ (s.satisfies a (-1) = true ∧ s.falsifies a (-1) = true)) ∧
  (∀ f n, ¬ (s.model f = n ∧ (s.data f n).model_neq = true))

/-- What `Solve` is to leave behind when a callback has asked it to stop: the solver is at the
root level, each literal of its trail was assigned at the root level, and no entry of `data_`
has `seen_subsumed` or `wanted` set. -/
def AtRoot (s : Solver) : Prop :=
  s.current_level = kRootLevel ∧ (∀ a ∈ s.trail_, s.level_of a = kRootLevel) ∧
    s.flagsClear = true

/-- A conflict callback that returns false. -/
def conflictCancel : Unit → Solver → Nat → Int → List Literal → Nat → Bool × Unit :=
  fun _ _ _ _ _ _ => (false, ())

/-- A decision callback that returns true. -/
def decisionGo : Unit → Solver → Nat → Literal → Bool × Unit :=
  fun _ _ _ _ => (true, ())

/-- A decision callback that returns false. -/
def decisionCancel : Unit → Solver → Nat → Literal → Bool × Unit :=
  fun _ _ _ _ => (false, ())

end Solver


/-! ### Bit-level lemmas -/

theorem Bits.testBit_add_four_mul (b y j : Nat) (hb : b < 4) :
    (b + 4 * y).testBit (j + 2) = y.testBit j := by
  rw [show j + 2 = (j + 1) + 1 from rfl, Nat.testBit_add_one, Nat.testBit_add_one]
  congr 1
  omega

theorem Bits.testBit_interleave_even (w hi lo i : Nat) :
    (Bits.interleave w hi lo).testBit (2 * i) = (decide (i < w) && lo.testBit i) := by
  induction w generalizing hi lo i with
  | zero => simp [Bits.interleave]
  | succ w ih =>
    unfold Bits.interleave
    cases i with
    | zero =>
      simp only [Nat.mul_zero, Nat.testBit_zero]
      have : (lo % 2 + 2 * (hi % 2) + 4 * Bits.interleave w (hi / 2) (lo / 2)) % 2 = lo % 2 := by
        omega
      simp [this]
    | succ i =>
      rw [show 2 * (i + 1) = 2 * i + 2 from by ring]
      rw [Bits.testBit_add_four_mul _ _ _ (by omega), ih, Nat.testBit_add_one]
      simp

theorem Bits.testBit_interleave_odd (w hi lo i : Nat) :
    (Bits.interleave w hi lo).testBit (2 * i + 1) = (decide (i < w) && hi.testBit i) := by
  induction w generalizing hi lo i with
  | zero => simp [Bits.interleave]
  | succ w ih =>
    unfold Bits.interleave
    cases i with
    | zero =>
      rw [Nat.testBit_add_one]
      simp only [Nat.mul_zero, Nat.testBit_zero]
      have : (lo % 2 + 2 * (hi % 2) + 4 * Bits.interleave w (hi / 2) (lo / 2)) / 2 % 2
          = hi % 2 := by omega
      simp [this]
    | succ i =>
      rw [show 2 * (i + 1) + 1 = (2 * i + 1) + 2 from by ring]
      rw [Bits.testBit_add_four_mul _ _ _ (by omega), ih, Nat.testBit_add_one]
      simp

theorem Bits.testBit_deinterleave (w z i : Nat) :
    (Bits.deinterleave w z).testBit i = (decide (i < w) && z.testBit (2 * i)) := by
  induction w generalizing z i with
  | zero => simp [Bits.deinterleave]
  | succ w ih =>
    unfold Bits.deinterleave
    cases i with
    | zero =>
      simp only [Nat.mul_zero, Nat.testBit_zero]
      have : (z % 2 + 2 * Bits.deinterleave w (z / 4)) % 2 = z % 2 := by omega
      simp [this]
    | succ i =>
      rw [Nat.testBit_add_one]
      have : (z % 2 + 2 * Bits.deinterleave w (z / 4)) / 2 = Bits.deinterleave w (z / 4) := by
        omega
      rw [this, ih, show 2 * (i + 1) = (2 * i + 1) + 1 from by ring, Nat.testBit_add_one,
        Nat.testBit_add_one]
      have : z / 2 / 2 = z / 4 := by omega
      simp [this]

theorem Bits.testBit_of_lt {x k i : Nat} (hx : x < 2 ^ k) (hi : k ≤ i) : x.testBit i = false :=
  Nat.testBit_lt_two_pow (Nat.lt_of_lt_of_le hx (Nat.pow_le_pow_right (by decide) hi))

theorem Bits.testBit_kHi_odd (i : Nat) : Bits.kHi.testBit (2 * i + 1) = decide (i < 32) := by
  have h : Bits.kHi = Bits.interleave 32 (2 ^ 32 - 1) 0 := by decide
  rw [h, Bits.testBit_interleave_odd, Nat.testBit_two_pow_sub_one]
  simp

theorem Bits.testBit_kHi_even (i : Nat) : Bits.kHi.testBit (2 * i) = false := by
  have h : Bits.kHi = Bits.interleave 32 (2 ^ 32 - 1) 0 := by decide
  rw [h, Bits.testBit_interleave_even]
  simp

theorem Lit.pos_eq_testBit (a : Lit) : a.pos = a.id.testBit 0 := by
  unfold Lit.pos
  rw [Nat.and_one_is_mod, Nat.testBit_zero]
  rcases Nat.mod_two_eq_zero_or_one a.id with h | h <;> simp [h]

theorem Lit.testBit_func (a : Lit) (i : Nat) :
    a.func.testBit i = (decide (i < 32) && a.id.testBit (2 * i + 1)) := by
  unfold Lit.func Bits.split_hi
  rw [Bits.testBit_deinterleave, Nat.testBit_shiftRight, Nat.add_comm 1]

theorem Lit.testBit_name (a : Lit) (i : Nat) :
    a.name.testBit i = (decide (i + 1 < 32) && a.id.testBit (2 * i + 2)) := by
  unfold Lit.name Bits.split_lo
  rw [Nat.testBit_shiftRight, Bits.testBit_deinterleave, Nat.add_comm 1,
    show 2 * (i + 1) = 2 * i + 2 from by ring]

/-- A 64-bit identifier is determined by its polarity, function and name. -/
theorem Lit.eq_iff_parts (a b : Lit) (ha : a.id < 2 ^ 64) (hb : b.id < 2 ^ 64) :
    a = b ↔ a.pos = b.pos ∧ a.func = b.func ∧ a.name = b.name := by
  constructor
  · rintro rfl
    exact ⟨rfl, rfl, rfl⟩
  · rintro ⟨hp, hf, hn⟩
    cases a with | mk x => cases b with | mk y =>
    simp only [Lit.mk.injEq]
    simp only at ha hb
    apply Nat.eq_of_testBit_eq
    intro j
    rcases Nat.lt_or_ge j 64 with hj | hj
    · rcases Nat.even_or_odd' j with ⟨i, rfl | rfl⟩
      · cases i with
        | zero =>
          rw [Lit.pos_eq_testBit, Lit.pos_eq_testBit] at hp
          simpa using hp
        | succ i =>
          have := congrArg (fun v => v.testBit i) hn
          simp only [Lit.testBit_name] at this
          have hi : i + 1 < 32 := by omega
          simpa [hi, show 2 * (i + 1) = 2 * i + 2 from by ring] using this
      · have := congrArg (fun v => v.testBit i) hf
        simp only [Lit.testBit_func] at this
        have hi : i < 32 := by omega
        simpa [hi] using this
    · rw [Bits.testBit_of_lt ha hj, Bits.testBit_of_lt hb hj]

theorem Bits.testBit_one_succ (j : Nat) : Nat.testBit 1 (j + 1) = false := by
  rw [Nat.testBit_add_one]
  simp

theorem Lit.flip_pos (a : Lit) : a.flip.pos = !a.pos := by
  rw [Lit.pos_eq_testBit, Lit.pos_eq_testBit]
  show (a.id ^^^ 1).testBit 0 = !a.id.testBit 0
  rw [Nat.testBit_xor, Nat.testBit_one_zero, Bool.xor_true]

theorem Lit.flip_func (a : Lit) : a.flip.func = a.func := by
  apply Nat.eq_of_testBit_eq
  intro i
  rw [Lit.testBit_func, Lit.testBit_func]
  show (_ && (a.id ^^^ 1).testBit (2 * i + 1)) = _
  rw [Nat.testBit_xor, Bits.testBit_one_succ, Bool.xor_false]

theorem Lit.flip_name (a : Lit) : a.flip.name = a.name := by
  apply Nat.eq_of_testBit_eq
  intro i
  rw [Lit.testBit_name, Lit.testBit_name]
  show (_ && (a.id ^^^ 1).testBit (2 * i + 1 + 1)) = _
  rw [Nat.testBit_xor, Bits.testBit_one_succ, Bool.xor_false]

theorem Lit.flip_flip (a : Lit) : a.flip.flip = a := by
  cases a with | mk x =>
  simp [Lit.flip, Nat.xor_assoc]

theorem Lit.flip_id_lt (a : Lit) (ha : a.id < 2 ^ 64) : a.flip.id < 2 ^ 64 :=
  Nat.xor_lt_two_pow ha (by decide)

theorem Lit.xor_eq_one_iff (a b : Lit) : a.id ^^^ b.id = 1 ↔ a = b.flip := by
  cases a with | mk x => cases b with | mk y =>
  simp only [Lit.flip, Lit.mk.injEq]
  constructor
  · intro h
    have := congrArg (fun v => v ^^^ y) h
    simp only [Nat.xor_cancel_right] at this
    rw [this, Nat.xor_comm]
  · rintro rfl
    rw [Nat.xor_comm y 1, Nat.xor_cancel_right]

theorem Lit.xor_eq_zero_iff (a b : Lit) : a.id ^^^ b.id = 0 ↔ a = b := by
  cases a with | mk x => cases b with | mk y =>
  simp [Nat.xor_eq_zero]

theorem Lit.xor_and_one (a b : Lit) : ((a.id ^^^ b.id) &&& 1 != 0) = (a.pos != b.pos) := by
  have h := Lit.pos_eq_testBit ⟨a.id ^^^ b.id⟩
  unfold Lit.pos at h
  simp only at h
  rw [h, Lit.pos_eq_testBit, Lit.pos_eq_testBit, Nat.testBit_xor]

theorem Lit.xor_and_kHi (a b : Lit) :
    (a.id ^^^ b.id) &&& Bits.kHi = 0 ↔ a.func = b.func := by
  constructor
  · intro h
    apply Nat.eq_of_testBit_eq
    intro i
    rw [Lit.testBit_func, Lit.testBit_func]
    rcases Nat.lt_or_ge i 32 with hi | hi
    · have := congrArg (fun v => v.testBit (2 * i + 1)) h
      simp only [Nat.testBit_and, Nat.testBit_xor, Bits.testBit_kHi_odd, Nat.zero_testBit] at this
      simp only [hi, decide_True, Bool.and_true, Bool.true_and] at this ⊢
      revert this
      cases a.id.testBit (2 * i + 1) <;> cases b.id.testBit (2 * i + 1) <;> simp
    · simp [Nat.not_lt.mpr hi]
  · intro h
    apply Nat.eq_of_testBit_eq
    intro j
    rw [Nat.testBit_and, Nat.testBit_xor, Nat.zero_testBit]
    rcases Nat.even_or_odd' j with ⟨i, rfl | rfl⟩
    · simp [Bits.testBit_kHi_even]
    · rw [Bits.testBit_kHi_odd]
      rcases Nat.lt_or_ge i 32 with hi | hi
      · have := congrArg (fun v => v.testBit i) h
        simp only [Lit.testBit_func, hi, decide_True, Bool.true_and] at this
        simp [this]
      · simp [Nat.not_lt.mpr hi]


theorem Lit.xor_eq_one_parts (a b : Lit) (ha : a.id < 2 ^ 64) (hb : b.id < 2 ^ 64) :
    a.id ^^^ b.id = 1 ↔ a.pos = (!b.pos) ∧ a.func = b.func ∧ a.name = b.name := by
  rw [Lit.xor_eq_one_iff, Lit.eq_iff_parts a b.flip ha (Lit.flip_id_lt b hb), Lit.flip_pos,
    Lit.flip_func, Lit.flip_name]

theorem Lit.xor_eq_zero_parts (a b : Lit) (ha : a.id < 2 ^ 64) (hb : b.id < 2 ^ 64) :
    a.id ^^^ b.id = 0 ↔ a.pos = b.pos ∧ a.func = b.func ∧ a.name = b.name := by
  rw [Lit.xor_eq_zero_iff, Lit.eq_iff_parts a b ha hb]



theorem Lit.Valid_iff (a b : Lit) (ha : a.id < 2 ^ 64) (hb : b.id < 2 ^ 64) :
    a.Valid b = true ↔ a.func = b.func ∧
      ((a.name = b.name ∧ a.pos ≠ b.pos) ∨ (a.pos = false ∧ b.pos = false ∧ a.name ≠ b.name)) := by
  have h1 := Lit.xor_eq_one_parts a b ha hb
  have h0 := Lit.xor_eq_zero_parts a b ha hb
  have hk := Lit.xor_and_kHi a b
  unfold Lit.Valid Lit.neg
  simp only [Bool.or_eq_true, Bool.and_eq_true, beq_iff_eq, bne_iff_ne,
    ne_eq, Bool.not_eq_true']
  rw [h1, h0, hk]
  clear h1 h0 hk ha hb
  generalize a.pos = p
  generalize b.pos = q
  generalize (a.func = b.func) = F
  generalize (a.name = b.name) = G
  cases p <;> cases q <;> simp <;> tauto

theorem Lit.Complementary_iff (a b : Lit) (ha : a.id < 2 ^ 64) (hb : b.id < 2 ^ 64) :
    a.Complementary b = true ↔ a.func = b.func ∧
      ((a.name = b.name ∧ a.pos ≠ b.pos) ∨ (a.pos = true ∧ b.pos = true ∧ a.name ≠ b.name)) := by
  have h1 := Lit.xor_eq_one_parts a b ha hb
  have h0 := Lit.xor_eq_zero_parts a b ha hb
  have hk := Lit.xor_and_kHi a b
  unfold Lit.Complementary
  simp only [Bool.or_eq_true, Bool.and_eq_true, beq_iff_eq, bne_iff_ne, ne_eq]
  rw [h1, h0, hk]
  clear h1 h0 hk ha hb
  generalize a.pos = p
  generalize b.pos = q
  generalize (a.func = b.func) = F
  generalize (a.name = b.name) = G
  cases p <;> cases q <;> simp <;> tauto

theorem Lit.ProperlySubsumes_iff (a b : Lit) (ha : a.id < 2 ^ 64) (hb : b.id < 2 ^ 64) :
    a.ProperlySubsumes b = true ↔
      a.pos = true ∧ b.pos = false ∧ a.func = b.func ∧ a.name ≠ b.name := by
  have h1 := Lit.xor_eq_one_parts a b ha hb
  have hp := Lit.xor_and_one a b
  have hk := Lit.xor_and_kHi a b
  unfold Lit.ProperlySubsumes
  simp only [Bool.and_eq_true, beq_iff_eq]
  rw [hp, hk]
  simp only [bne_iff_ne, ne_eq]
  rw [h1]
  clear h1 hp hk ha hb
  generalize a.pos = p
  generalize b.pos = q
  generalize (a.func = b.func) = F
  generalize (a.name = b.name) = G
  cases p <;> cases q <;> simp <;> tauto

theorem Lit.Subsumes_iff (a b : Lit) (ha : a.id < 2 ^ 64) (hb : b.id < 2 ^ 64) :
    a.Subsumes b = true ↔ (a.pos = b.pos ∧ a.func = b.func ∧ a.name = b.name) ∨
      (a.pos = true ∧ b.pos = false ∧ a.func = b.func ∧ a.name ≠ b.name) := by
  have h1 := Lit.xor_eq_one_parts a b ha hb
  have h0 := Lit.xor_eq_zero_parts a b ha hb
  have hp := Lit.xor_and_one a b
  have hk := Lit.xor_and_kHi a b
  unfold Lit.Subsumes
  simp only [Bool.or_eq_true, Bool.and_eq_true, beq_iff_eq]
  rw [hp, hk, h0]
  simp only [bne_iff_ne, ne_eq]
  rw [h1]
  clear h1 h0 hp hk ha hb
  generalize a.pos = p
  generalize b.pos = q
  generalize (a.func = b.func) = F
  generalize (a.name = b.name) = G
  cases p <;> cases q <;> simp <;> tauto



theorem Lit.holds_iff (M : Nat → Nat) (a : Lit) :
    a.holds M = true ↔ holdsP a.pos a.func a.name M := by
  unfold Lit.holds holdsP
  cases a.pos <;> simp

theorem holdsP_not (p : Bool) (f n : Nat) (M : Nat → Nat) :
    holdsP (!p) f n M ↔ ¬ holdsP p f n M := by
  unfold holdsP
  cases p <;> simp

theorem exists_other {N : Nat → Prop}
    (h3 : ∃ n1 n2 n3, N n1 ∧ N n2 ∧ N n3 ∧ n1 ≠ n2 ∧ n1 ≠ n3 ∧ n2 ≠ n3) (u v : Nat) :
    ∃ x, N x ∧ x ≠ u ∧ x ≠ v := by
  obtain ⟨n1, n2, n3, h1, h2, h3, h12, h13, h23⟩ := h3
  by_cases a1 : n1 ≠ u ∧ n1 ≠ v
  · exact ⟨n1, h1, a1⟩
  · by_cases a2 : n2 ≠ u ∧ n2 ≠ v
    · exact ⟨n2, h2, a2⟩
    · refine ⟨n3, h3, ?_⟩
      omega

/-- Entailment between two literals given by their parts, over a universe `N` of names with at
least three members. -/
theorem entails_parts {N : Nat → Prop}
    (h3 : ∃ n1 n2 n3, N n1 ∧ N n2 ∧ N n3 ∧ n1 ≠ n2 ∧ n1 ≠ n3 ∧ n2 ≠ n3)
    (pa pb : Bool) (fa na fb nb : Nat) (hna : N na) (hnb : N nb) :
    (∀ M : Nat → Nat, (∀ f, N (M f)) → holdsP pa fa na M → holdsP pb fb nb M) ↔
      ((pa = pb ∧ fa = fb ∧ na = nb) ∨ (pa = true ∧ pb = false ∧ fa = fb ∧ na ≠ nb)) := by
  constructor
  · intro h
    by_contra hc
    obtain ⟨x, hx, hxa, hxb⟩ := exists_other h3 na nb
    cases pa <;> cases pb
    · -- f ≠ na entails g ≠ nb
      by_cases hf : fa = fb
      · subst hf
        have hn : na ≠ nb := fun e => hc (Or.inl ⟨rfl, rfl, e⟩)
        have := h (fun _ => nb) (fun _ => hnb) (by simpa [holdsP] using Ne.symm hn)
        simp [holdsP] at this
      · have := h (fun g => if g = fb then nb else x) (fun g => by dsimp only; split <;> assumption)
          (by simpa [holdsP, hf] using hxa)
        simp [holdsP] at this
    · -- f ≠ na entails g = nb
      have := h (fun _ => x) (fun _ => hx) (by simpa [holdsP] using hxa)
      simp [holdsP] at this
      exact hxb this
    · -- f = na entails g ≠ nb
      have hM : ∀ g, N (if g = fa then na else nb) := fun g => by split <;> assumption
      have := h (fun g => if g = fa then na else nb) hM (by simp [holdsP])
      simp only [holdsP, Bool.false_eq_true, if_false, ne_eq] at this
      by_cases hf : fb = fa
      · subst hf
        simp only [if_true] at this
        exact hc (Or.inr ⟨rfl, rfl, rfl, this⟩)
      · simp [hf] at this
    · -- f = na entails g = nb
      by_cases hf : fa = fb
      · subst hf
        have := h (fun _ => na) (fun _ => hna) (by simp [holdsP])
        simp only [holdsP, if_true] at this
        exact hc (Or.inl ⟨rfl, rfl, this⟩)
      · have := h (fun g => if g = fa then na else x) (fun g => by dsimp only; split <;> assumption)
          (by simp [holdsP])
        simp only [holdsP, if_true] at this
        rw [if_neg (fun e => hf e.symm)] at this
        exact hxb this
  · rintro (⟨rfl, rfl, rfl⟩ | ⟨rfl, rfl, rfl, hn⟩)
    · intro M _ h
      exact h
    · intro M _ h
      simp only [holdsP, if_true, Bool.false_eq_true, if_false] at h ⊢
      rw [h]
      exact hn


theorem Lit.new_parts (p : Bool) (f n : Nat) (hf : f < 2 ^ 32) (hn : n < 2 ^ 31) :
    (Lit.new p f n).pos = p ∧ (Lit.new p f n).func = f ∧ (Lit.new p f n).name = n := by
  have hlo : ((n <<< 1) % 2 ^ 32) ||| p.toNat = 2 * n + p.toNat := by
    have h1 : (n <<< 1) % 2 ^ 32 = 2 * n := by
      rw [Nat.shiftLeft_eq, Nat.pow_one, Nat.mul_comm]
      exact Nat.mod_eq_of_lt (by omega)
    rw [h1]
    apply Nat.eq_of_testBit_eq
    intro j
    rw [Nat.testBit_or]
    cases j with
    | zero => cases p <;> simp [Nat.testBit_zero, Nat.add_mod]
    | succ j =>
      rw [Nat.testBit_add_one, Nat.testBit_add_one, Nat.testBit_add_one]
      have e1 : 2 * n / 2 = n := by omega
      have e2 : (2 * n + p.toNat) / 2 = n := by cases p <;> simp <;> omega
      have e3 : p.toNat / 2 = 0 := by cases p <;> simp
      rw [e1, e2, e3]
      simp
  refine ⟨?_, ?_, ?_⟩
  · rw [Lit.pos_eq_testBit]
    show (Bits.interleave 32 f (((n <<< 1) % 2 ^ 32) ||| p.toNat)).testBit 0 = p
    rw [hlo, show (0 : Nat) = 2 * 0 from rfl, Bits.testBit_interleave_even, Nat.testBit_zero]
    cases p <;> simp [Nat.add_mod]
  · apply Nat.eq_of_testBit_eq
    intro i
    rw [Lit.testBit_func]
    show (_ && (Bits.interleave 32 f (((n <<< 1) % 2 ^ 32) ||| p.toNat)).testBit (2 * i + 1)) = _
    rw [Bits.testBit_interleave_odd]
    rcases Nat.lt_or_ge i 32 with hi | hi
    · simp [hi]
    · simp [Nat.not_lt.mpr hi, Bits.testBit_of_lt hf hi]
  · apply Nat.eq_of_testBit_eq
    intro i
    rw [Lit.testBit_name]
    show (_ && (Bits.interleave 32 f (((n <<< 1) % 2 ^ 32) ||| p.toNat)).testBit (2 * i + 2)) = _
    rw [hlo, show 2 * i + 2 = 2 * (i + 1) from by ring, Bits.testBit_interleave_even,
      Nat.testBit_add_one]
    have e2 : (2 * n + p.toNat) / 2 = n := by cases p <;> simp <;> omega
    rw [e2]
    rcases Nat.lt_or_ge (i + 1) 32 with hi | hi
    · simp [hi]
    · have : 31 ≤ i := by omega
      simp [Nat.not_lt.mpr hi, Bits.testBit_of_lt hn this]

/-- C4 (as stated, refuted): the name with id `2 ^ 31` is a non-zero 32-bit id, yet the literal
built from it does not give the name back. -/
theorem Lit.C4_roundtrip_fails_at_top_bit :
    ¬ (∀ (p : Bool) (f n : Nat), 0 < f → f < 2 ^ 32 → 0 < n → n < 2 ^ 32 →
      (Lit.new p f n).pos = p ∧ (Lit.new p f n).func = f ∧ (Lit.new p f n).name = n) := by
  intro h
  have := (h true 1 (2 ^ 31) (by decide) (by decide) (by decide) (by decide)).2.2
  revert this
  decide

/-- C4 (amended): for every polarity `p`, every 32-bit function id `f` and every name id `n`
below `2 ^ 31`, the literal `Lit(p, f, n)` has polarity `p`, function `f` and name `n`. -/
theorem Lit.C4_roundtrip (p : Bool) (f n : Nat) (hf : f < 2 ^ 32) (hn : n < 2 ^ 31) :
    (Lit.new p f n).pos = p ∧ (Lit.new p f n).func = f ∧ (Lit.new p f n).name = n :=
  Lit.new_parts p f n hf hn

/-- Witness for C4 (amended): the literal `5 ≠ 7`. -/
theorem Lit.C4_roundtrip_witness :
    (5 < 2 ^ 32 ∧ 7 < 2 ^ 31) ∧
      ((Lit.new false 5 7).pos = false ∧ (Lit.new false 5 7).func = 5 ∧
        (Lit.new false 5 7).name = 7) :=
  ⟨by decide, Lit.C4_roundtrip false 5 7 (by decide) (by decide)⟩


/-- C5: `Lit::Subsumes(a, b)` holds iff every assignment of names to functions that satisfies `a`
also satisfies `b`. The names range over a set `N` with at least three members, to which the
names of `a` and `b` belong; an assignment satisfies `f = n` iff it maps `f` to `n` and
satisfies `f ≠ n` iff it maps `f` to another name. -/
theorem Lit.C5_Subsumes_iff_entails (N : Nat → Prop)
    (h3 : ∃ n1 n2 n3, N n1 ∧ N n2 ∧ N n3 ∧ n1 ≠ n2 ∧ n1 ≠ n3 ∧ n2 ≠ n3)
    (a b : Lit) (ha : a.id < 2 ^ 64) (hb : b.id < 2 ^ 64) (hna : N a.name) (hnb : N b.name) :
    a.Subsumes b = true ↔
      ∀ M : Nat → Nat, (∀ f, N (M f)) → a.holds M = true → b.holds M = true := by
  rw [Lit.Subsumes_iff a b ha hb, ← entails_parts h3 a.pos b.pos a.func a.name b.func b.name hna hnb]
  simp only [Lit.holds_iff]

/-- Witness for C5: the literals `1 = 1` and `1 ≠ 2`, the names being all the numbers. -/
theorem Lit.C5_Subsumes_iff_entails_witness :
    (∃ n1 n2 n3 : Nat, True ∧ True ∧ True ∧ n1 ≠ n2 ∧ n1 ≠ n3 ∧ n2 ≠ n3) ∧
      (Lit.Eq 1 1).id < 2 ^ 64 ∧ (Lit.Neq 1 2).id < 2 ^ 64 ∧
      ((Lit.Eq 1 1).Subsumes (Lit.Neq 1 2) = true ↔
        ∀ M : Nat → Nat, (∀ _ : Nat, True) →
          (Lit.Eq 1 1).holds M = true → (Lit.Neq 1 2).holds M = true) :=
  ⟨⟨1, 2, 3, trivial, trivial, trivial, by decide, by decide, by decide⟩, by decide, by decide,
    Lit.C5_Subsumes_iff_entails (fun _ => True)
      ⟨1, 2, 3, trivial, trivial, trivial, by decide, by decide, by decide⟩
      (Lit.Eq 1 1) (Lit.Neq 1 2) (by decide) (by decide) trivial trivial⟩

/-- C6: `Lit::Valid(a, b)` holds iff `a` and `b` have the same function and either the same name
and opposite polarities, or both are negative and their names differ. -/
theorem Lit.C6_Valid_table (a b : Lit) (ha : a.id < 2 ^ 64) (hb : b.id < 2 ^ 64) :
    a.Valid b = true ↔ a.func = b.func ∧
      ((a.name = b.name ∧ a.pos ≠ b.pos) ∨ (a.pos = false ∧ b.pos = false ∧ a.name ≠ b.name)) :=
  Lit.Valid_iff a b ha hb

/-- Witness for C6: the literals `4 ≠ 1` and `4 ≠ 2`. -/
theorem Lit.C6_Valid_table_witness :
    ((Lit.Neq 4 1).id < 2 ^ 64 ∧ (Lit.Neq 4 2).id < 2 ^ 64) ∧
      ((Lit.Neq 4 1).Valid (Lit.Neq 4 2) = true ↔ (Lit.Neq 4 1).func = (Lit.Neq 4 2).func ∧
        (((Lit.Neq 4 1).name = (Lit.Neq 4 2).name ∧ (Lit.Neq 4 1).pos ≠ (Lit.Neq 4 2).pos) ∨
          ((Lit.Neq 4 1).pos = false ∧ (Lit.Neq 4 2).pos = false ∧
            (Lit.Neq 4 1).name ≠ (Lit.Neq 4 2).name))) :=
  ⟨by decide, Lit.C6_Valid_table (Lit.Neq 4 1) (Lit.Neq 4 2) (by decide) (by decide)⟩

/-- C7: `Lit::Complementary(a, b)` holds iff `a` and `b` have the same function and either the
same name and opposite polarities, or both are positive and their names differ; and it holds
iff no assignment satisfies both `a` and `b`. The names range over a set `N` with at least
three members, to which the names of `a` and `b` belong. -/
theorem Lit.C7_Complementary_table (N : Nat → Prop)
    (h3 : ∃ n1 n2 n3, N n1 ∧ N n2 ∧ N n3 ∧ n1 ≠ n2 ∧ n1 ≠ n3 ∧ n2 ≠ n3)
    (a b : Lit) (ha : a.id < 2 ^ 64) (hb : b.id < 2 ^ 64) (hna : N a.name) (hnb : N b.name) :
    (a.Complementary b = true ↔ a.func = b.func ∧
      ((a.name = b.name ∧ a.pos ≠ b.pos) ∨ (a.pos = true ∧ b.pos = true ∧ a.name ≠ b.name))) ∧
    (a.Complementary b = true ↔
      ¬ ∃ M : Nat → Nat, (∀ f, N (M f)) ∧ a.holds M = true ∧ b.holds M = true) := by
  refine ⟨Lit.Complementary_iff a b ha hb, ?_⟩
  have h := entails_parts h3 a.pos (!b.pos) a.func a.name b.func b.name hna hnb
  simp only [holdsP_not] at h
  have e : (¬ ∃ M : Nat → Nat, (∀ f, N (M f)) ∧ a.holds M = true ∧ b.holds M = true) ↔
      ∀ M : Nat → Nat, (∀ f, N (M f)) → holdsP a.pos a.func a.name M →
        ¬ holdsP b.pos b.func b.name M := by
    simp only [Lit.holds_iff, not_exists, not_and]
  rw [e, h, Lit.Complementary_iff a b ha hb]
  clear h e ha hb
  generalize a.pos = p
  generalize b.pos = q
  generalize (a.func = b.func) = F
  generalize (a.name = b.name) = G
  cases p <;> cases q <;> simp

/-- Witness for C7: the literals `1 = 1` and `1 = 2`, the names being all the numbers. -/
theorem Lit.C7_Complementary_table_witness :
    (∃ n1 n2 n3 : Nat, True ∧ True ∧ True ∧ n1 ≠ n2 ∧ n1 ≠ n3 ∧ n2 ≠ n3) ∧
      (Lit.Eq 1 1).id < 2 ^ 64 ∧ (Lit.Eq 1 2).id < 2 ^ 64 ∧
      (((Lit.Eq 1 1).Complementary (Lit.Eq 1 2) = true ↔
        (Lit.Eq 1 1).func = (Lit.Eq 1 2).func ∧
          (((Lit.Eq 1 1).name = (Lit.Eq 1 2).name ∧ (Lit.Eq 1 1).pos ≠ (Lit.Eq 1 2).pos) ∨
            ((Lit.Eq 1 1).pos = true ∧ (Lit.Eq 1 2).pos = true ∧
              (Lit.Eq 1 1).name ≠ (Lit.Eq 1 2).name))) ∧
       ((Lit.Eq 1 1).Complementary (Lit.Eq 1 2) = true ↔
        ¬ ∃ M : Nat → Nat, (∀ _ : Nat, True) ∧
          (Lit.Eq 1 1).holds M = true ∧ (Lit.Eq 1 2).holds M = true)) :=
  ⟨⟨1, 2, 3, trivial, trivial, trivial, by decide, by decide, by decide⟩, by decide, by decide,
    Lit.C7_Complementary_table (fun _ => True)
      ⟨1, 2, 3, trivial, trivial, trivial, by decide, by decide, by decide⟩
      (Lit.Eq 1 1) (Lit.Eq 1 2) (by decide) (by decide) trivial trivial⟩

/-- C8: `Lit::ProperlySubsumes(a, b)` holds iff `a` is a positive literal `f = n1` and `b` is a
negative literal `f ≠ n2` on the same function with `n1 ≠ n2`. -/
theorem Lit.C8_ProperlySubsumes_table (a b : Lit) (ha : a.id < 2 ^ 64) (hb : b.id < 2 ^ 64) :
    a.ProperlySubsumes b = true ↔
      a.pos = true ∧ b.pos = false ∧ a.func = b.func ∧ a.name ≠ b.name :=
  Lit.ProperlySubsumes_iff a b ha hb

/-- Witness for C8: the literals `6 = 1` and `6 ≠ 2`. -/
theorem Lit.C8_ProperlySubsumes_table_witness :
    ((Lit.Eq 6 1).id < 2 ^ 64 ∧ (Lit.Neq 6 2).id < 2 ^ 64) ∧
      ((Lit.Eq 6 1).ProperlySubsumes (Lit.Neq 6 2) = true ↔
        (Lit.Eq 6 1).pos = true ∧ (Lit.Neq 6 2).pos = false ∧
          (Lit.Eq 6 1).func = (Lit.Neq 6 2).func ∧ (Lit.Eq 6 1).name ≠ (Lit.Neq 6 2).name) :=
  ⟨by decide, Lit.C8_ProperlySubsumes_table (Lit.Eq 6 1) (Lit.Neq 6 2) (by decide) (by decide)⟩

/-- C9: for every literal `a`, `a.flip()` has the function and the name of `a` and the opposite
polarity, its identifier differs from that of `a` exactly in bit 0, and flipping twice gives
`a` back. -/
theorem Lit.C9_flip (a : Lit) :
    a.flip.func = a.func ∧ a.flip.name = a.name ∧ a.flip.pos = (!a.pos) ∧
      a.flip.id ^^^ a.id = 1 ∧ a.flip.flip = a := by
  refine ⟨Lit.flip_func a, Lit.flip_name a, Lit.flip_pos a, ?_, Lit.flip_flip a⟩
  show (a.id ^^^ 1) ^^^ a.id = 1
  rw [Nat.xor_comm a.id 1, Nat.xor_cancel_right]


/-! ### The solver: reads and writes of the dense maps -/

theorem getD_set_same {α : Type} (l : List α) (i : Nat) (a d : α) (h : i < l.length) :
    (l.set i a).getD i d = a := by
  simp [List.getD_eq_getElem?_getD, List.getElem?_set_self h]

theorem getD_set_ne {α : Type} (l : List α) (i j : Nat) (a d : α) (h : i ≠ j) :
    (l.set i a).getD j d = l.getD j d := by
  simp [List.getD_eq_getElem?_getD, List.getElem?_set_ne h]

theorem getD_set_eq {α : Type} (l : List α) (i j : Nat) (a d : α) :
    (l.set i a).getD j d = if i = j ∧ i < l.length then a else l.getD j d := by
  by_cases h : i = j
  · subst h
    by_cases hl : i < l.length
    · rw [if_pos ⟨rfl, hl⟩]
      exact getD_set_same _ _ _ _ hl
    · have hc : ¬ (i = i ∧ i < l.length) := fun e => hl e.2
      rw [if_neg hc, List.set_eq_of_length_le (Nat.le_of_not_lt hl)]
  · have hc : ¬ (i = j ∧ i < l.length) := fun e => h e.1
    rw [if_neg hc]
    exact getD_set_ne _ _ _ _ _ h

namespace Solver

theorem data_setData_same (s : Solver) (f n : Nat) (d : Data) (h1 : f < s.data_.length)
    (h2 : n < (s.data_.getD f []).length) : (s.setData f n d).data f n = d := by
  unfold data setData
  simp only
  rw [getD_set_same _ _ _ _ h1, getD_set_same _ _ _ _ h2]

theorem data_setData_ne (s : Solver) (f n f1 n1 : Nat) (d : Data) (h : f1 ≠ f ∨ n1 ≠ n) :
    (s.setData f n d).data f1 n1 = s.data f1 n1 := by
  unfold data setData
  simp only
  by_cases hf : f = f1
  · subst hf
    have hn : n ≠ n1 := by
      rcases h with h | h
      · exact absurd rfl h
      · exact fun e => h e.symm
    by_cases hlen : f < s.data_.length
    · rw [getD_set_same _ _ _ _ hlen, getD_set_ne _ _ _ _ _ hn]
    · rw [List.set_eq_of_length_le (Nat.le_of_not_lt hlen)]
  · rw [getD_set_ne _ _ _ _ _ hf]

theorem model_setData (s : Solver) (f n : Nat) (d : Data) : (s.setData f n d).model_ = s.model_ :=
  rfl

theorem length_data_setData (s : Solver) (f n : Nat) (d : Data) :
    (s.setData f n d).data_.length = s.data_.length := by
  simp [setData]

theorem row_length_setData (s : Solver) (f n g : Nat) (d : Data) :
    ((s.setData f n d).data_.getD g []).length = (s.data_.getD g []).length := by
  unfold setData
  simp only
  by_cases hf : f = g
  · subst hf
    by_cases hlen : f < s.data_.length
    · rw [getD_set_same _ _ _ _ hlen, List.length_set]
    · rw [List.set_eq_of_length_le (Nat.le_of_not_lt hlen)]
  · rw [getD_set_ne _ _ _ _ _ hf]

/-! ### The solver: what the elementary steps leave alone -/

@[simp] theorem pushTrail_model_ (s : Solver) (a : Literal) : (s.pushTrail a).model_ = s.model_ :=
  rfl

@[simp] theorem pushTrail_data_ (s : Solver) (a : Literal) : (s.pushTrail a).data_ = s.data_ :=
  rfl

@[simp] theorem pushTrail_empty_clause_ (s : Solver) (a : Literal) :
    (s.pushTrail a).empty_clause_ = s.empty_clause_ := rfl

@[simp] theorem setModel_model_ (s : Solver) (f n : Nat) :
    (s.setModel f n).model_ = s.model_.set f n := rfl

@[simp] theorem setModel_data_ (s : Solver) (f n : Nat) : (s.setModel f n).data_ = s.data_ := rfl

@[simp] theorem setModel_empty_clause_ (s : Solver) (f n : Nat) :
    (s.setModel f n).empty_clause_ = s.empty_clause_ := rfl

@[simp] theorem setDomainSize_model_ (s : Solver) (f : Nat) (v : Int) :
    (s.setDomainSize f v).model_ = s.model_ := rfl

@[simp] theorem setDomainSize_data_ (s : Solver) (f : Nat) (v : Int) :
    (s.setDomainSize f v).data_ = s.data_ := rfl

@[simp] theorem setDomainSize_empty_clause_ (s : Solver) (f : Nat) (v : Int) :
    (s.setDomainSize f v).empty_clause_ = s.empty_clause_ := rfl

@[simp] theorem orderRemove_model_ (s : Solver) (f : Nat) : (s.orderRemove f).model_ = s.model_ :=
  rfl

@[simp] theorem orderRemove_data_ (s : Solver) (f : Nat) : (s.orderRemove f).data_ = s.data_ :=
  rfl

@[simp] theorem orderRemove_empty_clause_ (s : Solver) (f : Nat) :
    (s.orderRemove f).empty_clause_ = s.empty_clause_ := rfl

@[simp] theorem orderIncrease_model_ (s : Solver) (f : Nat) :
    (s.orderIncrease f).model_ = s.model_ := by
  unfold orderIncrease
  split <;> rfl

@[simp] theorem orderIncrease_data_ (s : Solver) (f : Nat) :
    (s.orderIncrease f).data_ = s.data_ := by
  unfold orderIncrease
  split <;> rfl

@[simp] theorem orderIncrease_empty_clause_ (s : Solver) (f : Nat) :
    (s.orderIncrease f).empty_clause_ = s.empty_clause_ := by
  unfold orderIncrease
  split <;> rfl

@[simp] theorem setData_model_ (s : Solver) (f n : Nat) (d : Data) :
    (s.setData f n d).model_ = s.model_ := rfl

@[simp] theorem setData_empty_clause_ (s : Solver) (f n : Nat) (d : Data) :
    (s.setData f n d).empty_clause_ = s.empty_clause_ := rfl

@[simp] theorem BumpToFront_model_ (s : Solver) (f : Nat) : (s.BumpToFront f).model_ = s.model_ := by
  simp [BumpToFront]

@[simp] theorem BumpToFront_data_ (s : Solver) (f : Nat) : (s.BumpToFront f).data_ = s.data_ := by
  simp [BumpToFront]

@[simp] theorem BumpToFront_empty_clause_ (s : Solver) (f : Nat) :
    (s.BumpToFront f).empty_clause_ = s.empty_clause_ := by
  simp [BumpToFront]

theorem data_congr {s t : Solver} (h : s.data_ = t.data_) (f n : Nat) : s.data f n = t.data f n := by
  unfold data
  rw [h]

theorem model_congr {s t : Solver} (h : s.model_ = t.model_) (f : Nat) : s.model f = t.model f := by
  unfold model
  rw [h]

theorem model_setModel_same (s : Solver) (f n : Nat) (h : f < s.model_.length) :
    (s.setModel f n).model f = n := by
  unfold model
  rw [setModel_model_, getD_set_same _ _ _ _ h]

theorem model_setModel_ne (s : Solver) (f g n : Nat) (h : f ≠ g) :
    (s.setModel f n).model g = s.model g := by
  unfold model
  rw [setModel_model_, getD_set_ne _ _ _ _ _ h]

theorem CandidateNameDown_spec (s : Solver) (f : Nat) (names : List Nat) (k i n : Nat)
    (h : CandidateNameDown s f names k = some (i, n)) :
    (s.data f n).occurs = true ∧ (s.data f n).model_neq = false := by
  induction k with
  | zero => simp [CandidateNameDown] at h
  | succ k ih =>
    unfold CandidateNameDown at h
    simp only at h
    split at h
    · rename_i hc
      simp only [Option.some.injEq, Prod.mk.injEq] at h
      obtain ⟨-, rfl⟩ := h
      simp only [Bool.and_eq_true, Bool.not_eq_true'] at hc
      exact ⟨hc.1.2, hc.2⟩
    · exact ih h

theorem CandidateNameWrap_spec (s : Solver) (f : Nat) (names : List Nat) (offset k i n : Nat)
    (h : CandidateNameWrap s f names offset k = some (i, n)) :
    (s.data f n).occurs = true ∧ (s.data f n).model_neq = false := by
  induction k with
  | zero => simp [CandidateNameWrap] at h
  | succ k ih =>
    unfold CandidateNameWrap at h
    simp only at h
    split at h
    · rename_i hc
      simp only [Option.some.injEq, Prod.mk.injEq] at h
      obtain ⟨-, rfl⟩ := h
      simp only [Bool.and_eq_true, Bool.not_eq_true'] at hc
      exact ⟨hc.1.2, hc.2⟩
    · exact ih h

theorem CandidateNameFind_spec (sort : Nat → Nat) (s : Solver) (f i n : Nat)
    (h : CandidateNameFind sort s f = some (i, n)) :
    (s.data f n).occurs = true ∧ (s.data f n).model_neq = false := by
  unfold CandidateNameFind at h
  dsimp only at h
  split at h
  · rename_i r hr
    rw [Option.some.injEq] at h
    subst h
    exact CandidateNameDown_spec s f _ _ i n hr
  · exact CandidateNameWrap_spec s f _ _ _ i n h

/-- The name found by `CandidateName` is null or occurs with the function and is not excluded. -/
theorem CandidateName_found (sort : Nat → Nat) (s : Solver) (f : Nat) :
    (CandidateName sort s f).1 = 0 ∨
      ((s.data f (CandidateName sort s f).1).occurs = true ∧
        (s.data f (CandidateName sort s f).1).model_neq = false) := by
  unfold CandidateName
  cases h : CandidateNameFind sort s f with
  | none => exact Or.inl rfl
  | some r =>
    obtain ⟨i, n⟩ := r
    exact Or.inr (CandidateNameFind_spec sort s f i n h)

@[simp] theorem CandidateName_model_ (sort : Nat → Nat) (s : Solver) (f : Nat) :
    (CandidateName sort s f).2.model_ = s.model_ := by
  unfold CandidateName
  cases CandidateNameFind sort s f <;> rfl

@[simp] theorem CandidateName_data_ (sort : Nat → Nat) (s : Solver) (f : Nat) :
    (CandidateName sort s f).2.data_ = s.data_ := by
  unfold CandidateName
  cases CandidateNameFind sort s f <;> rfl

@[simp] theorem CandidateName_empty_clause_ (sort : Nat → Nat) (s : Solver) (f : Nat) :
    (CandidateName sort s f).2.empty_clause_ = s.empty_clause_ := by
  unfold CandidateName
  cases CandidateNameFind sort s f <;> rfl

theorem satisfies_iff (s : Solver) (a : Literal) :
    s.satisfies a (-1) = true ↔
      (a.pos = true ∧ s.model a.lhs = a.rhs) ∨
      (a.pos = false ∧
        ((s.model a.lhs ≠ 0 ∧ s.model a.lhs ≠ a.rhs) ∨ (s.data a.lhs a.rhs).model_neq = true)) := by
  unfold satisfies
  cases a.pos <;> simp

theorem falsifies_iff (s : Solver) (a : Literal) :
    s.falsifies a (-1) = true ↔
      (a.pos = false ∧ s.model a.lhs = a.rhs) ∨
      (a.pos = true ∧
        ((s.model a.lhs ≠ 0 ∧ s.model a.lhs ≠ a.rhs) ∨ (s.data a.lhs a.rhs).model_neq = true)) := by
  unfold falsifies
  cases a.pos <;> simp

/-! ### The solver: `Enqueue` -/

theorem data_setData_or (s : Solver) (f n g k : Nat) (d : Data) :
    (s.setData f n d).data g k = s.data g k ∨
      (g = f ∧ k = n ∧ (s.setData f n d).data g k = d) := by
  by_cases h : g = f ∧ k = n
  · obtain ⟨rfl, rfl⟩ := h
    by_cases h1 : g < s.data_.length
    · by_cases h2 : k < (s.data_.getD g []).length
      · exact Or.inr ⟨rfl, rfl, data_setData_same s g k d h1 h2⟩
      · left
        unfold data setData
        dsimp only
        rw [getD_set_same _ _ _ _ h1, List.set_eq_of_length_le (Nat.le_of_not_lt h2)]
    · left
      unfold data setData
      dsimp only
      rw [List.set_eq_of_length_le (Nat.le_of_not_lt h1)]
  · left
    apply data_setData_ne
    by_cases hg : g = f
    · exact Or.inr (fun e => h ⟨hg, e⟩)
    · exact Or.inl hg

theorem EnqueueDomain_empty_clause_ (sort : Nat → Nat) (s : Solver) (f : Nat) :
    (EnqueueDomain sort s f).empty_clause_ = s.empty_clause_ := by
  simp [EnqueueDomain]

theorem EnqueueDomain_length_model_ (sort : Nat → Nat) (s : Solver) (f : Nat) :
    (EnqueueDomain sort s f).model_.length = s.model_.length := by
  simp [EnqueueDomain]

theorem EnqueueDomain_length_data_ (sort : Nat → Nat) (s : Solver) (f : Nat) :
    (EnqueueDomain sort s f).data_.length = s.data_.length := by
  simp [EnqueueDomain, length_data_setData]

theorem EnqueueDomain_row_length (sort : Nat → Nat) (s : Solver) (f g : Nat) :
    ((EnqueueDomain sort s f).data_.getD g []).length = (s.data_.getD g []).length := by
  unfold EnqueueDomain
  dsimp only
  rw [orderRemove_data_, setModel_data_, row_length_setData, pushTrail_data_, CandidateName_data_]

theorem EnqueueDomain_model_ne (sort : Nat → Nat) (s : Solver) (f g : Nat) (h : f ≠ g) :
    (EnqueueDomain sort s f).model g = s.model g := by
  unfold EnqueueDomain
  dsimp only
  rw [model_congr (orderRemove_model_ _ _), model_setModel_ne _ _ _ _ h]
  apply model_congr
  simp

theorem EnqueueDomain_neq_keep (sort : Nat → Nat) (s : Solver) (f g k : Nat) (hk : k ≠ 0)
    (h : (s.data g k).model_neq = true) :
    ((EnqueueDomain sort s f).data g k).model_neq = true := by
  unfold EnqueueDomain
  dsimp only
  have hfound := CandidateName_found sort s f
  have hdata := CandidateName_data_ sort s f
  generalize CandidateName sort s f = r at hfound hdata ⊢
  rw [data_congr (orderRemove_data_ _ _), data_congr (setModel_data_ _ _ _)]
  rcases data_setData_or (r.2.pushTrail (Literal.Eq f r.1)) f r.1 g k
      (((r.2.pushTrail (Literal.Eq f r.1)).data f r.1).Update false
        (r.2.pushTrail (Literal.Eq f r.1)).current_level kDomainRef) with e | ⟨hg, hkn, -⟩
  · rw [e, data_congr (pushTrail_data_ _ _), data_congr hdata]
    exact h
  · exfalso
    subst hg hkn
    rcases hfound with e | ⟨-, e⟩
    · exact hk e
    · rw [h] at e
      exact absurd e (by decide)

theorem Enqueue_empty_clause_ (sort : Nat → Nat) (s : Solver) (a : Literal) (r : Int) :
    (Enqueue sort s a r).empty_clause_ = s.empty_clause_ := by
  unfold Enqueue
  dsimp only
  split
  · split
    · simp
    · split <;> simp [EnqueueDomain_empty_clause_]
  · rfl

theorem Enqueue_length_model_ (sort : Nat → Nat) (s : Solver) (a : Literal) (r : Int) :
    (Enqueue sort s a r).model_.length = s.model_.length := by
  unfold Enqueue
  dsimp only
  split
  · split
    · simp
    · split <;> simp [EnqueueDomain_length_model_]
  · rfl

theorem Enqueue_length_data_ (sort : Nat → Nat) (s : Solver) (a : Literal) (r : Int) :
    (Enqueue sort s a r).data_.length = s.data_.length := by
  unfold Enqueue
  dsimp only
  split
  · split
    · simp [length_data_setData]
    · split <;> simp [length_data_setData, EnqueueDomain_length_data_]
  · rfl

theorem Enqueue_row_length (sort : Nat → Nat) (s : Solver) (a : Literal) (r : Int) (g : Nat) :
    ((Enqueue sort s a r).data_.getD g []).length = (s.data_.getD g []).length := by
  unfold Enqueue
  dsimp only
  split
  · split
    · rw [orderRemove_data_, setModel_data_, row_length_setData]
      rfl
    · split
      · rw [EnqueueDomain_row_length, setDomainSize_data_, row_length_setData]
        rfl
      · rw [BumpToFront_data_, setDomainSize_data_, row_length_setData]
        rfl
  · rfl

/-- A function that has a name keeps it through `Enqueue`. -/
theorem Enqueue_model_keep (sort : Nat → Nat) (s : Solver) (a : Literal) (r : Int) (g : Nat)
    (hg : s.model g ≠ 0) : (Enqueue sort s a r).model g = s.model g := by
  unfold Enqueue
  dsimp only
  split
  · rename_i hc
    simp only [Bool.and_eq_true, beq_iff_eq] at hc
    have hne : a.lhs ≠ g := fun e => hg (e ▸ hc.1)
    split
    · rw [model_congr (orderRemove_model_ _ _), model_setModel_ne _ _ _ _ hne]
      rfl
    · split
      · rw [EnqueueDomain_model_ne _ _ _ _ hne]
        rfl
      · apply model_congr
        simp
  · rfl

/-- An exclusion `g ≠ k` with a non-null name stays in force through the `Enqueue` of a literal
that is not falsified. -/
theorem Enqueue_neq_keep (sort : Nat → Nat) (s : Solver) (a : Literal) (r : Int) (g k : Nat)
    (ha : s.falsifies a (-1) = false) (hk : k ≠ 0) (h : (s.data g k).model_neq = true) :
    ((Enqueue sort s a r).data g k).model_neq = true := by
  have hfa := (falsifies_iff s a).not
  rw [ha] at hfa
  simp only [Bool.false_eq_true, not_false_eq_true, true_iff, not_or, not_and] at hfa
  unfold Enqueue
  dsimp only
  split
  · cases hp : a.pos
    · -- a negative literal
      have hstep : ((((s.pushTrail a).setData a.lhs a.rhs
            ((s.data a.lhs a.rhs).Update (!false) s.current_level r)).data g k).model_neq)
            = true := by
        rcases data_setData_or (s.pushTrail a) a.lhs a.rhs g k
            ((s.data a.lhs a.rhs).Update (!false) s.current_level r) with e | ⟨-, -, e⟩
        · rw [e]
          exact h
        · rw [e]
          rfl
      simp only [Bool.false_eq_true, if_false]
      split
      · apply EnqueueDomain_neq_keep _ _ _ _ _ hk
        rw [data_congr (setDomainSize_data_ _ _ _)]
        exact hstep
      · rw [data_congr (BumpToFront_data_ _ _), data_congr (setDomainSize_data_ _ _ _)]
        exact hstep
    · -- a positive literal
      simp only [if_true]
      rw [data_congr (orderRemove_data_ _ _), data_congr (setModel_data_ _ _ _)]
      rcases data_setData_or (s.pushTrail a) a.lhs a.rhs g k
          ((s.data a.lhs a.rhs).Update (!true) s.current_level r) with e | ⟨rfl, rfl, -⟩
      · rw [e]
        exact h
      · exfalso
        have := (hfa.2 hp).2
        rw [h] at this
        exact this rfl
  · exact h

/-- After the `Enqueue` of a literal that is not falsified and lies within the capacity, the
literal is satisfied. -/
theorem Enqueue_satisfies (sort : Nat → Nat) (s : Solver) (a : Literal) (r : Int)
    (ha : s.falsifies a (-1) = false) (hn : a.rhs ≠ 0) (hcap : s.InCapacity a) :
    (Enqueue sort s a r).satisfies a (-1) = true := by
  have hfa := (falsifies_iff s a).not
  rw [ha] at hfa
  simp only [Bool.false_eq_true, not_false_eq_true, true_iff, not_or, not_and] at hfa
  obtain ⟨hc1, hc2, hc3⟩ := hcap
  rw [satisfies_iff]
  unfold Enqueue
  dsimp only
  split
  · cases hp : a.pos
    · -- a negative literal
      right
      refine ⟨rfl, Or.inr ?_⟩
      have hstep : ((((s.pushTrail a).setData a.lhs a.rhs
            ((s.data a.lhs a.rhs).Update (!false) s.current_level r)).data a.lhs a.rhs).model_neq)
            = true := by
        rw [data_setData_same (s.pushTrail a) _ _ _ hc2 hc3]
        rfl
      simp only [Bool.false_eq_true, if_false]
      split
      · apply EnqueueDomain_neq_keep _ _ _ _ _ hn
        rw [data_congr (setDomainSize_data_ _ _ _)]
        exact hstep
      · rw [data_congr (BumpToFront_data_ _ _), data_congr (setDomainSize_data_ _ _ _)]
        exact hstep
    · -- a positive literal
      left
      refine ⟨rfl, ?_⟩
      simp only [if_true]
      rw [model_congr (orderRemove_model_ _ _)]
      exact model_setModel_same _ _ _ hc1
  · rename_i hc
    simp only [Bool.and_eq_true, beq_iff_eq, Bool.or_eq_true, Bool.not_eq_true', not_and,
      not_or, Bool.not_eq_false] at hc
    cases hp : a.pos
    · right
      refine ⟨rfl, ?_⟩
      by_cases hm : s.model a.lhs = 0
      · exact Or.inr (hc hm).2
      · exact Or.inl ⟨hm, hfa.1 hp⟩
    · left
      refine ⟨rfl, ?_⟩
      by_cases hm : s.model a.lhs = 0
      · have := (hc hm).1
        rw [hp] at this
        exact absurd this (by decide)
      · exact not_not.mp ((hfa.2 hp).1 hm)

/-- A satisfied literal with a non-null name stays satisfied through the `Enqueue` of a literal
that is not falsified. -/
theorem Enqueue_satisfies_keep (sort : Nat → Nat) (s : Solver) (a c : Literal) (r : Int)
    (ha : s.falsifies a (-1) = false) (hn : c.rhs ≠ 0) (hc : s.satisfies c (-1) = true) :
    (Enqueue sort s a r).satisfies c (-1) = true := by
  rw [satisfies_iff] at hc ⊢
  rcases hc with ⟨hp, hm⟩ | ⟨hp, ⟨hm0, hm⟩ | hneq⟩
  · left
    refine ⟨hp, ?_⟩
    rw [Enqueue_model_keep sort s a r c.lhs (by rw [hm]; exact hn)]
    exact hm
  · right
    refine ⟨hp, Or.inl ?_⟩
    rw [Enqueue_model_keep sort s a r c.lhs hm0]
    exact ⟨hm0, hm⟩
  · right
    exact ⟨hp, Or.inr (Enqueue_neq_keep sort s a r c.lhs c.rhs ha hn hneq)⟩

theorem Enqueue_InCapacity (sort : Nat → Nat) (s : Solver) (a c : Literal) (r : Int)
    (h : s.InCapacity c) : (Enqueue sort s a r).InCapacity c := by
  unfold InCapacity at h ⊢
  rw [Enqueue_length_model_, Enqueue_length_data_, Enqueue_row_length]
  exact h

/-- A literal complementary to a satisfied literal with a non-null name is falsified. -/
theorem falsifies_of_Complementary (s : Solver) (a b : Literal) (hn : a.rhs ≠ 0)
    (hc : Literal.Complementary a b = true) (ha : s.satisfies a (-1) = true) :
    s.falsifies b (-1) = true := by
  rw [satisfies_iff] at ha
  rw [falsifies_iff]
  unfold Literal.Complementary at hc
  simp only [Bool.and_eq_true, beq_iff_eq, Bool.or_eq_true, bne_iff_ne, ne_eq] at hc
  obtain ⟨hf, hc⟩ := hc
  rw [← hf]
  rcases hc with ⟨hr, hp⟩ | ⟨⟨hpa, hpb⟩, hr⟩
  · rw [← hr]
    rcases ha with ⟨hpa, hm⟩ | ⟨hpa, hm⟩
    · left
      refine ⟨?_, hm⟩
      cases hb : b.pos
      · rfl
      · exact absurd (hpa.trans hb.symm) hp
    · right
      refine ⟨?_, hm⟩
      cases hb : b.pos
      · exact absurd (hpa.trans hb.symm) hp
      · rfl
  · rcases ha with ⟨-, hm⟩ | ⟨hpa2, -⟩
    · right
      refine ⟨hpb, Or.inl ⟨?_, ?_⟩⟩
      · rw [hm]
        exact hn
      · rw [hm]
        exact hr
    · rw [hpa] at hpa2
      exact absurd hpa2 (by decide)

theorem Complementary_symm (a b : Literal) (h : Literal.Complementary a b = true) :
    Literal.Complementary b a = true := by
  unfold Literal.Complementary at h ⊢
  simp only [Bool.and_eq_true, beq_iff_eq, Bool.or_eq_true, bne_iff_ne, ne_eq] at h ⊢
  obtain ⟨hf, h⟩ := h
  refine ⟨hf.symm, ?_⟩
  rcases h with ⟨hr, hp⟩ | ⟨⟨hpa, hpb⟩, hr⟩
  · exact Or.inl ⟨hr.symm, fun e => hp e.symm⟩
  · exact Or.inr ⟨⟨hpb, hpa⟩, fun e => hr e.symm⟩

theorem Complementary_irrefl (a : Literal) : Literal.Complementary a a = false := by
  unfold Literal.Complementary
  cases a.pos <;> simp

/-- The first loop of `Init` stops with `empty_clause_` set when a literal still to come is
complementary to a literal that is satisfied already or also still to come. -/
theorem InitUnits_detects (sort : Nat → Nat) (lits : List Literal) :
    ∀ (s : Solver) (done : List Literal),
      (∀ c ∈ done, c.rhs ≠ 0 ∧ s.satisfies c (-1) = true) →
      (∀ c ∈ lits, c.rhs ≠ 0 ∧ s.InCapacity c) →
      (∃ a b, Literal.Complementary a b = true ∧ b ∈ lits ∧ (a ∈ done ∨ a ∈ lits)) →
      (InitUnits sort lits s).2 = true ∧ (InitUnits sort lits s).1.empty_clause_ = true := by
  induction lits with
  | nil =>
    intro s done _ _ h
    obtain ⟨a, b, -, hb, -⟩ := h
    exact absurd hb (List.not_mem_nil b)
  | cons x rest ih =>
    intro s done hdone hcap hpair
    unfold InitUnits
    split
    · exact ⟨rfl, rfl⟩
    · rename_i hx
      have hx : s.falsifies x (-1) = false := by simpa using hx
      have hxn := (hcap x (List.mem_cons_self x rest)).1
      have hxc := (hcap x (List.mem_cons_self x rest)).2
      apply ih (Enqueue sort s x kNullRef) (x :: done)
      · intro c hc
        rcases List.mem_cons.mp hc with rfl | hc
        · exact ⟨hxn, Enqueue_satisfies sort s c kNullRef hx hxn hxc⟩
        · exact ⟨(hdone c hc).1,
            Enqueue_satisfies_keep sort s x c kNullRef hx (hdone c hc).1 (hdone c hc).2⟩
      · intro c hc
        have := hcap c (List.mem_cons_of_mem x hc)
        exact ⟨this.1, Enqueue_InCapacity sort s x c kNullRef this.2⟩
      · obtain ⟨a, b, hab, hb, ha⟩ := hpair
        rcases List.mem_cons.mp hb with hbx | hbr
        · -- the literal at hand is `b`
          subst hbx
          rcases ha with ha | ha
          · have := falsifies_of_Complementary s a b (hdone a ha).1 hab (hdone a ha).2
            rw [hx] at this
            exact absurd this (by decide)
          · rcases List.mem_cons.mp ha with hax | har
            · subst hax
              rw [Complementary_irrefl] at hab
              exact absurd hab (by decide)
            · exact ⟨b, a, Complementary_symm a b hab, har, Or.inl (List.mem_cons_self b done)⟩
        · rcases ha with ha | ha
          · exact ⟨a, b, hab, hbr, Or.inl (List.mem_cons_of_mem x ha)⟩
          · rcases List.mem_cons.mp ha with hax | har
            · subst hax
              exact ⟨a, b, hab, hbr, Or.inl (List.mem_cons_self a done)⟩
            · exact ⟨a, b, hab, hbr, Or.inr har⟩

/-- The units on the trail contain a complementary pair: `Init` returns from its first loop with
`empty_clause_` set. -/
theorem Init_complementary_units (sort : Nat → Nat) (s : Solver)
    (hreg : ∀ c ∈ s.trail_, c.rhs ≠ 0 ∧ s.InCapacity c)
    (a b : Literal) (ha : a ∈ s.trail_) (hb : b ∈ s.trail_)
    (hab : Literal.Complementary a b = true) : (Init sort s).empty_clause_ = true := by
  have h := InitUnits_detects sort s.trail_ { s with trail_ := [] } []
    (fun c hc => absurd hc (List.not_mem_nil c)) hreg ⟨a, b, hab, hb, Or.inr ha⟩
  unfold Init InitLoad
  dsimp only
  rw [if_pos h.1]
  dsimp only
  rw [if_pos rfl]
  exact h.2

/-- C1 (the code at the failing input): after loading the unit `h ≠ 1` and the clauses
`f = 1 ∨ g = 1`, `h = 1 ∨ f = 2`, `h = 1 ∨ g = 2` and calling `Init`, `Solve` with callbacks
that always return true returns `1`, although no literal of the added clause
`f = 1 ∨ g = 1` holds in the model it leaves (`f = 2`, `g = 2`, `h = 9`). -/
theorem C1_sat_answer_violates_clause :
    (Solve oneSort conflictTrue decisionTrue 10 (Init oneSort hiddenConflictInput) ()).map
        (fun r => (r.1, r.2.1.model 1, r.2.1.model 2, r.2.1.model 3,
          ([⟨true, 1, 1⟩, ⟨true, 2, 1⟩] : List Literal).any (holds r.2.1.model)))
      = some (1, 2, 2, 9, false) := by
  decide!

/-- C2 (the code at the failing input): after loading the clause `f ≠ 5 ∨ f ≠ 5`, the clause
`f = 1 ∨ g = 1` and the unit `g ≠ 1` and calling `Init`, `Solve` returns `-1`, although the
assignment `f = 1`, `g = 9` gives both registered functions a name that occurs with them and
satisfies every clause and unit that was added. -/
theorem C2_unsat_answer_with_model :
    (Solve oneSort conflictTrue decisionTrue 10 (Init oneSort repeatedLiteralInput) ()).map
        (fun r => r.1) = some (-1) ∧
    ([[⟨false, 1, 5⟩, ⟨false, 1, 5⟩], [⟨true, 1, 1⟩, ⟨true, 2, 1⟩], [⟨false, 2, 1⟩]] :
        List (List Literal)).all
      (fun c => c.any (holds (fun f => if f = 1 then 1 else 9))) = true ∧
    (repeatedLiteralInput.data 1 1).occurs = true ∧
    (repeatedLiteralInput.data 2 9).occurs = true ∧
    repeatedLiteralInput.funcs_ = [0, 1, 2, 0] := by
  decide!

/-- C3 (the code at the failing input): for the unit `h ≠ 1` and the clauses `f = 1 ∨ g = 1`,
`h = 1 ∨ f = 2`, `h = 1 ∨ g = 2`, the first part of `Init` does not return early, the call of
`Propagate` that `Init` then makes returns the clause reference `1` (a conflict at root
level), and yet `Init` leaves `empty_clause_` unset and the next `Solve` returns `1`. -/
theorem C3_init_drops_conflict :
    (InitLoad oneSort hiddenConflictInput).2.2 = false ∧
    (Propagate oneSort (InitLoad oneSort hiddenConflictInput).1).2 = 1 ∧
    (InitLoad oneSort hiddenConflictInput).1.current_level = kRootLevel ∧
    (Init oneSort hiddenConflictInput).empty_clause_ = false ∧
    (Solve oneSort conflictTrue decisionTrue 10 (Init oneSort hiddenConflictInput) ()).map
        (fun r => r.1) = some 1 := by
  decide!

/-- C10: if the unit literals on the trail before `Init`, all with a non-null name and within
the capacity that `Register` has set up (as they are after `AddLiteral`, see
`Loaded_InCapacity`), contain two `Complementary` literals, then `Init` sets `empty_clause_`,
and `Solve` on the result returns `-1` whatever the callbacks are, leaving the solver and the
state of the callbacks as they were: no callback is invoked, and every later `Solve` starts
from the same solver. -/
theorem C10_complementary_units {σ : Type} (sort : Nat → Nat) (s : Solver)
    (hreg : ∀ c ∈ s.trail_, c.rhs ≠ 0 ∧ s.InCapacity c)
    (a b : Literal) (ha : a ∈ s.trail_) (hb : b ∈ s.trail_)
    (hab : Literal.Complementary a b = true)
    (conflict_predicate : σ → Solver → Nat → Int → List Literal → Nat → Bool × σ)
    (decision_predicate : σ → Solver → Nat → Literal → Bool × σ) (fuel : Nat) (cb : σ) :
    (Init sort s).empty_clause_ = true ∧
      Solve sort conflict_predicate decision_predicate fuel (Init sort s) cb
        = some (-1, Init sort s, cb) := by
  have h := Init_complementary_units sort s hreg a b ha hb hab
  refine ⟨h, ?_⟩
  unfold Solve
  rw [if_pos h]

/-- Witness for C10: the solver loaded with the units `f = 1` and `f = 2` through `AddLiteral`,
with callbacks that count their invocations. -/
theorem C10_complementary_units_witness :
    (∀ c ∈ complementaryUnitsInput.trail_, c.rhs ≠ 0 ∧ complementaryUnitsInput.InCapacity c) ∧
    (Literal.Eq 1 1 ∈ complementaryUnitsInput.trail_ ∧
      Literal.Eq 1 2 ∈ complementaryUnitsInput.trail_ ∧
      Literal.Complementary (Literal.Eq 1 1) (Literal.Eq 1 2) = true) ∧
    ((Init oneSort complementaryUnitsInput).empty_clause_ = true ∧
      Solve oneSort conflictCount decisionCount 0 (Init oneSort complementaryUnitsInput) 0
        = some (-1, Init oneSort complementaryUnitsInput, 0)) :=
  ⟨by decide!, by decide!,
    C10_complementary_units oneSort complementaryUnitsInput (by decide!)
      (Literal.Eq 1 1) (Literal.Eq 1 2) (by decide!) (by decide!) (by decide!)
      conflictCount decisionCount 0 0⟩

end Solver

namespace Solver

/-! ### The solver: capacities set up by `Register` -/

theorem length_Capacitate {α : Type} (null : α) (i : Nat) (v : List α) :
    (DenseMap.Capacitate null i v).length = max v.length (i + 1) := by
  unfold DenseMap.Capacitate
  split
  · rw [List.length_append, List.length_replicate]
    omega
  · omega

theorem getD_length_append {α : Type} (l r : List (List α)) (g : Nat) :
    (l.getD g []).length ≤ ((l ++ r).getD g []).length := by
  by_cases h : g < l.length
  · simp [List.getD_eq_getElem?_getD, List.getElem?_append_left h]
  · simp [List.getD_eq_getElem?_getD, List.getElem?_eq_none (Nat.le_of_not_lt h)]

theorem getD_length_Capacitate_rows {α : Type} (i g : Nat) (v : List (List α)) :
    (v.getD g []).length ≤ ((DenseMap.Capacitate [] i v).getD g []).length := by
  unfold DenseMap.Capacitate
  split
  · exact getD_length_append _ _ _
  · exact Nat.le_refl _

theorem getD_zero_replicate_nil {α : Type} (k : Nat) :
    (List.replicate k ([] : List α)).getD 0 [] = [] := by
  cases k <;> rfl

theorem getD_zero_Capacitate_rows {α : Type} (i : Nat) (v : List (List α)) :
    ((DenseMap.Capacitate [] i v).getD 0 []).length = (v.getD 0 []).length := by
  unfold DenseMap.Capacitate
  split
  · cases v with
    | nil =>
      rw [List.nil_append, getD_zero_replicate_nil]
      rfl
    | cons x xs => rfl
  · rfl

theorem getD_map_length {α : Type} (F : List α → List α) (l : List (List α)) (g : Nat)
    (hF : ∀ row, row.length ≤ (F row).length) :
    (l.getD g []).length ≤ ((l.map F).getD g []).length := by
  by_cases h : g < l.length
  · simp only [List.getD_eq_getElem?_getD, List.getElem?_map, List.getElem?_eq_getElem h,
      Option.map_some', Option.getD_some]
    exact hF _
  · simp [List.getD_eq_getElem?_getD, List.getElem?_eq_none (Nat.le_of_not_lt h)]

theorem getD_zero_map_Capacitate (nig : Nat) (l : List (List Nat)) (h : l ≠ []) :
    ((l.map (DenseMap.Capacitate 0 nig)).getD 0 []).length = max (l.getD 0 []).length (nig + 1) := by
  cases l with
  | nil => exact absurd rfl h
  | cons x xs =>
    simp only [List.map_cons, List.getD_cons_zero]
    exact length_Capacitate 0 nig x

theorem rows_capacitateFuncs (s : Solver) (fig : Nat) (row : List Data)
    (h : row ∈ (s.capacitateFuncs fig).data_) : row ∈ s.data_ ∨ row = [] := by
  unfold capacitateFuncs DenseMap.Capacitate at h
  dsimp only at h
  split at h
  · rcases List.mem_append.mp h with h | h
    · exact Or.inl h
    · exact Or.inr (List.eq_of_mem_replicate h)
  · exact Or.inl h

theorem rows_capacitateData (s : Solver) (nig : Nat) (row : List Data)
    (h : row ∈ (s.capacitateData nig).data_) :
    nig + 1 ≤ row.length ∧ ∃ old ∈ s.data_, old.length ≤ row.length := by
  unfold capacitateData at h
  dsimp only at h
  obtain ⟨old, hold, rfl⟩ := List.mem_map.mp h
  rw [length_Capacitate]
  exact ⟨Nat.le_max_right _ _, old, hold, Nat.le_max_left _ _⟩

theorem getD_capacitateData (s : Solver) (nig g : Nat) :
    (s.data_.getD g []).length ≤ ((s.capacitateData nig).data_.getD g []).length := by
  unfold capacitateData
  dsimp only
  apply getD_map_length
  intro row
  rw [length_Capacitate]
  exact Nat.le_max_left _ _

theorem getD_capacitateFuncs (s : Solver) (fig g : Nat) :
    (s.data_.getD g []).length ≤ ((s.capacitateFuncs fig).data_.getD g []).length := by
  unfold capacitateFuncs
  dsimp only
  exact getD_length_Capacitate_rows fig g s.data_

theorem length_data_capacitateData (s : Solver) (nig : Nat) :
    (s.capacitateData nig).data_.length = s.data_.length := by
  simp [capacitateData]

theorem names_zero_capacitateNames (s : Solver) (nig : Nat) (h : s.names_ ≠ []) :
    ((s.capacitateNames nig).names_.getD 0 []).length
      = max (s.names_.getD 0 []).length (nig + 1) := by
  unfold capacitateNames
  dsimp only
  exact getD_zero_map_Capacitate nig s.names_ h

theorem names_zero_capacitateSorts (s : Solver) (sig : Nat) :
    ((s.capacitateSorts sig).names_.getD 0 []).length = (s.names_.getD 0 []).length := by
  unfold capacitateSorts
  dsimp only
  exact getD_zero_Capacitate_rows sig s.names_

theorem names_ne_nil_capacitateSorts (s : Solver) (sig : Nat) :
    (s.capacitateSorts sig).names_ ≠ [] := by
  unfold capacitateSorts
  dsimp only
  intro h
  have := length_Capacitate ([] : List Nat) sig s.names_
  rw [h] at this
  have h2 : sig + 1 ≤ max s.names_.length (sig + 1) := Nat.le_max_right _ _
  rw [← this] at h2
  exact Nat.not_succ_le_zero sig h2

theorem CapacitateWith_funcs_ (s : Solver) (fi si ni : Int) (fig sig nig : Nat) :
    (s.CapacitateWith fi si ni fig sig nig).funcs_
      = (if fi ≥ 0 then s.capacitateFuncs fig else s).funcs_ := by
  unfold CapacitateWith
  dsimp only
  split_ifs <;> rfl

theorem CapacitateWith_model_ (s : Solver) (fi si ni : Int) (fig sig nig : Nat) :
    (s.CapacitateWith fi si ni fig sig nig).model_
      = (if fi ≥ 0 then s.capacitateFuncs fig else s).model_ := by
  unfold CapacitateWith
  dsimp only
  split_ifs <;> rfl

theorem CapacitateWith_length_data_ (s : Solver) (fi si ni : Int) (fig sig nig : Nat) :
    (s.CapacitateWith fi si ni fig sig nig).data_.length
      = (if fi ≥ 0 then s.capacitateFuncs fig else s).data_.length := by
  unfold CapacitateWith
  dsimp only
  split_ifs <;> simp [capacitateData, capacitateNames, capacitateSorts]

theorem CapacitateWith_row_length (s : Solver) (fi si ni : Int) (fig sig nig : Nat) (g : Nat) :
    (s.data_.getD g []).length
      ≤ ((s.CapacitateWith fi si ni fig sig nig).data_.getD g []).length := by
  have hA : (s.data_.getD g []).length
      ≤ ((if fi ≥ 0 then s.capacitateFuncs fig else s).data_.getD g []).length := by
    split
    · exact getD_capacitateFuncs s fig g
    · exact Nat.le_refl _
  have hB : ∀ t : Solver, ((if si ≥ 0 then t.capacitateSorts sig else t).data_.getD g []).length
      = (t.data_.getD g []).length := by
    intro t
    split <;> rfl
  have hC : ∀ (c : Bool) (t : Solver), (t.data_.getD g []).length
      ≤ ((if c = true then t.capacitateData nig else t).data_.getD g []).length := by
    intro c t
    split
    · exact getD_capacitateData t nig g
    · exact Nat.le_refl _
  have hD : ∀ (c : Bool) (t : Solver), (t.data_.getD g []).length
      ≤ ((if c = true then (t.capacitateNames nig).capacitateData nig else t).data_.getD
          g []).length := by
    intro c t
    split
    · exact getD_capacitateData (t.capacitateNames nig) nig g
    · exact Nat.le_refl _
  unfold CapacitateWith
  dsimp only
  refine Nat.le_trans hA (Nat.le_trans ?_ (Nat.le_trans (hC _ _) (hD _ _)))
  rw [hB]

theorem CapacitateWith_rows (s : Solver) (fi si ni : Int) (fig sig nig n : Nat)
    (hrows : ∀ row ∈ s.data_, (s.names_.getD 0 []).length ≤ row.length)
    (hs : s.names_ = [] → si ≥ 0)
    (hn1 : ni ≥ 0 → (s.names_.getD 0 []).length ≤ nig + 1 ∧ n ≤ nig)
    (hn2 : ¬ ni ≥ 0 → nig = (s.names_.getD 0 []).length ∧ n < (s.names_.getD 0 []).length) :
    (∀ row ∈ (s.CapacitateWith fi si ni fig sig nig).data_,
      ((s.CapacitateWith fi si ni fig sig nig).names_.getD 0 []).length ≤ row.length) ∧
    n < ((s.CapacitateWith fi si ni fig sig nig).names_.getD 0 []).length := by
  unfold CapacitateWith
  dsimp only
  by_cases hD : (decide (si ≥ 0) || decide (ni ≥ 0)) = true
  · -- the names are capacitated
    rw [if_pos hD]
    have hne : (if si ≥ 0 then (if fi ≥ 0 then s.capacitateFuncs fig else s).capacitateSorts sig
        else (if fi ≥ 0 then s.capacitateFuncs fig else s)).names_ ≠ [] := by
      split
      · exact names_ne_nil_capacitateSorts _ _
      · rename_i hsi
        have : s.names_ ≠ [] := fun e => hsi (hs e)
        split <;> exact this
    have hN0 : ((if si ≥ 0 then (if fi ≥ 0 then s.capacitateFuncs fig else s).capacitateSorts sig
        else (if fi ≥ 0 then s.capacitateFuncs fig else s)).names_.getD 0 []).length
        = (s.names_.getD 0 []).length := by
      split
      · rw [names_zero_capacitateSorts]
        split <;> rfl
      · split <;> rfl
    have hnames : ∀ t : Solver, (t.capacitateNames nig).names_.getD 0 []
        = ((t.capacitateNames nig).capacitateData nig).names_.getD 0 [] := fun _ => rfl
    have hC : ∀ (c : Bool) (t : Solver),
        (if c = true then t.capacitateData nig else t).names_ = t.names_ := by
      intro c t
      split <;> rfl
    have hval : (((((if (decide (fi ≥ 0) || decide (ni ≥ 0)) = true then
        (if si ≥ 0 then (if fi ≥ 0 then s.capacitateFuncs fig else s).capacitateSorts sig
          else (if fi ≥ 0 then s.capacitateFuncs fig else s)).capacitateData nig
        else (if si ≥ 0 then (if fi ≥ 0 then s.capacitateFuncs fig else s).capacitateSorts sig
          else (if fi ≥ 0 then s.capacitateFuncs fig else s))).capacitateNames
            nig).capacitateData nig).names_.getD 0 []).length) = nig + 1 := by
      rw [← hnames, names_zero_capacitateNames _ _ (by rw [hC]; exact hne), hC, hN0]
      by_cases hni : ni ≥ 0
      · have := (hn1 hni).1
        omega
      · have := (hn2 hni).1
        omega
    rw [hval]
    constructor
    · intro row hrow
      exact (rows_capacitateData _ nig row hrow).1
    · by_cases hni : ni ≥ 0
      · have := (hn1 hni).2
        omega
      · have := hn2 hni
        omega
  · -- the names stay as they are
    rw [if_neg hD]
    simp only [Bool.or_eq_true, decide_eq_true_eq, not_or] at hD
    obtain ⟨hsi, hni⟩ := hD
    rw [if_neg hsi]
    have h2 := hn2 hni
    by_cases hfi : fi ≥ 0
    · have hc : (decide (fi ≥ 0) || decide (ni ≥ 0)) = true := by simp [hfi]
      rw [if_pos hc, if_pos hfi]
      have hnm : ((s.capacitateFuncs fig).capacitateData nig).names_ = s.names_ := rfl
      rw [hnm]
      refine ⟨?_, h2.2⟩
      intro row hrow
      have := (rows_capacitateData _ nig row hrow).1
      omega
    · have hc : ¬ (decide (fi ≥ 0) || decide (ni ≥ 0)) = true := by simp [hfi, hni]
      rw [if_neg hc, if_neg hfi]
      exact ⟨hrows, h2.2⟩

theorem CapacitateMaps_funcs_lt (s : Solver) (srt f n e : Nat) :
    f < (s.CapacitateMaps srt f n e).funcs_.length := by
  unfold CapacitateMaps
  dsimp only
  rw [CapacitateWith_funcs_]
  by_cases hf : f ≥ s.funcs_.length
  · rw [if_pos hf, if_pos (by omega)]
    show f < (DenseMap.Capacitate 0 _ s.funcs_).length
    rw [length_Capacitate]
    have : ((f : Int) + 1) * 3 / 2 ≥ f := by omega
    have h2 : (f : Int) ≤ ((((f : Int) + 1) * 3 / 2).toNat : Int) := by
      rw [Int.toNat_of_nonneg (by omega)]
      exact this
    omega
  · rw [if_neg hf, if_neg (by omega)]
    omega

theorem CapacitateMaps_rows (s : Solver) (srt f n e : Nat)
    (hrows : ∀ row ∈ s.data_, (s.names_.getD 0 []).length ≤ row.length) :
    (∀ row ∈ (s.CapacitateMaps srt f n e).data_,
      ((s.CapacitateMaps srt f n e).names_.getD 0 []).length ≤ row.length) ∧
    n < ((s.CapacitateMaps srt f n e).names_.getD 0 []).length := by
  unfold CapacitateMaps
  dsimp only
  apply CapacitateWith_rows s _ _ _ _ _ _ n hrows
  · intro h0
    have : s.names_.length = 0 := by rw [h0]; rfl
    rw [if_pos (by omega)]
    omega
  · intro hni
    rw [if_pos hni]
    have hmax : (n : Int) ≤ (if n > e then (n : Int) else (e : Int)) := by
      split <;> omega
    have hmax0 : (0 : Int) ≤ (if n > e then (n : Int) else (e : Int)) := by
      split <;> omega
    by_cases hc : (s.names_.length == 0 ||
        decide ((if n > e then (n : Int) else (e : Int)) ≥ ((s.names_.getD 0 []).length : Int)))
        = true
    · rw [if_pos hc]
      generalize (if n > e then (n : Int) else (e : Int)) = m at hmax hmax0 hc
      have hk : (((m + 1) * 3 / 2).toNat : Int) = (m + 1) * 3 / 2 :=
        Int.toNat_of_nonneg (by omega)
      have hN : ((s.names_.getD 0 []).length : Int) ≤ m + 1 := by
        simp only [Bool.or_eq_true, beq_iff_eq, decide_eq_true_eq] at hc
        rcases hc with h0 | h1
        · have : s.names_ = [] := List.length_eq_zero.mp h0
          rw [this]
          simp
          omega
        · omega
      omega
    · rw [if_neg hc] at hni
      omega
  · intro hni
    rw [if_neg hni]
    refine ⟨rfl, ?_⟩
    by_cases hc : (s.names_.length == 0 ||
        decide ((if n > e then (n : Int) else (e : Int)) ≥ ((s.names_.getD 0 []).length : Int)))
        = true
    · rw [if_pos hc] at hni
      exfalso
      apply hni
      split <;> omega
    · simp only [Bool.or_eq_true, beq_iff_eq, decide_eq_true_eq, not_or] at hc
      have hmax : (n : Int) ≤ (if n > e then (n : Int) else (e : Int)) := by
        split <;> omega
      omega

theorem CapacitateMaps_Capacitated (s : Solver) (srt f n e : Nat) (h : s.Capacitated) :
    (s.CapacitateMaps srt f n e).Capacitated := by
  obtain ⟨hm, hd, hrows⟩ := h
  refine ⟨?_, ?_, (CapacitateMaps_rows s srt f n e hrows).1⟩
  · unfold CapacitateMaps
    dsimp only
    rw [CapacitateWith_funcs_, CapacitateWith_model_]
    split
    · show (DenseMap.Capacitate 0 _ s.model_).length = (DenseMap.Capacitate 0 _ s.funcs_).length
      rw [length_Capacitate, length_Capacitate, hm]
    · exact hm
  · unfold CapacitateMaps
    dsimp only
    rw [CapacitateWith_funcs_, CapacitateWith_length_data_]
    split
    · show (DenseMap.Capacitate [] _ s.data_).length = (DenseMap.Capacitate 0 _ s.funcs_).length
      rw [length_Capacitate, length_Capacitate, hd]
    · exact hd

theorem CapacitateMaps_row_length (s : Solver) (srt f n e g : Nat) :
    (s.data_.getD g []).length ≤ ((s.CapacitateMaps srt f n e).data_.getD g []).length := by
  unfold CapacitateMaps
  exact CapacitateWith_row_length s _ _ _ _ _ _ g

theorem CapacitateMaps_length_model_ (s : Solver) (srt f n e : Nat) :
    s.model_.length ≤ (s.CapacitateMaps srt f n e).model_.length := by
  unfold CapacitateMaps
  dsimp only
  rw [CapacitateWith_model_]
  split
  · show _ ≤ (DenseMap.Capacitate 0 _ s.model_).length
    rw [length_Capacitate]
    omega
  · exact Nat.le_refl _

theorem CapacitateMaps_length_data_ (s : Solver) (srt f n e : Nat) :
    s.data_.length ≤ (s.CapacitateMaps srt f n e).data_.length := by
  unfold CapacitateMaps
  dsimp only
  rw [CapacitateWith_length_data_]
  split
  · show _ ≤ (DenseMap.Capacitate [] _ s.data_).length
    rw [length_Capacitate]
    omega
  · exact Nat.le_refl _

theorem CapacitateWith_trail_ (s : Solver) (fi si ni : Int) (fig sig nig : Nat) :
    (s.CapacitateWith fi si ni fig sig nig).trail_ = s.trail_ := by
  unfold CapacitateWith
  dsimp only
  split_ifs <;> rfl

theorem CapacitateMaps_trail_ (s : Solver) (srt f n e : Nat) :
    (s.CapacitateMaps srt f n e).trail_ = s.trail_ := by
  unfold CapacitateMaps
  exact CapacitateWith_trail_ s _ _ _ _ _ _

theorem rows_getD (l : List (List Data)) (k : Nat) :
    (∀ row ∈ l, k ≤ row.length) ↔ ∀ g, g < l.length → k ≤ (l.getD g []).length := by
  constructor
  · intro h g hg
    rw [List.getD_eq_getElem _ _ hg]
    exact h _ (List.getElem_mem hg)
  · intro h row hrow
    obtain ⟨g, hg, rfl⟩ := List.mem_iff_getElem.mp hrow
    have := h g hg
    rw [List.getD_eq_getElem _ _ hg] at this
    exact this

theorem SameCapacity_refl (s : Solver) : SameCapacity s s :=
  ⟨rfl, rfl, rfl, rfl, fun _ => rfl, rfl⟩

theorem SameCapacity_trans {s t u : Solver} (h1 : SameCapacity s t) (h2 : SameCapacity t u) :
    SameCapacity s u := by
  unfold SameCapacity at h1 h2 ⊢
  refine ⟨by rw [h2.1, h1.1], by omega, by omega, by omega, ?_, by omega⟩
  intro g
  rw [h2.2.2.2.2.1 g, h1.2.2.2.2.1 g]

theorem SameCapacity_Capacitated {s t : Solver} (h : SameCapacity s t) (hs : s.Capacitated) :
    t.Capacitated := by
  obtain ⟨_, a2, a3, a4, a5, a6⟩ := h
  obtain ⟨hm, hd, hrows⟩ := hs
  refine ⟨by omega, by omega, ?_⟩
  rw [rows_getD] at hrows ⊢
  intro g hg
  rw [a5, a6]
  exact hrows g (by omega)

theorem SameCapacity_le {s t : Solver} (h : SameCapacity s t) : CapacityLe s t := by
  obtain ⟨_, a2, _, a4, a5, _⟩ := h
  exact ⟨by omega, by omega, fun g => by rw [a5]⟩

theorem CapacityLe_trans {s t u : Solver} (h1 : CapacityLe s t) (h2 : CapacityLe t u) :
    CapacityLe s u := by
  obtain ⟨a1, a2, a3⟩ := h1
  obtain ⟨b1, b2, b3⟩ := h2
  exact ⟨by omega, by omega, fun g => Nat.le_trans (a3 g) (b3 g)⟩

theorem CapacityLe_InCapacity {s t : Solver} (h : CapacityLe s t) (a : Literal)
    (ha : s.InCapacity a) : t.InCapacity a := by
  obtain ⟨a1, a2, a3⟩ := h
  obtain ⟨b1, b2, b3⟩ := ha
  have := a3 a.lhs
  exact ⟨by omega, by omega, by omega⟩

theorem SameCapacity_markOccurs (s : Solver) (f n : Nat) : SameCapacity s (s.markOccurs f n) := by
  unfold markOccurs
  dsimp only
  refine ⟨rfl, rfl, rfl, ?_, ?_, rfl⟩
  · rw [length_data_setData]
    rfl
  · intro g
    rw [row_length_setData]
    rfl

theorem SameCapacity_insertName (s : Solver) (srt n : Nat) :
    SameCapacity s (s.insertName srt n) := by
  refine ⟨rfl, rfl, rfl, rfl, fun _ => rfl, ?_⟩
  show ((s.names_.set srt (DenseSet.Insert (s.names_.getD srt []) n)).getD 0 []).length = _
  by_cases h0 : srt = 0
  · subst h0
    by_cases hlen : 0 < s.names_.length
    · rw [getD_set_same _ _ _ _ hlen]
      unfold DenseSet.Insert
      rw [List.length_set]
    · rw [List.set_eq_of_length_le (Nat.le_of_not_lt hlen)]
  · rw [getD_set_ne _ _ _ _ _ h0]

theorem SameCapacity_insertFunc (s : Solver) (f : Nat) :
    SameCapacity s ({ s with funcs_ := DenseSet.Insert s.funcs_ f } : Solver) := by
  refine ⟨rfl, rfl, ?_, rfl, fun _ => rfl, rfl⟩
  show (DenseSet.Insert s.funcs_ f).length = _
  unfold DenseSet.Insert
  rw [List.length_set]

theorem SameCapacity_orderInsert (s : Solver) (f : Nat) : SameCapacity s (s.orderInsert f) :=
  ⟨rfl, rfl, rfl, rfl, fun _ => rfl, rfl⟩

theorem SameCapacity_Register (s : Solver) (srt f n e : Nat) :
    SameCapacity (s.CapacitateMaps srt f n e) (s.Register srt f n e) := by
  unfold Register
  dsimp only
  refine SameCapacity_trans (SameCapacity_trans ?_ (SameCapacity_markOccurs _ f n))
    (SameCapacity_insertName _ srt n)
  split
  · exact SameCapacity_trans (SameCapacity_trans (SameCapacity_trans
      (SameCapacity_insertFunc _ f) (SameCapacity_orderInsert _ f))
      (SameCapacity_insertName _ srt e)) (SameCapacity_markOccurs _ f e)
  · exact SameCapacity_refl _

/-- After `Register(s, f, n, extra_n)` the maps keep the capacity invariant, have grown at most,
and hold entries for the function `f` and the name `n`. -/
theorem Register_capacity (s : Solver) (srt f n e : Nat) (h : s.Capacitated) :
    (s.Register srt f n e).Capacitated ∧ CapacityLe s (s.Register srt f n e) ∧
    (s.Register srt f n e).trail_ = s.trail_ ∧
    f < (s.Register srt f n e).model_.length ∧ f < (s.Register srt f n e).data_.length ∧
    n < ((s.Register srt f n e).data_.getD f []).length := by
  have hS := SameCapacity_Register s srt f n e
  have hC := CapacitateMaps_Capacitated s srt f n e h
  have hf := CapacitateMaps_funcs_lt s srt f n e
  have hn := (CapacitateMaps_rows s srt f n e h.2.2).2
  have hle : CapacityLe s (s.CapacitateMaps srt f n e) :=
    ⟨CapacitateMaps_length_model_ s srt f n e, CapacitateMaps_length_data_ s srt f n e,
      CapacitateMaps_row_length s srt f n e⟩
  obtain ⟨hm, hd, hrows⟩ := hC
  rw [rows_getD] at hrows
  have hrow := hrows f (by omega)
  obtain ⟨a1, a2, a3, a4, a5, a6⟩ := hS
  refine ⟨SameCapacity_Capacitated ⟨a1, a2, a3, a4, a5, a6⟩ ⟨hm, hd, (rows_getD _ _).mpr hrows⟩,
    CapacityLe_trans hle (SameCapacity_le ⟨a1, a2, a3, a4, a5, a6⟩), ?_, by omega, by omega, ?_⟩
  · rw [a1, CapacitateMaps_trail_]
  · rw [a5]
    omega

theorem clause_New (s : Solver) (as : List Literal) :
    ({ s with clause_factory_ := (s.clause_factory_.New as).2 } : Solver).clause
      (s.clause_factory_.New as).1 = Clause.Normalize as := by
  unfold clause Factory.New Factory.get
  simp

theorem foldl_Register_capacity (sort extra_name : Nat → Nat) (lits : List Literal) :
    ∀ s : Solver, s.Capacitated →
      let t := lits.foldl
        (fun t a => t.Register (sort a.lhs) a.lhs a.rhs (extra_name (sort a.lhs))) s
      t.Capacitated ∧ CapacityLe s t ∧ t.trail_ = s.trail_ := by
  induction lits with
  | nil =>
    intro s h
    exact ⟨h, SameCapacity_le (SameCapacity_refl s), rfl⟩
  | cons a rest ih =>
    intro s h
    obtain ⟨h1, h2, h3, _⟩ :=
      Register_capacity s (sort a.lhs) a.lhs a.rhs (extra_name (sort a.lhs)) h
    obtain ⟨k1, k2, k3⟩ := ih _ h1
    exact ⟨k1, CapacityLe_trans h2 k2, k3.trans h3⟩

theorem AddLiteral_capacity (sort extra_name : Nat → Nat) (s : Solver) (a : Literal)
    (h : s.Capacitated) (ht : ∀ c ∈ s.trail_, s.InCapacity c) :
    (AddLiteral sort extra_name s a).Capacitated ∧
    ∀ c ∈ (AddLiteral sort extra_name s a).trail_, (AddLiteral sort extra_name s a).InCapacity c := by
  unfold AddLiteral
  split
  · exact ⟨h, ht⟩
  · split
    · exact ⟨h, ht⟩
    · have hp : (s.pushTrail a).Capacitated := h
      obtain ⟨h1, h2, h3, h4, h5, h6⟩ :=
        Register_capacity (s.pushTrail a) (sort a.lhs) a.lhs a.rhs (extra_name (sort a.lhs)) hp
      refine ⟨h1, ?_⟩
      intro c hc
      rw [h3] at hc
      rcases List.mem_append.mp hc with hc | hc
      · exact CapacityLe_InCapacity h2 c (ht c hc)
      · rw [List.mem_singleton] at hc
        subst hc
        exact ⟨h4, h5, h6⟩

theorem AddClause_capacity (sort extra_name : Nat → Nat) (s : Solver) (as : List Literal)
    (hsz : (Clause.Normalize as).size ≠ 1)
    (h : s.Capacitated) (ht : ∀ c ∈ s.trail_, s.InCapacity c) :
    (AddClause sort extra_name s as).Capacitated ∧
    ∀ c ∈ (AddClause sort extra_name s as).trail_, (AddClause sort extra_name s as).InCapacity c := by
  unfold AddClause
  split
  · exact ⟨h, ht⟩
  · split
    · exact AddLiteral_capacity sort extra_name s _ h ht
    · dsimp only
      rw [clause_New]
      split
      · exact ⟨h, ht⟩
      · split
        · exact ⟨h, ht⟩
        · split
          · rename_i h1
            exact absurd (by simpa using h1) hsz
          · have h0 : ({ ({ s with clause_factory_ := (s.clause_factory_.New as).2 } : Solver)
                with clauses_ := s.clauses_ ++ [(s.clause_factory_.New as).1] } :
                Solver).Capacitated := h
            obtain ⟨k1, k2, k3⟩ :=
              foldl_Register_capacity sort extra_name (Clause.Normalize as).lits _ h0
            refine ⟨k1, ?_⟩
            intro c hc
            rw [k3] at hc
            exact CapacityLe_InCapacity k2 c (ht c hc)

/-- Every unit literal on the trail of a solver that was loaded through `AddLiteral` and
`AddClause` lies within the capacity of the maps `model_` and `data_`. -/
theorem Loaded_InCapacity {sort extra_name : Nat → Nat} {s : Solver}
    (h : Loaded sort extra_name s) : s.Capacitated ∧ ∀ c ∈ s.trail_, s.InCapacity c := by
  induction h with
  | fresh =>
    refine ⟨⟨rfl, rfl, ?_⟩, ?_⟩
    · intro row hrow
      cases hrow
    · intro c hc
      cases hc
  | literal s a _ ih => exact AddLiteral_capacity sort extra_name s a ih.1 ih.2
  | clause s as _ hsz ih => exact AddClause_capacity sort extra_name s as hsz ih.1 ih.2

end Solver

/-! ### The heap -/

/-- C14 (the code at the failing input): `Top` of the empty heap is the null element, but after
inserting `1, 10, 2, 11, 12, 5, 4` and removing `11`, `1` and `2`, `Top` returns `5` although
the stored element `4` is less than `5`. -/
theorem C14_Top_not_minimal :
    Heap.init.Top = 0 ∧
    (((heapSeven.Remove ltNat 11).Remove ltNat 1).Remove ltNat 2).Top = 5 ∧
    4 ∈ (((heapSeven.Remove ltNat 11).Remove ltNat 1).Remove ltNat 2).stored ∧
    ltNat 4 5 = true := by
  decide

/-- C30 (the code at the failing input): the heap built by inserting `1, 10, 2, 11, 12, 5, 4`
is in heap order and stores `11`, but after `Remove(11)` the element `4` sits at position `4`
below its parent `10` at position `2`. -/
theorem C30_Remove_breaks_order :
    Heap.Ordered ltNat heapSeven = true ∧ heapSeven.Contains 11 = true ∧
    Heap.Ordered ltNat (heapSeven.Remove ltNat 11) = false ∧
    (heapSeven.Remove ltNat 11).heap_ = [0, 1, 10, 2, 4, 12, 5] := by
  decide

namespace Solver

/-! ### Enqueue -/

/-- C22 (counterexample): in the solver with the clause `f = 1 ∨ f = 2` after `Enqueue(f ≠ 1)`,
where `data_[f][1].model_neq` holds and `f` is unassigned, `Enqueue(f = 1)` is not a no-op: it
pushes `f = 1` on the trail and assigns `model_[f] = 1`. -/
theorem C22_positive_excluded_is_enqueued :
    (excludedNameInput.data 1 1).model_neq = true ∧ excludedNameInput.model 1 = 0 ∧
    excludedNameInput.trail_ = [⟨false, 1, 1⟩] ∧
    (Enqueue oneSort excludedNameInput ⟨true, 1, 1⟩ kNullRef).trail_
      = [⟨false, 1, 1⟩, ⟨true, 1, 1⟩] ∧
    (Enqueue oneSort excludedNameInput ⟨true, 1, 1⟩ kNullRef).model 1 = 1 := by
  decide!

/-- C22 (amended): `Enqueue(a, reason)` returns the solver as it was whenever the literal `a`,
with a non-null name, is already satisfied, and also whenever the function of `a` is already
assigned. -/
theorem C22_Enqueue_noop (sort : Nat → Nat) (s : Solver) (a : Literal) (reason : Int)
    (h : (s.satisfies a (-1) = true ∧ a.rhs ≠ 0) ∨ s.model a.lhs ≠ 0) :
    Enqueue sort s a reason = s := by
  unfold Enqueue
  dsimp only
  split
  · rename_i hc
    simp only [Bool.and_eq_true, beq_iff_eq, Bool.or_eq_true, Bool.not_eq_true'] at hc
    obtain ⟨hm, hp⟩ := hc
    rcases h with ⟨hs, hn⟩ | hm'
    · rw [satisfies_iff] at hs
      rcases hs with ⟨_, h2⟩ | ⟨h1, h2⟩
      · exact absurd (h2.symm.trans hm) hn
      · rcases h2 with h2 | h2
        · exact absurd hm h2.1
        · rcases hp with hp | hp
          · rw [h1] at hp
            exact absurd hp (by decide)
          · rw [h2] at hp
            exact absurd hp (by decide)
    · exact absurd hm hm'
  · rfl

/-- Witness for C22: in the solver with the clause `f = 1 ∨ f = 2` after `Enqueue(f ≠ 1)`, the
satisfied literal `f ≠ 1` is enqueued again without effect. -/
theorem C22_Enqueue_noop_witness :
    ((excludedNameInput.satisfies ⟨false, 1, 1⟩ (-1) = true ∧ (⟨false, 1, 1⟩ : Literal).rhs ≠ 0) ∨
      excludedNameInput.model (⟨false, 1, 1⟩ : Literal).lhs ≠ 0) ∧
    Enqueue oneSort excludedNameInput ⟨false, 1, 1⟩ kNullRef = excludedNameInput :=
  ⟨Or.inl (by decide!), C22_Enqueue_noop oneSort excludedNameInput ⟨false, 1, 1⟩ kNullRef
    (Or.inl (by decide!))⟩

/-! ### Propagation in `Solve` -/

/-- C26 (the code at the failing input): for the unit `f ≠ 1` and the clause `g = 1 ∨ h = 1`,
`Init` leaves `trail_head_ = 2` with a trail of length `1`, and when `Solve` opens its first
decision level (for `h = 9`) the trail has length `1` while `trail_head_` is `2`, so that the
decided literal at trail position `1` is never handed to `Propagate`: the second decision
(`g = 9`) is made at `trail_head_ = 2` with a trail of length `2`. -/
theorem C26_decision_with_stale_trail_head :
    (Init oneSort staleHeadInput).trail_head_ = 2 ∧
    (Init oneSort staleHeadInput).trail_.length = 1 ∧
    (Init oneSort staleHeadInput).empty_clause_ = false ∧
    (Solve oneSort conflictKeep decisionRecord 20 (Init oneSort staleHeadInput) []).map
        (fun r => (r.1, r.2.2))
      = some (1, [(2, 1, ⟨true, 3, 9⟩), (2, 2, ⟨true, 2, 9⟩)]) := by
  decide!

/-- C23 (the code at the failing input): after `Init` for the unit `f ≠ 1` and the clause
`g = 1 ∨ h = 1` and the first decision `h = 9` of `Solve`, the clause is stored, has size `2`
and is watched on `g` and `h`; `Propagate` returns `kNullRef`, and yet the clause is not
satisfied and its watched literal `c[1]`, which is `h = 1`, is falsified. The last part says
that `Solve` passes through this state at its first decision. -/
theorem C23_falsified_watch_after_Propagate :
    (firstDecision oneSort (Init oneSort staleHeadInput)).clauses_ = [0, 1] ∧
    ((firstDecision oneSort (Init oneSort staleHeadInput)).clause 1).lits
      = [⟨true, 2, 1⟩, ⟨true, 3, 1⟩] ∧
    (firstDecision oneSort (Init oneSort staleHeadInput)).watchers_.getD 2 [] = [1] ∧
    (firstDecision oneSort (Init oneSort staleHeadInput)).watchers_.getD 3 [] = [1] ∧
    (Propagate oneSort (firstDecision oneSort (Init oneSort staleHeadInput))).2 = kNullRef ∧
    (Propagate oneSort (firstDecision oneSort (Init oneSort staleHeadInput))).1.satisfiesClause
      ((Propagate oneSort (firstDecision oneSort (Init oneSort staleHeadInput))).1.clause 1) (-1)
      = false ∧
    (Propagate oneSort (firstDecision oneSort (Init oneSort staleHeadInput))).1.falsifies
      (((Propagate oneSort (firstDecision oneSort (Init oneSort staleHeadInput))).1.clause 1).get 1)
      (-1) = true ∧
    (Solve oneSort conflictTrail decisionTrail 20 (Init oneSort staleHeadInput) []).map
        (fun r => r.2.2.head?)
      = some (some ((firstDecision oneSort (Init oneSort staleHeadInput)).trail_,
          (firstDecision oneSort (Init oneSort staleHeadInput)).model_)) := by
  decide!

/-! ### CandidateName -/

theorem CandidateNameDown_some (s : Solver) (f : Nat) (names : List Nat) (k i n : Nat)
    (h : CandidateNameDown s f names k = some (i, n)) :
    i < k ∧ names.getD i 0 = n ∧ n ≠ 0 ∧ (s.data f n).occurs = true ∧
      (s.data f n).model_neq = false := by
  induction k with
  | zero => simp [CandidateNameDown] at h
  | succ k ih =>
    unfold CandidateNameDown at h
    dsimp only at h
    split at h
    · rename_i hc
      simp only [Bool.and_eq_true, bne_iff_ne, ne_eq, Bool.not_eq_true'] at hc
      simp only [Option.some.injEq, Prod.mk.injEq] at h
      obtain ⟨rfl, rfl⟩ := h
      exact ⟨Nat.lt_succ_self _, rfl, hc.1.1, hc.1.2, hc.2⟩
    · obtain ⟨h1, h2⟩ := ih h
      exact ⟨Nat.lt_succ_of_lt h1, h2⟩

theorem CandidateNameDown_none (s : Solver) (f : Nat) (names : List Nat) (k : Nat)
    (h : CandidateNameDown s f names k = none) (i : Nat) (hi : i < k) :
    ¬ (names.getD i 0 ≠ 0 ∧ (s.data f (names.getD i 0)).occurs = true ∧
      (s.data f (names.getD i 0)).model_neq = false) := by
  induction k with
  | zero => exact absurd hi (Nat.not_lt_zero i)
  | succ k ih =>
    unfold CandidateNameDown at h
    dsimp only at h
    split at h
    · exact absurd h (by simp)
    · rename_i hc
      rcases Nat.lt_succ_iff_lt_or_eq.mp hi with hlt | heq
      · exact ih h hlt
      · subst heq
        intro hgood
        apply hc
        simp only [Bool.and_eq_true, bne_iff_ne, ne_eq, Bool.not_eq_true']
        exact ⟨⟨hgood.1, hgood.2.1⟩, hgood.2.2⟩

theorem CandidateNameWrap_some (s : Solver) (f : Nat) (names : List Nat) (offset k i n : Nat)
    (h : CandidateNameWrap s f names offset k = some (i, n)) :
    names.getD i 0 = n ∧ n ≠ 0 ∧ (s.data f n).occurs = true ∧
      (s.data f n).model_neq = false := by
  induction k with
  | zero => simp [CandidateNameWrap] at h
  | succ k ih =>
    unfold CandidateNameWrap at h
    dsimp only at h
    split at h
    · rename_i hc
      simp only [Bool.and_eq_true, bne_iff_ne, ne_eq, Bool.not_eq_true'] at hc
      simp only [Option.some.injEq, Prod.mk.injEq] at h
      obtain ⟨rfl, rfl⟩ := h
      exact ⟨rfl, hc.1.1, hc.1.2, hc.2⟩
    · exact ih h

theorem CandidateNameWrap_none (s : Solver) (f : Nat) (names : List Nat) (offset k : Nat)
    (h : CandidateNameWrap s f names offset k = none) (j : Nat) (h1 : offset < j)
    (h2 : j ≤ offset + k) :
    ¬ (names.getD j 0 ≠ 0 ∧ (s.data f (names.getD j 0)).occurs = true ∧
      (s.data f (names.getD j 0)).model_neq = false) := by
  induction k with
  | zero => omega
  | succ k ih =>
    unfold CandidateNameWrap at h
    dsimp only at h
    split at h
    · exact absurd h (by simp)
    · rename_i hc
      by_cases hj : j = offset + k + 1
      · subst hj
        intro hgood
        apply hc
        simp only [Bool.and_eq_true, bne_iff_ne, ne_eq, Bool.not_eq_true']
        exact ⟨⟨hgood.1, hgood.2.1⟩, hgood.2.2⟩
      · exact ih h (by omega)

theorem CandidateNameFind_some (sort : Nat → Nat) (s : Solver) (f i n : Nat)
    (h : CandidateNameFind sort s f = some (i, n)) :
    (s.names_.getD (sort f) []).getD i 0 = n ∧ n ≠ 0 ∧ (s.data f n).occurs = true ∧
      (s.data f n).model_neq = false := by
  unfold CandidateNameFind at h
  dsimp only at h
  split at h
  · rename_i r hr
    simp only [Option.some.injEq] at h
    subst h
    exact (CandidateNameDown_some s f _ _ i n hr).2
  · exact CandidateNameWrap_some s f _ _ _ i n h

theorem CandidateNameFind_none (sort : Nat → Nat) (s : Solver) (f : Nat)
    (h : CandidateNameFind sort s f = none) (i : Nat)
    (hi : i < (s.names_.getD (sort f) []).length) :
    ¬ ((s.names_.getD (sort f) []).getD i 0 ≠ 0 ∧
      (s.data f ((s.names_.getD (sort f) []).getD i 0)).occurs = true ∧
      (s.data f ((s.names_.getD (sort f) []).getD i 0)).model_neq = false) := by
  unfold CandidateNameFind at h
  dsimp only at h
  split at h
  · exact absurd h (by simp)
  · rename_i hd
    by_cases hle : i ≤ s.name_index_.getD f 0
    · exact CandidateNameDown_none s f _ _ hd i (by omega)
    · exact CandidateNameWrap_none s f _ _ _ h i (by omega) (by omega)

/-- C28: `CandidateName(f)`, for a function `f` within the capacity of `name_index_`, returns
either the null name or a name `n` that is stored in the name set of the sort of `f` at the
position now held by `name_index_[f]` and has `occurs` and not `model_neq`; and it returns a
non-null name whenever some position of that name set holds a non-null name with `occurs` and
not `model_neq`, so that the null name is returned only when there is none. -/
theorem C28_CandidateName_complete (sort : Nat → Nat) (s : Solver) (f : Nat)
    (hcap : f < s.name_index_.length) :
    ((CandidateName sort s f).1 ≠ 0 →
      (s.names_.getD (sort f) []).getD ((CandidateName sort s f).2.name_index_.getD f 0) 0
        = (CandidateName sort s f).1 ∧
      (s.data f (CandidateName sort s f).1).occurs = true ∧
      (s.data f (CandidateName sort s f).1).model_neq = false) ∧
    ((∃ i, i < (s.names_.getD (sort f) []).length ∧
        (s.names_.getD (sort f) []).getD i 0 ≠ 0 ∧
        (s.data f ((s.names_.getD (sort f) []).getD i 0)).occurs = true ∧
        (s.data f ((s.names_.getD (sort f) []).getD i 0)).model_neq = false) →
      (CandidateName sort s f).1 ≠ 0) := by
  unfold CandidateName
  cases h : CandidateNameFind sort s f with
  | none =>
    refine ⟨fun h0 => absurd rfl h0, ?_⟩
    rintro ⟨i, hi, hgood⟩
    exact absurd hgood (CandidateNameFind_none sort s f h i hi)
  | some r =>
    obtain ⟨i, n⟩ := r
    obtain ⟨h1, h2, h3, h4⟩ := CandidateNameFind_some sort s f i n h
    refine ⟨fun _ => ⟨?_, h3, h4⟩, fun _ => h2⟩
    show (s.names_.getD (sort f) []).getD ((s.name_index_.set f i).getD f 0) 0 = n
    rw [getD_set_same _ _ _ _ hcap]
    exact h1

/-- Witness for C28: in the solver with the clause `f = 1 ∨ f = 2` after `Enqueue(f ≠ 1)`, the
names `2` and `9` are left for `f`; `CandidateName(f)` returns `9` and moves the cursor. -/
theorem C28_CandidateName_complete_witness :
    (1 < excludedNameInput.name_index_.length) ∧
    (CandidateName oneSort excludedNameInput 1).1 = 9 ∧
    (((CandidateName oneSort excludedNameInput 1).1 ≠ 0 →
      (excludedNameInput.names_.getD (oneSort 1) []).getD
          ((CandidateName oneSort excludedNameInput 1).2.name_index_.getD 1 0) 0
        = (CandidateName oneSort excludedNameInput 1).1 ∧
      (excludedNameInput.data 1 (CandidateName oneSort excludedNameInput 1).1).occurs = true ∧
      (excludedNameInput.data 1 (CandidateName oneSort excludedNameInput 1).1).model_neq = false) ∧
    ((∃ i, i < (excludedNameInput.names_.getD (oneSort 1) []).length ∧
        (excludedNameInput.names_.getD (oneSort 1) []).getD i 0 ≠ 0 ∧
        (excludedNameInput.data 1
          ((excludedNameInput.names_.getD (oneSort 1) []).getD i 0)).occurs = true ∧
        (excludedNameInput.data 1
          ((excludedNameInput.names_.getD (oneSort 1) []).getD i 0)).model_neq = false) →
      (CandidateName oneSort excludedNameInput 1).1 ≠ 0)) :=
  ⟨by decide!, by decide!, C28_CandidateName_complete oneSort excludedNameInput 1 (by decide!)⟩

/-! ### AddClause and AddLiteral -/

/-- C12 (the code at the failing input): on the fresh solver `AddClause([f = 1, f = 1])` and
`AddLiteral(f = 1)` both push `f = 1` on the trail, but only `AddLiteral` registers the pair:
after `AddClause` the function `f` is not in `funcs_`, `data_[f][1].occurs` is unset and
`domain_size_[f]` is not counted (the maps have not even been given capacity). -/
theorem C12_AddClause_unit_not_registered :
    (Clause.Normalize [⟨true, 1, 1⟩, ⟨true, 1, 1⟩]).lits = [⟨true, 1, 1⟩] ∧
    (AddClause oneSort extraNine init [⟨true, 1, 1⟩, ⟨true, 1, 1⟩]).trail_ = [⟨true, 1, 1⟩] ∧
    (AddLiteral oneSort extraNine init ⟨true, 1, 1⟩).trail_ = [⟨true, 1, 1⟩] ∧
    ((AddLiteral oneSort extraNine init ⟨true, 1, 1⟩).data 1 1).occurs = true ∧
    ((AddClause oneSort extraNine init [⟨true, 1, 1⟩, ⟨true, 1, 1⟩]).data 1 1).occurs = false ∧
    (AddLiteral oneSort extraNine init ⟨true, 1, 1⟩).domain_size_.getD 1 0 = 2 ∧
    (AddClause oneSort extraNine init [⟨true, 1, 1⟩, ⟨true, 1, 1⟩]).domain_size_ = [] ∧
    DenseSet.Contains (AddLiteral oneSort extraNine init ⟨true, 1, 1⟩).funcs_ 1 = true ∧
    (AddClause oneSort extraNine init [⟨true, 1, 1⟩, ⟨true, 1, 1⟩]).funcs_ = [] := by
  decide

/-! ### Domain propagation -/

theorem CandidateName_trail_ (sort : Nat → Nat) (s : Solver) (f : Nat) :
    (CandidateName sort s f).2.trail_ = s.trail_ := by
  unfold CandidateName
  cases CandidateNameFind sort s f <;> rfl

theorem CandidateName_domain_size_ (sort : Nat → Nat) (s : Solver) (f : Nat) :
    (CandidateName sort s f).2.domain_size_ = s.domain_size_ := by
  unfold CandidateName
  cases CandidateNameFind sort s f <;> rfl

theorem CandidateName_current_level (sort : Nat → Nat) (s : Solver) (f : Nat) :
    (CandidateName sort s f).2.current_level = s.current_level := by
  unfold CandidateName
  cases CandidateNameFind sort s f <;> rfl

theorem orderRemove_trail_ (s : Solver) (f : Nat) : (s.orderRemove f).trail_ = s.trail_ := rfl

theorem setModel_trail_ (s : Solver) (f n : Nat) : (s.setModel f n).trail_ = s.trail_ := rfl

theorem setData_trail_ (s : Solver) (f n : Nat) (x : Data) : (s.setData f n x).trail_ = s.trail_ :=
  rfl

theorem setDomainSize_trail_ (s : Solver) (f : Nat) (v : Int) :
    (s.setDomainSize f v).trail_ = s.trail_ := rfl

theorem pushTrail_trail_ (s : Solver) (a : Literal) : (s.pushTrail a).trail_ = s.trail_ ++ [a] :=
  rfl

theorem orderRemove_domain_size_ (s : Solver) (f : Nat) :
    (s.orderRemove f).domain_size_ = s.domain_size_ := rfl

theorem setModel_domain_size_ (s : Solver) (f n : Nat) :
    (s.setModel f n).domain_size_ = s.domain_size_ := rfl

theorem setData_domain_size_ (s : Solver) (f n : Nat) (x : Data) :
    (s.setData f n x).domain_size_ = s.domain_size_ := rfl

theorem pushTrail_domain_size_ (s : Solver) (a : Literal) :
    (s.pushTrail a).domain_size_ = s.domain_size_ := rfl

/-- The name returned by `CandidateName(f)` when `k` is the only candidate. -/
theorem CandidateName_unique (sort : Nat → Nat) (s : Solver) (f k i : Nat)
    (hi : i < (s.names_.getD (sort f) []).length)
    (hik : (s.names_.getD (sort f) []).getD i 0 = k) (hk0 : k ≠ 0)
    (hocc : (s.data f k).occurs = true) (hneq : (s.data f k).model_neq = false)
    (huniq : ∀ j, j < (s.names_.getD (sort f) []).length →
      (s.names_.getD (sort f) []).getD j 0 ≠ 0 →
      (s.data f ((s.names_.getD (sort f) []).getD j 0)).occurs = true →
      (s.data f ((s.names_.getD (sort f) []).getD j 0)).model_neq = false →
      (s.names_.getD (sort f) []).getD j 0 = k) :
    (CandidateName sort s f).1 = k := by
  unfold CandidateName
  cases h : CandidateNameFind sort s f with
  | none =>
    exfalso
    apply CandidateNameFind_none sort s f h i hi
    rw [hik]
    exact ⟨hk0, hocc, hneq⟩
  | some r =>
    obtain ⟨j, n⟩ := r
    obtain ⟨h1, h2, h3, h4⟩ := CandidateNameFind_some sort s f j n h
    show n = k
    have hj : j < (s.names_.getD (sort f) []).length := by
      by_contra hge
      rw [List.getD_eq_default _ _ (Nat.le_of_not_lt hge)] at h1
      exact h2 h1.symm
    have := huniq j hj (by rw [h1]; exact h2) (by rw [h1]; exact h3) (by rw [h1]; exact h4)
    rw [h1] at this
    exact this

/-- What the domain-propagation branch of `Enqueue` does when `CandidateName(f)` returns `k`. -/
theorem EnqueueDomain_result (sort : Nat → Nat) (t : Solver) (f k : Nat)
    (hcand : (CandidateName sort t f).1 = k) (hf : f < t.model_.length)
    (hfd : f < t.data_.length) (hk : k < (t.data_.getD f []).length) :
    (EnqueueDomain sort t f).trail_ = t.trail_ ++ [Literal.Eq f k] ∧
    (EnqueueDomain sort t f).model f = k ∧
    ((EnqueueDomain sort t f).data f k).reason = kDomainRef ∧
    ((EnqueueDomain sort t f).data f k).model_neq = false ∧
    (∀ g x, (g ≠ f ∨ x ≠ k) → (EnqueueDomain sort t f).data g x = t.data g x) ∧
    (EnqueueDomain sort t f).domain_size_ = t.domain_size_ := by
  unfold EnqueueDomain
  dsimp only
  rw [hcand]
  have hd := CandidateName_data_ sort t f
  have hm := CandidateName_model_ sort t f
  refine ⟨?_, ?_, ?_, ?_, ?_, ?_⟩
  · rw [orderRemove_trail_, setModel_trail_, setData_trail_, pushTrail_trail_,
      CandidateName_trail_]
  · rw [model_congr (orderRemove_model_ _ _)]
    apply model_setModel_same
    show f < (CandidateName sort t f).2.model_.length
    rw [hm]
    exact hf
  · rw [data_congr (orderRemove_data_ _ _), data_congr (setModel_data_ _ _ _),
      data_setData_same _ _ _ _ (by show f < (CandidateName sort t f).2.data_.length; rw [hd]; exact hfd)
        (by show k < ((CandidateName sort t f).2.data_.getD f []).length; rw [hd]; exact hk)]
    rfl
  · rw [data_congr (orderRemove_data_ _ _), data_congr (setModel_data_ _ _ _),
      data_setData_same _ _ _ _ (by show f < (CandidateName sort t f).2.data_.length; rw [hd]; exact hfd)
        (by show k < ((CandidateName sort t f).2.data_.getD f []).length; rw [hd]; exact hk)]
    rfl
  · intro g x hgx
    rw [data_congr (orderRemove_data_ _ _), data_congr (setModel_data_ _ _ _),
      data_setData_ne _ _ _ _ _ _ hgx]
    exact data_congr hd g x
  · rw [orderRemove_domain_size_, setModel_domain_size_, setData_domain_size_,
      pushTrail_domain_size_, CandidateName_domain_size_]

/-- When `Enqueue` of a negative literal `f ≠ n` (with `f` unassigned and `f ≠ n` not yet
set) lowers `domain_size_[f]` from `2` to `1`, and `k` is the only name other than `n` in the
name set of the sort of `f` with `occurs` and not `model_neq`, then the same `Enqueue` puts
`f ≠ n` and `f = k` on the trail, sets `model_[f] = k` with reason `kDomainRef`, and leaves
`domain_size_[f] = 1`. -/
theorem Enqueue_domain_propagation (sort : Nat → Nat) (s : Solver) (a : Literal) (reason : Int)
    (k i : Nat) (hneg : a.pos = false) (hm : s.model a.lhs = 0)
    (hneq : (s.data a.lhs a.rhs).model_neq = false)
    (hds : s.domain_size_.getD a.lhs 0 = 2) (hfd : a.lhs < s.domain_size_.length)
    (hcap : s.InCapacity a)
    (hi : i < (s.names_.getD (sort a.lhs) []).length)
    (hik : (s.names_.getD (sort a.lhs) []).getD i 0 = k) (hk0 : k ≠ 0) (hkn : k ≠ a.rhs)
    (hkcap : k < (s.data_.getD a.lhs []).length)
    (hocc : (s.data a.lhs k).occurs = true) (hkneq : (s.data a.lhs k).model_neq = false)
    (huniq : ∀ j, j < (s.names_.getD (sort a.lhs) []).length →
      (s.names_.getD (sort a.lhs) []).getD j 0 ≠ 0 →
      (s.data a.lhs ((s.names_.getD (sort a.lhs) []).getD j 0)).occurs = true →
      (s.data a.lhs ((s.names_.getD (sort a.lhs) []).getD j 0)).model_neq = false →
      (s.names_.getD (sort a.lhs) []).getD j 0 = k ∨
        (s.names_.getD (sort a.lhs) []).getD j 0 = a.rhs) :
    (Enqueue sort s a reason).trail_ = s.trail_ ++ [a, Literal.Eq a.lhs k] ∧
    (Enqueue sort s a reason).model a.lhs = k ∧
    ((Enqueue sort s a reason).data a.lhs k).reason = kDomainRef ∧
    ((Enqueue sort s a reason).data a.lhs k).model_neq = false ∧
    ((Enqueue sort s a reason).data a.lhs a.rhs).model_neq = true ∧
    (Enqueue sort s a reason).domain_size_.getD a.lhs 0 = 1 := by
  obtain ⟨hc1, hc2, hc3⟩ := hcap
  have hcond : (s.model a.lhs == 0 && (a.pos || !(s.data a.lhs a.rhs).model_neq)) = true := by
    rw [hm, hneq, hneg]
    rfl
  -- the state in which `CandidateName` is called
  have hdat : ∀ x, x ≠ a.rhs →
      ((((s.pushTrail a).setData a.lhs a.rhs
        ((s.data a.lhs a.rhs).Update (!a.pos) s.current_level reason)).setDomainSize a.lhs
          (s.domain_size_.getD a.lhs 0 - 1)).data a.lhs x) = s.data a.lhs x := by
    intro x hx
    rw [data_congr (setDomainSize_data_ _ _ _), data_setData_ne _ _ _ _ _ _ (Or.inr hx)]
    rfl
  have hdn : ((((s.pushTrail a).setData a.lhs a.rhs
        ((s.data a.lhs a.rhs).Update (!a.pos) s.current_level reason)).setDomainSize a.lhs
          (s.domain_size_.getD a.lhs 0 - 1)).data a.lhs a.rhs).model_neq = true := by
    rw [data_congr (setDomainSize_data_ _ _ _),
      data_setData_same (s.pushTrail a) _ _ _ hc2 hc3, hneg]
    rfl
  have hcand := CandidateName_unique sort
      (((s.pushTrail a).setData a.lhs a.rhs
        ((s.data a.lhs a.rhs).Update (!a.pos) s.current_level reason)).setDomainSize a.lhs
          (s.domain_size_.getD a.lhs 0 - 1)) a.lhs k i hi hik hk0
      (by rw [hdat k hkn]; exact hocc) (by rw [hdat k hkn]; exact hkneq)
      (by
        intro j hj h0 h1 h2
        by_cases hjn : (s.names_.getD (sort a.lhs) []).getD j 0 = a.rhs
        · have h2' := h2
          have : ((((s.pushTrail a).setData a.lhs a.rhs
              ((s.data a.lhs a.rhs).Update (!a.pos) s.current_level reason)).setDomainSize
                a.lhs (s.domain_size_.getD a.lhs 0 - 1)).names_.getD (sort a.lhs) []).getD j 0
              = a.rhs := hjn
          rw [this, hdn] at h2'
          exact absurd h2' (by decide)
        · have e1 := hdat _ hjn
          have h1' : (s.data a.lhs ((s.names_.getD (sort a.lhs) []).getD j 0)).occurs = true := by
            rw [← e1]
            exact h1
          have h2' : (s.data a.lhs ((s.names_.getD (sort a.lhs) []).getD j 0)).model_neq
              = false := by
            rw [← e1]
            exact h2
          rcases huniq j hj h0 h1' h2' with h | h
          · exact h
          · exact absurd h hjn)
  have hres := EnqueueDomain_result sort _ a.lhs k hcand hc1
    (by rw [setDomainSize_data_, length_data_setData]; exact hc2)
    (by rw [setDomainSize_data_, row_length_setData]; exact hkcap)
  obtain ⟨r1, r2, r3, r4, r5, r6⟩ := hres
  have hgoal : Enqueue sort s a reason = EnqueueDomain sort
      (((s.pushTrail a).setData a.lhs a.rhs
        ((s.data a.lhs a.rhs).Update (!a.pos) s.current_level reason)).setDomainSize a.lhs
          (s.domain_size_.getD a.lhs 0 - 1)) a.lhs := by
    unfold Enqueue
    dsimp only
    rw [if_pos hcond, hneg]
    simp only [Bool.false_eq_true, if_false]
    rw [setData_domain_size_, pushTrail_domain_size_, hds]
    rfl
  rw [hgoal]
  refine ⟨?_, r2, r3, r4, ?_, ?_⟩
  · rw [r1, setDomainSize_trail_, setData_trail_, pushTrail_trail_, List.append_assoc]
    rfl
  · rw [r5 a.lhs a.rhs (Or.inr (fun e => hkn e.symm))]
    exact hdn
  · rw [r6]
    show (s.domain_size_.set a.lhs (s.domain_size_.getD a.lhs 0 - 1)).getD a.lhs 0 = 1
    rw [getD_set_same _ _ _ _ hfd, hds]
    rfl

/-- With the clause `f = 1 ∨ g = 2` and the unit `f ≠ 1` loaded, where the only other name of
`f` is the extra name `9`, `Enqueue(f ≠ 1)` domain-propagates `f = 9`; and after `Init` the
model assigns `f = 9` and `g = 2`. -/
theorem Enqueue_domain_propagation_scenario :
    ((Init oneSort domainScenarioInput).model 1 = 9 ∧
      (Init oneSort domainScenarioInput).model 2 = 2 ∧
      (Init oneSort domainScenarioInput).reason_of ⟨true, 1, 9⟩ = kDomainRef) ∧
    ((Enqueue oneSort domainScenarioInput ⟨false, 1, 1⟩ kNullRef).trail_
        = domainScenarioInput.trail_ ++ [⟨false, 1, 1⟩, Literal.Eq 1 9] ∧
      (Enqueue oneSort domainScenarioInput ⟨false, 1, 1⟩ kNullRef).model 1 = 9 ∧
      ((Enqueue oneSort domainScenarioInput ⟨false, 1, 1⟩ kNullRef).data 1 9).reason
        = kDomainRef ∧
      ((Enqueue oneSort domainScenarioInput ⟨false, 1, 1⟩ kNullRef).data 1 9).model_neq = false ∧
      ((Enqueue oneSort domainScenarioInput ⟨false, 1, 1⟩ kNullRef).data 1 1).model_neq = true ∧
      (Enqueue oneSort domainScenarioInput ⟨false, 1, 1⟩ kNullRef).domain_size_.getD 1 0 = 1) :=
  ⟨by decide!,
    Enqueue_domain_propagation oneSort domainScenarioInput ⟨false, 1, 1⟩ kNullRef 9 9 rfl
      (by decide!) (by decide!) (by decide!) (by decide!) (by decide!) (by decide!) (by decide!)
      (by decide) (by decide) (by decide!) (by decide!) (by decide!) (by decide!)⟩

/-- C13 (the code at the failing input): after `AddClause({f ≠ 5, f ≠ 5})`, which pushes the
unit `f ≠ 5` without registering it, `AddClause({f = 1, g = 1})` and `AddLiteral(g ≠ 1)`, the
function `f` has the names `1` and `9` with `domain_size_[f] = 2`. The first `Enqueue` of
`Init`, for `f ≠ 5`, lowers `domain_size_[f]` to `1` and puts `f = 9` on the trail with the
reason `kDomainRef`, although the names `1` and `9` both have `occurs` and not `model_neq`
afterwards: the name assigned is not the only one left. -/
theorem C13_domain_propagation_leaves_two_names :
    repeatedLiteralInput.trail_ = [⟨false, 1, 5⟩, ⟨false, 2, 1⟩] ∧
    (firstUnitState.data 1 5).occurs = false ∧
    firstUnitState.falsifies ⟨false, 1, 5⟩ (-1) = false ∧
    firstUnitState.domain_size_.getD 1 0 = 2 ∧
    (Enqueue oneSort firstUnitState ⟨false, 1, 5⟩ kNullRef).domain_size_.getD 1 0 = 1 ∧
    (Enqueue oneSort firstUnitState ⟨false, 1, 5⟩ kNullRef).trail_
      = [⟨false, 1, 5⟩, ⟨true, 1, 9⟩] ∧
    (Enqueue oneSort firstUnitState ⟨false, 1, 5⟩ kNullRef).model 1 = 9 ∧
    ((Enqueue oneSort firstUnitState ⟨false, 1, 5⟩ kNullRef).data 1 9).reason = kDomainRef ∧
    ((Enqueue oneSort firstUnitState ⟨false, 1, 5⟩ kNullRef).data 1 1).occurs = true ∧
    ((Enqueue oneSort firstUnitState ⟨false, 1, 5⟩ kNullRef).data 1 1).model_neq = false ∧
    ((Enqueue oneSort firstUnitState ⟨false, 1, 5⟩ kNullRef).data 1 9).occurs = true ∧
    ((Enqueue oneSort firstUnitState ⟨false, 1, 5⟩ kNullRef).data 1 9).model_neq = false ∧
    (InitUnits oneSort [⟨false, 1, 5⟩] firstUnitState).1.trail_
      = (Enqueue oneSort firstUnitState ⟨false, 1, 5⟩ kNullRef).trail_ := by
  decide!

/-! ### A conflict of the root level met above it -/

/-- For the unit `h = 1` and the clauses `f = 1 ∨ g = 2`, `h = 2 ∨ f = 2`, `h = 2 ∨ g ≠ 2`,
`g = 1 ∨ f = 2`, the first decision of `Solve` is `g = 9` at level `2`, and `Propagate` then
reports the clause `f = 1 ∨ g = 2` as conflict. The clause is entirely falsified, but by
literals of the root level, which `Init` has derived. -/
theorem rootConflict_eval :
    (firstDecision oneSort (Init oneSort rootConflictInput)).trail_
      = [⟨true, 3, 1⟩, ⟨true, 1, 2⟩, ⟨false, 2, 2⟩, ⟨true, 2, 9⟩] ∧
    (Propagate oneSort (firstDecision oneSort (Init oneSort rootConflictInput))).2 = 1 ∧
    (Propagate oneSort (firstDecision oneSort (Init oneSort rootConflictInput))).1.current_level
      = 2 ∧
    ((Propagate oneSort (firstDecision oneSort (Init oneSort rootConflictInput))).1.clause 1).lits
      = [⟨true, 1, 1⟩, ⟨true, 2, 2⟩] ∧
    (Propagate oneSort (firstDecision oneSort (Init oneSort rootConflictInput))).1.falsifiesClause
      ((Propagate oneSort (firstDecision oneSort (Init oneSort rootConflictInput))).1.clause 1)
      (-1) = true ∧
    ((Propagate oneSort (firstDecision oneSort (Init oneSort rootConflictInput))).1.clause 1).lits.map
      (fun a => (Propagate oneSort
        (firstDecision oneSort (Init oneSort rootConflictInput))).1.level_of_complementary a)
      = [1, 1] := by
  decide!

end Solver

namespace Solver

/-! ### The domain-size invariant -/

theorem freeCount_nil : freeCount [] = 0 := rfl

theorem freeCount_append (r1 r2 : List Data) : freeCount (r1 ++ r2) = freeCount r1 + freeCount r2 := by
  unfold freeCount
  rw [List.filter_append, List.length_append]
  push_cast
  rfl

theorem freeCount_replicate_null (k : Nat) : freeCount (List.replicate k Data.null) = 0 := by
  unfold freeCount
  have : (List.replicate k Data.null).filter Data.free = [] := by
    rw [List.filter_eq_nil_iff]
    intro d hd
    rw [List.eq_of_mem_replicate hd]
    decide
  rw [this]
  rfl

/-- Replacing the entry at position `n` changes the count by the difference of the two entries. -/
theorem freeCount_set (row : List Data) (n : Nat) (d : Data) (h : n < row.length) :
    freeCount (row.set n d)
      = freeCount row - (if (row.getD n Data.null).free then 1 else 0)
        + (if d.free then 1 else 0) := by
  induction row generalizing n with
  | nil => exact absurd h (Nat.not_lt_zero n)
  | cons x xs ih =>
    cases n with
    | zero =>
      show freeCount (d :: xs) = freeCount (x :: xs) - (if x.free then 1 else 0) + _
      unfold freeCount
      simp only [List.filter_cons]
      by_cases hx : x.free = true <;> by_cases hd : d.free = true <;> simp [hx, hd]
    | succ n =>
      have h' : n < xs.length := Nat.lt_of_succ_lt_succ h
      have e := ih n h'
      show freeCount (x :: xs.set n d) = freeCount (x :: xs) - (if (xs.getD n Data.null).free then 1 else 0) + _
      have c1 : ∀ l : List Data, freeCount (x :: l) = (if x.free then 1 else 0) + freeCount l := by
        intro l
        unfold freeCount
        simp only [List.filter_cons]
        by_cases hx : x.free = true <;> simp [hx] <;> omega
      rw [c1, c1, e]
      omega

theorem setData_row_same (s : Solver) (f n : Nat) (d : Data) (hf : f < s.data_.length) :
    (s.setData f n d).data_.getD f [] = (s.data_.getD f []).set n d := by
  unfold setData
  dsimp only
  rw [getD_set_same _ _ _ _ hf]

theorem setData_row_ne (s : Solver) (f n g : Nat) (d : Data) (h : f ≠ g) :
    (s.setData f n d).data_.getD g [] = s.data_.getD g [] := by
  unfold setData
  dsimp only
  rw [getD_set_ne _ _ _ _ _ h]

/-- The count of a row after `data_[f][n] = d`, when the new entry is free iff the old one is
free or `delta` makes up for the difference. -/
theorem freeCount_setData (s : Solver) (f n g : Nat) (d : Data) :
    freeCount ((s.setData f n d).data_.getD g [])
      = freeCount (s.data_.getD g [])
        + (if g = f ∧ f < s.data_.length ∧ n < (s.data_.getD f []).length then
            (if d.free then 1 else 0) - (if (s.data f n).free then 1 else 0) else 0) := by
  by_cases hg : g = f
  · subst hg
    by_cases hf : g < s.data_.length
    · rw [setData_row_same _ _ _ _ hf]
      by_cases hn : n < (s.data_.getD g []).length
      · have hc : g = g ∧ g < s.data_.length ∧ n < (s.data_.getD g []).length := ⟨rfl, hf, hn⟩
        rw [freeCount_set _ _ _ hn, if_pos hc]
        unfold data
        omega
      · have hc : ¬ (g = g ∧ g < s.data_.length ∧ n < (s.data_.getD g []).length) :=
          fun h => hn h.2.2
        rw [List.set_eq_of_length_le (Nat.le_of_not_lt hn), if_neg hc]
        omega
    · have : (s.setData g n d).data_ = s.data_ := by
        unfold setData
        dsimp only
        rw [List.set_eq_of_length_le (Nat.le_of_not_lt hf)]
      have hc : ¬ (g = g ∧ g < s.data_.length ∧ n < (s.data_.getD g []).length) :=
        fun h => hf h.2.1
      rw [this, if_neg hc]
      omega
  · have hc : ¬ (g = f ∧ f < s.data_.length ∧ n < (s.data_.getD f []).length) :=
      fun h => hg h.1
    rw [setData_row_ne _ _ _ _ _ (fun e => hg e.symm), if_neg hc]
    omega

/-- An entry that occurs lies within the capacity of `data_`. -/
theorem occurs_in_capacity (s : Solver) (f n : Nat) (h : (s.data f n).occurs = true) :
    f < s.data_.length ∧ n < (s.data_.getD f []).length := by
  unfold data at h
  constructor
  · by_contra hf
    rw [List.getD_eq_default _ _ (Nat.le_of_not_lt hf)] at h
    simp [Data.null] at h
  · by_contra hn
    rw [List.getD_eq_default (s.data_.getD f []) _ (Nat.le_of_not_lt hn)] at h
    simp [Data.null] at h

theorem getD_append_replicate {α : Type} (l : List α) (m i : Nat) (d : α) :
    (l ++ List.replicate m d).getD i d = l.getD i d := by
  by_cases h : i < l.length
  · simp [List.getD_eq_getElem?_getD, List.getElem?_append_left h]
  · have h1 : l.length ≤ i := Nat.le_of_not_lt h
    rw [List.getD_eq_default l d h1]
    simp only [List.getD_eq_getElem?_getD, List.getElem?_append_right h1, List.getElem?_replicate]
    split <;> rfl

theorem getD_Capacitate {α : Type} (null : α) (i j : Nat) (v : List α) :
    (DenseMap.Capacitate null i v).getD j null = v.getD j null := by
  unfold DenseMap.Capacitate
  split
  · exact getD_append_replicate _ _ _ _
  · rfl

theorem freeCount_Capacitate (i : Nat) (row : List Data) :
    freeCount (DenseMap.Capacitate Data.null i row) = freeCount row := by
  unfold DenseMap.Capacitate
  split
  · rw [freeCount_append, freeCount_replicate_null]
    omega
  · rfl

theorem Ext_refl (s : Solver) : Ext s s :=
  ⟨fun _ _ => rfl, fun _ => rfl, fun _ => rfl, fun h => h, rfl, rfl, fun _ => rfl, rfl, rfl⟩

theorem Ext_trans {s t u : Solver} (h1 : Ext s t) (h2 : Ext t u) : Ext s u := by
  constructor
  · intro f n
    rw [h2.data, h1.data]
  · intro f
    rw [h2.count, h1.count]
  · intro f
    rw [h2.size, h1.size]
  · intro h
    exact h2.cap (h1.cap h)
  · rw [h2.trail, h1.trail]
  · rw [h2.level, h1.level]
  · intro f
    rw [h2.watch, h1.watch]
  · rw [h2.clauses, h1.clauses]
  · rw [h2.factory, h1.factory]

theorem Ext_capacitateFuncs (s : Solver) (fig : Nat) : Ext s (s.capacitateFuncs fig) := by
  have hrow : ∀ f, (s.capacitateFuncs fig).data_.getD f [] = s.data_.getD f [] :=
    fun f => getD_Capacitate [] fig f s.data_
  constructor
  · intro f n
    unfold data
    rw [hrow]
  · intro f
    rw [hrow]
  · intro f
    exact getD_Capacitate 0 fig f s.domain_size_
  · intro h
    show (DenseMap.Capacitate 0 fig s.domain_size_).length
      = (DenseMap.Capacitate [] fig s.data_).length
    rw [length_Capacitate, length_Capacitate, h]
  · rfl
  · rfl
  · intro f
    exact getD_Capacitate [] fig f s.watchers_
  · rfl
  · rfl

theorem Ext_capacitateSorts (s : Solver) (sig : Nat) : Ext s (s.capacitateSorts sig) :=
  ⟨fun _ _ => rfl, fun _ => rfl, fun _ => rfl, fun h => h, rfl, rfl, fun _ => rfl, rfl, rfl⟩

theorem Ext_capacitateNames (s : Solver) (nig : Nat) : Ext s (s.capacitateNames nig) :=
  ⟨fun _ _ => rfl, fun _ => rfl, fun _ => rfl, fun h => h, rfl, rfl, fun _ => rfl, rfl, rfl⟩

theorem row_capacitateData (s : Solver) (nig f : Nat) :
    (s.capacitateData nig).data_.getD f []
      = if f < s.data_.length then DenseMap.Capacitate Data.null nig (s.data_.getD f [])
        else [] := by
  unfold capacitateData
  dsimp only
  split
  · rename_i h
    simp only [List.getD_eq_getElem?_getD, List.getElem?_map, List.getElem?_eq_getElem h,
      Option.map_some', Option.getD_some]
  · rename_i h
    rw [List.getD_eq_default _ _ (by rw [List.length_map]; exact Nat.le_of_not_lt h)]

theorem Ext_capacitateData (s : Solver) (nig : Nat) : Ext s (s.capacitateData nig) := by
  constructor
  · intro f n
    unfold data
    rw [row_capacitateData]
    split
    · exact getD_Capacitate Data.null nig n _
    · rename_i h
      rw [List.getD_eq_default s.data_ _ (Nat.le_of_not_lt h)]
  · intro f
    rw [row_capacitateData]
    split
    · exact freeCount_Capacitate nig _
    · rename_i h
      rw [List.getD_eq_default s.data_ _ (Nat.le_of_not_lt h)]
  · intro f
    rfl
  · intro h
    rw [length_data_capacitateData]
    exact h
  · rfl
  · rfl
  · intro f
    rfl
  · rfl
  · rfl

theorem Ext_CapacitateWith (s : Solver) (fi si ni : Int) (fig sig nig : Nat) :
    Ext s (s.CapacitateWith fi si ni fig sig nig) := by
  have hA : Ext s (if fi ≥ 0 then s.capacitateFuncs fig else s) := by
    split
    · exact Ext_capacitateFuncs s fig
    · exact Ext_refl s
  have hB : ∀ t : Solver, Ext t (if si ≥ 0 then t.capacitateSorts sig else t) := by
    intro t
    split
    · exact Ext_capacitateSorts t sig
    · exact Ext_refl t
  have hC : ∀ (c : Bool) (t : Solver), Ext t (if c = true then t.capacitateData nig else t) := by
    intro c t
    split
    · exact Ext_capacitateData t nig
    · exact Ext_refl t
  have hD : ∀ (c : Bool) (t : Solver),
      Ext t (if c = true then (t.capacitateNames nig).capacitateData nig else t) := by
    intro c t
    split
    · exact Ext_trans (Ext_capacitateNames t nig) (Ext_capacitateData _ nig)
    · exact Ext_refl t
  unfold CapacitateWith
  dsimp only
  exact Ext_trans (Ext_trans (Ext_trans hA (hB _)) (hC _ _)) (hD _ _)

theorem Ext_CapacitateMaps (s : Solver) (srt f n e : Nat) : Ext s (s.CapacitateMaps srt f n e) := by
  unfold CapacitateMaps
  exact Ext_CapacitateWith s _ _ _ _ _ _

theorem DataInv_ext {s t : Solver} (h : DataInv s) (e : Ext s t) (hc : t.Capacitated) :
    DataInv t := by
  constructor
  · exact hc
  · exact e.cap h.cap
  · intro f
    rw [e.size, e.count]
    exact h.count f
  · intro f n hn
    rw [e.data] at hn ⊢
    exact h.occ f n hn
  · intro f n ho
    rw [e.data] at ho
    exact h.nonnull f n ho

/-- The data invariant only looks at `data_`, `domain_size_` and the capacities. -/
theorem DataInv_frame {s t : Solver} (h : DataInv s) (h1 : t.data_ = s.data_)
    (h2 : t.domain_size_ = s.domain_size_) (h3 : t.model_.length = s.model_.length)
    (h4 : t.funcs_.length = s.funcs_.length)
    (h5 : (t.names_.getD 0 []).length = (s.names_.getD 0 []).length) : DataInv t := by
  have hd : ∀ f n, t.data f n = s.data f n := fun f n => data_congr h1 f n
  constructor
  · obtain ⟨a1, a2, a3⟩ := h.capd
    refine ⟨by omega, by rw [h1]; omega, ?_⟩
    rw [h1, h5]
    exact a3
  · rw [h1, h2]
    exact h.cap
  · intro f
    rw [h1, h2]
    exact h.count f
  · intro f n hn
    rw [hd] at hn ⊢
    exact h.occ f n hn
  · intro f n ho
    rw [hd] at ho
    exact h.nonnull f n ho

theorem Capacitated_setData (s : Solver) (f n : Nat) (d : Data) (h : s.Capacitated) :
    (s.setData f n d).Capacitated := by
  obtain ⟨a1, a2, a3⟩ := h
  refine ⟨a1, ?_, ?_⟩
  · rw [length_data_setData]
    exact a2
  · rw [rows_getD] at a3 ⊢
    intro g hg
    rw [length_data_setData] at hg
    rw [row_length_setData]
    exact a3 g hg

/-- Writing an entry that is as free as the one it replaces keeps the data invariant. -/
theorem DataInv_setData (s : Solver) (f n : Nat) (d : Data) (h : DataInv s)
    (hfree : d.free = (s.data f n).free)
    (hd1 : d.model_neq = true → d.occurs = true)
    (hd2 : d.occurs = true → (s.data f n).occurs = true) : DataInv (s.setData f n d) := by
  constructor
  · exact Capacitated_setData s f n d h.capd
  · rw [length_data_setData]
    exact h.cap
  · intro g
    rw [freeCount_setData, hfree]
    show s.domain_size_.getD g 0 = _
    rw [h.count g]
    split <;> omega
  · intro g k hk
    rcases data_setData_or s f n g k d with e | ⟨_, _, e⟩
    · rw [e] at hk ⊢
      exact h.occ g k hk
    · rw [e] at hk ⊢
      exact hd1 hk
  · intro g k ho
    rcases data_setData_or s f n g k d with e | ⟨rfl, rfl, e⟩
    · rw [e] at ho
      exact h.nonnull g k ho
    · rw [e] at ho
      exact h.nonnull g k (hd2 ho)

/-- Writing an entry together with the matching change of `domain_size_[f]` keeps the data
invariant. -/
theorem DataInv_setData_size (s : Solver) (f n : Nat) (d : Data) (v : Int) (h : DataInv s)
    (hf : f < s.data_.length) (hn : n < (s.data_.getD f []).length)
    (hv : v = s.domain_size_.getD f 0
      + ((if d.free then 1 else 0) - (if (s.data f n).free then 1 else 0)))
    (hd1 : d.model_neq = true → d.occurs = true)
    (hd2 : d.occurs = true → f ≠ 0 ∧ n ≠ 0) :
    DataInv ((s.setData f n d).setDomainSize f v) := by
  have hfd : f < s.domain_size_.length := by
    rw [h.cap]
    exact hf
  constructor
  · exact Capacitated_setData s f n d h.capd
  · show (s.domain_size_.set f v).length = (s.setData f n d).data_.length
    rw [List.length_set, length_data_setData]
    exact h.cap
  · intro g
    show (s.domain_size_.set f v).getD g 0 = freeCount ((s.setData f n d).data_.getD g [])
    rw [freeCount_setData]
    by_cases hg : g = f
    · subst hg
      have hc : g = g ∧ g < s.data_.length ∧ n < (s.data_.getD g []).length := ⟨rfl, hf, hn⟩
      rw [getD_set_same _ _ _ _ hfd, if_pos hc, hv, h.count g]
    · have hc : ¬ (g = f ∧ f < s.data_.length ∧ n < (s.data_.getD f []).length) :=
        fun e => hg e.1
      rw [getD_set_ne _ _ _ _ _ (fun e => hg e.symm), if_neg hc, h.count g]
      omega
  · intro g k hk
    have hk' : ((s.setData f n d).data g k).model_neq = true := hk
    show ((s.setData f n d).data g k).occurs = true
    rcases data_setData_or s f n g k d with e | ⟨_, _, e⟩
    · rw [e] at hk' ⊢
      exact h.occ g k hk'
    · rw [e] at hk' ⊢
      exact hd1 hk'
  · intro g k ho
    have ho' : ((s.setData f n d).data g k).occurs = true := ho
    rcases data_setData_or s f n g k d with e | ⟨rfl, rfl, e⟩
    · rw [e] at ho'
      exact h.nonnull g k ho'
    · rw [e] at ho'
      exact hd2 ho'

theorem Grow_refl (s : Solver) : Grow s s :=
  ⟨fun _ _ => rfl, fun _ _ h => h, rfl, rfl, fun _ => rfl, rfl⟩

theorem Grow_trans {s t u : Solver} (h1 : Grow s t) (h2 : Grow t u) : Grow s u := by
  constructor
  · intro f n
    rw [h2.neq, h1.neq]
  · intro f n h
    exact h2.occurs f n (h1.occurs f n h)
  · rw [h2.trail, h1.trail]
  · rw [h2.level, h1.level]
  · intro f
    rw [h2.watch, h1.watch]
  · rw [h2.clauses, h1.clauses]

theorem Grow_of_Ext {s t : Solver} (e : Ext s t) : Grow s t := by
  constructor
  · intro f n
    rw [e.data]
  · intro f n h
    rw [e.data]
    exact h
  · exact e.trail
  · exact e.level
  · exact e.watch
  · exact e.clauses

theorem Grow_markOccurs (s : Solver) (f n : Nat) : Grow s (s.markOccurs f n) := by
  have hd : ∀ g k, (s.markOccurs f n).data g k
      = (s.setData f n { s.data f n with occurs := true }).data g k := fun _ _ => rfl
  constructor
  · intro g k
    rw [hd]
    rcases data_setData_or s f n g k { s.data f n with occurs := true } with e | ⟨rfl, rfl, e⟩
    · rw [e]
    · rw [e]
  · intro g k h
    rw [hd]
    rcases data_setData_or s f n g k { s.data f n with occurs := true } with e | ⟨rfl, rfl, e⟩
    · rw [e]
      exact h
    · rw [e]
  · rfl
  · rfl
  · intro g
    rfl
  · rfl

/-- The invariant of the trail goes over to a solver that has grown. -/
theorem DomInv_grow {s t : Solver} (h : DomInv s) (g : Grow s t) (hd : DataInv t) :
    DomInv t := by
  have ho : t.openTrail = s.openTrail := by
    unfold openTrail
    rw [g.trail, g.level]
  constructor
  · exact hd
  · intro a ha hp
    rw [ho] at ha
    rw [g.neq]
    exact h.negp a ha hp
  · rw [ho]
    exact h.nodupp
  · intro a ha hp
    rw [g.trail] at ha
    exact g.occurs _ _ (h.trocc a ha hp)
  · rw [g.level]
    exact h.levels
  · rw [g.level, g.trail]
    exact h.bound
  · rw [g.level]
    exact h.root

theorem DataInv_markOccurs (s : Solver) (f n : Nat) (h : DataInv s) (hf : f < s.data_.length)
    (hn : n < (s.data_.getD f []).length) (hf0 : f ≠ 0) (hn0 : n ≠ 0) :
    DataInv (s.markOccurs f n) := by
  have e : s.markOccurs f n
      = (s.setData f n { s.data f n with occurs := true }).setDomainSize f
          (s.domain_size_.getD f 0 + (1 - (if (s.data f n).occurs then 1 else 0))) := rfl
  rw [e]
  apply DataInv_setData_size s f n _ _ h hf hn
  · have hocc := h.occ f n
    unfold Data.free
    dsimp only
    cases h1 : (s.data f n).occurs <;> cases h2 : (s.data f n).model_neq <;> simp
    rw [h1, h2] at hocc
    simp at hocc
  · intro _
    rfl
  · intro _
    exact ⟨hf0, hn0⟩

theorem CapacitateMaps_extra (s : Solver) (srt f n e : Nat)
    (hrows : ∀ row ∈ s.data_, (s.names_.getD 0 []).length ≤ row.length) :
    e < ((s.CapacitateMaps srt f n e).names_.getD 0 []).length := by
  unfold CapacitateMaps
  dsimp only
  refine (CapacitateWith_rows s _ _ _ _ _ _ e hrows ?_ ?_ ?_).2
  · intro h0
    have : s.names_.length = 0 := by rw [h0]; rfl
    rw [if_pos (by omega)]
    omega
  · intro hni
    rw [if_pos hni]
    have hmax : (e : Int) ≤ (if n > e then (n : Int) else (e : Int)) := by
      split <;> omega
    by_cases hc : (s.names_.length == 0 ||
        decide ((if n > e then (n : Int) else (e : Int)) ≥ ((s.names_.getD 0 []).length : Int)))
        = true
    · rw [if_pos hc]
      generalize (if n > e then (n : Int) else (e : Int)) = m at hmax hc
      have hk : (((m + 1) * 3 / 2).toNat : Int) = (m + 1) * 3 / 2 :=
        Int.toNat_of_nonneg (by omega)
      have hN : ((s.names_.getD 0 []).length : Int) ≤ m + 1 := by
        simp only [Bool.or_eq_true, beq_iff_eq, decide_eq_true_eq] at hc
        rcases hc with h0 | h1
        · have : s.names_ = [] := List.length_eq_zero.mp h0
          rw [this]
          simp
          omega
        · omega
      omega
    · rw [if_neg hc] at hni
      omega
  · intro hni
    rw [if_neg hni]
    refine ⟨rfl, ?_⟩
    by_cases hc : (s.names_.length == 0 ||
        decide ((if n > e then (n : Int) else (e : Int)) ≥ ((s.names_.getD 0 []).length : Int)))
        = true
    · rw [if_pos hc] at hni
      exfalso
      apply hni
      split <;> omega
    · simp only [Bool.or_eq_true, beq_iff_eq, decide_eq_true_eq, not_or] at hc
      have hmax : (e : Int) ≤ (if n > e then (n : Int) else (e : Int)) := by
        split <;> omega
      omega

theorem DataInv_insertName (s : Solver) (srt n : Nat) (h : DataInv s) :
    DataInv (s.insertName srt n) :=
  DataInv_frame h rfl rfl rfl rfl (SameCapacity_insertName s srt n).2.2.2.2.2

theorem Grow_insertName (s : Solver) (srt n : Nat) : Grow s (s.insertName srt n) :=
  ⟨fun _ _ => rfl, fun _ _ h => h, rfl, rfl, fun _ => rfl, rfl⟩

theorem DataInv_insertFunc (s : Solver) (f : Nat) (h : DataInv s) :
    DataInv (({ s with funcs_ := DenseSet.Insert s.funcs_ f } : Solver).orderInsert f) :=
  DataInv_frame h rfl rfl rfl (SameCapacity_insertFunc s f).2.2.1 rfl

theorem Grow_insertFunc (s : Solver) (f : Nat) :
    Grow s (({ s with funcs_ := DenseSet.Insert s.funcs_ f } : Solver).orderInsert f) :=
  ⟨fun _ _ => rfl, fun _ _ h => h, rfl, rfl, fun _ => rfl, rfl⟩

/-- What `Register` does after `CapacitateMaps`, for a pair within the capacity. -/
theorem Register_steps (s1 : Solver) (srt f n e : Nat) (h : DataInv s1)
    (hf : f < s1.data_.length) (hn : n < (s1.data_.getD f []).length)
    (he : e < (s1.data_.getD f []).length) (hf0 : f ≠ 0) (hn0 : n ≠ 0) (he0 : e ≠ 0) :
    let s2 :=
      if !DenseSet.Contains s1.funcs_ f then
        ((({ s1 with funcs_ := DenseSet.Insert s1.funcs_ f } : Solver).orderInsert f).insertName
          srt e).markOccurs f e
      else s1
    DataInv ((s2.markOccurs f n).insertName srt n) ∧
      Grow s1 ((s2.markOccurs f n).insertName srt n) := by
  intro s2
  have h2 : DataInv s2 ∧ Grow s1 s2 ∧ SameCapacity s1 s2 := by
    show DataInv (if _ then _ else _) ∧ Grow s1 (if _ then _ else _)
      ∧ SameCapacity s1 (if _ then _ else _)
    split
    · have a1 := DataInv_insertName _ srt e (DataInv_insertFunc s1 f h)
      refine ⟨DataInv_markOccurs _ f e a1 hf he hf0 he0, ?_, ?_⟩
      · exact Grow_trans (Grow_trans (Grow_insertFunc s1 f) (Grow_insertName _ srt e))
          (Grow_markOccurs _ f e)
      · exact SameCapacity_trans (SameCapacity_trans (SameCapacity_trans
          (SameCapacity_insertFunc _ f) (SameCapacity_orderInsert _ f))
          (SameCapacity_insertName _ srt e)) (SameCapacity_markOccurs _ f e)
    · exact ⟨h, Grow_refl s1, SameCapacity_refl s1⟩
  obtain ⟨d2, g2, c2⟩ := h2
  have hf2 : f < s2.data_.length := by
    rw [c2.2.2.2.1]
    exact hf
  have hn2 : n < (s2.data_.getD f []).length := by
    rw [c2.2.2.2.2.1 f]
    exact hn
  exact ⟨DataInv_insertName _ srt n (DataInv_markOccurs s2 f n d2 hf2 hn2 hf0 hn0),
    Grow_trans (Grow_trans g2 (Grow_markOccurs s2 f n)) (Grow_insertName _ srt n)⟩

/-- `Register` with non-null terms keeps the data invariant and lets the solver grow. -/
theorem Register_grows (s : Solver) (srt f n e : Nat) (h : DataInv s) (hf0 : f ≠ 0)
    (hn0 : n ≠ 0) (he0 : e ≠ 0) :
    DataInv (s.Register srt f n e) ∧ Grow s (s.Register srt f n e) := by
  have hE := Ext_CapacitateMaps s srt f n e
  have hC := CapacitateMaps_Capacitated s srt f n e h.capd
  have D1 : DataInv (s.CapacitateMaps srt f n e) := DataInv_ext h hE hC
  have hf : f < (s.CapacitateMaps srt f n e).data_.length := by
    rw [hC.2.1]
    exact CapacitateMaps_funcs_lt s srt f n e
  have hrow := (rows_getD _ _).mp hC.2.2 f hf
  have hn := (CapacitateMaps_rows s srt f n e h.capd.2.2).2
  have he := CapacitateMaps_extra s srt f n e h.capd.2.2
  have r := Register_steps (s.CapacitateMaps srt f n e) srt f n e D1 hf (by omega) (by omega)
    hf0 hn0 he0
  exact ⟨r.1, Grow_trans (Grow_of_Ext hE) r.2⟩

theorem DomInv_Register (s : Solver) (srt f n e : Nat) (h : DomInv s) (hf0 : f ≠ 0)
    (hn0 : n ≠ 0) (he0 : e ≠ 0) : DomInv (s.Register srt f n e) :=
  DomInv_grow h (Register_grows s srt f n e h.dat hf0 hn0 he0).2
    (Register_grows s srt f n e h.dat hf0 hn0 he0).1

theorem level_root {s : Solver} (h : DomInv s) (hl : s.current_level = kRootLevel) :
    s.level_size_ = [0] := by
  have hr := h.root
  unfold current_level kRootLevel at hl
  match hs : s.level_size_, hl, hr with
  | [x], _, hr =>
    simp only [List.head?_cons, Option.some.injEq] at hr
    rw [hr]

/-- At the root level the invariant asks nothing of the open trail. -/
theorem DomInv_root (t : Solver) (hd : DataInv t) (hl : t.level_size_ = [0])
    (htr : ∀ a ∈ t.trail_, a.pos = false → (t.data a.lhs a.rhs).occurs = true) :
    DomInv t := by
  have ho : t.openTrail = [] := by
    unfold openTrail
    rw [hl]
    simp
  constructor
  · exact hd
  · intro a ha
    rw [ho] at ha
    exact absurd ha (List.not_mem_nil a)
  · rw [ho]
    exact List.nodup_nil
  · exact htr
  · intro i j hij hj
    rw [hl] at hj ⊢
    have : j = 0 := by
      simp only [List.length_singleton] at hj
      omega
    subst this
    have : i = 0 := by omega
    subst this
    exact Nat.le_refl _
  · intro i hi
    rw [hl] at hi ⊢
    have : i = 0 := by
      simp only [List.length_singleton] at hi
      omega
    subst this
    exact Nat.zero_le _
  · rw [hl]
    rfl

theorem markOccurs_occurs (s : Solver) (f n : Nat) (hf : f < s.data_.length)
    (hn : n < (s.data_.getD f []).length) : ((s.markOccurs f n).data f n).occurs = true := by
  have hd : (s.markOccurs f n).data f n
      = (s.setData f n { s.data f n with occurs := true }).data f n := rfl
  rw [hd, data_setData_same s f n _ hf hn]

theorem Register_occurs (s : Solver) (srt f n e : Nat) (h : s.Capacitated) :
    ((s.Register srt f n e).data f n).occurs = true := by
  have hC := CapacitateMaps_Capacitated s srt f n e h
  have hf : f < (s.CapacitateMaps srt f n e).data_.length := by
    rw [hC.2.1]
    exact CapacitateMaps_funcs_lt s srt f n e
  have hrow := (rows_getD _ _).mp hC.2.2 f hf
  have hn := (CapacitateMaps_rows s srt f n e h.2.2).2
  have key : ∀ s2 : Solver, SameCapacity (s.CapacitateMaps srt f n e) s2 →
      (((s2.markOccurs f n).insertName srt n).data f n).occurs = true := by
    intro s2 c2
    show ((s2.markOccurs f n).data f n).occurs = true
    apply markOccurs_occurs
    · rw [c2.2.2.2.1]
      exact hf
    · rw [c2.2.2.2.2.1 f]
      omega
  unfold Register
  dsimp only
  apply key
  split
  · exact SameCapacity_trans (SameCapacity_trans (SameCapacity_trans
      (SameCapacity_insertFunc _ f) (SameCapacity_orderInsert _ f))
      (SameCapacity_insertName _ srt e)) (SameCapacity_markOccurs _ f e)
  · exact SameCapacity_refl _

theorem DomInv_AddLiteral (sort extra_name : Nat → Nat) (s : Solver) (a : Literal)
    (h : DomInv s) (hl : s.current_level = kRootLevel) (hf0 : a.lhs ≠ 0) (hn0 : a.rhs ≠ 0)
    (he0 : extra_name (sort a.lhs) ≠ 0) : DomInv (AddLiteral sort extra_name s a) := by
  unfold AddLiteral
  split
  · exact h
  · split
    · exact DomInv_grow h ⟨fun _ _ => rfl, fun _ _ h => h, rfl, rfl, fun _ => rfl, rfl⟩
        (DataInv_frame h.dat rfl rfl rfl rfl rfl)
    · have hp : DataInv (s.pushTrail a) := DataInv_frame h.dat rfl rfl rfl rfl rfl
      have r := Register_grows (s.pushTrail a) (sort a.lhs) a.lhs a.rhs (extra_name (sort a.lhs))
        hp hf0 hn0 he0
      apply DomInv_root _ r.1
      · rw [r.2.level]
        exact level_root (s := s) h hl
      · intro b hb hpos
        rw [r.2.trail] at hb
        rcases List.mem_append.mp hb with hb | hb
        · exact r.2.occurs _ _ (h.trocc b hb hpos)
        · rw [List.mem_singleton.mp hb]
          exact Register_occurs _ _ _ _ _ hp.capd

/-- The open trail after a literal is pushed: it is empty at the root level and gains the
literal above it. -/
theorem openTrail_push (s t : Solver) (b : Literal) (h : DomInv s)
    (htr : t.trail_ = s.trail_ ++ [b]) (hlv : t.level_size_ = s.level_size_) :
    (t.openTrail = [] ∧ s.openTrail = []) ∨ t.openTrail = s.openTrail ++ [b] := by
  unfold openTrail
  rw [htr, hlv]
  by_cases h1 : 1 < s.level_size_.length
  · right
    have hb := h.bound 1 h1
    rw [List.getD_eq_getElem _ _ h1] at hb ⊢
    rw [List.getD_eq_getElem _ _ h1]
    exact List.drop_append_of_le_length hb
  · left
    have h1' : s.level_size_.length ≤ 1 := Nat.le_of_not_lt h1
    rw [List.getD_eq_default _ _ h1', List.getD_eq_default _ _ h1']
    exact ⟨List.drop_length _, List.drop_length _⟩

/-- Pushing a literal on the trail keeps the invariant when the data invariant holds afterwards,
the exclusions and registrations of the trail literals are kept, and a negative literal that
is pushed is registered, excluded and new on the open trail. -/
theorem DomInv_push (s t : Solver) (b : Literal) (h : DomInv s) (hd : DataInv t)
    (htr : t.trail_ = s.trail_ ++ [b]) (hlv : t.level_size_ = s.level_size_)
    (hneq : ∀ a ∈ s.openTrail, a.pos = false → (t.data a.lhs a.rhs).model_neq = true)
    (hocc : ∀ a ∈ s.trail_, a.pos = false → (t.data a.lhs a.rhs).occurs = true)
    (hb : b.pos = false → (t.data b.lhs b.rhs).model_neq = true ∧
      (t.data b.lhs b.rhs).occurs = true ∧ b ∉ s.openTrail) : DomInv t := by
  have ho := openTrail_push s t b h htr hlv
  constructor
  · exact hd
  · intro a ha hp
    rcases ho with ⟨e, _⟩ | e
    · rw [e] at ha
      exact absurd ha (List.not_mem_nil a)
    · rw [e] at ha
      rcases List.mem_append.mp ha with ha | ha
      · exact hneq a ha hp
      · rw [List.mem_singleton.mp ha] at hp ⊢
        exact (hb hp).1
  · rcases ho with ⟨e, _⟩ | e
    · rw [e]
      exact List.nodup_nil
    · rw [e, List.filter_append]
      cases hp : b.pos
      · have e1 : List.filter (fun a => !a.pos) [b] = [b] := by simp [hp]
        rw [e1]
        apply List.Nodup.append h.nodupp (List.nodup_singleton b)
        intro x hx hx2
        rw [List.mem_singleton.mp hx2] at hx
        exact (hb hp).2.2 (List.mem_of_mem_filter hx)
      · have e1 : List.filter (fun a => !a.pos) [b] = [] := by simp [hp]
        rw [e1, List.append_nil]
        exact h.nodupp
  · intro a ha hp
    rw [htr] at ha
    rcases List.mem_append.mp ha with ha | ha
    · exact hocc a ha hp
    · rw [List.mem_singleton.mp ha] at hp ⊢
      exact (hb hp).2.1
  · rw [hlv]
    exact h.levels
  · intro i hi
    rw [hlv] at hi ⊢
    rw [htr, List.length_append]
    exact Nat.le_trans (h.bound i hi) (Nat.le_add_right _ _)
  · rw [hlv]
    exact h.root

/-- The assignment of a name that is not excluded: the steps of `Enqueue` for a positive literal and
of the domain propagation. -/
theorem DomInv_pushPos (s : Solver) (b : Literal) (l : Nat) (r : Int) (h : DomInv s)
    (hb : b.pos = true) (hneq : (s.data b.lhs b.rhs).model_neq = false) :
    DomInv ((((s.pushTrail b).setData b.lhs b.rhs
      ((s.data b.lhs b.rhs).Update false l r)).setModel b.lhs b.rhs).orderRemove b.lhs) := by
  have hdat : ∀ g k, ((((s.pushTrail b).setData b.lhs b.rhs
        ((s.data b.lhs b.rhs).Update false l r)).setModel b.lhs b.rhs).orderRemove b.lhs).data g k
      = (s.setData b.lhs b.rhs ((s.data b.lhs b.rhs).Update false l r)).data g k :=
    fun _ _ => rfl
  have hkeep : ∀ g k, ((s.setData b.lhs b.rhs ((s.data b.lhs b.rhs).Update false l r)).data
        g k).model_neq = (s.data g k).model_neq ∧
      ((s.setData b.lhs b.rhs ((s.data b.lhs b.rhs).Update false l r)).data g k).occurs
        = (s.data g k).occurs := by
    intro g k
    rcases data_setData_or s b.lhs b.rhs g k ((s.data b.lhs b.rhs).Update false l r)
      with e | ⟨rfl, rfl, e⟩
    · rw [e]
      exact ⟨rfl, rfl⟩
    · rw [e]
      exact ⟨hneq.symm, rfl⟩
  have hd : DataInv (s.setData b.lhs b.rhs ((s.data b.lhs b.rhs).Update false l r)) := by
    apply DataInv_setData s _ _ _ h.dat
    · unfold Data.free Data.Update
      dsimp only
      rw [hneq]
    · intro e
      exact absurd e (by simp [Data.Update])
    · intro e
      exact e
  refine DomInv_push s _ b h ?_ rfl rfl ?_ ?_ ?_
  · refine DataInv_frame hd rfl rfl ?_ rfl rfl
    show (s.model_.set b.lhs b.rhs).length = s.model_.length
    exact List.length_set _ _ _
  · intro a ha hp
    rw [hdat, (hkeep _ _).1]
    exact h.negp a ha hp
  · intro a ha hp
    rw [hdat, (hkeep _ _).2]
    exact h.trocc a ha hp
  · intro hp
    rw [hb] at hp
    exact absurd hp (by decide)

/-- The exclusion of a name: the first steps of `Enqueue` for a negative literal. -/
theorem DomInv_pushNeg (s : Solver) (a : Literal) (l : Nat) (r : Int) (h : DomInv s)
    (ha : a.pos = false) (hocc : (s.data a.lhs a.rhs).occurs = true)
    (hneq : (s.data a.lhs a.rhs).model_neq = false) :
    DomInv (((s.pushTrail a).setData a.lhs a.rhs
      ((s.data a.lhs a.rhs).Update true l r)).setDomainSize a.lhs
        (s.domain_size_.getD a.lhs 0 - 1)) := by
  have hdat : ∀ g k, (((s.pushTrail a).setData a.lhs a.rhs
        ((s.data a.lhs a.rhs).Update true l r)).setDomainSize a.lhs
          (s.domain_size_.getD a.lhs 0 - 1)).data g k
      = (s.setData a.lhs a.rhs ((s.data a.lhs a.rhs).Update true l r)).data g k :=
    fun _ _ => rfl
  have hcap := occurs_in_capacity s a.lhs a.rhs hocc
  have hkeep : ∀ g k, (s.data g k).model_neq = true →
      ((s.setData a.lhs a.rhs ((s.data a.lhs a.rhs).Update true l r)).data g k).model_neq
        = true := by
    intro g k hk
    rcases data_setData_or s a.lhs a.rhs g k ((s.data a.lhs a.rhs).Update true l r)
      with e | ⟨_, _, e⟩
    · rw [e]
      exact hk
    · rw [e]
      rfl
  have hkeep2 : ∀ g k, (s.data g k).occurs = true →
      ((s.setData a.lhs a.rhs ((s.data a.lhs a.rhs).Update true l r)).data g k).occurs
        = true := by
    intro g k hk
    rcases data_setData_or s a.lhs a.rhs g k ((s.data a.lhs a.rhs).Update true l r)
      with e | ⟨rfl, rfl, e⟩
    · rw [e]
      exact hk
    · rw [e]
      exact hk
  have hnew := data_setData_same s a.lhs a.rhs ((s.data a.lhs a.rhs).Update true l r)
    hcap.1 hcap.2
  have hd : DataInv ((s.setData a.lhs a.rhs
      ((s.data a.lhs a.rhs).Update true l r)).setDomainSize a.lhs
        (s.domain_size_.getD a.lhs 0 - 1)) := by
    apply DataInv_setData_size s _ _ _ _ h.dat hcap.1 hcap.2
    · unfold Data.free Data.Update
      dsimp only
      rw [hneq, hocc]
      simp
      omega
    · intro _
      exact hocc
    · intro _
      exact h.dat.nonnull _ _ hocc
  refine DomInv_push s _ a h ?_ rfl rfl ?_ ?_ ?_
  · exact DataInv_frame hd rfl rfl rfl rfl rfl
  · intro b hb hp
    rw [hdat]
    exact hkeep _ _ (h.negp b hb hp)
  · intro b hb hp
    rw [hdat]
    exact hkeep2 _ _ (h.trocc b hb hp)
  · intro _
    rw [hdat, hnew]
    refine ⟨rfl, hocc, ?_⟩
    intro hmem
    have := h.negp a hmem ha
    rw [hneq] at this
    exact absurd this (by decide)

theorem CandidateName_cases (sort : Nat → Nat) (s : Solver) (f : Nat) :
    (CandidateName sort s f).2 = s ∨ ∃ i, (CandidateName sort s f).2 = s.setNameIndex f i := by
  unfold CandidateName
  cases CandidateNameFind sort s f with
  | none => exact Or.inl rfl
  | some r => exact Or.inr ⟨r.1, rfl⟩

theorem DomInv_setNameIndex (s : Solver) (f i : Nat) (h : DomInv s) :
    DomInv (s.setNameIndex f i) :=
  DomInv_grow h ⟨fun _ _ => rfl, fun _ _ h => h, rfl, rfl, fun _ => rfl, rfl⟩
    (DataInv_frame h.dat rfl rfl rfl rfl rfl)

theorem DomInv_CandidateName (sort : Nat → Nat) (s : Solver) (f : Nat) (h : DomInv s) :
    DomInv (CandidateName sort s f).2 := by
  rcases CandidateName_cases sort s f with e | ⟨i, e⟩
  · rw [e]
    exact h
  · rw [e]
    exact DomInv_setNameIndex s f i h

theorem DomInv_orderIncrease (s : Solver) (f : Nat) (h : DomInv s) :
    DomInv (s.orderIncrease f) := by
  unfold orderIncrease
  split
  · exact DomInv_grow h ⟨fun _ _ => rfl, fun _ _ h => h, rfl, rfl, fun _ => rfl, rfl⟩
      (DataInv_frame h.dat rfl rfl rfl rfl rfl)
  · exact h

theorem DomInv_BumpToFront (s : Solver) (f : Nat) (h : DomInv s) : DomInv (s.BumpToFront f) := by
  unfold BumpToFront
  dsimp only
  apply DomInv_orderIncrease
  exact DomInv_grow h ⟨fun _ _ => rfl, fun _ _ h => h, rfl, rfl, fun _ => rfl, rfl⟩
    (DataInv_frame h.dat rfl rfl rfl rfl rfl)

/-- The domain propagation of `Enqueue` keeps the invariant. -/
theorem DomInv_EnqueueDomain (sort : Nat → Nat) (s : Solver) (f : Nat) (h : DomInv s) :
    DomInv (EnqueueDomain sort s f) := by
  have hfound := CandidateName_found sort s f
  have hdata := CandidateName_data_ sort s f
  have hinv := DomInv_CandidateName sort s f h
  unfold EnqueueDomain
  dsimp only
  generalize CandidateName sort s f = r at hfound hdata hinv ⊢
  have hneq : (r.2.data (Literal.Eq f r.1).lhs (Literal.Eq f r.1).rhs).model_neq = false := by
    show (r.2.data f r.1).model_neq = false
    rw [data_congr hdata]
    rcases hfound with e | ⟨_, e⟩
    · cases hx : (s.data f r.1).model_neq
      · rfl
      · have := (h.dat.nonnull f r.1 (h.dat.occ f r.1 hx)).2
        exact absurd e this
    · exact e
  exact DomInv_pushPos r.2 (Literal.Eq f r.1) _ kDomainRef hinv rfl hneq

/-- `Enqueue` of a literal that is not falsified and, when negative, is registered keeps the
invariant. -/
theorem DomInv_Enqueue (sort : Nat → Nat) (s : Solver) (a : Literal) (r : Int) (h : DomInv s)
    (hfals : s.falsifies a (-1) = false)
    (hocc : a.pos = false → (s.data a.lhs a.rhs).occurs = true) :
    DomInv (Enqueue sort s a r) := by
  unfold Enqueue
  dsimp only
  split
  · rename_i hg
    simp only [Bool.and_eq_true, beq_iff_eq, Bool.or_eq_true, Bool.not_eq_true'] at hg
    cases hp : a.pos
    · have hneq : (s.data a.lhs a.rhs).model_neq = false := by
        rcases hg.2 with e | e
        · rw [hp] at e
          exact absurd e (by decide)
        · exact e
      have hs3 := DomInv_pushNeg s a s.current_level r h hp (hocc hp) hneq
      simp only [Bool.not_false, Bool.false_eq_true, if_false]
      split
      · exact DomInv_EnqueueDomain sort _ _ hs3
      · exact DomInv_BumpToFront _ _ hs3
    · have hneq : (s.data a.lhs a.rhs).model_neq = false := by
        cases hx : (s.data a.lhs a.rhs).model_neq
        · rfl
        · have : s.falsifies a (-1) = true := (falsifies_iff s a).mpr (Or.inr ⟨hp, Or.inr hx⟩)
          rw [hfals] at this
          exact absurd this (by decide)
      simp only [Bool.not_true, if_true]
      exact DomInv_pushPos s a s.current_level r h hp hneq
  · exact h

theorem getD_append_singleton (l : List Nat) (x i : Nat) :
    (l ++ [x]).getD i x = l.getD i x := by
  by_cases h : i < l.length
  · simp [List.getD_eq_getElem?_getD, List.getElem?_append_left h]
  · have h1 : l.length ≤ i := Nat.le_of_not_lt h
    rw [List.getD_eq_default l x h1]
    by_cases h2 : i = l.length
    · subst h2
      simp [List.getD_eq_getElem?_getD]
    · rw [List.getD_eq_default]
      rw [List.length_append, List.length_singleton]
      omega

theorem getD_append_left (l : List Nat) (x i : Nat) (h : i < l.length) :
    (l ++ [x]).getD i 0 = l.getD i 0 := by
  simp [List.getD_eq_getElem?_getD, List.getElem?_append_left h]

theorem getD_append_length (l : List Nat) (x : Nat) : (l ++ [x]).getD l.length 0 = x := by
  simp [List.getD_eq_getElem?_getD]

/-- `NewLevel` keeps the invariant. -/
theorem DomInv_NewLevel (s : Solver) (h : DomInv s) : DomInv s.NewLevel := by
  have ho : s.NewLevel.openTrail = s.openTrail := by
    unfold openTrail NewLevel
    dsimp only
    rw [getD_append_singleton]
  have hd : ∀ f n, s.NewLevel.data f n = s.data f n := fun _ _ => rfl
  have hlen : s.NewLevel.level_size_.length = s.level_size_.length + 1 := by
    unfold NewLevel
    dsimp only
    rw [List.length_append, List.length_singleton]
  have hget : ∀ i, i < s.level_size_.length →
      s.NewLevel.level_size_.getD i 0 = s.level_size_.getD i 0 :=
    fun i hi => getD_append_left _ _ _ hi
  have hlast : s.NewLevel.level_size_.getD s.level_size_.length 0 = s.trail_.length :=
    getD_append_length _ _
  constructor
  · exact DataInv_frame h.dat rfl rfl rfl rfl rfl
  · intro a ha hp
    rw [ho] at ha
    rw [hd]
    exact h.negp a ha hp
  · rw [ho]
    exact h.nodupp
  · intro a ha hp
    exact h.trocc a ha hp
  · intro i j hij hj
    rw [hlen] at hj
    by_cases hj2 : j < s.level_size_.length
    · rw [hget j hj2, hget i (by omega)]
      exact h.levels i j hij hj2
    · have hj3 : j = s.level_size_.length := by omega
      subst hj3
      rw [hlast]
      by_cases hi2 : i < s.level_size_.length
      · rw [hget i hi2]
        exact h.bound i hi2
      · have hi3 : i = s.level_size_.length := by omega
        rw [hi3, hlast]
  · intro i hi
    rw [hlen] at hi
    show _ ≤ s.trail_.length
    by_cases hi2 : i < s.level_size_.length
    · rw [hget i hi2]
      exact h.bound i hi2
    · have hi3 : i = s.level_size_.length := by omega
      rw [hi3, hlast]
  · have hr := h.root
    unfold NewLevel
    dsimp only
    cases hs : s.level_size_ with
    | nil =>
      rw [hs] at hr
      exact absurd hr (by simp)
    | cons x xs =>
      rw [hs] at hr
      exact hr

theorem Literal_eq_of_neg (a b : Literal) (ha : a.pos = false) (hb : b.pos = false)
    (h1 : b.lhs = a.lhs) (h2 : b.rhs = a.rhs) : b = a := by
  cases a
  cases b
  simp only [Literal.mk.injEq]
  exact ⟨hb.trans ha.symm, h1, h2⟩

theorem BacktrackStep_frame (s : Solver) (a : Literal) :
    (BacktrackStep s a).trail_ = s.trail_ ∧ (BacktrackStep s a).level_size_ = s.level_size_ ∧
    (BacktrackStep s a).watchers_ = s.watchers_ ∧ (BacktrackStep s a).clauses_ = s.clauses_ := by
  unfold BacktrackStep
  dsimp only
  split
  · split
    · exact ⟨rfl, rfl, rfl, rfl⟩
    · exact ⟨rfl, rfl, rfl, rfl⟩
  · exact ⟨rfl, rfl, rfl, rfl⟩

/-- The entries of `data_` after one round of the loop of `Backtrack`. -/
theorem BacktrackStep_data (s : Solver) (a : Literal) (g k : Nat) :
    ((BacktrackStep s a).data g k).occurs = (s.data g k).occurs ∧
    (((BacktrackStep s a).data g k).model_neq = (s.data g k).model_neq ∨
      (a.pos = false ∧ g = a.lhs ∧ k = a.rhs)) := by
  unfold BacktrackStep
  dsimp only
  split
  · split
    · rename_i hp hn
      have hn' : (s.data a.lhs a.rhs).model_neq = false := by
        simpa using hn
      show ((s.setData a.lhs a.rhs (s.data a.lhs a.rhs).Reset).data g k).occurs = _ ∧
        (((s.setData a.lhs a.rhs (s.data a.lhs a.rhs).Reset).data g k).model_neq = _ ∨ _)
      rcases data_setData_or s a.lhs a.rhs g k (s.data a.lhs a.rhs).Reset with e | ⟨rfl, rfl, e⟩
      · rw [e]
        exact ⟨rfl, Or.inl rfl⟩
      · rw [e]
        exact ⟨rfl, Or.inl hn'.symm⟩
    · exact ⟨rfl, Or.inl rfl⟩
  · rename_i hp
    have hp' : a.pos = false := by
      simpa using hp
    show ((s.setData a.lhs a.rhs (s.data a.lhs a.rhs).Reset).data g k).occurs = _ ∧
      (((s.setData a.lhs a.rhs (s.data a.lhs a.rhs).Reset).data g k).model_neq = _ ∨ _)
    rcases data_setData_or s a.lhs a.rhs g k (s.data a.lhs a.rhs).Reset with e | ⟨rfl, rfl, e⟩
    · rw [e]
      exact ⟨rfl, Or.inl rfl⟩
    · rw [e]
      exact ⟨rfl, Or.inr ⟨hp', rfl, rfl⟩⟩

/-- One round of the loop of `Backtrack` keeps the data invariant when the literal, if negative, is
excluded. -/
theorem DataInv_BacktrackStep (s : Solver) (a : Literal) (h : DataInv s)
    (hneq : a.pos = false → (s.data a.lhs a.rhs).model_neq = true) :
    DataInv (BacktrackStep s a) := by
  have hm : (s.setModel a.lhs 0).model_.length = s.model_.length := List.length_set _ _ _
  unfold BacktrackStep
  dsimp only
  split
  · split
    · rename_i hp hn
      have hn' : (s.data a.lhs a.rhs).model_neq = false := by
        simpa using hn
      have hd := DataInv_setData s a.lhs a.rhs (s.data a.lhs a.rhs).Reset h
        (by unfold Data.free Data.Reset; dsimp only; rw [hn'])
        (fun e => absurd e (by simp [Data.Reset])) (fun e => e)
      exact DataInv_frame hd rfl rfl hm rfl rfl
    · exact DataInv_frame h rfl rfl hm rfl rfl
  · rename_i hp
    have hp' : a.pos = false := by
      simpa using hp
    have hx := hneq hp'
    have hocc := h.occ _ _ hx
    have hcap := occurs_in_capacity s a.lhs a.rhs hocc
    have hd := DataInv_setData_size s a.lhs a.rhs (s.data a.lhs a.rhs).Reset
      (s.domain_size_.getD a.lhs 0 + 1) h hcap.1 hcap.2
      (by unfold Data.free Data.Reset; dsimp only; rw [hx, hocc]; simp)
      (fun e => absurd e (by simp [Data.Reset])) (fun _ => h.nonnull _ _ hocc)
    exact DataInv_frame hd rfl rfl hm rfl rfl

/-- The loop of `Backtrack` over a segment of the trail whose negative literals are excluded and
pairwise distinct: the data invariant is kept, and so are the exclusions by the negative
literals `K` that are not in the segment. -/
theorem Backtrack_fold (seg : List Literal) : ∀ (s : Solver) (K : List Literal), DataInv s →
    (∀ a ∈ seg, a.pos = false → (s.data a.lhs a.rhs).model_neq = true) →
    (seg.filter (fun a => !a.pos)).Nodup →
    (∀ a ∈ K, a.pos = false → (s.data a.lhs a.rhs).model_neq = true ∧ a ∉ seg) →
    DataInv (seg.foldl BacktrackStep s) ∧
    (∀ a ∈ K, a.pos = false → ((seg.foldl BacktrackStep s).data a.lhs a.rhs).model_neq = true) ∧
    (∀ g k, ((seg.foldl BacktrackStep s).data g k).occurs = (s.data g k).occurs) ∧
    (seg.foldl BacktrackStep s).trail_ = s.trail_ ∧
    (seg.foldl BacktrackStep s).level_size_ = s.level_size_ ∧
    (seg.foldl BacktrackStep s).watchers_ = s.watchers_ ∧
    (seg.foldl BacktrackStep s).clauses_ = s.clauses_ := by
  induction seg with
  | nil =>
    intro s K hd _ _ hK
    exact ⟨hd, fun a ha hp => (hK a ha hp).1, fun _ _ => rfl, rfl, rfl, rfl, rfl⟩
  | cons a seg ih =>
    intro s K hd hseg hnd hK
    rw [List.foldl_cons]
    have hfr := BacktrackStep_frame s a
    have hd1 := DataInv_BacktrackStep s a hd (hseg a (List.mem_cons_self a seg))
    have hkeep : ∀ b : Literal, b.pos = false → b ≠ a →
        (s.data b.lhs b.rhs).model_neq = true →
        ((BacktrackStep s a).data b.lhs b.rhs).model_neq = true := by
      intro b hb hne hx
      rcases (BacktrackStep_data s a b.lhs b.rhs).2 with e | ⟨e1, e2, e3⟩
      · rw [e]
        exact hx
      · exact absurd (Literal_eq_of_neg a b e1 hb e2 e3) hne
    have hnd1 : (seg.filter (fun a => !a.pos)).Nodup := by
      rw [List.filter_cons] at hnd
      split at hnd
      · exact (List.nodup_cons.mp hnd).2
      · exact hnd
    have hnotin : ∀ b ∈ seg, b.pos = false → b ≠ a := by
      intro b hb hp e
      subst e
      rw [List.filter_cons, if_pos (by simp [hp])] at hnd
      exact (List.nodup_cons.mp hnd).1 (List.mem_filter.mpr ⟨hb, by simp [hp]⟩)
    have r := ih (BacktrackStep s a) K hd1
      (fun b hb hp => hkeep b hp (hnotin b hb hp) (hseg b (List.mem_cons_of_mem a hb) hp))
      hnd1
      (fun b hb hp => ⟨hkeep b hp
          (fun e => (hK b hb hp).2 (by rw [e]; exact List.mem_cons_self a seg)) (hK b hb hp).1,
        fun hm => (hK b hb hp).2 (List.mem_cons_of_mem a hm)⟩)
    obtain ⟨r1, r2, r3, r4, r5, r6, r7⟩ := r
    refine ⟨r1, r2, ?_, by rw [r4, hfr.1], by rw [r5, hfr.2.1], by rw [r6, hfr.2.2.1],
      by rw [r7, hfr.2.2.2]⟩
    intro g k
    rw [r3, (BacktrackStep_data s a g k).1]

theorem getD_take_lt (ls : List Nat) (l i d : Nat) (h : i < l) :
    (ls.take l).getD i d = ls.getD i d := by
  simp [List.getD_eq_getElem?_getD, List.getElem?_take, h]

theorem resize_of_le {α : Type} (null : α) (n : Nat) (v : List α) (h : n ≤ v.length) :
    resize null n v = v.take n := by
  unfold resize
  rw [Nat.sub_eq_zero_of_le h]
  simp

/-- The open trail splits into the part that `Backtrack(l)` keeps and the part that it pops. -/
theorem openTrail_split (trail : List Literal) (ls : List Nat) (l : Nat) (h1 : 1 ≤ l)
    (hl : l < ls.length) (hlev : ls.getD 1 0 ≤ ls.getD l 0)
    (hb : ls.getD l 0 ≤ trail.length) :
    trail.drop (ls.getD 1 trail.length)
      = (trail.take (ls.getD l 0)).drop ((ls.take l).getD 1 (trail.take (ls.getD l 0)).length)
        ++ trail.drop (ls.getD l 0) := by
  have h1l : 1 < ls.length := by omega
  have e1 : ∀ d, ls.getD 1 d = ls.getD 1 0 := by
    intro d
    rw [List.getD_eq_getElem _ _ h1l, List.getD_eq_getElem _ _ h1l]
  have hlen : (trail.take (ls.getD l 0)).length = ls.getD l 0 := by
    rw [List.length_take]
    omega
  rw [e1 trail.length]
  by_cases h2 : 1 < l
  · rw [getD_take_lt _ _ _ _ h2, e1 (trail.take (ls.getD l 0)).length]
    have hsplit : trail = trail.take (ls.getD l 0) ++ trail.drop (ls.getD l 0) :=
      (List.take_append_drop _ _).symm
    conv_lhs => rw [hsplit]
    exact List.drop_append_of_le_length (by rw [hlen]; exact hlev)
  · have hl1 : l = 1 := by omega
    subst hl1
    rw [List.getD_eq_default (ls.take 1) _ (by rw [List.length_take]; omega), List.drop_length,
      List.nil_append]

/-- `Backtrack(l)` to a level below the current one keeps the invariant. -/
theorem DomInv_Backtrack (s : Solver) (l : Nat) (h : DomInv s) (h1 : 1 ≤ l)
    (hl : l < s.current_level) : DomInv (s.Backtrack l) := by
  unfold current_level at hl
  have hb := h.bound l hl
  have hsplit := openTrail_split s.trail_ s.level_size_ l h1 hl (h.levels 1 l h1 hl) hb
  have hopen : s.openTrail = s.trail_.drop (s.level_size_.getD 1 s.trail_.length) := rfl
  rw [← hopen] at hsplit
  have hnd := h.nodupp
  rw [hsplit, List.filter_append] at hnd
  have hseg : ∀ a ∈ s.trail_.drop (s.level_size_.getD l 0), a ∈ s.openTrail := by
    intro a ha
    rw [hsplit]
    exact List.mem_append_right _ ha
  have hK : ∀ a ∈ (s.trail_.take (s.level_size_.getD l 0)).drop
      ((s.level_size_.take l).getD 1 (s.trail_.take (s.level_size_.getD l 0)).length),
      a ∈ s.openTrail := by
    intro a ha
    rw [hsplit]
    exact List.mem_append_left _ ha
  have r := Backtrack_fold (s.trail_.drop (s.level_size_.getD l 0)) s
    ((s.trail_.take (s.level_size_.getD l 0)).drop
      ((s.level_size_.take l).getD 1 (s.trail_.take (s.level_size_.getD l 0)).length)) h.dat
    (fun a ha hp => h.negp a (hseg a ha) hp)
    (List.Nodup.of_append_right hnd)
    (fun a ha hp => ⟨h.negp a (hK a ha) hp, fun hm =>
      (List.nodup_append.mp hnd).2.2 (List.mem_filter.mpr ⟨ha, by simp [hp]⟩)
        (List.mem_filter.mpr ⟨hm, by simp [hp]⟩)⟩)
  obtain ⟨r1, r2, r3, r4, r5, r6, r7⟩ := r
  have htrail : (s.Backtrack l).trail_ = s.trail_.take (s.level_size_.getD l 0) := by
    unfold Backtrack
    dsimp only
    rw [r4]
    exact resize_of_le _ _ _ hb
  have hlevel : (s.Backtrack l).level_size_ = s.level_size_.take l := by
    unfold Backtrack
    dsimp only
    rw [r5]
    exact resize_of_le _ _ _ (Nat.le_of_lt hl)
  have hdata : ∀ g k, (s.Backtrack l).data g k
      = ((s.trail_.drop (s.level_size_.getD l 0)).foldl BacktrackStep s).data g k :=
    fun _ _ => rfl
  have hopen2 : (s.Backtrack l).openTrail = (s.trail_.take (s.level_size_.getD l 0)).drop
      ((s.level_size_.take l).getD 1 (s.trail_.take (s.level_size_.getD l 0)).length) := by
    unfold openTrail
    rw [htrail, hlevel]
  have hlen : (s.level_size_.take l).length = l := by
    rw [List.length_take]
    omega
  constructor
  · exact DataInv_frame r1 rfl rfl rfl rfl rfl
  · intro a ha hp
    rw [hopen2] at ha
    rw [hdata]
    exact r2 a ha hp
  · rw [hopen2]
    exact List.Nodup.of_append_left hnd
  · intro a ha hp
    rw [htrail] at ha
    rw [hdata, r3]
    exact h.trocc a (List.mem_of_mem_take ha) hp
  · intro i j hij hj
    rw [hlevel] at hj ⊢
    rw [hlen] at hj
    rw [getD_take_lt _ _ _ _ hj, getD_take_lt _ _ _ _ (by omega)]
    exact h.levels i j hij (by omega)
  · intro i hi
    rw [hlevel] at hi ⊢
    rw [hlen] at hi
    rw [getD_take_lt _ _ _ _ hi, htrail, List.length_take, Nat.min_eq_left hb]
    exact h.levels i l (Nat.le_of_lt hi) hl
  · rw [hlevel]
    have hr := h.root
    cases hs : s.level_size_ with
    | nil =>
      rw [hs] at hr
      exact absurd hr (by simp)
    | cons x xs =>
      rw [hs] at hr
      cases l with
      | zero => exact absurd h1 (by decide)
      | succ l => exact hr

theorem CandidateName_level_size_ (sort : Nat → Nat) (s : Solver) (f : Nat) :
    (CandidateName sort s f).2.level_size_ = s.level_size_ := by
  unfold CandidateName
  cases CandidateNameFind sort s f <;> rfl

theorem BumpToFront_level_size_ (s : Solver) (f : Nat) :
    (s.BumpToFront f).level_size_ = s.level_size_ := by
  unfold BumpToFront orderIncrease
  dsimp only
  split <;> rfl

theorem orderRemove_level_size_ (s : Solver) (f : Nat) :
    (s.orderRemove f).level_size_ = s.level_size_ := rfl

theorem setModel_level_size_ (s : Solver) (f n : Nat) :
    (s.setModel f n).level_size_ = s.level_size_ := rfl

theorem setData_level_size_ (s : Solver) (f n : Nat) (x : Data) :
    (s.setData f n x).level_size_ = s.level_size_ := rfl

theorem setDomainSize_level_size_ (s : Solver) (f : Nat) (v : Int) :
    (s.setDomainSize f v).level_size_ = s.level_size_ := rfl

theorem pushTrail_level_size_ (s : Solver) (a : Literal) :
    (s.pushTrail a).level_size_ = s.level_size_ := rfl

theorem EnqueueDomain_level_size_ (sort : Nat → Nat) (s : Solver) (f : Nat) :
    (EnqueueDomain sort s f).level_size_ = s.level_size_ := by
  unfold EnqueueDomain
  dsimp only
  rw [orderRemove_level_size_, setModel_level_size_, setData_level_size_, pushTrail_level_size_,
    CandidateName_level_size_]

theorem Enqueue_level_size_ (sort : Nat → Nat) (s : Solver) (a : Literal) (r : Int) :
    (Enqueue sort s a r).level_size_ = s.level_size_ := by
  unfold Enqueue
  dsimp only
  split
  · split
    · rw [orderRemove_level_size_, setModel_level_size_, setData_level_size_,
        pushTrail_level_size_]
    · split
      · rw [EnqueueDomain_level_size_, setDomainSize_level_size_, setData_level_size_,
          pushTrail_level_size_]
      · rw [BumpToFront_level_size_, setDomainSize_level_size_, setData_level_size_,
          pushTrail_level_size_]
  · rfl

theorem setData_occurs (s : Solver) (f n : Nat) (d : Data)
    (hd : d.occurs = (s.data f n).occurs) (g k : Nat) :
    ((s.setData f n d).data g k).occurs = (s.data g k).occurs := by
  rcases data_setData_or s f n g k d with e | ⟨rfl, rfl, e⟩
  · rw [e]
  · rw [e, hd]

theorem EnqueueDomain_occurs (sort : Nat → Nat) (s : Solver) (f g k : Nat) :
    ((EnqueueDomain sort s f).data g k).occurs = (s.data g k).occurs := by
  have hdata := CandidateName_data_ sort s f
  unfold EnqueueDomain
  dsimp only
  generalize CandidateName sort s f = r at hdata ⊢
  rw [data_congr (orderRemove_data_ _ _), data_congr (setModel_data_ _ _ _)]
  have e := setData_occurs (r.2.pushTrail (Literal.Eq f r.1)) f r.1
    (((r.2.pushTrail (Literal.Eq f r.1)).data f r.1).Update false
      (r.2.pushTrail (Literal.Eq f r.1)).current_level kDomainRef) rfl g k
  rw [e, data_congr (pushTrail_data_ _ _), data_congr hdata]

/-- The flag `occurs` is not touched by `Enqueue`. -/
theorem Enqueue_occurs (sort : Nat → Nat) (s : Solver) (a : Literal) (r : Int) (g k : Nat) :
    ((Enqueue sort s a r).data g k).occurs = (s.data g k).occurs := by
  have hset : ∀ b : Bool, (((s.pushTrail a).setData a.lhs a.rhs
      ((s.data a.lhs a.rhs).Update b s.current_level r)).data g k).occurs
        = (s.data g k).occurs :=
    fun b => setData_occurs s a.lhs a.rhs ((s.data a.lhs a.rhs).Update b s.current_level r)
      rfl g k
  unfold Enqueue
  dsimp only
  split
  · split
    · rw [data_congr (orderRemove_data_ _ _), data_congr (setModel_data_ _ _ _)]
      exact hset _
    · split
      · rw [EnqueueDomain_occurs, data_congr (setDomainSize_data_ _ _ _)]
        exact hset _
      · rw [data_congr (BumpToFront_data_ _ _), data_congr (setDomainSize_data_ _ _ _)]
        exact hset _
  · rfl

/-- The first loop of `Init` keeps the invariant when the negative unit literals are registered. -/
theorem DomInv_InitUnits (sort : Nat → Nat) (lits : List Literal) : ∀ s : Solver, DomInv s →
    (∀ a ∈ lits, a.pos = false → (s.data a.lhs a.rhs).occurs = true) →
    DomInv (InitUnits sort lits s).1 ∧ (InitUnits sort lits s).1.level_size_ = s.level_size_ := by
  induction lits with
  | nil =>
    intro s h _
    exact ⟨h, rfl⟩
  | cons a lits ih =>
    intro s h hocc
    unfold InitUnits
    split
    · exact ⟨DomInv_grow h ⟨fun _ _ => rfl, fun _ _ h => h, rfl, rfl, fun _ => rfl, rfl⟩
        (DataInv_frame h.dat rfl rfl rfl rfl rfl), rfl⟩
    · rename_i hf
      have hf' : s.falsifies a (-1) = false := by
        simpa using hf
      have h1 := DomInv_Enqueue sort s a kNullRef h hf' (hocc a (List.mem_cons_self a lits))
      have r := ih (Enqueue sort s a kNullRef) h1 (by
        intro b hb hp
        rw [Enqueue_occurs]
        exact hocc b (List.mem_cons_of_mem a hb) hp)
      exact ⟨r.1, by rw [r.2, Enqueue_level_size_]⟩

/-! ### Clauses and watchers -/

theorem getD_mem {α : Type} (l : List α) (i : Nat) (d : α) (h : i < l.length) :
    l.getD i d ∈ l := by
  rw [List.getD_eq_getElem _ _ h]
  exact List.getElem_mem h

theorem getD_swap (l : List Literal) (i j : Nat) (hi : i < l.length) (hj : j < l.length)
    (q : Nat) :
    ((l.set i (l.getD j Literal.null)).set j (l.getD i Literal.null)).getD q Literal.null
      = if j = q then l.getD i Literal.null
        else if i = q then l.getD j Literal.null else l.getD q Literal.null := by
  rw [getD_set_eq, getD_set_eq, List.length_set]
  by_cases h1 : j = q
  · rw [if_pos ⟨h1, hj⟩, if_pos h1]
  · rw [if_neg (fun h => h1 h.1), if_neg h1]
    by_cases h2 : i = q
    · rw [if_pos ⟨h2, hi⟩, if_pos h2]
    · rw [if_neg (fun h => h2 h.1), if_neg h2]

theorem mem_iff_getD (l : List Literal) (a : Literal) :
    a ∈ l ↔ ∃ k, k < l.length ∧ l.getD k Literal.null = a := by
  constructor
  · intro h
    obtain ⟨k, hk, e⟩ := List.getElem_of_mem h
    exact ⟨k, hk, by rw [List.getD_eq_getElem _ _ hk]; exact e⟩
  · rintro ⟨k, hk, rfl⟩
    exact getD_mem _ _ _ hk

theorem mem_swap_iff (l : List Literal) (i j : Nat) (hi : i < l.length) (hj : j < l.length)
    (a : Literal) :
    a ∈ (l.set i (l.getD j Literal.null)).set j (l.getD i Literal.null) ↔ a ∈ l := by
  have hlen : ((l.set i (l.getD j Literal.null)).set j (l.getD i Literal.null)).length
      = l.length := by
    rw [List.length_set, List.length_set]
  have hget := getD_swap l i j hi hj
  rw [mem_iff_getD, mem_iff_getD, hlen]
  constructor
  · rintro ⟨k, hk, e⟩
    rw [hget k] at e
    by_cases h1 : j = k
    · rw [if_pos h1] at e
      exact ⟨i, hi, e⟩
    · rw [if_neg h1] at e
      by_cases h2 : i = k
      · rw [if_pos h2] at e
        exact ⟨j, hj, e⟩
      · rw [if_neg h2] at e
        exact ⟨k, hk, e⟩
  · rintro ⟨k, hk, e⟩
    by_cases h1 : k = i
    · refine ⟨j, hj, ?_⟩
      rw [hget, if_pos rfl, ← h1]
      exact e
    · by_cases h2 : k = j
      · refine ⟨i, hi, ?_⟩
        rw [hget, if_neg (fun h => h1 (h2.trans h)), if_pos rfl, ← h2]
        exact e
      · refine ⟨k, hk, ?_⟩
        rw [hget, if_neg (fun h => h2 h.symm), if_neg (fun h => h1 h.symm)]
        exact e


theorem falsifies_frame (s t : Solver) (hd : t.data_ = s.data_) (hm : t.model_ = s.model_)
    (a : Literal) (l : Int) : t.falsifies a l = s.falsifies a l := by
  unfold falsifies
  dsimp only
  rw [model_congr hm, data_congr hd]

theorem satisfies_frame (s t : Solver) (hd : t.data_ = s.data_) (hm : t.model_ = s.model_)
    (a : Literal) (l : Int) : t.satisfies a l = s.satisfies a l := by
  unfold satisfies
  dsimp only
  rw [model_congr hm, data_congr hd]

theorem getD_exchange {α : Type} (l : List α) (d : α) (i j : Nat) (hi : i < l.length)
    (hj : j < l.length) (q : Nat) :
    ((l.set i (l.getD j d)).set j (l.getD i d)).getD q d
      = if j = q then l.getD i d else if i = q then l.getD j d else l.getD q d := by
  rw [getD_set_eq, getD_set_eq, List.length_set]
  by_cases h1 : j = q
  · rw [if_pos ⟨h1, hj⟩, if_pos h1]
  · rw [if_neg (fun h => h1 h.1), if_neg h1]
    by_cases h2 : i = q
    · rw [if_pos ⟨h2, hi⟩, if_pos h2]
    · rw [if_neg (fun h => h2 h.1), if_neg h2]

theorem mem_getD_set (w : List (List Int)) (i f : Nat) (l : List Int) (cr : Int)
    (h : cr ∈ (w.set i l).getD f []) : cr ∈ l ∨ cr ∈ w.getD f [] := by
  rw [getD_set_eq] at h
  split at h
  · exact Or.inl h
  · exact Or.inr h

theorem clause_in_range (s : Solver) (cr : Int) (h : 0 < (s.clause cr).size) :
    cr.toNat < s.clause_factory_.pool.length := by
  by_contra hc
  unfold clause Factory.get at h
  rw [List.getD_eq_default _ _ (Nat.le_of_not_lt hc)] at h
  exact absurd h (by decide)

theorem clause_mem_pool (s : Solver) (cr : Int) (h : 0 < (s.clause cr).size) :
    s.clause cr ∈ s.clause_factory_.pool :=
  getD_mem _ _ _ (clause_in_range s cr h)

theorem clause_set_same (s : Solver) (cr : Int) (c : Clause)
    (h : cr.toNat < s.clause_factory_.pool.length) :
    ({ s with clause_factory_ := s.clause_factory_.set cr c } : Solver).clause cr = c := by
  unfold clause Factory.get Factory.set
  exact getD_set_same _ _ _ _ h

theorem clause_set_ne (s : Solver) (cr cr2 : Int) (c : Clause) (h : cr.toNat ≠ cr2.toNat) :
    ({ s with clause_factory_ := s.clause_factory_.set cr c } : Solver).clause cr2
      = s.clause cr2 := by
  unfold clause Factory.get Factory.set
  exact getD_set_ne _ _ _ _ _ h

theorem clause_set_eq (s : Solver) (cr cr2 : Int) (c : Clause) :
    ({ s with clause_factory_ := s.clause_factory_.set cr c } : Solver).clause cr2
      = if cr.toNat = cr2.toNat ∧ cr.toNat < s.clause_factory_.pool.length then c
        else s.clause cr2 := by
  unfold clause Factory.get Factory.set
  exact getD_set_eq _ _ _ _ _

theorem swap_size (c : Clause) (i j : Nat) : (c.swap i j).size = c.size := by
  unfold Clause.swap Clause.size
  dsimp only
  rw [List.length_set, List.length_set]

theorem swap_get (c : Clause) (i j : Nat) (hi : i < c.size) (hj : j < c.size) (q : Nat) :
    (c.swap i j).get q = if j = q then c.get i else if i = q then c.get j else c.get q :=
  getD_swap c.lits i j hi hj q

theorem swap_mem (c : Clause) (i j : Nat) (hi : i < c.size) (hj : j < c.size) (a : Literal) :
    a ∈ (c.swap i j).lits ↔ a ∈ c.lits :=
  mem_swap_iff c.lits i j hi hj a

theorem get_mem (c : Clause) (i : Nat) (h : i < c.size) : c.get i ∈ c.lits :=
  getD_mem _ _ _ h

theorem WatchBits_init (s : Solver) (c : Clause) :
    WatchBits s c (((if s.falsifies (c.get 1) (-1) then 1 else 0) <<< 1) |||
      (if s.falsifies (c.get 0) (-1) then 1 else 0)) := by
  unfold WatchBits
  cases s.falsifies (c.get 0) (-1) <;> cases s.falsifies (c.get 1) (-1) <;> decide

theorem ScanFrame_refl (s : Solver) (cr : Int) (f0 f1 : Nat) : ScanFrame s s cr f0 f1 :=
  ⟨rfl, rfl, rfl, rfl, fun h => h, rfl⟩

theorem ScanFrame_trans {s t u : Solver} {cr : Int} {f0 f1 : Nat} (h1 : ScanFrame s t cr f0 f1)
    (h2 : ScanFrame t u cr f0 f1) : ScanFrame s u cr f0 f1 :=
  ⟨h2.data.trans h1.data, h2.model.trans h1.model, h2.watch0.trans h1.watch0,
    h2.watch1.trans h1.watch1, fun h => h2.watched (h1.watched h), h2.size.trans h1.size⟩

/-- The exchange of a falsified watched literal with a literal that is not falsified, in the
search for new watched literals. -/
theorem WatchBits_swap (s t : Solver) (c : Clause) (w k : Nat) (hd : t.data_ = s.data_)
    (hm : t.model_ = s.model_) (hb : WatchBits s c w) (hw : w ≠ 0) (hk2 : 2 ≤ k)
    (hk : k < c.size) (hf : s.falsifies (c.get k) (-1) = false) :
    w >>> 1 < 2 ∧ WatchBits t (c.swap (w >>> 1) k) ((w - 1) >>> 1) ∧
      t.falsifies ((c.swap (w >>> 1) k).get k) (-1) = true ∧
      ∀ q, 2 ≤ q → q ≠ k → (c.swap (w >>> 1) k).get q = c.get q := by
  obtain ⟨h4, h0, h1⟩ := hb
  have hget := fun (l : Nat) (hl : l < c.size) => swap_get c l k hl hk
  have hw3 : w = 1 ∨ w = 2 ∨ w = 3 := by omega
  unfold WatchBits
  simp only [falsifies_frame s t hd hm]
  rcases hw3 with rfl | rfl | rfl
  · have e1 : (1 : Nat) >>> 1 = 0 := rfl
    have e2 : ((1 : Nat) - 1) >>> 1 = 0 := rfl
    rw [e1, e2]
    have hg := hget 0 (by omega)
    refine ⟨by decide, ⟨by decide, ?_, ?_⟩, ?_, ?_⟩
    · rw [hg 0, if_neg (by omega), if_pos rfl, hf]
      decide
    · rw [hg 1, if_neg (by omega), if_neg (by decide), h1]
      rfl
    · rw [hg k, if_pos rfl, h0]
      rfl
    · intro q hq hqk
      rw [hg q, if_neg (fun e => hqk e.symm), if_neg (by omega)]
  · have e1 : (2 : Nat) >>> 1 = 1 := rfl
    have e2 : ((2 : Nat) - 1) >>> 1 = 0 := rfl
    rw [e1, e2]
    have hg := hget 1 (by omega)
    refine ⟨by decide, ⟨by decide, ?_, ?_⟩, ?_, ?_⟩
    · rw [hg 0, if_neg (by omega), if_neg (by decide), h0]
    · rw [hg 1, if_neg (by omega), if_pos rfl, hf]
      rfl
    · rw [hg k, if_pos rfl, h1]
      rfl
    · intro q hq hqk
      rw [hg q, if_neg (fun e => hqk e.symm), if_neg (by omega)]
  · have e1 : (3 : Nat) >>> 1 = 1 := rfl
    have e2 : ((3 : Nat) - 1) >>> 1 = 1 := rfl
    rw [e1, e2]
    have hg := hget 1 (by omega)
    refine ⟨by decide, ⟨by decide, ?_, ?_⟩, ?_, ?_⟩
    · rw [hg 0, if_neg (by omega), if_neg (by decide), h0]
    · rw [hg 1, if_neg (by omega), if_pos rfl, hf]
      rfl
    · rw [hg k, if_pos rfl, h1]
      rfl
    · intro q hq hqk
      rw [hg q, if_neg (fun e => hqk e.symm), if_neg (by omega)]

/-- The search for new watched literals in `Propagate(a)` goes through steps of `PStep`; it
keeps the assignments, the watchers of the two watched functions and the size of the clause;
the bits of the final `w` tell which watched literals are falsified; and unless the final `w`
is zero, the literals behind the watched ones are all falsified. -/
theorem PropagateScan_spec (sort : Nat → Nat) (P : Solver → Prop)
    (hstep : ∀ s t, P s → PStep sort s t → P t) (cr : Int) (f0 f1 : Nat) :
    ∀ (n : Nat) (s : Solver) (w : Nat), P s → (∃ g, cr ∈ s.watchers_.getD g []) →
      n + 2 ≤ (s.clause cr).size → WatchBits s (s.clause cr) w →
      (∀ k, 2 ≤ k → k + n < (s.clause cr).size →
        s.falsifies ((s.clause cr).get k) (-1) = true) →
      P (PropagateScan s cr f0 f1 n w).1 ∧
      ScanFrame s (PropagateScan s cr f0 f1 n w).1 cr f0 f1 ∧
      WatchBits (PropagateScan s cr f0 f1 n w).1 ((PropagateScan s cr f0 f1 n w).1.clause cr)
        (PropagateScan s cr f0 f1 n w).2 ∧
      ((PropagateScan s cr f0 f1 n w).2 ≠ 0 → ∀ k, 2 ≤ k → k < (s.clause cr).size →
        (PropagateScan s cr f0 f1 n w).1.falsifies
          (((PropagateScan s cr f0 f1 n w).1.clause cr).get k) (-1) = true) := by
  intro n
  induction n with
  | zero =>
    intro s w hP _ _ hb hk
    exact ⟨hP, ScanFrame_refl _ _ _ _, hb, fun _ k h2 hlt => hk k h2 (by omega)⟩
  | succ n ih =>
    intro s w hP hwat hsz hb hk
    unfold PropagateScan
    dsimp only
    split
    · rename_i hw0
      have hw : w ≠ 0 := by simpa using hw0
      split
      · rename_i hnf
        have hf : s.falsifies ((s.clause cr).get ((s.clause cr).size - (n + 1))) (-1) = false := by
          simpa using hnf
        have hrange := clause_in_range s cr (by omega)
        have key : ∀ (s1 : Solver) (c2 : Clause), P s1 →
            s1.clause_factory_ = s.clause_factory_ → ScanFrame s s1 cr f0 f1 →
            c2 = (s.clause cr).swap (w >>> 1) ((s.clause cr).size - (n + 1)) →
            P (PropagateScan ({ s1 with clause_factory_ := s1.clause_factory_.set cr c2 } : Solver)
                cr f0 f1 n ((w - 1) >>> 1)).1 ∧
            ScanFrame s
              (PropagateScan ({ s1 with clause_factory_ := s1.clause_factory_.set cr c2 } : Solver)
                cr f0 f1 n ((w - 1) >>> 1)).1 cr f0 f1 ∧
            WatchBits
              (PropagateScan ({ s1 with clause_factory_ := s1.clause_factory_.set cr c2 } : Solver)
                cr f0 f1 n ((w - 1) >>> 1)).1
              ((PropagateScan
                ({ s1 with clause_factory_ := s1.clause_factory_.set cr c2 } : Solver)
                cr f0 f1 n ((w - 1) >>> 1)).1.clause cr)
              (PropagateScan ({ s1 with clause_factory_ := s1.clause_factory_.set cr c2 } : Solver)
                cr f0 f1 n ((w - 1) >>> 1)).2 ∧
            ((PropagateScan ({ s1 with clause_factory_ := s1.clause_factory_.set cr c2 } : Solver)
                cr f0 f1 n ((w - 1) >>> 1)).2 ≠ 0 → ∀ k, 2 ≤ k → k < (s.clause cr).size →
              (PropagateScan ({ s1 with clause_factory_ := s1.clause_factory_.set cr c2 } : Solver)
                cr f0 f1 n ((w - 1) >>> 1)).1.falsifies
                (((PropagateScan
                  ({ s1 with clause_factory_ := s1.clause_factory_.set cr c2 } : Solver)
                  cr f0 f1 n ((w - 1) >>> 1)).1.clause cr).get k) (-1) = true) := by
          intro s1 c2 hP1 hcf hfr hc2
          have hc1 : s1.clause cr = s.clause cr := by
            unfold clause
            rw [hcf]
          obtain ⟨hl2, hb2, hfk, hrest⟩ := WatchBits_swap s s1 (s.clause cr) w
            ((s.clause cr).size - (n + 1)) hfr.data hfr.model hb hw (by omega) (by omega) hf
          rw [← hc2] at hb2 hfk hrest
          have hsz2 : c2.size = (s.clause cr).size := by
            rw [hc2, swap_size]
          have hP2 : P ({ s1 with clause_factory_ := s1.clause_factory_.set cr c2 } : Solver) := by
            have := hstep s1 _ hP1 (PStep.swap s1 cr (w >>> 1) ((s.clause cr).size - (n + 1))
              (hfr.watched hwat) (by rw [hc1]; omega) (by rw [hc1]; omega))
            rw [hc1, ← hc2] at this
            exact this
          have hcl2 : ({ s1 with clause_factory_ := s1.clause_factory_.set cr c2 } : Solver).clause
              cr = c2 :=
            clause_set_same s1 cr _ (by rw [hcf]; exact hrange)
          have hfr2 : ScanFrame s
              ({ s1 with clause_factory_ := s1.clause_factory_.set cr c2 } : Solver) cr f0 f1 :=
            ⟨hfr.data, hfr.model, hfr.watch0, hfr.watch1, hfr.watched, by
              rw [hcl2, hsz2]⟩
          have r := ih _ ((w - 1) >>> 1) hP2 (hfr.watched hwat)
            (by rw [hcl2, hsz2]; omega)
            (by rw [hcl2]; exact hb2)
            (by
              intro k h2 hlt
              rw [hcl2, hsz2] at hlt
              rw [hcl2]
              by_cases e : k = (s.clause cr).size - (n + 1)
              · rw [e]
                exact hfk
              · rw [hrest k h2 e]
                have := hk k h2 (by omega)
                rw [falsifies_frame s _ hfr2.data hfr2.model]
                exact this)
          refine ⟨r.1, ScanFrame_trans hfr2 r.2.1, r.2.2.1, ?_⟩
          intro h0 k h2 hlt
          exact r.2.2.2 h0 k h2 (by rw [hcl2, hsz2]; exact hlt)
        by_cases hcond : (((s.clause cr).get ((s.clause cr).size - (n + 1))).lhs != f0 &&
            ((s.clause cr).get ((s.clause cr).size - (n + 1))).lhs != f1 &&
            ((s.clause cr).get ((s.clause cr).size - (n + 1))).lhs
              != ((s.clause cr).get (1 - w >>> 1)).lhs) = true
        · rw [if_pos hcond]
          simp only [Bool.and_eq_true, bne_iff_ne, ne_eq] at hcond
          refine key
            ({ s with
                watchers_ :=
                  s.watchers_.set ((s.clause cr).get ((s.clause cr).size - (n + 1))).lhs
                    (s.watchers_.getD ((s.clause cr).get ((s.clause cr).size - (n + 1))).lhs []
                      ++ [cr]) } : Solver) _ ?_ rfl ?_ rfl
          · apply hstep s _ hP (PStep.watch s _ _)
            intro f c2 hc2
            rcases mem_getD_set _ _ _ _ _ hc2 with h | h
            · rcases List.mem_append.mp h with h | h
              · exact ⟨_, h⟩
              · rw [List.mem_singleton.mp h]
                exact hwat
            · exact ⟨f, h⟩
          · refine ⟨rfl, rfl, ?_, ?_, ?_, rfl⟩
            · exact getD_set_ne _ _ _ _ _ hcond.1.1
            · exact getD_set_ne _ _ _ _ _ hcond.1.2
            · rintro ⟨g, hg⟩
              refine ⟨g, ?_⟩
              show cr ∈ (s.watchers_.set _ _).getD g []
              rw [getD_set_eq]
              split
              · rename_i hh
                rw [← hh.1] at hg
                exact List.mem_append_left _ hg
              · exact hg
        · rw [if_neg hcond]
          exact key s _ hP rfl (ScanFrame_refl _ _ _ _) rfl
      · rename_i hnf
        have hf : s.falsifies ((s.clause cr).get ((s.clause cr).size - (n + 1))) (-1) = true := by
          simpa using hnf
        have r := ih s w hP hwat (by omega) hb (by
          intro k h2 hlt
          by_cases e : k = (s.clause cr).size - (n + 1)
          · rw [e]
            exact hf
          · exact hk k h2 (by omega))
        exact r
    · rename_i hw0
      have hw : w = 0 := by simpa using hw0
      exact ⟨hP, ScanFrame_refl _ _ _ _, hb, fun h => absurd hw h⟩

theorem CandidateName_static (sort : Nat → Nat) (s : Solver) (f : Nat) :
    (CandidateName sort s f).2.watchers_ = s.watchers_ ∧
    (CandidateName sort s f).2.clause_factory_ = s.clause_factory_ ∧
    (CandidateName sort s f).2.clauses_ = s.clauses_ ∧
    (CandidateName sort s f).2.funcs_ = s.funcs_ ∧
    (CandidateName sort s f).2.names_ = s.names_ ∧
    (CandidateName sort s f).2.trail_head_ = s.trail_head_ := by
  unfold CandidateName
  cases CandidateNameFind sort s f <;> exact ⟨rfl, rfl, rfl, rfl, rfl, rfl⟩

theorem BumpToFront_static (s : Solver) (f : Nat) :
    (s.BumpToFront f).watchers_ = s.watchers_ ∧
    (s.BumpToFront f).clause_factory_ = s.clause_factory_ ∧
    (s.BumpToFront f).clauses_ = s.clauses_ ∧
    (s.BumpToFront f).funcs_ = s.funcs_ ∧
    (s.BumpToFront f).names_ = s.names_ ∧
    (s.BumpToFront f).trail_head_ = s.trail_head_ := by
  unfold BumpToFront orderIncrease
  dsimp only
  split <;> exact ⟨rfl, rfl, rfl, rfl, rfl, rfl⟩

theorem EnqueueDomain_static (sort : Nat → Nat) (s : Solver) (f : Nat) :
    (EnqueueDomain sort s f).watchers_ = s.watchers_ ∧
    (EnqueueDomain sort s f).clause_factory_ = s.clause_factory_ ∧
    (EnqueueDomain sort s f).clauses_ = s.clauses_ ∧
    (EnqueueDomain sort s f).funcs_ = s.funcs_ ∧
    (EnqueueDomain sort s f).names_ = s.names_ ∧
    (EnqueueDomain sort s f).trail_head_ = s.trail_head_ := by
  have h := CandidateName_static sort s f
  unfold EnqueueDomain
  dsimp only
  generalize CandidateName sort s f = r at h ⊢
  exact h

/-- The fields that `Enqueue` does not touch. -/
theorem Enqueue_static (sort : Nat → Nat) (s : Solver) (a : Literal) (r : Int) :
    (Enqueue sort s a r).watchers_ = s.watchers_ ∧
    (Enqueue sort s a r).clause_factory_ = s.clause_factory_ ∧
    (Enqueue sort s a r).clauses_ = s.clauses_ ∧
    (Enqueue sort s a r).funcs_ = s.funcs_ ∧
    (Enqueue sort s a r).names_ = s.names_ ∧
    (Enqueue sort s a r).trail_head_ = s.trail_head_ := by
  unfold Enqueue
  dsimp only
  split
  · split
    · exact ⟨rfl, rfl, rfl, rfl, rfl, rfl⟩
    · split
      · exact EnqueueDomain_static sort _ a.lhs
      · exact BumpToFront_static _ a.lhs
  · exact ⟨rfl, rfl, rfl, rfl, rfl, rfl⟩

/-- The loop that flushes the remaining watchers goes through steps of `PStep` and keeps the
assignments, the clauses and the length of the watcher list. -/
theorem PropagateFlush_spec (sort : Nat → Nat) (P : Solver → Prop) (Q : Solver → Int → Prop)
    (hstep : ∀ s t, P s → PStep sort s t → P t)
    (hqstep : ∀ s t cr, Q s cr → PStep sort s t → Q t cr) (f : Nat) :
    ∀ (n : Nat) (s : Solver) (p1 p2 : Nat), P s → p1 + n ≤ (s.watchers_.getD f []).length →
      P (PropagateFlush f n s p1 p2).1 ∧ (PropagateFlush f n s p1 p2).2 = p2 + n ∧
      (PropagateFlush f n s p1 p2).1.data_ = s.data_ ∧
      (PropagateFlush f n s p1 p2).1.model_ = s.model_ ∧
      (PropagateFlush f n s p1 p2).1.clause_factory_ = s.clause_factory_ ∧
      ((PropagateFlush f n s p1 p2).1.watchers_.getD f []).length
        = (s.watchers_.getD f []).length ∧
      ∀ cr, Q s cr → Q (PropagateFlush f n s p1 p2).1 cr := by
  intro n
  induction n with
  | zero =>
    intro s p1 p2 hP _
    exact ⟨hP, rfl, rfl, rfl, rfl, rfl, fun _ h => h⟩
  | succ n ih =>
    intro s p1 p2 hP hlen
    unfold PropagateFlush
    have hst : PStep sort s (s.setWatcher f p2 ((s.watchers_.getD f []).getD p1 0)) := by
      apply PStep.watch
      intro g cr hcr
      rcases mem_getD_set _ _ _ _ _ hcr with h | h
      · rcases List.mem_or_eq_of_mem_set h with h | h
        · exact ⟨f, h⟩
        · rw [h]
          exact ⟨f, getD_mem _ _ _ (by omega)⟩
      · exact ⟨g, h⟩
    have hl1 : ((s.setWatcher f p2 ((s.watchers_.getD f []).getD p1 0)).watchers_.getD f []).length
        = (s.watchers_.getD f []).length := by
      show ((s.watchers_.set f _).getD f []).length = _
      rw [getD_set_eq]
      split
      · rw [List.length_set]
      · rfl
    have r := ih (s.setWatcher f p2 ((s.watchers_.getD f []).getD p1 0)) (p1 + 1) (p2 + 1)
      (hstep _ _ hP hst) (by rw [hl1]; omega)
    refine ⟨r.1, by rw [r.2.1]; omega, r.2.2.1, r.2.2.2.1, r.2.2.2.2.1, ?_, ?_⟩
    · rw [r.2.2.2.2.2.1, hl1]
    · intro cr hq
      exact r.2.2.2.2.2.2 cr (hqstep _ _ cr hq hst)

/-- The main loop of `Propagate(a)` goes through steps of `PStep`; the write position stays
within the watcher list; and a conflict that it returns is a watched clause all of whose
literals are falsified. -/
theorem PropagateLoop_spec (sort : Nat → Nat) (P : Solver → Prop) (Q : Solver → Int → Prop)
    (hw : ∀ s, P s → ∀ f, ∀ cr ∈ s.watchers_.getD f [], 2 ≤ (s.clause cr).size)
    (hstep : ∀ s t, P s → PStep sort s t → P t)
    (hq0 : ∀ s cr, P s → (∃ g, cr ∈ s.watchers_.getD g []) → Q s cr)
    (hqstep : ∀ s t cr, Q s cr → PStep sort s t → Q t cr) (f : Nat) :
    ∀ (fuel : Nat) (s : Solver) (p1 p2 : Nat), P s → p2 ≤ p1 →
      p1 ≤ (s.watchers_.getD f []).length →
      P (PropagateLoop sort f fuel s p1 p2).1 ∧
      (PropagateLoop sort f fuel s p1 p2).2.1
        ≤ ((PropagateLoop sort f fuel s p1 p2).1.watchers_.getD f []).length ∧
      ((PropagateLoop sort f fuel s p1 p2).2.2 ≠ kNullRef →
        Q (PropagateLoop sort f fuel s p1 p2).1 (PropagateLoop sort f fuel s p1 p2).2.2 ∧
        ∀ a ∈ ((PropagateLoop sort f fuel s p1 p2).1.clause
            (PropagateLoop sort f fuel s p1 p2).2.2).lits,
          (PropagateLoop sort f fuel s p1 p2).1.falsifies a (-1) = true) := by
  intro fuel
  induction fuel with
  | zero =>
    intro s p1 p2 hP h21 h1
    exact ⟨hP, by show p2 ≤ (s.watchers_.getD f []).length; omega, fun h => absurd rfl h⟩
  | succ fuel ih =>
    intro s p1 p2 hP h21 h1
    unfold PropagateLoop
    dsimp only
    split
    · rename_i hp1
      have hcr : (s.watchers_.getD f []).getD p1 0 ∈ s.watchers_.getD f [] :=
        getD_mem _ _ _ hp1
      generalize (s.watchers_.getD f []).getD p1 0 = cr at hcr ⊢
      have hsz := hw s hP f cr hcr
      split
      · exact ih s (p1 + 1) p2 hP (by omega) (by omega)
      · rename_i hff
        have hff2 : ((s.clause cr).get 0).lhs = f ∨ ((s.clause cr).get 1).lhs = f := by
          simp only [Bool.and_eq_true, bne_iff_ne, ne_eq, not_and_or, not_not] at hff
          exact hff
        have hwf : ∀ t : Solver,
            ScanFrame s t cr ((s.clause cr).get 0).lhs ((s.clause cr).get 1).lhs →
            t.watchers_.getD f [] = s.watchers_.getD f [] := by
          intro t ht
          rcases hff2 with e | e
          · rw [← e]
            exact ht.watch0
          · rw [← e]
            exact ht.watch1
        have hbits := WatchBits_init s (s.clause cr)
        generalize ((if s.falsifies ((s.clause cr).get 1) (-1) = true then 1 else 0) <<< 1 |||
          if s.falsifies ((s.clause cr).get 0) (-1) = true then 1 else 0) = w at hbits ⊢
        by_cases hkeep : (w == 0 || s.satisfies ((s.clause cr).get 0) (-1) ||
            s.satisfies ((s.clause cr).get 1) (-1)) = true
        · rw [if_pos hkeep]
          have hst : PStep sort s (s.setWatcher f p2 cr) := by
            apply PStep.watch
            intro g c2 hc2
            rcases mem_getD_set _ _ _ _ _ hc2 with h | h
            · rcases List.mem_or_eq_of_mem_set h with h | h
              · exact ⟨f, h⟩
              · rw [h]
                exact ⟨f, hcr⟩
            · exact ⟨g, h⟩
          have hl1 : ((s.setWatcher f p2 cr).watchers_.getD f []).length
              = (s.watchers_.getD f []).length := by
            show ((s.watchers_.set f _).getD f []).length = _
            rw [getD_set_eq]
            split
            · rw [List.length_set]
            · rfl
          exact ih _ (p1 + 1) (p2 + 1) (hstep _ _ hP hst) (by omega) (by rw [hl1]; omega)
        · rw [if_neg hkeep]
          have hscan := PropagateScan_spec sort P hstep cr ((s.clause cr).get 0).lhs
            ((s.clause cr).get 1).lhs ((s.clause cr).size - 2) s w hP ⟨f, hcr⟩ (by omega)
            hbits (by
              intro k h2 hlt
              omega)
          generalize PropagateScan s cr ((s.clause cr).get 0).lhs ((s.clause cr).get 1).lhs
            ((s.clause cr).size - 2) w = r at hscan ⊢
          obtain ⟨hP1, hfr, hb1, hrest⟩ := hscan
          have hwl := hwf r.1 hfr
          have hcr1 : cr ∈ r.1.watchers_.getD f [] := by
            rw [hwl]
            exact hcr
          have hall : r.2 ≠ 0 → ∀ a ∈ (r.1.clause cr).lits,
              a = (r.1.clause cr).get 0 ∨ a = (r.1.clause cr).get 1 ∨
                r.1.falsifies a (-1) = true := by
            intro h0 a ha
            obtain ⟨k, hk, e⟩ := (mem_iff_getD _ _).mp ha
            by_cases k0 : k = 0
            · left
              rw [← e, k0]
              rfl
            · by_cases k1 : k = 1
              · right
                left
                rw [← e, k1]
                rfl
              · right
                right
                have := hrest h0 k (by omega) (by
                  have := hfr.size
                  unfold Clause.size at this
                  unfold Clause.size
                  omega)
                rw [← e]
                exact this
          have hp1' : p1 ≤ (if (((r.1.clause cr).get 0).lhs != f &&
              ((r.1.clause cr).get 1).lhs != f) = true then p1 + 1 else p1) ∧
              (if (((r.1.clause cr).get 0).lhs != f &&
                ((r.1.clause cr).get 1).lhs != f) = true then p1 + 1 else p1) ≤ p1 + 1 := by
            split <;> omega
          generalize (if (((r.1.clause cr).get 0).lhs != f &&
              ((r.1.clause cr).get 1).lhs != f) = true then p1 + 1 else p1) = q1 at hp1' ⊢
          by_cases h3 : (r.2 == 3) = true
          · rw [if_pos h3]
            have hw3 : r.2 = 3 := by simpa using h3
            have hfl := PropagateFlush_spec sort P Q hstep hqstep f
              ((s.watchers_.getD f []).length - q1) r.1 q1 p2 hP1 (by
                  rw [hwl]
                  omega)
            generalize PropagateFlush f ((s.watchers_.getD f []).length - q1) r.1 q1 p2 = r2
              at hfl ⊢
            obtain ⟨hP2, hp2, hd2, hm2, hc2, hl2, hq2⟩ := hfl
            have hhead : PStep sort r2.1
                ({ r2.1 with trail_head_ := r2.1.trail_.length } : Solver) :=
              PStep.head r2.1 _
            refine ⟨hstep _ _ hP2 hhead, ?_, ?_⟩
            · show r2.2 ≤ (r2.1.watchers_.getD f []).length
              rw [hp2, hl2, hwl]
              omega
            · intro _
              refine ⟨hqstep _ _ cr (hq2 cr (hq0 r.1 cr hP1 ⟨f, hcr1⟩)) hhead, ?_⟩
              intro a ha
              have hcl : ({ r2.1 with trail_head_ := r2.1.trail_.length } : Solver).clause cr
                  = r.1.clause cr := by
                unfold clause
                show r2.1.clause_factory_.get cr = _
                rw [hc2]
              have hfa : ∀ b,
                  ({ r2.1 with trail_head_ := r2.1.trail_.length } : Solver).falsifies b (-1)
                    = r.1.falsifies b (-1) :=
                fun b => falsifies_frame r.1 _ hd2 hm2 b (-1)
              rw [hfa]
              rw [hcl] at ha
              obtain ⟨_, hb0, hb1'⟩ := hb1
              rw [hw3] at hb0 hb1'
              rcases hall (by omega) a ha with e | e | e
              · rw [e, hb0]
                rfl
              · rw [e, hb1']
                rfl
              · exact e
          · rw [if_neg h3]
            have hw3 : r.2 ≠ 3 := by simpa using h3
            by_cases h0 : (r.2 != 0) = true
            · rw [if_pos h0]
              have hw0 : r.2 ≠ 0 := by simpa using h0
              obtain ⟨h4, hb0, hb1'⟩ := hb1
              have hsz1 : 2 ≤ (r.1.clause cr).size := by
                rw [hfr.size]
                exact hsz
              have h12 : r.2 = 1 ∨ r.2 = 2 := by omega
              have hst : PStep sort r.1
                  (Enqueue sort r.1 ((r.1.clause cr).get (1 - r.2 >>> 1)) cr) := by
                apply PStep.enqueue r.1 cr _ ⟨f, hcr1⟩
                · exact get_mem _ _ (by omega)
                · rcases h12 with e | e
                  · rw [e] at hb1' ⊢
                    exact hb1'
                  · rw [e] at hb0 ⊢
                    exact hb0
                · intro a ha
                  rcases h12 with e | e
                  · rw [e] at hb0 ⊢
                    rcases hall hw0 a ha with h | h | h
                    · right
                      rw [h, hb0]
                      rfl
                    · left
                      exact h
                    · right
                      exact h
                  · rw [e] at hb1' ⊢
                    rcases hall hw0 a ha with h | h | h
                    · left
                      exact h
                    · right
                      rw [h, hb1']
                      rfl
                    · right
                      exact h
              have hew := (Enqueue_static sort r.1 ((r.1.clause cr).get (1 - r.2 >>> 1)) cr).1
              exact ih _ _ p2 (hstep _ _ hP1 hst) (by omega) (by
                rw [hew, hwl]
                omega)
            · rw [if_neg h0]
              exact ih r.1 _ p2 hP1 (by omega) (by
                rw [hwl]
                omega)
    · exact ⟨hP, by show p2 ≤ (s.watchers_.getD f []).length; omega, fun h => absurd rfl h⟩

/-- The run of `Propagate(a)` goes through steps of `PStep`, and a conflict that it returns is a
watched clause all of whose literals are falsified. -/
theorem PropagateLit_spec (sort : Nat → Nat) (P : Solver → Prop) (Q : Solver → Int → Prop)
    (hw : ∀ s, P s → ∀ f, ∀ cr ∈ s.watchers_.getD f [], 2 ≤ (s.clause cr).size)
    (hstep : ∀ s t, P s → PStep sort s t → P t)
    (hq0 : ∀ s cr, P s → (∃ g, cr ∈ s.watchers_.getD g []) → Q s cr)
    (hqstep : ∀ s t cr, Q s cr → PStep sort s t → Q t cr) (s : Solver) (a : Literal)
    (hP : P s) :
    P (PropagateLit sort s a).1 ∧
    ((PropagateLit sort s a).2 ≠ kNullRef →
      Q (PropagateLit sort s a).1 (PropagateLit sort s a).2 ∧
      ∀ b ∈ ((PropagateLit sort s a).1.clause (PropagateLit sort s a).2).lits,
        (PropagateLit sort s a).1.falsifies b (-1) = true) := by
  have r := PropagateLoop_spec sort P Q hw hstep hq0 hqstep a.lhs
    (2 * (s.watchers_.getD a.lhs []).length + 2) s 0 0 hP (Nat.le_refl _) (Nat.zero_le _)
  unfold PropagateLit
  dsimp only
  generalize PropagateLoop sort a.lhs (2 * (s.watchers_.getD a.lhs []).length + 2) s 0 0 = q
    at r ⊢
  obtain ⟨hP1, hle, hc⟩ := r
  have hst : PStep sort q.1
      ({ q.1 with
          watchers_ :=
            q.1.watchers_.set a.lhs (resize 0 q.2.1 (q.1.watchers_.getD a.lhs [])) } :
        Solver) := by
    apply PStep.watch
    intro g cr hcr
    rcases mem_getD_set _ _ _ _ _ hcr with h | h
    · rw [resize_of_le _ _ _ hle] at h
      exact ⟨a.lhs, List.mem_of_mem_take h⟩
    · exact ⟨g, h⟩
  refine ⟨hstep _ _ hP1 hst, ?_⟩
  intro hne
  obtain ⟨hq, hall⟩ := hc hne
  exact ⟨hqstep _ _ _ hq hst, hall⟩

/-- The loop of `Propagate()` goes through steps of `PStep`, and a conflict that it returns is
a watched clause all of whose literals are falsified. -/
theorem PropagateAll_spec (sort : Nat → Nat) (P : Solver → Prop) (Q : Solver → Int → Prop)
    (hw : ∀ s, P s → ∀ f, ∀ cr ∈ s.watchers_.getD f [], 2 ≤ (s.clause cr).size)
    (hstep : ∀ s t, P s → PStep sort s t → P t)
    (hq0 : ∀ s cr, P s → (∃ g, cr ∈ s.watchers_.getD g []) → Q s cr)
    (hqstep : ∀ s t cr, Q s cr → PStep sort s t → Q t cr) :
    ∀ (fuel : Nat) (s : Solver) (conflict : Int), P s →
      (conflict ≠ kNullRef → Q s conflict ∧
        ∀ b ∈ (s.clause conflict).lits, s.falsifies b (-1) = true) →
      P (PropagateAll sort fuel s conflict).1 ∧
      ((PropagateAll sort fuel s conflict).2 ≠ kNullRef →
        Q (PropagateAll sort fuel s conflict).1 (PropagateAll sort fuel s conflict).2 ∧
        ∀ b ∈ ((PropagateAll sort fuel s conflict).1.clause
            (PropagateAll sort fuel s conflict).2).lits,
          (PropagateAll sort fuel s conflict).1.falsifies b (-1) = true) := by
  intro fuel
  induction fuel with
  | zero =>
    intro s conflict hP hc
    exact ⟨hP, hc⟩
  | succ fuel ih =>
    intro s conflict hP hc
    unfold PropagateAll
    split
    · dsimp only
      have hP1 : P ({ s with trail_head_ := s.trail_head_ + 1 } : Solver) :=
        hstep _ _ hP (PStep.head s _)
      have r := PropagateLit_spec sort P Q hw hstep hq0 hqstep _
        (s.trail_.getD s.trail_head_ Literal.null) hP1
      exact ih _ _ r.1 r.2
    · exact ⟨hP, hc⟩

/-- A generic rule for `Propagate()`: a property that every step of `PStep` keeps, and
that makes every watched clause have two literals, holds after `Propagate()`; and a conflict
that `Propagate()` returns is a clause that was watched, all of whose literals are falsified. -/
theorem Propagate_spec (sort : Nat → Nat) (P : Solver → Prop) (Q : Solver → Int → Prop)
    (hw : ∀ s, P s → ∀ f, ∀ cr ∈ s.watchers_.getD f [], 2 ≤ (s.clause cr).size)
    (hstep : ∀ s t, P s → PStep sort s t → P t)
    (hq0 : ∀ s cr, P s → (∃ g, cr ∈ s.watchers_.getD g []) → Q s cr)
    (hqstep : ∀ s t cr, Q s cr → PStep sort s t → Q t cr) (s : Solver) (hP : P s) :
    P (Propagate sort s).1 ∧
    ((Propagate sort s).2 ≠ kNullRef →
      Q (Propagate sort s).1 (Propagate sort s).2 ∧
      ∀ b ∈ ((Propagate sort s).1.clause (Propagate sort s).2).lits,
        (Propagate sort s).1.falsifies b (-1) = true) :=
  PropagateAll_spec sort P Q hw hstep hq0 hqstep s.propagateFuel s kNullRef hP
    (fun h => absurd rfl h)

/-- The invariant only looks at `data_`, `domain_size_`, the trail, the level marks and the
capacities. -/
theorem DomInv_frame {s t : Solver} (h : DomInv s) (hd : t.data_ = s.data_)
    (hz : t.domain_size_ = s.domain_size_) (ht : t.trail_ = s.trail_)
    (hl : t.level_size_ = s.level_size_) (hm : t.model_.length = s.model_.length)
    (hf : t.funcs_.length = s.funcs_.length)
    (hn : (t.names_.getD 0 []).length = (s.names_.getD 0 []).length) : DomInv t := by
  have ho : t.openTrail = s.openTrail := by
    unfold openTrail
    rw [ht, hl]
  have hdat : ∀ f n, t.data f n = s.data f n := fun f n => data_congr hd f n
  constructor
  · exact DataInv_frame h.dat hd hz hm hf hn
  · intro a ha hp
    rw [ho] at ha
    rw [hdat]
    exact h.negp a ha hp
  · rw [ho]
    exact h.nodupp
  · intro a ha hp
    rw [ht] at ha
    rw [hdat]
    exact h.trocc a ha hp
  · rw [hl]
    exact h.levels
  · rw [hl, ht]
    exact h.bound
  · rw [hl]
    exact h.root

/-- The invariant of the clauses goes over to a solver with the same clauses and watchers
that registers at least the same pairs. -/
theorem ClauseInv_mono {s t : Solver} (h : ClauseInv s)
    (ho : ∀ f n, (s.data f n).occurs = true → (t.data f n).occurs = true)
    (hp : t.clause_factory_.pool = s.clause_factory_.pool)
    (hw : ∀ f, t.watchers_.getD f [] = s.watchers_.getD f []) : ClauseInv t := by
  have hc : ∀ cr, t.clause cr = s.clause cr := by
    intro cr
    unfold clause Factory.get
    rw [hp]
  constructor
  · intro c hc a ha
    rw [hp] at hc
    exact ho _ _ (h.pool c hc a ha)
  · intro f cr hcr
    rw [hw] at hcr
    rw [hc]
    exact h.watch f cr hcr

theorem ClauseInv_Enqueue (sort : Nat → Nat) (s : Solver) (a : Literal) (r : Int)
    (h : ClauseInv s) : ClauseInv (Enqueue sort s a r) := by
  have hs := Enqueue_static sort s a r
  refine ClauseInv_mono h ?_ (by rw [hs.2.1]) (by intro f; rw [hs.1])
  intro f n ho
  rw [Enqueue_occurs]
  exact ho

/-- Every step of `Propagate` keeps the invariant of the counts, the invariant of the clauses
and the level marks. -/
theorem PStep_inv (sort : Nat → Nat) (s t : Solver) (h : DomInv s ∧ ClauseInv s)
    (st : PStep sort s t) : (DomInv t ∧ ClauseInv t) ∧ t.level_size_ = s.level_size_ := by
  cases st with
  | head hd =>
    exact ⟨⟨DomInv_frame h.1 rfl rfl rfl rfl rfl rfl rfl, ⟨h.2.pool, h.2.watch⟩⟩, rfl⟩
  | watch w hw =>
    refine ⟨⟨DomInv_frame h.1 rfl rfl rfl rfl rfl rfl rfl, ⟨h.2.pool, ?_⟩⟩, rfl⟩
    intro f cr hcr
    obtain ⟨g, hg⟩ := hw f cr hcr
    exact h.2.watch g cr hg
  | swap cr i j hw hi hj =>
    refine ⟨⟨DomInv_frame h.1 rfl rfl rfl rfl rfl rfl rfl, ⟨?_, ?_⟩⟩, rfl⟩
    · intro c hc a ha
      rcases List.mem_or_eq_of_mem_set hc with hc | hc
      · exact h.2.pool c hc a ha
      · rw [hc] at ha
        exact h.2.pool _ (clause_mem_pool s cr (by omega)) a ((swap_mem _ i j hi hj a).mp ha)
    · intro f c2 hc2
      have hsz := h.2.watch f c2 hc2
      rw [clause_set_eq]
      split
      · rename_i e
        have e1 : s.clause c2 = s.clause cr := by
          unfold clause Factory.get
          rw [e.1]
        rw [swap_size, ← e1]
        exact hsz
      · exact hsz
  | enqueue cr b hw hb hnf hoth =>
    have hpos : 0 < (s.clause cr).size := by
      unfold Clause.size
      exact List.length_pos_of_mem hb
    exact ⟨⟨DomInv_Enqueue sort s b cr h.1 hnf
      (fun _ => h.2.pool _ (clause_mem_pool s cr hpos) b hb), ClauseInv_Enqueue sort s b cr h.2⟩,
      Enqueue_level_size_ sort s b cr⟩

/-- `Propagate()` keeps the invariant of the counts, the invariant of the clauses and the level
marks. -/
theorem DomInv_Propagate (sort : Nat → Nat) (s : Solver) (h : DomInv s ∧ ClauseInv s) :
    (DomInv (Propagate sort s).1 ∧ ClauseInv (Propagate sort s).1) ∧
      (Propagate sort s).1.level_size_ = s.level_size_ :=
  (Propagate_spec sort
    (fun t => (DomInv t ∧ ClauseInv t) ∧ t.level_size_ = s.level_size_) (fun _ _ => True)
    (fun _ ht => ht.1.2.watch)
    (fun t u ht st => ⟨(PStep_inv sort t u ht.1 st).1,
      (PStep_inv sort t u ht.1 st).2.trans ht.2⟩)
    (fun _ _ _ _ => trivial) (fun _ _ _ _ _ => trivial) s ⟨h, rfl⟩).1

theorem Register_factory (s : Solver) (srt f n e : Nat) :
    (s.Register srt f n e).clause_factory_ = s.clause_factory_ := by
  have h := (Ext_CapacitateMaps s srt f n e).factory
  unfold Register
  dsimp only
  generalize s.CapacitateMaps srt f n e = s1 at h ⊢
  split
  · exact h
  · exact h

theorem ClauseInv_Register (s : Solver) (srt f n e : Nat) (h : ClauseInv s) (hd : DataInv s)
    (hf0 : f ≠ 0) (hn0 : n ≠ 0) (he0 : e ≠ 0) : ClauseInv (s.Register srt f n e) := by
  have g := (Register_grows s srt f n e hd hf0 hn0 he0).2
  exact ClauseInv_mono h g.occurs (by rw [Register_factory]) g.watch

theorem ClauseInv_AddLiteral (sort extra_name : Nat → Nat) (s : Solver) (a : Literal)
    (h : ClauseInv s) (hd : DataInv s) (hf0 : a.lhs ≠ 0) (hn0 : a.rhs ≠ 0)
    (he0 : extra_name (sort a.lhs) ≠ 0) : ClauseInv (AddLiteral sort extra_name s a) := by
  unfold AddLiteral
  split
  · exact h
  · split
    · exact ⟨h.pool, h.watch⟩
    · have h1 : ClauseInv (s.pushTrail a) := ⟨h.pool, h.watch⟩
      exact ClauseInv_Register _ _ _ _ _ h1 (DataInv_frame hd rfl rfl rfl rfl rfl) hf0 hn0 he0

theorem ClauseInv_NewLevel (s : Solver) (h : ClauseInv s) : ClauseInv s.NewLevel :=
  ⟨h.pool, h.watch⟩

theorem BacktrackStep_factory (s : Solver) (a : Literal) :
    (BacktrackStep s a).clause_factory_ = s.clause_factory_ := by
  unfold BacktrackStep
  dsimp only
  split
  · split <;> rfl
  · rfl

theorem foldl_BacktrackStep_static (seg : List Literal) : ∀ s : Solver,
    (seg.foldl BacktrackStep s).clause_factory_ = s.clause_factory_ ∧
    (seg.foldl BacktrackStep s).watchers_ = s.watchers_ ∧
    ∀ g k, ((seg.foldl BacktrackStep s).data g k).occurs = (s.data g k).occurs := by
  induction seg with
  | nil =>
    intro s
    exact ⟨rfl, rfl, fun _ _ => rfl⟩
  | cons a seg ih =>
    intro s
    rw [List.foldl_cons]
    obtain ⟨h1, h2, h3⟩ := ih (BacktrackStep s a)
    refine ⟨h1.trans (BacktrackStep_factory s a), h2.trans (BacktrackStep_frame s a).2.2.1, ?_⟩
    intro g k
    rw [h3, (BacktrackStep_data s a g k).1]

theorem ClauseInv_Backtrack (s : Solver) (l : Nat) (h : ClauseInv s) :
    ClauseInv (s.Backtrack l) := by
  obtain ⟨h1, h2, h3⟩ := foldl_BacktrackStep_static (s.trail_.drop (s.level_size_.getD l 0)) s
  refine ClauseInv_mono h ?_ ?_ ?_
  · intro f n ho
    have : ((s.Backtrack l).data f n) =
        (((s.trail_.drop (s.level_size_.getD l 0)).foldl BacktrackStep s).data f n) := rfl
    rw [this, h3]
    exact ho
  · show ((s.trail_.drop (s.level_size_.getD l 0)).foldl BacktrackStep s).clause_factory_.pool = _
    rw [h1]
  · intro f
    show ((s.trail_.drop (s.level_size_.getD l 0)).foldl BacktrackStep s).watchers_.getD f [] = _
    rw [h2]

theorem mem_insertSorted (a b : Literal) : ∀ l : List Literal,
    b ∈ Clause.insertSorted a l → b = a ∨ b ∈ l := by
  intro l
  induction l with
  | nil =>
    intro h
    simp only [Clause.insertSorted, List.mem_singleton] at h
    exact Or.inl h
  | cons x xs ih =>
    intro h
    simp only [Clause.insertSorted] at h
    split at h
    · rcases List.mem_cons.mp h with h | h
      · exact Or.inl h
      · exact Or.inr h
    · split at h
      · exact Or.inr h
      · rcases List.mem_cons.mp h with h | h
        · exact Or.inr (by rw [h]; exact List.mem_cons_self _ _)
        · rcases ih h with h | h
          · exact Or.inl h
          · exact Or.inr (List.mem_cons_of_mem _ h)

theorem mem_sortDedup (b : Literal) : ∀ l : List Literal, b ∈ Clause.sortDedup l → b ∈ l := by
  intro l
  induction l with
  | nil =>
    intro h
    exact h
  | cons x xs ih =>
    intro h
    unfold Clause.sortDedup at h
    rw [List.foldr_cons] at h
    rcases mem_insertSorted x b _ h with h | h
    · rw [h]
      exact List.mem_cons_self _ _
    · exact List.mem_cons_of_mem _ (ih h)

/-- The literals of a normalised clause are literals of the sequence it was made from. -/
theorem mem_Normalize (as : List Literal) (b : Literal) (h : b ∈ (Clause.Normalize as).lits) :
    b ∈ as := by
  unfold Clause.Normalize at h
  dsimp only at h
  split at h
  · exact absurd h (List.not_mem_nil b)
  · unfold Clause.collapse at h
    exact mem_sortDedup b as (List.mem_of_mem_filter h)

/-- The loop of `AddClause` that registers the literals of the clause keeps the invariant and
the clauses, and registers the literals. -/
theorem foldl_Register_inv (sort extra_name : Nat → Nat) (lits : List Literal) :
    ∀ s : Solver, DomInv s →
      (∀ a ∈ lits, a.lhs ≠ 0 ∧ a.rhs ≠ 0 ∧ extra_name (sort a.lhs) ≠ 0) →
      DomInv (lits.foldl
        (fun t a => t.Register (sort a.lhs) a.lhs a.rhs (extra_name (sort a.lhs))) s) ∧
      Grow s (lits.foldl
        (fun t a => t.Register (sort a.lhs) a.lhs a.rhs (extra_name (sort a.lhs))) s) ∧
      (lits.foldl
        (fun t a => t.Register (sort a.lhs) a.lhs a.rhs (extra_name (sort a.lhs)))
          s).clause_factory_ = s.clause_factory_ ∧
      ∀ a ∈ lits, ((lits.foldl
        (fun t a => t.Register (sort a.lhs) a.lhs a.rhs (extra_name (sort a.lhs))) s).data
          a.lhs a.rhs).occurs = true := by
  induction lits with
  | nil =>
    intro s h _
    exact ⟨h, Grow_refl s, rfl, fun a ha => absurd ha (List.not_mem_nil a)⟩
  | cons x xs ih =>
    intro s h hx
    rw [List.foldl_cons]
    obtain ⟨x1, x2, x3⟩ := hx x (List.mem_cons_self _ _)
    have h1 := DomInv_Register s (sort x.lhs) x.lhs x.rhs (extra_name (sort x.lhs)) h x1 x2 x3
    have g1 := (Register_grows s (sort x.lhs) x.lhs x.rhs (extra_name (sort x.lhs)) h.dat
      x1 x2 x3).2
    have o1 := Register_occurs s (sort x.lhs) x.lhs x.rhs (extra_name (sort x.lhs)) h.dat.capd
    obtain ⟨r1, r2, r3, r4⟩ := ih _ h1 (fun a ha => hx a (List.mem_cons_of_mem _ ha))
    refine ⟨r1, Grow_trans g1 r2, r3.trans (Register_factory _ _ _ _ _), ?_⟩
    intro a ha
    rcases List.mem_cons.mp ha with e | e
    · rw [e]
      exact r2.occurs _ _ o1
    · exact r4 a e

/-- `AddClause` with at least two literals of non-null terms that do not normalise to a
single literal keeps the invariant of the counts and the invariant of the clauses. -/
theorem DomInv_AddClause (sort extra_name : Nat → Nat) (s : Solver) (as : List Literal)
    (h : DomInv s ∧ ClauseInv s) (hsz : (Clause.Normalize as).size ≠ 1) (h2 : 2 ≤ as.length)
    (hnn : ∀ a ∈ as, a.lhs ≠ 0 ∧ a.rhs ≠ 0 ∧ extra_name (sort a.lhs) ≠ 0) :
    DomInv (AddClause sort extra_name s as) ∧ ClauseInv (AddClause sort extra_name s as) := by
  have hc0 : ∀ cr, ({ s with clause_factory_ := (s.clause_factory_.New as).2 } : Solver).clause cr
      = if cr.toNat = s.clause_factory_.pool.length then Clause.Normalize as
        else s.clause cr := by
    intro cr
    unfold clause Factory.get Factory.New
    dsimp only
    split
    · rename_i e
      rw [e, List.getD_eq_getElem?_getD, List.getElem?_append_right (Nat.le_refl _)]
      simp
    · rename_i e
      by_cases hlt : cr.toNat < s.clause_factory_.pool.length
      · rw [List.getD_append _ _ _ _ hlt]
      · rw [List.getD_eq_default _ _ (by rw [List.length_append, List.length_singleton]; omega),
          List.getD_eq_default _ _ (by omega)]
  have hwat : ∀ f, ∀ cr ∈ s.watchers_.getD f [],
      2 ≤ (({ s with clause_factory_ := (s.clause_factory_.New as).2 } : Solver).clause cr).size := by
    intro f cr hcr
    have hs := h.2.watch f cr hcr
    rw [hc0]
    split
    · rename_i e
      have := clause_in_range s cr (by omega)
      omega
    · exact hs
  have hempty : (Clause.Normalize as).lits = [] →
      DomInv ({ s with clause_factory_ := (s.clause_factory_.New as).2 } : Solver) ∧
      ClauseInv ({ s with clause_factory_ := (s.clause_factory_.New as).2 } : Solver) := by
    intro he
    refine ⟨DomInv_frame h.1 rfl rfl rfl rfl rfl rfl rfl, ⟨?_, hwat⟩⟩
    intro c hc a ha
    rcases List.mem_append.mp hc with hc | hc
    · exact h.2.pool c hc a ha
    · rw [List.mem_singleton.mp hc, he] at ha
      exact absurd ha (List.not_mem_nil a)
  unfold AddClause
  split
  · rename_i h0
    have : as.length = 0 := by simpa using h0
    omega
  · split
    · rename_i h1
      have : as.length = 1 := by simpa using h1
      omega
    · dsimp only
      rw [clause_New]
      split
      · rename_i hv
        have he : (Clause.Normalize as).lits = [] := by
          unfold Clause.Normalize at hv ⊢
          dsimp only at hv ⊢
          split
          · rfl
          · rename_i hh
            rw [if_neg hh] at hv
            exact Bool.noConfusion hv
        obtain ⟨a1, a2⟩ := hempty he
        exact ⟨DomInv_frame a1 rfl rfl rfl rfl rfl rfl rfl, ⟨a2.pool, a2.watch⟩⟩
      · split
        · rename_i hu
          have he : (Clause.Normalize as).lits = [] := by
            unfold Clause.unsatisfiable at hu
            simp only [Bool.and_eq_true, List.isEmpty_iff] at hu
            exact hu.2
          obtain ⟨a1, a2⟩ := hempty he
          exact ⟨DomInv_frame a1 rfl rfl rfl rfl rfl rfl rfl, ⟨a2.pool, a2.watch⟩⟩
        · split
          · rename_i h1
            exact absurd (by simpa using h1) hsz
          · have hd0 : DomInv ({ ({ s with clause_factory_ := (s.clause_factory_.New as).2 }
                : Solver) with clauses_ := s.clauses_ ++ [(s.clause_factory_.New as).1] }
                : Solver) := DomInv_frame h.1 rfl rfl rfl rfl rfl rfl rfl
            obtain ⟨r1, r2, r3, r4⟩ := foldl_Register_inv sort extra_name
              (Clause.Normalize as).lits _ hd0
              (fun a ha => hnn a (mem_Normalize as a ha))
            refine ⟨r1, ⟨?_, ?_⟩⟩
            · intro c hc a ha
              rw [r3] at hc
              rcases List.mem_append.mp hc with hc | hc
              · exact r2.occurs _ _ (h.2.pool c hc a ha)
              · rw [List.mem_singleton.mp hc] at ha
                exact r4 a ha
            · intro f cr hcr
              rw [r2.watch] at hcr
              have := hwat f cr hcr
              have e : ∀ t : Solver, t.clause_factory_ = (s.clause_factory_.New as).2 →
                  t.clause cr = ({ s with clause_factory_ := (s.clause_factory_.New as).2 }
                    : Solver).clause cr := by
                intro t ht
                unfold clause
                rw [ht]
              rw [e _ r3]
              exact this

/-- The first loop of `Init` keeps the invariant of the clauses. -/
theorem ClauseInv_InitUnits (sort : Nat → Nat) (lits : List Literal) : ∀ s : Solver,
    ClauseInv s → ClauseInv (InitUnits sort lits s).1 := by
  induction lits with
  | nil =>
    intro s h
    exact h
  | cons a lits ih =>
    intro s h
    unfold InitUnits
    split
    · exact ⟨h.pool, h.watch⟩
    · exact ih _ (ClauseInv_Enqueue sort s a kNullRef h)

theorem InitUnits_static (sort : Nat → Nat) (lits : List Literal) : ∀ s : Solver,
    (InitUnits sort lits s).1.watchers_ = s.watchers_ ∧
    (InitUnits sort lits s).1.clause_factory_ = s.clause_factory_ ∧
    (InitUnits sort lits s).1.clauses_ = s.clauses_ := by
  induction lits with
  | nil =>
    intro s
    exact ⟨rfl, rfl, rfl⟩
  | cons a lits ih =>
    intro s
    unfold InitUnits
    split
    · exact ⟨rfl, rfl, rfl⟩
    · have e := Enqueue_static sort s a kNullRef
      obtain ⟨r1, r2, r3⟩ := ih (Enqueue sort s a kNullRef)
      exact ⟨r1.trans e.1, r2.trans e.2.1, r3.trans e.2.2.1⟩

theorem mem_UpdateWatchers (s : Solver) (cr : Int) (c : Clause) (g : Nat) (x : Int)
    (h : x ∈ (s.UpdateWatchers cr c).watchers_.getD g []) :
    x = cr ∨ x ∈ s.watchers_.getD g [] := by
  unfold UpdateWatchers at h
  dsimp only at h
  have h1 : ∀ y, y ∈ (s.watchers_.set (c.get 0).lhs
      (s.watchers_.getD (c.get 0).lhs [] ++ [cr])).getD g [] → y = cr ∨ y ∈ s.watchers_.getD g [] := by
    intro y hy
    rw [getD_set_eq] at hy
    split at hy
    · rename_i e
      rcases List.mem_append.mp hy with hy | hy
      · rw [← e.1]
        exact Or.inr hy
      · exact Or.inl (List.mem_singleton.mp hy)
    · exact Or.inr hy
  split at h
  · rw [getD_set_eq] at h
    split at h
    · rename_i e
      rcases List.mem_append.mp h with h | h
      · rw [e.1] at h
        exact h1 x h
      · exact Or.inl (List.mem_singleton.mp h)
    · exact h1 x h
  · exact h1 x h

/-- The second loop of `Init`, on clauses that are pairwise distinct and not marked valid, the
watched clauses being among those that the loop has passed: it keeps the invariant of the
counts and the level marks, and establishes the invariant of the clauses. -/
theorem InitClauses_inv (sort : Nat → Nat) : ∀ (fuel : Nat) (s : Solver) (i n : Nat),
    DomInv s → (∀ c ∈ s.clause_factory_.pool, ∀ a ∈ c.lits, (s.data a.lhs a.rhs).occurs = true) →
    1 ≤ i → n ≤ s.clauses_.length →
    (∀ k, k < n → ∀ j, j < k → 1 ≤ j →
      (s.clauses_.getD j 0).toNat ≠ (s.clauses_.getD k 0).toNat) →
    (∀ j, j < n → 1 ≤ j → (s.clause (s.clauses_.getD j 0)).valid = false) →
    (∀ f, ∀ cr ∈ s.watchers_.getD f [], 2 ≤ (s.clause cr).size ∧
      ∃ j, 1 ≤ j ∧ j < i ∧ j < n ∧ s.clauses_.getD j 0 = cr) →
    DomInv (InitClauses sort fuel s i n).1 ∧ ClauseInv (InitClauses sort fuel s i n).1 ∧
      (InitClauses sort fuel s i n).1.level_size_ = s.level_size_ := by
  intro fuel
  induction fuel with
  | zero =>
    intro s i n hD hpool _ _ _ _ hwatch
    exact ⟨hD, ⟨hpool, fun f cr hcr => (hwatch f cr hcr).1⟩, rfl⟩
  | succ fuel ih =>
    intro s i n hD hpool hi1 hn hdist hval hwatch
    unfold InitClauses
    dsimp only
    by_cases hin : i < n
    · rw [if_pos hin]
      generalize hcr : s.clauses_.getD i 0 = cr
      have hcsub : ∀ a ∈ ((s.clause cr).RemoveIf (fun a => s.falsifies a (-1))).lits,
          a ∈ (s.clause cr).lits ∧ s.falsifies a (-1) = false := by
        intro a ha
        unfold Clause.RemoveIf at ha
        dsimp only at ha
        have := List.mem_filter.mp ha
        exact ⟨this.1, by simpa using this.2⟩
      have hcv : ((s.clause cr).RemoveIf (fun a => s.falsifies a (-1))).valid
          = (s.clause cr).valid := rfl
      generalize (s.clause cr).RemoveIf (fun a => s.falsifies a (-1)) = c at hcsub hcv ⊢
      have hpool1 : ∀ c2 ∈ (s.clause_factory_.set cr c).pool, ∀ a ∈ c2.lits,
          (s.data a.lhs a.rhs).occurs = true := by
        intro c2 hc2 a ha
        rcases List.mem_or_eq_of_mem_set hc2 with hc2 | hc2
        · exact hpool c2 hc2 a ha
        · rw [hc2] at ha
          have hm := (hcsub a ha).1
          exact hpool _ (clause_mem_pool s cr (by
            unfold Clause.size
            exact List.length_pos_of_mem hm)) a hm
      have hother : ∀ cr2 : Int, cr.toNat ≠ cr2.toNat →
          ({ s with clause_factory_ := s.clause_factory_.set cr c } : Solver).clause cr2
            = s.clause cr2 :=
        fun cr2 e => clause_set_ne s cr cr2 c e
      have hwatch1 : ∀ f, ∀ cr2 ∈ s.watchers_.getD f [],
          2 ≤ (({ s with clause_factory_ := s.clause_factory_.set cr c } : Solver).clause
            cr2).size ∧ ∃ j, 1 ≤ j ∧ j < i ∧ j < n ∧ s.clauses_.getD j 0 = cr2 := by
        intro f cr2 h2
        obtain ⟨hs, j, hj1, hji, hjn, hj⟩ := hwatch f cr2 h2
        refine ⟨?_, j, hj1, hji, hjn, hj⟩
        rw [hother cr2 (by
          have := hdist i hin j hji hj1
          rw [hj, hcr] at this
          exact fun e => this e.symm)]
        exact hs
      have hD1 : DomInv ({ s with clause_factory_ := s.clause_factory_.set cr c } : Solver) :=
        DomInv_frame hD rfl rfl rfl rfl rfl rfl rfl
      have hsame : cr.toNat < s.clause_factory_.pool.length →
          ({ s with clause_factory_ := s.clause_factory_.set cr c } : Solver).clause cr = c :=
        fun h => clause_set_same s cr c h
      by_cases hu : c.unsatisfiable = true
      · rw [if_pos hu]
        exact ⟨DomInv_frame hD rfl rfl rfl rfl rfl rfl rfl,
          ⟨hpool1, fun f cr2 h2 => (hwatch1 f cr2 h2).1⟩, rfl⟩
      · rw [if_neg hu]
        have hswap : ∀ t : Solver, DomInv t → t.level_size_ = s.level_size_ →
            (∀ c2 ∈ t.clause_factory_.pool, ∀ a ∈ c2.lits, (t.data a.lhs a.rhs).occurs = true) →
            t.clauses_ = s.clauses_ → t.watchers_ = s.watchers_ →
            (∀ cr2, t.clause cr2
              = ({ s with clause_factory_ := s.clause_factory_.set cr c } : Solver).clause cr2) →
            DomInv (InitClauses sort fuel (t.swapClauses i (n - 1)) i (n - 1)).1 ∧
            ClauseInv (InitClauses sort fuel (t.swapClauses i (n - 1)) i (n - 1)).1 ∧
            (InitClauses sort fuel (t.swapClauses i (n - 1)) i (n - 1)).1.level_size_
              = s.level_size_ := by
          intro t hDt hlt hpt hct hwt hclt
          have hlen : (t.swapClauses i (n - 1)).clauses_.length = s.clauses_.length := by
            unfold swapClauses
            dsimp only
            rw [List.length_set, List.length_set, hct]
          have hget : ∀ q, q < n - 1 → (t.swapClauses i (n - 1)).clauses_.getD q 0
              = if q = i then s.clauses_.getD (n - 1) 0 else s.clauses_.getD q 0 := by
            intro q hq
            unfold swapClauses
            dsimp only
            rw [getD_exchange _ _ _ _ (by rw [hct]; omega) (by rw [hct]; omega), hct,
              if_neg (by omega)]
            by_cases e : i = q
            · rw [if_pos e, if_pos e.symm]
            · rw [if_neg e, if_neg (fun h => e h.symm)]
          have hcl : ∀ cr2, (t.swapClauses i (n - 1)).clause cr2 = t.clause cr2 := fun _ => rfl
          have r := ih (t.swapClauses i (n - 1)) i (n - 1)
            (DomInv_frame hDt rfl rfl rfl rfl rfl rfl rfl) hpt hi1 (by rw [hlen]; omega)
            (by
              intro k hk j hj hj1
              rw [hget k hk, hget j (by omega)]
              by_cases ek : k = i
              · rw [if_pos ek, if_neg (by omega)]
                exact hdist (n - 1) (by omega) j (by omega) hj1
              · rw [if_neg ek]
                by_cases ej : j = i
                · rw [if_pos ej]
                  exact fun e => hdist (n - 1) (by omega) k (by omega) (by omega) e.symm
                · rw [if_neg ej]
                  exact hdist k (by omega) j hj hj1)
            (by
              intro j hj hj1
              rw [hget j hj, hcl, hclt]
              have hv : ∀ q, q < n → 1 ≤ q →
                  (({ s with clause_factory_ := s.clause_factory_.set cr c } : Solver).clause
                    (s.clauses_.getD q 0)).valid = false := by
                intro q hq hq1
                rw [clause_set_eq]
                split
                · rename_i e
                  have e1 : s.clause (s.clauses_.getD q 0) = s.clause cr := by
                    unfold clause Factory.get
                    rw [e.1]
                  rw [hcv, ← e1]
                  exact hval q hq hq1
                · exact hval q hq hq1
              split
              · exact hv (n - 1) (by omega) (by omega)
              · exact hv j (by omega) hj1)
            (by
              intro f cr2 h2
              have h2' : cr2 ∈ s.watchers_.getD f [] := by
                have : (t.swapClauses i (n - 1)).watchers_ = t.watchers_ := rfl
                rw [this, hwt] at h2
                exact h2
              obtain ⟨hs, j, hj1, hji, hjn, hj⟩ := hwatch1 f cr2 h2'
              refine ⟨by rw [hcl, hclt]; exact hs, j, hj1, hji, by omega, ?_⟩
              rw [hget j (by omega), if_neg (by omega)]
              exact hj)
          exact ⟨r.1, r.2.1, r.2.2.trans hlt⟩
        by_cases hsat : ({ s with clause_factory_ := s.clause_factory_.set cr c }
            : Solver).satisfiesClause c (-1) = true
        · rw [if_pos hsat]
          exact hswap _ (DomInv_frame hD rfl rfl rfl rfl rfl rfl rfl) rfl hpool1 rfl rfl
            (fun _ => rfl)
        · rw [if_neg hsat]
          by_cases h1 : (c.size == 1) = true
          · rw [if_pos h1]
            have h1' : c.size = 1 := by simpa using h1
            have hmem : c.get 0 ∈ c.lits := get_mem c 0 (by omega)
            have hnf : ({ s with clause_factory_ := s.clause_factory_.set cr c }
                : Solver).falsifies (c.get 0) (-1) = false := by
              exact (falsifies_frame s
                ({ s with clause_factory_ := s.clause_factory_.set cr c } : Solver) rfl rfl _
                _).trans (hcsub _ hmem).2
            have hE := DomInv_Enqueue sort _ (c.get 0) kNullRef hD1 hnf (fun _ =>
              hpool1 c (by
                have hm := (hcsub _ hmem).1
                have hr := clause_in_range s cr (by
                  unfold Clause.size
                  exact List.length_pos_of_mem hm)
                show c ∈ s.clause_factory_.pool.set cr.toNat c
                have := getD_mem (s.clause_factory_.pool.set cr.toNat c) cr.toNat c
                  (by rw [List.length_set]; exact hr)
                rw [getD_set_same _ _ _ _ hr] at this
                exact this) _ hmem)
            have hst := Enqueue_static sort ({ s with clause_factory_ := s.clause_factory_.set cr c }
                : Solver) (c.get 0) kNullRef
            refine hswap _ (DomInv_frame hE rfl rfl rfl rfl rfl rfl rfl)
              (Enqueue_level_size_ sort _ _ _) ?_ hst.2.2.1 hst.1 ?_
            · intro c2 hc2 a ha
              have : c2 ∈ (s.clause_factory_.set cr c).pool := by
                have e : (Enqueue sort ({ s with clause_factory_ := s.clause_factory_.set cr c }
                    : Solver) (c.get 0) kNullRef).clause_factory_.pool
                    = (s.clause_factory_.set cr c).pool := by
                  rw [hst.2.1]
                rw [← e]
                exact hc2
              show ((Enqueue sort _ (c.get 0) kNullRef).data a.lhs a.rhs).occurs = true
              rw [Enqueue_occurs]
              exact hpool1 c2 this a ha
            · intro cr2
              unfold clause
              show (Enqueue sort _ (c.get 0) kNullRef).clause_factory_.get cr2 = _
              rw [hst.2.1]
          · rw [if_neg h1]
            have h1' : c.size ≠ 1 := by simpa using h1
            have hvc : c.valid = false := by
              rw [hcv, ← hcr]
              exact hval i hin hi1
            have hne : c.lits ≠ [] := by
              intro e
              apply hu
              unfold Clause.unsatisfiable
              rw [hvc, e]
              rfl
            have hsz : 2 ≤ c.size := by
              have : c.size ≠ 0 := by
                unfold Clause.size
                exact fun e => hne (List.length_eq_zero.mp e)
              omega
            have hrange : cr.toNat < s.clause_factory_.pool.length := by
              have hm := (hcsub _ (get_mem c 0 (by omega))).1
              exact clause_in_range s cr (by
                unfold Clause.size
                exact List.length_pos_of_mem hm)
            have r := ih (({ s with clause_factory_ := s.clause_factory_.set cr c }
                : Solver).UpdateWatchers cr c) (i + 1) n
              (DomInv_frame hD rfl rfl rfl rfl rfl rfl rfl) hpool1 (by omega) hn hdist
              (by
                intro j hj hj1
                show (({ s with clause_factory_ := s.clause_factory_.set cr c } : Solver).clause
                  (s.clauses_.getD j 0)).valid = false
                rw [clause_set_eq]
                split
                · exact hvc
                · exact hval j hj hj1)
              (by
                intro f cr2 h2
                rcases mem_UpdateWatchers _ _ _ _ _ h2 with e | e
                · rw [e]
                  refine ⟨?_, i, hi1, by omega, hin, hcr⟩
                  show 2 ≤ (({ s with clause_factory_ := s.clause_factory_.set cr c }
                    : Solver).clause cr).size
                  rw [hsame hrange]
                  exact hsz
                · obtain ⟨hs, j, hj1, hji, hjn, hj⟩ := hwatch1 f cr2 e
                  exact ⟨hs, j, hj1, by omega, hjn, hj⟩)
            exact r
    · rw [if_neg hin]
      exact ⟨hD, ⟨hpool, fun f cr hcr => (hwatch f cr hcr).1⟩, rfl⟩

theorem Compacted_refl (s : Solver) : Compacted s s :=
  ⟨rfl, rfl, rfl, rfl, rfl, rfl, fun f _ h => ⟨f, h⟩, rfl, fun _ h => h, rfl⟩

theorem Compacted_trans {s t u : Solver} (h1 : Compacted s t) (h2 : Compacted t u) :
    Compacted s u := by
  constructor
  · rw [h2.data, h1.data]
  · rw [h2.size, h1.size]
  · rw [h2.model, h1.model]
  · rw [h2.funcs, h1.funcs]
  · rw [h2.names, h1.names]
  · rw [h2.level, h1.level]
  · intro f cr hcr
    obtain ⟨g, hg⟩ := h2.watch f cr hcr
    exact h1.watch g cr hg
  · rw [h2.pool, h1.pool]
  · intro a ha
    exact h1.mem a (h2.mem a ha)
  · rw [h2.len, h1.len]

/-- The exchange of two trail entries in the third loop of `Init`. -/
theorem Compacted_swap (s : Solver) (i j : Nat) (hi : i < s.trail_.length)
    (hj : j < s.trail_.length) :
    Compacted s ({ s with
      trail_ := (s.trail_.set i (s.trail_.getD j Literal.null)).set j
        (s.trail_.getD i Literal.null) } : Solver) := by
  refine ⟨rfl, rfl, rfl, rfl, rfl, rfl, fun f _ h => ⟨f, h⟩, rfl, ?_, ?_⟩
  · intro a ha
    rcases List.mem_or_eq_of_mem_set ha with ha | ha
    · rcases List.mem_or_eq_of_mem_set ha with ha | ha
      · exact ha
      · rw [ha]
        exact getD_mem _ _ _ hj
    · rw [ha]
      exact getD_mem _ _ _ hi
  · show ((s.trail_.set i _).set j _).length = _
    rw [List.length_set, List.length_set]

theorem mem_RemoveWatchers (s : Solver) (cr : Int) (c : Clause) (g : Nat) (x : Int)
    (h : x ∈ (s.RemoveWatchers cr c).watchers_.getD g []) : x ∈ s.watchers_.getD g [] := by
  unfold RemoveWatchers at h
  dsimp only at h
  have h1 : ∀ y, y ∈ (s.watchers_.set (c.get 0).lhs
      ((s.watchers_.getD (c.get 0).lhs []).erase cr)).getD g [] → y ∈ s.watchers_.getD g [] := by
    intro y hy
    rw [getD_set_eq] at hy
    split at hy
    · rename_i e
      rw [← e.1]
      exact List.mem_of_mem_erase hy
    · exact hy
  rw [getD_set_eq] at h
  split at h
  · rename_i e
    have := List.mem_of_mem_erase h
    rw [e.1] at this
    exact h1 x this
  · exact h1 x h

/-- The removal of a clause in the third loop of `Init`. -/
theorem Compacted_remove (s : Solver) (cr : Int) (c : Clause) (k : Nat) :
    Compacted s (({ s.RemoveWatchers cr c with
      clause_factory_ := (s.RemoveWatchers cr c).clause_factory_.Delete cr } : Solver).swapClauses
        cr.toNat k) :=
  ⟨rfl, rfl, rfl, rfl, rfl, rfl, fun f x h => ⟨f, mem_RemoveWatchers s cr c f x h⟩, rfl,
    fun _ h => h, rfl⟩

/-- The third loop of `Init` rearranges the trail and removes clauses, and touches nothing else that
the invariant looks at. -/
theorem InitCompact_compacted : ∀ (fuel : Nat) (s : Solver) (i nu nc : Nat),
    nu ≤ s.trail_.length →
    Compacted s (InitCompact fuel s i nu nc).1 ∧ (InitCompact fuel s i nu nc).2.1 ≤ nu ∧
      (InitCompact fuel s i nu nc).2.2 ≤ nc := by
  intro fuel
  induction fuel with
  | zero =>
    intro s i nu nc _
    exact ⟨Compacted_refl s, Nat.le_refl _, Nat.le_refl _⟩
  | succ fuel ih =>
    intro s i nu nc hnu
    unfold InitCompact
    split
    · rename_i hi
      dsimp only
      have key : ∀ (s1 : Solver) (i1 nu1 : Nat), Compacted s s1 → nu1 ≤ nu →
          Compacted s (if (s1.reason_of (s.trail_.getD i Literal.null) != kNullRef &&
              s1.reason_of (s.trail_.getD i Literal.null) != kDomainRef) = true then
            InitCompact fuel
              (({ s1.RemoveWatchers (s1.reason_of (s.trail_.getD i Literal.null))
                    (s1.clause (s1.reason_of (s.trail_.getD i Literal.null))) with
                  clause_factory_ :=
                    (s1.RemoveWatchers (s1.reason_of (s.trail_.getD i Literal.null))
                      (s1.clause (s1.reason_of (s.trail_.getD i Literal.null)))).clause_factory_.Delete
                        (s1.reason_of (s.trail_.getD i Literal.null)) } : Solver).swapClauses
                (s1.reason_of (s.trail_.getD i Literal.null)).toNat (nc - 1)) i1 nu1 (nc - 1)
          else InitCompact fuel s1 i1 nu1 nc).1 ∧
          (if (s1.reason_of (s.trail_.getD i Literal.null) != kNullRef &&
              s1.reason_of (s.trail_.getD i Literal.null) != kDomainRef) = true then
            InitCompact fuel
              (({ s1.RemoveWatchers (s1.reason_of (s.trail_.getD i Literal.null))
                    (s1.clause (s1.reason_of (s.trail_.getD i Literal.null))) with
                  clause_factory_ :=
                    (s1.RemoveWatchers (s1.reason_of (s.trail_.getD i Literal.null))
                      (s1.clause (s1.reason_of (s.trail_.getD i Literal.null)))).clause_factory_.Delete
                        (s1.reason_of (s.trail_.getD i Literal.null)) } : Solver).swapClauses
                (s1.reason_of (s.trail_.getD i Literal.null)).toNat (nc - 1)) i1 nu1 (nc - 1)
          else InitCompact fuel s1 i1 nu1 nc).2.1 ≤ nu ∧
          (if (s1.reason_of (s.trail_.getD i Literal.null) != kNullRef &&
              s1.reason_of (s.trail_.getD i Literal.null) != kDomainRef) = true then
            InitCompact fuel
              (({ s1.RemoveWatchers (s1.reason_of (s.trail_.getD i Literal.null))
                    (s1.clause (s1.reason_of (s.trail_.getD i Literal.null))) with
                  clause_factory_ :=
                    (s1.RemoveWatchers (s1.reason_of (s.trail_.getD i Literal.null))
                      (s1.clause (s1.reason_of (s.trail_.getD i Literal.null)))).clause_factory_.Delete
                        (s1.reason_of (s.trail_.getD i Literal.null)) } : Solver).swapClauses
                (s1.reason_of (s.trail_.getD i Literal.null)).toNat (nc - 1)) i1 nu1 (nc - 1)
          else InitCompact fuel s1 i1 nu1 nc).2.2 ≤ nc := by
        intro s1 i1 nu1 hc hn1
        have hlen1 : nu1 ≤ s1.trail_.length := by
          rw [hc.len]
          omega
        split
        · have hc3 := Compacted_remove s1 (s1.reason_of (s.trail_.getD i Literal.null))
            (s1.clause (s1.reason_of (s.trail_.getD i Literal.null))) (nc - 1)
          have r := ih _ i1 nu1 (nc - 1) (by rw [hc3.len]; exact hlen1)
          exact ⟨Compacted_trans hc (Compacted_trans hc3 r.1), Nat.le_trans r.2.1 hn1,
            Nat.le_trans r.2.2 (Nat.sub_le _ _)⟩
        · have r := ih s1 i1 nu1 nc hlen1
          exact ⟨Compacted_trans hc r.1, Nat.le_trans r.2.1 hn1, r.2.2⟩
      by_cases hdrop : (!(s.trail_.getD i Literal.null).pos &&
          s.model (s.trail_.getD i Literal.null).lhs != 0) = true
      · simp only [hdrop, if_true]
        exact key _ i (nu - 1) (Compacted_swap s i (nu - 1) (by omega) (by omega))
          (Nat.sub_le _ _)
      · simp only [hdrop, if_false]
        exact key s (i + 1) nu (Compacted_refl s) (Nat.le_refl _)
    · exact ⟨Compacted_refl s, Nat.le_refl _, Nat.le_refl _⟩

theorem Register_watchers (s : Solver) (srt f n e : Nat) (g : Nat) :
    (s.Register srt f n e).watchers_.getD g [] = s.watchers_.getD g [] := by
  have h := (Ext_CapacitateMaps s srt f n e).watch
  unfold Register
  dsimp only
  generalize s.CapacitateMaps srt f n e = s1 at h ⊢
  split
  · exact h g
  · exact h g

theorem Register_clauses (s : Solver) (srt f n e : Nat) :
    (s.Register srt f n e).clauses_ = s.clauses_ := by
  have h := (Ext_CapacitateMaps s srt f n e).clauses
  unfold Register
  dsimp only
  generalize s.CapacitateMaps srt f n e = s1 at h ⊢
  split
  · exact h
  · exact h

/-- What `AddLiteral` and `AddClause` keep of the clause list: no clause is watched, and the
entries behind the null reference are pairwise distinct references into the factory to
clauses that are not marked valid. -/
theorem Loaded_step (s t : Solver)
    (h : (∀ g, s.watchers_.getD g [] = []) ∧
      (∀ k, k < s.clauses_.length → ∀ j, j < k → 1 ≤ j →
        (s.clauses_.getD j 0).toNat ≠ (s.clauses_.getD k 0).toNat) ∧
      (∀ j, j < s.clauses_.length → 1 ≤ j → (s.clause (s.clauses_.getD j 0)).valid = false ∧
        (s.clauses_.getD j 0).toNat < s.clause_factory_.pool.length) ∧ 1 ≤ s.clauses_.length)
    (hw : ∀ g, t.watchers_.getD g [] = s.watchers_.getD g [])
    (hc : t.clauses_ = s.clauses_)
    (hp : ∃ l, t.clause_factory_.pool = s.clause_factory_.pool ++ l) :
    (∀ g, t.watchers_.getD g [] = []) ∧
      (∀ k, k < t.clauses_.length → ∀ j, j < k → 1 ≤ j →
        (t.clauses_.getD j 0).toNat ≠ (t.clauses_.getD k 0).toNat) ∧
      (∀ j, j < t.clauses_.length → 1 ≤ j → (t.clause (t.clauses_.getD j 0)).valid = false ∧
        (t.clauses_.getD j 0).toNat < t.clause_factory_.pool.length) ∧ 1 ≤ t.clauses_.length := by
  obtain ⟨l, hl⟩ := hp
  refine ⟨fun g => (hw g).trans (h.1 g), ?_, ?_, ?_⟩
  · rw [hc]
    exact h.2.1
  · rw [hc]
    intro j hj hj1
    obtain ⟨a1, a2⟩ := h.2.2.1 j hj hj1
    refine ⟨?_, by rw [hl, List.length_append]; omega⟩
    have : t.clause (s.clauses_.getD j 0) = s.clause (s.clauses_.getD j 0) := by
      unfold clause Factory.get
      rw [hl, List.getD_append _ _ _ _ a2]
    rw [this]
    exact a1
  · rw [hc]
    exact h.2.2.2

theorem foldl_Register_static (sort extra_name : Nat → Nat) (lits : List Literal) :
    ∀ s : Solver,
      (∀ g, (lits.foldl
        (fun t a => t.Register (sort a.lhs) a.lhs a.rhs (extra_name (sort a.lhs)))
          s).watchers_.getD g [] = s.watchers_.getD g []) ∧
      (lits.foldl
        (fun t a => t.Register (sort a.lhs) a.lhs a.rhs (extra_name (sort a.lhs)))
          s).clauses_ = s.clauses_ ∧
      (lits.foldl
        (fun t a => t.Register (sort a.lhs) a.lhs a.rhs (extra_name (sort a.lhs)))
          s).clause_factory_ = s.clause_factory_ := by
  induction lits with
  | nil =>
    intro s
    exact ⟨fun _ => rfl, rfl, rfl⟩
  | cons x xs ih =>
    intro s
    rw [List.foldl_cons]
    obtain ⟨r1, r2, r3⟩ := ih (s.Register (sort x.lhs) x.lhs x.rhs (extra_name (sort x.lhs)))
    exact ⟨fun g => (r1 g).trans (Register_watchers _ _ _ _ _ g),
      r2.trans (Register_clauses _ _ _ _ _), r3.trans (Register_factory _ _ _ _ _)⟩

/-- Every solver that was loaded through `AddLiteral` and `AddClause` is ready for `Init`. -/
theorem Loaded_InitReady {sort extra_name : Nat → Nat} {s : Solver}
    (h : Loaded sort extra_name s) : InitReady s := by
  have key : (∀ g, s.watchers_.getD g [] = []) ∧
      (∀ k, k < s.clauses_.length → ∀ j, j < k → 1 ≤ j →
        (s.clauses_.getD j 0).toNat ≠ (s.clauses_.getD k 0).toNat) ∧
      (∀ j, j < s.clauses_.length → 1 ≤ j → (s.clause (s.clauses_.getD j 0)).valid = false ∧
        (s.clauses_.getD j 0).toNat < s.clause_factory_.pool.length) ∧
      1 ≤ s.clauses_.length := by
    induction h with
    | fresh =>
      refine ⟨?_, ?_, ?_, ?_⟩
      · intro g
        show ([] : List (List Int)).getD g [] = []
        simp
      · intro k hk j hj hj1
        have : k < 1 := hk
        omega
      · intro j hj hj1
        have : j < 1 := hj
        omega
      · exact Nat.le_refl _
    | literal s a _ ih =>
      unfold AddLiteral
      split
      · exact ih
      · split
        · exact Loaded_step s _ ih (fun _ => rfl) rfl ⟨[], by simp⟩
        · exact Loaded_step s _ ih (fun g => Register_watchers _ _ _ _ _ g)
            (Register_clauses _ _ _ _ _) ⟨[], by rw [Register_factory]; simp; rfl⟩
    | clause s as _ hsz ih =>
      have hlit : ∀ a, (∀ g, (AddLiteral sort extra_name s a).watchers_.getD g [] = []) ∧
          (∀ k, k < (AddLiteral sort extra_name s a).clauses_.length → ∀ j, j < k → 1 ≤ j →
            ((AddLiteral sort extra_name s a).clauses_.getD j 0).toNat
              ≠ ((AddLiteral sort extra_name s a).clauses_.getD k 0).toNat) ∧
          (∀ j, j < (AddLiteral sort extra_name s a).clauses_.length → 1 ≤ j →
            ((AddLiteral sort extra_name s a).clause
              ((AddLiteral sort extra_name s a).clauses_.getD j 0)).valid = false ∧
            ((AddLiteral sort extra_name s a).clauses_.getD j 0).toNat
              < (AddLiteral sort extra_name s a).clause_factory_.pool.length) ∧
          1 ≤ (AddLiteral sort extra_name s a).clauses_.length := by
        intro a
        unfold AddLiteral
        split
        · exact ih
        · split
          · exact Loaded_step s _ ih (fun _ => rfl) rfl ⟨[], by simp⟩
          · exact Loaded_step s _ ih (fun g => Register_watchers _ _ _ _ _ g)
              (Register_clauses _ _ _ _ _) ⟨[], by rw [Register_factory]; simp; rfl⟩
      unfold AddClause
      split
      · exact Loaded_step s _ ih (fun _ => rfl) rfl ⟨[], by simp⟩
      · split
        · exact hlit _
        · dsimp only
          rw [clause_New]
          have hnew : ∃ l, (s.clause_factory_.New as).2.pool = s.clause_factory_.pool ++ l :=
            ⟨[Clause.Normalize as], rfl⟩
          split
          · exact Loaded_step s _ ih (fun _ => rfl) rfl hnew
          · rename_i hv
            split
            · exact Loaded_step s _ ih (fun _ => rfl) rfl hnew
            · split
              · rename_i h1
                exact absurd (by simpa using h1) hsz
              · obtain ⟨r1, r2, r3⟩ := foldl_Register_static sort extra_name
                  (Clause.Normalize as).lits
                  ({ ({ s with clause_factory_ := (s.clause_factory_.New as).2 } : Solver) with
                      clauses_ := s.clauses_ ++ [(s.clause_factory_.New as).1] } : Solver)
                generalize (Clause.Normalize as).lits.foldl
                  (fun t a => t.Register (sort a.lhs) a.lhs a.rhs (extra_name (sort a.lhs)))
                  ({ ({ s with clause_factory_ := (s.clause_factory_.New as).2 } : Solver) with
                      clauses_ := s.clauses_ ++ [(s.clause_factory_.New as).1] } : Solver) = t
                  at r1 r2 r3 ⊢
                have r2' : t.clauses_ = s.clauses_ ++ [(s.clause_factory_.pool.length : Int)] := r2
                have r3' : t.clause_factory_.pool
                    = s.clause_factory_.pool ++ [Clause.Normalize as] := by
                  rw [r3]
                  rfl
                have hget : ∀ j, j < s.clauses_.length →
                    t.clauses_.getD j 0 = s.clauses_.getD j 0 := by
                  intro j hj
                  rw [r2', List.getD_append _ _ _ _ hj]
                have hlast : t.clauses_.getD s.clauses_.length 0
                    = (s.clause_factory_.pool.length : Int) := by
                  rw [r2', List.getD_eq_getElem?_getD,
                    List.getElem?_append_right (Nat.le_refl _)]
                  simp
                have hlen : t.clauses_.length = s.clauses_.length + 1 := by
                  rw [r2', List.length_append, List.length_singleton]
                have hcl : ∀ cr : Int, t.clause cr
                    = (s.clause_factory_.pool ++ [Clause.Normalize as]).getD cr.toNat
                      ⟨false, []⟩ := by
                  intro cr
                  unfold clause Factory.get
                  rw [r3']
                refine ⟨fun g => (r1 g).trans (ih.1 g), ?_, ?_, by omega⟩
                · intro k hk j hj hj1
                  rw [hlen] at hk
                  rw [hget j (by omega)]
                  by_cases e : k = s.clauses_.length
                  · rw [e, hlast]
                    have := (ih.2.2.1 j (by omega) hj1).2
                    simp only [Int.toNat_ofNat]
                    omega
                  · rw [hget k (by omega)]
                    exact ih.2.1 k (by omega) j hj hj1
                · intro j hj hj1
                  rw [hlen] at hj
                  rw [r3', List.length_append, List.length_singleton]
                  by_cases e : j = s.clauses_.length
                  · rw [e, hlast, hcl]
                    simp only [Int.toNat_ofNat]
                    refine ⟨?_, by omega⟩
                    rw [List.getD_eq_getElem?_getD, List.getElem?_append_right (Nat.le_refl _)]
                    simp only [Nat.sub_self, List.getElem?_cons_zero, Option.getD_some]
                    cases hx : (Clause.Normalize as).valid
                    · rfl
                    · exact absurd hx hv
                  · rw [hget j (by omega), hcl]
                    obtain ⟨a1, a2⟩ := ih.2.2.1 j (by omega) hj1
                    refine ⟨?_, by omega⟩
                    rw [List.getD_append _ _ _ _ a2]
                    exact a1
  refine ⟨?_, key.2.1, fun j hj hj1 => (key.2.2.1 j hj hj1).1⟩
  intro ws hws
  obtain ⟨i, hi, e⟩ := List.getElem_of_mem hws
  have := key.1 i
  rw [List.getD_eq_getElem _ _ hi, e] at this
  exact this

theorem resize_length_self {α : Type} (null : α) (v : List α) : resize null v.length v = v := by
  rw [resize_of_le _ _ _ (Nat.le_refl _), List.take_length]

theorem unwatched_of_InitReady (s : Solver) (h : InitReady s) (f : Nat) :
    s.watchers_.getD f [] = [] := by
  by_cases hf : f < s.watchers_.length
  · exact h.1 _ (getD_mem _ _ _ hf)
  · exact List.getD_eq_default _ _ (Nat.le_of_not_lt hf)

/-- The first part of `Init`, at the root level of a solver that is `InitReady`, keeps the
invariant of the counts and establishes the invariant of the clauses. -/
theorem DomInv_InitLoad (sort : Nat → Nat) (s : Solver) (h : DomInv s ∧ ClauseInv s)
    (hl : s.current_level = kRootLevel) (hr : InitReady s) :
    DomInv (InitLoad sort s).1 ∧ ClauseInv (InitLoad sort s).1 ∧
      (InitLoad sort s).1.level_size_ = [0] := by
  have hls := level_root h.1 hl
  have h0 : DomInv ({ s with trail_ := [] } : Solver) :=
    DomInv_root _ (DataInv_frame h.1.dat rfl rfl rfl rfl rfl) hls
      (fun a ha => absurd ha (List.not_mem_nil a))
  have c0 : ClauseInv ({ s with trail_ := [] } : Solver) := ⟨h.2.pool, h.2.watch⟩
  have r1 := DomInv_InitUnits sort s.trail_ ({ s with trail_ := [] } : Solver) h0
    (fun a ha hp => h.1.trocc a ha hp)
  have c1 := ClauseInv_InitUnits sort s.trail_ ({ s with trail_ := [] } : Solver) c0
  have st := InitUnits_static sort s.trail_ ({ s with trail_ := [] } : Solver)
  have hlv : (InitUnits sort s.trail_ ({ s with trail_ := [] } : Solver)).1.level_size_ = [0] := by
    rw [r1.2]
    exact hls
  unfold InitLoad
  dsimp only
  generalize InitUnits sort s.trail_ ({ s with trail_ := [] } : Solver) = q at r1 c1 st hlv ⊢
  obtain ⟨st1, st2, st3⟩ := st
  have st1' : q.1.watchers_ = s.watchers_ := st1
  have st2' : q.1.clause_factory_ = s.clause_factory_ := st2
  have st3' : q.1.clauses_ = s.clauses_ := st3
  have hcl : ∀ cr, q.1.clause cr = s.clause cr := by
    intro cr
    unfold clause
    rw [st2']
  split
  · exact ⟨r1.1, c1, hlv⟩
  · have r2 := InitClauses_inv sort q.1.clauses_.length q.1 1 q.1.clauses_.length r1.1 c1.pool
      (Nat.le_refl _) (Nat.le_refl _)
      (by
        intro k hk j hj hj1
        rw [st3'] at hk ⊢
        exact hr.2.1 k hk j hj hj1)
      (by
        intro j hj hj1
        rw [st3'] at hj ⊢
        rw [hcl]
        exact hr.2.2 j hj hj1)
      (by
        intro f cr hcr
        rw [st1', unwatched_of_InitReady s hr f] at hcr
        exact absurd hcr (List.not_mem_nil cr))
    generalize InitClauses sort q.1.clauses_.length q.1 1 q.1.clauses_.length = q2 at r2 ⊢
    obtain ⟨a1, a2, a3⟩ := r2
    split
    · exact ⟨a1, a2, a3.trans hlv⟩
    · exact ⟨DomInv_frame a1 rfl rfl rfl rfl rfl rfl rfl, ⟨a2.pool, a2.watch⟩, a3.trans hlv⟩

/-- `Init` at the root level of a solver that is `InitReady` keeps the invariant of the counts
and establishes the invariant of the clauses. -/
theorem DomInv_Init (sort : Nat → Nat) (s : Solver) (h : DomInv s ∧ ClauseInv s)
    (hl : s.current_level = kRootLevel) (hr : InitReady s) :
    DomInv (Init sort s) ∧ ClauseInv (Init sort s) := by
  have r := DomInv_InitLoad sort s h hl hr
  unfold Init
  dsimp only
  generalize InitLoad sort s = q at r ⊢
  obtain ⟨q1, q2, q3⟩ := r
  split
  · exact ⟨q1, q2⟩
  · have p := DomInv_Propagate sort q.1 ⟨q1, q2⟩
    generalize (Propagate sort q.1).1 = s3 at p ⊢
    obtain ⟨⟨p1, p2⟩, p3⟩ := p
    have c := InitCompact_compacted s3.trail_.length s3 0 s3.trail_.length q.2.1 (Nat.le_refl _)
    generalize InitCompact s3.trail_.length s3 0 s3.trail_.length q.2.1 = r3 at c ⊢
    obtain ⟨c1, c2, c3⟩ := c
    have hdat : ∀ f n, r3.1.data f n = s3.data f n := fun f n => data_congr c1.data f n
    constructor
    · apply DomInv_root
      · exact DataInv_frame p1.dat c1.data c1.size (by rw [c1.model]) (by rw [c1.funcs])
          (by rw [c1.names])
      · show r3.1.level_size_ = [0]
        rw [c1.level, p3, q3]
      · intro a ha hpos
        have ha' : a ∈ resize Literal.null r3.2.1 r3.1.trail_ := ha
        rw [resize_of_le _ _ _ (by rw [c1.len]; exact c2)] at ha'
        have hmem := c1.mem a (List.mem_of_mem_take ha')
        show (r3.1.data a.lhs a.rhs).occurs = true
        rw [hdat]
        exact p1.trocc a hmem hpos
    · constructor
      · intro c hc a ha
        have hc' : c ∈ r3.1.clause_factory_.pool := hc
        rw [c1.pool] at hc'
        show (r3.1.data a.lhs a.rhs).occurs = true
        rw [hdat]
        exact p2.pool c hc' a ha
      · intro f cr hcr
        have hcr' : cr ∈ r3.1.watchers_.getD f [] := hcr
        obtain ⟨g, hg⟩ := c1.watch f cr hcr'
        have e : ∀ t : Solver, t.clause_factory_ = r3.1.clause_factory_ →
            t.clause cr = s3.clause cr := by
          intro t ht
          unfold clause Factory.get
          rw [ht, c1.pool]
        have := p2.watch g cr hg
        rw [← e _ rfl] at this
        exact this

/-- Every reachable state satisfies the invariant of the counts and the invariant of the
clauses. -/
theorem DomInv_of_Reach (sort : Nat → Nat) (s : Solver) (h : Reach sort s) :
    DomInv s ∧ ClauseInv s := by
  induction h with
  | fresh =>
    constructor
    · apply DomInv_root
      · refine ⟨⟨rfl, rfl, fun row hrow => absurd hrow (List.not_mem_nil row)⟩, rfl, ?_, ?_, ?_⟩
        · intro f
          rfl
        · intro f n hn
          have : (init.data f n) = Data.null := by
            unfold data init
            simp
          rw [this] at hn
          exact absurd hn (by decide)
        · intro f n hn
          have : (init.data f n) = Data.null := by
            unfold data init
            simp
          rw [this] at hn
          exact absurd hn (by decide)
      · rfl
      · intro a ha
        exact absurd ha (List.not_mem_nil a)
    · constructor
      · intro c hc a ha
        have hc' : c ∈ [(⟨false, []⟩ : Clause)] := hc
        rw [List.mem_singleton.mp hc'] at ha
        exact absurd ha (List.not_mem_nil a)
      · intro f cr hcr
        have hcr' : cr ∈ ([] : List (List Int)).getD f [] := hcr
        simp at hcr'
  | register s srt f n e _ hf hn he ih =>
    exact ⟨DomInv_Register s srt f n e ih.1 hf hn he,
      ClauseInv_Register s srt f n e ih.2 ih.1.dat hf hn he⟩
  | literal s extra_name a _ hl hf hn he ih =>
    exact ⟨DomInv_AddLiteral sort extra_name s a ih.1 hl hf hn he,
      ClauseInv_AddLiteral sort extra_name s a ih.2 ih.1.dat hf hn he⟩
  | clause s extra_name as _ hsz h2 hnn ih => exact DomInv_AddClause sort extra_name s as ih hsz h2 hnn
  | enqueue s a reason _ hfals hocc ih =>
    exact ⟨DomInv_Enqueue sort s a reason ih.1 hfals hocc, ClauseInv_Enqueue sort s a reason ih.2⟩
  | level s _ ih => exact ⟨DomInv_NewLevel s ih.1, ClauseInv_NewLevel s ih.2⟩
  | backtrack s l _ h1 hl ih => exact ⟨DomInv_Backtrack s l ih.1 h1 hl, ClauseInv_Backtrack s l ih.2⟩
  | init s _ hl hr ih => exact DomInv_Init sort s ih hl hr

/-- C20 (counterexample): the function `f = 1` is registered for the names `1` and `9` only, so
that `domain_size_[f] = 2` counts the names that occur and are not excluded. The literal
`f ≠ 2` is not falsified, but its pair is not registered; after `Enqueue(f ≠ 2)` the entry
`domain_size_[f]` is `1` while two names still occur and are not excluded. The same happens in
`Init` for the solver loaded with `f ≠ 5 ∨ f ≠ 5`, `f = 1 ∨ g = 1` and `g ≠ 1`, where
`AddClause` has put the literal `f ≠ 5` on the trail without registering it. -/
theorem C20_unregistered_literal_breaks_count :
    DenseSet.Contains twoNamesInput.funcs_ 1 = true ∧
    twoNamesInput.falsifies ⟨false, 1, 2⟩ (-1) = false ∧
    (twoNamesInput.data 1 2).occurs = false ∧
    twoNamesInput.domain_size_.getD 1 0 = 2 ∧
    freeCount (twoNamesInput.data_.getD 1 []) = 2 ∧
    (Enqueue oneSort twoNamesInput ⟨false, 1, 2⟩ kNullRef).domain_size_.getD 1 0 = 1 ∧
    freeCount ((Enqueue oneSort twoNamesInput ⟨false, 1, 2⟩ kNullRef).data_.getD 1 []) = 2 ∧
    InitReady repeatedLiteralInput ∧
    DenseSet.Contains repeatedLiteralInput.funcs_ 1 = true ∧
    repeatedLiteralInput.domain_size_.getD 1 0 = 2 ∧
    freeCount (repeatedLiteralInput.data_.getD 1 []) = 2 ∧
    (Init oneSort repeatedLiteralInput).domain_size_.getD 1 0 = 1 ∧
    freeCount ((Init oneSort repeatedLiteralInput).data_.getD 1 []) = 2 := by
  decide!

/-- C20 (amended): in every state reached from the fresh solver by `Register` with non-null terms,
`AddLiteral` at the root level, `AddClause` with at least two literals of non-null terms that
do not normalise to a single literal, `Enqueue` of a literal that is not falsified and, when
negative, has a registered pair, `NewLevel`, `Backtrack` to a level below the current one, and
`Init` at the root level of a solver that watches no clause yet, `domain_size_[f]` is the
number of names `n` with `data_[f][n].occurs` and not `data_[f][n].model_neq`, for every
function `f`. -/
theorem C20_domain_size_invariant (sort : Nat → Nat) (s : Solver) (h : Reach sort s) (f : Nat) :
    s.domain_size_.getD f 0 = freeCount (s.data_.getD f []) :=
  (DomInv_of_Reach sort s h).1.dat.count f

/-- Witness for C20: the solver loaded with the clauses `g = 2 ∨ f = 3`, `g = 3 ∨ f ≠ 3` and
`g = 3 ∨ h = 1 ∨ f = 2` and the unit `g ≠ 3`, on which `Init` enqueues `f ≠ 3` in its loop
over the clauses, propagates `g = 2` and goes on watching a clause, followed by `NewLevel`,
`Enqueue(f ≠ 2)`, which propagates `f = 9`, and `Backtrack(1)`: the state is reachable, and
`domain_size_[f]` is `2` again. -/
theorem C20_domain_size_invariant_witness :
    Reach oneSort (compactedScenario.Backtrack 1) ∧
    (compactedScenario.Backtrack 1).domain_size_.getD 1 0
      = freeCount ((compactedScenario.Backtrack 1).data_.getD 1 []) ∧
    (Init oneSort compactedInput).watchers_ = [[], [3], [], [3]] ∧
    (Init oneSort compactedInput).domain_size_.getD 1 0 = 2 ∧
    compactedScenario.domain_size_.getD 1 0 = 1 ∧
    compactedScenario.model 1 = 9 ∧
    (compactedScenario.Backtrack 1).domain_size_.getD 1 0 = 2 :=
  have h1 : Reach oneSort
      (AddClause oneSort extraNine init [⟨true, 2, 2⟩, ⟨true, 1, 3⟩]) :=
    Reach.clause _ extraNine _ Reach.fresh (by decide) (by decide) (by decide)
  have h2 : Reach oneSort
      (AddClause oneSort extraNine
        (AddClause oneSort extraNine init [⟨true, 2, 2⟩, ⟨true, 1, 3⟩])
        [⟨true, 2, 3⟩, ⟨false, 1, 3⟩]) :=
    Reach.clause _ extraNine _ h1 (by decide) (by decide) (by decide)
  have h3 : Reach oneSort
      (AddClause oneSort extraNine
        (AddClause oneSort extraNine
          (AddClause oneSort extraNine init [⟨true, 2, 2⟩, ⟨true, 1, 3⟩])
          [⟨true, 2, 3⟩, ⟨false, 1, 3⟩])
        [⟨true, 2, 3⟩, ⟨true, 3, 1⟩, ⟨true, 1, 2⟩]) :=
    Reach.clause _ extraNine _ h2 (by decide) (by decide) (by decide)
  have h4 : Reach oneSort compactedInput :=
    Reach.literal _ extraNine ⟨false, 2, 3⟩ h3 (by decide!) (by decide) (by decide) (by decide)
  have hr : Reach oneSort (compactedScenario.Backtrack 1) :=
    Reach.backtrack _ 1
      (Reach.enqueue _ ⟨false, 1, 2⟩ kNullRef
        (Reach.level _ (Reach.init _ h4 (by decide!) (by decide!)))
        (by decide!) (fun _ => by decide!))
      (by decide) (by decide!)
  ⟨hr, C20_domain_size_invariant oneSort _ hr 1, by decide!, by decide!, by decide!, by decide!,
    by decide!⟩


end Solver
namespace Solver

/-! ### Conflict analysis: the scratch flags -/

theorem AnalyzeLoop_succ (sort : Nat → Nat) (fuel : Nat) (st : AnalyzeState) (conflict : Int) :
    AnalyzeLoop sort (fuel + 1) st conflict
      = if (AnalyzeRound sort st conflict).depth > 0 then
          AnalyzeLoop sort fuel (AnalyzeRound sort st conflict)
            ((AnalyzeRound sort st conflict).s.reason_of (AnalyzeRound sort st conflict).trail_a)
        else AnalyzeRound sort st conflict := rfl

theorem Bump_data_ (s : Solver) (f : Nat) : (s.Bump f).data_ = s.data_ := by
  unfold Bump
  dsimp only
  rw [orderIncrease_data_]
  split <;> rfl

theorem filter_length_set (p : Data → Bool) (row : List Data) (n : Nat) (d : Data)
    (h : n < row.length) :
    ((row.set n d).filter p).length + (if p (row.getD n Data.null) then 1 else 0)
      = (row.filter p).length + (if p d then 1 else 0) := by
  induction row generalizing n with
  | nil => exact absurd h (Nat.not_lt_zero n)
  | cons x xs ih =>
    cases n with
    | zero =>
      simp only [List.set_cons_zero, List.getD_cons_zero, List.filter_cons]
      by_cases hx : p x = true <;> by_cases hd : p d = true <;> simp [hx, hd]
    | succ n =>
      have e := ih n (Nat.lt_of_succ_lt_succ h)
      simp only [List.set_cons_succ, List.getD_cons_succ, List.filter_cons]
      by_cases hx : p x = true
      · simp only [hx, if_true, List.length_cons]
        omega
      · simp only [hx, if_false]
        exact e

theorem sum_map_set (c : List Data → Nat) (l : List (List Data)) (f : Nat) (row : List Data)
    (h : f < l.length) :
    ((l.set f row).map c).sum + c (l.getD f []) = (l.map c).sum + c row := by
  induction l generalizing f with
  | nil => exact absurd h (Nat.not_lt_zero f)
  | cons x xs ih =>
    cases f with
    | zero =>
      simp only [List.set_cons_zero, List.getD_cons_zero, List.map_cons, List.sum_cons]
      omega
    | succ f =>
      have e := ih f (Nat.lt_of_succ_lt_succ h)
      simp only [List.set_cons_succ, List.getD_cons_succ, List.map_cons, List.sum_cons]
      omega

theorem set_getD_self {α : Type} (l : List α) (i : Nat) (d : α) : l.set i (l.getD i d) = l := by
  induction l generalizing i with
  | nil => rfl
  | cons x xs ih =>
    cases i with
    | zero => rfl
    | succ i =>
      simp only [List.set_cons_succ, List.getD_cons_succ]
      rw [ih]

/-- The number of `wanted` flags after `data_[f][n] = d`. -/
theorem wantedCount_setData (s : Solver) (f n : Nat) (d : Data) :
    (s.setData f n d).wantedCount + (if (s.data f n).wanted then 1 else 0)
      = s.wantedCount
        + (if (f < s.data_.length ∧ n < (s.data_.getD f []).length) ∧ d.wanted = true then 1
          else 0) := by
  unfold wantedCount
  by_cases hf : f < s.data_.length
  · by_cases hn : n < (s.data_.getD f []).length
    · have e1 := sum_map_set (fun row => (row.filter (fun d => d.wanted)).length) s.data_ f
        ((s.data_.getD f []).set n d) hf
      have e2 := filter_length_set (fun d => d.wanted) (s.data_.getD f []) n d hn
      have e3 : (s.setData f n d).data_ = s.data_.set f ((s.data_.getD f []).set n d) := rfl
      rw [e3]
      have e4 : s.data f n = (s.data_.getD f []).getD n Data.null := rfl
      rw [e4]
      dsimp only at e1 e2
      by_cases hd : d.wanted = true
      · have hc : (f < s.data_.length ∧ n < (s.data_.getD f []).length) ∧ d.wanted = true :=
          ⟨⟨hf, hn⟩, hd⟩
        rw [if_pos hc]
        rw [if_pos hd] at e2
        omega
      · have hc : ¬ ((f < s.data_.length ∧ n < (s.data_.getD f []).length) ∧ d.wanted = true) :=
          fun h => hd h.2
        rw [if_neg hc]
        rw [if_neg hd] at e2
        omega
    · have e3 : (s.setData f n d).data_ = s.data_ := by
        unfold setData
        dsimp only
        rw [List.set_eq_of_length_le (Nat.le_of_not_lt hn), set_getD_self]
      have e4 : s.data f n = Data.null := by
        unfold data
        rw [List.getD_eq_default (s.data_.getD f []) _ (Nat.le_of_not_lt hn)]
      have hc : ¬ ((f < s.data_.length ∧ n < (s.data_.getD f []).length) ∧ d.wanted = true) :=
        fun h => hn h.1.2
      rw [e3, e4, if_neg hc]
      rfl
  · have e3 : (s.setData f n d).data_ = s.data_ := by
      unfold setData
      dsimp only
      rw [List.set_eq_of_length_le (Nat.le_of_not_lt hf)]
    have e4 : s.data f n = Data.null := by
      unfold data
      rw [List.getD_eq_default s.data_ _ (Nat.le_of_not_lt hf)]
      rfl
    have hc : ¬ ((f < s.data_.length ∧ n < (s.data_.getD f []).length) ∧ d.wanted = true) :=
      fun h => hf h.1.1
    rw [e3, e4, if_neg hc]
    rfl

/-- A property of the null entry holds for all entries of `data_` iff it holds for all pairs. -/
theorem data_entries (s : Solver) (P : Data → Prop) (hnull : P Data.null) :
    (∀ row ∈ s.data_, ∀ d ∈ row, P d) ↔ ∀ g k, P (s.data g k) := by
  constructor
  · intro h g k
    unfold data
    by_cases hg : g < s.data_.length
    · by_cases hk : k < (s.data_.getD g []).length
      · exact h _ (getD_mem _ _ _ hg) _ (getD_mem _ _ _ hk)
      · rw [List.getD_eq_default (s.data_.getD g []) _ (Nat.le_of_not_lt hk)]
        exact hnull
    · rw [List.getD_eq_default s.data_ _ (Nat.le_of_not_lt hg)]
      exact hnull
  · intro h row hrow d hd
    obtain ⟨g, hg, rfl⟩ := List.mem_iff_getElem.mp hrow
    obtain ⟨k, hk, rfl⟩ := List.mem_iff_getElem.mp hd
    have e := h g k
    unfold data at e
    rw [List.getD_eq_getElem _ _ hg, List.getD_eq_getElem _ _ hk] at e
    exact e

theorem flagsClear_iff (s : Solver) :
    s.flagsClear = true ↔
      ∀ g k, (s.data g k).seen_subsumed = false ∧ (s.data g k).wanted = false := by
  rw [← data_entries s (fun d => d.seen_subsumed = false ∧ d.wanted = false) ⟨rfl, rfl⟩]
  unfold flagsClear
  simp only [List.all_eq_true, Bool.and_eq_true, Bool.not_eq_true']

theorem wantedCount_eq_zero_iff (s : Solver) :
    s.wantedCount = 0 ↔ ∀ g k, (s.data g k).wanted = false := by
  rw [← data_entries s (fun d => d.wanted = false) rfl]
  unfold wantedCount
  rw [List.sum_eq_zero_iff]
  constructor
  · intro h row hrow d hd
    have e := h _ (List.mem_map.mpr ⟨row, hrow, rfl⟩)
    have e2 := List.eq_nil_of_length_eq_zero e
    cases hw : d.wanted
    · rfl
    · have : d ∈ row.filter (fun d => d.wanted) := List.mem_filter.mpr ⟨hd, hw⟩
      rw [e2] at this
      exact absurd this (List.not_mem_nil d)
  · intro h x hx
    obtain ⟨row, hrow, rfl⟩ := List.mem_map.mp hx
    rw [List.length_eq_zero, List.filter_eq_nil_iff]
    intro d hd
    rw [h row hrow d hd]
    decide

/-- Setting `wanted` in one entry keeps the flags `seen_subsumed` and adds at most one to the count. -/
theorem setWanted_spec (s : Solver) (f n : Nat) :
    (∀ g k, ((s.setData f n { s.data f n with wanted := true }).data g k).seen_subsumed
      = (s.data g k).seen_subsumed) ∧
    (s.setData f n { s.data f n with wanted := true }).wantedCount ≤ s.wantedCount + 1 := by
  constructor
  · intro g k
    rcases data_setData_or s f n g k { s.data f n with wanted := true } with e | ⟨rfl, rfl, e⟩
    · rw [e]
    · rw [e]
  · have e := wantedCount_setData s f n { s.data f n with wanted := true }
    have h1 : (if (s.data f n).wanted = true then 1 else 0) ≤ 1 := by
      split <;> omega
    have h2 : (if (f < s.data_.length ∧ n < (s.data_.getD f []).length) ∧
        ({ s.data f n with wanted := true } : Data).wanted = true then 1 else 0) ≤ 1 := by
      split <;> omega
    omega

theorem want_spec (s : Solver) (a : Literal) (l : Nat) :
    (∀ g k, ((s.want_complementary_on_level a l).data g k).seen_subsumed
      = (s.data g k).seen_subsumed) ∧
    (s.want_complementary_on_level a l).wantedCount ≤ s.wantedCount + 1 := by
  unfold want_complementary_on_level
  dsimp only
  split
  · exact setWanted_spec s _ _
  · split
    · exact setWanted_spec s _ _
    · exact setWanted_spec s _ _

theorem see_spec (s : Solver) (a : Literal) :
    (∀ g k, ((s.see_subsuming a).data g k).seen_subsumed = true →
      (s.data g k).seen_subsumed = true ∨ (a.lhs = g ∧ a.rhs = k)) ∧
    (s.see_subsuming a).wantedCount = s.wantedCount := by
  unfold see_subsuming
  constructor
  · intro g k h
    rcases data_setData_or s a.lhs a.rhs g k { s.data a.lhs a.rhs with seen_subsumed := true }
      with e | ⟨rfl, rfl, _⟩
    · rw [e] at h
      exact Or.inl h
    · exact Or.inr ⟨rfl, rfl⟩
  · have e := wantedCount_setData s a.lhs a.rhs { s.data a.lhs a.rhs with seen_subsumed := true }
    by_cases hc : a.lhs < s.data_.length ∧ a.rhs < (s.data_.getD a.lhs []).length
    · by_cases hw : (s.data a.lhs a.rhs).wanted = true
      · have hc2 : (a.lhs < s.data_.length ∧ a.rhs < (s.data_.getD a.lhs []).length) ∧
            ({ s.data a.lhs a.rhs with seen_subsumed := true } : Data).wanted = true := ⟨hc, hw⟩
        rw [if_pos hw, if_pos hc2] at e
        omega
      · have hc2 : ¬ ((a.lhs < s.data_.length ∧ a.rhs < (s.data_.getD a.lhs []).length) ∧
            ({ s.data a.lhs a.rhs with seen_subsumed := true } : Data).wanted = true) :=
          fun h => hw h.2
        rw [if_neg hw, if_neg hc2] at e
        omega
    · have hnull : s.data a.lhs a.rhs = Data.null := by
        unfold data
        by_cases hf : a.lhs < s.data_.length
        · rw [List.getD_eq_default (s.data_.getD a.lhs []) _
            (Nat.le_of_not_lt (fun h => hc ⟨hf, h⟩))]
        · rw [List.getD_eq_default s.data_ _ (Nat.le_of_not_lt hf)]
          rfl
      have hw : ¬ (s.data a.lhs a.rhs).wanted = true := by
        rw [hnull]
        decide
      have hc2 : ¬ ((a.lhs < s.data_.length ∧ a.rhs < (s.data_.getD a.lhs []).length) ∧
          ({ s.data a.lhs a.rhs with seen_subsumed := true } : Data).wanted = true) :=
        fun h => hc h.1
      rw [if_neg hw, if_neg hc2] at e
      omega

theorem wantedCount_Bump (s : Solver) (f : Nat) : (s.Bump f).wantedCount = s.wantedCount := by
  unfold wantedCount
  rw [Bump_data_]

/-- The branch of `handle_conflict` that adds the literal to the learnt clause. -/
theorem AnaInv_learnt (st : AnalyzeState) (a : Literal) (t : Solver)
    (ht : t.data_ = (st.s.see_subsuming a).data_) (h : AnaInv st) :
    AnaInv { st with learnt := st.learnt ++ [a], s := t } := by
  have hs := see_spec st.s a
  constructor
  · intro e
    exact h.nonempty (List.append_eq_nil.mp e).1
  · intro g k hg
    have hg' : ((st.s.see_subsuming a).data g k).seen_subsumed = true := by
      rw [← data_congr ht g k]
      exact hg
    show ∃ b ∈ (st.learnt ++ [a]).tail, b.lhs = g ∧ b.rhs = k
    rw [List.tail_append_of_ne_nil h.nonempty]
    rcases hs.1 g k hg' with e | e
    · obtain ⟨b, hb, hb2⟩ := h.seen g k e
      exact ⟨b, List.mem_append_left _ hb, hb2⟩
    · exact ⟨a, List.mem_append_right _ (List.mem_singleton_self a), e⟩
  · show (t.wantedCount : Int) ≤ st.depth
    have e : t.wantedCount = (st.s.see_subsuming a).wantedCount := by
      unfold wantedCount
      rw [ht]
    rw [e, hs.2]
    exact h.wanted

/-- The branch of `handle_conflict` that marks the literal as wanted. -/
theorem AnaInv_want (st : AnalyzeState) (a : Literal) (l : Nat) (t : Solver)
    (ht : t.data_ = (st.s.want_complementary_on_level a l).data_) (h : AnaInv st) :
    AnaInv { st with depth := st.depth + 1, s := t } := by
  have hw := want_spec st.s a l
  constructor
  · exact h.nonempty
  · intro g k hg
    have hg' : ((st.s.want_complementary_on_level a l).data g k).seen_subsumed = true := by
      rw [← data_congr ht g k]
      exact hg
    rw [hw.1] at hg'
    exact h.seen g k hg'
  · show (t.wantedCount : Int) ≤ st.depth + 1
    have e : t.wantedCount = (st.s.want_complementary_on_level a l).wantedCount := by
      unfold wantedCount
      rw [ht]
    rw [e]
    have h1 := h.wanted
    have h2 := hw.2
    omega

/-- The lambda `handle_conflict` keeps the invariant of the loop of `Analyze`. -/
theorem AnaInv_handle_conflict (st : AnalyzeState) (a : Literal) (h : AnaInv st) :
    AnaInv (handle_conflict st a) := by
  unfold handle_conflict
  split
  · exact h
  · dsimp only
    split
    · exact h
    · split
      · exact AnaInv_learnt st a _ (Bump_data_ _ _) h
      · split
        · exact AnaInv_want st a _ _ (Bump_data_ _ _) h
        · exact h

theorem AnaInv_foldl {α : Type} (F : AnalyzeState → α → AnalyzeState)
    (hF : ∀ t x, AnaInv t → AnaInv (F t x)) (l : List α) :
    ∀ st, AnaInv st → AnaInv (l.foldl F st) := by
  induction l with
  | nil =>
    intro st h
    exact h
  | cons x xs ih =>
    intro st h
    exact ih _ (hF st x h)

theorem AnaInv_AnalyzePass (sort : Nat → Nat) (st : AnalyzeState) (conflict : Int)
    (h : AnaInv st) : AnaInv (AnalyzePass sort st conflict) := by
  unfold AnalyzePass
  split
  · dsimp only
    apply AnaInv_foldl _ _ _ st h
    intro t n ht
    split
    · exact AnaInv_handle_conflict t _ ht
    · exact ht
  · exact AnaInv_foldl _ (fun t a ht => AnaInv_handle_conflict t a ht) _ st h

/-- A round of the loop of `Analyze` whose backward scan stops at a literal of the trail keeps the
invariant. -/
theorem AnaInv_AnalyzeRound (sort : Nat → Nat) (st : AnalyzeState) (conflict : Int)
    (h : AnaInv st) (hfound : AnalyzeFound sort st conflict = true) :
    AnaInv (AnalyzeRound sort st conflict) := by
  have h1 := AnaInv_AnalyzePass sort st conflict h
  unfold AnalyzeFound at hfound
  unfold AnalyzeRound
  dsimp only at hfound ⊢
  generalize AnalyzePass sort st conflict = st1 at h1 hfound ⊢
  generalize AnalyzeSkip st1.s (st1.s.trail_.length + 1) st1.trail_i = i at hfound ⊢
  simp only [Bool.and_eq_true, decide_eq_true_eq] at hfound
  obtain ⟨hi, hw⟩ := hfound
  rw [if_neg (by omega)]
  generalize st1.s.trail_.getD (i + 1).toNat Literal.null = b at hw ⊢
  have hw' : (st1.s.data b.lhs b.rhs).wanted = true := hw
  constructor
  · exact h1.nonempty
  · intro g k hg
    apply h1.seen g k
    have hg' : ((st1.s.setData b.lhs b.rhs
        { st1.s.data b.lhs b.rhs with wanted := false }).data g k).seen_subsumed = true := hg
    rcases data_setData_or st1.s b.lhs b.rhs g k { st1.s.data b.lhs b.rhs with wanted := false }
      with e | ⟨rfl, rfl, e⟩
    · rw [e] at hg'
      exact hg'
    · rw [e] at hg'
      exact hg'
  · show ((st1.s.setData b.lhs b.rhs
        { st1.s.data b.lhs b.rhs with wanted := false }).wantedCount : Int) ≤ st1.depth - 1
    have e := wantedCount_setData st1.s b.lhs b.rhs
      { st1.s.data b.lhs b.rhs with wanted := false }
    have hc : ¬ ((b.lhs < st1.s.data_.length ∧ b.rhs < (st1.s.data_.getD b.lhs []).length) ∧
        ({ st1.s.data b.lhs b.rhs with wanted := false } : Data).wanted = true) :=
      fun h => absurd h.2 (by simp)
    rw [if_pos hw', if_neg hc] at e
    have h2 := h1.wanted
    omega

/-- The loop of `Analyze`, when every backward scan stops at a literal of the trail, ends with the
invariant and with `depth` at zero. -/
theorem AnalyzeLoop_inv (sort : Nat → Nat) : ∀ (fuel : Nat) (st : AnalyzeState) (conflict : Int),
    AnaInv st → AnalyzeDefined sort fuel st conflict = true →
    AnaInv (AnalyzeLoop sort fuel st conflict) ∧ (AnalyzeLoop sort fuel st conflict).depth ≤ 0 := by
  intro fuel
  induction fuel with
  | zero =>
    intro st conflict _ hd
    exact absurd hd (by simp [AnalyzeDefined])
  | succ fuel ih =>
    intro st conflict h hd
    unfold AnalyzeDefined at hd
    simp only [Bool.and_eq_true] at hd
    obtain ⟨hfound, hrest⟩ := hd
    have h2 := AnaInv_AnalyzeRound sort st conflict h hfound
    rw [AnalyzeLoop_succ]
    split
    · rename_i hpos
      rw [if_pos hpos] at hrest
      exact ih _ _ h2 hrest
    · rename_i hpos
      exact ⟨h2, by omega⟩

/-- The loop of `Analyze` that clears `seen_subsumed` for the literals of the learnt clause. -/
theorem clear_fold (L : List Literal) : ∀ s : Solver,
    (∀ g k, ((L.foldl (fun t a => t.setData a.lhs a.rhs
        { t.data a.lhs a.rhs with seen_subsumed := false }) s).data g k).wanted
      = (s.data g k).wanted) ∧
    (∀ g k, ((L.foldl (fun t a => t.setData a.lhs a.rhs
        { t.data a.lhs a.rhs with seen_subsumed := false }) s).data g k).seen_subsumed = true →
      (s.data g k).seen_subsumed = true ∧ ∀ a ∈ L, ¬ (a.lhs = g ∧ a.rhs = k)) := by
  induction L with
  | nil =>
    intro s
    exact ⟨fun _ _ => rfl, fun g k h => ⟨h, fun a ha => absurd ha (List.not_mem_nil a)⟩⟩
  | cons a L ih =>
    intro s
    rw [List.foldl_cons]
    have r := ih (s.setData a.lhs a.rhs { s.data a.lhs a.rhs with seen_subsumed := false })
    constructor
    · intro g k
      rw [r.1]
      rcases data_setData_or s a.lhs a.rhs g k { s.data a.lhs a.rhs with seen_subsumed := false }
        with e | ⟨rfl, rfl, e⟩
      · rw [e]
      · rw [e]
    · intro g k h
      have r2 := r.2 g k h
      rcases data_setData_or s a.lhs a.rhs g k { s.data a.lhs a.rhs with seen_subsumed := false }
        with e | ⟨rfl, rfl, e⟩
      · rw [e] at r2
        refine ⟨r2.1, ?_⟩
        intro b hb
        rcases List.mem_cons.mp hb with hb | hb
        · subst hb
          intro hp
          obtain ⟨rfl, rfl⟩ := hp
          have h1 := r2.1
          by_cases hf : b.lhs < s.data_.length
          · by_cases hn : b.rhs < (s.data_.getD b.lhs []).length
            · have := data_setData_same s b.lhs b.rhs
                { s.data b.lhs b.rhs with seen_subsumed := false } hf hn
              rw [this] at e
              rw [← e] at h1
              exact absurd h1 (by simp)
            · unfold data at h1
              rw [List.getD_eq_default (s.data_.getD b.lhs []) _ (Nat.le_of_not_lt hn)] at h1
              exact absurd h1 (by simp [Data.null])
          · unfold data at h1
            rw [List.getD_eq_default s.data_ _ (Nat.le_of_not_lt hf)] at h1
            exact absurd h1 (by simp [Data.null])
        · exact r2.2 b hb
      · rw [e] at r2
        exact absurd r2.1 (by simp)

/-- The solver that `Analyze` returns: the flags `seen_subsumed` are cleared for the literals of the
learnt clause in the solver that the loop leaves. -/
theorem Analyze_fst (sort : Nat → Nat) (s : Solver) (conflict : Int) :
    (Analyze sort s conflict).1
      = (((AnalyzeLoop sort (s.trail_.length + 1) (AnalyzeStart s) conflict).learnt.set 0
          (AnalyzeLoop sort (s.trail_.length + 1) (AnalyzeStart s) conflict).trail_a.flip).foldl
          (fun t a => t.setData a.lhs a.rhs { t.data a.lhs a.rhs with seen_subsumed := false })
          (AnalyzeLoop sort (s.trail_.length + 1) (AnalyzeStart s) conflict).s) := by
  unfold Analyze AnalyzeStart
  dsimp only
  split <;> rfl

/-- C29: if no entry of `data_` has `seen_subsumed` or `wanted` set when `Analyze` is called, and
every backward scan of the trail in `Analyze` stops at a literal of the trail (as the source
asserts; otherwise it reads before the start of the trail), then no entry has either flag
set when `Analyze` returns. -/
theorem C29_Analyze_restores_flags (sort : Nat → Nat) (s : Solver) (conflict : Int)
    (h0 : s.flagsClear = true)
    (hdef : AnalyzeDefined sort (s.trail_.length + 1) (AnalyzeStart s) conflict = true) :
    (Analyze sort s conflict).1.flagsClear = true := by
  rw [flagsClear_iff] at h0 ⊢
  have inv0 : AnaInv (AnalyzeStart s) := by
    constructor
    · intro e
      exact absurd e (by simp [AnalyzeStart])
    · intro g k hg
      have hg' : (s.data g k).seen_subsumed = true := hg
      rw [(h0 g k).1] at hg'
      exact absurd hg' (by decide)
    · have e : s.wantedCount = 0 := (wantedCount_eq_zero_iff s).mpr (fun g k => (h0 g k).2)
      show (s.wantedCount : Int) ≤ 0
      rw [e]
      rfl
  have r := AnalyzeLoop_inv sort _ (AnalyzeStart s) conflict inv0 hdef
  rw [Analyze_fst]
  generalize AnalyzeLoop sort (s.trail_.length + 1) (AnalyzeStart s) conflict = st at r ⊢
  obtain ⟨inv, hdepth⟩ := r
  have hw0 : st.s.wantedCount = 0 := by
    have := inv.wanted
    omega
  have hw := (wantedCount_eq_zero_iff st.s).mp hw0
  have c := clear_fold (st.learnt.set 0 st.trail_a.flip) st.s
  intro g k
  constructor
  · cases hx : ((List.foldl (fun t a => t.setData a.lhs a.rhs
        { t.data a.lhs a.rhs with seen_subsumed := false }) st.s
        (st.learnt.set 0 st.trail_a.flip)).data g k).seen_subsumed
    · rfl
    · exfalso
      have c2 := c.2 g k hx
      obtain ⟨b, hb, hb2⟩ := inv.seen g k c2.1
      apply c2.2 b _ hb2
      cases hl : st.learnt with
      | nil => exact absurd hl inv.nonempty
      | cons x rest =>
        rw [hl] at hb
        exact List.mem_cons_of_mem _ hb
  · rw [c.1]
    exact hw g k

/-- Witness for C29: for the clauses `f = 1 ∨ g = 1` and `f = 1 ∨ g = 2` and the unit `h = 1`, `Solve`
calls `Analyze` at level `2` with a conflict and with clear flags; the backward scans stay within
the trail, and the flags are clear on return. -/
theorem C29_Analyze_restores_flags_witness :
    firstConflict.2 ≠ kNullRef ∧ firstConflict.1.current_level = 2 ∧
    firstConflict.1.flagsClear = true ∧
    AnalyzeDefined oneSort (firstConflict.1.trail_.length + 1) (AnalyzeStart firstConflict.1)
      firstConflict.2 = true ∧
    (Analyze oneSort firstConflict.1 firstConflict.2).1.flagsClear = true :=
  ⟨by decide!, by decide!, by decide!, by decide!,
    C29_Analyze_restores_flags oneSort firstConflict.1 firstConflict.2 (by decide!) (by decide!)⟩

end Solver
/-! ### The heap: membership through `Insert`, `Remove` and `Increase` -/

theorem lt_length_of_getD_ne (l : List Nat) (i : Nat) (h : l.getD i 0 ≠ 0) : i < l.length := by
  by_contra hl
  exact h (List.getD_eq_default _ _ (Nat.le_of_not_lt hl))

namespace Heap

theorem Hole_of_Ok (h : Heap) (i : Nat) (hok : h.Ok) (h1 : 1 ≤ i) (hi : i < h.heap_.length) :
    h.Hole i (h.heap_.getD i 0) := by
  obtain ⟨_, o2, o3⟩ := hok
  have hx := o2 i hi h1
  have hxl : h.heap_.getD i 0 < h.index_.length :=
    lt_length_of_getD_ne _ _ (by rw [hx]; omega)
  refine ⟨h1, hi, hxl, ?_, ?_⟩
  · intro k hk hk1 hki
    refine ⟨?_, o2 k hk hk1⟩
    intro e
    have := o2 k hk hk1
    rw [e, hx] at this
    exact hki this.symm
  · intro y hy hy0
    have hyl := lt_length_of_getD_ne _ _ hy0
    obtain ⟨a, b⟩ := o3 y hyl hy0
    refine ⟨a, ?_, b⟩
    intro e
    rw [e] at b
    exact hy b.symm

/-- One move of `SiftUp` or `SiftDown`: the element at position `q` goes to the free position. -/
theorem Hole_move (h : Heap) (j q x : Nat) (hh : h.Hole j x) (hq1 : 1 ≤ q)
    (hq : q < h.heap_.length) (hqj : q ≠ j) :
    Heap.Hole ⟨h.heap_.set j (h.heap_.getD q 0), h.index_.set (h.heap_.getD q 0) j⟩ q x ∧
    (∀ y, (h.index_.set (h.heap_.getD q 0) j).getD y 0 ≠ 0 ↔ h.index_.getD y 0 ≠ 0) := by
  obtain ⟨hj1, hj, hx, a, b⟩ := hh
  obtain ⟨hzx, hzq⟩ := a q hq hq1 hqj
  have hzl : h.heap_.getD q 0 < h.index_.length :=
    lt_length_of_getD_ne _ _ (by rw [hzq]; omega)
  constructor
  · refine ⟨hq1, ?_, ?_, ?_, ?_⟩
    · show q < (h.heap_.set j _).length
      rw [List.length_set]
      exact hq
    · show x < (h.index_.set _ j).length
      rw [List.length_set]
      exact hx
    · intro k hk hk1 hkq
      have hk' : k < h.heap_.length := by
        have : k < (h.heap_.set j (h.heap_.getD q 0)).length := hk
        rw [List.length_set] at this
        exact this
      show (h.heap_.set j (h.heap_.getD q 0)).getD k 0 ≠ x ∧
        (h.index_.set (h.heap_.getD q 0) j).getD ((h.heap_.set j (h.heap_.getD q 0)).getD k 0) 0 = k
      rw [getD_set_eq h.heap_]
      by_cases hkj : j = k
      · subst hkj
        rw [if_pos ⟨rfl, hj⟩]
        refine ⟨hzx, ?_⟩
        rw [getD_set_eq, if_pos ⟨rfl, hzl⟩]
      · have hc : ¬ (j = k ∧ j < h.heap_.length) := fun e => hkj e.1
        rw [if_neg hc]
        obtain ⟨c1, c2⟩ := a k hk' hk1 (fun e => hkj e.symm)
        refine ⟨c1, ?_⟩
        rw [getD_set_eq]
        have hne : ¬ (h.heap_.getD q 0 = h.heap_.getD k 0 ∧ h.heap_.getD q 0 < h.index_.length) := by
          intro e
          have := hzq
          rw [e.1, c2] at this
          exact hkq this
        rw [if_neg hne]
        exact c2
    · intro y hy hy0
      have hy0' : (h.index_.set (h.heap_.getD q 0) j).getD y 0 ≠ 0 := hy0
      show (h.index_.set (h.heap_.getD q 0) j).getD y 0 < (h.heap_.set j (h.heap_.getD q 0)).length ∧
        (h.index_.set (h.heap_.getD q 0) j).getD y 0 ≠ q ∧
        (h.heap_.set j (h.heap_.getD q 0)).getD ((h.index_.set (h.heap_.getD q 0) j).getD y 0) 0 = y
      rw [List.length_set]
      rw [getD_set_eq] at hy0' ⊢
      by_cases hyz : h.heap_.getD q 0 = y
      · rw [if_pos ⟨hyz, hzl⟩]
        refine ⟨hj, fun e => hqj e.symm, ?_⟩
        rw [getD_set_eq, if_pos ⟨rfl, hj⟩]
        exact hyz
      · have hc : ¬ (h.heap_.getD q 0 = y ∧ h.heap_.getD q 0 < h.index_.length) :=
          fun e => hyz e.1
        rw [if_neg hc] at hy0' ⊢
        obtain ⟨c1, c2, c3⟩ := b y hy hy0'
        refine ⟨c1, ?_, ?_⟩
        · intro e
          rw [e] at c3
          exact hyz c3
        · rw [getD_set_eq]
          have hc2 : ¬ (j = h.index_.getD y 0 ∧ j < h.heap_.length) := fun e => c2 e.1.symm
          rw [if_neg hc2]
          exact c3
  · intro y
    rw [getD_set_eq]
    by_cases hyz : h.heap_.getD q 0 = y
    · rw [if_pos ⟨hyz, hzl⟩, ← hyz, hzq]
      constructor
      · intro _
        omega
      · intro _
        omega
    · have hc : ¬ (h.heap_.getD q 0 = y ∧ h.heap_.getD q 0 < h.index_.length) :=
        fun e => hyz e.1
      rw [if_neg hc]

/-- The last step of `SiftUp` and `SiftDown`: the element held aside goes to the free position. -/
theorem Hole_fill (h : Heap) (j x : Nat) (hh : h.Hole j x) :
    Heap.Ok ⟨h.heap_.set j x, h.index_.set x j⟩ ∧
    (∀ y, (h.index_.set x j).getD y 0 ≠ 0 ↔ (y = x ∨ h.index_.getD y 0 ≠ 0)) := by
  obtain ⟨hj1, hj, hx, a, b⟩ := hh
  constructor
  · refine ⟨?_, ?_, ?_⟩
    · show 1 ≤ (h.heap_.set j x).length
      rw [List.length_set]
      omega
    · intro i hi hi1
      have hi' : i < h.heap_.length := by
        have : i < (h.heap_.set j x).length := hi
        rw [List.length_set] at this
        exact this
      show (h.index_.set x j).getD ((h.heap_.set j x).getD i 0) 0 = i
      rw [getD_set_eq h.heap_]
      by_cases hji : j = i
      · subst hji
        rw [if_pos ⟨rfl, hj⟩, getD_set_eq, if_pos ⟨rfl, hx⟩]
      · have hc : ¬ (j = i ∧ j < h.heap_.length) := fun e => hji e.1
        rw [if_neg hc]
        obtain ⟨c1, c2⟩ := a i hi' hi1 (fun e => hji e.symm)
        rw [getD_set_eq]
        have hc2 : ¬ (x = h.heap_.getD i 0 ∧ x < h.index_.length) := fun e => c1 e.1.symm
        rw [if_neg hc2]
        exact c2
    · intro y _ hy0
      have hy0' : (h.index_.set x j).getD y 0 ≠ 0 := hy0
      show (h.index_.set x j).getD y 0 < (h.heap_.set j x).length ∧
        (h.heap_.set j x).getD ((h.index_.set x j).getD y 0) 0 = y
      rw [List.length_set]
      rw [getD_set_eq] at hy0' ⊢
      by_cases hxy : x = y
      · rw [if_pos ⟨hxy, hx⟩]
        refine ⟨hj, ?_⟩
        rw [getD_set_eq, if_pos ⟨rfl, hj⟩]
        exact hxy
      · have hc : ¬ (x = y ∧ x < h.index_.length) := fun e => hxy e.1
        rw [if_neg hc] at hy0' ⊢
        obtain ⟨c1, c2, c3⟩ := b y (fun e => hxy e.symm) hy0'
        refine ⟨c1, ?_⟩
        rw [getD_set_eq]
        have hc2 : ¬ (j = h.index_.getD y 0 ∧ j < h.heap_.length) := fun e => c2 e.1.symm
        rw [if_neg hc2]
        exact c3
  · intro y
    rw [getD_set_eq]
    by_cases hxy : x = y
    · rw [if_pos ⟨hxy, hx⟩]
      constructor
      · intro _
        exact Or.inl hxy.symm
      · intro _
        omega
    · have hc : ¬ (x = y ∧ x < h.index_.length) := fun e => hxy e.1
      rw [if_neg hc]
      constructor
      · intro e
        exact Or.inr e
      · intro e
        rcases e with e | e
        · exact absurd e.symm hxy
        · exact e

theorem SiftUpLoop_hole (less : Nat → Nat → Bool) (x : Nat) : ∀ (fuel : Nat) (h : Heap) (i : Nat),
    h.Hole i x →
    (SiftUpLoop less x fuel h i).1.Hole (SiftUpLoop less x fuel h i).2 x ∧
    (∀ y, (SiftUpLoop less x fuel h i).1.index_.getD y 0 ≠ 0 ↔ h.index_.getD y 0 ≠ 0) := by
  intro fuel
  induction fuel with
  | zero =>
    intro h i hh
    exact ⟨hh, fun _ => Iff.rfl⟩
  | succ fuel ih =>
    intro h i hh
    unfold SiftUpLoop
    dsimp only
    split
    · rename_i hc
      simp only [Bool.and_eq_true, bne_iff_ne, ne_eq] at hc
      have hi1 := hh.1
      have hi := hh.2.1
      have hp1 : 1 ≤ i / 2 := Nat.pos_of_ne_zero hc.1
      have hpi : i / 2 < i := Nat.div_lt_self (by omega) (by decide)
      have hm := Hole_move h i (i / 2) x hh hp1 (by omega) (by omega)
      have e : (h.heap_.set i (h.heap_.getD (i / 2) 0)).getD i 0 = h.heap_.getD (i / 2) 0 :=
        getD_set_same _ _ _ _ hi
      rw [e]
      have r := ih _ (i / 2) hm.1
      refine ⟨r.1, ?_⟩
      intro y
      rw [r.2 y]
      exact hm.2 y
    · exact ⟨hh, fun _ => Iff.rfl⟩

theorem SiftDownLoop_hole (less : Nat → Nat → Bool) (x : Nat) :
    ∀ (fuel : Nat) (h : Heap) (i : Nat), h.Hole i x →
    (SiftDownLoop less x fuel h i).1.Hole (SiftDownLoop less x fuel h i).2 x ∧
    (∀ y, (SiftDownLoop less x fuel h i).1.index_.getD y 0 ≠ 0 ↔ h.index_.getD y 0 ≠ 0) := by
  intro fuel
  induction fuel with
  | zero =>
    intro h i hh
    exact ⟨hh, fun _ => Iff.rfl⟩
  | succ fuel ih =>
    intro h i hh
    unfold SiftDownLoop
    dsimp only
    split
    · rename_i hc
      have hi1 := hh.1
      have hi := hh.2.1
      have key : ∀ q, 1 ≤ q → q < h.heap_.length → q ≠ i →
          ((if (!less (h.heap_.getD q 0) x) = true then (h, i)
            else SiftDownLoop less x fuel
              ⟨h.heap_.set i (h.heap_.getD q 0),
                h.index_.set ((h.heap_.set i (h.heap_.getD q 0)).getD i 0) i⟩ q).1.Hole
            (if (!less (h.heap_.getD q 0) x) = true then (h, i)
            else SiftDownLoop less x fuel
              ⟨h.heap_.set i (h.heap_.getD q 0),
                h.index_.set ((h.heap_.set i (h.heap_.getD q 0)).getD i 0) i⟩ q).2 x) ∧
          (∀ y, (if (!less (h.heap_.getD q 0) x) = true then (h, i)
            else SiftDownLoop less x fuel
              ⟨h.heap_.set i (h.heap_.getD q 0),
                h.index_.set ((h.heap_.set i (h.heap_.getD q 0)).getD i 0) i⟩ q).1.index_.getD
                  y 0 ≠ 0 ↔ h.index_.getD y 0 ≠ 0) := by
        intro q hq1 hq hqi
        split
        · exact ⟨hh, fun _ => Iff.rfl⟩
        · have hm := Hole_move h i q x hh hq1 hq hqi
          have e : (h.heap_.set i (h.heap_.getD q 0)).getD i 0 = h.heap_.getD q 0 :=
            getD_set_same _ _ _ _ hi
          rw [e]
          have r := ih _ q hm.1
          refine ⟨r.1, ?_⟩
          intro y
          rw [r.2 y]
          exact hm.2 y
      split
      · rename_i hc2
        simp only [Bool.and_eq_true, decide_eq_true_eq] at hc2
        exact key (2 * i + 1) (by omega) hc2.1 (by omega)
      · exact key (2 * i) (by omega) hc (by omega)
    · exact ⟨hh, fun _ => Iff.rfl⟩

/-- `SiftUp(i)` at a position of the heap keeps the heap in order with itself and keeps its
elements. -/
theorem SiftUp_Ok (less : Nat → Nat → Bool) (h : Heap) (i : Nat) (hok : h.Ok) (h1 : 1 ≤ i)
    (hi : i < h.heap_.length) :
    (SiftUp less h i).Ok ∧
    (∀ y, (SiftUp less h i).index_.getD y 0 ≠ 0 ↔ h.index_.getD y 0 ≠ 0) := by
  have hh := Hole_of_Ok h i hok h1 hi
  have hx : h.index_.getD (h.heap_.getD i 0) 0 ≠ 0 := by
    rw [hok.2.1 i hi h1]
    omega
  have r := SiftUpLoop_hole less (h.heap_.getD i 0) i h i hh
  have f := Hole_fill _ _ _ r.1
  unfold SiftUp
  dsimp only
  refine ⟨f.1, ?_⟩
  intro y
  rw [f.2 y, r.2 y]
  constructor
  · intro e
    rcases e with e | e
    · rw [e]
      exact hx
    · exact e
  · intro e
    exact Or.inr e

/-- `SiftDown(i)` at a position of the heap keeps the heap in order with itself and keeps its
elements. -/
theorem SiftDown_Ok (less : Nat → Nat → Bool) (h : Heap) (i : Nat) (hok : h.Ok) (h1 : 1 ≤ i)
    (hi : i < h.heap_.length) :
    (SiftDown less h i).Ok ∧
    (∀ y, (SiftDown less h i).index_.getD y 0 ≠ 0 ↔ h.index_.getD y 0 ≠ 0) := by
  have hh := Hole_of_Ok h i hok h1 hi
  have hx : h.index_.getD (h.heap_.getD i 0) 0 ≠ 0 := by
    rw [hok.2.1 i hi h1]
    omega
  have r := SiftDownLoop_hole less (h.heap_.getD i 0) (h.heap_.length + 1) h i hh
  have f := Hole_fill _ _ _ r.1
  unfold SiftDown
  dsimp only
  refine ⟨f.1, ?_⟩
  intro y
  rw [f.2 y, r.2 y]
  constructor
  · intro e
    rcases e with e | e
    · rw [e]
      exact hx
    · exact e
  · intro e
    exact Or.inr e

/-- `Insert(x)` of an element that is not in the heap adds it and keeps the others. -/
theorem Insert_Ok (less : Nat → Nat → Bool) (h : Heap) (x : Nat) (hok : h.Ok)
    (hx : x < h.index_.length) (hnot : h.index_.getD x 0 = 0) :
    (Insert less h x).Ok ∧
    (∀ y, (Insert less h x).index_.getD y 0 ≠ 0 ↔ (y = x ∨ h.index_.getD y 0 ≠ 0)) := by
  obtain ⟨o1, o2, o3⟩ := hok
  have hok0 : Heap.Ok ⟨h.heap_ ++ [x], h.index_.set x h.heap_.length⟩ := by
    refine ⟨?_, ?_, ?_⟩
    · show 1 ≤ (h.heap_ ++ [x]).length
      rw [List.length_append]
      omega
    · intro i hi hi1
      have hi' : i < h.heap_.length + 1 := by
        have : i < (h.heap_ ++ [x]).length := hi
        rw [List.length_append, List.length_singleton] at this
        exact this
      show (h.index_.set x h.heap_.length).getD ((h.heap_ ++ [x]).getD i 0) 0 = i
      by_cases hil : i < h.heap_.length
      · rw [Solver.getD_append_left _ _ _ hil, getD_set_eq]
        have e := o2 i hil hi1
        have hc : ¬ (x = h.heap_.getD i 0 ∧ x < h.index_.length) := by
          intro c
          rw [← c.1, hnot] at e
          omega
        rw [if_neg hc]
        exact e
      · have : i = h.heap_.length := by omega
        subst this
        rw [Solver.getD_append_length, getD_set_eq, if_pos ⟨rfl, hx⟩]
    · intro y _ hy0
      have hy0' : (h.index_.set x h.heap_.length).getD y 0 ≠ 0 := hy0
      show (h.index_.set x h.heap_.length).getD y 0 < (h.heap_ ++ [x]).length ∧
        (h.heap_ ++ [x]).getD ((h.index_.set x h.heap_.length).getD y 0) 0 = y
      rw [List.length_append, List.length_singleton]
      rw [getD_set_eq] at hy0' ⊢
      by_cases hxy : x = y
      · rw [if_pos ⟨hxy, hx⟩]
        refine ⟨by omega, ?_⟩
        rw [Solver.getD_append_length]
        exact hxy
      · have hc : ¬ (x = y ∧ x < h.index_.length) := fun e => hxy e.1
        rw [if_neg hc] at hy0' ⊢
        obtain ⟨c1, c2⟩ := o3 y (lt_length_of_getD_ne _ _ hy0') hy0'
        refine ⟨by omega, ?_⟩
        rw [Solver.getD_append_left _ _ _ c1]
        exact c2
  have r := SiftUp_Ok less ⟨h.heap_ ++ [x], h.index_.set x h.heap_.length⟩ h.heap_.length hok0
    o1 (by
      show h.heap_.length < (h.heap_ ++ [x]).length
      rw [List.length_append, List.length_singleton]
      omega)
  unfold Insert
  dsimp only
  refine ⟨r.1, ?_⟩
  intro y
  rw [r.2 y]
  show (h.index_.set x h.heap_.length).getD y 0 ≠ 0 ↔ _
  rw [getD_set_eq]
  by_cases hxy : x = y
  · rw [if_pos ⟨hxy, hx⟩]
    constructor
    · intro _
      exact Or.inl hxy.symm
    · intro _
      omega
  · have hc : ¬ (x = y ∧ x < h.index_.length) := fun e => hxy e.1
    rw [if_neg hc]
    constructor
    · intro e
      exact Or.inr e
    · intro e
      rcases e with e | e
      · exact absurd e.symm hxy
      · exact e

theorem getLastD_eq_getD (l : List Nat) (d : Nat) : l.getLastD d = l.getD (l.length - 1) d := by
  simp [List.getLastD_eq_getLast?, List.getLast?_eq_getElem?, List.getD_eq_getElem?_getD]

theorem getD_dropLast (l : List Nat) (k d : Nat) (h : k < l.length - 1) :
    l.dropLast.getD k d = l.getD k d := by
  rw [List.dropLast_eq_take]
  exact Solver.getD_take_lt _ _ _ _ h

/-- `Remove(x)` of an element of the heap removes it and keeps the others. -/
theorem Remove_Ok (less : Nat → Nat → Bool) (h : Heap) (x : Nat) (hok : h.Ok)
    (hin : h.index_.getD x 0 ≠ 0) :
    (Remove less h x).Ok ∧
    (∀ y, (Remove less h x).index_.getD y 0 ≠ 0 ↔ (y ≠ x ∧ h.index_.getD y 0 ≠ 0)) := by
  obtain ⟨o1, o2, o3⟩ := hok
  have hxl := lt_length_of_getD_ne _ _ hin
  obtain ⟨hi, hix⟩ := o3 x hxl hin
  have hi1 : 1 ≤ h.index_.getD x 0 := Nat.pos_of_ne_zero hin
  have hlast : h.index_.getD (h.heap_.getD (h.heap_.length - 1) 0) 0 = h.heap_.length - 1 :=
    o2 _ (by omega) (by omega)
  have hlastl : h.heap_.getD (h.heap_.length - 1) 0 < h.index_.length :=
    lt_length_of_getD_ne _ _ (by rw [hlast]; omega)
  have e1 : (h.heap_.set (h.index_.getD x 0) (h.heap_.getLastD 0)).getD (h.index_.getD x 0) 0
      = h.heap_.getD (h.heap_.length - 1) 0 := by
    rw [getD_set_same _ _ _ _ hi, getLastD_eq_getD]
  have hlen2 : (h.heap_.set (h.index_.getD x 0) (h.heap_.getLastD 0)).dropLast.length
      = h.heap_.length - 1 := by
    rw [List.length_dropLast, List.length_set]
  have hget2 : ∀ k, k < h.heap_.length - 1 →
      (h.heap_.set (h.index_.getD x 0) (h.heap_.getLastD 0)).dropLast.getD k 0
        = if h.index_.getD x 0 = k then h.heap_.getD (h.heap_.length - 1) 0
          else h.heap_.getD k 0 := by
    intro k hk
    rw [getD_dropLast _ _ _ (by rw [List.length_set]; exact hk), getD_set_eq, getLastD_eq_getD]
    by_cases hik : h.index_.getD x 0 = k
    · rw [if_pos ⟨hik, hi⟩, if_pos hik]
    · have hc : ¬ (h.index_.getD x 0 = k ∧ h.index_.getD x 0 < h.heap_.length) :=
        fun e => hik e.1
      rw [if_neg hc, if_neg hik]
  have hidx : ∀ y, ((h.index_.set (h.heap_.getD (h.heap_.length - 1) 0)
      (h.index_.getD x 0)).set x 0).getD y 0
        = if y = x then 0
          else if y = h.heap_.getD (h.heap_.length - 1) 0 then h.index_.getD x 0
          else h.index_.getD y 0 := by
    intro y
    rw [getD_set_eq, List.length_set]
    by_cases hyx : y = x
    · rw [if_pos ⟨hyx.symm, hxl⟩, if_pos hyx]
    · have hc : ¬ (x = y ∧ x < h.index_.length) := fun e => hyx e.1.symm
      rw [if_neg hc, if_neg hyx, getD_set_eq]
      by_cases hyl : y = h.heap_.getD (h.heap_.length - 1) 0
      · rw [if_pos ⟨hyl.symm, hlastl⟩, if_pos hyl]
      · have hc2 : ¬ (h.heap_.getD (h.heap_.length - 1) 0 = y ∧
            h.heap_.getD (h.heap_.length - 1) 0 < h.index_.length) := fun e => hyl e.1.symm
        rw [if_neg hc2, if_neg hyl]
  have hok2 : Heap.Ok ⟨(h.heap_.set (h.index_.getD x 0) (h.heap_.getLastD 0)).dropLast,
      (h.index_.set (h.heap_.getD (h.heap_.length - 1) 0) (h.index_.getD x 0)).set x 0⟩ := by
    refine ⟨?_, ?_, ?_⟩
    · show 1 ≤ (h.heap_.set (h.index_.getD x 0) (h.heap_.getLastD 0)).dropLast.length
      rw [hlen2]
      omega
    · intro k hk hk1
      have hk' : k < h.heap_.length - 1 := by
        have : k < (h.heap_.set (h.index_.getD x 0) (h.heap_.getLastD 0)).dropLast.length := hk
        rw [hlen2] at this
        exact this
      show ((h.index_.set (h.heap_.getD (h.heap_.length - 1) 0) (h.index_.getD x 0)).set x 0).getD
        ((h.heap_.set (h.index_.getD x 0) (h.heap_.getLastD 0)).dropLast.getD k 0) 0 = k
      rw [hget2 k hk', hidx]
      by_cases hik : h.index_.getD x 0 = k
      · rw [if_pos hik]
        have hne : h.heap_.getD (h.heap_.length - 1) 0 ≠ x := by
          intro e
          rw [e] at hlast
          omega
        rw [if_neg hne, if_pos rfl]
        exact hik
      · rw [if_neg hik]
        have ek := o2 k (by omega) hk1
        have hne : h.heap_.getD k 0 ≠ x := by
          intro e
          rw [e] at ek
          exact hik ek
        have hne2 : h.heap_.getD k 0 ≠ h.heap_.getD (h.heap_.length - 1) 0 := by
          intro e
          rw [e, hlast] at ek
          omega
        rw [if_neg hne, if_neg hne2]
        exact ek
    · intro y _ hy0
      have hy0' : ((h.index_.set (h.heap_.getD (h.heap_.length - 1) 0)
          (h.index_.getD x 0)).set x 0).getD y 0 ≠ 0 := hy0
      show ((h.index_.set (h.heap_.getD (h.heap_.length - 1) 0) (h.index_.getD x 0)).set x 0).getD
          y 0 < (h.heap_.set (h.index_.getD x 0) (h.heap_.getLastD 0)).dropLast.length ∧
        (h.heap_.set (h.index_.getD x 0) (h.heap_.getLastD 0)).dropLast.getD
          (((h.index_.set (h.heap_.getD (h.heap_.length - 1) 0) (h.index_.getD x 0)).set x 0).getD
            y 0) 0 = y
      rw [hlen2]
      rw [hidx] at hy0' ⊢
      by_cases hyx : y = x
      · rw [if_pos hyx] at hy0'
        exact absurd rfl hy0'
      · rw [if_neg hyx] at hy0' ⊢
        by_cases hyl : y = h.heap_.getD (h.heap_.length - 1) 0
        · rw [if_pos hyl]
          have hlt : h.index_.getD x 0 < h.heap_.length - 1 := by
            by_contra hc
            have : h.index_.getD x 0 = h.heap_.length - 1 := by omega
            rw [this] at hix
            exact hyx (hyl.trans hix)
          refine ⟨hlt, ?_⟩
          rw [hget2 _ hlt, if_pos rfl]
          exact hyl.symm
        · rw [if_neg hyl] at hy0' ⊢
          obtain ⟨c1, c2⟩ := o3 y (lt_length_of_getD_ne _ _ hy0') hy0'
          have hlt : h.index_.getD y 0 < h.heap_.length - 1 := by
            by_contra hc
            have : h.index_.getD y 0 = h.heap_.length - 1 := by omega
            rw [this] at c2
            exact hyl c2.symm
          refine ⟨hlt, ?_⟩
          rw [hget2 _ hlt]
          have hne : h.index_.getD x 0 ≠ h.index_.getD y 0 := by
            intro e
            rw [← e, hix] at c2
            exact hyx c2.symm
          rw [if_neg hne]
          exact c2
  have hcont : ∀ y, ((h.index_.set (h.heap_.getD (h.heap_.length - 1) 0)
      (h.index_.getD x 0)).set x 0).getD y 0 ≠ 0 ↔ (y ≠ x ∧ h.index_.getD y 0 ≠ 0) := by
    intro y
    rw [hidx]
    by_cases hyx : y = x
    · rw [if_pos hyx]
      constructor
      · intro e
        exact absurd rfl e
      · intro e
        exact absurd hyx e.1
    · rw [if_neg hyx]
      by_cases hyl : y = h.heap_.getD (h.heap_.length - 1) 0
      · rw [if_pos hyl, hyl, hlast]
        constructor
        · intro _
          exact ⟨fun e => hyx (hyl.trans e), by omega⟩
        · intro _
          exact hin
      · rw [if_neg hyl]
        constructor
        · intro e
          exact ⟨hyx, e⟩
        · intro e
          exact e.2
  unfold Remove
  dsimp only
  rw [e1]
  split
  · rename_i hgt
    rw [hlen2] at hgt
    have r := SiftDown_Ok less _ (h.index_.getD x 0) hok2 hi1 (by
      show h.index_.getD x 0 < (h.heap_.set (h.index_.getD x 0) (h.heap_.getLastD 0)).dropLast.length
      rw [hlen2]
      exact hgt)
    refine ⟨r.1, ?_⟩
    intro y
    rw [r.2 y]
    exact hcont y
  · exact ⟨hok2, hcont⟩

/-- `Increase(x)` of an element of the heap keeps the elements. -/
theorem Increase_Ok (less : Nat → Nat → Bool) (h : Heap) (x : Nat) (hok : h.Ok)
    (hin : h.index_.getD x 0 ≠ 0) :
    (Increase less h x).Ok ∧
    (∀ y, (Increase less h x).index_.getD y 0 ≠ 0 ↔ h.index_.getD y 0 ≠ 0) := by
  have hxl := lt_length_of_getD_ne _ _ hin
  exact SiftUp_Ok less h _ hok (Nat.pos_of_ne_zero hin) (hok.2.2 x hxl hin).1

theorem SiftUpLoop_length (less : Nat → Nat → Bool) (x : Nat) : ∀ (fuel : Nat) (h : Heap) (i : Nat),
    (SiftUpLoop less x fuel h i).1.index_.length = h.index_.length := by
  intro fuel
  induction fuel with
  | zero =>
    intro h i
    rfl
  | succ fuel ih =>
    intro h i
    unfold SiftUpLoop
    dsimp only
    split
    · rw [ih]
      exact List.length_set _ _ _
    · rfl

theorem SiftDownLoop_length (less : Nat → Nat → Bool) (x : Nat) :
    ∀ (fuel : Nat) (h : Heap) (i : Nat),
    (SiftDownLoop less x fuel h i).1.index_.length = h.index_.length := by
  intro fuel
  induction fuel with
  | zero =>
    intro h i
    rfl
  | succ fuel ih =>
    intro h i
    have key : ∀ q, (if (!less (h.heap_.getD q 0) x) = true then (h, i)
        else SiftDownLoop less x fuel
          ⟨h.heap_.set i (h.heap_.getD q 0),
            h.index_.set ((h.heap_.set i (h.heap_.getD q 0)).getD i 0) i⟩ q).1.index_.length
        = h.index_.length := by
      intro q
      split
      · rfl
      · rw [ih]
        exact List.length_set _ _ _
    unfold SiftDownLoop
    dsimp only
    split
    · split
      · exact key _
      · exact key _
    · rfl

theorem SiftUp_length (less : Nat → Nat → Bool) (h : Heap) (i : Nat) :
    (SiftUp less h i).index_.length = h.index_.length := by
  unfold SiftUp
  dsimp only
  rw [List.length_set, SiftUpLoop_length]

theorem SiftDown_length (less : Nat → Nat → Bool) (h : Heap) (i : Nat) :
    (SiftDown less h i).index_.length = h.index_.length := by
  unfold SiftDown
  dsimp only
  rw [List.length_set, SiftDownLoop_length]

theorem Insert_length (less : Nat → Nat → Bool) (h : Heap) (x : Nat) :
    (Insert less h x).index_.length = h.index_.length := by
  unfold Insert
  dsimp only
  rw [SiftUp_length]
  exact List.length_set _ _ _

theorem Remove_length (less : Nat → Nat → Bool) (h : Heap) (x : Nat) :
    (Remove less h x).index_.length = h.index_.length := by
  unfold Remove
  dsimp only
  split
  · rw [SiftDown_length]
    show ((h.index_.set _ _).set x 0).length = _
    rw [List.length_set, List.length_set]
  · show ((h.index_.set _ _).set x 0).length = _
    rw [List.length_set, List.length_set]

theorem Increase_length (less : Nat → Nat → Bool) (h : Heap) (x : Nat) :
    (Increase less h x).index_.length = h.index_.length :=
  SiftUp_length less h _

end Heap
namespace Solver

/-! ### `Backtrack` undoes a level -/

theorem BacktrackStep_model_ (s : Solver) (a : Literal) :
    (BacktrackStep s a).model_ = s.model_.set a.lhs 0 := by
  unfold BacktrackStep
  dsimp only
  split
  · split <;> rfl
  · rfl

theorem BacktrackStep_model (s : Solver) (a : Literal) (g : Nat) :
    (BacktrackStep s a).model g = if a.lhs = g then 0 else s.model g := by
  unfold model
  rw [BacktrackStep_model_, getD_set_eq]
  by_cases h : a.lhs = g
  · rw [if_pos h]
    by_cases hl : a.lhs < s.model_.length
    · rw [if_pos ⟨h, hl⟩]
    · have hc : ¬ (a.lhs = g ∧ a.lhs < s.model_.length) := fun e => hl e.2
      rw [if_neg hc, ← h]
      exact List.getD_eq_default _ _ (Nat.le_of_not_lt hl)
  · have hc : ¬ (a.lhs = g ∧ a.lhs < s.model_.length) := fun e => h e.1
    rw [if_neg hc, if_neg h]

/-- The model after the loop of `Backtrack`: the functions of the popped literals are unassigned. -/
theorem undo_model (seg : List Literal) : ∀ (T : Solver) (g : Nat),
    (seg.foldl BacktrackStep T).model g
      = if seg.any (fun b => b.lhs == g) = true then 0 else T.model g := by
  induction seg with
  | nil =>
    intro T g
    rfl
  | cons a seg ih =>
    intro T g
    rw [List.foldl_cons, ih, BacktrackStep_model, List.any_cons]
    by_cases h : a.lhs = g
    · simp [h]
    · simp [h]

theorem data_setData_Reset (s : Solver) (f n g k : Nat) :
    (s.setData f n (s.data f n).Reset).data g k
      = if f = g ∧ n = k then (s.data g k).Reset else s.data g k := by
  by_cases h : f = g ∧ n = k
  · obtain ⟨rfl, rfl⟩ := h
    rw [if_pos ⟨rfl, rfl⟩]
    by_cases hf : f < s.data_.length
    · by_cases hn : n < (s.data_.getD f []).length
      · exact data_setData_same s f n _ hf hn
      · have e : s.data f n = Data.null := by
          unfold data
          exact List.getD_eq_default _ _ (Nat.le_of_not_lt hn)
        have e2 : (s.setData f n (s.data f n).Reset).data f n = Data.null := by
          unfold data setData
          dsimp only
          rw [getD_set_same _ _ _ _ hf, List.set_eq_of_length_le (Nat.le_of_not_lt hn)]
          exact List.getD_eq_default _ _ (Nat.le_of_not_lt hn)
        rw [e2, e]
        rfl
    · have e : s.data f n = Data.null := by
        unfold data
        rw [List.getD_eq_default s.data_ _ (Nat.le_of_not_lt hf)]
        rfl
      have e2 : (s.setData f n (s.data f n).Reset).data f n = Data.null := by
        unfold data setData
        dsimp only
        rw [List.set_eq_of_length_le (Nat.le_of_not_lt hf),
          List.getD_eq_default s.data_ _ (Nat.le_of_not_lt hf)]
        rfl
      rw [e2, e]
      rfl
  · rw [if_neg h]
    apply data_setData_ne
    by_cases hg : g = f
    · right
      intro e
      exact h ⟨hg.symm, e.symm⟩
    · left
      exact hg

/-- The entries of `data_` after one round of the loop of `Backtrack`, for a literal that, if
positive, is not excluded. -/
theorem BacktrackStep_data_at (s : Solver) (a : Literal) (g k : Nat)
    (h : a.pos = true → (s.data a.lhs a.rhs).model_neq = false) :
    (BacktrackStep s a).data g k
      = if a.lhs = g ∧ a.rhs = k then (s.data g k).Reset else s.data g k := by
  have e : (BacktrackStep s a).data g k
      = (s.setData a.lhs a.rhs (s.data a.lhs a.rhs).Reset).data g k := by
    unfold BacktrackStep
    dsimp only
    split
    · rename_i hp
      have hn := h hp
      have hc : (!((s.setModel a.lhs 0).data a.lhs a.rhs).model_neq) = true := by
        show (!(s.data a.lhs a.rhs).model_neq) = true
        rw [hn]
        rfl
      rw [if_pos hc]
      rfl
    · rfl
  rw [e, data_setData_Reset]

theorem Reset_Reset (d : Data) : d.Reset.Reset = d.Reset := rfl

/-- The entries of `data_` after the loop of `Backtrack`: the pairs of the popped literals are
reset. -/
theorem undo_data (seg : List Literal) : ∀ (T : Solver),
    (∀ b ∈ seg, b.pos = true → (T.data b.lhs b.rhs).model_neq = false) →
    ∀ g k, (seg.foldl BacktrackStep T).data g k
      = if seg.any (fun b => b.lhs == g && b.rhs == k) = true then (T.data g k).Reset
        else T.data g k := by
  induction seg with
  | nil =>
    intro T _ g k
    rfl
  | cons a seg ih =>
    intro T h g k
    have ha := h a (List.mem_cons_self a seg)
    have h1 : ∀ b ∈ seg, b.pos = true →
        ((BacktrackStep T a).data b.lhs b.rhs).model_neq = false := by
      intro b hb hp
      rw [BacktrackStep_data_at T a _ _ ha]
      split
      · rfl
      · exact h b (List.mem_cons_of_mem a hb) hp
    rw [List.foldl_cons, ih _ h1, BacktrackStep_data_at T a g k ha, List.any_cons]
    by_cases hak : a.lhs = g ∧ a.rhs = k
    · have e : (a.lhs == g && a.rhs == k) = true := by simp [hak.1, hak.2]
      rw [if_pos hak, e, Bool.true_or, if_pos rfl, Reset_Reset]
      split <;> rfl
    · have e : (a.lhs == g && a.rhs == k) = false := by
        cases hx : (a.lhs == g && a.rhs == k)
        · rfl
        · exfalso
          simp only [Bool.and_eq_true, beq_iff_eq] at hx
          exact hak hx
      rw [if_neg hak, e, Bool.false_or]

theorem BacktrackStep_domain_size_ (s : Solver) (a : Literal) :
    (BacktrackStep s a).domain_size_
      = if a.pos = true then s.domain_size_
        else s.domain_size_.set a.lhs (s.domain_size_.getD a.lhs 0 + 1) := by
  unfold BacktrackStep
  dsimp only
  split
  · split <;> rfl
  · rfl

theorem negCount_cons (a : Literal) (seg : List Literal) (g : Nat) :
    negCount (a :: seg) g = (if a.pos = false ∧ a.lhs = g then 1 else 0) + negCount seg g := by
  unfold negCount
  rw [List.filter_cons]
  by_cases h : a.pos = false ∧ a.lhs = g
  · have e : (!a.pos && a.lhs == g) = true := by simp [h.1, h.2]
    rw [if_pos e, if_pos h, List.length_cons]
    omega
  · have e : ¬ (!a.pos && a.lhs == g) = true := by
      intro hx
      simp only [Bool.and_eq_true, Bool.not_eq_true', beq_iff_eq] at hx
      exact h hx
    rw [if_neg e, if_neg h]
    omega

/-- The entries of `domain_size_` after the loop of `Backtrack`: one more for every negative literal
that is popped. -/
theorem undo_size (seg : List Literal) : ∀ (T : Solver),
    (seg.foldl BacktrackStep T).domain_size_.length = T.domain_size_.length ∧
    ∀ g, g < T.domain_size_.length →
      (seg.foldl BacktrackStep T).domain_size_.getD g 0
        = T.domain_size_.getD g 0 + negCount seg g := by
  induction seg with
  | nil =>
    intro T
    refine ⟨rfl, ?_⟩
    intro g _
    show T.domain_size_.getD g 0 = T.domain_size_.getD g 0 + ((0 : Nat) : Int)
    omega
  | cons a seg ih =>
    intro T
    rw [List.foldl_cons]
    have r := ih (BacktrackStep T a)
    have hlen : (BacktrackStep T a).domain_size_.length = T.domain_size_.length := by
      rw [BacktrackStep_domain_size_]
      split
      · rfl
      · exact List.length_set _ _ _
    refine ⟨by rw [r.1, hlen], ?_⟩
    intro g hg
    rw [r.2 g (by rw [hlen]; exact hg), negCount_cons, BacktrackStep_domain_size_]
    by_cases hp : a.pos = true
    · have hc : ¬ (a.pos = false ∧ a.lhs = g) := by
        intro e
        rw [hp] at e
        exact absurd e.1 (by decide)
      rw [if_pos hp, if_neg hc]
      push_cast
      omega
    · rw [if_neg hp, getD_set_eq]
      have hp' : a.pos = false := by
        cases hx : a.pos
        · rfl
        · exact absurd hx hp
      by_cases hag : a.lhs = g
      · have hc1 : a.lhs = g ∧ a.lhs < T.domain_size_.length := ⟨hag, by rw [hag]; exact hg⟩
        have hc2 : a.pos = false ∧ a.lhs = g := ⟨hp', hag⟩
        rw [if_pos hc1, if_pos hc2, hag]
        push_cast
        omega
      · have hc1 : ¬ (a.lhs = g ∧ a.lhs < T.domain_size_.length) := fun e => hag e.1
        have hc2 : ¬ (a.pos = false ∧ a.lhs = g) := fun e => hag e.2
        rw [if_neg hc1, if_neg hc2]
        push_cast
        omega

theorem BacktrackStep_order_ (s : Solver) (a : Literal) :
    (BacktrackStep s a).order_
      = if a.pos = true then s.order_.Insert (ActivityCompare s.activity_) a.lhs
        else s.order_ := by
  unfold BacktrackStep
  dsimp only
  split
  · split <;> rfl
  · rfl

/-- The order heap after the loop of `Backtrack`: the functions of the positive literals that are
popped are inserted, when they are distinct and not in the heap. -/
theorem undo_heap (seg : List Literal) : ∀ (T : Solver), T.order_.Ok →
    (∀ b ∈ seg, b.pos = true →
      T.order_.index_.getD b.lhs 0 = 0 ∧ b.lhs < T.order_.index_.length) →
    ((seg.filter (fun b => b.pos)).map (fun b => b.lhs)).Nodup →
    (seg.foldl BacktrackStep T).order_.Ok ∧
    ∀ g, (seg.foldl BacktrackStep T).order_.index_.getD g 0 ≠ 0 ↔
      (T.order_.index_.getD g 0 ≠ 0 ∨ seg.any (fun b => b.pos && b.lhs == g) = true) := by
  induction seg with
  | nil =>
    intro T hok _ _
    refine ⟨hok, ?_⟩
    intro g
    simp
  | cons a seg ih =>
    intro T hok hnot hnd
    rw [List.foldl_cons]
    by_cases hp : a.pos = true
    · have ha := hnot a (List.mem_cons_self a seg) hp
      have hins := Heap.Insert_Ok (ActivityCompare T.activity_) T.order_ a.lhs hok ha.2 ha.1
      have hlen := Heap.Insert_length (ActivityCompare T.activity_) T.order_ a.lhs
      have ho : (BacktrackStep T a).order_
          = T.order_.Insert (ActivityCompare T.activity_) a.lhs := by
        rw [BacktrackStep_order_, if_pos hp]
      rw [List.filter_cons, if_pos hp, List.map_cons, List.nodup_cons] at hnd
      have r := ih (BacktrackStep T a) (by rw [ho]; exact hins.1) (by
        intro b hb hbp
        rw [ho, hlen]
        have hb0 := hnot b (List.mem_cons_of_mem a hb) hbp
        refine ⟨?_, hb0.2⟩
        by_contra hc
        rcases (hins.2 b.lhs).mp hc with e | e
        · apply hnd.1
          rw [← e]
          exact List.mem_map.mpr ⟨b, List.mem_filter.mpr ⟨hb, hbp⟩, rfl⟩
        · exact e hb0.1) hnd.2
      refine ⟨r.1, ?_⟩
      intro g
      rw [r.2 g, ho, hins.2 g, List.any_cons, hp]
      by_cases hag : a.lhs = g
      · simp [hag]
      · have hga : ¬ g = a.lhs := fun e => hag e.symm
        simp [hag, hga]
    · have hp' : a.pos = false := by
        cases hx : a.pos
        · rfl
        · exact absurd hx hp
      have ho : (BacktrackStep T a).order_ = T.order_ := by
        rw [BacktrackStep_order_, if_neg hp]
      rw [List.filter_cons, if_neg hp] at hnd
      have r := ih (BacktrackStep T a) (by rw [ho]; exact hok) (by
        intro b hb hbp
        rw [ho]
        exact hnot b (List.mem_cons_of_mem a hb) hbp) hnd
      refine ⟨r.1, ?_⟩
      intro g
      rw [r.2 g, ho, List.any_cons, hp']
      simp

theorem foldl_BacktrackStep_frame (seg : List Literal) : ∀ (T : Solver),
    (seg.foldl BacktrackStep T).trail_ = T.trail_ ∧
    (seg.foldl BacktrackStep T).level_size_ = T.level_size_ := by
  induction seg with
  | nil =>
    intro T
    exact ⟨rfl, rfl⟩
  | cons a seg ih =>
    intro T
    rw [List.foldl_cons]
    have r := ih (BacktrackStep T a)
    have f := BacktrackStep_frame T a
    exact ⟨by rw [r.1, f.1], by rw [r.2, f.2.1]⟩

theorem Fwd_start (S : Solver) (hok : S.order_.Ok) : Fwd S S.NewLevel [] := by
  constructor
  · show S.trail_ = S.trail_ ++ []
    rw [List.append_nil]
  · rfl
  · rfl
  · intro g _
    rfl
  · intro b hb
    exact absurd hb (List.not_mem_nil b)
  · intro g k _
    rfl
  · intro g k
    rfl
  · rfl
  · intro g _
    show S.domain_size_.getD g 0 + ((0 : Nat) : Int) = _
    omega
  · exact hok
  · rfl
  · intro g
    show S.order_.index_.getD g 0 ≠ 0 ↔ _
    simp
  · exact List.nodup_nil
  · intro b hb
    exact absurd hb (List.not_mem_nil b)
  · intro b hb
    exact absurd hb (List.not_mem_nil b)

/-- The relation goes over to a solver with the same trail, level marks, model, data and domain
sizes and with the same elements in the order heap. -/
theorem Fwd_frame {S T U : Solver} {seg : List Literal} (h : Fwd S T seg)
    (h1 : U.trail_ = T.trail_) (h2 : U.level_size_ = T.level_size_) (h3 : U.model_ = T.model_)
    (h4 : U.data_ = T.data_) (h5 : U.domain_size_ = T.domain_size_) (h6 : U.order_.Ok)
    (h7 : U.order_.index_.length = T.order_.index_.length)
    (h8 : ∀ g, U.order_.index_.getD g 0 ≠ 0 ↔ T.order_.index_.getD g 0 ≠ 0) : Fwd S U seg := by
  have hm : ∀ g, U.model g = T.model g := fun g => model_congr h3 g
  have hd : ∀ g k, U.data g k = T.data g k := fun g k => data_congr h4 g k
  constructor
  · rw [h1]
    exact h.trail
  · rw [h2]
    exact h.level
  · rw [h3]
    exact h.model_len
  · intro g hg
    rw [hm]
    exact h.model g hg
  · exact h.unassigned
  · intro g k hg
    rw [hd]
    exact h.data g k hg
  · intro g k
    rw [hd]
    exact h.reset g k
  · rw [h5]
    exact h.size_len
  · intro g hg
    rw [h5]
    exact h.size g hg
  · exact h6
  · rw [h7]
    exact h.index_len
  · intro g
    rw [h8]
    exact h.contains g
  · exact h.posdistinct
  · intro b hb hp
    rw [hm]
    exact h.assigned b hb hp
  · intro b hb hp
    rw [hd]
    exact h.posneq b hb hp

theorem negCount_append (seg : List Literal) (b : Literal) (g : Nat) :
    negCount (seg ++ [b]) g = negCount seg g + (if b.pos = false ∧ b.lhs = g then 1 else 0) := by
  unfold negCount
  rw [List.filter_append, List.length_append]
  congr 1
  have e := negCount_cons b [] g
  unfold negCount at e
  rw [e]
  rfl

theorem any_snoc (seg : List Literal) (b : Literal) (p : Literal → Bool) :
    (seg ++ [b]).any p = (seg.any p || p b) := by
  rw [List.any_append]
  simp

theorem any_false_of_snoc (seg : List Literal) (b : Literal) (p : Literal → Bool)
    (h : (seg ++ [b]).any p = false) : seg.any p = false ∧ p b = false := by
  rw [any_snoc] at h
  cases h1 : seg.any p
  · cases h2 : p b
    · exact ⟨rfl, rfl⟩
    · rw [h1, h2] at h
      exact absurd h (by decide)
  · rw [h1, Bool.true_or] at h
    exact absurd h (by decide)

/-- No positive literal of the segment assigns a function that is unassigned above. -/
theorem Fwd_no_pos {S T : Solver} {seg : List Literal} (h : Fwd S T seg) (f : Nat)
    (hm : T.model f = 0) : seg.any (fun b => b.pos && b.lhs == f) = false := by
  cases hx : seg.any (fun b => b.pos && b.lhs == f)
  · rfl
  · exfalso
    obtain ⟨b, hb, hb2⟩ := List.any_eq_true.mp hx
    simp only [Bool.and_eq_true, beq_iff_eq] at hb2
    have := h.assigned b hb hb2.1
    rw [hb2.2] at this
    exact this hm

/-- A function that is unassigned above is unassigned in `S`. -/
theorem Fwd_unassigned {S T : Solver} {seg : List Literal} (h : Fwd S T seg) (f : Nat)
    (hm : T.model f = 0) : S.model f = 0 := by
  cases hx : seg.any (fun b => b.lhs == f)
  · rw [← h.model f hx]
    exact hm
  · obtain ⟨b, hb, hb2⟩ := List.any_eq_true.mp hx
    simp only [beq_iff_eq] at hb2
    rw [← hb2]
    exact h.unassigned b hb

theorem Reset_Update (d : Data) (b : Bool) (l : Nat) (r : Int) :
    (d.Update b l r).Reset = d.Reset := rfl

/-- The pairs keep their reset image when an entry is updated. -/
theorem reset_setData_Update (S T : Solver) (f n : Nat) (b : Bool) (l : Nat) (r : Int)
    (h : ∀ g k, (T.data g k).Reset = (S.data g k).Reset) (g k : Nat) :
    ((T.setData f n ((T.data f n).Update b l r)).data g k).Reset = (S.data g k).Reset := by
  rcases data_setData_or T f n g k ((T.data f n).Update b l r) with e | ⟨rfl, rfl, e⟩
  · rw [e]
    exact h g k
  · rw [e, Reset_Update]
    exact h g k

/-- The assignment of a name that is not excluded to an unassigned function keeps the relation. -/
theorem Fwd_pos {S T : Solver} {seg : List Literal} (b : Literal) (l : Nat) (r : Int)
    (h : Fwd S T seg) (hb : b.pos = true) (hm : T.model b.lhs = 0)
    (hneq : (T.data b.lhs b.rhs).model_neq = false) (hf : Fresh S b) :
    Fwd S ((((T.pushTrail b).setData b.lhs b.rhs
      ((T.data b.lhs b.rhs).Update false l r)).setModel b.lhs b.rhs).orderRemove b.lhs)
      (seg ++ [b]) := by
  obtain ⟨hn0, _, hfp⟩ := hf
  obtain ⟨hcont, hcap⟩ := hfp hb
  have hnopos := Fwd_no_pos h b.lhs hm
  have hTin : T.order_.index_.getD b.lhs 0 ≠ 0 := (h.contains b.lhs).mpr ⟨hcont, hnopos⟩
  have hrem := Heap.Remove_Ok (ActivityCompare T.activity_) T.order_ b.lhs h.heap hTin
  have hdat : ∀ g k, ((((T.pushTrail b).setData b.lhs b.rhs
        ((T.data b.lhs b.rhs).Update false l r)).setModel b.lhs b.rhs).orderRemove b.lhs).data g k
      = (T.setData b.lhs b.rhs ((T.data b.lhs b.rhs).Update false l r)).data g k :=
    fun _ _ => rfl
  have hmod : ∀ g, ((((T.pushTrail b).setData b.lhs b.rhs
        ((T.data b.lhs b.rhs).Update false l r)).setModel b.lhs b.rhs).orderRemove b.lhs).model g
      = (T.model_.set b.lhs b.rhs).getD g 0 := fun _ => rfl
  have hmodne : ∀ g, b.lhs ≠ g → (T.model_.set b.lhs b.rhs).getD g 0 = T.model g := by
    intro g hg
    rw [getD_set_ne _ _ _ _ _ hg]
    rfl
  have hnotin : ∀ c ∈ seg, c.pos = true → c.lhs ≠ b.lhs := by
    intro c hc hcp e
    have := h.assigned c hc hcp
    rw [e] at this
    exact this hm
  constructor
  · show T.trail_ ++ [b] = S.trail_ ++ (seg ++ [b])
    rw [h.trail, List.append_assoc]
  · exact h.level
  · show (T.model_.set b.lhs b.rhs).length = _
    rw [List.length_set]
    exact h.model_len
  · intro g hg
    obtain ⟨hg1, hg2⟩ := any_false_of_snoc _ _ _ hg
    have hne : b.lhs ≠ g := by
      intro e
      simp [e] at hg2
    rw [hmod, hmodne g hne]
    exact h.model g hg1
  · intro c hc
    rcases List.mem_append.mp hc with hc | hc
    · exact h.unassigned c hc
    · rw [List.mem_singleton.mp hc]
      exact Fwd_unassigned h b.lhs hm
  · intro g k hg
    obtain ⟨hg1, hg2⟩ := any_false_of_snoc _ _ _ hg
    rw [hdat, data_setData_ne]
    · exact h.data g k hg1
    · by_cases e1 : g = b.lhs
      · right
        intro e2
        simp [e1, e2] at hg2
      · left
        exact e1
  · intro g k
    rw [hdat]
    exact reset_setData_Update S T _ _ _ _ _ h.reset g k
  · exact h.size_len
  · intro g hg
    rw [negCount_append]
    have hc : ¬ (b.pos = false ∧ b.lhs = g) := by
      intro e
      rw [hb] at e
      exact absurd e.1 (by decide)
    rw [if_neg hc]
    exact h.size g hg
  · exact hrem.1
  · show (T.order_.Remove (ActivityCompare T.activity_) b.lhs).index_.length = _
    rw [Heap.Remove_length]
    exact h.index_len
  · intro g
    show (T.order_.Remove (ActivityCompare T.activity_) b.lhs).index_.getD g 0 ≠ 0 ↔ _
    rw [hrem.2 g, h.contains g, any_snoc, hb]
    by_cases hg : g = b.lhs
    · subst hg
      simp
    · have hg' : ¬ b.lhs = g := fun e => hg e.symm
      simp [hg, hg']
  · rw [List.filter_append, List.map_append]
    have e : List.filter (fun c => c.pos) [b] = [b] := by simp [hb]
    rw [e]
    apply List.Nodup.append h.posdistinct (List.nodup_singleton _)
    intro x hx hx2
    obtain ⟨c, hc, rfl⟩ := List.mem_map.mp hx
    have hc' := List.mem_filter.mp hc
    exact hnotin c hc'.1 hc'.2 (List.mem_singleton.mp hx2)
  · intro c hc hcp
    rw [hmod]
    rcases List.mem_append.mp hc with hc | hc
    · rw [hmodne _ (fun e => hnotin c hc hcp e.symm)]
      exact h.assigned c hc hcp
    · rw [List.mem_singleton.mp hc, getD_set_same _ _ _ _ (by rw [h.model_len]; exact hcap)]
      exact hn0
  · intro c hc hcp
    rw [hdat]
    rcases data_setData_or T b.lhs b.rhs c.lhs c.rhs ((T.data b.lhs b.rhs).Update false l r)
      with e | ⟨_, _, e⟩
    · rw [e]
      rcases List.mem_append.mp hc with hc | hc
      · exact h.posneq c hc hcp
      · rw [List.mem_singleton.mp hc]
        exact hneq
    · rw [e]
      rfl

/-- The exclusion of a name for an unassigned function keeps the relation. -/
theorem Fwd_neg {S T : Solver} {seg : List Literal} (a : Literal) (l : Nat) (r : Int)
    (h : Fwd S T seg) (ha : a.pos = false) (hm : T.model a.lhs = 0) :
    Fwd S (((T.pushTrail a).setData a.lhs a.rhs
      ((T.data a.lhs a.rhs).Update true l r)).setDomainSize a.lhs
        (T.domain_size_.getD a.lhs 0 - 1)) (seg ++ [a]) := by
  have hdat : ∀ g k, (((T.pushTrail a).setData a.lhs a.rhs
        ((T.data a.lhs a.rhs).Update true l r)).setDomainSize a.lhs
          (T.domain_size_.getD a.lhs 0 - 1)).data g k
      = (T.setData a.lhs a.rhs ((T.data a.lhs a.rhs).Update true l r)).data g k :=
    fun _ _ => rfl
  have hmod : ∀ g, (((T.pushTrail a).setData a.lhs a.rhs
        ((T.data a.lhs a.rhs).Update true l r)).setDomainSize a.lhs
          (T.domain_size_.getD a.lhs 0 - 1)).model g = T.model g := fun _ => rfl
  have hany : ∀ g, (seg ++ [a]).any (fun c => c.pos && c.lhs == g)
      = seg.any (fun c => c.pos && c.lhs == g) := by
    intro g
    rw [any_snoc, ha]
    simp
  constructor
  · show T.trail_ ++ [a] = S.trail_ ++ (seg ++ [a])
    rw [h.trail, List.append_assoc]
  · exact h.level
  · exact h.model_len
  · intro g hg
    rw [hmod]
    exact h.model g (any_false_of_snoc _ _ _ hg).1
  · intro c hc
    rcases List.mem_append.mp hc with hc | hc
    · exact h.unassigned c hc
    · rw [List.mem_singleton.mp hc]
      exact Fwd_unassigned h a.lhs hm
  · intro g k hg
    obtain ⟨hg1, hg2⟩ := any_false_of_snoc _ _ _ hg
    rw [hdat, data_setData_ne]
    · exact h.data g k hg1
    · by_cases e1 : g = a.lhs
      · right
        intro e2
        simp [e1, e2] at hg2
      · left
        exact e1
  · intro g k
    rw [hdat]
    exact reset_setData_Update S T _ _ _ _ _ h.reset g k
  · show (T.domain_size_.set a.lhs _).length = _
    rw [List.length_set]
    exact h.size_len
  · intro g hg
    show (T.domain_size_.set a.lhs (T.domain_size_.getD a.lhs 0 - 1)).getD g 0
      + negCount (seg ++ [a]) g = _
    rw [negCount_append, getD_set_eq]
    have hs := h.size g hg
    by_cases hag : a.lhs = g
    · have hc1 : a.lhs = g ∧ a.lhs < T.domain_size_.length :=
        ⟨hag, by rw [hag, h.size_len]; exact hg⟩
      have hc2 : a.pos = false ∧ a.lhs = g := ⟨ha, hag⟩
      rw [if_pos hc1, if_pos hc2, hag]
      push_cast
      omega
    · have hc1 : ¬ (a.lhs = g ∧ a.lhs < T.domain_size_.length) := fun e => hag e.1
      have hc2 : ¬ (a.pos = false ∧ a.lhs = g) := fun e => hag e.2
      rw [if_neg hc1, if_neg hc2]
      push_cast
      omega
  · exact h.heap
  · exact h.index_len
  · intro g
    rw [hany]
    exact h.contains g
  · rw [List.filter_append]
    have e : List.filter (fun c => c.pos) [a] = [] := by simp [ha]
    rw [e, List.append_nil]
    exact h.posdistinct
  · intro c hc hcp
    rw [hmod]
    rcases List.mem_append.mp hc with hc | hc
    · exact h.assigned c hc hcp
    · rw [List.mem_singleton.mp hc, ha] at hcp
      exact absurd hcp (by decide)
  · intro c hc hcp
    rcases List.mem_append.mp hc with hc | hc
    · rw [hdat, data_setData_ne]
      · exact h.posneq c hc hcp
      · left
        intro e
        have := h.assigned c hc hcp
        rw [e] at this
        exact this hm
    · rw [List.mem_singleton.mp hc, ha] at hcp
      exact absurd hcp (by decide)

/-- The four ways in which `Enqueue` ends. -/
theorem Enqueue_cases (sort : Nat → Nat) (T : Solver) (a : Literal) (r : Int) :
    Enqueue sort T a r = T ∨
    (a.pos = true ∧ T.model a.lhs = 0 ∧
      Enqueue sort T a r = (((T.pushTrail a).setData a.lhs a.rhs
        ((T.data a.lhs a.rhs).Update false T.current_level r)).setModel a.lhs
          a.rhs).orderRemove a.lhs) ∨
    (a.pos = false ∧ T.model a.lhs = 0 ∧
      (Enqueue sort T a r = EnqueueDomain sort (((T.pushTrail a).setData a.lhs a.rhs
          ((T.data a.lhs a.rhs).Update true T.current_level r)).setDomainSize a.lhs
            (T.domain_size_.getD a.lhs 0 - 1)) a.lhs ∨
        Enqueue sort T a r = (((T.pushTrail a).setData a.lhs a.rhs
          ((T.data a.lhs a.rhs).Update true T.current_level r)).setDomainSize a.lhs
            (T.domain_size_.getD a.lhs 0 - 1)).BumpToFront a.lhs)) := by
  unfold Enqueue
  dsimp only
  split
  · rename_i hg
    simp only [Bool.and_eq_true, beq_iff_eq] at hg
    right
    cases hp : a.pos
    · right
      refine ⟨rfl, hg.1, ?_⟩
      simp only [Bool.not_false, Bool.false_eq_true, if_false]
      split
      · exact Or.inl rfl
      · exact Or.inr rfl
    · left
      refine ⟨rfl, hg.1, ?_⟩
      simp only [Bool.not_true, if_true]
  · exact Or.inl rfl

theorem Fwd_orderIncrease {S T : Solver} {seg : List Literal} (f : Nat) (h : Fwd S T seg) :
    Fwd S (T.orderIncrease f) seg := by
  unfold orderIncrease
  split
  · rename_i hc
    have hin : T.order_.index_.getD f 0 ≠ 0 := by
      unfold Heap.Contains at hc
      simpa using hc
    have r := Heap.Increase_Ok (ActivityCompare T.activity_) T.order_ f h.heap hin
    exact Fwd_frame h rfl rfl rfl rfl rfl r.1 (Heap.Increase_length _ _ _) r.2
  · exact h

theorem Fwd_BumpToFront {S T : Solver} {seg : List Literal} (f : Nat) (h : Fwd S T seg) :
    Fwd S (T.BumpToFront f) seg := by
  unfold BumpToFront
  dsimp only
  apply Fwd_orderIncrease
  exact Fwd_frame h rfl rfl rfl rfl rfl h.heap rfl (fun _ => Iff.rfl)

theorem Fwd_CandidateName {S T : Solver} {seg : List Literal} (sort : Nat → Nat) (f : Nat)
    (h : Fwd S T seg) : Fwd S (CandidateName sort T f).2 seg := by
  rcases CandidateName_cases sort T f with e | ⟨i, e⟩
  · rw [e]
    exact h
  · rw [e]
    exact Fwd_frame h rfl rfl rfl rfl rfl h.heap rfl (fun _ => Iff.rfl)

/-- `Enqueue` keeps the relation when the literals that it puts on the trail can be assigned
afresh. -/
theorem Fwd_Enqueue {S T : Solver} {seg : List Literal} (sort : Nat → Nat) (a : Literal)
    (r : Int) (h : Fwd S T seg) (hfals : T.falsifies a (-1) = false)
    (hgood : ∀ seg', (Enqueue sort T a r).trail_ = S.trail_ ++ seg' → ∀ b ∈ seg', Fresh S b) :
    ∃ seg', Fwd S (Enqueue sort T a r) seg' := by
  rcases Enqueue_cases sort T a r with e | ⟨hp, hm, e⟩ | ⟨hp, hm, e | e⟩
  · rw [e]
    exact ⟨seg, h⟩
  · rw [e] at hgood ⊢
    have hf : Fresh S a := hgood (seg ++ [a]) (by
      show T.trail_ ++ [a] = _
      rw [h.trail, List.append_assoc]) a (List.mem_append_right _ (List.mem_singleton_self a))
    have hneq : (T.data a.lhs a.rhs).model_neq = false := by
      cases hx : (T.data a.lhs a.rhs).model_neq
      · rfl
      · have : T.falsifies a (-1) = true := (falsifies_iff T a).mpr (Or.inr ⟨hp, Or.inr hx⟩)
        rw [hfals] at this
        exact absurd this (by decide)
    exact ⟨seg ++ [a], Fwd_pos a _ r h hp hm hneq hf⟩
  · rw [e] at hgood ⊢
    have h1 := Fwd_neg a T.current_level r h hp hm
    have h2 := Fwd_CandidateName sort a.lhs h1
    have hfound := CandidateName_found sort (((T.pushTrail a).setData a.lhs a.rhs
      ((T.data a.lhs a.rhs).Update true T.current_level r)).setDomainSize a.lhs
        (T.domain_size_.getD a.lhs 0 - 1)) a.lhs
    have hdata := CandidateName_data_ sort (((T.pushTrail a).setData a.lhs a.rhs
      ((T.data a.lhs a.rhs).Update true T.current_level r)).setDomainSize a.lhs
        (T.domain_size_.getD a.lhs 0 - 1)) a.lhs
    have hmodel := CandidateName_model_ sort (((T.pushTrail a).setData a.lhs a.rhs
      ((T.data a.lhs a.rhs).Update true T.current_level r)).setDomainSize a.lhs
        (T.domain_size_.getD a.lhs 0 - 1)) a.lhs
    unfold EnqueueDomain at hgood ⊢
    dsimp only at hgood ⊢
    generalize CandidateName sort (((T.pushTrail a).setData a.lhs a.rhs
      ((T.data a.lhs a.rhs).Update true T.current_level r)).setDomainSize a.lhs
        (T.domain_size_.getD a.lhs 0 - 1)) a.lhs = cn at h2 hfound hdata hmodel hgood ⊢
    have hf : Fresh S (Literal.Eq a.lhs cn.1) := hgood ((seg ++ [a]) ++ [Literal.Eq a.lhs cn.1])
      (by
        show cn.2.trail_ ++ [Literal.Eq a.lhs cn.1] = _
        rw [h2.trail, List.append_assoc])
      _ (List.mem_append_right _ (List.mem_singleton_self _))
    have hm2 : cn.2.model (Literal.Eq a.lhs cn.1).lhs = 0 := by
      show cn.2.model a.lhs = 0
      rw [model_congr hmodel]
      exact hm
    have hneq : (cn.2.data (Literal.Eq a.lhs cn.1).lhs (Literal.Eq a.lhs cn.1).rhs).model_neq
        = false := by
      show (cn.2.data a.lhs cn.1).model_neq = false
      rw [data_congr hdata]
      rcases hfound with e0 | ⟨_, e0⟩
      · exact absurd e0 hf.1
      · exact e0
    exact ⟨(seg ++ [a]) ++ [Literal.Eq a.lhs cn.1],
      Fwd_pos (Literal.Eq a.lhs cn.1) _ kDomainRef h2 rfl hm2 hneq hf⟩
  · rw [e]
    exact ⟨seg ++ [a], Fwd_BumpToFront a.lhs (Fwd_neg a T.current_level r h hp hm)⟩

theorem Enqueue_trail_prefix (sort : Nat → Nat) (T : Solver) (a : Literal) (r : Int) :
    ∃ ext, (Enqueue sort T a r).trail_ = T.trail_ ++ ext := by
  rcases Enqueue_cases sort T a r with e | ⟨_, _, e⟩ | ⟨_, _, e | e⟩
  · rw [e]
    exact ⟨[], (List.append_nil _).symm⟩
  · rw [e]
    exact ⟨[a], rfl⟩
  · rw [e]
    unfold EnqueueDomain
    dsimp only
    rw [orderRemove_trail_, setModel_trail_, setData_trail_, pushTrail_trail_,
      CandidateName_trail_]
    exact ⟨_, List.append_assoc T.trail_ [a] _⟩
  · rw [e]
    refine ⟨[a], ?_⟩
    have : ∀ s : Solver, (s.BumpToFront a.lhs).trail_ = s.trail_ := by
      intro s
      unfold BumpToFront orderIncrease
      dsimp only
      split <;> rfl
    rw [this]
    rfl

/-- Every state above `S` whose new trail literals can be assigned afresh is related to `S`. -/
theorem Fwd_of_Above (sort : Nat → Nat) (S T : Solver) (hok : S.order_.Ok)
    (h : Above sort S T) :
    (∀ b ∈ T.trail_.drop S.trail_.length, Fresh S b) → ∃ seg, Fwd S T seg := by
  induction h with
  | level =>
    intro _
    exact ⟨[], Fwd_start S hok⟩
  | enqueue T a r _ hfals ih =>
    intro hnew
    obtain ⟨ext, hext⟩ := Enqueue_trail_prefix sort T a r
    have hT : ∀ b ∈ T.trail_.drop S.trail_.length, Fresh S b := by
      intro b hb
      apply hnew b
      rw [hext]
      by_cases hl : S.trail_.length ≤ T.trail_.length
      · rw [List.drop_append_of_le_length hl]
        exact List.mem_append_left _ hb
      · rw [List.drop_eq_nil_of_le (by omega)] at hb
        exact absurd hb (List.not_mem_nil b)
    obtain ⟨seg, hF⟩ := ih hT
    apply Fwd_Enqueue sort a r hF hfals
    intro seg' hseg' b hb
    apply hnew b
    rw [hseg', List.drop_left]
    exact hb

/-- C27: `Backtrack` undoes a level. For every solver `S` whose order heap is in order with itself,
and every solver `T` reached from `S` by `NewLevel` and calls of `Enqueue` for literals that
are not falsified, such that the literals of the trail above `S` have non-null names and
pairs in the reset state in `S`, and the positive ones have functions in the order heap of
`S` and within the capacity of `model_`: `Backtrack` to the level of `S` yields the trail,
the level marks, the model, the entries of `data_` (with the flags `model_neq`, the levels
and the reasons) and the domain sizes of `S`, and an order heap with the elements of the
heap of `S`. -/
theorem C27_Backtrack_undoes_level (sort : Nat → Nat) (S T : Solver) (h : Above sort S T)
    (hok : S.order_.Ok) (hnew : ∀ b ∈ T.trail_.drop S.trail_.length, Fresh S b) :
    (T.Backtrack S.current_level).trail_ = S.trail_ ∧
    (T.Backtrack S.current_level).level_size_ = S.level_size_ ∧
    (∀ f, (T.Backtrack S.current_level).model f = S.model f) ∧
    (∀ f n, (T.Backtrack S.current_level).data f n = S.data f n) ∧
    (∀ f, (T.Backtrack S.current_level).domain_size_.getD f 0 = S.domain_size_.getD f 0) ∧
    (∀ f, (T.Backtrack S.current_level).order_.Contains f = S.order_.Contains f) := by
  obtain ⟨seg, hF⟩ := Fwd_of_Above sort S T hok h hnew
  have hseg : T.trail_.drop S.trail_.length = seg := by
    rw [hF.trail, List.drop_left]
  rw [hseg] at hnew
  have hstart : T.level_size_.getD S.current_level 0 = S.trail_.length := by
    unfold current_level
    rw [hF.level]
    exact getD_append_length _ _
  have hfr := foldl_BacktrackStep_frame seg T
  have hM := undo_model seg T
  have hD := undo_data seg T hF.posneq
  have hZ := undo_size seg T
  have hpos : ∀ b ∈ seg, b.pos = true →
      seg.any (fun c => c.pos && c.lhs == b.lhs) = true := by
    intro b hb hp
    exact List.any_eq_true.mpr ⟨b, hb, by simp [hp]⟩
  have hH := undo_heap seg T hF.heap (by
    intro b hb hp
    refine ⟨?_, ?_⟩
    · by_contra hc
      have := ((hF.contains b.lhs).mp hc).2
      rw [hpos b hb hp] at this
      exact absurd this (by decide)
    · rw [hF.index_len]
      exact lt_length_of_getD_ne _ _ ((hnew b hb).2.2 hp).1) hF.posdistinct
  have hmodel : ∀ f, (T.Backtrack S.current_level).model f = (seg.foldl BacktrackStep T).model f := by
    intro f
    unfold Backtrack
    dsimp only
    rw [hstart, hseg]
    rfl
  have hdata : ∀ f n, (T.Backtrack S.current_level).data f n
      = (seg.foldl BacktrackStep T).data f n := by
    intro f n
    unfold Backtrack
    dsimp only
    rw [hstart, hseg]
    rfl
  have hsize : (T.Backtrack S.current_level).domain_size_
      = (seg.foldl BacktrackStep T).domain_size_ := by
    unfold Backtrack
    dsimp only
    rw [hstart, hseg]
  have horder : (T.Backtrack S.current_level).order_ = (seg.foldl BacktrackStep T).order_ := by
    unfold Backtrack
    dsimp only
    rw [hstart, hseg]
  refine ⟨?_, ?_, ?_, ?_, ?_, ?_⟩
  · unfold Backtrack
    dsimp only
    rw [hstart, hseg, hfr.1, hF.trail, resize_of_le _ _ _ (by rw [List.length_append]; omega),
      List.take_left]
  · unfold Backtrack
    dsimp only
    rw [hstart, hseg, hfr.2, hF.level]
    unfold current_level
    rw [resize_of_le _ _ _ (by rw [List.length_append]; omega), List.take_left]
  · intro f
    rw [hmodel, hM]
    split
    · rename_i hx
      obtain ⟨b, hb, hb2⟩ := List.any_eq_true.mp hx
      simp only [beq_iff_eq] at hb2
      rw [← hb2]
      exact (hF.unassigned b hb).symm
    · rename_i hx
      exact hF.model f (by simpa using hx)
  · intro f n
    rw [hdata, hD]
    split
    · rename_i hx
      obtain ⟨b, hb, hb2⟩ := List.any_eq_true.mp hx
      simp only [Bool.and_eq_true, beq_iff_eq] at hb2
      rw [hF.reset, ← hb2.1, ← hb2.2]
      exact (hnew b hb).2.1
    · rename_i hx
      exact hF.data f n (by simpa using hx)
  · intro f
    rw [hsize]
    by_cases hf : f < S.domain_size_.length
    · rw [hZ.2 f (by rw [hF.size_len]; exact hf)]
      exact hF.size f hf
    · rw [List.getD_eq_default _ _ (by rw [hZ.1, hF.size_len]; omega),
        List.getD_eq_default _ _ (Nat.le_of_not_lt hf)]
  · intro f
    rw [horder]
    unfold Heap.Contains
    have e := hH.2 f
    rw [hF.contains f] at e
    have key : (seg.foldl BacktrackStep T).order_.index_.getD f 0 ≠ 0 ↔
        S.order_.index_.getD f 0 ≠ 0 := by
      rw [e]
      constructor
      · intro c
        rcases c with c | c
        · exact c.1
        · obtain ⟨b, hb, hb2⟩ := List.any_eq_true.mp c
          simp only [Bool.and_eq_true, beq_iff_eq] at hb2
          rw [← hb2.2]
          exact ((hnew b hb).2.2 hb2.1).1
      · intro c
        cases hx : seg.any (fun b => b.pos && b.lhs == f)
        · exact Or.inl ⟨c, rfl⟩
        · exact Or.inr rfl
    by_cases hc : S.order_.index_.getD f 0 = 0
    · have : (seg.foldl BacktrackStep T).order_.index_.getD f 0 = 0 := by
        by_contra hn
        exact (key.mp hn) hc
      rw [this, hc]
    · have h1 : (seg.foldl BacktrackStep T).order_.index_.getD f 0 ≠ 0 := key.mpr hc
      have e1 : ((seg.foldl BacktrackStep T).order_.index_.getD f 0 != 0) = true :=
        bne_iff_ne.mpr h1
      have e2 : (S.order_.index_.getD f 0 != 0) = true := bne_iff_ne.mpr hc
      rw [e1, e2]

/-- Witness for C27: after `Init` for the clauses `f = 1 ∨ g = 1` and `f = 1 ∨ g = 2` and the unit
`h = 1`, the calls `NewLevel`, `Enqueue(f ≠ 1)` and `Enqueue(g = 2)` put `f ≠ 1`, `f = 9` and
`g = 2` on the trail, and `Backtrack(1)` restores the state. -/
theorem C27_Backtrack_undoes_level_witness :
    (Above oneSort undoBase undoAbove ∧ undoBase.order_.Ok ∧
      (∀ b ∈ undoAbove.trail_.drop undoBase.trail_.length, Fresh undoBase b)) ∧
    undoAbove.trail_.drop undoBase.trail_.length = [⟨false, 1, 1⟩, ⟨true, 1, 9⟩, ⟨true, 2, 2⟩] ∧
    undoBase.current_level = 1 ∧
    ((undoAbove.Backtrack undoBase.current_level).trail_ = undoBase.trail_ ∧
      (undoAbove.Backtrack undoBase.current_level).level_size_ = undoBase.level_size_ ∧
      (∀ f, (undoAbove.Backtrack undoBase.current_level).model f = undoBase.model f) ∧
      (∀ f n, (undoAbove.Backtrack undoBase.current_level).data f n = undoBase.data f n) ∧
      (∀ f, (undoAbove.Backtrack undoBase.current_level).domain_size_.getD f 0
        = undoBase.domain_size_.getD f 0) ∧
      (∀ f, (undoAbove.Backtrack undoBase.current_level).order_.Contains f
        = undoBase.order_.Contains f)) :=
  have ha : Above oneSort undoBase undoAbove :=
    Above.enqueue _ ⟨true, 2, 2⟩ kNullRef
      (Above.enqueue _ ⟨false, 1, 1⟩ kNullRef Above.level (by decide!)) (by decide!)
  have hok : undoBase.order_.Ok := by decide!
  have hnew : ∀ b ∈ undoAbove.trail_.drop undoBase.trail_.length, Fresh undoBase b := by
    decide!
  ⟨⟨ha, hok, hnew⟩, by decide!, by decide!,
    C27_Backtrack_undoes_level oneSort undoBase undoAbove ha hok hnew⟩

end Solver

namespace esbl

/-! ### The ECLiPSe-CLP interface -/

/-- C18 (the code at the failing input): for the Prolog term `(p <-> q)`, whose parts build to
the atoms `p` and `q`, `Build` returns `(¬p ∨ q) ∧ (p ∨ ¬p)`: the second conjunct is made of
two copies of the first part. Under the assignment that makes `q` true and `p` false the
result is true although `p` and `q` differ in truth value. -/
theorem C18_equivalence_uses_first_part_twice :
    (FormulaBuilder.Build twoPreds (.atom "p")).1 = some (Formula.Lit true 1 []) ∧
    (FormulaBuilder.Build twoPreds (.atom "q")).1 = some (Formula.Lit true 2 []) ∧
    (FormulaBuilder.Build twoPreds (.functor "<->" [.atom "p", .atom "q"])).1
      = some (Formula.And
          (Formula.Or (Formula.Neg (Formula.Lit true 1 [])) (Formula.Lit true 2 []))
          (Formula.Or (Formula.Lit true 1 []) (Formula.Neg (Formula.Lit true 1 [])))) ∧
    ((FormulaBuilder.Build twoPreds (.functor "<->" [.atom "p", .atom "q"])).1.map
      (Formula.holds onlyQ)) = some true ∧
    Formula.holds onlyQ (Formula.Lit true 1 []) = false ∧
    Formula.holds onlyQ (Formula.Lit true 2 []) = true := by
  decide

/-- C19 (the code at the failing input): a context created by `CreateInstance` for the BAT
`kr2014` in storage whose byte for `regression_enabled_` is set answers `UseRegression()` with
true, since the constructor does not initialise the member; only `UseRegression(false)`
makes it false. -/
theorem C19_regression_flag_uninitialised :
    (Context.CreateInstance "kr2014" twoPreds true).map Context.UseRegression = some true ∧
    (Context.CreateInstance "kr2014" twoPreds false).map Context.UseRegression = some false ∧
    ((Context.CreateInstance "kr2014" twoPreds true).map
      (fun c => (c.setUseRegression false).UseRegression)) = some false := by
  decide!

end esbl

namespace LimSat

/-! ### The limited satisfiability driver -/

theorem addLit_clauses_ (s : LimSat) (a : Lit) : (addLit s a).clauses_ = s.clauses_ := by
  unfold addLit
  dsimp only
  split <;> rfl

theorem foldl_addLit_clauses_ (as : List Lit) :
    ∀ s : LimSat, (as.foldl addLit s).clauses_ = s.clauses_ := by
  induction as with
  | nil => intro s; rfl
  | cons a as ih =>
    intro s
    rw [List.foldl_cons, ih, addLit_clauses_]

theorem mem_setPlace (x y : List Lit) (c : List (List Lit)) :
    y ∈ setPlace x c ↔ y = x ∨ y ∈ c := by
  induction c with
  | nil => simp [setPlace]
  | cons z zs ih =>
    unfold setPlace
    split
    · simp
    · rw [List.mem_cons, ih, List.mem_cons]
      tauto

theorem mem_setInsert (x y : List Lit) (c : List (List Lit)) :
    y ∈ (setInsert c x).1 ↔ y = x ∨ y ∈ c := by
  unfold setInsert
  split
  · rename_i h
    constructor
    · exact Or.inr
    · rintro (rfl | h1)
      · exact h
      · exact h1
  · exact mem_setPlace x y c

theorem AddClause_clauses_ (s : LimSat) (as : List Lit) :
    (AddClause s as).2.clauses_ = (setInsert s.clauses_ (sortLits as)).1 := by
  unfold AddClause
  dsimp only
  split
  · rw [foldl_addLit_clauses_]
  · rfl

theorem AddClause_fst (s : LimSat) (as : List Lit) :
    (AddClause s as).1 = true ↔ sortLits as ∉ s.clauses_ := by
  unfold AddClause setInsert
  dsimp only
  by_cases h : sortLits as ∈ s.clauses_
  · simp [h]
  · simp [h]

theorem mem_AddClauses (cs : List (List Lit)) (y : List Lit) :
    y ∈ (AddClauses cs).clauses_ ↔ ∃ c ∈ cs, sortLits c = y := by
  induction cs using List.reverseRecOn with
  | nil => simp [AddClauses, init]
  | append_singleton cs c ih =>
    have e : AddClauses (cs ++ [c]) = (AddClause (AddClauses cs) c).2 := by
      unfold AddClauses
      rw [List.foldl_append]
      rfl
    rw [e, AddClause_clauses_, mem_setInsert, ih]
    constructor
    · rintro (rfl | ⟨d, hd, rfl⟩)
      · exact ⟨c, by simp, rfl⟩
      · exact ⟨d, by simp [hd], rfl⟩
    · rintro ⟨d, hd, rfl⟩
      rcases List.mem_append.mp hd with h | h
      · exact Or.inr ⟨d, h, rfl⟩
      · rw [List.mem_singleton] at h
        subst h
        exact Or.inl rfl

/-- Two literal sequences have the same sorted form iff they hold the same literals up to
order. -/
theorem sortLits_eq_iff_perm (as bs : List Lit) : sortLits as = sortLits bs ↔ as.Perm bs := by
  have htot : IsTotal Lit (fun a b => a.id ≤ b.id) := ⟨fun a b => Nat.le_total a.id b.id⟩
  have htrans : IsTrans Lit (fun a b => a.id ≤ b.id) := ⟨fun a b c => Nat.le_trans⟩
  have hanti : IsAntisymm Lit (fun a b => a.id ≤ b.id) :=
    ⟨fun a b h1 h2 => by
      cases a
      cases b
      simp only [Lit.mk.injEq]
      exact Nat.le_antisymm h1 h2⟩
  unfold sortLits
  constructor
  · intro h
    have h1 := (List.perm_insertionSort (fun a b : Lit => a.id ≤ b.id) as).symm
    rw [h] at h1
    exact h1.trans (List.perm_insertionSort _ bs)
  · intro h
    apply List.eq_of_perm_of_sorted _ (List.sorted_insertionSort _ as)
      (List.sorted_insertionSort _ bs)
    exact ((List.perm_insertionSort _ as).trans h).trans (List.perm_insertionSort _ bs).symm

/-- C15: after the clauses `cs` were added to a fresh `LimSat` in turn, `AddClause(lits)` returns
true iff no clause of `cs` has the same sorted literal sequence as `lits`, that is, iff none
holds the same literals up to order; and afterwards `clauses()` contains the sorted form of
`lits` in either case. -/
theorem C15_AddClause_new_iff (cs : List (List Lit)) (lits : List Lit) :
    ((AddClause (AddClauses cs) lits).1 = true ↔ ∀ c ∈ cs, sortLits c ≠ sortLits lits) ∧
    ((AddClause (AddClauses cs) lits).1 = true ↔ ∀ c ∈ cs, ¬ c.Perm lits) ∧
    sortLits lits ∈ (AddClause (AddClauses cs) lits).2.clauses := by
  have h1 : (AddClause (AddClauses cs) lits).1 = true ↔ ∀ c ∈ cs, sortLits c ≠ sortLits lits := by
    rw [AddClause_fst, mem_AddClauses]
    constructor
    · intro h c hc e
      exact h ⟨c, hc, e⟩
    · rintro h ⟨c, hc, e⟩
      exact h c hc e
  refine ⟨h1, ?_, ?_⟩
  · rw [h1]
    constructor
    · intro h c hc hp
      exact h c hc ((sortLits_eq_iff_perm c lits).mpr hp)
    · intro h c hc e
      exact h c hc ((sortLits_eq_iff_perm c lits).mp e)
  · show sortLits lits ∈ (AddClause (AddClauses cs) lits).2.clauses_
    rw [AddClause_clauses_, mem_setInsert]
    exact Or.inl rfl

/-- C16 (the code at the failing input): on a fresh `LimSat`, `Solve` with the query `f = 1`
registers the extra name `2` with the SAT core; at the SAT invocation of a second `Solve`, with
the query `f = 2`, the pair `(f, 2)` is registered and `extra_name_id_` has become `3`, but the
extra name known to the SAT core is still `2`, the name that occurs in the current query. -/
theorem C16_extra_name_not_fresh :
    (atSatCall init [Lit.Eq 1 1]).sat_.extra_name = some 2 ∧
    (atSatCall (atSatCall init [Lit.Eq 1 1]) [Lit.Eq 1 2]).sat_.extra_name = some 2 ∧
    (atSatCall (atSatCall init [Lit.Eq 1 1]) [Lit.Eq 1 2]).sat_.registered 1 2 = true ∧
    (atSatCall (atSatCall init [Lit.Eq 1 1]) [Lit.Eq 1 2]).extra_name_id_ = 3 ∧
    (Lit.Eq 1 2).name = 2 ∧ (Lit.Eq 1 2).func = 1 := by
  decide

/-- The callbacks of `FindModel` for the query `f = 1` keep a snapshot that is either unset or
satisfies the query, as long as every model shown has `f = 1`. -/
theorem fold_onEvent_queryEq (wim : Bool) (wanted : List Bool) (es : List SatEvent)
    (hes : ∀ e ∈ es, ∀ m, (e = SatEvent.decision m ∨ e = SatEvent.solution m) → m.getD 1 0 = 1) :
    ∀ c : Snapshot, (c.partial_model_size < 0 ∨ queryEq c.partial_model = true) →
      ((es.foldl (onEvent 0 wim wanted queryEq) c).partial_model_size < 0 ∨
        queryEq (es.foldl (onEvent 0 wim wanted queryEq) c).partial_model = true) := by
  induction es with
  | nil => intro c hc; exact hc
  | cons e es ih =>
    intro c hc
    rw [List.foldl_cons]
    apply ih (fun e' he' => hes e' (List.mem_cons_of_mem _ he'))
    cases e with
    | conflict => exact hc
    | decision m =>
      simp only [onEvent]
      split
      · right
        have := hes (SatEvent.decision m) (List.mem_cons_self _ _) m (Or.inl rfl)
        show (m.getD 1 0 == 1) = true
        rw [this]
        rfl
      · exact hc
    | solution m =>
      simp only [onEvent]
      split
      · rename_i hcond
        have := hes (SatEvent.solution m) (List.mem_cons_self _ _) m (Or.inr rfl)
        have hq : queryEq m = true := by
          show (m.getD 1 0 == 1) = true
          rw [this]
          rfl
        rw [hq] at hcond
        simp at hcond
      · exact hc

theorem FindModel_unit_fails (solve : SatSolve) (hunit : RespectsUnit solve)
    (hsat : SatMeansRejected solve) (s : LimSat) (pwl wim : Bool) (wanted : List Bool)
    (hs : [Lit.Eq 1 1] ∈ (InitSat s).sat_.clauses_) :
    FindModel solve s 0 queryEq pwl wim wanted = (⟨[], false⟩, InitSat s) := by
  obtain ⟨he, hm⟩ := hunit (InitSat s).sat_ pwl wanted queryEq hs
  have hk : ((solve (InitSat s).sat_ pwl wanted queryEq).truth == kSat) = false := by
    rw [beq_eq_false_iff_ne]
    intro hk
    have h1 := hsat (InitSat s).sat_ pwl wanted queryEq hk
    have h2 : queryEq (solve (InitSat s).sat_ pwl wanted queryEq).model = true := by
      show ((solve (InitSat s).sat_ pwl wanted queryEq).model.getD 1 0 == 1) = true
      rw [hm]
      rfl
    rw [h2] at h1
    exact absurd h1 (by decide)
  have hf := fold_onEvent_queryEq wim wanted _ he ⟨[], -1, 0⟩ (Or.inl (by decide))
  unfold FindModel
  dsimp only
  rw [hk]
  simp only [Bool.false_eq_true, if_false]
  split
  · rename_i hc
    simp only [Bool.and_eq_true, decide_eq_true_eq, Bool.not_eq_true'] at hc
    rcases hf with hf | hf
    · have := hc.1
      omega
    · rw [hf] at hc
      exact absurd hc.2 (by decide)
  · rfl

/-- C17 (counterexample): for a `LimSat` holding the single clause `f = 1` and the query `f = 1`,
with a SAT core whose run shows the one model `f = 1` to the third callback and then answers
that no model is left, `Solve(0, query)` returns false. -/
theorem C17_unit_clause_query_false :
    FindModels unitRun 2 (AddClause init [Lit.Eq 1 1]).2 0 [Lit.Eq 1 1] queryEq = some false := by
  decide

/-- C17 (amended): for a `LimSat` holding the single clause `f = 1` and the query `f = 1`,
`Solve(0, query)` returns false, whatever SAT core is used, as long as the core shows only
models with `f = 1` once the clause is added and answers `kSat` only with a model that the
third callback rejected (a model that does not satisfy the query). -/
theorem C17_unit_clause_query (solve : SatSolve) (hunit : RespectsUnit solve)
    (hsat : SatMeansRejected solve) (fuel : Nat) :
    FindModels solve (fuel + 2) (AddClause init [Lit.Eq 1 1]).2 0 [Lit.Eq 1 1] queryEq
      = some false := by
  have h1 : [Lit.Eq 1 1] ∈
      (InitSat (UpdateDomainsForQuery (AddClause init [Lit.Eq 1 1]).2 [Lit.Eq 1 1])).sat_.clauses_ := by
    decide
  have h2 : [Lit.Eq 1 1] ∈
      (InitSat (InitSat (UpdateDomainsForQuery (AddClause init [Lit.Eq 1 1]).2
        [Lit.Eq 1 1]))).sat_.clauses_ := by
    decide
  have hloop : ∀ wanted : List Bool, FindCoveringLoop solve 0 queryEq (fuel + 2)
      (UpdateDomainsForQuery (AddClause init [Lit.Eq 1 1]).2 [Lit.Eq 1 1]) [] [] wanted true false
      = some (⟨[], [], false⟩,
          InitSat (InitSat (UpdateDomainsForQuery (AddClause init [Lit.Eq 1 1]).2
            [Lit.Eq 1 1]))) := by
    intro wanted
    unfold FindCoveringLoop
    dsimp only
    rw [FindModel_unit_fails solve hunit hsat _ true false _ h1]
    simp only [Bool.not_false, Bool.and_self, if_true]
    unfold FindCoveringLoop
    dsimp only
    rw [FindModel_unit_fails solve hunit hsat _ false false _ h2]
    simp
  unfold FindModels
  dsimp only
  unfold FindCoveringModels
  dsimp only
  rw [Nat.cast_zero, hloop]
  simp

/-- Witness for C17: the SAT core whose run shows the one model `f = 1` meets both conditions. -/
theorem C17_unit_clause_query_witness :
    RespectsUnit unitRun ∧ SatMeansRejected unitRun ∧
    FindModels unitRun (0 + 2) (AddClause init [Lit.Eq 1 1]).2 0 [Lit.Eq 1 1] queryEq
      = some false :=
  have hu : RespectsUnit unitRun := by
    intro sat pwl wanted sb _
    refine ⟨?_, rfl⟩
    intro e he m hm
    have : e = SatEvent.solution [0, 1] := by
      simpa [unitRun] using he
    subst this
    rcases hm with hm | hm
    · cases hm
    · cases hm
      rfl
  have hs : SatMeansRejected unitRun := by
    intro sat pwl wanted sb h
    have h0 : (-1 : Int) = 1 := h
    exact absurd h0 (by decide)
  ⟨hu, hs, C17_unit_clause_query unitRun hu hs 0⟩

end LimSat

/-! ## `Term::is_ground` of term.h -/

namespace Term

/-- C40, evaluated on the code: `is_ground()` compares the type with `VAR`, as `is_variable()`
does, so it is false for the standard name made by `CreateStdName(1)` and true for the variable
made by `CreateVariable(1)`; for these two terms it agrees with `is_variable()` and not with
`is_name()`. -/
theorem C40_is_ground_true_for_variables :
    (CreateStdName 1).is_ground = false ∧ (CreateVariable 1).is_ground = true ∧
    (CreateStdName 1).is_name = true ∧ (CreateVariable 1).is_variable = true := by
  decide

end Term

/-! ## The lexer: longest words and token ids -/

namespace pdl

theorem foldl_matchStep (w : List Char) : ∀ (ls : LexemeVector) (best : Match × TokenId),
    ls.foldl (matchStep w) best =
      if best.1 = Match.kFullMatch then best
      else
        match firstMatch ls w Match.kFullMatch with
        | some p => (Match.kFullMatch, p.1)
        | none =>
          if best.1 = Match.kPrefixMatch then best
          else
            match firstMatch ls w Match.kPrefixMatch with
            | some p => (Match.kPrefixMatch, p.1)
            | none => best := by
  intro ls
  induction ls with
  | nil =>
    intro best
    simp [firstMatch]
  | cons p ls ih =>
    intro best
    rw [List.foldl_cons, ih]
    obtain ⟨b, t⟩ := best
    have e1 : (Match.kMismatch == Match.kFullMatch) = false := by decide
    have e2 : (Match.kMismatch == Match.kPrefixMatch) = false := by decide
    have e3 : (Match.kPrefixMatch == Match.kFullMatch) = false := by decide
    have e4 : (Match.kPrefixMatch == Match.kMismatch) = false := by decide
    have e5 : (Match.kFullMatch == Match.kMismatch) = false := by decide
    have e6 : (Match.kFullMatch == Match.kPrefixMatch) = false := by decide
    cases b <;> cases h : p.2 w <;>
      simp [matchStep, firstMatch, List.find?, h, e1, e2, e3, e4, e5, e6]

theorem LexemeMatch_eq (ls : LexemeVector) (w : List Char) :
    LexemeMatch ls w =
      match firstMatch ls w Match.kFullMatch with
      | some p => (Match.kFullMatch, p.1)
      | none =>
        match firstMatch ls w Match.kPrefixMatch with
        | some p => (Match.kPrefixMatch, p.1)
        | none => (Match.kMismatch, TokenId.kError) := by
  unfold LexemeMatch
  rw [foldl_matchStep]
  simp

theorem LexemeMatch_snd (ls : LexemeVector) (w : List Char) :
    (LexemeMatch ls w).2 = firstId ls w := by
  rw [LexemeMatch_eq]
  unfold firstId
  cases firstMatch ls w Match.kFullMatch with
  | some p => rfl
  | none =>
    cases firstMatch ls w Match.kPrefixMatch with
    | some p => rfl
    | none => rfl

theorem LexemeMatch_mismatch (ls : LexemeVector) (w : List Char)
    (h : (LexemeMatch ls w).1 = Match.kMismatch) : ∀ p ∈ ls, p.2 w = Match.kMismatch := by
  rw [LexemeMatch_eq] at h
  intro p hp
  cases h1 : firstMatch ls w Match.kFullMatch with
  | some q =>
    rw [h1] at h
    exact absurd h (by simp)
  | none =>
    rw [h1] at h
    cases h2 : firstMatch ls w Match.kPrefixMatch with
    | some q =>
      rw [h2] at h
      exact absurd h (by simp)
    | none =>
      have a1 := List.find?_eq_none.mp h1 p hp
      have a2 := List.find?_eq_none.mp h2 p hp
      cases h3 : p.2 w with
      | kMismatch => rfl
      | kPrefixMatch => simp [h3] at a2
      | kFullMatch => simp [h3] at a1

theorem mismatches_take : ∀ (r s : List Char) (n : Nat),
    mismatches (r.take n) s = true → mismatches r s = true := by
  intro r
  induction r with
  | nil =>
    intro s n h
    simp [mismatches] at h
  | cons c r ih =>
    intro s n h
    cases n with
    | zero => simp [mismatches] at h
    | succ n =>
      cases s with
      | nil => rfl
      | cons d s =>
        rw [List.take_succ_cons] at h
        simp only [mismatches, Bool.or_eq_true] at h ⊢
        rcases h with h | h
        · exact Or.inl h
        · exact Or.inr (ih s n h)

theorem IsPrefix_mismatch_iff (w : List Char) (sentence : String) :
    IsPrefix w sentence = Match.kMismatch ↔
      (w.length > sentence.length ∨ mismatches (w.map Char.toLower) sentence.toList = true) := by
  unfold IsPrefix
  dsimp only
  by_cases hc : (decide (w.length > sentence.length) ||
      mismatches (w.map Char.toLower) sentence.toList) = true
  · rw [if_pos hc]
    simpa using hc
  · rw [if_neg hc]
    constructor
    · intro h
      split at h <;> exact absurd h (by simp)
    · intro h
      exact absurd (by simpa using h) hc

theorem IsPrefix_closed (sentence : String) : PrefixClosed (fun w => IsPrefix w sentence) := by
  intro w n _ h
  have h1 := (IsPrefix_mismatch_iff (w.take n) sentence).mp h
  apply (IsPrefix_mismatch_iff w sentence).mpr
  rcases h1 with h1 | h1
  · left
    rw [List.length_take] at h1
    omega
  · right
    rw [List.map_take] at h1
    exact mismatches_take _ _ _ h1

theorem max_mismatch (a b : Match) :
    Match.max a b = Match.kMismatch ↔ a = Match.kMismatch ∧ b = Match.kMismatch := by
  cases a <;> cases b <;> simp [Match.max, Match.toNat]

theorem foldl_max_mismatch (g : String → Match) : ∀ (ss : List String) (m : Match),
    ss.foldl (fun m s => Match.max m (g s)) m = Match.kMismatch ↔
      (m = Match.kMismatch ∧ ∀ s ∈ ss, g s = Match.kMismatch) := by
  intro ss
  induction ss with
  | nil =>
    intro m
    simp
  | cons s ss ih =>
    intro m
    rw [List.foldl_cons, ih, max_mismatch]
    simp only [List.mem_cons, forall_eq_or_imp]
    tauto

theorem IsPrefixAny_closed (sentences : List String) :
    PrefixClosed (fun w => IsPrefixAny w sentences) := by
  intro w n hn h
  have h1 := ((foldl_max_mismatch (fun s => IsPrefix (w.take n) s) sentences _).mp h).2
  apply (foldl_max_mismatch (fun s => IsPrefix w s) sentences _).mpr
  exact ⟨rfl, fun s hs => IsPrefix_closed s w n hn (h1 s hs)⟩

theorem all_take (p : Char → Bool) (w : List Char) (n : Nat) (h : w.all p = true) :
    (w.take n).all p = true := by
  rw [List.all_eq_true] at h ⊢
  intro x hx
  exact h x (List.mem_of_mem_take hx)

theorem uintLexeme_closed : PrefixClosed uintLexeme := by
  intro w n hn h
  cases w with
  | nil => simp [uintLexeme] at h
  | cons c rest =>
    obtain ⟨k, rfl⟩ : ∃ k, n = k + 1 := ⟨n - 1, by omega⟩
    rw [List.take_succ_cons] at h
    unfold uintLexeme at h ⊢
    dsimp only at h ⊢
    by_cases hc : ((c != '0' || rest.isEmpty) && (c :: rest).all IsDigit) = true
    · have hc2 : ((c != '0' || (rest.take k).isEmpty) && (c :: rest.take k).all IsDigit) = true := by
        rw [Bool.and_eq_true] at hc ⊢
        refine ⟨?_, ?_⟩
        · rw [Bool.or_eq_true] at hc ⊢
          rcases hc.1 with a | a
          · exact Or.inl a
          · right
            rw [List.isEmpty_iff] at a
            rw [a]
            simp
        · have := all_take IsDigit (c :: rest) (k + 1) hc.2
          rwa [List.take_succ_cons] at this
      rw [if_pos hc2] at h
      exact absurd h (by simp)
    · rw [if_neg hc]

theorem identifierLexeme_closed : PrefixClosed identifierLexeme := by
  intro w n hn h
  cases w with
  | nil => simp [identifierLexeme] at h
  | cons c rest =>
    obtain ⟨k, rfl⟩ : ∃ k, n = k + 1 := ⟨n - 1, by omega⟩
    rw [List.take_succ_cons] at h
    unfold identifierLexeme at h ⊢
    dsimp only at h ⊢
    by_cases hc : (IsAlpha c && (c :: rest).all IsAlnum) = true
    · have hc2 : (IsAlpha c && (c :: rest.take k).all IsAlnum) = true := by
        rw [Bool.and_eq_true] at hc ⊢
        refine ⟨hc.1, ?_⟩
        have := all_take IsAlnum (c :: rest) (k + 1) hc.2
        rwa [List.take_succ_cons] at this
      rw [if_pos hc2] at h
      exact absurd h (by simp)
    · rw [if_neg hc]

theorem lexemes_closed : ∀ p ∈ lexemes, PrefixClosed p.2 := by
  intro p hp
  unfold lexemes at hp
  simp only [List.mem_cons, List.mem_singleton, List.not_mem_nil, or_false] at hp
  rcases hp with h | h | h | h | h | h | h | h | h | h | h | h | h | h | h | h | h | h | h | h |
    h | h | h | h | h | h | h | h | h <;> subst h <;>
    first
    | exact IsPrefix_closed _
    | exact IsPrefixAny_closed _
    | exact uintLexeme_closed
    | exact identifierLexeme_closed

theorem wordEnd_spec (ls : LexemeVector) (input : List Char) : ∀ (rest : List Char) (j : Nat),
    j + rest.length = input.length →
    j ≤ wordEnd ls input rest j ∧ wordEnd ls input rest j ≤ input.length ∧
    (wordEnd ls input rest j < input.length →
      (LexemeMatch ls (input.take (wordEnd ls input rest j + 1))).1 = Match.kMismatch) := by
  intro rest
  induction rest with
  | nil =>
    intro j hj
    simp only [wordEnd, List.length_nil, Nat.add_zero] at hj ⊢
    exact ⟨Nat.le_refl _, by omega, fun h => absurd h (by omega)⟩
  | cons c rest ih =>
    intro j hj
    rw [List.length_cons] at hj
    unfold wordEnd
    by_cases hc : ((LexemeMatch ls (input.take (j + 1))).1 == Match.kMismatch) = true
    · rw [if_pos hc]
      exact ⟨Nat.le_refl _, by omega, fun _ => by simpa using hc⟩
    · rw [if_neg hc]
      obtain ⟨a, b, c⟩ := ih (j + 1) (by omega)
      exact ⟨by omega, b, c⟩

theorem CurrentWord_length (ls : LexemeVector) (input : List Char) :
    (CurrentWord ls input).length = wordEnd ls input input 0 := by
  unfold CurrentWord
  rw [List.length_take]
  exact Nat.min_eq_left (wordEnd_spec ls input input 0 (by simp)).2.1

/-- C37: for every iterator of the lexer that is not at the end, with the remaining input `it`
after the skipped whitespace and comments, no prefix of `it` that is longer than the text of the
current token is a full match of a registered lexeme. -/
theorem C37_max_munch (it : List Char) (n : Nat) (hn : (deref it).str_.length < n)
    (hle : n ≤ it.length) : ∀ p ∈ lexemes, p.2 (it.take n) ≠ Match.kFullMatch := by
  intro p hp
  have hlen : (deref it).str_.length = wordEnd lexemes it it 0 := CurrentWord_length lexemes it
  rw [hlen] at hn
  have hspec := (wordEnd_spec lexemes it it 0 (by simp)).2.2 (by omega)
  have hmis := LexemeMatch_mismatch lexemes _ hspec p hp
  have htake : (it.take n).take (wordEnd lexemes it it 0 + 1) =
      it.take (wordEnd lexemes it it 0 + 1) := by
    rw [List.take_take, Nat.min_eq_left (by omega)]
  rw [← htake] at hmis
  rw [lexemes_closed p hp (it.take n) _ (by omega) hmis]
  simp

/-- The token at `sort x` is `sort`, and no longer prefix of the input matches a lexeme in
full. -/
theorem C37_max_munch_witness :
    (deref "sort x".toList).str_ = "sort".toList ∧
    ∀ p ∈ lexemes, p.2 ("sort x".toList.take 5) ≠ Match.kFullMatch :=
  ⟨by decide!, C37_max_munch "sort x".toList 5 (by decide!) (by decide!)⟩

/-- C38, evaluated on the code: on the input `#` the iterator made by `begin()` is not at the
end, its current word is empty (the assertion `it != jt` of `CurrentWord` does not hold), and
`operator++` leaves the position where it is, so that no number of steps reaches `end()`. -/
theorem C38_no_progress_on_unknown_character :
    Lexer.begin ['#'] = ['#'] ∧ (deref ['#']).str_ = [] ∧ next ['#'] = ['#'] ∧
    ∀ fuel, tokensFrom fuel (Lexer.begin ['#']) = none := by
  have hb : Lexer.begin ['#'] = ['#'] := by decide!
  have hn : next ['#'] = ['#'] := by decide!
  refine ⟨hb, by decide!, hn, ?_⟩
  intro fuel
  rw [hb]
  induction fuel with
  | zero => rfl
  | succ k ih =>
    unfold tokensFrom
    rw [hn, ih]
    rfl

/-- C39 as stated fails: in `p <- q` the second token has the text `<-` and the id `kLRArrow`,
which is not `kError`, but `<-` is only a prefix match of the lexeme `<->` registered for
`kLRArrow` and no lexeme matches it in full. -/
theorem C39_prefix_match_gets_id :
    tokensFrom 5 (Lexer.begin "p <- q".toList) =
      some [⟨TokenId.kIdentifier, ['p']⟩, ⟨TokenId.kLRArrow, ['<', '-']⟩,
        ⟨TokenId.kIdentifier, ['q']⟩] ∧
    IsPrefix ['<', '-'] "<->" = Match.kPrefixMatch ∧
    lexemes.all (fun p => p.2 ['<', '-'] != Match.kFullMatch) = true := by
  decide!

/-- C39, amended: the id of every token the lexer yields is the id of the lexeme registered
first among those that match the text of the token in full; when no lexeme matches the text in
full, it is the id of the lexeme registered first among those of which the text is a prefix
match, and `kError` when there is none. -/
theorem C39_token_id_of_first_match (it : List Char) :
    (deref it).id_ = firstId lexemes (deref it).str_ := by
  unfold deref
  dsimp only
  rw [LexemeMatch_snd]

end pdl

/-! ## `LimSat`: the snapshot of `FindModel` and the covering models -/

namespace LimSat

/-- C32, evaluated on the code: the decision callback evaluates the query on the snapshot held
so far, not on the current model. With `k = 1` and the query `f = 1`, the first decision shows
the model `f = 1`, which satisfies the query, and it is recorded; the later decision shows the
larger model `f = 2, g = 3`, which does not satisfy the query, and it is not recorded, so that
`FindModel` fails on this run. -/
theorem C32_decision_callback_tests_old_snapshot :
    queryEq [0, 1] = true ∧
    onEvent 1 false [] queryEq ⟨[], -1, 0⟩ (SatEvent.decision [0, 1]) = ⟨[0, 1], 1, 0⟩ ∧
    queryEq [0, 2, 3] = false ∧
    onEvent 1 false [] queryEq ⟨[0, 1], 1, 0⟩ (SatEvent.decision [0, 2, 3]) = ⟨[0, 1], 1, 0⟩ ∧
    (FindModel twoDecisionsRun init 1 queryEq true false []).1 = ⟨[], false⟩ := by
  decide

theorem count_set_false : ∀ (l : List Bool) (k : Nat), l.getD k false = true →
    (l.set k false).count true + 1 = l.count true := by
  intro l
  induction l with
  | nil =>
    intro k h
    simp at h
  | cons b l ih =>
    intro k h
    cases k with
    | zero =>
      have hb : b = true := by simpa using h
      subst hb
      simp
    | succ k =>
      have h2 : l.getD k false = true := by simpa using h
      have := ih k h2
      rw [List.set_cons_succ, List.count_cons, List.count_cons]
      omega

theorem GetAndUnwant_eq (model : List Nat) (wanted : List Bool) :
    GetAndUnwantNewlyAssignedFunctions model wanted =
      (List.range wanted.length).foldl (gafStep model) ([], true, wanted) := rfl

/-- The loop of `GetAndUnwantNewlyAssignedFunctions` after the keys below `k`. -/
theorem gaf_fold (model : List Nat) (wanted : List Bool) : ∀ k : Nat,
    ((List.range k).foldl (gafStep model) ([], true, wanted)).2.2.length = wanted.length ∧
    (∀ f, ((List.range k).foldl (gafStep model) ([], true, wanted)).2.2.getD f false =
      (wanted.getD f false && !(decide (f < k) && assigns model f))) ∧
    (∀ f, f ∈ ((List.range k).foldl (gafStep model) ([], true, wanted)).1 ↔
      (f < k ∧ wanted.getD f false = true ∧ assigns model f = true)) ∧
    (((List.range k).foldl (gafStep model) ([], true, wanted)).2.1 = true ↔
      ∀ f, f < k → wanted.getD f false = true → assigns model f = true) ∧
    (((List.range k).foldl (gafStep model) ([], true, wanted)).2.2.count true +
      ((List.range k).foldl (gafStep model) ([], true, wanted)).1.length = wanted.count true) := by
  intro k
  induction k with
  | zero =>
    simp
  | succ k ih =>
    rw [List.range_succ, List.foldl_append, List.foldl_cons, List.foldl_nil]
    generalize (List.range k).foldl (gafStep model) ([], true, wanted) = r at ih
    obtain ⟨hlen, hget, hmem, hall, hcnt⟩ := ih
    have hk : r.2.2.getD k false = wanted.getD k false := by
      rw [hget k]
      simp
    unfold gafStep
    rw [hk]
    by_cases hw : wanted.getD k false = true
    · rw [if_pos hw]
      have hkl : k < r.2.2.length := by
        rw [hlen]
        by_contra hc
        rw [List.getD_eq_default _ _ (Nat.le_of_not_lt hc)] at hw
        exact absurd hw (by decide)
      by_cases ha : assigns model k = true
      · rw [if_pos ha]
        dsimp only
        refine ⟨?_, ?_, ?_, ?_, ?_⟩
        · rw [List.length_set]
          exact hlen
        · intro f
          by_cases hf : f = k
          · subst hf
            rw [getD_set_same _ _ _ _ hkl, hw, ha]
            simp
          · rw [getD_set_ne _ _ _ _ _ (fun e => hf e.symm), hget f]
            have : decide (f < k + 1) = decide (f < k) := by
              apply decide_eq_decide.mpr
              omega
            rw [this]
        · intro f
          rw [List.mem_append, hmem f, List.mem_singleton]
          constructor
          · rintro (⟨a, b, c⟩ | rfl)
            · exact ⟨by omega, b, c⟩
            · exact ⟨by omega, hw, ha⟩
          · rintro ⟨a, b, c⟩
            by_cases hf : f = k
            · exact Or.inr hf
            · exact Or.inl ⟨by omega, b, c⟩
        · rw [hall]
          constructor
          · intro h f hf hwf
            by_cases hfk : f = k
            · subst hfk
              exact ha
            · exact h f (by omega) hwf
          · intro h f hf hwf
            exact h f (by omega) hwf
        · rw [List.length_append, List.length_singleton]
          have := count_set_false r.2.2 k (by rw [hk]; exact hw)
          omega
      · rw [if_neg ha]
        dsimp only
        have ha2 : assigns model k = false := by simpa using ha
        refine ⟨hlen, ?_, ?_, ?_, hcnt⟩
        · intro f
          rw [hget f]
          by_cases hf : f = k
          · subst hf
            rw [ha2]
            simp
          · have : decide (f < k + 1) = decide (f < k) := by
              apply decide_eq_decide.mpr
              omega
            rw [this]
        · intro f
          rw [hmem f]
          constructor
          · rintro ⟨a, b, c⟩
            exact ⟨by omega, b, c⟩
          · rintro ⟨a, b, c⟩
            have hf : f ≠ k := by
              intro e
              subst e
              exact ha c
            exact ⟨by omega, b, c⟩
        · constructor
          · intro h
            exact absurd h (by decide)
          · intro h
            exact absurd (h k (by omega) hw) ha
    · rw [if_neg hw]
      have hw2 : wanted.getD k false = false := by simpa using hw
      refine ⟨hlen, ?_, ?_, ?_, hcnt⟩
      · intro f
        rw [hget f]
        by_cases hf : f = k
        · subst hf
          rw [hw2]
          simp
        · have : decide (f < k + 1) = decide (f < k) := by
            apply decide_eq_decide.mpr
            omega
          rw [this]
      · intro f
        rw [hmem f]
        constructor
        · rintro ⟨a, b, c⟩
          exact ⟨by omega, b, c⟩
        · rintro ⟨a, b, c⟩
          have hf : f ≠ k := by
            intro e
            subst e
            exact hw b
          exact ⟨by omega, b, c⟩
      · rw [hall]
        constructor
        · intro h f hf hwf
          by_cases hfk : f = k
          · subst hfk
            exact absurd hwf hw
          · exact h f (by omega) hwf
        · intro h f hf hwf
          exact h f (by omega) hwf

/-- What `GetAndUnwantNewlyAssignedFunctions` returns: the wanted functions that the model
assigns are returned and no longer wanted, and the flag tells whether they were all assigned. -/
theorem gaf_spec (model : List Nat) (wanted : List Bool) :
    (∀ f, (GetAndUnwantNewlyAssignedFunctions model wanted).2.2.getD f false =
      (wanted.getD f false && !assigns model f)) ∧
    (∀ f, f ∈ (GetAndUnwantNewlyAssignedFunctions model wanted).1 ↔
      (wanted.getD f false = true ∧ assigns model f = true)) ∧
    ((GetAndUnwantNewlyAssignedFunctions model wanted).2.1 = true ↔
      ∀ f, wanted.getD f false = true → assigns model f = true) ∧
    ((GetAndUnwantNewlyAssignedFunctions model wanted).2.2.count true +
      (GetAndUnwantNewlyAssignedFunctions model wanted).1.length = wanted.count true) := by
  rw [GetAndUnwant_eq]
  obtain ⟨_, hget, hmem, hall, hcnt⟩ := gaf_fold model wanted wanted.length
  have hlt : ∀ f, wanted.getD f false = true → f < wanted.length := by
    intro f hf
    by_contra hc
    rw [List.getD_eq_default _ _ (Nat.le_of_not_lt hc)] at hf
    exact absurd hf (by decide)
  refine ⟨?_, ?_, ?_, hcnt⟩
  · intro f
    rw [hget f]
    by_cases hw : wanted.getD f false = true
    · have : decide (f < wanted.length) = true := decide_eq_true (hlt f hw)
      rw [this]
      simp
    · have hw2 : wanted.getD f false = false := by simpa using hw
      rw [hw2]
      simp
  · intro f
    rw [hmem f]
    constructor
    · rintro ⟨_, b, c⟩
      exact ⟨b, c⟩
    · rintro ⟨b, c⟩
      exact ⟨hlt f b, b, c⟩
  · rw [hall]
    constructor
    · intro h f hf
      exact h f (hlt f hf) hf
    · intro h f _ hf
      exact h f hf

theorem mem_Merge : ∀ (xs ys : List Nat) (f : Nat), f ∈ Merge xs ys ↔ f ∈ xs ∨ f ∈ ys := by
  intro xs ys
  induction xs, ys using Merge.induct with
  | case1 ys =>
    intro f
    rw [Merge]
    simp
  | case2 x xs =>
    intro f
    rw [Merge]
    simp
  | case3 x xs y ys hlt ih =>
    intro f
    rw [Merge, if_pos hlt, List.mem_cons, ih f]
    simp only [List.mem_cons]
    tauto
  | case4 x xs y ys hlt hgt ih =>
    intro f
    rw [Merge, if_neg hlt, if_pos hgt, List.mem_cons, ih f]
    simp only [List.mem_cons]
    tauto
  | case5 x xs y ys hlt hgt ih =>
    intro f
    have hxy : y = x := by omega
    subst hxy
    rw [Merge, if_neg hlt, if_neg hgt, List.mem_cons, ih f]
    simp only [List.mem_cons]
    tauto

theorem AssignsAll_iff (model : List Nat) (funs : List Nat) :
    AssignsAll model funs = true ↔ ∀ f ∈ funs, assigns model f = true := by
  unfold AssignsAll
  exact List.all_eq_true

theorem AssignsAll_Merge (model xs ys : List Nat) (hx : AssignsAll model xs = true)
    (hy : AssignsAll model ys = true) : AssignsAll model (Merge xs ys) = true := by
  rw [AssignsAll_iff] at hx hy ⊢
  intro f hf
  rcases (mem_Merge xs ys f).mp hf with h | h
  · exact hx f h
  · exact hy f h

theorem contains_iff (l : List Nat) (f : Nat) : l.contains f = true ↔ f ∈ l := by
  simp

/-- What the loop over the earlier models returns: the lists that the new model assigns are
merged into the list of the new model, and the other lists stay with their models. -/
theorem pruneModels_spec (model : List Nat) : ∀ (models newly : List (List Nat)) (acc : List Nat),
    List.Forall₂ (fun m na => AssignsAll m na = true) models newly →
    AssignsAll model acc = true →
    List.Forall₂ (fun m na => AssignsAll m na = true)
      (pruneModels model models newly acc).2.1 (pruneModels model models newly acc).2.2 ∧
    AssignsAll model (pruneModels model models newly acc).1 = true ∧
    (∀ f, f ∈ (pruneModels model models newly acc).1 ↔
      (f ∈ acc ∨ 0 < newly.countP (fun l => l.contains f && AssignsAll model l))) ∧
    (∀ f, listsWith f (pruneModels model models newly acc).2.2 =
      newly.countP (fun l => l.contains f && !AssignsAll model l)) := by
  intro models newly acc hall
  induction hall generalizing acc with
  | nil =>
    intro hacc
    simp only [pruneModels, listsWith, List.countP_nil]
    exact ⟨List.Forall₂.nil, hacc, fun f => by simp, fun f => trivial⟩
  | cons hm htl ih =>
    rename_i m na ms nas
    intro hacc
    by_cases hc : AssignsAll model na = true
    · obtain ⟨a, b, c, d⟩ := ih (Merge acc na) (AssignsAll_Merge model acc na hacc hc)
      have e : pruneModels model (m :: ms) (na :: nas) acc =
          pruneModels model ms nas (Merge acc na) := by
        rw [pruneModels, if_pos hc]
      rw [e]
      refine ⟨a, b, ?_, ?_⟩
      · intro f
        rw [c f, mem_Merge, List.countP_cons]
        by_cases hf : f ∈ na
        · have : (na.contains f && AssignsAll model na) = true := by
            rw [hc, (contains_iff na f).mpr hf]
            rfl
          rw [if_pos this]
          constructor
          · intro _
            exact Or.inr (by omega)
          · intro _
            exact Or.inl (Or.inr hf)
        · have : ¬ (na.contains f && AssignsAll model na) = true := by
            intro h
            rw [Bool.and_eq_true] at h
            exact hf ((contains_iff na f).mp h.1)
          rw [if_neg this]
          constructor
          · rintro ((h | h) | h)
            · exact Or.inl h
            · exact absurd h hf
            · exact Or.inr (by omega)
          · rintro (h | h)
            · exact Or.inl (Or.inl h)
            · exact Or.inr (by omega)
      · intro f
        rw [d f, List.countP_cons]
        have : ¬ (na.contains f && !AssignsAll model na) = true := by
          rw [hc]
          simp
        rw [if_neg this]
        rfl
    · obtain ⟨a, b, c, d⟩ := ih acc hacc
      have e : pruneModels model (m :: ms) (na :: nas) acc =
          ((pruneModels model ms nas acc).1, m :: (pruneModels model ms nas acc).2.1,
            na :: (pruneModels model ms nas acc).2.2) := by
        rw [pruneModels, if_neg hc]
      rw [e]
      dsimp only
      have hc2 : AssignsAll model na = false := by simpa using hc
      refine ⟨List.Forall₂.cons hm a, b, ?_, ?_⟩
      · intro f
        rw [c f, List.countP_cons]
        have : ¬ (na.contains f && AssignsAll model na) = true := by
          rw [hc2]
          simp
        rw [if_neg this]
        rfl
      · intro f
        unfold listsWith at d ⊢
        rw [List.countP_cons, d f, List.countP_cons, hc2]
        simp

theorem countP_split (p q : List Nat → Bool) : ∀ newly : List (List Nat),
    newly.countP p = newly.countP (fun l => p l && q l) + newly.countP (fun l => p l && !q l) := by
  intro newly
  induction newly with
  | nil => rfl
  | cons l newly ih =>
    rw [List.countP_cons, List.countP_cons, List.countP_cons, ih]
    cases p l <;> cases q l <;> simp <;> omega

/-- The state of the loop of `FindCoveringModels` after a model was pushed: the round keeps
`CoverInv`. -/
theorem CoverInv_push (W : List Bool) (models newly : List (List Nat)) (wanted : List Bool)
    (model : List Nat) (h : CoverInv W models newly wanted) :
    CoverInv W
      ((pruneModels model models newly
        (GetAndUnwantNewlyAssignedFunctions model wanted).1).2.1 ++ [model])
      ((pruneModels model models newly
        (GetAndUnwantNewlyAssignedFunctions model wanted).1).2.2 ++
        [(pruneModels model models newly (GetAndUnwantNewlyAssignedFunctions model wanted).1).1])
      (GetAndUnwantNewlyAssignedFunctions model wanted).2.2 := by
  obtain ⟨gget, gmem, _, _⟩ := gaf_spec model wanted
  have hacc : AssignsAll model (GetAndUnwantNewlyAssignedFunctions model wanted).1 = true := by
    rw [AssignsAll_iff]
    intro f hf
    exact ((gmem f).mp hf).2
  obtain ⟨a, b, c, d⟩ := pruneModels_spec model models newly _ h.assigned hacc
  constructor
  · exact List.rel_append a (List.Forall₂.cons b List.Forall₂.nil)
  · intro f
    have hcount := h.count f
    have hsplit := countP_split (fun l => l.contains f) (fun l => AssignsAll model l) newly
    unfold listsWith at hcount d ⊢
    rw [List.countP_append, d f, gget f]
    rw [hsplit] at hcount
    have hW : (W.getD f false).toNat ≤ 1 := Bool.toNat_le _
    rw [List.countP_cons, List.countP_nil]
    by_cases hin : f ∈ (GetAndUnwantNewlyAssignedFunctions model wanted).1
    · obtain ⟨hw, ha⟩ := (gmem f).mp hin
      rw [hw] at hcount
      rw [hw, ha]
      have hm : (pruneModels model models newly
          (GetAndUnwantNewlyAssignedFunctions model wanted).1).1.contains f = true :=
        (contains_iff _ f).mpr ((c f).mpr (Or.inl hin))
      rw [if_pos hm]
      simp only [Bool.toNat_true, Bool.not_true, Bool.and_false, Bool.toNat_false] at hcount ⊢
      omega
    · have hkeep : (wanted.getD f false && !assigns model f) = wanted.getD f false := by
        by_cases hw : wanted.getD f false = true
        · have ha : assigns model f = false := by
            by_contra hne
            exact hin ((gmem f).mpr ⟨hw, by simpa using hne⟩)
          rw [ha]
          simp
        · have : wanted.getD f false = false := by simpa using hw
          rw [this]
          rfl
      rw [hkeep]
      by_cases hb : 0 < newly.countP (fun l => l.contains f && AssignsAll model l)
      · have hm : (pruneModels model models newly
            (GetAndUnwantNewlyAssignedFunctions model wanted).1).1.contains f = true :=
          (contains_iff _ f).mpr ((c f).mpr (Or.inr hb))
        rw [if_pos hm]
        omega
      · have hm : ¬ (pruneModels model models newly
            (GetAndUnwantNewlyAssignedFunctions model wanted).1).1.contains f = true := by
          intro hcon
          rcases (c f).mp ((contains_iff _ f).mp hcon) with h1 | h1
          · exact hin h1
          · exact hb h1
        rw [if_neg hm]
        omega

/-- The loop of `FindCoveringModels` returns covering models only in a state that satisfies
`CoverInv` with no function wanted any more, when `min_model_size` is not zero. -/
theorem FindCoveringLoop_covers (solve : SatSolve) (k : Int) (sb : List Nat → Bool)
    (W : List Bool) (hk : k ≠ 0) : ∀ (fuel : Nat) (s : LimSat) (models newly : List (List Nat))
    (wanted : List Bool) (pwl must : Bool) (fcm : FoundCoveringModels) (s2 : LimSat),
    CoverInv W models newly wanted →
    FindCoveringLoop solve k sb fuel s models newly wanted pwl must = some (fcm, s2) →
    fcm.all_covered = true →
    List.Forall₂ (fun m na => AssignsAll m na = true) fcm.models fcm.newly_assigned_in ∧
    ∀ f, listsWith f fcm.newly_assigned_in = (W.getD f false).toNat := by
  intro fuel
  induction fuel with
  | zero =>
    intro s models newly wanted pwl must fcm s2 _ h
    simp [FindCoveringLoop] at h
  | succ fuel ih =>
    intro s models newly wanted pwl must fcm s2 hinv h hcov
    unfold FindCoveringLoop at h
    dsimp only at h
    generalize FindModel solve s k sb pwl must wanted = r at h
    by_cases c1 : (!r.1.succ && pwl) = true
    · rw [if_pos c1] at h
      exact ih _ _ _ _ _ _ _ _ hinv h hcov
    · rw [if_neg c1] at h
      by_cases c2 : (!r.1.succ) = true
      · rw [if_pos c2] at h
        have e := (Prod.mk.inj (Option.some.inj h)).1
        rw [← e] at hcov
        exact absurd hcov (by decide)
      · rw [if_neg c2] at h
        have c3 : ¬ (k == 0) = true := by simpa using hk
        rw [if_neg c3] at h
        by_cases c4 : ((GetAndUnwantNewlyAssignedFunctions r.1.model wanted).1.isEmpty &&
            !must) = true
        · rw [if_pos c4] at h
          refine ih _ _ _ _ _ _ _ _ ?_ h hcov
          obtain ⟨gget, gmem, _, _⟩ := gaf_spec r.1.model wanted
          have hempty : (GetAndUnwantNewlyAssignedFunctions r.1.model wanted).1 = [] := by
            rw [Bool.and_eq_true] at c4
            exact List.isEmpty_iff.mp c4.1
          refine ⟨hinv.assigned, ?_⟩
          intro f
          have hcount := hinv.count f
          rw [gget f]
          by_cases hw : wanted.getD f false = true
          · have ha : assigns r.1.model f = false := by
              by_contra hne
              have := (gmem f).mpr ⟨hw, by simpa using hne⟩
              rw [hempty] at this
              exact absurd this (List.not_mem_nil f)
            rw [ha]
            simpa using hcount
          · have hw2 : wanted.getD f false = false := by simpa using hw
            rw [hw2] at hcount ⊢
            exact hcount
        · rw [if_neg c4] at h
          have hpush := CoverInv_push W models newly wanted r.1.model hinv
          by_cases c5 : (GetAndUnwantNewlyAssignedFunctions r.1.model wanted).2.1 = true
          · rw [if_pos c5] at h
            have e := (Prod.mk.inj (Option.some.inj h)).1
            rw [← e]
            dsimp only
            refine ⟨hpush.assigned, ?_⟩
            intro f
            have hcount := hpush.count f
            obtain ⟨gget, _, gall, _⟩ := gaf_spec r.1.model wanted
            have hz : (GetAndUnwantNewlyAssignedFunctions r.1.model wanted).2.2.getD f false
                = false := by
              rw [gget f]
              by_cases hw : wanted.getD f false = true
              · rw [gall.mp c5 f hw]
                simp
              · have hw2 : wanted.getD f false = false := by simpa using hw
                rw [hw2]
                rfl
            rw [hz] at hcount
            simpa using hcount
          · rw [if_neg c5] at h
            exact ih _ _ _ _ _ _ _ _ hpush h hcov

theorem zipWith_snd {α β γ : Type} (g : β → γ) : ∀ (l1 : List α) (l2 : List β),
    l2.length ≤ l1.length → List.zipWith (fun _ b => g b) l1 l2 = l2.map g := by
  intro l1
  induction l1 with
  | nil =>
    intro l2 h
    have : l2 = [] := List.eq_nil_of_length_eq_zero (Nat.le_zero.mp h)
    subst this
    rfl
  | cons a l1 ih =>
    intro l2 h
    cases l2 with
    | nil => rfl
    | cons b l2 =>
      rw [List.zipWith_cons_cons, List.map_cons, ih l2 (Nat.le_of_succ_le_succ h)]

theorem wantedOf_eq (s : LimSat) : wantedOf s = s.domains_.map (fun row => !row.isEmpty) := by
  unfold wantedOf FitForKey
  apply zipWith_snd
  rw [Solver.length_Capacitate]
  simp only [List.length_nil]
  omega

theorem wantedOf_getD (s : LimSat) (f : Nat) (hf : f < s.domains_.length)
    (hne : s.domains_.getD f [] ≠ []) : (wantedOf s).getD f false = true := by
  rw [wantedOf_eq, List.getD_eq_getElem?_getD, List.getElem?_map,
    List.getElem?_eq_getElem hf]
  rw [List.getD_eq_getElem?_getD, List.getElem?_eq_getElem hf] at hne
  simp only [Option.map_some', Option.getD_some, Bool.not_eq_eq_eq_not, Bool.not_true,
    List.isEmpty_eq_false] at hne ⊢
  exact hne

theorem wantedOf_count (s : LimSat) : (wantedOf s).count true = nonEmptyDomains s := by
  rw [wantedOf_eq, List.count_eq_countP, List.countP_map]
  unfold nonEmptyDomains
  congr 1
  funext row
  simp

theorem Forall₂_getD {α β : Type} (R : α → β → Prop) (d1 : α) (d2 : β) :
    ∀ (l1 : List α) (l2 : List β), List.Forall₂ R l1 l2 →
      l1.length = l2.length ∧ ∀ i, i < l2.length → R (l1.getD i d1) (l2.getD i d2) := by
  intro l1 l2 h
  induction h with
  | nil => exact ⟨rfl, fun i hi => absurd hi (Nat.not_lt_zero i)⟩
  | cons hab _ ih =>
    refine ⟨by rw [List.length_cons, List.length_cons, ih.1], ?_⟩
    intro i hi
    cases i with
    | zero => exact hab
    | succ i => exact ih.2 i (Nat.lt_of_succ_lt_succ hi)

/-- C33: when `FindCoveringModels(k, query)` returns with `all_covered` set and `k > 0`, every
function with a non-empty domain is in exactly one of the lists `newly_assigned_in[i]` (the
number of the lists that contain it is one), there are as many models as lists, and the model
`models[i]` assigns every function of `newly_assigned_in[i]`. -/
theorem C33_covering_postcondition (solve : SatSolve) (fuel : Nat) (s : LimSat) (k : Int)
    (sb : List Nat → Bool) (fcm : FoundCoveringModels) (s2 : LimSat)
    (h : FindCoveringModels solve fuel s k sb = some (fcm, s2))
    (hcov : fcm.all_covered = true) (hk : 0 < k) :
    (∀ f, f < s.domains_.length → s.domains_.getD f [] ≠ [] →
      listsWith f fcm.newly_assigned_in = 1) ∧
    fcm.models.length = fcm.newly_assigned_in.length ∧
    (∀ i, i < fcm.newly_assigned_in.length →
      AssignsAll (fcm.models.getD i []) (fcm.newly_assigned_in.getD i []) = true) := by
  have h0 : CoverInv (wantedOf s) [] [] (wantedOf s) :=
    ⟨List.Forall₂.nil, fun f => by simp [listsWith]⟩
  have hloop : FindCoveringLoop solve k sb fuel s [] [] (wantedOf s) true false
      = some (fcm, s2) := h
  obtain ⟨a, b⟩ := FindCoveringLoop_covers solve k sb (wantedOf s) (by omega) fuel s [] []
    (wantedOf s) true false fcm s2 h0 hloop hcov
  obtain ⟨c, d⟩ := Forall₂_getD _ [] [] _ _ a
  refine ⟨?_, c, d⟩
  intro f hf hne
  rw [b f, wantedOf_getD s f hf hne]
  rfl

/-- Witness for C33: for the clause `f = 1` and a SAT core that assigns every function at once,
`FindCoveringModels(1, query)` returns the one model with the list `[f]`. -/
theorem C33_covering_postcondition_witness :
    FindCoveringModels assignAllRun 3 (AddClause init [Lit.Eq 1 1]).2 1 queryEq =
      some (⟨[[1, 1]], [[1]], true⟩, InitSat (AddClause init [Lit.Eq 1 1]).2) ∧
    (∀ f, f < (AddClause init [Lit.Eq 1 1]).2.domains_.length →
      (AddClause init [Lit.Eq 1 1]).2.domains_.getD f [] ≠ [] → listsWith f [[1]] = 1) ∧
    [[1, 1]].length = [[1]].length ∧
    (∀ i, i < [[1]].length → AssignsAll ([[1, 1]].getD i []) ([[1]].getD i []) = true) :=
  ⟨by decide,
    C33_covering_postcondition assignAllRun 3 (AddClause init [Lit.Eq 1 1]).2 1 queryEq
      ⟨[[1, 1]], [[1]], true⟩ (InitSat (AddClause init [Lit.Eq 1 1]).2) (by decide) rfl
      (by decide)⟩

theorem callsBound_pos (wanted : List Bool) (pwl must : Bool) : 1 ≤ callsBound wanted pwl must := by
  unfold callsBound
  cases must <;> simp <;> omega

theorem AssignsAllWanted_iff (model : List Nat) (wanted : List Bool) :
    AssignsAllWanted model wanted = true ↔
      ∀ f, wanted.getD f false = true → assigns model f = true := by
  unfold AssignsAllWanted
  rw [List.all_eq_true]
  constructor
  · intro h f hf
    have hlt : f < wanted.length := by
      by_contra hc
      rw [List.getD_eq_default _ _ (Nat.le_of_not_lt hc)] at hf
      exact absurd hf (by decide)
    have := h f (List.mem_range.mpr hlt)
    rw [hf] at this
    simpa using this
  · intro h f _
    by_cases hw : wanted.getD f false = true
    · rw [h f hw]
      simp
    · have hw2 : wanted.getD f false = false := by simpa using hw
      rw [hw2]
      rfl

/-- The loop of `FindCoveringModels` returns within `callsBound` rounds when a successful
`FindModel` with `wanted_is_must` assigns every wanted function. -/
theorem FindCoveringLoop_returns (solve : SatSolve) (k : Int) (sb : List Nat → Bool)
    (hmust : ∀ (t : LimSat) (pwl : Bool) (wanted : List Bool),
      (FindModel solve t k sb pwl true wanted).1.succ = true →
      AssignsAllWanted (FindModel solve t k sb pwl true wanted).1.model wanted = true) :
    ∀ (fuel : Nat) (s : LimSat) (models newly : List (List Nat)) (wanted : List Bool)
      (pwl must : Bool), callsBound wanted pwl must ≤ fuel →
      (FindCoveringLoop solve k sb fuel s models newly wanted pwl must).isSome = true := by
  intro fuel
  induction fuel with
  | zero =>
    intro s models newly wanted pwl must hb
    have := callsBound_pos wanted pwl must
    omega
  | succ fuel ih =>
    intro s models newly wanted pwl must hb
    unfold FindCoveringLoop
    dsimp only
    have hm : must = true → (FindModel solve s k sb pwl must wanted).1.succ = true →
        AssignsAllWanted (FindModel solve s k sb pwl must wanted).1.model wanted = true := by
      intro e
      subst e
      exact hmust s pwl wanted
    generalize FindModel solve s k sb pwl must wanted = r at hm ⊢
    by_cases c1 : (!r.1.succ && pwl) = true
    · rw [if_pos c1]
      apply ih
      rw [Bool.and_eq_true] at c1
      have hp : pwl = true := c1.2
      subst hp
      unfold callsBound at hb ⊢
      simp only [if_true, Bool.false_eq_true, if_false] at hb ⊢
      omega
    · rw [if_neg c1]
      by_cases c2 : (!r.1.succ) = true
      · rw [if_pos c2]
        rfl
      · rw [if_neg c2]
        by_cases c3 : (k == 0) = true
        · rw [if_pos c3]
          rfl
        · rw [if_neg c3]
          obtain ⟨_, gmem, gall, gcnt⟩ := gaf_spec r.1.model wanted
          by_cases c4 : ((GetAndUnwantNewlyAssignedFunctions r.1.model wanted).1.isEmpty &&
              !must) = true
          · rw [if_pos c4]
            apply ih
            rw [Bool.and_eq_true] at c4
            have hmf : must = false := by simpa using c4.2
            subst hmf
            unfold callsBound at hb ⊢
            simp only [if_true, Bool.false_eq_true, if_false] at hb ⊢
            omega
          · rw [if_neg c4]
            by_cases c5 : (GetAndUnwantNewlyAssignedFunctions r.1.model wanted).2.1 = true
            · rw [if_pos c5]
              rfl
            · rw [if_neg c5]
              apply ih
              cases must with
              | true =>
                exfalso
                have hs : r.1.succ = true := by simpa using c2
                exact c5 (gall.mpr ((AssignsAllWanted_iff _ _).mp (hm rfl hs)))
              | false =>
                have hne : (GetAndUnwantNewlyAssignedFunctions r.1.model wanted).1.isEmpty
                    = false := by simpa using c4
                have hlen : 1 ≤ (GetAndUnwantNewlyAssignedFunctions r.1.model wanted).1.length := by
                  cases hl : (GetAndUnwantNewlyAssignedFunctions r.1.model wanted).1 with
                  | nil =>
                    rw [hl] at hne
                    exact absurd hne (by decide)
                  | cons x xs => simp
                unfold callsBound at hb ⊢
                simp only [Bool.false_eq_true, if_false] at hb ⊢
                omega

/-- C36: when a successful `FindModel` with `wanted_is_must` set returns a model that assigns
every wanted function, `FindCoveringModels` returns after at most `|W| + 3` rounds of its loop,
each of which calls `FindModel` once, where `W` is the set of the functions with a non-empty
domain. -/
theorem C36_FindCoveringModels_terminates (solve : SatSolve) (s : LimSat) (k : Int)
    (sb : List Nat → Bool)
    (hmust : ∀ (t : LimSat) (pwl : Bool) (wanted : List Bool),
      (FindModel solve t k sb pwl true wanted).1.succ = true →
      AssignsAllWanted (FindModel solve t k sb pwl true wanted).1.model wanted = true) :
    (FindCoveringModels solve (nonEmptyDomains s + 3) s k sb).isSome = true := by
  have hb : callsBound (wantedOf s) true false ≤ nonEmptyDomains s + 3 := by
    unfold callsBound
    rw [wantedOf_count]
    simp
  exact FindCoveringLoop_returns solve k sb hmust _ s [] [] (wantedOf s) true false hb

theorem assignAllRun_assigns (t : LimSat) (k : Int) (sb : List Nat → Bool) (pwl must : Bool)
    (wanted : List Bool) :
    AssignsAllWanted (FindModel assignAllRun t k sb pwl must wanted).1.model wanted = true := by
  have e : (FindModel assignAllRun t k sb pwl must wanted).1.model = wanted.map (fun _ => 1) :=
    rfl
  rw [e, AssignsAllWanted_iff]
  intro f hf
  have hlt : f < wanted.length := by
    by_contra hc
    rw [List.getD_eq_default _ _ (Nat.le_of_not_lt hc)] at hf
    exact absurd hf (by decide)
  unfold assigns
  rw [List.length_map, List.getD_eq_getElem?_getD, List.getElem?_map,
    List.getElem?_eq_getElem hlt]
  simp [hlt]

/-- Witness for C36: a SAT core that assigns every function at once meets the condition, and
for the clause `f = 1`, with one function that has a domain, four rounds are enough. -/
theorem C36_FindCoveringModels_terminates_witness :
    nonEmptyDomains (AddClause init [Lit.Eq 1 1]).2 = 1 ∧
    (FindCoveringModels assignAllRun (nonEmptyDomains (AddClause init [Lit.Eq 1 1]).2 + 3)
      (AddClause init [Lit.Eq 1 1]).2 1 queryEq).isSome = true :=
  ⟨by decide,
    C36_FindCoveringModels_terminates assignAllRun (AddClause init [Lit.Eq 1 1]).2 1 queryEq
      (fun t pwl wanted _ => assignAllRun_assigns t 1 queryEq pwl true wanted)⟩

end LimSat

/-! ## The heap: the position map is consistent, and `Heapify` -/

namespace Heap

/-- C34, evaluated on the code: the elements `1, …, 5` are inserted with equal keys, the keys
become `3, 4, 5, 1, 2`, and `Heapify()` is called. The stored elements are the same afterwards,
but the heap is not in heap order: position `5` holds the element `5` with the key `2`, and its
parent position `2` holds the element `1` with the key `3`. -/
theorem C34_Heapify_leaves_disorder :
    heapOfFive.heap_ = [0, 1, 2, 3, 4, 5] ∧
    (Heapify (keyLess newKeys) heapOfFive).heap_ = [0, 4, 1, 3, 2, 5] ∧
    Ordered (keyLess newKeys) (Heapify (keyLess newKeys) heapOfFive) = false ∧
    keyLess newKeys 5 1 = true := by
  decide

theorem SiftUpLoop_heap_length (less : Nat → Nat → Bool) (x : Nat) :
    ∀ (fuel : Nat) (h : Heap) (i : Nat),
    (SiftUpLoop less x fuel h i).1.heap_.length = h.heap_.length := by
  intro fuel
  induction fuel with
  | zero =>
    intro h i
    rfl
  | succ fuel ih =>
    intro h i
    unfold SiftUpLoop
    dsimp only
    split
    · rw [ih]
      exact List.length_set _ _ _
    · rfl

theorem SiftDownLoop_heap_length (less : Nat → Nat → Bool) (x : Nat) :
    ∀ (fuel : Nat) (h : Heap) (i : Nat),
    (SiftDownLoop less x fuel h i).1.heap_.length = h.heap_.length := by
  intro fuel
  induction fuel with
  | zero =>
    intro h i
    rfl
  | succ fuel ih =>
    intro h i
    have key : ∀ q, (if (!less (h.heap_.getD q 0) x) = true then (h, i)
        else SiftDownLoop less x fuel
          ⟨h.heap_.set i (h.heap_.getD q 0),
            h.index_.set ((h.heap_.set i (h.heap_.getD q 0)).getD i 0) i⟩ q).1.heap_.length
        = h.heap_.length := by
      intro q
      split
      · rfl
      · rw [ih]
        exact List.length_set _ _ _
    unfold SiftDownLoop
    dsimp only
    split
    · split
      · exact key _
      · exact key _
    · rfl

theorem SiftUp_heap_length (less : Nat → Nat → Bool) (h : Heap) (i : Nat) :
    (SiftUp less h i).heap_.length = h.heap_.length := by
  unfold SiftUp
  dsimp only
  rw [List.length_set, SiftUpLoop_heap_length]

theorem SiftDown_heap_length (less : Nat → Nat → Bool) (h : Heap) (i : Nat) :
    (SiftDown less h i).heap_.length = h.heap_.length := by
  unfold SiftDown
  dsimp only
  rw [List.length_set, SiftDownLoop_heap_length]

/-- A loop of `SiftDown` or `SiftUp` over positions of the heap keeps the maps consistent and
the set of elements. -/
theorem foldl_sift_Ok (step : Heap → Nat → Heap)
    (hstep : ∀ (g : Heap) (i : Nat), g.Ok → 1 ≤ i → i < g.heap_.length →
      (step g i).Ok ∧ (step g i).heap_.length = g.heap_.length ∧
      (∀ y, (step g i).index_.getD y 0 ≠ 0 ↔ g.index_.getD y 0 ≠ 0)) :
    ∀ (l : List Nat) (h : Heap), h.Ok → (∀ i ∈ l, 1 ≤ i ∧ i < h.heap_.length) →
      (l.foldl step h).Ok ∧ (l.foldl step h).heap_.length = h.heap_.length ∧
      (∀ y, (l.foldl step h).index_.getD y 0 ≠ 0 ↔ h.index_.getD y 0 ≠ 0) := by
  intro l
  induction l with
  | nil =>
    intro h hok _
    exact ⟨hok, rfl, fun y => Iff.rfl⟩
  | cons i l ih =>
    intro h hok hl
    obtain ⟨h1, h2⟩ := hl i (List.mem_cons_self _ _)
    obtain ⟨a, b, c⟩ := hstep h i hok h1 h2
    rw [List.foldl_cons]
    obtain ⟨a2, b2, c2⟩ := ih (step h i) a (fun j hj => by
      rw [b]
      exact hl j (List.mem_cons_of_mem _ hj))
    exact ⟨a2, b2.trans b, fun y => (c2 y).trans (c y)⟩

theorem Heapify_Ok (less : Nat → Nat → Bool) (h : Heap) (hok : h.Ok) :
    (Heapify less h).Ok ∧
    (∀ y, (Heapify less h).index_.getD y 0 ≠ 0 ↔ h.index_.getD y 0 ≠ 0) := by
  have hdown := foldl_sift_Ok (fun g i => SiftDown less g i)
    (fun g i gok g1 g2 =>
      ⟨(SiftDown_Ok less g i gok g1 g2).1, SiftDown_heap_length less g i,
        (SiftDown_Ok less g i gok g1 g2).2⟩)
    (List.range' 1 (h.heap_.length - 1)) h hok (fun i hi => by
      rw [List.mem_range'_1] at hi
      omega)
  obtain ⟨a, b, c⟩ := hdown
  have hup := foldl_sift_Ok (fun g i => SiftUp less g i)
    (fun g i gok g1 g2 =>
      ⟨(SiftUp_Ok less g i gok g1 g2).1, SiftUp_heap_length less g i,
        (SiftUp_Ok less g i gok g1 g2).2⟩)
    (List.range' 1 (h.heap_.length - 1)).reverse _ a (fun i hi => by
      rw [List.mem_reverse, List.mem_range'_1] at hi
      rw [b]
      omega)
  obtain ⟨a2, _, c2⟩ := hup
  exact ⟨a2, fun y => (c2 y).trans (c y)⟩

theorem Capacitate_Ok (h : Heap) (i : Nat) (hok : h.Ok) : (h.Capacitate i).Ok := by
  obtain ⟨o1, o2, o3⟩ := hok
  have hget : ∀ x, (DenseMap.Capacitate 0 i h.index_).getD x 0 = h.index_.getD x 0 :=
    fun x => Solver.getD_Capacitate 0 i x h.index_
  refine ⟨o1, ?_, ?_⟩
  · intro j hj h1
    show (DenseMap.Capacitate 0 i h.index_).getD (h.heap_.getD j 0) 0 = j
    rw [hget]
    exact o2 j hj h1
  · intro x _ hx
    have hx2 : h.index_.getD x 0 ≠ 0 := by
      rw [← hget x]
      exact hx
    have := o3 x (lt_length_of_getD_ne _ _ hx2) hx2
    show (DenseMap.Capacitate 0 i h.index_).getD x 0 < h.heap_.length ∧
      h.heap_.getD ((DenseMap.Capacitate 0 i h.index_).getD x 0) 0 = x
    rw [hget]
    exact this

theorem Contains_iff (h : Heap) (x : Nat) : h.Contains x = true ↔ h.index_.getD x 0 ≠ 0 := by
  unfold Contains
  simp

theorem Ok_of_Built (h : Heap) (hb : h.Built) : h.Ok := by
  induction hb with
  | init => decide
  | capacitate h i _ ih => exact Capacitate_Ok h i ih
  | insert less h x _ hx hc ih =>
    refine (Insert_Ok less h x ih hx ?_).1
    by_contra hne
    rw [(Contains_iff h x).mpr hne] at hc
    exact absurd hc (by decide)
  | remove less h x _ hc ih => exact (Remove_Ok less h x ih ((Contains_iff h x).mp hc)).1
  | increase less h x _ hc ih => exact (Increase_Ok less h x ih ((Contains_iff h x).mp hc)).1
  | heapify less h _ ih => exact (Heapify_Ok less h ih).1

theorem mem_stored_iff (h : Heap) (x : Nat) :
    x ∈ h.stored ↔ ∃ i, 1 ≤ i ∧ i < h.heap_.length ∧ h.heap_.getD i 0 = x := by
  unfold stored
  rw [List.mem_iff_getElem?]
  constructor
  · rintro ⟨n, hn⟩
    rw [List.getElem?_drop] at hn
    have hlt : 1 + n < h.heap_.length := by
      by_contra hc
      rw [List.getElem?_eq_none (Nat.le_of_not_lt hc)] at hn
      exact absurd hn (by simp)
    refine ⟨1 + n, by omega, hlt, ?_⟩
    rw [List.getD_eq_getElem?_getD, hn]
    rfl
  · rintro ⟨i, h1, hi, hx⟩
    refine ⟨i - 1, ?_⟩
    rw [List.getElem?_drop]
    have e : 1 + (i - 1) = i := by omega
    rw [e, List.getElem?_eq_getElem hi]
    rw [List.getD_eq_getElem?_getD, List.getElem?_eq_getElem hi] at hx
    exact congrArg some hx

theorem Contains_iff_stored (h : Heap) (hok : h.Ok) (x : Nat) :
    h.Contains x = true ↔ x ∈ h.stored := by
  obtain ⟨_, o2, o3⟩ := hok
  rw [Contains_iff, mem_stored_iff]
  constructor
  · intro hx
    obtain ⟨a, b⟩ := o3 x (lt_length_of_getD_ne _ _ hx) hx
    exact ⟨_, Nat.pos_of_ne_zero hx, a, b⟩
  · rintro ⟨i, h1, hi, hx⟩
    rw [← hx, o2 i hi h1]
    omega

/-- C31: in every heap that arises from the empty heap through `Capacitate`, `Insert`, `Remove`,
`Increase` and `Heapify`, the element stored at a position `i ≥ 1` has the index `i`, an element
that is not stored has the index `0`, and `Contains(x)` holds exactly for the stored elements;
`Insert(x)` adds `x` to the stored elements and keeps the others, and `Remove(x)` removes `x`
and keeps the others. -/
theorem C31_position_map_consistent (h : Heap) (hb : h.Built) (less : Nat → Nat → Bool) :
    (∀ i, 1 ≤ i → i < h.heap_.length → h.index_.getD (h.heap_.getD i 0) 0 = i) ∧
    (∀ x, x ∉ h.stored → h.index_.getD x 0 = 0) ∧
    (∀ x, h.Contains x = true ↔ x ∈ h.stored) ∧
    (∀ x, x < h.index_.length → h.Contains x = false →
      ∀ y, y ∈ (Insert less h x).stored ↔ (y = x ∨ y ∈ h.stored)) ∧
    (∀ x, h.Contains x = true →
      ∀ y, y ∈ (Remove less h x).stored ↔ (y ≠ x ∧ y ∈ h.stored)) := by
  have hok := Ok_of_Built h hb
  refine ⟨fun i h1 hi => hok.2.1 i hi h1, ?_, Contains_iff_stored h hok, ?_, ?_⟩
  · intro x hx
    by_contra hne
    exact hx ((Contains_iff_stored h hok x).mp ((Contains_iff h x).mpr hne))
  · intro x hx hc y
    have hz : h.index_.getD x 0 = 0 := by
      by_contra hne
      rw [(Contains_iff h x).mpr hne] at hc
      exact absurd hc (by decide)
    obtain ⟨a, b⟩ := Insert_Ok less h x hok hx hz
    rw [← Contains_iff_stored _ a y, ← Contains_iff_stored h hok y, Contains_iff, Contains_iff]
    exact b y
  · intro x hc y
    obtain ⟨a, b⟩ := Remove_Ok less h x hok ((Contains_iff h x).mp hc)
    rw [← Contains_iff_stored _ a y, ← Contains_iff_stored h hok y, Contains_iff, Contains_iff]
    exact b y

/-- Witness for C31: the heap with room for the elements up to `15` into which `3` and then
`1` were inserted. -/
theorem C31_position_map_consistent_witness :
    (Insert ltNat (Insert ltNat (Heap.init.Capacitate 15) 3) 1).heap_ = [0, 1, 3] ∧
    (∀ i, 1 ≤ i → i < (Insert ltNat (Insert ltNat (Heap.init.Capacitate 15) 3) 1).heap_.length →
      (Insert ltNat (Insert ltNat (Heap.init.Capacitate 15) 3) 1).index_.getD
        ((Insert ltNat (Insert ltNat (Heap.init.Capacitate 15) 3) 1).heap_.getD i 0) 0 = i) ∧
    (∀ x, x ∉ (Insert ltNat (Insert ltNat (Heap.init.Capacitate 15) 3) 1).stored →
      (Insert ltNat (Insert ltNat (Heap.init.Capacitate 15) 3) 1).index_.getD x 0 = 0) ∧
    (∀ x, (Insert ltNat (Insert ltNat (Heap.init.Capacitate 15) 3) 1).Contains x = true ↔
      x ∈ (Insert ltNat (Insert ltNat (Heap.init.Capacitate 15) 3) 1).stored) ∧
    (∀ x, x < (Insert ltNat (Insert ltNat (Heap.init.Capacitate 15) 3) 1).index_.length →
      (Insert ltNat (Insert ltNat (Heap.init.Capacitate 15) 3) 1).Contains x = false →
      ∀ y, y ∈ (Insert ltNat (Insert ltNat (Insert ltNat (Heap.init.Capacitate 15) 3) 1) x).stored ↔
        (y = x ∨ y ∈ (Insert ltNat (Insert ltNat (Heap.init.Capacitate 15) 3) 1).stored)) ∧
    (∀ x, (Insert ltNat (Insert ltNat (Heap.init.Capacitate 15) 3) 1).Contains x = true →
      ∀ y, y ∈ (Remove ltNat (Insert ltNat (Insert ltNat (Heap.init.Capacitate 15) 3) 1) x).stored ↔
        (y ≠ x ∧ y ∈ (Insert ltNat (Insert ltNat (Heap.init.Capacitate 15) 3) 1).stored)) :=
  ⟨by decide,
    C31_position_map_consistent _
      (Built.insert ltNat _ 1
        (Built.insert ltNat _ 3 (Built.capacitate _ 15 Built.init) (by decide) (by decide))
        (by decide) (by decide))
      ltNat⟩

end Heap

/-! ## Conflict analysis: the learnt clause is a consequence -/

namespace Solver

theorem Frame_refl (s : Solver) : Frame s s :=
  ⟨rfl, rfl, rfl, rfl, rfl, fun _ _ => ⟨rfl, rfl, rfl, rfl⟩, rfl, rfl, rfl, rfl, fun _ => rfl⟩

theorem Frame_trans (s t u : Solver) (h1 : Frame s t) (h2 : Frame t u) : Frame s u :=
  ⟨h2.model.trans h1.model, h2.trail.trans h1.trail, h2.levels.trans h1.levels,
    h2.names.trans h1.names, h2.factory.trans h1.factory, fun g k =>
      ⟨(h2.data g k).1.trans (h1.data g k).1, (h2.data g k).2.1.trans (h1.data g k).2.1,
        (h2.data g k).2.2.1.trans (h1.data g k).2.2.1,
        (h2.data g k).2.2.2.trans (h1.data g k).2.2.2⟩,
    h2.watchers.trans h1.watchers, h2.funcs.trans h1.funcs, h2.sizes.trans h1.sizes,
    h2.rows.1.trans h1.rows.1, fun g => (h2.rows.2 g).trans (h1.rows.2 g)⟩

/-- Writing an entry of `data_` that differs from the old one in the flags of the analysis
only. -/
theorem Frame_setData (s : Solver) (f n : Nat) (d : Data)
    (h1 : d.model_neq = (s.data f n).model_neq) (h2 : d.level = (s.data f n).level)
    (h3 : d.reason = (s.data f n).reason) (h4 : d.occurs = (s.data f n).occurs) :
    Frame s (s.setData f n d) := by
  refine ⟨rfl, rfl, rfl, rfl, rfl, ?_, rfl, rfl, rfl, length_data_setData s f n d,
    fun g => row_length_setData s f n g d⟩
  intro g k
  rcases data_setData_or s f n g k d with e | ⟨rfl, rfl, e⟩
  · rw [e]
    exact ⟨rfl, rfl, rfl, rfl⟩
  · rw [e]
    exact ⟨h1, h2, h3, h4⟩

theorem orderIncrease_frame (s : Solver) (f : Nat) :
    (s.orderIncrease f).trail_ = s.trail_ ∧ (s.orderIncrease f).level_size_ = s.level_size_ ∧
    (s.orderIncrease f).names_ = s.names_ ∧
    (s.orderIncrease f).clause_factory_ = s.clause_factory_ ∧
    (s.orderIncrease f).watchers_ = s.watchers_ ∧ (s.orderIncrease f).funcs_ = s.funcs_ ∧
    (s.orderIncrease f).domain_size_ = s.domain_size_ := by
  unfold orderIncrease
  split
  · exact ⟨rfl, rfl, rfl, rfl, rfl, rfl, rfl⟩
  · exact ⟨rfl, rfl, rfl, rfl, rfl, rfl, rfl⟩

theorem Frame_Bump (s : Solver) (f : Nat) : Frame s (s.Bump f) := by
  have hd := Bump_data_ s f
  have hrest : (s.Bump f).model_ = s.model_ ∧ (s.Bump f).trail_ = s.trail_ ∧
      (s.Bump f).level_size_ = s.level_size_ ∧ (s.Bump f).names_ = s.names_ ∧
      (s.Bump f).clause_factory_ = s.clause_factory_ ∧
      (s.Bump f).watchers_ = s.watchers_ ∧ (s.Bump f).funcs_ = s.funcs_ ∧
      (s.Bump f).domain_size_ = s.domain_size_ := by
    unfold Bump
    dsimp only
    rw [orderIncrease_model_, (orderIncrease_frame _ f).1, (orderIncrease_frame _ f).2.1,
      (orderIncrease_frame _ f).2.2.1, (orderIncrease_frame _ f).2.2.2.1,
      (orderIncrease_frame _ f).2.2.2.2.1, (orderIncrease_frame _ f).2.2.2.2.2.1,
      (orderIncrease_frame _ f).2.2.2.2.2.2]
    split
    · exact ⟨rfl, rfl, rfl, rfl, rfl, rfl, rfl, rfl⟩
    · exact ⟨rfl, rfl, rfl, rfl, rfl, rfl, rfl, rfl⟩
  refine ⟨hrest.1, hrest.2.1, hrest.2.2.1, hrest.2.2.2.1, hrest.2.2.2.2.1, ?_,
    hrest.2.2.2.2.2.1, hrest.2.2.2.2.2.2.1, hrest.2.2.2.2.2.2.2, by rw [hd],
    fun g => by rw [hd]⟩
  intro g k
  unfold data
  rw [hd]
  exact ⟨rfl, rfl, rfl, rfl⟩

theorem Frame_model (s t : Solver) (h : Frame s t) (g : Nat) : t.model g = s.model g := by
  unfold model
  rw [h.model]

theorem Frame_level_of_complementary (s t : Solver) (h : Frame s t) (a : Literal) :
    t.level_of_complementary a = s.level_of_complementary a := by
  unfold level_of_complementary
  dsimp only
  rw [Frame_model s t h, (h.data a.lhs a.rhs).1, (h.data a.lhs a.rhs).2.1,
    (h.data a.lhs (s.model a.lhs)).2.1]

theorem Frame_reason_of (s t : Solver) (h : Frame s t) (a : Literal) :
    t.reason_of a = s.reason_of a := by
  unfold reason_of
  dsimp only
  rw [Frame_model s t h, (h.data a.lhs a.rhs).1, (h.data a.lhs a.rhs).2.2.1,
    (h.data a.lhs (s.model a.lhs)).2.2.1]

theorem Frame_clause (s t : Solver) (h : Frame s t) (cr : Int) : t.clause cr = s.clause cr := by
  unfold clause
  rw [h.factory]

theorem Frame_current_level (s t : Solver) (h : Frame s t) :
    t.current_level = s.current_level := by
  unfold current_level
  rw [h.levels]

theorem holds_flip (M : Nat → Nat) (a : Literal) : holds M a.flip = !holds M a := by
  obtain ⟨p, f, n⟩ := a
  cases p <;> simp [holds, Literal.flip, bne]

theorem falsifies_iff_parts (s : Solver) (a : Literal) :
    s.falsifies a (-1) = true ↔
      ((a.pos = false ∧ s.model a.lhs = a.rhs) ∨
        (a.pos = true ∧ ((s.model a.lhs ≠ 0 ∧ s.model a.lhs ≠ a.rhs) ∨
          (s.data a.lhs a.rhs).model_neq = true))) := by
  unfold falsifies
  dsimp only
  have hd : decide ((-1 : Int) < 0) = true := by decide
  rw [hd]
  cases a.pos <;> simp

/-- A falsified literal that is true in `M` makes the literal of its pair, and of the pair of
the name assigned to its function, false in `M`. -/
theorem holds_satLit_false (s : Solver) (M : Nat → Nat) (a : Literal) (k : Nat)
    (hcons : ∀ f n, (s.data f n).model_neq = true → s.model f ≠ n)
    (hf : s.falsifies a (-1) = true) (ha : holds M a = true)
    (hk : k = a.rhs ∨ (a.pos = true ∧ k = s.model a.lhs ∧ k ≠ 0)) :
    holds M (satLit s a.lhs k) = false := by
  rw [falsifies_iff_parts] at hf
  obtain ⟨p, f, n⟩ := a
  unfold holds at ha
  unfold holds satLit
  dsimp only at hf ha hk ⊢
  have hc := hcons f n
  rcases hf with ⟨hp, hm⟩ | ⟨hp, hm⟩
  · subst hp
    simp only [Bool.false_eq_true, if_false, bne_iff_ne, ne_eq, false_and, or_false] at ha hk
    subst hk
    rw [hm]
    simp only [beq_self_eq_true, if_true, beq_eq_false_iff_ne, ne_eq]
    exact ha
  · subst hp
    simp only [if_true, beq_iff_eq, true_and] at ha hk
    have hmn : s.model f ≠ n := by
      rcases hm with h | h
      · exact h.2
      · exact hc h
    rcases hk with rfl | ⟨rfl, hk0⟩
    · have e : (s.model f == k) = false := by simpa using hmn
      rw [e]
      simp only [Bool.false_eq_true, if_false, bne_eq_false_iff_eq]
      exact ha
    · simp only [beq_self_eq_true, if_true, beq_eq_false_iff_ne, ne_eq]
      rw [ha]
      exact fun e => hmn e.symm

theorem level_in_capacity (s : Solver) (f n : Nat) (h : (s.data f n).level ≠ 0) :
    f < s.data_.length ∧ n < (s.data_.getD f []).length := by
  unfold data at h
  constructor
  · by_contra hf
    rw [List.getD_eq_default _ _ (Nat.le_of_not_lt hf)] at h
    simp [Data.null] at h
  · by_contra hn
    rw [List.getD_eq_default (s.data_.getD f []) _ (Nat.le_of_not_lt hn)] at h
    simp [Data.null] at h

theorem neq_in_capacity (s : Solver) (f n : Nat) (h : (s.data f n).model_neq = true) :
    f < s.data_.length ∧ n < (s.data_.getD f []).length := by
  unfold data at h
  constructor
  · by_contra hf
    rw [List.getD_eq_default _ _ (Nat.le_of_not_lt hf)] at h
    simp [Data.null] at h
  · by_contra hn
    rw [List.getD_eq_default (s.data_.getD f []) _ (Nat.le_of_not_lt hn)] at h
    simp [Data.null] at h

/-- What `Consistent` says for all pairs, also those beyond the capacity. -/
theorem Consistent_all (s : Solver) (hc : Consistent s) :
    (∀ f n, (s.data f n).model_neq = true → s.model f ≠ n) ∧
    (∀ f n, (s.data f n).level ≤ s.current_level) := by
  refine ⟨?_, ?_⟩
  · intro f n h
    obtain ⟨a, b⟩ := neq_in_capacity s f n h
    exact (hc f a n b).1 h
  · intro f n
    by_cases h : (s.data f n).level = 0
    · rw [h]
      exact Nat.zero_le _
    · obtain ⟨a, b⟩ := level_in_capacity s f n h
      exact (hc f a n b).2

theorem RootFacts_of_Models (sort : Nat → Nat) (s : Solver) (M : Nat → Nat)
    (h : Models sort s M) : RootFacts s M := by
  intro f n hl
  have h0 : (s.data f n).level ≠ 0 := by
    rw [hl]
    decide
  obtain ⟨a, b⟩ := level_in_capacity s f n h0
  exact h.2.1 f a n b hl

/-- A falsified literal whose complementary literal was set at the root level is false in
every assignment that satisfies what is recorded for the root level. -/
theorem root_falsified (s : Solver) (M : Nat → Nat) (a : Literal) (hM : RootFacts s M)
    (hf : s.falsifies a (-1) = true) (hn : a.rhs ≠ 0)
    (hl : s.level_of_complementary a = kRootLevel) : holds M a = false := by
  rw [falsifies_iff_parts] at hf
  obtain ⟨p, f, n⟩ := a
  unfold level_of_complementary at hl
  dsimp only at hf hn hl
  unfold holds
  dsimp only
  rcases hf with ⟨hp, hmn⟩ | ⟨hp, hmn⟩
  · subst hp
    simp only [Bool.false_and, Bool.false_eq_true, if_false] at hl ⊢
    rw [hmn] at hl
    have := (hM f n hl).2 hmn hn
    rw [this]
    simp
  · subst hp
    simp only [Bool.true_and, if_true, beq_eq_false_iff_ne, ne_eq] at hl ⊢
    by_cases hx : (s.data f n).model_neq = true
    · rw [if_pos hx] at hl
      exact (hM f n hl).1 hx
    · rw [if_neg hx] at hl
      rcases hmn with ⟨h0, h1⟩ | h2
      · have := (hM f (s.model f) hl).2 rfl h0
        rw [this]
        exact h1
      · exact absurd h2 hx

/-- Two falsified literals on the same pair, or on the pair of the assigned name, of which the
first is true in `M`: the second is true in `M` as well. -/
theorem holds_of_same_pair (s : Solver) (M : Nat → Nat) (a b : Literal)
    (hcons : ∀ f n, (s.data f n).model_neq = true → s.model f ≠ n)
    (hfa : s.falsifies a (-1) = true) (hfb : s.falsifies b (-1) = true)
    (ha : holds M a = true) (hl : b.lhs = a.lhs)
    (hk : b.rhs = a.rhs ∨ (a.pos = true ∧ b.rhs = s.model a.lhs ∧ s.model a.lhs ≠ 0)) :
    holds M b = true := by
  rw [falsifies_iff_parts] at hfa hfb
  obtain ⟨p, f, n⟩ := a
  obtain ⟨q, g, k⟩ := b
  dsimp only at hfa hfb hl hk
  subst hl
  unfold holds at ha ⊢
  dsimp only at ha ⊢
  have hpos : ∀ x, ((s.model g ≠ 0 ∧ s.model g ≠ x) ∨ (s.data g x).model_neq = true) →
      s.model g ≠ x := by
    intro x hx
    rcases hx with h | h
    · exact h.2
    · exact hcons g x h
  rcases hk with rfl | ⟨hp, rfl, hm0⟩
  · rcases hfa with ⟨hp, hm⟩ | ⟨hp, hm⟩ <;> rcases hfb with ⟨hq, hm2⟩ | ⟨hq, hm2⟩ <;>
      subst hp <;> subst hq
    · exact ha
    · exact absurd hm (hpos _ hm2)
    · exact absurd hm2 (hpos _ hm)
    · exact ha
  · subst hp
    rcases hfa with ⟨hp, _⟩ | ⟨_, hm⟩
    · exact absurd hp (by decide)
    · have hmn := hpos _ hm
      simp only [if_true, beq_iff_eq] at ha
      rcases hfb with ⟨hq, _⟩ | ⟨hq, hm2⟩
      · subst hq
        simp only [Bool.false_eq_true, if_false, bne_iff_ne, ne_eq]
        rw [ha]
        exact fun e => hmn e.symm
      · exact absurd rfl (hpos _ hm2)

theorem Bump_data (s : Solver) (f g k : Nat) : (s.Bump f).data g k = s.data g k := by
  unfold data
  rw [Bump_data_]

theorem see_frame (s : Solver) (a : Literal) : Frame s (s.see_subsuming a) :=
  Frame_setData s _ _ _ rfl rfl rfl rfl

theorem see_wanted (s : Solver) (a : Literal) (g k : Nat) :
    ((s.see_subsuming a).data g k).wanted = (s.data g k).wanted := by
  unfold see_subsuming
  rcases data_setData_or s a.lhs a.rhs g k { s.data a.lhs a.rhs with seen_subsumed := true }
    with e | ⟨rfl, rfl, e⟩
  · rw [e]
  · rw [e]

theorem setWanted_frame (s : Solver) (f n : Nat) (b : Bool) :
    Frame s (s.setData f n { s.data f n with wanted := b }) :=
  Frame_setData s _ _ _ rfl rfl rfl rfl

theorem setWanted_mono (s : Solver) (f n g k : Nat) (h : (s.data g k).wanted = true) :
    ((s.setData f n { s.data f n with wanted := true }).data g k).wanted = true := by
  rcases data_setData_or s f n g k { s.data f n with wanted := true } with e | ⟨rfl, rfl, e⟩
  · rw [e]
    exact h
  · rw [e]

theorem setWanted_set (s : Solver) (f n : Nat) (h : (s.data f n).level ≠ 0) :
    ((s.setData f n { s.data f n with wanted := true }).data f n).wanted = true := by
  obtain ⟨a, b⟩ := level_in_capacity s f n h
  rw [data_setData_same s f n _ a b]

theorem want_frame (s : Solver) (a : Literal) (l : Nat) :
    Frame s (s.want_complementary_on_level a l) := by
  unfold want_complementary_on_level
  dsimp only
  split
  · exact setWanted_frame s _ _ true
  · split
    · exact setWanted_frame s _ _ true
    · exact setWanted_frame s _ _ true

theorem want_mono (s : Solver) (a : Literal) (l : Nat) (g k : Nat)
    (h : (s.data g k).wanted = true) :
    ((s.want_complementary_on_level a l).data g k).wanted = true := by
  unfold want_complementary_on_level
  dsimp only
  split
  · exact setWanted_mono s _ _ g k h
  · split
    · exact setWanted_mono s _ _ g k h
    · exact setWanted_mono s _ _ g k h

/-- The three outcomes of `handle_conflict`: the literal is skipped, added to the learnt clause,
or its complementary literal is marked as wanted. -/
theorem handle_conflict_cases (st : AnalyzeState) (a : Literal) :
    (handle_conflict st a = st ∧
      (st.trail_a = a ∨ st.s.level_of_complementary a = kRootLevel ∨
        st.s.seen_subsumed a = true ∨
        st.s.wanted_complementary_on_level a (st.s.level_of_complementary a) = true ∨
        st.s.current_level < st.s.level_of_complementary a)) ∨
    (handle_conflict st a =
        { st with learnt := st.learnt ++ [a], s := (st.s.see_subsuming a).Bump a.lhs } ∧
      st.trail_a ≠ a ∧ st.s.level_of_complementary a < st.s.current_level ∧
      st.s.level_of_complementary a ≠ kRootLevel) ∨
    (handle_conflict st a =
        { st with depth := st.depth + 1,
                  s := (st.s.want_complementary_on_level a
                    (st.s.level_of_complementary a)).Bump a.lhs } ∧
      st.trail_a ≠ a ∧ st.s.level_of_complementary a = st.s.current_level ∧
      st.s.level_of_complementary a ≠ kRootLevel) := by
  unfold handle_conflict
  by_cases c0 : (st.trail_a == a) = true
  · rw [if_pos c0]
    exact Or.inl ⟨rfl, Or.inl (by simpa using c0)⟩
  · rw [if_neg c0]
    have hne : st.trail_a ≠ a := by simpa using c0
    dsimp only
    by_cases c1 : (st.s.level_of_complementary a == kRootLevel || st.s.seen_subsumed a ||
        st.s.wanted_complementary_on_level a (st.s.level_of_complementary a)) = true
    · rw [if_pos c1]
      left
      refine ⟨rfl, Or.inr ?_⟩
      simp only [Bool.or_eq_true, beq_iff_eq] at c1
      rcases c1 with (h | h) | h
      · exact Or.inl h
      · exact Or.inr (Or.inl h)
      · exact Or.inr (Or.inr (Or.inl h))
    · rw [if_neg c1]
      have hroot : st.s.level_of_complementary a ≠ kRootLevel := by
        intro e
        apply c1
        rw [e]
        rfl
      by_cases c2 : st.s.level_of_complementary a < st.s.current_level
      · rw [if_pos c2]
        exact Or.inr (Or.inl ⟨rfl, hne, c2, hroot⟩)
      · rw [if_neg c2]
        by_cases c3 : (st.s.level_of_complementary a == st.s.current_level) = true
        · rw [if_pos c3]
          exact Or.inr (Or.inr ⟨rfl, hne, by simpa using c3, hroot⟩)
        · rw [if_neg c3]
          left
          refine ⟨rfl, Or.inr (Or.inr (Or.inr (Or.inr ?_)))⟩
          have : st.s.level_of_complementary a ≠ st.s.current_level := by simpa using c3
          omega

theorem tail_snoc (l : List Literal) (a : Literal) (h : l ≠ []) :
    (l ++ [a]).tail = l.tail ++ [a] := by
  cases l with
  | nil => exact absurd rfl h
  | cons x xs => rfl

/-- The pairs that `want_complementary_on_level` marks for a falsified literal have the level
of its complementary literal. -/
theorem want_level (s0 s : Solver) (hfr : Frame s0 s) (a : Literal)
    (hf : s0.falsifies a (-1) = true) (g k : Nat)
    (h : ((s.want_complementary_on_level a (s0.level_of_complementary a)).data g k).wanted
      = true) :
    (s.data g k).wanted = true ∨ (s0.data g k).level = s0.level_of_complementary a := by
  rw [falsifies_iff_parts] at hf
  have hmodel := Frame_model s0 s hfr a.lhs
  unfold want_complementary_on_level at h
  unfold level_of_complementary at h ⊢
  dsimp only at h ⊢
  have key : ∀ (f n : Nat), ((s.setData f n { s.data f n with wanted := true }).data g k).wanted
      = true → (s.data g k).wanted = true ∨ (f = g ∧ n = k) := by
    intro f n hw
    rcases data_setData_or s f n g k { s.data f n with wanted := true } with e | ⟨e1, e2, _⟩
    · rw [e] at hw
      exact Or.inl hw
    · exact Or.inr ⟨e1.symm, e2.symm⟩
  rcases hf with ⟨hp, hm⟩ | ⟨hp, hm⟩
  · rw [hp] at h ⊢
    simp only [Bool.not_false, if_true, Bool.false_and, Bool.false_eq_true, if_false] at h ⊢
    rcases key _ _ h with h1 | ⟨rfl, rfl⟩
    · exact Or.inl h1
    · right
      rw [hm]
  · rw [hp] at h ⊢
    simp only [Bool.not_true, Bool.false_eq_true, if_false, Bool.true_and] at h ⊢
    by_cases c : ((s.data a.lhs a.rhs).level ==
        (if (s0.data a.lhs a.rhs).model_neq = true then (s0.data a.lhs a.rhs).level
          else (s0.data a.lhs (s0.model a.lhs)).level)) = true
    · rw [if_pos c] at h
      rw [beq_iff_eq, (hfr.data a.lhs a.rhs).2.1] at c
      rcases key _ _ h with h1 | ⟨rfl, rfl⟩
      · exact Or.inl h1
      · exact Or.inr c
    · rw [if_neg c] at h
      rw [beq_iff_eq, (hfr.data a.lhs a.rhs).2.1] at c
      rcases key _ _ h with h1 | ⟨rfl, e⟩
      · exact Or.inl h1
      · right
        by_cases hx : (s0.data a.lhs a.rhs).model_neq = true
        · rw [if_pos hx] at c
          exact absurd rfl c
        · rw [if_neg hx, ← e, hmodel]

/-- A step of `handle_conflict` for a literal that is the one resolved upon or is falsified
keeps the invariant of the loop. -/
theorem handle_conflict_res (s : Solver) (st : AnalyzeState) (a : Literal) (hres : Res s st)
    (hf : a = st.trail_a ∨ (s.falsifies a (-1) = true ∧ a.rhs ≠ 0)) :
    Res s (handle_conflict st a) := by
  have hana := AnaInv_handle_conflict st a hres.ana
  have hl := Frame_level_of_complementary s st.s hres.frame a
  have hcur := Frame_current_level s st.s hres.frame
  rcases handle_conflict_cases st a with ⟨e, _⟩ | ⟨e, hne, hlt, hnr⟩ | ⟨e, hne, hlc, _⟩
  · rw [e]
    exact hres
  · have hfr : Frame s ((st.s.see_subsuming a).Bump a.lhs) :=
      Frame_trans _ _ _ hres.frame (Frame_trans _ _ _ (see_frame _ a) (Frame_Bump _ _))
    have hw : ∀ g k, (((st.s.see_subsuming a).Bump a.lhs).data g k).wanted = true →
        (st.s.data g k).wanted = true := by
      intro g k hgk
      rw [Bump_data, see_wanted] at hgk
      exact hgk
    generalize (st.s.see_subsuming a).Bump a.lhs = t at e hfr hw
    rw [e] at hana ⊢
    have hfa : s.falsifies a (-1) = true ∧ a.rhs ≠ 0 := by
      rcases hf with h2 | h2
      · exact absurd h2.symm hne
      · exact h2
    refine ⟨hfr, hana, ?_, ?_, fun g k hgk => hres.marked g k (hw g k hgk), hres.index⟩
    · intro b hb
      have hb2 : b ∈ (st.learnt ++ [a]).tail := hb
      rw [tail_snoc _ _ hres.ana.nonempty, List.mem_append, List.mem_singleton] at hb2
      rcases hb2 with h | h
      · exact hres.falsified b h
      · rw [h]
        exact hfa
    · intro b hb
      have hb2 : b ∈ (st.learnt ++ [a]).tail := hb
      rw [tail_snoc _ _ hres.ana.nonempty, List.mem_append, List.mem_singleton] at hb2
      rcases hb2 with h | h
      · exact hres.below b h
      · rw [h, ← hl, ← hcur]
        exact ⟨hlt, hnr⟩
  · have hfr : Frame s ((st.s.want_complementary_on_level a
        (st.s.level_of_complementary a)).Bump a.lhs) :=
      Frame_trans _ _ _ hres.frame (Frame_trans _ _ _ (want_frame _ a _) (Frame_Bump _ _))
    have hfa : s.falsifies a (-1) = true := by
      rcases hf with h2 | h2
      · exact absurd h2.symm hne
      · exact h2.1
    have hw : ∀ g k, (((st.s.want_complementary_on_level a
        (st.s.level_of_complementary a)).Bump a.lhs).data g k).wanted = true →
        (s.data g k).level = s.current_level := by
      intro g k hgk
      rw [Bump_data, hl] at hgk
      rcases want_level s st.s hres.frame a hfa g k hgk with h1 | h1
      · exact hres.marked g k h1
      · rw [h1, ← hl, hlc, hcur]
    generalize (st.s.want_complementary_on_level a
      (st.s.level_of_complementary a)).Bump a.lhs = t at e hfr hw
    rw [e] at hana ⊢
    exact ⟨hfr, hana, hres.falsified, hres.below, hw, hres.index⟩

/-- A step of `handle_conflict` keeps the resolvent true. -/
theorem handle_conflict_mono (s : Solver) (M : Nat → Nat) (st : AnalyzeState) (a : Literal)
    (hres : Res s st) (h : Pending s M st) : Pending s M (handle_conflict st a) := by
  rcases handle_conflict_cases st a with ⟨e, _⟩ | ⟨e, _, _⟩ | ⟨e, _, _⟩
  · rw [e]
    exact h
  · have hw : ∀ g k, (st.s.data g k).wanted = true →
        (((st.s.see_subsuming a).Bump a.lhs).data g k).wanted = true := by
      intro g k hgk
      rw [Bump_data, see_wanted]
      exact hgk
    generalize (st.s.see_subsuming a).Bump a.lhs = t at e hw
    rw [e]
    rcases h with ⟨b, hb, hh⟩ | ⟨g, k, hgk, hh⟩
    · left
      refine ⟨b, ?_, hh⟩
      show b ∈ (st.learnt ++ [a]).tail
      rw [tail_snoc _ _ hres.ana.nonempty]
      exact List.mem_append_left _ hb
    · exact Or.inr ⟨g, k, hw g k hgk, hh⟩
  · have hw : ∀ g k, (st.s.data g k).wanted = true →
        (((st.s.want_complementary_on_level a (st.s.level_of_complementary a)).Bump
          a.lhs).data g k).wanted = true := by
      intro g k hgk
      rw [Bump_data]
      exact want_mono _ _ _ _ _ hgk
    generalize (st.s.want_complementary_on_level a
      (st.s.level_of_complementary a)).Bump a.lhs = t at e hw
    rw [e]
    rcases h with ⟨b, hb, hh⟩ | ⟨g, k, hgk, hh⟩
    · exact Or.inl ⟨b, hb, hh⟩
    · exact Or.inr ⟨g, k, hw g k hgk, hh⟩

theorem level_of_complementary_le (s : Solver) (a : Literal)
    (hlev : ∀ f n, (s.data f n).level ≤ s.current_level) :
    s.level_of_complementary a ≤ s.current_level := by
  unfold level_of_complementary
  dsimp only
  split
  · exact hlev _ _
  · exact hlev _ _

/-- The pair that `want_complementary_on_level` marks for a falsified literal whose
complementary literal has the level `l`: it is the pair of the literal, or the pair of the name
assigned to its function, and the mark is set. -/
theorem want_sets (s0 s : Solver) (hfr : Frame s0 s) (a : Literal) (l : Nat)
    (hl : s0.level_of_complementary a = l) (hl0 : l ≠ 0)
    (hf : s0.falsifies a (-1) = true) :
    ∃ k, ((s.want_complementary_on_level a l).data a.lhs k).wanted = true ∧
      (k = a.rhs ∨ (a.pos = true ∧ k = s0.model a.lhs ∧ k ≠ 0)) := by
  rw [falsifies_iff_parts] at hf
  unfold level_of_complementary at hl
  unfold want_complementary_on_level
  dsimp only at hl ⊢
  have hmodel := Frame_model s0 s hfr a.lhs
  rcases hf with ⟨hp, hm⟩ | ⟨hp, hm⟩
  · rw [hp]
    rw [hp] at hl
    simp only [Bool.false_and, Bool.false_eq_true, if_false] at hl
    simp only [Bool.not_false, if_true]
    refine ⟨a.rhs, ?_, Or.inl rfl⟩
    apply setWanted_set
    rw [(hfr.data a.lhs a.rhs).2.1, ← hm, hl]
    exact hl0
  · rw [hp]
    rw [hp] at hl
    simp only [Bool.true_and] at hl
    simp only [Bool.not_true, Bool.false_eq_true, if_false]
    by_cases c : ((s.data a.lhs a.rhs).level == l) = true
    · rw [if_pos c]
      refine ⟨a.rhs, ?_, Or.inl rfl⟩
      apply setWanted_set
      rw [beq_iff_eq] at c
      rw [c]
      exact hl0
    · rw [if_neg c]
      have hc : (s0.data a.lhs a.rhs).level ≠ l := by
        rw [← (hfr.data a.lhs a.rhs).2.1]
        simpa using c
      have hx : ¬ (s0.data a.lhs a.rhs).model_neq = true := by
        intro hx
        rw [if_pos hx] at hl
        exact hc hl
      rw [if_neg hx] at hl
      have hm0 : s0.model a.lhs ≠ 0 := by
        rcases hm with h | h
        · exact h.1
        · exact absurd h hx
      refine ⟨s.model a.lhs, ?_, Or.inr ⟨trivial, hmodel, by rw [hmodel]; exact hm0⟩⟩
      apply setWanted_set
      rw [hmodel, (hfr.data a.lhs (s0.model a.lhs)).2.1, hl]
      exact hl0

/-- A step of `handle_conflict` for a falsified literal that is true in `M`, and is not the
literal resolved upon, makes the resolvent true. -/
theorem handle_conflict_holds (s : Solver) (M : Nat → Nat) (st : AnalyzeState) (a : Literal)
    (hres : Res s st) (hc : Consistent s)
    (hroot : kRootLevel < s.current_level) (hM : RootFacts s M)
    (hf : s.falsifies a (-1) = true) (hn : a.rhs ≠ 0) (hne : st.trail_a ≠ a)
    (ha : holds M a = true) : Pending s M (handle_conflict st a) := by
  obtain ⟨hcons, hlev⟩ := Consistent_all s hc
  have hl := Frame_level_of_complementary s st.s hres.frame a
  have hcur := Frame_current_level s st.s hres.frame
  have hmodel := Frame_model s st.s hres.frame a.lhs
  rcases handle_conflict_cases st a with ⟨e, hc⟩ | ⟨e, _, _⟩ | ⟨e, _, hlc, _⟩
  · rw [e]
    rcases hc with h | h | h | h | h
    · exact absurd h hne
    · rw [hl] at h
      have := root_falsified s M a hM hf hn h
      rw [ha] at this
      exact absurd this (by decide)
    · left
      unfold seen_subsumed at h
      dsimp only at h
      rw [hmodel] at h
      simp only [Bool.or_eq_true, Bool.and_eq_true, bne_iff_ne, ne_eq] at h
      rcases h with h | ⟨⟨hp, hm0⟩, h⟩
      · obtain ⟨b, hb, hbl, hbr⟩ := hres.ana.seen _ _ h
        exact ⟨b, hb, holds_of_same_pair s M a b hcons hf (hres.falsified b hb).1 ha hbl
          (Or.inl hbr)⟩
      · obtain ⟨b, hb, hbl, hbr⟩ := hres.ana.seen _ _ h
        exact ⟨b, hb, holds_of_same_pair s M a b hcons hf (hres.falsified b hb).1 ha hbl
          (Or.inr ⟨hp, hbr, hm0⟩)⟩
    · right
      unfold wanted_complementary_on_level at h
      dsimp only at h
      rw [hmodel] at h
      by_cases hp : a.pos = true
      · rw [hp] at h
        simp only [Bool.not_true, Bool.false_eq_true, if_false, Bool.or_eq_true,
          Bool.and_eq_true, bne_iff_ne, ne_eq] at h
        rcases h with ⟨_, h⟩ | ⟨hm0, h⟩
        · exact ⟨a.lhs, a.rhs, h, holds_satLit_false s M a _ hcons hf ha (Or.inl rfl)⟩
        · exact ⟨a.lhs, s.model a.lhs, h,
            holds_satLit_false s M a _ hcons hf ha (Or.inr ⟨hp, rfl, hm0⟩)⟩
      · have hp2 : a.pos = false := by simpa using hp
        rw [hp2] at h
        simp only [Bool.not_false, if_true] at h
        exact ⟨a.lhs, a.rhs, h, holds_satLit_false s M a _ hcons hf ha (Or.inl rfl)⟩
    · have := level_of_complementary_le s a hlev
      omega
  · generalize (st.s.see_subsuming a).Bump a.lhs = t at e
    rw [e]
    left
    refine ⟨a, ?_, ha⟩
    show a ∈ (st.learnt ++ [a]).tail
    rw [tail_snoc _ _ hres.ana.nonempty]
    exact List.mem_append_right _ (List.mem_singleton.mpr rfl)
  · have hl0 : st.s.level_of_complementary a ≠ 0 := by
      rw [hlc, hcur]
      unfold kRootLevel at hroot
      omega
    obtain ⟨k, hk, hkk⟩ := want_sets s st.s hres.frame a _ hl.symm hl0 hf
    have hw : (((st.s.want_complementary_on_level a (st.s.level_of_complementary a)).Bump
        a.lhs).data a.lhs k).wanted = true := by
      rw [Bump_data]
      exact hk
    generalize (st.s.want_complementary_on_level a
      (st.s.level_of_complementary a)).Bump a.lhs = t at e hw
    rw [e]
    exact Or.inr ⟨a.lhs, k, hw, holds_satLit_false s M a k hcons hf ha hkk⟩

theorem handle_conflict_trail_a (st : AnalyzeState) (a : Literal) :
    (handle_conflict st a).trail_a = st.trail_a ∧ (handle_conflict st a).trail_i = st.trail_i := by
  rcases handle_conflict_cases st a with ⟨e, _⟩ | ⟨e, _, _⟩ | ⟨e, _, _⟩
  · rw [e]
    exact ⟨rfl, rfl⟩
  · generalize (st.s.see_subsuming a).Bump a.lhs = t at e
    rw [e]
    exact ⟨rfl, rfl⟩
  · generalize (st.s.want_complementary_on_level a
      (st.s.level_of_complementary a)).Bump a.lhs = t at e
    rw [e]
    exact ⟨rfl, rfl⟩

/-- A loop of steps over a list keeps the invariant, and makes the resolvent true when it was
true before or when one of the steps meets an element that makes it true. -/
theorem fold_sound {α : Type} (s : Solver) (M : Nat → Nat) (F : AnalyzeState → α → AnalyzeState)
    (Good : α → Prop) (ta : Literal) (ti : Int) : ∀ (l : List α),
    (∀ t x, x ∈ l → Res s t → t.trail_a = ta → t.trail_i = ti →
      Res s (F t x) ∧ (F t x).trail_a = ta ∧ (F t x).trail_i = ti) →
    (∀ t x, x ∈ l → Res s t → Pending s M t → Pending s M (F t x)) →
    (∀ t x, x ∈ l → Res s t → t.trail_a = ta → Good x → Pending s M (F t x)) →
    ∀ st, Res s st → st.trail_a = ta → st.trail_i = ti →
      Res s (l.foldl F st) ∧ (l.foldl F st).trail_a = ta ∧ (l.foldl F st).trail_i = ti ∧
      ((Pending s M st ∨ ∃ x ∈ l, Good x) → Pending s M (l.foldl F st)) := by
  intro l
  induction l with
  | nil =>
    intro _ _ _ st hres hta hti
    refine ⟨hres, hta, hti, ?_⟩
    rintro (h | ⟨x, hx, _⟩)
    · exact h
    · exact absurd hx (List.not_mem_nil x)
  | cons y l ih =>
    intro h1 h2 h3 st hres hta hti
    rw [List.foldl_cons]
    obtain ⟨r1, r2, r3⟩ := h1 st y (List.mem_cons_self _ _) hres hta hti
    obtain ⟨a, b, c, d⟩ := ih
      (fun t x hx => h1 t x (List.mem_cons_of_mem _ hx))
      (fun t x hx => h2 t x (List.mem_cons_of_mem _ hx))
      (fun t x hx => h3 t x (List.mem_cons_of_mem _ hx)) (F st y) r1 r2 r3
    refine ⟨a, b, c, ?_⟩
    rintro (h | ⟨x, hx, hg⟩)
    · exact d (Or.inl (h2 st y (List.mem_cons_self _ _) hres h))
    · rcases List.mem_cons.mp hx with rfl | hx
      · exact d (Or.inl (h3 st x (List.mem_cons_self _ _) hres hta hg))
      · exact d (Or.inr ⟨x, hx, hg⟩)

/-- The first part of a round of `Analyze` over the literals of a clause. -/
theorem AnalyzePass_clause (sort : Nat → Nat) (s : Solver) (M : Nat → Nat) (st : AnalyzeState)
    (conflict : Int) (hres : Res s st) (hcs : Consistent s)
    (hroot : kRootLevel < s.current_level) (hM : RootFacts s M)
    (hc : conflict ≠ kDomainRef) (hof : OthersFalsified s conflict st.trail_a) :
    Res s (AnalyzePass sort st conflict) ∧
    (AnalyzePass sort st conflict).trail_a = st.trail_a ∧
    (AnalyzePass sort st conflict).trail_i = st.trail_i ∧
    ((Pending s M st ∨ ∃ a ∈ (s.clause conflict).lits, st.trail_a ≠ a ∧ holds M a = true) →
      Pending s M (AnalyzePass sort st conflict)) := by
  unfold AnalyzePass
  have hc2 : ¬ (conflict == kDomainRef) = true := by simpa using hc
  rw [if_neg hc2, Frame_clause s st.s hres.frame]
  refine fold_sound s M handle_conflict (fun a => st.trail_a ≠ a ∧ holds M a = true)
    st.trail_a st.trail_i (s.clause conflict).lits ?_ ?_ ?_ st hres rfl rfl
  · intro t x hx ht hta _
    refine ⟨handle_conflict_res s t x ht ?_, ?_, ?_⟩
    · rcases hof x hx with h | h
      · exact Or.inl (h.trans hta.symm)
      · exact Or.inr h
    · rw [(handle_conflict_trail_a t x).1]
      exact hta
    · rw [(handle_conflict_trail_a t x).2]
      assumption
  · intro t x _ ht hp
    exact handle_conflict_mono s M t x ht hp
  · intro t x hx ht hta hg
    rcases hof x hx with h | h
    · exact absurd h.symm hg.1
    · exact handle_conflict_holds s M t x ht hcs hroot hM h.1 h.2 (by rw [hta]; exact hg.1)
        hg.2

/-- For a positive literal `f = k` of the trail, every literal `f = n` is that literal or is
falsified. -/
theorem domain_literal (s : Solver) (t : Literal) (n : Nat) (ht : TrailTrue s)
    (hin : t ∈ s.trail_) (hpos : t.pos = true) :
    Literal.Eq t.lhs n = t ∨ s.falsifies (Literal.Eq t.lhs n) (-1) = true := by
  obtain ⟨h0, hp, _⟩ := ht t hin
  have hmod := hp hpos
  by_cases hn : n = t.rhs
  · left
    obtain ⟨p, f, k⟩ := t
    dsimp only at hpos hn
    subst hpos
    subst hn
    rfl
  · right
    rw [falsifies_iff_parts]
    right
    refine ⟨rfl, Or.inl ⟨?_, ?_⟩⟩
    · show s.model t.lhs ≠ 0
      rw [hmod]
      exact h0
    · show s.model t.lhs ≠ n
      rw [hmod]
      exact fun e => hn e.symm

/-- The first part of a round of `Analyze` over the names of the domain of a function. -/
theorem AnalyzePass_domain (sort : Nat → Nat) (s : Solver) (M : Nat → Nat) (st : AnalyzeState)
    (hres : Res s st) (hcs : Consistent s)
    (hroot : kRootLevel < s.current_level) (hM : RootFacts s M)
    (ht : TrailTrue s) (hin : st.trail_a ∈ s.trail_) (hpos : st.trail_a.pos = true) :
    Res s (AnalyzePass sort st kDomainRef) ∧
    (AnalyzePass sort st kDomainRef).trail_a = st.trail_a ∧
    (AnalyzePass sort st kDomainRef).trail_i = st.trail_i ∧
    ((Pending s M st ∨ ∃ n ∈ s.names_.getD (sort st.trail_a.lhs) [],
        (n ≠ 0 ∧ (s.data st.trail_a.lhs n).occurs = true) ∧
          st.trail_a ≠ Literal.Eq st.trail_a.lhs n ∧
          holds M (Literal.Eq st.trail_a.lhs n) = true) →
      Pending s M (AnalyzePass sort st kDomainRef)) := by
  unfold AnalyzePass
  have hc2 : (kDomainRef == kDomainRef) = true := by decide
  rw [if_pos hc2]
  dsimp only
  rw [hres.frame.names]
  have hcond : ∀ (t : AnalyzeState) (n : Nat), Res s t →
      ((n != 0 && (t.s.data st.trail_a.lhs n).occurs) = true ↔
        (n ≠ 0 ∧ (s.data st.trail_a.lhs n).occurs = true)) := by
    intro t n hrt
    rw [(hrt.frame.data st.trail_a.lhs n).2.2.2]
    simp
  refine fold_sound s M
    (fun t n => if (n != 0 && (t.s.data st.trail_a.lhs n).occurs) = true then
      handle_conflict t (Literal.Eq st.trail_a.lhs n) else t)
    (fun n => (n ≠ 0 ∧ (s.data st.trail_a.lhs n).occurs = true) ∧
      st.trail_a ≠ Literal.Eq st.trail_a.lhs n ∧ holds M (Literal.Eq st.trail_a.lhs n) = true)
    st.trail_a st.trail_i _ ?_ ?_ ?_ st hres rfl rfl
  · intro t n _ hrt hta hti
    dsimp only
    split
    · rename_i hn0
      refine ⟨handle_conflict_res s t _ hrt ?_, ?_, ?_⟩
      · rw [hta]
        rcases domain_literal s st.trail_a n ht hin hpos with h | h
        · exact Or.inl h
        · exact Or.inr ⟨h, ((hcond t n hrt).mp hn0).1⟩
      · rw [(handle_conflict_trail_a t _).1]
        exact hta
      · rw [(handle_conflict_trail_a t _).2]
        exact hti
    · exact ⟨hrt, hta, hti⟩
  · intro t n _ hrt hp
    dsimp only
    split
    · exact handle_conflict_mono s M t _ hrt hp
    · exact hp
  · intro t n _ hrt hta hg
    dsimp only
    rw [if_pos ((hcond t n hrt).mpr hg.1)]
    rcases domain_literal s st.trail_a n ht hin hpos with h | h
    · exact absurd h.symm hg.2.1
    · exact handle_conflict_holds s M t _ hrt hcs hroot hM h hg.1.1
        (by rw [hta]; exact hg.2.1) hg.2.2

theorem AnalyzeSkip_le (s : Solver) : ∀ (fuel : Nat) (i : Int), AnalyzeSkip s fuel i ≤ i := by
  intro fuel
  induction fuel with
  | zero =>
    intro i
    exact Int.le_refl i
  | succ fuel ih =>
    intro i
    unfold AnalyzeSkip
    generalize (if i < 0 then Literal.null else s.trail_.getD i.toNat Literal.null) = b
    split
    · have := ih (i - 1)
      omega
    · omega

theorem AnalyzeSkip_lt (s : Solver) (fuel : Nat) (i : Int) :
    AnalyzeSkip s (fuel + 1) i ≤ i - 1 := by
  unfold AnalyzeSkip
  generalize (if i < 0 then Literal.null else s.trail_.getD i.toNat Literal.null) = b
  split
  · exact AnalyzeSkip_le s fuel (i - 1)
  · exact Int.le_refl _

theorem satLit_of_trail (s : Solver) (t : Literal) (ht : TrailTrue s)
    (hcons : ∀ f n, (s.data f n).model_neq = true → s.model f ≠ n) (hin : t ∈ s.trail_) :
    satLit s t.lhs t.rhs = t := by
  obtain ⟨_, hp, hn⟩ := ht t hin
  obtain ⟨p, f, k⟩ := t
  unfold satLit
  dsimp only at hp hn ⊢
  congr 1
  cases p with
  | false =>
    have : ¬ s.model f = k := hcons f k (hn rfl)
    simpa using this
  | true =>
    have := hp rfl
    simpa using this

/-- The level and the reason of a literal of the trail are those of its pair. -/
theorem level_of_trail (s : Solver) (t : Literal) (ht : TrailTrue s) (hin : t ∈ s.trail_) :
    s.level_of t = (s.data t.lhs t.rhs).level ∧ s.reason_of t = (s.data t.lhs t.rhs).reason := by
  obtain ⟨_, hp, hn⟩ := ht t hin
  unfold level_of reason_of
  dsimp only
  cases h : t.pos with
  | false =>
    rw [hn h]
    exact ⟨rfl, rfl⟩
  | true =>
    rw [hp h]
    exact ⟨rfl, rfl⟩

/-- A round of the loop of `Analyze` whose backward scan stops at a literal of the trail keeps
the invariant; the literal found is on the trail, its pair has the current level, and the
marks of the other pairs stay. -/
theorem AnalyzeRound_res (sort : Nat → Nat) (s : Solver) (st : AnalyzeState)
    (conflict : Int) (hana : AnaInv st)
    (hres1 : Res s (AnalyzePass sort st conflict))
    (hfound : AnalyzeFound sort st conflict = true) :
    Res s (AnalyzeRound sort st conflict) ∧ (AnalyzeRound sort st conflict).trail_a ∈ s.trail_ ∧
    (s.data (AnalyzeRound sort st conflict).trail_a.lhs
      (AnalyzeRound sort st conflict).trail_a.rhs).level = s.current_level ∧
    (AnalyzeRound sort st conflict).learnt = (AnalyzePass sort st conflict).learnt ∧
    (∀ g k, ((AnalyzePass sort st conflict).s.data g k).wanted = true →
      (g = (AnalyzeRound sort st conflict).trail_a.lhs ∧
        k = (AnalyzeRound sort st conflict).trail_a.rhs) ∨
      ((AnalyzeRound sort st conflict).s.data g k).wanted = true) := by
  have hana2 := AnaInv_AnalyzeRound sort st conflict hana hfound
  unfold AnalyzeFound at hfound
  unfold AnalyzeRound at hana2 ⊢
  dsimp only at hfound hana2 ⊢
  generalize AnalyzePass sort st conflict = st1 at hres1 hfound hana2 ⊢
  have hlt := AnalyzeSkip_lt st1.s st1.s.trail_.length st1.trail_i
  generalize AnalyzeSkip st1.s (st1.s.trail_.length + 1) st1.trail_i = i at hfound hana2 hlt ⊢
  simp only [Bool.and_eq_true, decide_eq_true_eq] at hfound
  obtain ⟨hi, hw⟩ := hfound
  have hif : ¬ i + 1 < 0 := by omega
  rw [if_neg hif] at hana2 ⊢
  have hidx := hres1.index
  have hlen : (i + 1).toNat < s.trail_.length := by omega
  have hmem : st1.s.trail_.getD (i + 1).toNat Literal.null ∈ s.trail_ := by
    rw [hres1.frame.trail]
    exact getD_mem _ _ _ hlen
  generalize st1.s.trail_.getD (i + 1).toNat Literal.null = b at hw hana2 hmem ⊢
  have hw2 : (st1.s.data b.lhs b.rhs).wanted = true := hw
  have hkeep : ∀ g k, ((st1.s.setData b.lhs b.rhs
      { st1.s.data b.lhs b.rhs with wanted := false }).data g k).wanted = true →
      (st1.s.data g k).wanted = true := by
    intro g k hgk
    rcases data_setData_or st1.s b.lhs b.rhs g k
      { st1.s.data b.lhs b.rhs with wanted := false } with e | ⟨_, _, e⟩
    · rw [e] at hgk
      exact hgk
    · rw [e] at hgk
      exact Bool.noConfusion hgk
  refine ⟨⟨?_, hana2, hres1.falsified, hres1.below, ?_, ?_⟩, hmem, hres1.marked _ _ hw2, rfl, ?_⟩
  · exact Frame_trans _ _ _ hres1.frame (setWanted_frame st1.s b.lhs b.rhs false)
  · intro g k hgk
    exact hres1.marked g k (hkeep g k hgk)
  · show i < (s.trail_.length : Int)
    omega
  · intro g k hgk
    by_cases hpair : g = b.lhs ∧ k = b.rhs
    · exact Or.inl hpair
    · right
      show ((st1.s.setData b.lhs b.rhs
        { st1.s.data b.lhs b.rhs with wanted := false }).data g k).wanted = true
      rcases data_setData_or st1.s b.lhs b.rhs g k
        { st1.s.data b.lhs b.rhs with wanted := false } with e | ⟨e1, e2, _⟩
      · rw [e]
        exact hgk
      · exact absurd ⟨e1, e2⟩ hpair

/-- After a round of the loop of `Analyze` the resolvent is true in `M` or the literal found is
false in `M`. -/
theorem AnalyzeRound_sound (sort : Nat → Nat) (s : Solver) (M : Nat → Nat) (st : AnalyzeState)
    (conflict : Int) (ht : TrailTrue s) (hc : Consistent s) (hana : AnaInv st)
    (hres1 : Res s (AnalyzePass sort st conflict))
    (hp1 : Pending s M (AnalyzePass sort st conflict))
    (hfound : AnalyzeFound sort st conflict = true) :
    Pending s M (AnalyzeRound sort st conflict) ∨
      holds M (AnalyzeRound sort st conflict).trail_a = false := by
  obtain ⟨_, hmem, _, hlearnt, hkeep⟩ := AnalyzeRound_res sort s st conflict hana hres1 hfound
  rcases hp1 with ⟨c, hcm, hh⟩ | ⟨g, k, hgk, hh⟩
  · left
    left
    refine ⟨c, ?_, hh⟩
    rw [hlearnt]
    exact hcm
  · rcases hkeep g k hgk with ⟨rfl, rfl⟩ | h
    · right
      rw [satLit_of_trail s _ ht (Consistent_all s hc).1 hmem] at hh
      exact hh
    · exact Or.inl (Or.inr ⟨g, k, h, hh⟩)

/-- The first part of a round of `Analyze` keeps the invariant of the loop. -/
theorem AnalyzePass_res (sort : Nat → Nat) (s : Solver) (st : AnalyzeState)
    (conflict : Int) (hres : Res s st) (ht : TrailTrue s)
    (hnull : conflict ≠ kNullRef) (hpre : RoundOK s st conflict) :
    Res s (AnalyzePass sort st conflict) := by
  rcases hpre with h | ⟨hc, _, hcl⟩ | ⟨hc, hin, hpos, _, _⟩
  · exact absurd h hnull
  · have hof : OthersFalsified s conflict st.trail_a := by
      rcases hcl with ⟨h, _⟩ | h
      · exact fun x hx => Or.inr (h x hx)
      · exact h
    unfold AnalyzePass
    have hc2 : ¬ (conflict == kDomainRef) = true := by simpa using hc
    rw [if_neg hc2, Frame_clause s st.s hres.frame]
    refine (fold_sound s (fun _ => 0) handle_conflict (fun _ => False)
      st.trail_a st.trail_i (s.clause conflict).lits ?_ ?_ ?_ st hres rfl rfl).1
    · intro t x hx hrt hta _
      refine ⟨handle_conflict_res s t x hrt ?_, ?_, ?_⟩
      · rcases hof x hx with h | h
        · exact Or.inl (h.trans hta.symm)
        · exact Or.inr h
      · rw [(handle_conflict_trail_a t x).1]
        exact hta
      · rw [(handle_conflict_trail_a t x).2]
        assumption
    · intro t x _ hrt hp
      exact handle_conflict_mono s _ t x hrt hp
    · intro t x _ _ _ hg
      exact absurd hg (fun e => e)
  · subst hc
    unfold AnalyzePass
    have hc2 : (kDomainRef == kDomainRef) = true := by decide
    rw [if_pos hc2]
    dsimp only
    rw [hres.frame.names]
    have hcond : ∀ (t : AnalyzeState) (n : Nat), Res s t →
        ((n != 0 && (t.s.data st.trail_a.lhs n).occurs) = true ↔
          (n ≠ 0 ∧ (s.data st.trail_a.lhs n).occurs = true)) := by
      intro t n hrt
      rw [(hrt.frame.data st.trail_a.lhs n).2.2.2]
      simp
    refine (fold_sound s (fun _ => 0)
      (fun t n => if (n != 0 && (t.s.data st.trail_a.lhs n).occurs) = true then
        handle_conflict t (Literal.Eq st.trail_a.lhs n) else t)
      (fun _ => False) st.trail_a st.trail_i _ ?_ ?_ ?_ st hres rfl rfl).1
    · intro t n _ hrt hta hti
      dsimp only
      split
      · rename_i hn0
        refine ⟨handle_conflict_res s t _ hrt ?_, ?_, ?_⟩
        · rw [hta]
          rcases domain_literal s st.trail_a n ht hin hpos with h | h
          · exact Or.inl h
          · exact Or.inr ⟨h, ((hcond t n hrt).mp hn0).1⟩
        · rw [(handle_conflict_trail_a t _).1]
          exact hta
        · rw [(handle_conflict_trail_a t _).2]
          exact hti
      · exact ⟨hrt, hta, hti⟩
    · intro t n _ hrt hp
      dsimp only
      split
      · exact handle_conflict_mono s _ t _ hrt hp
      · exact hp
    · intro t x _ _ _ hg
      exact absurd hg (fun e => e)

/-- The conflict with which the next round of the loop of `Analyze` starts, the reason of the
literal found, is as `RoundOK` says. -/
theorem RoundOK_next (s : Solver) (st : AnalyzeState) (ht : TrailTrue s) (hr : ReasonsHeld s)
    (hroot : kRootLevel < s.current_level) (hfr : Frame s st.s) (hin : st.trail_a ∈ s.trail_)
    (hlev : (s.data st.trail_a.lhs st.trail_a.rhs).level = s.current_level) :
    RoundOK s st (st.s.reason_of st.trail_a) := by
  rw [Frame_reason_of s _ hfr]
  have hl : kRootLevel < s.level_of st.trail_a := by
    rw [(level_of_trail s _ ht hin).1, hlev]
    exact hroot
  rcases hr _ hin hl with h | ⟨h1, h2, h3, h4⟩ | ⟨h1, h2, h3⟩
  · exact Or.inl h
  · exact Or.inr (Or.inr ⟨h1, hin, h2, h3, h4⟩)
  · exact Or.inr (Or.inl ⟨h1, h2, Or.inr h3⟩)

/-- The loop of `Analyze`, when every backward scan stops at a literal of the trail and every
round starts with a conflict other than the null reference: the invariant holds at its end, no
round is pending, and the last literal found is on the trail with a pair of the current
level. -/
theorem AnalyzeLoop_res (sort : Nat → Nat) (s : Solver)
    (hroot : kRootLevel < s.current_level) (ht : TrailTrue s) (hr : ReasonsHeld s) :
    ∀ (fuel : Nat) (st : AnalyzeState) (conflict : Int), Res s st →
      AnalyzeDefined sort fuel st conflict = true →
      AnalyzeResolves sort fuel st conflict = true → RoundOK s st conflict →
      Res s (AnalyzeLoop sort fuel st conflict) ∧
      (AnalyzeLoop sort fuel st conflict).depth ≤ 0 ∧
      (AnalyzeLoop sort fuel st conflict).trail_a ∈ s.trail_ ∧
      (s.data (AnalyzeLoop sort fuel st conflict).trail_a.lhs
        (AnalyzeLoop sort fuel st conflict).trail_a.rhs).level = s.current_level := by
  intro fuel
  induction fuel with
  | zero =>
    intro st conflict _ hdef
    exact absurd hdef (by simp [AnalyzeDefined])
  | succ fuel ih =>
    intro st conflict hres hdef hrsv hpre
    unfold AnalyzeDefined at hdef
    unfold AnalyzeResolves at hrsv
    simp only [Bool.and_eq_true, bne_iff_ne, ne_eq] at hdef hrsv
    obtain ⟨hfound, hdrest⟩ := hdef
    obtain ⟨hnull, hrrest⟩ := hrsv
    have hres1 := AnalyzePass_res sort s st conflict hres ht hnull hpre
    obtain ⟨hres2, hin2, hlev2, _, _⟩ :=
      AnalyzeRound_res sort s st conflict hres.ana hres1 hfound
    rw [AnalyzeLoop_succ]
    by_cases hpos : (AnalyzeRound sort st conflict).depth > 0
    · rw [if_pos hpos] at hdrest hrrest ⊢
      exact ih _ _ hres2 hdrest hrrest (RoundOK_next s _ ht hr hroot hres2.frame hin2 hlev2)
    · rw [if_neg hpos]
      exact ⟨hres2, by omega, hin2, hlev2⟩

/-- The first part of a round of `Analyze` makes the resolvent true. -/
theorem AnalyzePass_sound (sort : Nat → Nat) (s : Solver) (M : Nat → Nat) (st : AnalyzeState)
    (conflict : Int) (hres : Res s st) (hcs : Consistent s)
    (hroot : kRootLevel < s.current_level) (ht : TrailTrue s) (hM : Models sort s M)
    (hnull : conflict ≠ kNullRef) (hpre : RoundPre s M st conflict) :
    Pending s M (AnalyzePass sort st conflict) := by
  have hM2 := RootFacts_of_Models sort s M hM
  obtain ⟨hM1, _, hM3⟩ := hM
  rcases hpre with h | ⟨hc, hlive, hcl⟩ | ⟨hc, hin, hpos, hreg1, hreg2, hp⟩
  · exact absurd h hnull
  · have hcast : ((conflict.toNat : Nat) : Int) = conflict := Int.toNat_of_nonneg (by
      have := hlive.1
      omega)
    obtain ⟨a, ha, hh⟩ := hM1 conflict.toNat hlive.2.1 (by rw [hcast]; exact hlive)
    rw [hcast] at ha
    have hof : OthersFalsified s conflict st.trail_a := by
      rcases hcl with ⟨h, _⟩ | ⟨h, _⟩
      · exact fun x hx => Or.inr (h x hx)
      · exact h
    obtain ⟨_, _, _, r4⟩ := AnalyzePass_clause sort s M st conflict hres hcs hroot hM2 hc hof
    apply r4
    rcases hcl with ⟨h, hta⟩ | ⟨_, hp | hp⟩
    · right
      refine ⟨a, ha, ?_, hh⟩
      rw [hta]
      intro e
      have := (h a ha).2
      rw [← e] at this
      exact this rfl
    · exact Or.inl hp
    · right
      refine ⟨a, ha, ?_, hh⟩
      intro e
      rw [← e, hp] at hh
      exact absurd hh (by decide)
  · subst hc
    obtain ⟨_, _, _, r4⟩ := AnalyzePass_domain sort s M st hres hcs hroot hM2 ht hin hpos
    apply r4
    rcases hp with hp | hp
    · exact Or.inl hp
    · right
      obtain ⟨h0, hnames, hocc⟩ := hM3 st.trail_a.lhs hreg1 hreg2
      have hh : holds M (Literal.Eq st.trail_a.lhs (M st.trail_a.lhs)) = true := by
        unfold holds Literal.Eq
        simp
      refine ⟨M st.trail_a.lhs, hnames, ⟨h0, hocc⟩, ?_, hh⟩
      intro e
      rw [← e, hp] at hh
      exact absurd hh (by decide)

theorem RoundOK_of_RoundPre (s : Solver) (M : Nat → Nat) (st : AnalyzeState) (conflict : Int)
    (h : RoundPre s M st conflict) : RoundOK s st conflict := by
  rcases h with h | ⟨h1, h2, h3⟩ | ⟨h1, h2, h3, h4, h5, _⟩
  · exact Or.inl h
  · refine Or.inr (Or.inl ⟨h1, h2, ?_⟩)
    rcases h3 with h | ⟨h, _⟩
    · exact Or.inl h
    · exact Or.inr h
  · exact Or.inr (Or.inr ⟨h1, h2, h3, h4, h5⟩)

/-- The loop of `Analyze`, when every backward scan stops at a literal of the trail and every
round starts with a conflict other than the null reference: at its end a literal of `learnt`
behind slot `0` is true in `M`, a pair is still marked, or the last literal found is false. -/
theorem AnalyzeLoop_sound (sort : Nat → Nat) (s : Solver) (M : Nat → Nat)
    (hcs : Consistent s) (hroot : kRootLevel < s.current_level)
    (ht : TrailTrue s) (hr : ReasonsHeld s) (hM : Models sort s M) :
    ∀ (fuel : Nat) (st : AnalyzeState) (conflict : Int), Res s st →
      AnalyzeDefined sort fuel st conflict = true →
      AnalyzeResolves sort fuel st conflict = true → RoundPre s M st conflict →
      (Pending s M (AnalyzeLoop sort fuel st conflict) ∨
        holds M (AnalyzeLoop sort fuel st conflict).trail_a = false) := by
  intro fuel
  induction fuel with
  | zero =>
    intro st conflict _ hdef
    exact absurd hdef (by simp [AnalyzeDefined])
  | succ fuel ih =>
    intro st conflict hres hdef hrsv hpre
    unfold AnalyzeDefined at hdef
    unfold AnalyzeResolves at hrsv
    simp only [Bool.and_eq_true, bne_iff_ne, ne_eq] at hdef hrsv
    obtain ⟨hfound, hdrest⟩ := hdef
    obtain ⟨hnull, hrrest⟩ := hrsv
    have hres1 := AnalyzePass_res sort s st conflict hres ht hnull
      (RoundOK_of_RoundPre s M st conflict hpre)
    have hp1 := AnalyzePass_sound sort s M st conflict hres hcs hroot ht hM hnull hpre
    obtain ⟨hres2, hin2, hlev2, _, _⟩ :=
      AnalyzeRound_res sort s st conflict hres.ana hres1 hfound
    have hp2 := AnalyzeRound_sound sort s M st conflict ht hcs hres.ana hres1 hp1 hfound
    rw [AnalyzeLoop_succ]
    by_cases hpos : (AnalyzeRound sort st conflict).depth > 0
    · rw [if_pos hpos] at hdrest hrrest ⊢
      apply ih _ _ hres2 hdrest hrrest
      rcases RoundOK_next s _ ht hr hroot hres2.frame hin2 hlev2 with h | ⟨h1, h2, h3⟩ |
        ⟨h1, h2, h3, h4, h5⟩
      · exact Or.inl h
      · refine Or.inr (Or.inl ⟨h1, h2, ?_⟩)
        rcases h3 with h | h
        · exact Or.inl h
        · exact Or.inr ⟨h, hp2⟩
      · exact Or.inr (Or.inr ⟨h1, h2, h3, h4, h5, hp2⟩)
    · rw [if_neg hpos]
      exact hp2

theorem mem_dedup (x : Literal) : ∀ as : List Literal, x ∈ Clause.dedup as ↔ x ∈ as := by
  intro as
  induction as with
  | nil => simp [Clause.dedup]
  | cons a as ih =>
    rw [Clause.dedup, List.mem_cons, List.mem_cons, List.mem_filter, ih]
    constructor
    · rintro (h | ⟨h, _⟩)
      · exact Or.inl h
      · exact Or.inr h
    · rintro (h | h)
      · exact Or.inl h
      · by_cases e : x = a
        · exact Or.inl e
        · exact Or.inr ⟨h, by simpa using e⟩

/-- The normalisation of the learnt clause keeps it true in `M`. -/
theorem normalize_holds (M : Nat → Nat) (as : List Literal)
    (h : ∃ a ∈ as, holds M a = true) :
    ∃ a ∈ Clause.NormalizeGuaranteeInvalid as, holds M a = true := by
  obtain ⟨a, ha, hh⟩ := h
  unfold Clause.NormalizeGuaranteeInvalid Clause.collapse
  have ha2 : a ∈ Clause.dedup as := (mem_dedup a as).mpr ha
  generalize Clause.dedup as = bs at ha2
  by_cases hk : (bs.any (fun b => a.ProperlySubsumes b)) = true
  · rw [List.any_eq_true] at hk
    obtain ⟨b, hb, hsub⟩ := hk
    unfold Literal.ProperlySubsumes at hsub
    simp only [Bool.and_eq_true, Bool.not_eq_true', beq_iff_eq, bne_iff_ne, ne_eq] at hsub
    obtain ⟨⟨⟨hp, hq⟩, hl⟩, hr⟩ := hsub
    refine ⟨b, ?_, ?_⟩
    · rw [List.mem_filter]
      refine ⟨hb, ?_⟩
      rw [Bool.not_eq_true', List.any_eq_false]
      intro c _
      unfold Literal.ProperlySubsumes
      rw [hq]
      simp
    · unfold holds at hh ⊢
      rw [hp] at hh
      rw [hq]
      simp only [if_true, beq_iff_eq] at hh
      simp only [Bool.false_eq_true, if_false, bne_iff_ne, ne_eq]
      rw [← hl, hh]
      exact hr
  · refine ⟨a, ?_, hh⟩
    rw [List.mem_filter]
    exact ⟨ha2, by simpa using hk⟩

theorem normalize_subset (as : List Literal) (a : Literal)
    (h : a ∈ Clause.NormalizeGuaranteeInvalid as) : a ∈ as := by
  unfold Clause.NormalizeGuaranteeInvalid Clause.collapse at h
  exact (mem_dedup a as).mp (List.mem_filter.mp h).1

/-- The normalisation of the learnt clause keeps the first literal in its slot when it does not
properly subsume another literal of the clause. -/
theorem normalize_head (a0 : Literal) (as : List Literal)
    (h : ∀ b ∈ as, a0.ProperlySubsumes b = false) :
    ∃ rest, Clause.NormalizeGuaranteeInvalid (a0 :: as) = a0 :: rest ∧ ∀ b ∈ rest, b ∈ as := by
  have hself : a0.ProperlySubsumes a0 = false := by
    unfold Literal.ProperlySubsumes
    cases a0.pos <;> rfl
  unfold Clause.NormalizeGuaranteeInvalid Clause.collapse
  rw [Clause.dedup]
  have hF : ∀ b ∈ (Clause.dedup as).filter (fun b => b != a0), b ∈ as :=
    fun b hb => (mem_dedup b as).mp (List.mem_filter.mp hb).1
  generalize (Clause.dedup as).filter (fun b => b != a0) = F at hF
  have hkeep : (!(a0 :: F).any (fun b => a0.ProperlySubsumes b)) = true := by
    rw [Bool.not_eq_true', List.any_eq_false]
    intro b hb
    rcases List.mem_cons.mp hb with rfl | hb
    · rw [hself]
      decide
    · rw [h b (hF b hb)]
      decide
  rw [List.filter_cons, if_pos hkeep]
  exact ⟨_, rfl, fun b hb => hF b (List.mem_filter.mp hb).1⟩

/-- The search for the literal of the greatest level: the index found lies behind slot `0`, the
level returned is the level of the literal at this index, and no literal behind slot `0` has a
greater level. -/
theorem AnalyzeMax_spec (s : Solver) (l : List Literal) : ∀ (n max bt : Nat),
    n + 2 ≤ l.length → 1 ≤ max → max < l.length →
    bt = s.level_of_complementary (l.getD max Literal.null) →
    (∀ i, 1 ≤ i → i < l.length - n → s.level_of_complementary (l.getD i Literal.null) ≤ bt) →
    1 ≤ (AnalyzeMax s l n max bt).1 ∧ (AnalyzeMax s l n max bt).1 < l.length ∧
    (AnalyzeMax s l n max bt).2
      = s.level_of_complementary (l.getD (AnalyzeMax s l n max bt).1 Literal.null) ∧
    ∀ i, 1 ≤ i → i < l.length →
      s.level_of_complementary (l.getD i Literal.null) ≤ (AnalyzeMax s l n max bt).2 := by
  intro n
  induction n with
  | zero =>
    intro max bt _ h1 h2 h3 h4
    exact ⟨h1, h2, h3, h4⟩
  | succ n ih =>
    intro max bt hn h1 h2 h3 h4
    unfold AnalyzeMax
    dsimp only
    split
    · rename_i hlt
      apply ih _ _ (by omega) (by omega) (by omega) rfl
      intro i hi1 hi2
      by_cases e : i = l.length - (n + 1)
      · rw [e]
      · have := h4 i hi1 (by omega)
        omega
    · rename_i hlt
      apply ih _ _ (by omega) h1 h2 h3
      intro i hi1 hi2
      by_cases e : i = l.length - (n + 1)
      · rw [e]
        omega
      · exact h4 i hi1 (by omega)

/-- The exchange of two slots behind slot `0` keeps slot `0` and the literals behind it. -/
theorem swap_spec (l : List Literal) (i j : Nat) (hi1 : 1 ≤ i) (hi : i < l.length)
    (hj1 : 1 ≤ j) (hj : j < l.length) :
    ((l.set i (l.getD j Literal.null)).set j (l.getD i Literal.null)).getD 0 Literal.null
      = l.getD 0 Literal.null ∧
    ∀ a, a ∈ ((l.set i (l.getD j Literal.null)).set j (l.getD i Literal.null)).drop 1 ↔
      a ∈ l.drop 1 := by
  have hlen : ((l.set i (l.getD j Literal.null)).set j (l.getD i Literal.null)).length
      = l.length := by
    rw [List.length_set, List.length_set]
  have hget := getD_swap l i j hi hj
  refine ⟨?_, ?_⟩
  · rw [hget 0, if_neg (by omega), if_neg (by omega)]
  · intro a
    rw [mem_iff_getD, mem_iff_getD]
    simp only [List.length_drop, List.getD_eq_getElem?_getD, List.getElem?_drop]
    simp only [← List.getD_eq_getElem?_getD]
    rw [hlen]
    constructor
    · rintro ⟨k, hk, e⟩
      rw [hget (1 + k)] at e
      by_cases h1 : j = 1 + k
      · rw [if_pos h1] at e
        exact ⟨i - 1, by omega, by rw [show 1 + (i - 1) = i by omega]; exact e⟩
      · rw [if_neg h1] at e
        by_cases h2 : i = 1 + k
        · rw [if_pos h2] at e
          exact ⟨j - 1, by omega, by rw [show 1 + (j - 1) = j by omega]; exact e⟩
        · rw [if_neg h2] at e
          exact ⟨k, hk, e⟩
    · rintro ⟨k, hk, e⟩
      by_cases h1 : i = 1 + k
      · refine ⟨j - 1, by omega, ?_⟩
        rw [hget, show 1 + (j - 1) = j by omega, if_pos rfl, h1]
        exact e
      · by_cases h2 : j = 1 + k
        · refine ⟨i - 1, by omega, ?_⟩
          rw [hget, show 1 + (i - 1) = i by omega]
          by_cases h3 : j = i
          · rw [if_pos h3, ← h3, h2]
            exact e
          · rw [if_neg h3, if_pos rfl, h2]
            exact e
        · refine ⟨k, hk, ?_⟩
          rw [hget, if_neg h2, if_neg h1]
          exact e

theorem Res_start (s : Solver) (h0 : s.flagsClear = true) : Res s (AnalyzeStart s) := by
  rw [flagsClear_iff] at h0
  refine ⟨Frame_refl s, ⟨?_, ?_, ?_⟩, ?_, ?_, ?_, ?_⟩
  · intro e
    exact absurd e (by simp [AnalyzeStart])
  · intro g k hg
    have := (h0 g k).1
    have hg2 : (s.data g k).seen_subsumed = true := hg
    rw [this] at hg2
    exact absurd hg2 (by decide)
  · have : s.wantedCount = 0 := (wantedCount_eq_zero_iff s).mpr (fun g k => (h0 g k).2)
    show (s.wantedCount : Int) ≤ 0
    rw [this]
    exact Int.le_refl 0
  · intro b hb
    exact absurd hb (List.not_mem_nil b)
  · intro b hb
    exact absurd hb (List.not_mem_nil b)
  · intro g k hg
    have hg2 : (s.data g k).wanted = true := hg
    rw [(h0 g k).2] at hg2
    exact absurd hg2 (by decide)
  · show (s.trail_.length : Int) - 1 < s.trail_.length
    omega

/-- The loop of `Analyze` that clears `seen_subsumed` leaves what the analysis reads. -/
theorem clear_frame (L : List Literal) : ∀ s : Solver,
    Frame s (L.foldl (fun t a => t.setData a.lhs a.rhs
      { t.data a.lhs a.rhs with seen_subsumed := false }) s) := by
  induction L with
  | nil => exact fun s => Frame_refl s
  | cons a L ih =>
    intro s
    rw [List.foldl_cons]
    exact Frame_trans _ _ _
      (Frame_setData s a.lhs a.rhs { s.data a.lhs a.rhs with seen_subsumed := false }
        rfl rfl rfl rfl) (ih _)

/-- What `Analyze` returns, in terms of the state `st` in which its loop ends and of the
normalised learnt clause `l2`: the solver differs from the one of `st` in flags only, and the
clause is `l2`, with the literal of the greatest level exchanged into slot `1` when it has more
than one literal. -/
theorem Analyze_result (sort : Nat → Nat) (s : Solver) (conflict : Int)
    (st : AnalyzeState) (l2 : List Literal)
    (hst : st = AnalyzeLoop sort (s.trail_.length + 1) (AnalyzeStart s) conflict)
    (hl2 : l2 = Clause.NormalizeGuaranteeInvalid (st.learnt.set 0 st.trail_a.flip)) :
    Frame st.s (Analyze sort s conflict).1 ∧
    ((l2.length = 1 ∧ (Analyze sort s conflict).2 = (l2, kRootLevel)) ∨
     (l2.length ≠ 1 ∧ (Analyze sort s conflict).2 =
        ((l2.set 1 (l2.getD (AnalyzeMax (Analyze sort s conflict).1 l2 (l2.length - 2) 1
            ((Analyze sort s conflict).1.level_of_complementary
              (l2.getD 1 Literal.null))).1 Literal.null)).set
          (AnalyzeMax (Analyze sort s conflict).1 l2 (l2.length - 2) 1
            ((Analyze sort s conflict).1.level_of_complementary
              (l2.getD 1 Literal.null))).1 (l2.getD 1 Literal.null),
         (AnalyzeMax (Analyze sort s conflict).1 l2 (l2.length - 2) 1
            ((Analyze sort s conflict).1.level_of_complementary
              (l2.getD 1 Literal.null))).2))) := by
  subst hst
  subst hl2
  constructor
  · rw [Analyze_fst]
    exact clear_frame _ _
  · unfold Analyze AnalyzeStart
    dsimp only
    split
    · rename_i h
      left
      exact ⟨by simpa using h, rfl⟩
    · rename_i h
      right
      exact ⟨by simpa using h, rfl⟩

theorem AnalyzeMax_lt (s : Solver) (learnt : List Literal) : ∀ (n max bt : Nat),
    max < learnt.length → (AnalyzeMax s learnt n max bt).1 < learnt.length := by
  intro n
  induction n with
  | zero =>
    intro max bt h
    exact h
  | succ n ih =>
    intro max bt h
    unfold AnalyzeMax
    dsimp only
    split
    · apply ih
      omega
    · exact ih _ _ h

/-- The clause that `Analyze` returns has the literals of the normalised learnt clause. -/
theorem Analyze_mem (sort : Nat → Nat) (s : Solver) (conflict : Int)
    (st : AnalyzeState) (l2 : List Literal)
    (hst : st = AnalyzeLoop sort (s.trail_.length + 1) (AnalyzeStart s) conflict)
    (hl2 : l2 = Clause.NormalizeGuaranteeInvalid (st.learnt.set 0 st.trail_a.flip))
    (a : Literal) : a ∈ (Analyze sort s conflict).2.1 ↔ a ∈ l2 := by
  rcases (Analyze_result sort s conflict st l2 hst hl2).2 with ⟨_, e⟩ | ⟨h1, e⟩
  · rw [e]
  · rw [e]
    dsimp only
    by_cases h0 : l2.length = 0
    · have : l2 = [] := List.length_eq_zero.mp h0
      rw [this]
      simp
    · have h2 : 1 < l2.length := by omega
      have hr := AnalyzeMax_lt (Analyze sort s conflict).1 l2 (l2.length - 2) 1
        ((Analyze sort s conflict).1.level_of_complementary (l2.getD 1 Literal.null)) h2
      generalize (AnalyzeMax (Analyze sort s conflict).1 l2 (l2.length - 2) 1
        ((Analyze sort s conflict).1.level_of_complementary (l2.getD 1 Literal.null))).1 = r
        at hr
      exact mem_swap_iff l2 1 r h2 hr a

theorem set_zero (l : List Literal) (a : Literal) (h : l ≠ []) : l.set 0 a = a :: l.tail := by
  cases l with
  | nil => exact absurd rfl h
  | cons x xs => rfl

/-- The state in which the loop of `Analyze` ends, for a call in a state as `ConflictState`
describes and a run that meets the assertions of `Analyze`. -/
theorem Analyze_loop_facts (sort : Nat → Nat) (s : Solver) (conflict : Int)
    (hwf : ConflictState s conflict)
    (hdef : AnalyzeDefined sort (s.trail_.length + 1) (AnalyzeStart s) conflict = true)
    (hrsv : AnalyzeResolves sort (s.trail_.length + 1) (AnalyzeStart s) conflict = true) :
    Res s (AnalyzeLoop sort (s.trail_.length + 1) (AnalyzeStart s) conflict) ∧
    (AnalyzeLoop sort (s.trail_.length + 1) (AnalyzeStart s) conflict).depth ≤ 0 ∧
    (AnalyzeLoop sort (s.trail_.length + 1) (AnalyzeStart s) conflict).trail_a ∈ s.trail_ ∧
    (s.data (AnalyzeLoop sort (s.trail_.length + 1) (AnalyzeStart s) conflict).trail_a.lhs
      (AnalyzeLoop sort (s.trail_.length + 1) (AnalyzeStart s) conflict).trail_a.rhs).level
      = s.current_level := by
  obtain ⟨h0, hroot, hlive, hall, ht, _, hr⟩ := hwf
  have hc : conflict ≠ kDomainRef := by
    intro e
    have := hlive.1
    rw [e] at this
    exact absurd this (by decide)
  exact AnalyzeLoop_res sort s hroot ht hr _ _ conflict (Res_start s h0) hdef hrsv
    (Or.inr (Or.inl ⟨hc, hlive, Or.inl ⟨hall, rfl⟩⟩))

/-- In a state in which `Solve` calls `Analyze` (above the root level, the conflict clause
entirely falsified, the literals of the trail recorded, the reasons of the literals above the
root level held), and when the run of `Analyze` meets its assertions `trail_i >= 0` and
`conflict != kNullRef`, the learnt clause is true in every assignment that satisfies the clauses
that the solver holds, what it records for the root level, and the constraint that every
registered function takes one of its occurring names. -/
theorem Analyze_learnt_consequence (sort : Nat → Nat) (s : Solver) (conflict : Int)
    (M : Nat → Nat) (hwf : ConflictState s conflict)
    (hdef : AnalyzeDefined sort (s.trail_.length + 1) (AnalyzeStart s) conflict = true)
    (hrsv : AnalyzeResolves sort (s.trail_.length + 1) (AnalyzeStart s) conflict = true)
    (hM : Models sort s M) : ∃ a ∈ (Analyze sort s conflict).2.1, holds M a = true := by
  obtain ⟨hres, hdepth, _, _⟩ := Analyze_loop_facts sort s conflict hwf hdef hrsv
  obtain ⟨h0, hroot, hlive, hall, ht, hcs, hr⟩ := hwf
  have hc : conflict ≠ kDomainRef := by
    intro e
    have := hlive.1
    rw [e] at this
    exact absurd this (by decide)
  have hp := AnalyzeLoop_sound sort s M hcs hroot ht hr hM _ _ conflict (Res_start s h0)
    hdef hrsv (Or.inr (Or.inl ⟨hc, hlive, Or.inl ⟨hall, rfl⟩⟩))
  have hmem := Analyze_mem sort s conflict _ _ rfl rfl
  generalize AnalyzeLoop sort (s.trail_.length + 1) (AnalyzeStart s) conflict = st
    at hres hdepth hp hmem
  have hnone : ∀ g k, (st.s.data g k).wanted = false := by
    apply (wantedCount_eq_zero_iff st.s).mp
    have := hres.ana.wanted
    omega
  have h1 : ∃ a ∈ st.learnt.set 0 st.trail_a.flip, holds M a = true := by
    rw [set_zero _ _ hres.ana.nonempty]
    rcases hp with (⟨b, hb, hh⟩ | ⟨g, k, hw, _⟩) | hh
    · exact ⟨b, List.mem_cons_of_mem _ hb, hh⟩
    · rw [hnone g k] at hw
      exact absurd hw (by decide)
    · refine ⟨st.trail_a.flip, List.mem_cons_self _ _, ?_⟩
      rw [holds_flip, hh]
      rfl
  obtain ⟨a, ha, hh⟩ := normalize_holds M _ h1
  exact ⟨a, (hmem a).mpr ha, hh⟩

/-! ### The learnt clause after `Backtrack` -/

theorem Backtrack_model (t : Solver) (l g : Nat) :
    (t.Backtrack l).model g
      = if (t.trail_.drop (t.level_size_.getD l 0)).any (fun b => b.lhs == g) = true then 0
        else t.model g := by
  have e : (t.Backtrack l).model g
      = ((t.trail_.drop (t.level_size_.getD l 0)).foldl BacktrackStep t).model g := rfl
  rw [e, undo_model]

theorem Backtrack_data (t : Solver) (l : Nat)
    (h : ∀ b ∈ t.trail_.drop (t.level_size_.getD l 0), b.pos = true →
      (t.data b.lhs b.rhs).model_neq = false) (g k : Nat) :
    (t.Backtrack l).data g k
      = if (t.trail_.drop (t.level_size_.getD l 0)).any
          (fun b => b.lhs == g && b.rhs == k) = true then (t.data g k).Reset
        else t.data g k := by
  have e : (t.Backtrack l).data g k
      = ((t.trail_.drop (t.level_size_.getD l 0)).foldl BacktrackStep t).data g k := rfl
  rw [e, undo_data _ t h]

theorem getD_drop (l : List Literal) (n k : Nat) :
    (l.drop n).getD k Literal.null = l.getD (n + k) Literal.null := by
  simp only [List.getD_eq_getElem?_getD, List.getElem?_drop]

theorem mem_drop_iff (l : List Literal) (n : Nat) (c : Literal) :
    c ∈ l.drop n ↔ ∃ j, n ≤ j ∧ j < l.length ∧ l.getD j Literal.null = c := by
  rw [mem_iff_getD]
  constructor
  · rintro ⟨k, hk, e⟩
    rw [List.length_drop] at hk
    rw [getD_drop] at e
    exact ⟨n + k, by omega, by omega, e⟩
  · rintro ⟨j, h1, h2, e⟩
    refine ⟨j - n, ?_, ?_⟩
    · rw [List.length_drop]
      omega
    · rw [getD_drop, show n + (j - n) = j by omega]
      exact e

/-- A literal of the trail whose level is above `l` lies in the part of the trail that
`Backtrack(l)` pops. -/
theorem popped_of_level (s : Solver) (hls : LevelStarts s) (l : Nat) (h1 : kRootLevel ≤ l)
    (h2 : l < s.current_level) (t : Literal) (hin : t ∈ s.trail_) (hlev : l < s.level_of t) :
    t ∈ s.trail_.drop (s.level_size_.getD l 0) := by
  obtain ⟨i, hi, e⟩ := (mem_iff_getD _ _).mp hin
  rw [mem_drop_iff]
  refine ⟨i, ?_, hi, e⟩
  rw [hls i hi l h2 h1, e]
  exact hlev

/-- A positive literal of the trail whose level is at most `l`: `Backtrack(l)` pops no literal
of its function. -/
theorem kept_function (s : Solver) (hls : LevelStarts s) (hop : OnePerPair s) (l : Nat)
    (h1 : kRootLevel ≤ l) (h2 : l < s.current_level) (t : Literal) (hin : t ∈ s.trail_)
    (hpos : t.pos = true) (hlev : s.level_of t ≤ l) :
    (s.trail_.drop (s.level_size_.getD l 0)).any (fun b => b.lhs == t.lhs) = false := by
  rw [List.any_eq_false]
  intro c hc hlhs
  obtain ⟨i, hi, e⟩ := (mem_iff_getD _ _).mp hin
  obtain ⟨j, hj1, hj2, ej⟩ := (mem_drop_iff _ _ _).mp hc
  have hlt : i < s.level_size_.getD l 0 := by
    by_contra hge
    have := (hls i hi l h2 h1).mp (by omega)
    rw [e] at this
    omega
  have := (hop j hj2 i (by omega) (by rw [e, ej]; exact (beq_iff_eq.mp hlhs).symm)).1
  rw [e, hpos] at this
  exact absurd this (by decide)

/-- A literal of the trail whose level is at most `l`: `Backtrack(l)` pops no literal of its
pair. -/
theorem kept_pair (s : Solver) (hls : LevelStarts s) (hop : OnePerPair s) (l : Nat)
    (h1 : kRootLevel ≤ l) (h2 : l < s.current_level) (t : Literal) (hin : t ∈ s.trail_)
    (hlev : s.level_of t ≤ l) :
    (s.trail_.drop (s.level_size_.getD l 0)).any
      (fun b => b.lhs == t.lhs && b.rhs == t.rhs) = false := by
  rw [List.any_eq_false]
  intro c hc hpair
  simp only [Bool.and_eq_true, beq_iff_eq] at hpair
  obtain ⟨i, hi, e⟩ := (mem_iff_getD _ _).mp hin
  obtain ⟨j, hj1, hj2, ej⟩ := (mem_drop_iff _ _ _).mp hc
  have hlt : i < s.level_size_.getD l 0 := by
    by_contra hge
    have := (hls i hi l h2 h1).mp (by omega)
    rw [e] at this
    omega
  have := (hop j hj2 i (by omega) (by rw [e, ej]; exact hpair.1.symm)).2
  rw [e, ej] at this
  exact this hpair.2.symm

/-- The literal of the trail that falsifies a literal whose complementary literal was set above
the root level, with its level. -/
theorem falsifier_on_trail (s : Solver) (hot : OnTrail s) (ht : TrailTrue s) (b : Literal)
    (hf : s.falsifies b (-1) = true) (hb0 : b.rhs ≠ 0)
    (hroot : kRootLevel < s.level_of_complementary b) :
    (b.pos = false ∧ s.model b.lhs = b.rhs ∧ Literal.Eq b.lhs b.rhs ∈ s.trail_ ∧
      s.level_of (Literal.Eq b.lhs b.rhs) = s.level_of_complementary b) ∨
    (b.pos = true ∧ (s.data b.lhs b.rhs).model_neq = true ∧
      Literal.Neq b.lhs b.rhs ∈ s.trail_ ∧
      s.level_of (Literal.Neq b.lhs b.rhs) = s.level_of_complementary b) ∨
    (b.pos = true ∧ s.model b.lhs ≠ 0 ∧ s.model b.lhs ≠ b.rhs ∧
      Literal.Eq b.lhs (s.model b.lhs) ∈ s.trail_ ∧
      s.level_of (Literal.Eq b.lhs (s.model b.lhs)) = s.level_of_complementary b) := by
  have hall : ∀ f n, kRootLevel < (s.data f n).level → PairOnTrail s f n := by
    intro f n h
    have h0 : (s.data f n).level ≠ 0 := by
      unfold kRootLevel at h
      omega
    obtain ⟨a, c⟩ := level_in_capacity s f n h0
    exact hot f a n c
  rw [falsifies_iff_parts] at hf
  unfold level_of_complementary at hroot ⊢
  dsimp only at hroot ⊢
  rcases hf with ⟨hp, hm⟩ | ⟨hp, hm⟩
  · left
    rw [hp] at hroot ⊢
    simp only [Bool.false_and, Bool.false_eq_true, if_false] at hroot ⊢
    rw [hm] at hroot ⊢
    have hin := (hall _ _ hroot hroot).2 hm hb0
    refine ⟨trivial, rfl, hin, ?_⟩
    rw [(level_of_trail s _ ht hin).1]
    rfl
  · rw [hp] at hroot ⊢
    simp only [Bool.true_and] at hroot ⊢
    by_cases hx : (s.data b.lhs b.rhs).model_neq = true
    · right
      left
      rw [if_pos hx] at hroot ⊢
      have hin := (hall _ _ hroot hroot).1 hx
      refine ⟨trivial, hx, hin, ?_⟩
      rw [(level_of_trail s _ ht hin).1]
      rfl
    · right
      right
      rw [if_neg hx] at hroot ⊢
      rcases hm with ⟨h0, h1⟩ | h2
      · have hin := (hall _ _ hroot hroot).2 rfl h0
        refine ⟨trivial, h0, h1, hin, ?_⟩
        rw [(level_of_trail s _ ht hin).1]
        rfl
      · exact absurd h2 hx

/-- The level of the complementary literal of a falsified literal is a level from the root
level on. -/
theorem loc_ge_root (s : Solver) (hl : LevelsSet s) (b : Literal)
    (hf : s.falsifies b (-1) = true) (hb0 : b.rhs ≠ 0) :
    kRootLevel ≤ s.level_of_complementary b := by
  have hneq : ∀ f n, (s.data f n).model_neq = true → kRootLevel ≤ (s.data f n).level := by
    intro f n h
    obtain ⟨a, c⟩ := neq_in_capacity s f n h
    exact hl.1 f a n c h
  have hmod : ∀ f, s.model f ≠ 0 → kRootLevel ≤ (s.data f (s.model f)).level := by
    intro f h
    apply hl.2 f _ h
    by_contra hc
    unfold model at h
    rw [List.getD_eq_default _ _ (Nat.le_of_not_lt hc)] at h
    exact h rfl
  rw [falsifies_iff_parts] at hf
  unfold level_of_complementary
  dsimp only
  rcases hf with ⟨hp, hm⟩ | ⟨hp, hm⟩
  · rw [hp]
    simp only [Bool.false_and, Bool.false_eq_true, if_false]
    apply hmod
    rw [hm]
    exact hb0
  · rw [hp]
    simp only [Bool.true_and]
    split
    · rename_i hx
      exact hneq _ _ hx
    · rename_i hx
      rcases hm with ⟨h0, _⟩ | h2
      · exact hmod _ h0
      · exact absurd h2 hx

/-- A falsified literal whose complementary literal was set above the root level and at most at
the level `l` is still falsified after `Backtrack(l)`. -/
theorem Backtrack_keeps_falsified (s t : Solver) (hfr : Frame s t) (ht : TrailTrue s)
    (hcons : ∀ f n, (s.data f n).model_neq = true → s.model f ≠ n)
    (hord : TrailOrdered s) (l : Nat) (h1 : kRootLevel ≤ l) (h2 : l < s.current_level)
    (b : Literal) (hf : s.falsifies b (-1) = true) (hb0 : b.rhs ≠ 0)
    (hroot : kRootLevel < s.level_of_complementary b)
    (hle : s.level_of_complementary b ≤ l) : (t.Backtrack l).falsifies b (-1) = true := by
  obtain ⟨_, hot, hls, hop⟩ := hord
  have hseg : t.trail_.drop (t.level_size_.getD l 0)
      = s.trail_.drop (s.level_size_.getD l 0) := by
    rw [hfr.trail, hfr.levels]
  have hmodel := Backtrack_model t l b.lhs
  rw [hseg, Frame_model s t hfr] at hmodel
  rw [falsifies_iff_parts]
  rcases falsifier_on_trail s hot ht b hf hb0 hroot with ⟨hp, hm, hin, hlev⟩ |
    ⟨hp, hx, hin, hlev⟩ | ⟨hp, hm0, hmn, hin, hlev⟩
  · left
    have hk := kept_function s hls hop l h1 h2 _ hin rfl (by rw [hlev]; exact hle)
    have hk2 : (s.trail_.drop (s.level_size_.getD l 0)).any (fun c => c.lhs == b.lhs)
        = false := hk
    rw [hk2] at hmodel
    rw [hmodel]
    exact ⟨hp, hm⟩
  · right
    have hk := kept_pair s hls hop l h1 h2 _ hin (by rw [hlev]; exact hle)
    have hk2 : (s.trail_.drop (s.level_size_.getD l 0)).any
        (fun c => c.lhs == b.lhs && c.rhs == b.rhs) = false := hk
    have hdata := Backtrack_data t l (by
      rw [hseg]
      intro c hc hcp
      rw [(hfr.data c.lhs c.rhs).1]
      have hct : c ∈ s.trail_ := List.mem_of_mem_drop hc
      cases hx2 : (s.data c.lhs c.rhs).model_neq
      · rfl
      · exact absurd ((ht c hct).2.1 hcp) (hcons _ _ hx2)) b.lhs b.rhs
    rw [hseg, hk2] at hdata
    refine ⟨hp, Or.inr ?_⟩
    rw [hdata]
    simp only [Bool.false_eq_true, if_false]
    rw [(hfr.data b.lhs b.rhs).1]
    exact hx
  · right
    have hk := kept_function s hls hop l h1 h2 _ hin rfl (by rw [hlev]; exact hle)
    have hk2 : (s.trail_.drop (s.level_size_.getD l 0)).any (fun c => c.lhs == b.lhs)
        = false := hk
    rw [hk2] at hmodel
    refine ⟨hp, Or.inl ?_⟩
    rw [hmodel]
    exact ⟨hm0, hmn⟩

/-- The flipped literal of a literal of the trail above the level `l` is not falsified after
`Backtrack(l)`. -/
theorem Backtrack_frees (s t : Solver) (hfr : Frame s t) (ht : TrailTrue s)
    (hcons : ∀ f n, (s.data f n).model_neq = true → s.model f ≠ n)
    (hls : LevelStarts s) (l : Nat) (h1 : kRootLevel ≤ l) (h2 : l < s.current_level)
    (a : Literal) (hin : a ∈ s.trail_) (hlev : l < s.level_of a) :
    (t.Backtrack l).falsifies a.flip (-1) = false := by
  have hseg : t.trail_.drop (t.level_size_.getD l 0)
      = s.trail_.drop (s.level_size_.getD l 0) := by
    rw [hfr.trail, hfr.levels]
  have hpop := popped_of_level s hls l h1 h2 a hin hlev
  have hany1 : (s.trail_.drop (s.level_size_.getD l 0)).any (fun c => c.lhs == a.lhs)
      = true := by
    rw [List.any_eq_true]
    exact ⟨a, hpop, by simp⟩
  have hany2 : (s.trail_.drop (s.level_size_.getD l 0)).any
      (fun c => c.lhs == a.lhs && c.rhs == a.rhs) = true := by
    rw [List.any_eq_true]
    exact ⟨a, hpop, by simp⟩
  have hmodel := Backtrack_model t l a.lhs
  rw [hseg, hany1, if_pos rfl] at hmodel
  have hdata := Backtrack_data t l (by
    rw [hseg]
    intro c hc hcp
    rw [(hfr.data c.lhs c.rhs).1]
    have hct : c ∈ s.trail_ := List.mem_of_mem_drop hc
    cases hx2 : (s.data c.lhs c.rhs).model_neq
    · rfl
    · exact absurd ((ht c hct).2.1 hcp) (hcons _ _ hx2)) a.lhs a.rhs
  rw [hseg, hany2, if_pos rfl] at hdata
  have hn0 := (ht a hin).1
  cases hfal : (t.Backtrack l).falsifies a.flip (-1)
  · rfl
  · exfalso
    rw [falsifies_iff_parts] at hfal
    have e1 : a.flip.lhs = a.lhs := rfl
    have e2 : a.flip.rhs = a.rhs := rfl
    rw [e1, e2, hmodel, hdata] at hfal
    rcases hfal with ⟨_, h⟩ | ⟨_, ⟨h, _⟩ | h⟩
    · exact hn0 h.symm
    · exact h rfl
    · exact absurd h (by simp [Data.Reset])

theorem Literal_flip_flip (a : Literal) : a.flip.flip = a := by
  obtain ⟨p, f, n⟩ := a
  unfold Literal.flip
  simp

/-- The flipped literal of the literal found last does not properly subsume a literal of the
learnt clause: a function assigned below the current level has no literal at the current
level. -/
theorem head_not_subsuming (s : Solver) (ht : TrailTrue s) (hord : TrailOrdered s)
    (ta : Literal) (hin : ta ∈ s.trail_)
    (hlev : (s.data ta.lhs ta.rhs).level = s.current_level) (b : Literal)
    (hf : s.falsifies b (-1) = true) (hb0 : b.rhs ≠ 0)
    (hlt : s.level_of_complementary b < s.current_level)
    (hnr : s.level_of_complementary b ≠ kRootLevel) : ta.flip.ProperlySubsumes b = false := by
  obtain ⟨hl, hot, hls, hop⟩ := hord
  cases hsub : ta.flip.ProperlySubsumes b
  · rfl
  · exfalso
    unfold Literal.ProperlySubsumes at hsub
    simp only [Bool.and_eq_true, Bool.not_eq_true', beq_iff_eq, bne_iff_ne, ne_eq] at hsub
    obtain ⟨⟨⟨_, hq⟩, hlhs⟩, _⟩ := hsub
    have hge := loc_ge_root s hl b hf hb0
    have hroot : kRootLevel < s.level_of_complementary b := by omega
    rcases falsifier_on_trail s hot ht b hf hb0 hroot with ⟨_, _, hin2, hlev2⟩ |
      ⟨hp, _⟩ | ⟨hp, _⟩
    · obtain ⟨i, hi, ei⟩ := (mem_iff_getD _ _).mp hin2
      obtain ⟨j, hj, ej⟩ := (mem_iff_getD _ _).mp hin
      have h1 : ¬ s.level_size_.getD (s.level_of_complementary b) 0 ≤ i := by
        intro hc
        have := (hls i hi _ hlt hge).mp hc
        rw [ei, hlev2] at this
        omega
      have h2 : s.level_size_.getD (s.level_of_complementary b) 0 ≤ j := by
        apply (hls j hj _ hlt hge).mpr
        rw [ej, (level_of_trail s _ ht hin).1, hlev]
        exact hlt
      have := (hop j hj i (by omega) (by
        rw [ei, ej]
        exact hlhs.symm)).1
      rw [ei] at this
      exact Bool.noConfusion this
    · rw [hq] at hp
      exact absurd hp (by decide)
    · rw [hq] at hp
      exact absurd hp (by decide)

/-- In a state in which `Solve` calls `Analyze` and whose trail is in order,
and when the run of `Analyze` meets its assertions, the literal `learnt[0]` is the flipped
literal of a literal of the trail at the current level (the implication point); after
`Backtrack(btlevel)` the literal `learnt[0]` is not falsified and every other literal of the
learnt clause is still falsified; and `btlevel` is at least the root level and below the level
of the implication point. -/
theorem Analyze_learnt_asserting (sort : Nat → Nat) (s : Solver) (conflict : Int)
    (hwf : ConflictState s conflict) (hord : TrailOrdered s)
    (hdef : AnalyzeDefined sort (s.trail_.length + 1) (AnalyzeStart s) conflict = true)
    (hrsv : AnalyzeResolves sort (s.trail_.length + 1) (AnalyzeStart s) conflict = true) :
    ((Analyze sort s conflict).2.1.getD 0 Literal.null).flip ∈ s.trail_ ∧
    s.level_of ((Analyze sort s conflict).2.1.getD 0 Literal.null).flip = s.current_level ∧
    ((Analyze sort s conflict).1.Backtrack (Analyze sort s conflict).2.2).falsifies
      ((Analyze sort s conflict).2.1.getD 0 Literal.null) (-1) = false ∧
    (∀ b ∈ (Analyze sort s conflict).2.1.drop 1,
      ((Analyze sort s conflict).1.Backtrack (Analyze sort s conflict).2.2).falsifies b (-1)
        = true) ∧
    kRootLevel ≤ (Analyze sort s conflict).2.2 ∧
    (Analyze sort s conflict).2.2
      < s.level_of ((Analyze sort s conflict).2.1.getD 0 Literal.null).flip := by
  obtain ⟨hres, _, hin, hlev⟩ := Analyze_loop_facts sort s conflict hwf hdef hrsv
  obtain ⟨_, hroot, _, _, ht, hcs, _⟩ := hwf
  have hcons := (Consistent_all s hcs).1
  obtain ⟨hfr1, hcase⟩ := Analyze_result sort s conflict _ _ rfl rfl
  generalize AnalyzeLoop sort (s.trail_.length + 1) (AnalyzeStart s) conflict = st
    at hres hin hlev hfr1 hcase
  have hfrs : Frame s (Analyze sort s conflict).1 := Frame_trans _ _ _ hres.frame hfr1
  have hloc := Frame_level_of_complementary s _ hfrs
  have hlevta : s.level_of st.trail_a = s.current_level := by
    rw [(level_of_trail s _ ht hin).1, hlev]
  obtain ⟨rest, hl2, hrest⟩ := normalize_head st.trail_a.flip st.learnt.tail
    (fun b hb => head_not_subsuming s ht hord st.trail_a hin hlev b (hres.falsified b hb).1
      (hres.falsified b hb).2 (hres.below b hb).1 (hres.below b hb).2)
  rw [set_zero _ _ hres.ana.nonempty, hl2] at hcase
  have hfacts : ∀ b ∈ rest, s.falsifies b (-1) = true ∧ b.rhs ≠ 0 ∧
      kRootLevel < s.level_of_complementary b ∧
      s.level_of_complementary b < s.current_level := by
    intro b hb
    have h1 := hres.falsified b (hrest b hb)
    have h2 := hres.below b (hrest b hb)
    have h3 := loc_ge_root s hord.1 b h1.1 h1.2
    exact ⟨h1.1, h1.2, by omega, h2.1⟩
  generalize Analyze sort s conflict = A at hcase hfrs hloc ⊢
  rcases hcase with ⟨hlen, e⟩ | ⟨hlen, e⟩
  · have e1 : A.2.1 = st.trail_a.flip :: rest := by rw [e]
    have e2 : A.2.2 = kRootLevel := by rw [e]
    have hnil : rest = [] := by
      cases rest with
      | nil => rfl
      | cons x xs => simp at hlen
    rw [e1, e2, hnil]
    have e0 : ([st.trail_a.flip] : List Literal).getD 0 Literal.null = st.trail_a.flip := rfl
    rw [e0, Literal_flip_flip, hlevta]
    refine ⟨hin, rfl, ?_, ?_, Nat.le_refl _, hroot⟩
    · exact Backtrack_frees s A.1 hfrs ht hcons hord.2.2.1 _ (Nat.le_refl _) hroot _ hin
        (by rw [hlevta]; exact hroot)
    · intro b hb
      exact absurd hb (List.not_mem_nil b)
  · have hlen2 : 2 ≤ (st.trail_a.flip :: rest).length := by
      have : 1 ≤ (st.trail_a.flip :: rest).length := by simp
      omega
    obtain ⟨r1, r2, r3, r4⟩ := AnalyzeMax_spec A.1 (st.trail_a.flip :: rest)
      ((st.trail_a.flip :: rest).length - 2) 1
      (A.1.level_of_complementary ((st.trail_a.flip :: rest).getD 1 Literal.null))
      (by omega) (Nat.le_refl 1) (by omega) rfl (by
        intro i hi1 hi2
        have : i = 1 := by omega
        rw [this])
    generalize AnalyzeMax A.1 (st.trail_a.flip :: rest) ((st.trail_a.flip :: rest).length - 2) 1
      (A.1.level_of_complementary ((st.trail_a.flip :: rest).getD 1 Literal.null)) = r
      at e r1 r2 r3 r4
    obtain ⟨w1, w2⟩ := swap_spec (st.trail_a.flip :: rest) 1 r.1 (Nat.le_refl 1) (by omega)
      r1 r2
    have e1 : A.2.1 = ((st.trail_a.flip :: rest).set 1
        ((st.trail_a.flip :: rest).getD r.1 Literal.null)).set r.1
        ((st.trail_a.flip :: rest).getD 1 Literal.null) := by rw [e]
    have e2 : A.2.2 = r.2 := by rw [e]
    have hdrop : ∀ j, 1 ≤ j → j < (st.trail_a.flip :: rest).length →
        (st.trail_a.flip :: rest).getD j Literal.null ∈ rest := by
      intro j hj1 hj2
      have : (st.trail_a.flip :: rest).getD j Literal.null
          ∈ (st.trail_a.flip :: rest).drop 1 :=
        (mem_drop_iff _ 1 _).mpr ⟨j, hj1, hj2, rfl⟩
      exact this
    have hbt := hfacts _ (hdrop r.1 r1 r2)
    rw [hloc] at r3
    rw [e1, e2, w1]
    have e0 : (st.trail_a.flip :: rest).getD 0 Literal.null = st.trail_a.flip := rfl
    rw [e0, Literal_flip_flip, hlevta, r3]
    refine ⟨hin, rfl, ?_, ?_, by omega, hbt.2.2.2⟩
    · exact Backtrack_frees s A.1 hfrs ht hcons hord.2.2.1 _ (by omega) hbt.2.2.2 _ hin
        (by rw [hlevta]; exact hbt.2.2.2)
    · intro b hb
      have hb2 : b ∈ (st.trail_a.flip :: rest).drop 1 := (w2 b).mp hb
      obtain ⟨j, hj1, hj2, ej⟩ := (mem_drop_iff _ 1 _).mp hb2
      have hbr : b ∈ rest := hb2
      have hf := hfacts b hbr
      have hle := r4 j hj1 hj2
      rw [ej, hloc, r3] at hle
      exact Backtrack_keeps_falsified s A.1 hfrs ht hcons hord _ (by omega) hbt.2.2.2 b hf.1
        hf.2.1 hf.2.2.1 hle

/-- The run of `Init` and of the first rounds of `Solve` on `compactedInput`: the trail, the
clause list and the watchers before the compaction of `Init` and after it, the root-level
entry of the dropped literal `g ≠ 3`, the deleted reason of `g = 2`, and the trail, the level
starts, the conflict and the result of `Analyze` in `compactedConflict`. -/
theorem compactedConflict_eval :
    compactedInput.trail_ = [⟨false, 2, 3⟩] ∧
    (Propagate oneSort (InitLoad oneSort compactedInput).1).1.trail_ =
      [⟨false, 2, 3⟩, ⟨false, 1, 3⟩, ⟨true, 2, 2⟩] ∧
    (Propagate oneSort (InitLoad oneSort compactedInput).1).1.clauses_ = [0, 1, 3] ∧
    (Propagate oneSort (InitLoad oneSort compactedInput).1).1.watchers_ = [[], [1, 3], [1], [3]] ∧
    ((Propagate oneSort (InitLoad oneSort compactedInput).1).1.clause 1).lits =
      [⟨true, 1, 3⟩, ⟨true, 2, 2⟩] ∧
    (Init oneSort compactedInput).trail_ = [⟨true, 2, 2⟩, ⟨false, 1, 3⟩] ∧
    (Init oneSort compactedInput).clauses_ = [0, 3] ∧
    (Init oneSort compactedInput).watchers_ = [[], [3], [], [3]] ∧
    (Init oneSort compactedInput).clause_factory_.freed = [1, 2] ∧
    ((Init oneSort compactedInput).data 2 3).model_neq = true ∧
    ((Init oneSort compactedInput).data 2 3).level = kRootLevel ∧
    ((Init oneSort compactedInput).data 2 2).reason = 1 ∧
    compactedConflict.1.trail_ = [⟨true, 2, 2⟩, ⟨false, 1, 3⟩, ⟨true, 1, 9⟩, ⟨true, 3, 9⟩] ∧
    compactedConflict.1.level_size_ = [0, 2, 3] ∧
    compactedConflict.2 = 3 ∧
    (compactedConflict.1.clause compactedConflict.2).lits = [⟨true, 3, 1⟩, ⟨true, 1, 2⟩] ∧
    (Analyze oneSort compactedConflict.1 compactedConflict.2).2 =
      ([⟨false, 3, 9⟩, ⟨true, 1, 2⟩], 2) := by
  decide!

/-- The assertion `trail_i >= 0` of `Analyze` is needed: in the state in which `Solve` calls
`Analyze` for the first time for `rootConflictInput`, the conflict clause is falsified by
literals of the root level only, which `Init` has derived while it dropped the conflict that
its call of `Propagate` returned; the state meets `ConflictState` and `TrailOrdered`, and the
scan of `Analyze` for a wanted literal leaves the trail. -/
theorem rootConflict_undefined :
    (Propagate oneSort (InitLoad oneSort rootConflictInput).1).2 = 1 ∧
    ConflictState (Propagate oneSort (firstDecision oneSort (Init oneSort rootConflictInput))).1
      (Propagate oneSort (firstDecision oneSort (Init oneSort rootConflictInput))).2 ∧
    TrailOrdered (Propagate oneSort (firstDecision oneSort (Init oneSort rootConflictInput))).1 ∧
    AnalyzeDefined oneSort
      ((Propagate oneSort (firstDecision oneSort (Init oneSort rootConflictInput))).1.trail_.length
        + 1)
      (AnalyzeStart (Propagate oneSort (firstDecision oneSort (Init oneSort rootConflictInput))).1)
      (Propagate oneSort (firstDecision oneSort (Init oneSort rootConflictInput))).2 = false := by
  decide!

end Solver
/-! ## The invariant of the loop of `Solve` -/

namespace Solver

/-! ### What is kept of the recorded assignments -/

theorem loc_eq (s : Solver) (a : Literal) :
    s.level_of_complementary a
      = if a.pos = true ∧ (s.data a.lhs a.rhs).model_neq = true then (s.data a.lhs a.rhs).level
        else (s.data a.lhs (s.model a.lhs)).level := by
  unfold level_of_complementary
  dsimp only
  cases a.pos <;> cases (s.data a.lhs a.rhs).model_neq <;> simp

theorem level_of_eq (s : Solver) (a : Literal) :
    s.level_of a
      = if a.pos = false ∧ (s.data a.lhs a.rhs).model_neq = true then (s.data a.lhs a.rhs).level
        else (s.data a.lhs (s.model a.lhs)).level := by
  unfold level_of
  dsimp only
  cases a.pos <;> cases (s.data a.lhs a.rhs).model_neq <;> simp

theorem reason_of_eq (s : Solver) (a : Literal) :
    s.reason_of a
      = if a.pos = false ∧ (s.data a.lhs a.rhs).model_neq = true then (s.data a.lhs a.rhs).reason
        else (s.data a.lhs (s.model a.lhs)).reason := by
  unfold reason_of
  dsimp only
  cases a.pos <;> cases (s.data a.lhs a.rhs).model_neq <;> simp

/-- A literal that is falsified at a level that is kept stays falsified at that level. -/
theorem Keeps_falsified {l : Nat} {s t : Solver} (h : Keeps l s t) (a : Literal)
    (hf : s.falsifies a (-1) = true) (h0 : a.rhs ≠ 0) (hl : s.level_of_complementary a ≤ l) :
    t.falsifies a (-1) = true ∧ t.level_of_complementary a = s.level_of_complementary a := by
  rw [falsifies_iff] at hf
  rw [falsifies_iff, loc_eq t]
  rcases hf with ⟨hp, hm⟩ | ⟨hp, hm⟩
  · have hc : ¬ (a.pos = true ∧ (s.data a.lhs a.rhs).model_neq = true) := by
      rw [hp]
      exact fun e => Bool.noConfusion e.1
    have hc2 : ¬ (a.pos = true ∧ (t.data a.lhs a.rhs).model_neq = true) := by
      rw [hp]
      exact fun e => Bool.noConfusion e.1
    have hs : s.level_of_complementary a = (s.data a.lhs a.rhs).level := by
      rw [loc_eq, if_neg hc, hm]
    rw [hs] at hl ⊢
    rw [if_neg hc2]
    have hm0 : s.model a.lhs ≠ 0 := by rw [hm]; exact h0
    have e1 := h.model a.lhs hm0 (by rw [hm]; exact hl)
    rw [e1, hm]
    exact ⟨Or.inl ⟨hp, rfl⟩, by rw [h.data a.lhs a.rhs (Or.inr ⟨hm, h0⟩) hl]⟩
  · by_cases hn : (s.data a.lhs a.rhs).model_neq = true
    · have hs : s.level_of_complementary a = (s.data a.lhs a.rhs).level := by
        rw [loc_eq, if_pos ⟨hp, hn⟩]
      rw [hs] at hl ⊢
      have e := h.data a.lhs a.rhs (Or.inl hn) hl
      have hn2 : (t.data a.lhs a.rhs).model_neq = true := by rw [e]; exact hn
      rw [if_pos ⟨hp, hn2⟩, e]
      exact ⟨Or.inr ⟨hp, Or.inr hn⟩, rfl⟩
    · have hs : s.level_of_complementary a = (s.data a.lhs (s.model a.lhs)).level := by
        rw [loc_eq, if_neg (fun e => hn e.2)]
      rw [hs] at hl ⊢
      have hm' : s.model a.lhs ≠ 0 ∧ s.model a.lhs ≠ a.rhs := by
        rcases hm with hm | hm
        · exact hm
        · exact absurd hm hn
      have e1 := h.model a.lhs hm'.1 hl
      have hn2 : ¬ (t.data a.lhs a.rhs).model_neq = true := by
        intro e
        rcases h.neq _ _ e with e2 | e2
        · exact hn e2
        · exact hm'.1 e2
      rw [if_neg (fun e => hn2 e.2), e1, h.data a.lhs (s.model a.lhs) (Or.inr ⟨rfl, hm'.1⟩) hl]
      exact ⟨Or.inr ⟨hp, Or.inl hm'⟩, rfl⟩

/-- A literal that is satisfied at a level that is kept stays satisfied at that level. -/
theorem Keeps_satisfied {l : Nat} {s t : Solver} (h : Keeps l s t) (a : Literal)
    (hf : s.satisfies a (-1) = true) (h0 : a.rhs ≠ 0) (hl : s.level_of a ≤ l) :
    t.satisfies a (-1) = true ∧ t.level_of a = s.level_of a := by
  rw [satisfies_iff] at hf
  rw [satisfies_iff, level_of_eq t]
  rcases hf with ⟨hp, hm⟩ | ⟨hp, hm⟩
  · have hc : ¬ (a.pos = false ∧ (s.data a.lhs a.rhs).model_neq = true) := by
      rw [hp]
      exact fun e => Bool.noConfusion e.1
    have hc2 : ¬ (a.pos = false ∧ (t.data a.lhs a.rhs).model_neq = true) := by
      rw [hp]
      exact fun e => Bool.noConfusion e.1
    have hs : s.level_of a = (s.data a.lhs a.rhs).level := by
      rw [level_of_eq, if_neg hc, hm]
    rw [hs] at hl ⊢
    rw [if_neg hc2]
    have hm0 : s.model a.lhs ≠ 0 := by rw [hm]; exact h0
    have e1 := h.model a.lhs hm0 (by rw [hm]; exact hl)
    rw [e1, hm]
    exact ⟨Or.inl ⟨hp, rfl⟩, by rw [h.data a.lhs a.rhs (Or.inr ⟨hm, h0⟩) hl]⟩
  · by_cases hn : (s.data a.lhs a.rhs).model_neq = true
    · have hs : s.level_of a = (s.data a.lhs a.rhs).level := by
        rw [level_of_eq, if_pos ⟨hp, hn⟩]
      rw [hs] at hl ⊢
      have e := h.data a.lhs a.rhs (Or.inl hn) hl
      have hn2 : (t.data a.lhs a.rhs).model_neq = true := by rw [e]; exact hn
      rw [if_pos ⟨hp, hn2⟩, e]
      exact ⟨Or.inr ⟨hp, Or.inr hn⟩, rfl⟩
    · have hs : s.level_of a = (s.data a.lhs (s.model a.lhs)).level := by
        rw [level_of_eq, if_neg (fun e => hn e.2)]
      rw [hs] at hl ⊢
      have hm' : s.model a.lhs ≠ 0 ∧ s.model a.lhs ≠ a.rhs := by
        rcases hm with hm | hm
        · exact hm
        · exact absurd hm hn
      have e1 := h.model a.lhs hm'.1 hl
      have hn2 : ¬ (t.data a.lhs a.rhs).model_neq = true := by
        intro e
        rcases h.neq _ _ e with e2 | e2
        · exact hn e2
        · exact hm'.1 e2
      rw [if_neg (fun e => hn2 e.2), e1, h.data a.lhs (s.model a.lhs) (Or.inr ⟨rfl, hm'.1⟩) hl]
      exact ⟨Or.inr ⟨hp, Or.inl hm'⟩, rfl⟩

/-- The pair of a literal of the trail is recorded. -/
theorem trail_recorded (s : Solver) (ht : TrailTrue s) (t : Literal) (hin : t ∈ s.trail_) :
    Recorded s t.lhs t.rhs := by
  obtain ⟨h0, hp, hn⟩ := ht t hin
  cases h : t.pos with
  | false => exact Or.inl (hn h)
  | true => exact Or.inr ⟨hp h, h0⟩

/-- A literal of the trail at a level that is kept stays recorded with its level and reason. -/
theorem Keeps_trail {l : Nat} {s t : Solver} (h : Keeps l s t) (ht : TrailTrue s) (a : Literal)
    (hin : a ∈ s.trail_) (hl : s.level_of a ≤ l) :
    a.rhs ≠ 0 ∧ (a.pos = true → t.model a.lhs = a.rhs) ∧
    (a.pos = false → (t.data a.lhs a.rhs).model_neq = true) ∧
    t.data a.lhs a.rhs = s.data a.lhs a.rhs ∧
    t.level_of a = s.level_of a ∧ t.reason_of a = s.reason_of a := by
  have hrec := trail_recorded s ht a hin
  obtain ⟨h0, hp, hn⟩ := ht a hin
  have hlv := (level_of_trail s a ht hin).1
  rw [hlv] at hl
  have e := h.data a.lhs a.rhs hrec hl
  have hmod : a.pos = true → t.model a.lhs = a.rhs := by
    intro p
    have hm := hp p
    have := h.model a.lhs (by rw [hm]; exact h0) (by rw [hm]; exact hl)
    rw [this, hm]
  have hneq : a.pos = false → (t.data a.lhs a.rhs).model_neq = true := by
    intro p
    rw [e]
    exact hn p
  refine ⟨h0, hmod, hneq, e, ?_, ?_⟩
  · rw [level_of_eq s, level_of_eq t]
    cases p : a.pos with
    | false =>
      rw [if_pos ⟨rfl, hneq p⟩, if_pos ⟨rfl, hn p⟩, e]
    | true =>
      rw [if_neg (fun x => Bool.noConfusion x.1), if_neg (fun x => Bool.noConfusion x.1),
        hmod p, hp p, e]
  · rw [reason_of_eq s, reason_of_eq t]
    cases p : a.pos with
    | false =>
      rw [if_pos ⟨rfl, hneq p⟩, if_pos ⟨rfl, hn p⟩, e]
    | true =>
      rw [if_neg (fun x => Bool.noConfusion x.1), if_neg (fun x => Bool.noConfusion x.1),
        hmod p, hp p, e]

theorem Keeps_clause {l : Nat} {s t : Solver} (h : Keeps l s t) (cr : Int) :
    t.clause cr = s.clause cr := by
  unfold clause
  rw [h.factory]

/-- A clause with a literal that is satisfied at the root level keeps it. -/
theorem Keeps_RootSat {l : Nat} {s t : Solver} (h : Keeps l s t) (hl : kRootLevel ≤ l) (cr : Int)
    (hr : RootSat s cr) : RootSat t cr := by
  obtain ⟨a, ha, hs, h0, hlev⟩ := hr
  have := Keeps_satisfied h a hs h0 (Nat.le_trans hlev hl)
  refine ⟨a, by rw [Keeps_clause h]; exact ha, this.1, h0, ?_⟩
  rw [this.2]
  exact hlev

theorem Keeps_FreedOK {l : Nat} {s t : Solver} (h : Keeps l s t) (hl : kRootLevel ≤ l)
    (hf : FreedOK s) : FreedOK t := by
  intro cr hcr
  rw [h.factory] at hcr ⊢
  obtain ⟨h1, h2⟩ := hf cr hcr
  refine ⟨h1, ?_⟩
  rcases h2 with h2 | h2
  · exact Or.inl (by rw [Keeps_clause h]; exact h2)
  · exact Or.inr (Keeps_RootSat h hl cr h2)

/-- A literal of the trail at a level that is kept has its reason as before. -/
theorem Keeps_ReasonOK {l : Nat} {s t : Solver} (h : Keeps l s t) (ht : TrailTrue s)
    (a : Literal) (hin : a ∈ s.trail_) (hl : s.level_of a ≤ l) (hr : ReasonOK s a) :
    ReasonOK t a := by
  obtain ⟨_, _, _, _, hlev, hreas⟩ := Keeps_trail h ht a hin hl
  unfold ReasonOK
  rw [hreas, hlev, Keeps_clause h]
  rcases hr with hr | hr | ⟨h1, h2, h3, h4⟩
  · exact Or.inl hr
  · exact Or.inr (Or.inl hr)
  · refine Or.inr (Or.inr ⟨h1, h2, h3, ?_⟩)
    intro b hb
    rcases h4 b hb with e | ⟨e1, e2, e3⟩
    · exact Or.inl e
    · have := Keeps_falsified h b e1 e2 (Nat.le_trans e3 hl)
      exact Or.inr ⟨this.1, e2, by rw [this.2]; exact e3⟩

/-! ### Putting a literal on the trail -/

theorem Push_current_level {s t : Solver} {b : Literal} {r : Int} (h : Push s t b r) :
    t.current_level = s.current_level := by
  unfold current_level
  rw [h.levels]

theorem Push_unrecorded {s : Solver} {b : Literal} (hun : s.model b.lhs = 0)
    (hneq : (s.data b.lhs b.rhs).model_neq = false) : ¬ Recorded s b.lhs b.rhs := by
  rintro (e | ⟨e, e0⟩)
  · rw [hneq] at e
    exact Bool.noConfusion e
  · rw [hun] at e
    exact e0 e.symm

theorem Push_data_other {s t : Solver} {b : Literal} {r : Int} (h : Push s t b r) (g k : Nat)
    (hgk : ¬ (g = b.lhs ∧ k = b.rhs)) : t.data g k = s.data g k := by
  rw [h.data, if_neg hgk]

theorem Push_data_same {s t : Solver} {b : Literal} {r : Int} (h : Push s t b r) :
    t.data b.lhs b.rhs = (s.data b.lhs b.rhs).Update (!b.pos) s.current_level r := by
  rw [h.data, if_pos ⟨rfl, rfl⟩]

/-- Putting a literal of an unassigned function and a name that is not excluded on the trail
keeps what is recorded. -/
theorem Push_Keeps {s t : Solver} {b : Literal} {r : Int} (h : Push s t b r) (l : Nat)
    (hun : s.model b.lhs = 0) (hneq : (s.data b.lhs b.rhs).model_neq = false) :
    Keeps l s t := by
  have hnr := Push_unrecorded hun hneq
  constructor
  · intro g hg _
    rw [h.model, if_neg]
    rintro ⟨_, e⟩
    rw [e] at hg
    exact hg hun
  · intro g k hrec _
    apply Push_data_other h
    rintro ⟨e1, e2⟩
    rw [e1, e2] at hrec
    exact hnr hrec
  · intro g k hn
    by_cases hgk : g = b.lhs ∧ k = b.rhs
    · right
      rw [hgk.1]
      exact hun
    · left
      rw [Push_data_other h g k hgk] at hn
      exact hn
  · exact h.factory

theorem Update_level (d : Data) (neq : Bool) (l : Nat) (r : Int) (hl : l < 2 ^ 28) :
    (d.Update neq l r).level = l := by
  show l % 2 ^ 28 = l
  exact Nat.mod_eq_of_lt hl

theorem Push_recorded_iff {s t : Solver} {b : Literal} {r : Int} (h : Push s t b r)
    (hun : s.model b.lhs = 0) (h0 : b.rhs ≠ 0)
    (g k : Nat) : Recorded t g k ↔ (Recorded s g k ∨ (g = b.lhs ∧ k = b.rhs)) := by
  by_cases hgk : g = b.lhs ∧ k = b.rhs
  · obtain ⟨rfl, rfl⟩ := hgk
    refine ⟨fun _ => Or.inr ⟨rfl, rfl⟩, fun _ => ?_⟩
    cases hp : b.pos with
    | false =>
      left
      rw [Push_data_same h, hp]
      rfl
    | true =>
      right
      rw [h.model, if_pos ⟨hp, rfl⟩]
      exact ⟨rfl, h0⟩
  · constructor
    · rintro (e | ⟨e, e0⟩)
      · rw [Push_data_other h g k hgk] at e
        exact Or.inl (Or.inl e)
      · rw [h.model] at e
        split at e
        · rename_i c
          exact absurd ⟨c.2, e.symm⟩ hgk
        · exact Or.inl (Or.inr ⟨e, e0⟩)
    · rintro (e | e)
      · rcases e with e | ⟨e, e0⟩
        · left
          rw [Push_data_other h g k hgk]
          exact e
        · right
          refine ⟨?_, e0⟩
          rw [h.model, if_neg]
          · exact e
          · rintro ⟨_, c⟩
            rw [c, hun] at e
            exact e0 e.symm
      · exact absurd e hgk

/-- Putting a registered literal of an unassigned function and a name that is not excluded on
the trail keeps the invariant of `model_` and `data_`. -/
theorem DataWF_Push {s t : Solver} {b : Literal} {r : Int} (hd : DataWF s) (h : Push s t b r)
    (hun : s.model b.lhs = 0)
    (hocc : (s.data b.lhs b.rhs).occurs = true) (hf0 : b.lhs ≠ 0) (h0 : b.rhs ≠ 0) :
    DataWF t := by
  have hcl := Push_current_level h
  have hsame := Push_data_same h
  have hlevel : (t.data b.lhs b.rhs).level = s.current_level := by
    rw [hsame]
    exact Update_level _ _ _ _ hd.bits
  have hrec := Push_recorded_iff h hun h0
  constructor
  · intro g k hn
    by_cases hgk : g = b.lhs ∧ k = b.rhs
    · obtain ⟨rfl, rfl⟩ := hgk
      rw [hsame] at hn
      have hp : b.pos = false := by
        cases hp : b.pos
        · rfl
        · rw [hp] at hn
          exact Bool.noConfusion hn
      rw [h.model, if_neg (by rw [hp]; exact fun e => Bool.noConfusion e.1), hun]
      exact fun e => h0 e.symm
    · rw [Push_data_other h g k hgk] at hn
      rw [h.model]
      split
      · rename_i c
        intro e
        exact hgk ⟨c.2, e.symm⟩
      · exact hd.cons g k hn
  · intro g k
    rw [hcl]
    by_cases hgk : g = b.lhs ∧ k = b.rhs
    · obtain ⟨rfl, rfl⟩ := hgk
      rw [hlevel]
    · rw [Push_data_other h g k hgk]
      exact hd.lev g k
  · intro g k hr
    by_cases hgk : g = b.lhs ∧ k = b.rhs
    · obtain ⟨rfl, rfl⟩ := hgk
      rw [hlevel]
      exact hd.root
    · rw [Push_data_other h g k hgk]
      rcases (hrec g k).mp hr with e | e
      · exact hd.set g k e
      · exact absurd e hgk
  · intro g k hr
    by_cases hgk : g = b.lhs ∧ k = b.rhs
    · exact absurd ((hrec g k).mpr (Or.inr hgk)) hr
    · rw [Push_data_other h g k hgk]
      exact hd.unset g k (fun e => hr ((hrec g k).mpr (Or.inl e)))
  · intro g k hn hm
    by_cases hgk : g = b.lhs ∧ k = b.rhs
    · obtain ⟨rfl, rfl⟩ := hgk
      exfalso
      rw [hsame] at hn
      have hp : b.pos = false := by
        cases hp : b.pos
        · rfl
        · rw [hp] at hn
          exact Bool.noConfusion hn
      rw [h.model, if_neg (by rw [hp]; exact fun e => Bool.noConfusion e.1)] at hm
      exact hm hun
    · rw [Push_data_other h g k hgk] at hn ⊢
      rw [h.model] at hm ⊢
      split
      · rename_i c
        rw [c.2, hlevel]
        exact hd.lev b.lhs k
      · rename_i c
        rw [if_neg c] at hm
        have hg : g ≠ b.lhs := by
          intro e
          rw [e, hun] at hm
          exact hm rfl
        rw [Push_data_other h g (s.model g) (fun e => hg e.1)]
        exact hd.below g k hn hm
  · intro g k hr
    by_cases hgk : g = b.lhs ∧ k = b.rhs
    · obtain ⟨rfl, rfl⟩ := hgk
      rw [hsame]
      exact ⟨hocc, hf0, h0⟩
    · rw [Push_data_other h g k hgk]
      rcases (hrec g k).mp hr with e | e
      · exact hd.reg g k e
      · exact absurd e hgk
  · rw [hcl]
    exact hd.bits
  · rw [hcl]
    exact hd.root

/-! ### The trail after a literal was put on it -/

theorem getD_snoc_lt (l : List Literal) (b : Literal) (i : Nat) (h : i < l.length) :
    (l ++ [b]).getD i Literal.null = l.getD i Literal.null :=
  List.getD_append _ _ _ _ h

theorem getD_snoc_eq (l : List Literal) (b : Literal) :
    (l ++ [b]).getD l.length Literal.null = b := by
  rw [List.getD_append_right _ _ _ _ (Nat.le_refl _), Nat.sub_self]
  rfl

theorem TrailTrue_Push {s t : Solver} {b : Literal} {r : Int} (ht : TrailTrue s)
    (h : Push s t b r) (hun : s.model b.lhs = 0)
    (hneq : (s.data b.lhs b.rhs).model_neq = false) (h0 : b.rhs ≠ 0) : TrailTrue t := by
  have hk := Push_Keeps h s.current_level hun hneq
  intro a ha
  rw [h.trail] at ha
  rcases List.mem_append.mp ha with ha | ha
  · obtain ⟨_, hp, hn⟩ := ht a ha
    have hrec := trail_recorded s ht a ha
    refine ⟨(ht a ha).1, ?_, ?_⟩
    · intro p
      rw [h.model, if_neg]
      · exact hp p
      · rintro ⟨_, e⟩
        have := hp p
        rw [e, hun] at this
        exact (ht a ha).1 this.symm
    · intro p
      rw [Push_data_other h]
      · exact hn p
      · rintro ⟨e1, e2⟩
        have := hn p
        rw [e1, e2, hneq] at this
        exact Bool.noConfusion this
  · rw [List.mem_singleton.mp ha]
    refine ⟨h0, ?_, ?_⟩
    · intro p
      rw [h.model, if_pos ⟨p, rfl⟩]
    · intro p
      rw [Push_data_same h, p]
      rfl

/-- The level and the reason of the literal that was put on the trail, and those of the others. -/
theorem Push_levels {s t : Solver} {b : Literal} {r : Int} (hd : DataWF s) (ht : TrailTrue s)
    (h : Push s t b r) (hun : s.model b.lhs = 0)
    (hneq : (s.data b.lhs b.rhs).model_neq = false) (h0 : b.rhs ≠ 0) :
    t.level_of b = s.current_level ∧ t.reason_of b = r ∧
    ∀ a ∈ s.trail_, t.level_of a = s.level_of a ∧ t.reason_of a = s.reason_of a := by
  have ht2 := TrailTrue_Push ht h hun hneq h0
  have hb : b ∈ t.trail_ := by
    rw [h.trail]
    exact List.mem_append_right _ (List.mem_singleton.mpr rfl)
  have e := level_of_trail t b ht2 hb
  refine ⟨?_, ?_, ?_⟩
  · rw [e.1, Push_data_same h]
    exact Update_level _ _ _ _ hd.bits
  · rw [e.2, Push_data_same h]
    rfl
  · intro a ha
    have hk := Push_Keeps h s.current_level hun hneq
    have hl : s.level_of a ≤ s.current_level := by
      rw [(level_of_trail s a ht ha).1]
      exact hd.lev _ _
    have := Keeps_trail hk ht a ha hl
    exact ⟨this.2.2.2.2.1, this.2.2.2.2.2⟩

/-- Putting a literal of an unassigned function and a name that is not excluded on the trail
keeps the invariant of the trail. -/
theorem TrailWF_Push {s t : Solver} {b : Literal} {r : Int} (hd : DataWF s) (ht : TrailWF s)
    (h : Push s t b r) (hun : s.model b.lhs = 0)
    (hneq : (s.data b.lhs b.rhs).model_neq = false) (h0 : b.rhs ≠ 0) : TrailWF t := by
  have ht2 := TrailTrue_Push ht.recd h hun hneq h0
  obtain ⟨hlb, _, hla⟩ := Push_levels hd ht.recd h hun hneq h0
  have hcl := Push_current_level h
  have hlen : t.trail_.length = s.trail_.length + 1 := by
    rw [h.trail, List.length_append]
    rfl
  refine ⟨ht2, ?_, ?_, ?_, ?_⟩
  · intro i hi L hL hroot
    rw [hcl] at hL
    rw [h.levels, h.trail]
    by_cases hlt : i < s.trail_.length
    · rw [getD_snoc_lt _ _ _ hlt, (hla _ (getD_mem _ _ _ hlt)).1]
      exact ht.starts i hlt L hL hroot
    · have hi' : i = s.trail_.length := by omega
      rw [hi', getD_snoc_eq, hlb]
      have := ht.marks L hL
      constructor
      · intro _
        exact hL
      · intro _
        exact this
  · intro g hg k hk hroot
    by_cases hgk : g = b.lhs ∧ k = b.rhs
    · obtain ⟨rfl, rfl⟩ := hgk
      have hb : b ∈ t.trail_ := by
        rw [h.trail]
        exact List.mem_append_right _ (List.mem_singleton.mpr rfl)
      constructor
      · intro hn
        rw [Push_data_same h] at hn
        have hp : b.pos = false := by
          cases hp : b.pos
          · rfl
          · rw [hp] at hn
            exact Bool.noConfusion hn
        have : Literal.Neq b.lhs b.rhs = b := by
          obtain ⟨p, f, n⟩ := b
          dsimp only at hp
          rw [hp]
          rfl
        rw [this]
        exact hb
      · intro hm _
        have hp : b.pos = true := by
          cases hp : b.pos
          · rw [h.model, if_neg (by rw [hp]; exact fun e => Bool.noConfusion e.1), hun] at hm
            exact absurd hm.symm h0
          · rfl
        have : Literal.Eq b.lhs b.rhs = b := by
          obtain ⟨p, f, n⟩ := b
          dsimp only at hp
          rw [hp]
          rfl
        rw [this]
        exact hb
    · have hroot' : kRootLevel < (s.data g k).level := by
        rw [← Push_data_other h g k hgk]
        exact hroot
      have hcap : g < s.data_.length ∧ k < (s.data_.getD g []).length := by
        have := level_in_capacity s g k (by omega)
        exact this
      have := ht.ontr g hcap.1 k hcap.2 hroot'
      constructor
      · intro hn
        rw [Push_data_other h g k hgk] at hn
        rw [h.trail]
        exact List.mem_append_left _ (this.1 hn)
      · intro hm hk0
        rw [h.model] at hm
        split at hm
        · rename_i c
          exact absurd ⟨c.2, hm.symm⟩ hgk
        · rw [h.trail]
          exact List.mem_append_left _ (this.2 hm hk0)
  · intro j hj i hij hlhs
    rw [h.trail] at hlhs ⊢
    have hilt : i < s.trail_.length := by omega
    rw [getD_snoc_lt _ _ _ hilt] at hlhs ⊢
    by_cases hlt : j < s.trail_.length
    · rw [getD_snoc_lt _ _ _ hlt] at hlhs ⊢
      exact ht.one j hlt i hij hlhs
    · have hj' : j = s.trail_.length := by omega
      rw [hj', getD_snoc_eq] at hlhs ⊢
      have hin := getD_mem s.trail_ i Literal.null hilt
      obtain ⟨ha0, hap, han⟩ := ht.recd _ hin
      generalize s.trail_.getD i Literal.null = a at hlhs hin ha0 hap han ⊢
      cases hp : a.pos with
      | true =>
        have := hap hp
        rw [hlhs, hun] at this
        exact absurd this.symm ha0
      | false =>
        refine ⟨rfl, ?_⟩
        intro e
        have := han hp
        rw [hlhs, e, hneq] at this
        exact Bool.noConfusion this
  · intro i hi
    rw [h.levels] at hi ⊢
    rw [hlen]
    exact Nat.le_trans (ht.marks i hi) (Nat.le_succ _)

/-! ### The reasons after a literal was put on the trail -/

/-- What `Enqueue(b, r)` needs of the reason `r`: it is null, or the domain for a positive
literal, or a clause with at least two literals among which is `b`, the others being
falsified. -/
theorem Reasons_Push {s t : Solver} {b : Literal} {r : Int} (hd : DataWF s) (ht : TrailTrue s)
    (h : Push s t b r) (hun : s.model b.lhs = 0)
    (hneq : (s.data b.lhs b.rhs).model_neq = false) (h0 : b.rhs ≠ 0)
    (hrs : ∀ a ∈ s.trail_, ReasonOK s a)
    (hr : r = kNullRef ∨ (r = kDomainRef ∧ b.pos = true) ∨
      (0 < r ∧ 2 ≤ (s.clause r).size ∧ b ∈ (s.clause r).lits ∧
        ∀ a ∈ (s.clause r).lits, a = b ∨ (s.falsifies a (-1) = true ∧ a.rhs ≠ 0))) :
    ∀ a ∈ t.trail_, ReasonOK t a := by
  have hk := Push_Keeps h s.current_level hun hneq
  obtain ⟨hlb, hrb, _⟩ := Push_levels hd ht h hun hneq h0
  intro a ha
  rw [h.trail] at ha
  rcases List.mem_append.mp ha with ha | ha
  · have hl : s.level_of a ≤ s.current_level := by
      rw [(level_of_trail s a ht ha).1]
      exact hd.lev _ _
    exact Keeps_ReasonOK hk ht a ha hl (hrs a ha)
  · rw [List.mem_singleton.mp ha]
    unfold ReasonOK
    rw [hrb, hlb, Keeps_clause hk]
    rcases hr with hr | hr | ⟨h1, h2, h3, h4⟩
    · exact Or.inl hr
    · exact Or.inr (Or.inl hr)
    · refine Or.inr (Or.inr ⟨h1, h2, h3, ?_⟩)
      intro c hc
      rcases h4 c hc with e | ⟨e1, e2⟩
      · exact Or.inl e
      · have hl := level_of_complementary_le s c hd.lev
        have := Keeps_falsified hk c e1 e2 hl
        exact Or.inr ⟨this.1, e2, by rw [this.2]; exact hl⟩

theorem FreedOK_Push {s t : Solver} {b : Literal} {r : Int} (hd : DataWF s)
    (h : Push s t b r) (hun : s.model b.lhs = 0)
    (hneq : (s.data b.lhs b.rhs).model_neq = false) (hf : FreedOK s) : FreedOK t :=
  Keeps_FreedOK (Push_Keeps h s.current_level hun hneq) hd.root hf

/-! ### The two ways in which `Enqueue` puts a literal on the trail -/

theorem data_of_data_ {s t : Solver} (h : t.data_ = s.data_) (g k : Nat) :
    t.data g k = s.data g k := by
  unfold data
  rw [h]

theorem model_of_model_ {s t : Solver} (h : t.model_ = s.model_) (g : Nat) :
    t.model g = s.model g := by
  unfold model
  rw [h]

/-- The assignment made by `Enqueue` for a positive literal, and by its domain propagation. -/
theorem Push_pos (s : Solver) (b : Literal) (r : Int) (hp : b.pos = true)
    (hf : b.lhs < s.model_.length) (hd : b.lhs < s.data_.length)
    (hn : b.rhs < (s.data_.getD b.lhs []).length) :
    Push s ((((s.pushTrail b).setData b.lhs b.rhs
      ((s.data b.lhs b.rhs).Update false s.current_level r)).setModel b.lhs b.rhs).orderRemove
        b.lhs) b r := by
  constructor
  · rfl
  · rfl
  · intro g
    show (s.setModel b.lhs b.rhs).model g = _
    by_cases hg : g = b.lhs
    · rw [if_pos ⟨hp, hg⟩, hg]
      exact model_setModel_same s b.lhs b.rhs hf
    · rw [if_neg (fun e => hg e.2)]
      exact model_setModel_ne s b.lhs g b.rhs (fun e => hg e.symm)
  · intro g k
    show (s.setData b.lhs b.rhs ((s.data b.lhs b.rhs).Update false s.current_level r)).data g k
      = _
    by_cases hgk : g = b.lhs ∧ k = b.rhs
    · rw [if_pos hgk, hgk.1, hgk.2, hp]
      exact data_setData_same s b.lhs b.rhs _ hd hn
    · rw [if_neg hgk]
      apply data_setData_ne
      by_cases hg : g = b.lhs
      · exact Or.inr (fun e => hgk ⟨hg, e⟩)
      · exact Or.inl hg
  · rfl

/-- The exclusion made by `Enqueue` for a negative literal. -/
theorem Push_neg (s : Solver) (b : Literal) (r : Int) (v : Int) (hp : b.pos = false)
    (hd : b.lhs < s.data_.length) (hn : b.rhs < (s.data_.getD b.lhs []).length) :
    Push s (((s.pushTrail b).setData b.lhs b.rhs
      ((s.data b.lhs b.rhs).Update true s.current_level r)).setDomainSize b.lhs v) b r := by
  constructor
  · rfl
  · rfl
  · intro g
    rw [if_neg (by rw [hp]; exact fun e => Bool.noConfusion e.1)]
    rfl
  · intro g k
    show (s.setData b.lhs b.rhs ((s.data b.lhs b.rhs).Update true s.current_level r)).data g k
      = _
    by_cases hgk : g = b.lhs ∧ k = b.rhs
    · rw [if_pos hgk, hgk.1, hgk.2, hp]
      exact data_setData_same s b.lhs b.rhs _ hd hn
    · rw [if_neg hgk]
      apply data_setData_ne
      by_cases hg : g = b.lhs
      · exact Or.inr (fun e => hgk ⟨hg, e⟩)
      · exact Or.inl hg
  · rfl

/-- A step that leaves the trail, the level marks, `model_`, `data_` and the clause factory as
they are can follow a `Push`. -/
theorem Push_frame {s t u : Solver} {b : Literal} {r : Int} (h : Push s t b r)
    (h1 : u.trail_ = t.trail_) (h2 : u.level_size_ = t.level_size_) (h3 : u.model_ = t.model_)
    (h4 : u.data_ = t.data_) (h5 : u.clause_factory_ = t.clause_factory_) : Push s u b r :=
  ⟨h1.trans h.trail, h2.trans h.levels, fun g => (model_of_model_ h3 g).trans (h.model g),
    fun g k => (data_of_data_ h4 g k).trans (h.data g k), h5.trans h.factory⟩

/-- A step that leaves the trail, the level marks, `model_`, `data_` and the clause factory as
they are can precede a `Push`. -/
theorem Push_of_frame {s t u : Solver} {b : Literal} {r : Int} (h : Push t u b r)
    (h1 : t.trail_ = s.trail_) (h2 : t.level_size_ = s.level_size_) (h3 : t.model_ = s.model_)
    (h4 : t.data_ = s.data_) (h5 : t.clause_factory_ = s.clause_factory_) : Push s u b r := by
  have hcl : t.current_level = s.current_level := by
    unfold current_level
    rw [h2]
  constructor
  · rw [h.trail, h1]
  · rw [h.levels, h2]
  · intro g
    rw [h.model, model_of_model_ h3]
  · intro g k
    rw [h.data, data_of_data_ h4, hcl]
  · rw [h.factory, h5]

/-! ### The fields that the invariant reads -/

/-- The invariant reads the clause factory, the watchers, the trail, the level marks, `model_`,
`data_`, `domain_size_`, `funcs_` and `names_` only. -/
theorem WF_frame {sort : Nat → Nat} {s t : Solver} (h : WF sort s)
    (e1 : t.clause_factory_ = s.clause_factory_) (e2 : t.watchers_ = s.watchers_)
    (e3 : t.trail_ = s.trail_) (e4 : t.level_size_ = s.level_size_)
    (e5 : t.model_ = s.model_) (e6 : t.data_ = s.data_)
    (e7 : t.domain_size_ = s.domain_size_) (e8 : t.funcs_ = s.funcs_)
    (e9 : t.names_ = s.names_) : WF sort t := by
  have hdom : DomInv t :=
    DomInv_frame h.dom e6 e7 e3 e4 (by rw [e5]) (by rw [e8]) (by rw [e9])
  obtain ⟨_, hcls, hdat, htrl, hrsn, hfreed, hwpos, hnames, hfuncs, hflags⟩ := h
  cases s
  cases t
  dsimp only at e1 e2 e3 e4 e5 e6 e7 e8 e9
  subst e1 e2 e3 e4 e5 e6 e7 e8 e9
  exact ⟨hdom, ⟨hcls.pool, hcls.watch⟩,
    ⟨hdat.cons, hdat.lev, hdat.set, hdat.unset, hdat.below, hdat.reg, hdat.bits, hdat.root⟩,
    ⟨htrl.recd, htrl.starts, htrl.ontr, htrl.one, htrl.marks⟩, hrsn, hfreed, hwpos, hnames,
    hfuncs, hflags⟩

/-! ### `Enqueue` keeps the invariant -/

theorem flags_Push {s t : Solver} {b : Literal} {r : Int} (h : Push s t b r)
    (hf : s.flagsClear = true) : t.flagsClear = true := by
  rw [flagsClear_iff] at hf ⊢
  intro g k
  rw [h.data]
  split
  · exact hf g k
  · exact hf g k

/-- The three ways in which `Enqueue` ends. -/
theorem Enqueue_eq (sort : Nat → Nat) (s : Solver) (a : Literal) (r : Int) :
    (¬ (s.model a.lhs = 0 ∧ (a.pos = true ∨ (s.data a.lhs a.rhs).model_neq = false)) →
      Enqueue sort s a r = s) ∧
    (s.model a.lhs = 0 → a.pos = true →
      Enqueue sort s a r = (((s.pushTrail a).setData a.lhs a.rhs
        ((s.data a.lhs a.rhs).Update false s.current_level r)).setModel a.lhs
          a.rhs).orderRemove a.lhs) ∧
    (s.model a.lhs = 0 → a.pos = false → (s.data a.lhs a.rhs).model_neq = false →
      (s.domain_size_.getD a.lhs 0 - 1 = 1 ∧
        Enqueue sort s a r = EnqueueDomain sort (((s.pushTrail a).setData a.lhs a.rhs
          ((s.data a.lhs a.rhs).Update true s.current_level r)).setDomainSize a.lhs
            (s.domain_size_.getD a.lhs 0 - 1)) a.lhs) ∨
      Enqueue sort s a r = (((s.pushTrail a).setData a.lhs a.rhs
          ((s.data a.lhs a.rhs).Update true s.current_level r)).setDomainSize a.lhs
            (s.domain_size_.getD a.lhs 0 - 1)).BumpToFront a.lhs) := by
  refine ⟨?_, ?_, ?_⟩
  · intro hg
    unfold Enqueue
    dsimp only
    rw [if_neg]
    intro c
    apply hg
    simp only [Bool.and_eq_true, beq_iff_eq, Bool.or_eq_true, Bool.not_eq_true'] at c
    exact c
  · intro hm hp
    unfold Enqueue
    dsimp only
    rw [if_pos (by simp [hm, hp]), hp]
    simp only [Bool.not_true, if_true]
  · intro hm hp hn
    unfold Enqueue
    dsimp only
    rw [if_pos (by simp [hm, hn]), hp]
    simp only [Bool.not_false, Bool.false_eq_true, if_false]
    by_cases hds : s.domain_size_.getD a.lhs 0 - 1 = 1
    · left
      have hc : ((s.domain_size_.getD a.lhs 0 - 1) == 1) = true := by simpa using hds
      exact ⟨hds, if_pos hc⟩
    · right
      have hc : ¬ ((s.domain_size_.getD a.lhs 0 - 1) == 1) = true := by simpa using hds
      exact if_neg hc

theorem freeCount_pos (row : List Data) (h : 0 < freeCount row) :
    ∃ k, k < row.length ∧ (row.getD k Data.null).occurs = true ∧
      (row.getD k Data.null).model_neq = false := by
  unfold freeCount at h
  have hpos : 0 < (row.filter Data.free).length := by omega
  obtain ⟨x, hx⟩ := List.exists_mem_of_length_pos hpos
  obtain ⟨hx1, hx2⟩ := List.mem_filter.mp hx
  obtain ⟨k, hk, e⟩ := List.getElem_of_mem hx1
  refine ⟨k, hk, ?_⟩
  have : row.getD k Data.null = x := by
    rw [List.getD_eq_getElem _ _ hk, e]
  rw [this]
  unfold Data.free at hx2
  simpa using hx2

/-- When one name is left for a function, `CandidateName` finds a name. -/
theorem CandidateName_ne_zero (sort : Nat → Nat) (s : Solver) (f : Nat) (hd : DataInv s)
    (hn : NamesOK sort s) (hsize : s.domain_size_.getD f 0 = 1) :
    (CandidateName sort s f).1 ≠ 0 := by
  have hc := hd.count f
  rw [hsize] at hc
  obtain ⟨k, _, hocc, hneq⟩ := freeCount_pos (s.data_.getD f []) (by omega)
  have hocc' : (s.data f k).occurs = true := hocc
  have hneq' : (s.data f k).model_neq = false := hneq
  have hk0 := (hd.nonnull f k hocc').2
  have hname := hn f k hocc'
  have hklt : k < (s.names_.getD (sort f) []).length := by
    by_contra hc
    rw [List.getD_eq_default _ _ (Nat.le_of_not_lt hc)] at hname
    exact hk0 hname.symm
  unfold CandidateName
  cases hfind : CandidateNameFind sort s f with
  | none =>
    exfalso
    apply CandidateNameFind_none sort s f hfind k hklt
    rw [hname]
    exact ⟨hk0, hocc', hneq'⟩
  | some r =>
    obtain ⟨i, n⟩ := r
    exact (CandidateNameFind_some sort s f i n hfind).2.1

/-- The invariant without the parts that speak of `domain_size_`, the watchers, `funcs_` and
`names_` is kept when a registered literal of an unassigned function and a name that is not
excluded is put on the trail. -/
theorem Core_Push {s t : Solver} {b : Literal} {r : Int} (h : Push s t b r)
    (hd : DataWF s) (ht : TrailWF s) (hrs : ∀ a ∈ s.trail_, ReasonOK s a) (hfr : FreedOK s)
    (hfl : s.flagsClear = true) (hun : s.model b.lhs = 0)
    (hneq : (s.data b.lhs b.rhs).model_neq = false)
    (hocc : (s.data b.lhs b.rhs).occurs = true) (hf0 : b.lhs ≠ 0) (h0 : b.rhs ≠ 0)
    (hr : r = kNullRef ∨ (r = kDomainRef ∧ b.pos = true) ∨
      (0 < r ∧ 2 ≤ (s.clause r).size ∧ b ∈ (s.clause r).lits ∧
        ∀ a ∈ (s.clause r).lits, a = b ∨ (s.falsifies a (-1) = true ∧ a.rhs ≠ 0))) :
    DataWF t ∧ TrailWF t ∧ (∀ a ∈ t.trail_, ReasonOK t a) ∧ FreedOK t ∧
      t.flagsClear = true :=
  ⟨DataWF_Push hd h hun hocc hf0 h0, TrailWF_Push hd ht h hun hneq h0,
    Reasons_Push hd ht.recd h hun hneq h0 hrs hr, FreedOK_Push hd h hun hneq hfr,
    flags_Push h hfl⟩

theorem BumpToFront_trail (s : Solver) (f : Nat) : (s.BumpToFront f).trail_ = s.trail_ := by
  unfold BumpToFront orderIncrease
  dsimp only
  split <;> rfl

/-- The literals of a clause with a literal are registered and have non-null terms. -/
theorem clause_registered {s : Solver} (hd : DataInv s) (hc : ClauseInv s) (cr : Int)
    (a : Literal) (ha : a ∈ (s.clause cr).lits) :
    (s.data a.lhs a.rhs).occurs = true ∧ a.lhs ≠ 0 ∧ a.rhs ≠ 0 := by
  have hpos : 0 < (s.clause cr).size := List.length_pos_of_mem ha
  have ho := hc.pool _ (clause_mem_pool s cr hpos) a ha
  exact ⟨ho, hd.nonnull _ _ ho⟩

/-- The domain propagation of `Enqueue` for the function of a negative literal that was put on
the trail. -/
theorem Core_EnqueueDomain (sort : Nat → Nat) (s : Solver) (f : Nat) (hD : DataInv s)
    (hN : NamesOK sort s) (hd : DataWF s) (ht : TrailWF s)
    (hrs : ∀ a ∈ s.trail_, ReasonOK s a) (hfr : FreedOK s) (hfl : s.flagsClear = true)
    (hun : s.model f = 0) (hsz : s.domain_size_.getD f 0 = 1) :
    DataWF (EnqueueDomain sort s f) ∧ TrailWF (EnqueueDomain sort s f) ∧
    (∀ a ∈ (EnqueueDomain sort s f).trail_, ReasonOK (EnqueueDomain sort s f) a) ∧
    FreedOK (EnqueueDomain sort s f) ∧ (EnqueueDomain sort s f).flagsClear = true := by
  have hn0 := CandidateName_ne_zero sort s f hD hN hsz
  have hfound := CandidateName_found sort s f
  have htr := CandidateName_trail_ sort s f
  have hlv := CandidateName_level_size_ sort s f
  have hmo := CandidateName_model_ sort s f
  have hda := CandidateName_data_ sort s f
  have hst := CandidateName_static sort s f
  have hP' : ∀ c : Nat × Solver, c.2.data_ = s.data_ → c.2.model_ = s.model_ →
      (s.data f c.1).occurs = true →
      Push c.2 ((((c.2.pushTrail (Literal.Eq f c.1)).setData f c.1
        ((c.2.data f c.1).Update false c.2.current_level kDomainRef)).setModel f c.1).orderRemove
          f) (Literal.Eq f c.1) kDomainRef := by
    intro c e1 e2 ho
    obtain ⟨h1, h2⟩ := occurs_in_capacity s f c.1 ho
    refine Push_pos c.2 (Literal.Eq f c.1) kDomainRef rfl ?_ ?_ ?_
    · show f < c.2.model_.length
      rw [e2, hD.capd.1, ← hD.capd.2.1]
      exact h1
    · show f < c.2.data_.length
      rw [e1]
      exact h1
    · show c.1 < (c.2.data_.getD f []).length
      rw [e1]
      exact h2
  unfold EnqueueDomain
  dsimp only
  generalize CandidateName sort s f = c at hn0 hfound htr hlv hmo hda hst
  rcases hfound with e | ⟨hocc, hneq⟩
  · exact absurd e hn0
  · have hP := Push_of_frame (hP' c hda hmo hocc) htr hlv hmo hda hst.2.1
    exact Core_Push hP hd ht hrs hfr hfl hun hneq hocc (hD.nonnull _ _ hocc).1 hn0
      (Or.inr (Or.inl ⟨rfl, rfl⟩))

/-- `Enqueue` of a registered literal that is not falsified, with the null reason or with a
clause of at least two literals as the reason, among which is the literal, the others being
falsified, keeps the invariant. -/
theorem WF_Enqueue (sort : Nat → Nat) (s : Solver) (b : Literal) (r : Int) (h : WF sort s)
    (hocc : (s.data b.lhs b.rhs).occurs = true)
    (hfals : s.model b.lhs = 0 → s.falsifies b (-1) = false)
    (hr : r = kNullRef ∨ (0 < r ∧ 2 ≤ (s.clause r).size ∧ b ∈ (s.clause r).lits ∧
      ∀ a ∈ (s.clause r).lits, a = b ∨ s.falsifies a (-1) = true)) :
    WF sort (Enqueue sort s b r) := by
  have E := Enqueue_eq sort s b r
  by_cases hg : s.model b.lhs = 0 ∧ (b.pos = true ∨ (s.data b.lhs b.rhs).model_neq = false)
  · obtain ⟨hun, hg2⟩ := hg
    have hff := hfals hun
    obtain ⟨hf0, h0⟩ := h.dom.dat.nonnull _ _ hocc
    obtain ⟨hcd, hcn⟩ := occurs_in_capacity s _ _ hocc
    have hcm : b.lhs < s.model_.length := by
      rw [h.dom.dat.capd.1, ← h.dom.dat.capd.2.1]
      exact hcd
    have hneq : (s.data b.lhs b.rhs).model_neq = false := by
      cases hx : (s.data b.lhs b.rhs).model_neq
      · rfl
      · rcases hg2 with hp | hn
        · have : s.falsifies b (-1) = true := (falsifies_iff s b).mpr (Or.inr ⟨hp, Or.inr hx⟩)
          rw [hff] at this
          exact Bool.noConfusion this
        · rw [hx] at hn
          exact Bool.noConfusion hn
    have hr' : r = kNullRef ∨ (r = kDomainRef ∧ b.pos = true) ∨
        (0 < r ∧ 2 ≤ (s.clause r).size ∧ b ∈ (s.clause r).lits ∧
          ∀ a ∈ (s.clause r).lits, a = b ∨ (s.falsifies a (-1) = true ∧ a.rhs ≠ 0)) := by
      rcases hr with hr | ⟨h1, h2, h3, h4⟩
      · exact Or.inl hr
      · refine Or.inr (Or.inr ⟨h1, h2, h3, ?_⟩)
        intro a ha
        rcases h4 a ha with e | e
        · exact Or.inl e
        · exact Or.inr ⟨e, (clause_registered h.dom.dat h.cls r a ha).2.2⟩
    have hdom := DomInv_Enqueue sort s b r h.dom hff (fun _ => hocc)
    have hcls := ClauseInv_Enqueue sort s b r h.cls
    have hst := Enqueue_static sort s b r
    have hcore : DataWF (Enqueue sort s b r) ∧ TrailWF (Enqueue sort s b r) ∧
        (∀ a ∈ (Enqueue sort s b r).trail_, ReasonOK (Enqueue sort s b r) a) ∧
        FreedOK (Enqueue sort s b r) ∧ (Enqueue sort s b r).flagsClear = true := by
      cases hp : b.pos with
      | true =>
        rw [E.2.1 hun hp]
        exact Core_Push (Push_pos s b r hp hcm hcd hcn) h.dat h.trl h.rsn h.freed h.flags hun
          hneq hocc hf0 h0 hr'
      | false =>
        have hP1 := Push_neg s b r (s.domain_size_.getD b.lhs 0 - 1) hp hcd hcn
        have c3 := Core_Push hP1 h.dat h.trl h.rsn h.freed h.flags hun hneq hocc hf0 h0 hr'
        rcases E.2.2 hun hp hneq with ⟨hds, e⟩ | e
        · rw [e]
          have hD3 := DomInv_pushNeg s b s.current_level r h.dom hp hocc hneq
          refine Core_EnqueueDomain sort _ b.lhs hD3.dat ?_ c3.1 c3.2.1 c3.2.2.1 c3.2.2.2.1
            c3.2.2.2.2 ?_ ?_
          · intro g k ho
            rw [hP1.data] at ho
            have ho' : (s.data g k).occurs = true := by
              split at ho
              · exact ho
              · exact ho
            exact h.names g k ho'
          · rw [hP1.model, if_neg (by rw [hp]; exact fun c => Bool.noConfusion c.1)]
            exact hun
          · show (s.domain_size_.set b.lhs (s.domain_size_.getD b.lhs 0 - 1)).getD b.lhs 0 = 1
            rw [getD_set_same _ _ _ _ (by rw [h.dom.dat.cap]; exact hcd)]
            exact hds
        · rw [e]
          have hP := Push_frame hP1 (BumpToFront_trail _ b.lhs) (BumpToFront_level_size_ _ b.lhs)
            (BumpToFront_model_ _ b.lhs) (BumpToFront_data_ _ b.lhs)
            (BumpToFront_static _ b.lhs).2.1
          exact Core_Push hP h.dat h.trl h.rsn h.freed h.flags hun hneq hocc hf0 h0 hr'
    refine ⟨hdom, hcls, hcore.1, hcore.2.1, hcore.2.2.1, hcore.2.2.2.1, ?_, ?_, ?_,
      hcore.2.2.2.2⟩
    · intro f cr hcr
      rw [hst.1] at hcr
      exact h.wpos f cr hcr
    · intro f n ho
      rw [Enqueue_occurs] at ho
      rw [hst.2.2.2.2.1]
      exact h.names f n ho
    · intro f n ho
      rw [Enqueue_occurs] at ho
      rw [hst.2.2.2.1]
      exact h.funcs f n ho
  · rw [E.1 hg]
    exact h

/-! ### The steps of `Propagate` keep the invariant -/

theorem level_of_frame (s t : Solver) (hd : t.data_ = s.data_) (hm : t.model_ = s.model_)
    (a : Literal) : t.level_of a = s.level_of a := by
  unfold level_of
  dsimp only
  rw [model_congr hm, data_congr hd, data_congr hd]

theorem loc_frame (s t : Solver) (hd : t.data_ = s.data_) (hm : t.model_ = s.model_)
    (a : Literal) : t.level_of_complementary a = s.level_of_complementary a := by
  unfold level_of_complementary
  dsimp only
  rw [model_congr hm, data_congr hd, data_congr hd]

theorem reason_of_frame (s t : Solver) (hd : t.data_ = s.data_) (hm : t.model_ = s.model_)
    (a : Literal) : t.reason_of a = s.reason_of a := by
  unfold reason_of
  dsimp only
  rw [model_congr hm, data_congr hd, data_congr hd]

theorem DataWF_frame {s t : Solver} (h : DataWF s) (e4 : t.level_size_ = s.level_size_)
    (e5 : t.model_ = s.model_) (e6 : t.data_ = s.data_) : DataWF t := by
  cases s
  cases t
  dsimp only at e4 e5 e6
  subst e4 e5 e6
  exact ⟨h.cons, h.lev, h.set, h.unset, h.below, h.reg, h.bits, h.root⟩

theorem TrailWF_frame {s t : Solver} (h : TrailWF s) (e3 : t.trail_ = s.trail_)
    (e4 : t.level_size_ = s.level_size_) (e5 : t.model_ = s.model_) (e6 : t.data_ = s.data_) :
    TrailWF t := by
  cases s
  cases t
  dsimp only at e3 e4 e5 e6
  subst e3 e4 e5 e6
  exact ⟨h.recd, h.starts, h.ontr, h.one, h.marks⟩

/-- The invariant is kept when watchers are dropped or rearranged, the literals of clauses
change places and clauses are added to the pool, while the trail, the level marks, `model_`,
`data_`, `domain_size_`, `funcs_` and `names_` stay as they are; the watched clauses are to
have positive references. -/
theorem WF_shuffle {sort : Nat → Nat} {s t : Solver} (h : WF sort s)
    (ef : t.clause_factory_.freed = s.clause_factory_.freed)
    (el : s.clause_factory_.pool.length ≤ t.clause_factory_.pool.length)
    (ec : ∀ cr, cr.toNat < s.clause_factory_.pool.length →
      (t.clause cr).size = (s.clause cr).size ∧
      ∀ a, a ∈ (t.clause cr).lits ↔ a ∈ (s.clause cr).lits)
    (hcls : ClauseInv t)
    (hw : ∀ f, ∀ cr ∈ t.watchers_.getD f [], 0 < cr)
    (e3 : t.trail_ = s.trail_) (e4 : t.level_size_ = s.level_size_)
    (e5 : t.model_ = s.model_) (e6 : t.data_ = s.data_)
    (e7 : t.domain_size_ = s.domain_size_) (e8 : t.funcs_ = s.funcs_)
    (e9 : t.names_ = s.names_) : WF sort t := by
  have hdom : DomInv t :=
    DomInv_frame h.dom e6 e7 e3 e4 (by rw [e5]) (by rw [e8]) (by rw [e9])
  refine ⟨hdom, hcls, DataWF_frame h.dat e4 e5 e6, TrailWF_frame h.trl e3 e4 e5 e6, ?_, ?_, ?_,
    ?_, ?_, ?_⟩
  · intro a ha
    rw [e3] at ha
    unfold ReasonOK
    rw [reason_of_frame s t e6 e5, level_of_frame s t e6 e5]
    rcases h.rsn a ha with hr | hr | ⟨h1, h2, h3, h4⟩
    · exact Or.inl hr
    · exact Or.inr (Or.inl hr)
    · have hin := clause_in_range s _ (Nat.lt_of_lt_of_le (by decide) h2)
      refine Or.inr (Or.inr ⟨h1, ?_, ?_, ?_⟩)
      · rw [(ec _ hin).1]
        exact h2
      · exact ((ec _ hin).2 a).mpr h3
      · intro c hc
        rw [falsifies_frame s t e6 e5, loc_frame s t e6 e5]
        exact h4 c (((ec _ hin).2 c).mp hc)
  · intro cr hcr
    rw [ef] at hcr
    obtain ⟨h1, h2⟩ := h.freed cr hcr
    refine ⟨Nat.lt_of_lt_of_le h1 el, ?_⟩
    rcases h2 with h2 | ⟨a, ha, hs, h0, hl⟩
    · left
      rw [(ec cr h1).1]
      exact h2
    · right
      refine ⟨a, ((ec cr h1).2 a).mpr ha, ?_, h0, ?_⟩
      · rw [satisfies_frame s t e6 e5]
        exact hs
      · rw [level_of_frame s t e6 e5]
        exact hl
  · exact hw
  · intro f n ho
    rw [data_congr e6] at ho
    rw [e9]
    exact h.names f n ho
  · intro f n ho
    rw [data_congr e6] at ho
    rw [e8]
    exact h.funcs f n ho
  · rw [flagsClear_iff]
    intro g k
    rw [data_congr e6]
    exact (flagsClear_iff s).mp h.flags g k

/-- Every step of `Propagate` keeps the invariant. -/
theorem WF_PStep (sort : Nat → Nat) (s t : Solver) (h : WF sort s) (st : PStep sort s t) :
    WF sort t := by
  have hinv := (PStep_inv sort s t ⟨h.dom, h.cls⟩ st).1
  cases st with
  | head hd =>
    exact WF_shuffle h rfl (Nat.le_refl _) (fun _ _ => ⟨rfl, fun _ => Iff.rfl⟩) hinv.2
      h.wpos rfl rfl rfl rfl rfl rfl rfl
  | watch w hw =>
    refine WF_shuffle h rfl (Nat.le_refl _) (fun _ _ => ⟨rfl, fun _ => Iff.rfl⟩) hinv.2 ?_ rfl
      rfl rfl rfl rfl rfl rfl
    intro f cr hcr
    obtain ⟨g, hg⟩ := hw f cr hcr
    exact h.wpos g cr hg
  | swap cr i j hw hi hj =>
    refine WF_shuffle h rfl ?_ ?_ hinv.2 h.wpos rfl rfl rfl rfl rfl rfl rfl
    · show _ ≤ (s.clause_factory_.pool.set cr.toNat _).length
      rw [List.length_set]
    · intro c2 _
      rw [clause_set_eq]
      split
      · rename_i e
        have e1 : s.clause c2 = s.clause cr := by
          unfold clause Factory.get
          rw [e.1]
        rw [e1]
        exact ⟨swap_size _ i j, fun a => swap_mem _ i j hi hj a⟩
      · exact ⟨rfl, fun _ => Iff.rfl⟩
  | enqueue cr b hw hb hnf hoth =>
    obtain ⟨g, hg⟩ := hw
    exact WF_Enqueue sort s b cr h (clause_registered h.dom.dat h.cls cr b hb).1 (fun _ => hnf)
      (Or.inr ⟨h.wpos g cr hg, h.cls.watch g cr hg, hb, hoth⟩)

/-- A clause of at least two literals that are all falsified is held by the factory. -/
theorem Live_of_falsified {sort : Nat → Nat} {s : Solver} (h : WF sort s) (cr : Int)
    (h0 : 0 < cr) (h2 : 2 ≤ (s.clause cr).size)
    (hall : ∀ a ∈ (s.clause cr).lits, s.falsifies a (-1) = true) : Live s cr := by
  refine ⟨h0, clause_in_range s cr (by omega), ?_⟩
  intro hfr
  rcases (h.freed cr hfr).2 with hs | ⟨a, ha, hsat, _, _⟩
  · omega
  · have hf := hall a ha
    rw [falsifies_iff] at hf
    rw [satisfies_iff] at hsat
    rcases hf with ⟨p1, m1⟩ | ⟨p1, m1⟩
    · rcases hsat with ⟨p2, _⟩ | ⟨_, m2⟩
      · rw [p1] at p2
        exact Bool.noConfusion p2
      · rcases m2 with m2 | m2
        · exact m2.2 m1
        · exact h.dat.cons _ _ m2 m1
    · rcases hsat with ⟨_, m2⟩ | ⟨p2, _⟩
      · rcases m1 with m1 | m1
        · exact m1.2 m2
        · exact h.dat.cons _ _ m1 m2
      · rw [p1] at p2
        exact Bool.noConfusion p2

/-- `Propagate` keeps the invariant, and a conflict that it returns is a clause that the
factory holds, with at least two literals, all of which are falsified. -/
theorem WF_Propagate (sort : Nat → Nat) (s : Solver) (h : WF sort s) :
    WF sort (Propagate sort s).1 ∧
    ((Propagate sort s).2 ≠ kNullRef →
      Live (Propagate sort s).1 (Propagate sort s).2 ∧
      2 ≤ ((Propagate sort s).1.clause (Propagate sort s).2).size ∧
      ∀ b ∈ ((Propagate sort s).1.clause (Propagate sort s).2).lits,
        (Propagate sort s).1.falsifies b (-1) = true) := by
  have r := Propagate_spec sort (WF sort) (fun t cr => 0 < cr ∧ 2 ≤ (t.clause cr).size)
    (fun t ht => ht.cls.watch) (WF_PStep sort)
    (fun t cr ht hw => by
      obtain ⟨g, hg⟩ := hw
      exact ⟨ht.wpos g cr hg, ht.cls.watch g cr hg⟩)
    (fun t u cr hq st => by
      refine ⟨hq.1, ?_⟩
      cases st with
      | head hd => exact hq.2
      | watch w hw => exact hq.2
      | swap c2 i j hw hi hj =>
        rw [clause_set_eq]
        split
        · rename_i e
          have e1 : t.clause cr = t.clause c2 := by
            unfold clause Factory.get
            rw [e.1]
          rw [swap_size, ← e1]
          exact hq.2
        · exact hq.2
      | enqueue c2 b hw hb hnf hoth =>
        have : (Enqueue sort t b c2).clause cr = t.clause cr := by
          unfold clause
          rw [(Enqueue_static sort t b c2).2.1]
        rw [this]
        exact hq.2) s h
  refine ⟨r.1, fun hc => ?_⟩
  obtain ⟨⟨h0, h2⟩, hall⟩ := r.2 hc
  exact ⟨Live_of_falsified r.1 _ h0 h2 hall, h2, hall⟩

/-! ### The invariant gives the state in which `Analyze` is called -/

theorem not_satisfied_falsified {s : Solver} (hd : DataWF s) (a : Literal)
    (hs : s.satisfies a (-1) = true) (hf : s.falsifies a (-1) = true) : False := by
  rw [falsifies_iff] at hf
  rw [satisfies_iff] at hs
  rcases hf with ⟨p1, m1⟩ | ⟨p1, m1⟩
  · rcases hs with ⟨p2, _⟩ | ⟨_, m2⟩
    · rw [p1] at p2
      exact Bool.noConfusion p2
    · rcases m2 with m2 | m2
      · exact m2.2 m1
      · exact hd.cons _ _ m2 m1
  · rcases hs with ⟨_, m2⟩ | ⟨p2, _⟩
    · rcases m1 with m1 | m1
      · exact m1.2 m2
      · exact hd.cons _ _ m1 m2
    · rw [p1] at p2
      exact Bool.noConfusion p2

theorem trail_satisfied {s : Solver} (ht : TrailTrue s) (a : Literal) (ha : a ∈ s.trail_) :
    s.satisfies a (-1) = true := by
  obtain ⟨_, hp, hn⟩ := ht a ha
  rw [satisfies_iff]
  cases p : a.pos with
  | true => exact Or.inl ⟨rfl, hp p⟩
  | false => exact Or.inr ⟨rfl, Or.inr (hn p)⟩

theorem Contains_lt (v : List Nat) (x : Nat) (h : DenseSet.Contains v x = true) :
    x < v.length := by
  unfold DenseSet.Contains at h
  simp only [Bool.and_eq_true, bne_iff_ne, ne_eq, beq_iff_eq] at h
  by_contra hc
  rw [List.getD_eq_default _ _ (Nat.le_of_not_lt hc)] at h
  exact h.1 h.2.symm

theorem Consistent_of_DataWF {s : Solver} (hd : DataWF s) : Consistent s :=
  fun f _ n _ => ⟨hd.cons f n, hd.lev f n⟩

theorem TrailOrdered_of_WF {sort : Nat → Nat} {s : Solver} (h : WF sort s) : TrailOrdered s :=
  ⟨⟨fun f _ n _ hn => h.dat.set f n (Or.inl hn),
    fun f _ hm => h.dat.set f _ (Or.inr ⟨rfl, hm⟩)⟩, h.trl.ontr, h.trl.starts, h.trl.one⟩

/-- The reason of a literal of the trail above the root level is a clause that the factory
holds. -/
theorem ReasonsHeld_of_WF {sort : Nat → Nat} {s : Solver} (h : WF sort s) : ReasonsHeld s := by
  intro t ht hlev
  rcases h.rsn t ht with hr | ⟨hr, hp⟩ | ⟨h1, h2, h3, h4⟩
  · exact Or.inl hr
  · have hc := h.funcs _ _ (h.dat.reg _ _ (trail_recorded s h.trl.recd t ht)).1
    exact Or.inr (Or.inl ⟨hr, hp, Contains_lt _ _ hc, hc⟩)
  · refine Or.inr (Or.inr ⟨?_, ⟨h1, clause_in_range s _ (by omega), ?_⟩, ?_⟩)
    · intro e
      rw [e] at h1
      exact absurd h1 (by decide)
    · intro hfr
      rcases (h.freed _ hfr).2 with hs | ⟨a, ha, hsat, _, hl⟩
      · omega
      · rcases h4 a ha with e | ⟨e, _, _⟩
        · rw [e] at hl
          omega
        · exact not_satisfied_falsified h.dat a hsat e
    · intro a ha
      rcases h4 a ha with e | ⟨e1, e2, _⟩
      · exact Or.inl e
      · exact Or.inr ⟨e1, e2⟩

/-- In a solver that meets the invariant, above the root level, a clause that the factory holds
and whose literals are all falsified gives the state in which `Solve` calls `Analyze`. -/
theorem ConflictState_of_WF {sort : Nat → Nat} {s : Solver} (h : WF sort s) (cr : Int)
    (hlev : s.current_level ≠ kRootLevel) (hlive : Live s cr)
    (hall : ∀ b ∈ (s.clause cr).lits, s.falsifies b (-1) = true) :
    ConflictState s cr ∧ TrailOrdered s := by
  refine ⟨⟨h.flags, ?_, hlive, ?_, h.trl.recd, Consistent_of_DataWF h.dat,
    ReasonsHeld_of_WF h⟩, TrailOrdered_of_WF h⟩
  · have := h.dat.root
    omega
  · intro a ha
    exact ⟨hall a ha, (clause_registered h.dom.dat h.cls cr a ha).2.2⟩

/-! ### A decision keeps the invariant -/

theorem WF_CandidateName (sort : Nat → Nat) (s : Solver) (f : Nat) (h : WF sort s) :
    WF sort (CandidateName sort s f).2 := by
  have hst := CandidateName_static sort s f
  exact WF_frame h hst.2.1 hst.1 (CandidateName_trail_ sort s f)
    (CandidateName_level_size_ sort s f) (CandidateName_model_ sort s f)
    (CandidateName_data_ sort s f) (CandidateName_domain_size_ sort s f) hst.2.2.2.1
    hst.2.2.2.2.1

theorem level_of_le {s : Solver} (hd : DataWF s) (a : Literal) :
    s.level_of a ≤ s.current_level := by
  rw [level_of_eq]
  split
  · exact hd.lev _ _
  · exact hd.lev _ _

/-- `NewLevel` keeps the invariant when the new level fits into the bit-field `level`. -/
theorem WF_NewLevel (sort : Nat → Nat) (s : Solver) (h : WF sort s)
    (hb : s.current_level + 1 < 2 ^ 28) : WF sort s.NewLevel := by
  have hcl : s.NewLevel.current_level = s.current_level + 1 := by
    unfold current_level NewLevel
    dsimp only
    rw [List.length_append]
    rfl
  have hget : ∀ L, L < s.current_level →
      s.NewLevel.level_size_.getD L 0 = s.level_size_.getD L 0 := by
    intro L hL
    exact List.getD_append _ _ _ _ hL
  refine ⟨DomInv_NewLevel s h.dom, ⟨h.cls.pool, h.cls.watch⟩, ?_, ?_, h.rsn, h.freed, h.wpos,
    h.names, h.funcs, h.flags⟩
  · refine ⟨h.dat.cons, ?_, h.dat.set, h.dat.unset, h.dat.below, h.dat.reg, ?_, ?_⟩
    · intro f n
      rw [hcl]
      exact Nat.le_succ_of_le (h.dat.lev f n)
    · rw [hcl]
      exact hb
    · rw [hcl]
      exact Nat.le_succ_of_le h.dat.root
  · refine ⟨h.trl.recd, ?_, h.trl.ontr, h.trl.one, ?_⟩
    · intro i hi L hL hroot
      rw [hcl] at hL
      have hlo : s.NewLevel.level_of (s.NewLevel.trail_.getD i Literal.null)
          = s.level_of (s.trail_.getD i Literal.null) := rfl
      rw [hlo]
      by_cases hlt : L < s.current_level
      · rw [hget L hlt]
        exact h.trl.starts i hi L hlt hroot
      · have hLe : L = s.current_level := by omega
        have hval : s.NewLevel.level_size_.getD L 0 = s.trail_.length := by
          rw [hLe]
          show (s.level_size_ ++ [s.trail_.length]).getD s.level_size_.length 0 = _
          rw [List.getD_append_right _ _ _ _ (Nat.le_refl _), Nat.sub_self]
          rfl
        rw [hval]
        have hi' : i < s.trail_.length := hi
        have := level_of_le h.dat (s.trail_.getD i Literal.null)
        constructor
        · intro c
          omega
        · intro c
          omega
    · intro i hi
      have hi' : i < s.level_size_.length + 1 := by
        have : s.NewLevel.level_size_.length = s.level_size_.length + 1 := hcl
        omega
      by_cases hlt : i < s.current_level
      · rw [hget i hlt]
        exact h.trl.marks i hlt
      · have hLe : i = s.level_size_.length := by
          unfold current_level at hlt
          omega
        rw [hLe]
        show (s.level_size_ ++ [s.trail_.length]).getD s.level_size_.length 0 ≤ s.trail_.length
        rw [List.getD_append_right _ _ _ _ (Nat.le_refl _), Nat.sub_self]
        exact Nat.le_refl _

/-- The round of the loop of `Solve` with a decision keeps the invariant. -/
theorem WF_firstDecision (sort : Nat → Nat) (s : Solver) (h : WF sort s)
    (hn : (CandidateName sort (Propagate sort s).1 (Propagate sort s).1.order_.Top).1 ≠ 0)
    (hb : (Propagate sort s).1.current_level + 1 < 2 ^ 28) :
    WF sort (firstDecision sort s) := by
  have h1 := (WF_Propagate sort s h).1
  unfold firstDecision
  dsimp only
  generalize (Propagate sort s).1 = s1 at h1 hn hb
  have hfound := CandidateName_found sort s1 s1.order_.Top
  have h2 := WF_CandidateName sort s1 s1.order_.Top h1
  have hlv := CandidateName_level_size_ sort s1 s1.order_.Top
  have hda := CandidateName_data_ sort s1 s1.order_.Top
  generalize CandidateName sort s1 s1.order_.Top = c at hn hfound h2 hlv hda
  have hb2 : c.2.current_level + 1 < 2 ^ 28 := by
    unfold current_level at hb ⊢
    rw [hlv]
    exact hb
  have h3 := WF_NewLevel sort c.2 h2 hb2
  rcases hfound with e | ⟨hocc, hneq⟩
  · exact absurd e hn
  · have hocc3 : (c.2.NewLevel.data s1.order_.Top c.1).occurs = true := by
      show (c.2.data s1.order_.Top c.1).occurs = true
      rw [data_congr hda]
      exact hocc
    refine WF_Enqueue sort _ (Literal.Eq s1.order_.Top c.1) kNullRef h3 hocc3 ?_ (Or.inl rfl)
    intro hm
    cases hx : c.2.NewLevel.falsifies (Literal.Eq s1.order_.Top c.1) (-1)
    · rfl
    · rw [falsifies_iff] at hx
      rcases hx with ⟨p, _⟩ | ⟨_, m | m⟩
      · exact Bool.noConfusion p
      · exact absurd hm m.1
      · have hm' : (c.2.data s1.order_.Top c.1).model_neq = true := m
        rw [data_congr hda, hneq] at hm'
        exact Bool.noConfusion hm'

/-! ### `Backtrack` keeps the invariant -/

/-- A literal that `Backtrack(l)` pops is a literal of the trail with a level above `l`. -/
theorem popped_level (s : Solver) (hls : LevelStarts s) (l : Nat) (h1 : kRootLevel ≤ l)
    (h2 : l < s.current_level) (b : Literal)
    (hb : b ∈ s.trail_.drop (s.level_size_.getD l 0)) : b ∈ s.trail_ ∧ l < s.level_of b := by
  obtain ⟨j, hj1, hj2, ej⟩ := (mem_drop_iff _ _ _).mp hb
  refine ⟨?_, ?_⟩
  · rw [← ej]
    exact getD_mem _ _ _ hj2
  · have := (hls j hj2 l h2 h1).mp hj1
    rw [ej] at this
    exact this

theorem recorded_of_level {s : Solver} (hd : DataWF s) (g k : Nat)
    (h : (s.data g k).level ≠ 0) : Recorded s g k := by
  by_contra hc
  exact h (hd.unset g k hc)

/-- The literal of a recorded pair with a level above the root level is on the trail and has the
level of the pair. -/
theorem recorded_on_trail {s : Solver} (ht : TrailWF s) (g k : Nat)
    (hr : Recorded s g k) (hl : kRootLevel < (s.data g k).level) :
    ∃ t ∈ s.trail_, t.lhs = g ∧ t.rhs = k ∧ s.level_of t = (s.data g k).level := by
  obtain ⟨hc1, hc2⟩ := level_in_capacity s g k (by omega)
  have hon := ht.ontr g hc1 k hc2 hl
  rcases hr with hn | ⟨hm, h0⟩
  · have hin := hon.1 hn
    exact ⟨_, hin, rfl, rfl, (level_of_trail s _ ht.recd hin).1⟩
  · have hin := hon.2 hm h0
    exact ⟨_, hin, rfl, rfl, (level_of_trail s _ ht.recd hin).1⟩

/-- What `Backtrack(l)` does, for a level `l` from the root level on and below the current
one. -/
theorem Backtrack_Undo (s : Solver) (l : Nat) (hd : DataWF s) (ht : TrailWF s)
    (h1 : kRootLevel ≤ l) (h2 : l < s.current_level) : Undo s (s.Backtrack l) l := by
  have hpop := popped_level s ht.starts l h1 h2
  have hpre : ∀ b ∈ s.trail_.drop (s.level_size_.getD l 0), b.pos = true →
      (s.data b.lhs b.rhs).model_neq = false := by
    intro b hb hp
    have hin := (hpop b hb).1
    have hm := (ht.recd b hin).2.1 hp
    cases hx : (s.data b.lhs b.rhs).model_neq
    · rfl
    · exact absurd hm (hd.cons _ _ hx)
  have hfr := foldl_BacktrackStep_frame (s.trail_.drop (s.level_size_.getD l 0)) s
  have hst := foldl_BacktrackStep_static (s.trail_.drop (s.level_size_.getD l 0)) s
  have hlevel : ∀ b ∈ s.trail_.drop (s.level_size_.getD l 0),
      l < (s.data b.lhs b.rhs).level := by
    intro b hb
    have := hpop b hb
    rw [(level_of_trail s b ht.recd this.1).1] at this
    exact this.2
  constructor
  · show resize Literal.null (s.level_size_.getD l 0)
      ((s.trail_.drop (s.level_size_.getD l 0)).foldl BacktrackStep s).trail_ = _
    rw [hfr.1]
    exact resize_of_le _ _ _ (ht.marks l h2)
  · show resize 0 l ((s.trail_.drop (s.level_size_.getD l 0)).foldl BacktrackStep s).level_size_
      = _
    rw [hfr.2]
    exact resize_of_le _ _ _ (Nat.le_of_lt h2)
  · intro g k hle
    rw [Backtrack_data s l hpre, if_neg]
    intro hany
    rw [List.any_eq_true] at hany
    obtain ⟨b, hb, hpair⟩ := hany
    simp only [Bool.and_eq_true, beq_iff_eq] at hpair
    have := hlevel b hb
    rw [hpair.1, hpair.2] at this
    omega
  · intro g k hlt
    rw [Backtrack_data s l hpre, if_pos]
    obtain ⟨t, hin, e1, e2, e3⟩ := recorded_on_trail ht g k
      (recorded_of_level hd g k (by omega)) (by omega)
    rw [List.any_eq_true]
    refine ⟨t, popped_of_level s ht.starts l h1 h2 t hin (by rw [e3]; exact hlt), ?_⟩
    simp only [Bool.and_eq_true, beq_iff_eq]
    exact ⟨e1, e2⟩
  · intro g
    rw [Backtrack_model]
    by_cases hlt : l < (s.data g (s.model g)).level
    · rw [if_pos hlt, if_pos]
      obtain ⟨t, hin, e1, _, e3⟩ := recorded_on_trail ht g (s.model g)
        (recorded_of_level hd g _ (by omega)) (by omega)
      rw [List.any_eq_true]
      refine ⟨t, popped_of_level s ht.starts l h1 h2 t hin (by rw [e3]; exact hlt), ?_⟩
      simp only [beq_iff_eq]
      exact e1
    · rw [if_neg hlt]
      by_cases hm : s.model g = 0
      · rw [hm]
        split <;> rfl
      · rw [if_neg]
        intro hany
        rw [List.any_eq_true] at hany
        obtain ⟨b, hb, hlhs⟩ := hany
        simp only [beq_iff_eq] at hlhs
        have hin := (hpop b hb).1
        have hlb := hlevel b hb
        cases hp : b.pos with
        | true =>
          have := (ht.recd b hin).2.1 hp
          rw [hlhs] at this
          rw [hlhs, ← this] at hlb
          omega
        | false =>
          have hn := (ht.recd b hin).2.2 hp
          rw [hlhs] at hn hlb
          have := hd.below g b.rhs hn hm
          omega
  · exact hst.1

theorem Undo_current_level {s t : Solver} {l : Nat} (h : Undo s t l)
    (hl : l < s.current_level) : t.current_level = l := by
  unfold current_level at hl ⊢
  rw [h.levels, List.length_take]
  omega

/-- `Backtrack(l)` keeps what is recorded at the levels up to `l`. -/
theorem Undo_Keeps {s t : Solver} {l : Nat} (h : Undo s t l) : Keeps l s t := by
  constructor
  · intro g _ hle
    rw [h.model, if_neg (by omega)]
  · intro g k _ hle
    exact h.keep g k hle
  · intro g k hn
    left
    by_cases hle : (s.data g k).level ≤ l
    · rw [h.keep g k hle] at hn
      exact hn
    · rw [h.reset g k (by omega)] at hn
      exact Bool.noConfusion hn
  · exact h.factory

theorem Undo_recorded {s t : Solver} {l : Nat} (h : Undo s t l) (g k : Nat) :
    Recorded t g k ↔ (Recorded s g k ∧ (s.data g k).level ≤ l) := by
  constructor
  · intro hr
    by_cases hle : (s.data g k).level ≤ l
    · refine ⟨?_, hle⟩
      rcases hr with hn | ⟨hm, h0⟩
      · rw [h.keep g k hle] at hn
        exact Or.inl hn
      · rw [h.model] at hm
        split at hm
        · exact absurd hm.symm h0
        · exact Or.inr ⟨hm, h0⟩
    · exfalso
      rcases hr with hn | ⟨hm, h0⟩
      · rw [h.reset g k (by omega)] at hn
        exact Bool.noConfusion hn
      · rw [h.model] at hm
        split at hm
        · exact absurd hm.symm h0
        · rename_i c
          rw [hm] at c
          exact c (by omega)
  · rintro ⟨hr, hle⟩
    rcases hr with hn | ⟨hm, h0⟩
    · left
      rw [h.keep g k hle]
      exact hn
    · right
      refine ⟨?_, h0⟩
      rw [h.model, if_neg (by rw [hm]; omega)]
      exact hm

/-- `Backtrack(l)` keeps the invariant of `model_` and `data_`. -/
theorem DataWF_Undo {s t : Solver} {l : Nat} (hd : DataWF s) (h : Undo s t l)
    (h1 : kRootLevel ≤ l) (h2 : l < s.current_level) : DataWF t := by
  have hcl := Undo_current_level h h2
  have hrec := Undo_recorded h
  have hdata : ∀ g k, Recorded t g k → t.data g k = s.data g k :=
    fun g k hr => h.keep g k ((hrec g k).mp hr).2
  constructor
  · intro g k hn
    have hr := (hrec g k).mp (Or.inl hn)
    rw [h.keep g k hr.2] at hn
    have hk0 := (hd.reg g k hr.1).2.2
    rw [h.model]
    split
    · exact fun e => hk0 e.symm
    · exact hd.cons g k hn
  · intro g k
    rw [hcl]
    by_cases hle : (s.data g k).level ≤ l
    · rw [h.keep g k hle]
      exact hle
    · rw [h.reset g k (by omega)]
      exact Nat.zero_le _
  · intro g k hr
    rw [hdata g k hr]
    exact hd.set g k ((hrec g k).mp hr).1
  · intro g k hr
    by_cases hle : (s.data g k).level ≤ l
    · rw [h.keep g k hle]
      exact hd.unset g k (fun e => hr ((hrec g k).mpr ⟨e, hle⟩))
    · rw [h.reset g k (by omega)]
      rfl
  · intro g k hn hm
    have hr := (hrec g k).mp (Or.inl hn)
    rw [h.keep g k hr.2] at hn ⊢
    rw [h.model] at hm ⊢
    split
    · rename_i c
      rw [if_pos c] at hm
      exact absurd rfl hm
    · rename_i c
      rw [if_neg c] at hm
      rw [h.keep g _ (by omega)]
      exact hd.below g k hn hm
  · intro g k hr
    rw [hdata g k hr]
    exact hd.reg g k ((hrec g k).mp hr).1
  · rw [hcl]
    exact Nat.lt_trans h2 hd.bits
  · rw [hcl]
    exact h1

/-! ### The trail after `Backtrack` -/

theorem getD_take_of_lt (l : List Literal) (n i : Nat) (h : i < n) :
    (l.take n).getD i Literal.null = l.getD i Literal.null := by
  simp only [List.getD_eq_getElem?_getD, List.getElem?_take, if_pos h]

theorem getD_take_nat (l : List Nat) (n i : Nat) (h : i < n) :
    (l.take n).getD i 0 = l.getD i 0 := by
  simp only [List.getD_eq_getElem?_getD, List.getElem?_take, if_pos h]

/-- A literal that `Backtrack(l)` leaves on the trail has a level up to `l`. -/
theorem kept_level {s t : Solver} {l : Nat} (ht : TrailWF s) (h : Undo s t l)
    (h1 : kRootLevel ≤ l) (h2 : l < s.current_level) (a : Literal) (ha : a ∈ t.trail_) :
    a ∈ s.trail_ ∧ s.level_of a ≤ l := by
  rw [h.trail] at ha
  obtain ⟨i, hi, e⟩ := (mem_iff_getD _ _).mp ha
  rw [List.length_take] at hi
  rw [getD_take_of_lt _ _ _ (by omega)] at e
  refine ⟨?_, ?_⟩
  · rw [← e]
    exact getD_mem _ _ _ (by omega)
  · by_contra hc
    have := (ht.starts i (by omega) l h2 h1).mpr (by rw [e]; omega)
    omega

/-- `Backtrack(l)` keeps the invariant of the trail. -/
theorem TrailWF_Undo {s t : Solver} {l : Nat} (ht : TrailWF s)
    (hmono : ∀ i j, i ≤ j → j < s.level_size_.length →
      s.level_size_.getD i 0 ≤ s.level_size_.getD j 0)
    (h : Undo s t l) (h1 : kRootLevel ≤ l) (h2 : l < s.current_level) : TrailWF t := by
  have hk := Undo_Keeps h
  have hcl := Undo_current_level h h2
  have hkept := kept_level ht h h1 h2
  have hlen : t.trail_.length = s.level_size_.getD l 0 := by
    rw [h.trail, List.length_take]
    exact Nat.min_eq_left (ht.marks l h2)
  have hget : ∀ i, i < t.trail_.length →
      t.trail_.getD i Literal.null = s.trail_.getD i Literal.null := by
    intro i hi
    rw [h.trail]
    exact getD_take_of_lt _ _ _ (by omega)
  have hlt : ∀ i, i < t.trail_.length → i < s.trail_.length := by
    intro i hi
    have := ht.marks l h2
    omega
  refine ⟨?_, ?_, ?_, ?_, ?_⟩
  · intro a ha
    obtain ⟨hin, hle⟩ := hkept a ha
    have := Keeps_trail hk ht.recd a hin hle
    exact ⟨this.1, this.2.1, this.2.2.1⟩
  · intro i hi L hL hroot
    rw [hcl] at hL
    have hin : t.trail_.getD i Literal.null ∈ t.trail_ := getD_mem _ _ _ hi
    obtain ⟨hin2, hle⟩ := hkept _ hin
    rw [(Keeps_trail hk ht.recd _ hin2 hle).2.2.2.2.1, hget i hi, h.levels,
      getD_take_nat _ _ _ hL]
    exact ht.starts i (hlt i hi) L (by omega) hroot
  · intro g hg k hkc hroot
    have hle : (s.data g k).level ≤ l := by
      by_contra hc
      rw [h.reset g k (by omega)] at hroot
      exact Nat.not_lt_zero _ hroot
    have hdat := h.keep g k hle
    rw [hdat] at hroot
    have hkeep : ∀ a ∈ s.trail_, s.level_of a ≤ l → a ∈ t.trail_ := by
      intro a ha hla
      obtain ⟨i, hi, e⟩ := (mem_iff_getD _ _).mp ha
      have hi2 : i < s.level_size_.getD l 0 := by
        by_contra hc
        have := (ht.starts i hi l h2 h1).mp (by omega)
        rw [e] at this
        omega
      rw [← e, ← hget i (by omega)]
      exact getD_mem _ _ _ (by omega)
    obtain ⟨hc1, hc2⟩ := level_in_capacity s g k (by omega)
    have hon := ht.ontr g hc1 k hc2 hroot
    constructor
    · intro hn
      rw [hdat] at hn
      have hin := hon.1 hn
      apply hkeep _ hin
      rw [(level_of_trail s _ ht.recd hin).1]
      exact hle
    · intro hm hk0
      have hr := ((Undo_recorded h g k).mp (Or.inr ⟨hm, hk0⟩)).1
      have hm' : s.model g = k := by
        rcases hr with hn | ⟨e, _⟩
        · rw [h.model] at hm
          split at hm
          · exact absurd hm.symm hk0
          · exact hm
        · exact e
      have hin := hon.2 hm' hk0
      apply hkeep _ hin
      rw [(level_of_trail s _ ht.recd hin).1]
      exact hle
  · intro j hj i hij hlhs
    rw [hget j hj, hget i (by omega)] at hlhs ⊢
    exact ht.one j (hlt j hj) i hij hlhs
  · intro i hi
    rw [h.levels] at hi ⊢
    rw [List.length_take] at hi
    rw [getD_take_nat _ _ _ (by omega), hlen]
    exact hmono i l (by omega) h2

theorem BacktrackStep_names (s : Solver) (a : Literal) :
    (BacktrackStep s a).names_ = s.names_ ∧ (BacktrackStep s a).funcs_ = s.funcs_ := by
  unfold BacktrackStep
  dsimp only
  split
  · split
    · exact ⟨rfl, rfl⟩
    · exact ⟨rfl, rfl⟩
  · exact ⟨rfl, rfl⟩

theorem foldl_BacktrackStep_names (seg : List Literal) : ∀ s : Solver,
    (seg.foldl BacktrackStep s).names_ = s.names_ ∧
    (seg.foldl BacktrackStep s).funcs_ = s.funcs_ := by
  induction seg with
  | nil =>
    intro s
    exact ⟨rfl, rfl⟩
  | cons a seg ih =>
    intro s
    rw [List.foldl_cons]
    obtain ⟨h1, h2⟩ := ih (BacktrackStep s a)
    exact ⟨h1.trans (BacktrackStep_names s a).1, h2.trans (BacktrackStep_names s a).2⟩

theorem flags_Undo {s t : Solver} {l : Nat} (h : Undo s t l) (hf : s.flagsClear = true) :
    t.flagsClear = true := by
  rw [flagsClear_iff] at hf ⊢
  intro g k
  by_cases hle : (s.data g k).level ≤ l
  · rw [h.keep g k hle]
    exact hf g k
  · rw [h.reset g k (by omega)]
    exact hf g k

/-- `Backtrack(l)`, for a level `l` from the root level on and below the current one, keeps the
invariant. -/
theorem WF_Backtrack (sort : Nat → Nat) (s : Solver) (l : Nat) (h : WF sort s)
    (h1 : kRootLevel ≤ l) (h2 : l < s.current_level) : WF sort (s.Backtrack l) := by
  have hU := Backtrack_Undo s l h.dat h.trl h1 h2
  have hk := Undo_Keeps hU
  have hst := foldl_BacktrackStep_static (s.trail_.drop (s.level_size_.getD l 0)) s
  have hnm := foldl_BacktrackStep_names (s.trail_.drop (s.level_size_.getD l 0)) s
  have hocc : ∀ g k, ((s.Backtrack l).data g k).occurs = (s.data g k).occurs := hst.2.2
  refine ⟨DomInv_Backtrack s l h.dom h1 h2, ClauseInv_Backtrack s l h.cls,
    DataWF_Undo h.dat hU h1 h2, TrailWF_Undo h.trl h.dom.levels hU h1 h2, ?_,
    Keeps_FreedOK hk h1 h.freed, ?_, ?_, ?_, flags_Undo hU h.flags⟩
  · intro a ha
    obtain ⟨hin, hle⟩ := kept_level h.trl hU h1 h2 a ha
    exact Keeps_ReasonOK hk h.trl.recd a hin hle (h.rsn a hin)
  · intro f cr hcr
    have e : (s.Backtrack l).watchers_ = s.watchers_ := hst.2.1
    rw [e] at hcr
    exact h.wpos f cr hcr
  · intro f n ho
    rw [hocc] at ho
    have e : (s.Backtrack l).names_ = s.names_ := hnm.1
    rw [e]
    exact h.names f n ho
  · intro f n ho
    rw [hocc] at ho
    have e : (s.Backtrack l).funcs_ = s.funcs_ := hnm.2
    rw [e]
    exact h.funcs f n ho

/-! ### `Analyze` keeps the invariant, and the learnt clause is registered -/

theorem handle_conflict_registered (s : Solver) (st : AnalyzeState) (a : Literal)
    (h : LearntRegistered s st) (ha : (s.data a.lhs a.rhs).occurs = true) :
    LearntRegistered s (handle_conflict st a) := by
  obtain ⟨hfr, hne, hreg⟩ := h
  rcases handle_conflict_cases st a with ⟨e, _⟩ | ⟨e, _⟩ | ⟨e, _⟩
  · rw [e]
    exact ⟨hfr, hne, hreg⟩
  · have hfr2 : Frame s ((st.s.see_subsuming a).Bump a.lhs) :=
      Frame_trans _ _ _ hfr (Frame_trans _ _ _ (see_frame _ a) (Frame_Bump _ _))
    generalize (st.s.see_subsuming a).Bump a.lhs = t at e hfr2
    rw [e]
    refine ⟨hfr2, ?_, ?_⟩
    · exact fun c => hne (List.append_eq_nil.mp c).1
    · intro b hb
      have hb' : b ∈ (st.learnt ++ [a]).tail := hb
      rw [tail_snoc _ _ hne] at hb'
      rcases List.mem_append.mp hb' with hb' | hb'
      · exact hreg b hb'
      · rw [List.mem_singleton.mp hb']
        exact ha
  · have hfr2 : Frame s ((st.s.want_complementary_on_level a
        (st.s.level_of_complementary a)).Bump a.lhs) :=
      Frame_trans _ _ _ hfr (Frame_trans _ _ _ (want_frame _ a _) (Frame_Bump _ _))
    generalize (st.s.want_complementary_on_level a
      (st.s.level_of_complementary a)).Bump a.lhs = t at e hfr2
    rw [e]
    exact ⟨hfr2, hne, hreg⟩

theorem foldl_registered {α : Type} (s : Solver) (F : AnalyzeState → α → AnalyzeState)
    (l : List α) :
    (∀ t x, x ∈ l → LearntRegistered s t → LearntRegistered s (F t x)) →
    ∀ st, LearntRegistered s st → LearntRegistered s (l.foldl F st) := by
  induction l with
  | nil =>
    intro _ st h
    exact h
  | cons x xs ih =>
    intro hF st h
    rw [List.foldl_cons]
    exact ih (fun t y hy ht => hF t y (List.mem_cons_of_mem _ hy) ht) _
      (hF st x (List.mem_cons_self _ _) h)

theorem AnalyzePass_registered (sort : Nat → Nat) (s : Solver) (st : AnalyzeState)
    (conflict : Int)
    (hpool : ∀ c ∈ s.clause_factory_.pool, ∀ a ∈ c.lits, (s.data a.lhs a.rhs).occurs = true)
    (h : LearntRegistered s st) : LearntRegistered s (AnalyzePass sort st conflict) := by
  unfold AnalyzePass
  split
  · dsimp only
    apply foldl_registered s _ _ _ st h
    intro t n _ ht
    split
    · rename_i hc
      simp only [Bool.and_eq_true] at hc
      apply handle_conflict_registered s t _ ht
      have := (ht.1.data st.trail_a.lhs n).2.2.2
      show (s.data st.trail_a.lhs n).occurs = true
      rw [← this]
      exact hc.2
    · exact ht
  · apply foldl_registered s _ _ _ st h
    intro t a ha ht
    apply handle_conflict_registered s t a ht
    rw [Frame_clause s st.s h.1] at ha
    exact hpool _ (clause_mem_pool s conflict (List.length_pos_of_mem ha)) a ha

theorem AnalyzeRound_registered (sort : Nat → Nat) (s : Solver) (st : AnalyzeState)
    (conflict : Int)
    (hpool : ∀ c ∈ s.clause_factory_.pool, ∀ a ∈ c.lits, (s.data a.lhs a.rhs).occurs = true)
    (h : LearntRegistered s st) : LearntRegistered s (AnalyzeRound sort st conflict) := by
  have h1 := AnalyzePass_registered sort s st conflict hpool h
  unfold AnalyzeRound
  dsimp only
  generalize AnalyzePass sort st conflict = st1 at h1 ⊢
  exact ⟨Frame_trans _ _ _ h1.1 (setWanted_frame st1.s _ _ false), h1.2.1, h1.2.2⟩

theorem AnalyzeLoop_registered (sort : Nat → Nat) (s : Solver)
    (hpool : ∀ c ∈ s.clause_factory_.pool, ∀ a ∈ c.lits, (s.data a.lhs a.rhs).occurs = true) :
    ∀ (fuel : Nat) (st : AnalyzeState) (conflict : Int), LearntRegistered s st →
      LearntRegistered s (AnalyzeLoop sort fuel st conflict) := by
  intro fuel
  induction fuel with
  | zero =>
    intro st conflict h
    exact h
  | succ fuel ih =>
    intro st conflict h
    have h2 := AnalyzeRound_registered sort s st conflict hpool h
    rw [AnalyzeLoop_succ]
    split
    · exact ih _ _ h2
    · exact h2

/-- The literals of the clause that `Analyze` returns are registered. -/
theorem Analyze_registered (sort : Nat → Nat) (s : Solver) (conflict : Int)
    (hpool : ∀ c ∈ s.clause_factory_.pool, ∀ a ∈ c.lits, (s.data a.lhs a.rhs).occurs = true)
    (htr : (AnalyzeLoop sort (s.trail_.length + 1) (AnalyzeStart s) conflict).trail_a
      ∈ s.trail_)
    (hocc : ∀ t ∈ s.trail_, (s.data t.lhs t.rhs).occurs = true) :
    ∀ a ∈ (Analyze sort s conflict).2.1, (s.data a.lhs a.rhs).occurs = true := by
  have h0 : LearntRegistered s (AnalyzeStart s) :=
    ⟨Frame_refl s, by simp [AnalyzeStart], fun b hb => by simp [AnalyzeStart] at hb⟩
  have h := AnalyzeLoop_registered sort s hpool (s.trail_.length + 1) (AnalyzeStart s) conflict h0
  intro a ha
  rw [Analyze_mem sort s conflict _ _ rfl rfl] at ha
  have ha2 := normalize_subset _ _ ha
  generalize AnalyzeLoop sort (s.trail_.length + 1) (AnalyzeStart s) conflict = st at h htr ha2
  rw [set_zero _ _ h.2.1] at ha2
  rcases List.mem_cons.mp ha2 with e | e
  · rw [e]
    exact hocc st.trail_a htr
  · exact h.2.2 a e

/-- When the flags of the analysis are clear before and after, `data_` is as it was. -/
theorem Frame_data_ {s t : Solver} (h : Frame s t) (hs : s.flagsClear = true)
    (ht : t.flagsClear = true) : t.data_ = s.data_ := by
  rw [flagsClear_iff] at hs ht
  apply List.ext_getElem h.rows.1
  intro g h1 h2
  have hrow : ∀ u : Solver, ∀ hu : g < u.data_.length, u.data_[g] = u.data_.getD g [] :=
    fun u hu => (List.getD_eq_getElem _ _ hu).symm
  rw [hrow t h1, hrow s h2]
  apply List.ext_getElem (h.rows.2 g)
  intro k h3 h4
  have hent : ∀ u : Solver, ∀ hu : k < (u.data_.getD g []).length,
      (u.data_.getD g [])[k] = u.data g k :=
    fun u hu => (List.getD_eq_getElem _ _ hu).symm
  rw [hent t h3, hent s h4]
  obtain ⟨d1, d2, d3, d4⟩ := h.data g k
  obtain ⟨a1, a2⟩ := hs g k
  obtain ⟨b1, b2⟩ := ht g k
  generalize t.data g k = x at d1 d2 d3 d4 b1 b2
  generalize s.data g k = y at d1 d2 d3 d4 a1 a2
  cases x
  cases y
  simp only [Data.mk.injEq]
  dsimp only at d1 d2 d3 d4 a1 a2 b1 b2
  exact ⟨b1.trans a1.symm, b2.trans a2.symm, d4, d1, d2, d3⟩

/-- A solver that differs from one that meets the invariant in the activities and the order heap
only meets the invariant. -/
theorem WF_of_Frame {sort : Nat → Nat} {s t : Solver} (h : WF sort s) (hfr : Frame s t)
    (ht : t.flagsClear = true) : WF sort t :=
  WF_frame h hfr.factory hfr.watchers hfr.trail hfr.levels hfr.model
    (Frame_data_ hfr h.flags ht) hfr.sizes hfr.funcs hfr.names

/-! ### A round with a conflict keeps the invariant -/

/-- When the flags of the analysis are clear on entry and every backward scan of `Analyze`
stops at a literal of the trail, the flags are clear on return. -/
theorem Analyze_flags (sort : Nat → Nat) (s : Solver) (conflict : Int)
    (h0 : s.flagsClear = true)
    (hdef : AnalyzeDefined sort (s.trail_.length + 1) (AnalyzeStart s) conflict = true) :
    (Analyze sort s conflict).1.flagsClear = true := by
  rw [flagsClear_iff] at h0 ⊢
  have inv0 : AnaInv (AnalyzeStart s) := by
    constructor
    · intro e
      exact absurd e (by simp [AnalyzeStart])
    · intro g k hg
      have hg' : (s.data g k).seen_subsumed = true := hg
      rw [(h0 g k).1] at hg'
      exact absurd hg' (by decide)
    · have e : s.wantedCount = 0 := (wantedCount_eq_zero_iff s).mpr (fun g k => (h0 g k).2)
      show (s.wantedCount : Int) ≤ 0
      rw [e]
      rfl
  have r := AnalyzeLoop_inv sort _ (AnalyzeStart s) conflict inv0 hdef
  rw [Analyze_fst]
  generalize AnalyzeLoop sort (s.trail_.length + 1) (AnalyzeStart s) conflict = st at r ⊢
  obtain ⟨inv, hdepth⟩ := r
  have hw0 : st.s.wantedCount = 0 := by
    have := inv.wanted
    omega
  have hw := (wantedCount_eq_zero_iff st.s).mp hw0
  have c := clear_fold (st.learnt.set 0 st.trail_a.flip) st.s
  intro g k
  constructor
  · cases hx : ((List.foldl (fun t a => t.setData a.lhs a.rhs
        { t.data a.lhs a.rhs with seen_subsumed := false }) st.s
        (st.learnt.set 0 st.trail_a.flip)).data g k).seen_subsumed
    · rfl
    · exfalso
      have c2 := c.2 g k hx
      obtain ⟨b, hb, hb2⟩ := inv.seen g k c2.1
      apply c2.2 b _ hb2
      cases hl : st.learnt with
      | nil => exact absurd hl inv.nonempty
      | cons x rest =>
        rw [hl] at hb
        exact List.mem_cons_of_mem _ hb
  · rw [c.1]
    exact hw g k

theorem clause_append_old (s : Solver) (c : Clause) (fr : List Int) (cr : Int)
    (h : cr.toNat < s.clause_factory_.pool.length) :
    ({ s with clause_factory_ := ⟨s.clause_factory_.pool ++ [c], fr⟩ } : Solver).clause cr
      = s.clause cr := by
  unfold clause Factory.get
  exact List.getD_append _ _ _ _ h

theorem clause_append_new (s : Solver) (c : Clause) (fr : List Int) :
    ({ s with clause_factory_ := ⟨s.clause_factory_.pool ++ [c], fr⟩ } : Solver).clause
      (s.clause_factory_.pool.length : Int) = c := by
  unfold clause Factory.get
  show (s.clause_factory_.pool ++ [c]).getD ((s.clause_factory_.pool.length : Int).toNat) _ = c
  rw [Int.toNat_ofNat, List.getD_append_right _ _ _ _ (Nat.le_refl _), Nat.sub_self]
  rfl

/-- Storing, watching and enqueueing a clause of registered literals of which the first is not
falsified and the others are falsified keeps the invariant; so does enqueueing its literal
when it has only one. -/
theorem WF_learn (sort : Nat → Nat) (s : Solver) (L : List Literal) (h : WF sort s)
    (hocc : ∀ a ∈ L, (s.data a.lhs a.rhs).occurs = true) (hne : L ≠ [])
    (h0 : s.falsifies (L.getD 0 Literal.null) (-1) = false)
    (hrest : ∀ b ∈ L.drop 1, s.falsifies b (-1) = true)
    (hpool : 0 < s.clause_factory_.pool.length) :
    WF sort (if L.length == 1 then Enqueue sort s (L.getD 0 Literal.null) kNullRef
      else
        let nw := s.clause_factory_.NewNormalized L
        let s4 : Solver := { s with clause_factory_ := nw.2 }
        let s5 : Solver := { s4 with clauses_ := s4.clauses_ ++ [nw.1] }
        let s6 := s5.UpdateWatchers nw.1 (s4.clause nw.1)
        Enqueue sort s6 ((s4.clause nw.1).get 0) nw.1) := by
  have hhead : L.getD 0 Literal.null ∈ L := by
    cases L with
    | nil => exact absurd rfl hne
    | cons x xs => exact List.mem_cons_self _ _
  have hsplit : ∀ a ∈ L, a = L.getD 0 Literal.null ∨ a ∈ L.drop 1 := by
    intro a ha
    cases L with
    | nil => exact absurd rfl hne
    | cons x xs =>
      rcases List.mem_cons.mp ha with e | e
      · exact Or.inl e
      · exact Or.inr e
  split
  · exact WF_Enqueue sort s _ kNullRef h (hocc _ hhead) (fun _ => h0) (Or.inl rfl)
  · rename_i hlen
    have hlen2 : 2 ≤ L.length := by
      have h1 : L.length ≠ 1 := by simpa using hlen
      have h2 : L.length ≠ 0 := fun e => hne (List.length_eq_zero.mp e)
      omega
    show WF sort (Enqueue sort
      (({ ({ s with clause_factory_ := (s.clause_factory_.NewNormalized L).2 } : Solver) with
          clauses_ := ({ s with clause_factory_ := (s.clause_factory_.NewNormalized L).2 }
            : Solver).clauses_ ++ [(s.clause_factory_.NewNormalized L).1] } : Solver).UpdateWatchers
        (s.clause_factory_.NewNormalized L).1
        (({ s with clause_factory_ := (s.clause_factory_.NewNormalized L).2 } : Solver).clause
          (s.clause_factory_.NewNormalized L).1))
      ((({ s with clause_factory_ := (s.clause_factory_.NewNormalized L).2 } : Solver).clause
        (s.clause_factory_.NewNormalized L).1).get 0) (s.clause_factory_.NewNormalized L).1)
    have hnew : ({ s with clause_factory_ := (s.clause_factory_.NewNormalized L).2 }
        : Solver).clause (s.clause_factory_.NewNormalized L).1 = ⟨false, L⟩ :=
      clause_append_new s ⟨false, L⟩ s.clause_factory_.freed
    have hold : ∀ c2 : Int, c2.toNat < s.clause_factory_.pool.length →
        ({ s with clause_factory_ := (s.clause_factory_.NewNormalized L).2 } : Solver).clause c2
          = s.clause c2 :=
      clause_append_old s ⟨false, L⟩ s.clause_factory_.freed
    have e4 : ({ s with clause_factory_ := (s.clause_factory_.NewNormalized L).2 }
          : Solver).clause_factory_.pool = s.clause_factory_.pool ++ [⟨false, L⟩] ∧
        ({ s with clause_factory_ := (s.clause_factory_.NewNormalized L).2 }
          : Solver).clause_factory_.freed = s.clause_factory_.freed ∧
        ({ s with clause_factory_ := (s.clause_factory_.NewNormalized L).2 }
          : Solver).watchers_ = s.watchers_ ∧
        ({ s with clause_factory_ := (s.clause_factory_.NewNormalized L).2 }
          : Solver).trail_ = s.trail_ ∧
        ({ s with clause_factory_ := (s.clause_factory_.NewNormalized L).2 }
          : Solver).level_size_ = s.level_size_ ∧
        ({ s with clause_factory_ := (s.clause_factory_.NewNormalized L).2 }
          : Solver).model_ = s.model_ ∧
        ({ s with clause_factory_ := (s.clause_factory_.NewNormalized L).2 }
          : Solver).data_ = s.data_ ∧
        ({ s with clause_factory_ := (s.clause_factory_.NewNormalized L).2 }
          : Solver).domain_size_ = s.domain_size_ ∧
        ({ s with clause_factory_ := (s.clause_factory_.NewNormalized L).2 }
          : Solver).funcs_ = s.funcs_ ∧
        ({ s with clause_factory_ := (s.clause_factory_.NewNormalized L).2 }
          : Solver).names_ = s.names_ :=
      ⟨rfl, rfl, rfl, rfl, rfl, rfl, rfl, rfl, rfl, rfl⟩
    have hcr : (0 : Int) < (s.clause_factory_.NewNormalized L).1 := by
      show (0 : Int) < (s.clause_factory_.pool.length : Int)
      omega
    generalize ({ s with clause_factory_ := (s.clause_factory_.NewNormalized L).2 }
      : Solver) = s4 at hnew hold e4 ⊢
    generalize (s.clause_factory_.NewNormalized L).1 = cr at hnew hcr ⊢
    rw [hnew]
    have hcl6 : ∀ c2, (({ s4 with clauses_ := s4.clauses_ ++ [cr] } : Solver).UpdateWatchers cr
        ⟨false, L⟩).clause c2 = s4.clause c2 := fun _ => rfl
    have hwf6 : WF sort (({ s4 with clauses_ := s4.clauses_ ++ [cr] } : Solver).UpdateWatchers cr
        ⟨false, L⟩) := by
      have hwat : ∀ f, ∀ c2 ∈ (({ s4 with clauses_ := s4.clauses_ ++ [cr] }
          : Solver).UpdateWatchers cr ⟨false, L⟩).watchers_.getD f [],
          c2 = cr ∨ c2 ∈ s.watchers_.getD f [] := by
        intro f c2 hc2
        rcases mem_UpdateWatchers _ _ _ _ _ hc2 with e | e
        · exact Or.inl e
        · right
          have e' : c2 ∈ s4.watchers_.getD f [] := e
          rw [e4.2.2.1] at e'
          exact e'
      refine WF_shuffle h e4.2.1 ?_ ?_ ?_ ?_ e4.2.2.2.1 e4.2.2.2.2.1 e4.2.2.2.2.2.1
        e4.2.2.2.2.2.2.1 e4.2.2.2.2.2.2.2.1 e4.2.2.2.2.2.2.2.2.1 e4.2.2.2.2.2.2.2.2.2
      · show _ ≤ s4.clause_factory_.pool.length
        rw [e4.1, List.length_append]
        exact Nat.le_add_right _ _
      · intro c2 hc2
        rw [hcl6, hold c2 hc2]
        exact ⟨rfl, fun _ => Iff.rfl⟩
      · constructor
        · intro c hc a ha
          have hc' : c ∈ s4.clause_factory_.pool := hc
          rw [e4.1] at hc'
          show (s4.data a.lhs a.rhs).occurs = true
          rw [data_congr e4.2.2.2.2.2.2.1]
          rcases List.mem_append.mp hc' with hc' | hc'
          · exact h.cls.pool c hc' a ha
          · rw [List.mem_singleton.mp hc'] at ha
            exact hocc a ha
        · intro f c2 hc2
          rw [hcl6]
          rcases hwat f c2 hc2 with e | e
          · rw [e, hnew]
            exact hlen2
          · have hsz := h.cls.watch f c2 e
            rw [hold c2 (clause_in_range s c2 (by omega))]
            exact hsz
      · intro f c2 hc2
        rcases hwat f c2 hc2 with e | e
        · rw [e]
          exact hcr
        · exact h.wpos f c2 e
    have hdat6 : (({ s4 with clauses_ := s4.clauses_ ++ [cr] } : Solver).UpdateWatchers cr
        ⟨false, L⟩).data_ = s.data_ := e4.2.2.2.2.2.2.1
    have hmod6 : (({ s4 with clauses_ := s4.clauses_ ++ [cr] } : Solver).UpdateWatchers cr
        ⟨false, L⟩).model_ = s.model_ := e4.2.2.2.2.2.1
    generalize (({ s4 with clauses_ := s4.clauses_ ++ [cr] } : Solver).UpdateWatchers cr
        ⟨false, L⟩) = s6 at hwf6 hcl6 hdat6 hmod6
    have hc6 : s6.clause cr = ⟨false, L⟩ := by rw [hcl6, hnew]
    refine WF_Enqueue sort s6 _ cr hwf6 ?_ ?_ (Or.inr ⟨hcr, ?_, ?_, ?_⟩)
    · show (s6.data (L.getD 0 Literal.null).lhs (L.getD 0 Literal.null).rhs).occurs = true
      rw [data_congr hdat6]
      exact hocc _ hhead
    · intro _
      show s6.falsifies (L.getD 0 Literal.null) (-1) = false
      rw [falsifies_frame s s6 hdat6 hmod6]
      exact h0
    · rw [hc6]
      exact hlen2
    · rw [hc6]
      exact hhead
    · rw [hc6]
      intro a ha
      rcases hsplit a ha with e | e
      · exact Or.inl e
      · right
        rw [falsifies_frame s s6 hdat6 hmod6]
        exact hrest a e

theorem trail_registered {sort : Nat → Nat} {s : Solver} (h : WF sort s) :
    ∀ t ∈ s.trail_, (s.data t.lhs t.rhs).occurs = true :=
  fun t ht => (h.dat.reg _ _ (trail_recorded s h.trl.recd t ht)).1

/-- After `Analyze` for a conflict above the root level, and after `Backtrack` to the level
that it returns, the invariant holds; the learnt clause is not empty and its literals are
registered, the first is not falsified and the others are falsified. -/
theorem WF_analyzed (sort : Nat → Nat) (s1 : Solver) (conflict : Int) (h1 : WF sort s1)
    (hl : s1.current_level ≠ kRootLevel) (hlive : Live s1 conflict)
    (hall : ∀ a ∈ (s1.clause conflict).lits, s1.falsifies a (-1) = true)
    (hdef : AnalyzeDefined sort (s1.trail_.length + 1) (AnalyzeStart s1) conflict = true)
    (hrsv : AnalyzeResolves sort (s1.trail_.length + 1) (AnalyzeStart s1) conflict = true) :
    WF sort (Analyze sort s1 conflict).1 ∧
    WF sort ((Analyze sort s1 conflict).1.Backtrack (Analyze sort s1 conflict).2.2) ∧
    (∀ a ∈ (Analyze sort s1 conflict).2.1,
      (((Analyze sort s1 conflict).1.Backtrack (Analyze sort s1 conflict).2.2).data
        a.lhs a.rhs).occurs = true) ∧
    (Analyze sort s1 conflict).2.1 ≠ [] ∧
    ((Analyze sort s1 conflict).1.Backtrack (Analyze sort s1 conflict).2.2).falsifies
      ((Analyze sort s1 conflict).2.1.getD 0 Literal.null) (-1) = false ∧
    (∀ b ∈ (Analyze sort s1 conflict).2.1.drop 1,
      ((Analyze sort s1 conflict).1.Backtrack (Analyze sort s1 conflict).2.2).falsifies b (-1)
        = true) ∧
    0 < ((Analyze sort s1 conflict).1.Backtrack
      (Analyze sort s1 conflict).2.2).clause_factory_.pool.length := by
  obtain ⟨hCS, hTO⟩ := ConflictState_of_WF h1 conflict hl hlive hall
  have hfacts := Analyze_loop_facts sort s1 conflict hCS hdef hrsv
  have hres := Analyze_result sort s1 conflict _ _ rfl rfl
  have hfr : Frame s1 (Analyze sort s1 conflict).1 :=
    Frame_trans _ _ _ hfacts.1.frame hres.1
  have hflags := Analyze_flags sort s1 conflict h1.flags hdef
  have hA := Analyze_learnt_asserting sort s1 conflict hCS hTO hdef hrsv
  have hreg := Analyze_registered sort s1 conflict h1.cls.pool hfacts.2.2.1 (trail_registered h1)
  have h2 : WF sort (Analyze sort s1 conflict).1 := WF_of_Frame h1 hfr hflags
  have hcl := Frame_current_level s1 _ hfr
  clear hfacts hres hdef hrsv
  generalize Analyze sort s1 conflict = an at hfr hflags hA hreg h2 hcl ⊢
  obtain ⟨hA1, hA2, hA3, hA4, hA5, hA6⟩ := hA
  have hbt2 : an.2.2 < an.1.current_level := by
    rw [hcl, ← hA2]
    exact hA6
  have h3 := WF_Backtrack sort an.1 an.2.2 h2 hA5 hbt2
  have hst := foldl_BacktrackStep_static (an.1.trail_.drop (an.1.level_size_.getD an.2.2 0)) an.1
  have hocc3 : ∀ a ∈ an.2.1, ((an.1.Backtrack an.2.2).data a.lhs a.rhs).occurs = true := by
    intro a ha
    have e : ((an.1.Backtrack an.2.2).data a.lhs a.rhs).occurs
        = (an.1.data a.lhs a.rhs).occurs := hst.2.2 _ _
    rw [e, (hfr.data _ _).2.2.2]
    exact hreg a ha
  have hne : an.2.1 ≠ [] := by
    intro e
    rw [e] at hA1
    have := (h1.trl.recd _ hA1).1
    exact this rfl
  have hpool : 0 < (an.1.Backtrack an.2.2).clause_factory_.pool.length := by
    have e : (an.1.Backtrack an.2.2).clause_factory_ = an.1.clause_factory_ := hst.1
    rw [e, hfr.factory]
    exact Nat.lt_of_le_of_lt (Nat.zero_le _) hlive.2.1
  exact ⟨h2, h3, hocc3, hne, hA3, hA4, hpool⟩

/-- Learning from a conflict above the root level keeps the invariant: `Analyze`, `Backtrack`
to the returned level, and the addition of the learnt clause. -/
theorem WF_learnRound (sort : Nat → Nat) (s1 : Solver) (conflict : Int) (h1 : WF sort s1)
    (hl : s1.current_level ≠ kRootLevel) (hlive : Live s1 conflict)
    (hall : ∀ a ∈ (s1.clause conflict).lits, s1.falsifies a (-1) = true)
    (hdef : AnalyzeDefined sort (s1.trail_.length + 1) (AnalyzeStart s1) conflict = true)
    (hrsv : AnalyzeResolves sort (s1.trail_.length + 1) (AnalyzeStart s1) conflict = true) :
    WF sort
      (if (Analyze sort s1 conflict).2.1.length == 1 then
        Enqueue sort ((Analyze sort s1 conflict).1.Backtrack (Analyze sort s1 conflict).2.2)
          ((Analyze sort s1 conflict).2.1.getD 0 Literal.null) kNullRef
      else
        let s3 := (Analyze sort s1 conflict).1.Backtrack (Analyze sort s1 conflict).2.2
        let nw := s3.clause_factory_.NewNormalized (Analyze sort s1 conflict).2.1
        let s4 : Solver := { s3 with clause_factory_ := nw.2 }
        let s5 : Solver := { s4 with clauses_ := s4.clauses_ ++ [nw.1] }
        let s6 := s5.UpdateWatchers nw.1 (s4.clause nw.1)
        Enqueue sort s6 ((s4.clause nw.1).get 0) nw.1) := by
  obtain ⟨_, h3, hocc3, hne, hA3, hA4, hpool⟩ :=
    WF_analyzed sort s1 conflict h1 hl hlive hall hdef hrsv
  clear hdef hrsv
  generalize Analyze sort s1 conflict = an at h3 hocc3 hne hA3 hA4 hpool ⊢
  exact WF_learn sort (an.1.Backtrack an.2.2) an.2.1 h3 hocc3 hne hA3 hA4 hpool

/-- The round of the loop of `Solve` with a conflict above the root level keeps the invariant,
when `Analyze` meets its assertions. -/
theorem WF_conflictRound (sort : Nat → Nat) (s : Solver) (h : WF sort s)
    (hc : (Propagate sort s).2 ≠ kNullRef)
    (hl : (Propagate sort s).1.current_level ≠ kRootLevel)
    (hdef : AnalyzeDefined sort ((Propagate sort s).1.trail_.length + 1)
      (AnalyzeStart (Propagate sort s).1) (Propagate sort s).2 = true)
    (hrsv : AnalyzeResolves sort ((Propagate sort s).1.trail_.length + 1)
      (AnalyzeStart (Propagate sort s).1) (Propagate sort s).2 = true) :
    WF sort (conflictRound sort s) :=
  have hp := WF_Propagate sort s h
  WF_learnRound sort (Propagate sort s).1 (Propagate sort s).2 hp.1 hl (hp.2 hc).1
    (hp.2 hc).2.2 hdef hrsv

/-! ### The rounds of the loop of `Solve` -/

/-- A round of the loop of `Solve` in which `Propagate` returns a conflict above the root level
goes on with the state `conflictRound`. -/
theorem SolveLoop_conflictRound {σ : Type} (sort : Nat → Nat)
    (cp : σ → Solver → Nat → Int → List Literal → Nat → Bool × σ)
    (dp : σ → Solver → Nat → Literal → Bool × σ) (fuel : Nat) (s : Solver) (cb : σ)
    (hc : (Propagate sort s).2 ≠ kNullRef)
    (hl : (Propagate sort s).1.current_level ≠ kRootLevel) :
    ∃ cb1 go, SolveLoop sort cp dp (fuel + 1) s cb true
      = SolveLoop sort cp dp fuel (conflictRound sort s) cb1 go := by
  have hc2 : ((Propagate sort s).2 != kNullRef) = true := bne_iff_ne.mpr hc
  have hl2 : ¬ ((Propagate sort s).1.current_level == kRootLevel) = true :=
    fun e => hl (beq_iff_eq.mp e)
  rw [SolveLoop]
  unfold conflictRound
  rw [if_pos rfl]
  dsimp only
  rw [if_pos hc2, if_neg hl2]
  by_cases hlen :
      ((Analyze sort (Propagate sort s).1 (Propagate sort s).2).2.1.length == 1) = true
  · rw [if_pos hlen, if_pos hlen]
    exact ⟨_, _, rfl⟩
  · rw [if_neg hlen, if_neg hlen]
    exact ⟨_, _, rfl⟩

/-- A round of the loop of `Solve` in which `Propagate` returns no conflict and a function and a
name are found for a decision goes on with the state `firstDecision`. -/
theorem SolveLoop_firstDecision {σ : Type} (sort : Nat → Nat)
    (cp : σ → Solver → Nat → Int → List Literal → Nat → Bool × σ)
    (dp : σ → Solver → Nat → Literal → Bool × σ) (fuel : Nat) (s : Solver) (cb : σ)
    (hc : (Propagate sort s).2 = kNullRef) (hf : (Propagate sort s).1.order_.Top ≠ 0)
    (hn : (CandidateName sort (Propagate sort s).1 (Propagate sort s).1.order_.Top).1 ≠ 0) :
    ∃ cb1 go, SolveLoop sort cp dp (fuel + 1) s cb true
      = SolveLoop sort cp dp fuel (firstDecision sort s) cb1 go := by
  have hc2 : ¬ ((Propagate sort s).2 != kNullRef) = true := fun e => bne_iff_ne.mp e hc
  have hf2 : ¬ ((Propagate sort s).1.order_.Top == 0) = true := fun e => hf (beq_iff_eq.mp e)
  have hn2 : ¬ ((CandidateName sort (Propagate sort s).1 (Propagate sort s).1.order_.Top).1
      == 0) = true := fun e => hn (beq_iff_eq.mp e)
  rw [SolveLoop]
  unfold firstDecision
  rw [if_pos rfl]
  dsimp only
  rw [if_neg hc2, if_neg hf2, if_neg hn2]
  exact ⟨_, _, rfl⟩

/-! ### The steps of `Init` keep the invariant -/

theorem setData_reason (s : Solver) (f n : Nat) (d : Data) (hd : d.reason ≤ 0)
    (hs : ∀ g k, (s.data g k).reason ≤ 0) (g k : Nat) :
    ((s.setData f n d).data g k).reason ≤ 0 := by
  rcases data_setData_or s f n g k d with e | ⟨_, _, e⟩
  · rw [e]
    exact hs g k
  · rw [e]
    exact hd

theorem EnqueueDomain_reason (sort : Nat → Nat) (s : Solver) (f : Nat)
    (hs : ∀ g k, (s.data g k).reason ≤ 0) (g k : Nat) :
    ((EnqueueDomain sort s f).data g k).reason ≤ 0 := by
  have hdata := CandidateName_data_ sort s f
  unfold EnqueueDomain
  dsimp only
  generalize CandidateName sort s f = r at hdata ⊢
  rw [data_congr (orderRemove_data_ _ _), data_congr (setModel_data_ _ _ _)]
  apply setData_reason
  · show kDomainRef ≤ 0
    decide
  · intro g k
    rw [data_congr (pushTrail_data_ _ _), data_congr hdata]
    exact hs g k

/-- While no clause is recorded as a reason, `Enqueue` without a clause records none. -/
theorem Enqueue_reason (sort : Nat → Nat) (s : Solver) (a : Literal) (r : Int) (hr : r ≤ 0)
    (hs : ∀ g k, (s.data g k).reason ≤ 0) (g k : Nat) :
    ((Enqueue sort s a r).data g k).reason ≤ 0 := by
  have hset : ∀ (b : Bool) (g k : Nat), (((s.pushTrail a).setData a.lhs a.rhs
      ((s.data a.lhs a.rhs).Update b s.current_level r)).data g k).reason ≤ 0 := by
    intro b g k
    apply setData_reason
    · exact hr
    · intro g k
      rw [data_congr (pushTrail_data_ _ _)]
      exact hs g k
  unfold Enqueue
  dsimp only
  split
  · split
    · rw [data_congr (orderRemove_data_ _ _), data_congr (setModel_data_ _ _ _)]
      exact hset _ g k
    · split
      · apply EnqueueDomain_reason
        intro g k
        rw [data_congr (setDomainSize_data_ _ _ _)]
        exact hset _ g k
      · rw [data_congr (BumpToFront_data_ _ _), data_congr (setDomainSize_data_ _ _ _)]
        exact hset _ g k
  · exact hs g k

theorem reason_of_le (s : Solver) (hs : ∀ g k, (s.data g k).reason ≤ 0) (a : Literal) :
    s.reason_of a ≤ 0 := by
  unfold reason_of
  dsimp only
  split
  · exact hs _ _
  · exact hs _ _

theorem clause_of_pool {s t : Solver}
    (e : t.clause_factory_.pool = s.clause_factory_.pool) (cr : Int) :
    t.clause cr = s.clause cr := by
  unfold clause Factory.get
  rw [e]

theorem RootSat_frame {s t : Solver} (e : ∀ cr, t.clause cr = s.clause cr)
    (e5 : t.model_ = s.model_) (e6 : t.data_ = s.data_) (cr : Int) (h : RootSat s cr) :
    RootSat t cr := by
  obtain ⟨a, ha, hs, h0, hl⟩ := h
  refine ⟨a, ?_, ?_, h0, ?_⟩
  · rw [e]
    exact ha
  · rw [satisfies_frame s t e6 e5]
    exact hs
  · rw [level_of_frame s t e6 e5]
    exact hl

/-- The invariant is kept by a step that leaves the clauses of the reasons, the trail, the
level marks, `model_`, `data_`, `domain_size_`, `funcs_` and `names_` as they are. -/
theorem WF_retouch {sort : Nat → Nat} {s t : Solver} (h : WF sort s)
    (hr : ∀ a ∈ s.trail_, 0 < s.reason_of a → t.clause (s.reason_of a) = s.clause (s.reason_of a))
    (hf : FreedOK t) (hcls : ClauseInv t)
    (hw : ∀ f, ∀ cr ∈ t.watchers_.getD f [], 0 < cr)
    (e3 : t.trail_ = s.trail_) (e4 : t.level_size_ = s.level_size_)
    (e5 : t.model_ = s.model_) (e6 : t.data_ = s.data_)
    (e7 : t.domain_size_ = s.domain_size_) (e8 : t.funcs_ = s.funcs_)
    (e9 : t.names_ = s.names_) : WF sort t := by
  have hdom : DomInv t :=
    DomInv_frame h.dom e6 e7 e3 e4 (by rw [e5]) (by rw [e8]) (by rw [e9])
  refine ⟨hdom, hcls, DataWF_frame h.dat e4 e5 e6, TrailWF_frame h.trl e3 e4 e5 e6, ?_, hf, hw,
    ?_, ?_, ?_⟩
  · intro a ha
    rw [e3] at ha
    unfold ReasonOK
    rw [reason_of_frame s t e6 e5, level_of_frame s t e6 e5]
    rcases h.rsn a ha with hr0 | hr0 | ⟨h1, h2, h3, h4⟩
    · exact Or.inl hr0
    · exact Or.inr (Or.inl hr0)
    · rw [hr a ha h1]
      refine Or.inr (Or.inr ⟨h1, h2, h3, ?_⟩)
      intro c hc
      rw [falsifies_frame s t e6 e5, loc_frame s t e6 e5]
      exact h4 c hc
  · intro f n ho
    rw [data_congr e6] at ho
    rw [e9]
    exact h.names f n ho
  · intro f n ho
    rw [data_congr e6] at ho
    rw [e8]
    exact h.funcs f n ho
  · rw [flagsClear_iff]
    intro g k
    rw [data_congr e6]
    exact (flagsClear_iff s).mp h.flags g k

/-- The invariant is kept when clauses are returned to the factory that have fewer than two
literals or a literal satisfied at the root level, and watchers are dropped. -/
theorem WF_drop {sort : Nat → Nat} {s t : Solver} (h : WF sort s)
    (ep : t.clause_factory_.pool = s.clause_factory_.pool)
    (hfr : ∀ cr ∈ t.clause_factory_.freed, cr ∈ s.clause_factory_.freed ∨
      (cr.toNat < s.clause_factory_.pool.length ∧ ((s.clause cr).size < 2 ∨ RootSat s cr)))
    (hwat : ∀ f, ∀ cr ∈ t.watchers_.getD f [], ∃ g, cr ∈ s.watchers_.getD g [])
    (e3 : t.trail_ = s.trail_) (e4 : t.level_size_ = s.level_size_)
    (e5 : t.model_ = s.model_) (e6 : t.data_ = s.data_)
    (e7 : t.domain_size_ = s.domain_size_) (e8 : t.funcs_ = s.funcs_)
    (e9 : t.names_ = s.names_) : WF sort t := by
  have ec := clause_of_pool ep
  refine WF_retouch h (fun a _ _ => ec _) ?_ ⟨?_, ?_⟩ ?_ e3 e4 e5 e6 e7 e8 e9
  · intro cr hcr
    have key : cr.toNat < s.clause_factory_.pool.length ∧
        ((s.clause cr).size < 2 ∨ RootSat s cr) := by
      rcases hfr cr hcr with hx | hx
      · exact h.freed cr hx
      · exact hx
    rw [ep, ec]
    refine ⟨key.1, ?_⟩
    rcases key.2 with k | k
    · exact Or.inl k
    · exact Or.inr (RootSat_frame ec e5 e6 cr k)
  · intro c hc a ha
    rw [ep] at hc
    rw [data_congr e6]
    exact h.cls.pool c hc a ha
  · intro f cr hcr
    obtain ⟨g, hg⟩ := hwat f cr hcr
    rw [ec]
    exact h.cls.watch g cr hg
  · intro f cr hcr
    obtain ⟨g, hg⟩ := hwat f cr hcr
    exact h.wpos g cr hg

/-- The invariant is kept when a clause of at least two literals with a positive reference is
watched. -/
theorem WF_watch {sort : Nat → Nat} {s : Solver} (h : WF sort s) (cr : Int) (c : Clause)
    (hpos : 0 < cr) (hsz : 2 ≤ (s.clause cr).size) : WF sort (s.UpdateWatchers cr c) := by
  refine WF_retouch h (fun _ _ _ => rfl) h.freed ⟨h.cls.pool, ?_⟩ ?_ rfl rfl rfl rfl rfl rfl rfl
  · intro f x hx
    rcases mem_UpdateWatchers s cr c f x hx with e | e
    · rw [e]
      exact hsz
    · exact h.cls.watch f x e
  · intro f x hx
    rcases mem_UpdateWatchers s cr c f x hx with e | e
    · rw [e]
      exact hpos
    · exact h.wpos f x e

/-- The invariant is kept when the falsified literals are removed from a clause that is not
watched, while no clause is recorded as a reason. -/
theorem WF_trim {sort : Nat → Nat} {s : Solver} (h : WF sort s) (cr : Int)
    (hs : ∀ g k, (s.data g k).reason ≤ 0)
    (hun : ∀ f, ∀ x ∈ s.watchers_.getD f [], cr.toNat ≠ x.toNat) :
    WF sort ({ s with clause_factory_ := (s.clause_factory_.set cr
      ((s.clause cr).RemoveIf (fun a => s.falsifies a (-1)))) } : Solver) := by
  have hsub : ∀ a ∈ ((s.clause cr).RemoveIf (fun a => s.falsifies a (-1))).lits,
      a ∈ (s.clause cr).lits := by
    intro a ha
    unfold Clause.RemoveIf at ha
    exact (List.mem_filter.mp ha).1
  have hkeep : ∀ a ∈ (s.clause cr).lits, s.satisfies a (-1) = true →
      a ∈ ((s.clause cr).RemoveIf (fun a => s.falsifies a (-1))).lits := by
    intro a ha hsat
    unfold Clause.RemoveIf
    refine List.mem_filter.mpr ⟨ha, ?_⟩
    cases hx : s.falsifies a (-1)
    · show (!s.falsifies a (-1)) = true
      rw [hx]
      rfl
    · exact absurd hx (fun hx => not_satisfied_falsified h.dat a hsat hx)
  have hlen : ((s.clause cr).RemoveIf (fun a => s.falsifies a (-1))).size ≤ (s.clause cr).size := by
    unfold Clause.RemoveIf Clause.size
    exact List.length_filter_le _ _
  generalize (s.clause cr).RemoveIf (fun a => s.falsifies a (-1)) = c at hsub hkeep hlen
  have hne := clause_set_ne s cr
  have hpl : ({ s with clause_factory_ := s.clause_factory_.set cr c } : Solver).clause_factory_.pool.length
      = s.clause_factory_.pool.length := by
    show (s.clause_factory_.pool.set cr.toNat c).length = _
    rw [List.length_set]
  refine WF_retouch h ?_ ?_ ⟨?_, ?_⟩ ?_ rfl rfl rfl rfl rfl rfl rfl
  · intro a _ hpos
    have := reason_of_le s hs a
    omega
  · intro x hx
    obtain ⟨h1, h2⟩ := h.freed x hx
    refine ⟨by rw [hpl]; exact h1, ?_⟩
    by_cases e : cr.toNat = x.toNat
    · have hcx : s.clause x = s.clause cr := by
        unfold clause Factory.get
        rw [e]
      have hnew : ({ s with clause_factory_ := s.clause_factory_.set cr c } : Solver).clause x
          = c := by
        unfold clause Factory.get Factory.set
        rw [← e]
        exact getD_set_same _ _ _ _ (by rw [e]; exact h1)
      rw [hnew]
      rcases h2 with k | ⟨a, ha, hsat, h0, hl⟩
      · left
        rw [hcx] at k
        omega
      · right
        rw [hcx] at ha
        refine ⟨a, ?_, hsat, h0, hl⟩
        rw [hnew]
        exact hkeep a ha hsat
    · rw [hne x c e]
      rcases h2 with k | ⟨a, ha, hsat, h0, hl⟩
      · exact Or.inl k
      · refine Or.inr ⟨a, ?_, hsat, h0, hl⟩
        rw [hne x c e]
        exact ha
  · intro c2 hc2 a ha
    rcases List.mem_or_eq_of_mem_set hc2 with hc2 | hc2
    · exact h.cls.pool c2 hc2 a ha
    · rw [hc2] at ha
      have hm := hsub a ha
      exact h.cls.pool _ (clause_mem_pool s cr (List.length_pos_of_mem hm)) a hm
  · intro f x hx
    rw [hne x c (hun f x hx)]
    exact h.cls.watch f x hx
  · exact h.wpos

/-! ### The second loop of `Init` keeps the invariant -/

/-- Induction over the rounds of the second loop of `Init`. -/
theorem InitClauses_ind (sort : Nat → Nat) (P : Solver → Nat → Nat → Prop)
    (hsat : ∀ (s : Solver) (i n : Nat) (cr : Int) (c : Clause) (s1 : Solver), P s i n → i < n →
      cr = s.clauses_.getD i 0 → c = (s.clause cr).RemoveIf (fun a => s.falsifies a (-1)) →
      s1 = { s with clause_factory_ := s.clause_factory_.set cr c } →
      c.unsatisfiable = false → s1.satisfiesClause c (-1) = true →
      P (({ s1 with clause_factory_ := s1.clause_factory_.Delete cr } : Solver).swapClauses i
        (n - 1)) i (n - 1))
    (hunit : ∀ (s : Solver) (i n : Nat) (cr : Int) (c : Clause) (s1 : Solver), P s i n → i < n →
      cr = s.clauses_.getD i 0 → c = (s.clause cr).RemoveIf (fun a => s.falsifies a (-1)) →
      s1 = { s with clause_factory_ := s.clause_factory_.set cr c } →
      c.unsatisfiable = false → s1.satisfiesClause c (-1) = false → c.size = 1 →
      P (({ Enqueue sort s1 (c.get 0) kNullRef with
        clause_factory_ := (Enqueue sort s1 (c.get 0) kNullRef).clause_factory_.Delete cr }
          : Solver).swapClauses i (n - 1)) i (n - 1))
    (hwatch : ∀ (s : Solver) (i n : Nat) (cr : Int) (c : Clause) (s1 : Solver), P s i n → i < n →
      cr = s.clauses_.getD i 0 → c = (s.clause cr).RemoveIf (fun a => s.falsifies a (-1)) →
      s1 = { s with clause_factory_ := s.clause_factory_.set cr c } →
      c.unsatisfiable = false → s1.satisfiesClause c (-1) = false → c.size ≠ 1 →
      P (s1.UpdateWatchers cr c) (i + 1) n) :
    ∀ (fuel : Nat) (s : Solver) (i n : Nat), P s i n →
      (InitClauses sort fuel s i n).2.2 = false →
      ∃ j, P (InitClauses sort fuel s i n).1 j (InitClauses sort fuel s i n).2.1 := by
  intro fuel
  induction fuel with
  | zero =>
    intro s i n hP _
    exact ⟨i, hP⟩
  | succ fuel ih =>
    intro s i n hP
    unfold InitClauses
    dsimp only
    by_cases hin : i < n
    · rw [if_pos hin]
      have a1 := hsat s i n _ _ _ hP hin rfl rfl rfl
      have a2 := hunit s i n _ _ _ hP hin rfl rfl rfl
      have a3 := hwatch s i n _ _ _ hP hin rfl rfl rfl
      generalize s.clauses_.getD i 0 = cr at a1 a2 a3 ⊢
      generalize (s.clause cr).RemoveIf (fun a => s.falsifies a (-1)) = c at a1 a2 a3 ⊢
      by_cases hu : c.unsatisfiable = true
      · rw [if_pos hu]
        intro hflag
        exact Bool.noConfusion hflag
      · rw [if_neg hu]
        have hu2 : c.unsatisfiable = false := by
          cases hx : c.unsatisfiable
          · rfl
          · exact absurd hx hu
        by_cases hs : ({ s with clause_factory_ := s.clause_factory_.set cr c }
            : Solver).satisfiesClause c (-1) = true
        · rw [if_pos hs]
          exact ih _ _ _ (a1 hu2 hs)
        · rw [if_neg hs]
          have hs2 : ({ s with clause_factory_ := s.clause_factory_.set cr c }
              : Solver).satisfiesClause c (-1) = false := by
            cases hx : ({ s with clause_factory_ := s.clause_factory_.set cr c }
              : Solver).satisfiesClause c (-1)
            · rfl
            · exact absurd hx hs
          by_cases h1 : (c.size == 1) = true
          · rw [if_pos h1]
            exact ih _ _ _ (a2 hu2 hs2 (beq_iff_eq.mp h1))
          · rw [if_neg h1]
            exact ih _ _ _ (a3 hu2 hs2 (fun e => h1 (beq_iff_eq.mpr e)))
    · rw [if_neg hin]
      intro _
      exact ⟨i, hP⟩

theorem ClauseList_trim {s : Solver} {i n : Nat} (h : ClauseList s i n) (hin : i < n)
    (c : Clause) (hv : c.valid = (s.clause (s.clauses_.getD i 0)).valid) :
    ClauseList ({ s with clause_factory_ := s.clause_factory_.set (s.clauses_.getD i 0) c }
      : Solver) i n := by
  refine ⟨h.low, h.len, h.distinct, h.pos, ?_, h.watched, h.noreason, h.root⟩
  intro j hj1 hj
  show (({ s with clause_factory_ := s.clause_factory_.set (s.clauses_.getD i 0) c }
    : Solver).clause (s.clauses_.getD j 0)).valid = false
  rw [clause_set_eq]
  split
  · rw [hv]
    exact h.valid i h.low hin
  · exact h.valid j hj1 hj

theorem ClauseList_swap {s t : Solver} {i n : Nat} (h : ClauseList s i n) (hin : i < n)
    (ec : t.clauses_ = (s.clauses_.set i (s.clauses_.getD (n - 1) 0)).set (n - 1)
      (s.clauses_.getD i 0))
    (ep : t.clause_factory_.pool = s.clause_factory_.pool) (ew : t.watchers_ = s.watchers_)
    (ed : ∀ g k, (t.data g k).reason ≤ 0) (el : t.level_size_ = [0]) :
    ClauseList t i (n - 1) := by
  have hlen : t.clauses_.length = s.clauses_.length := by
    rw [ec, List.length_set, List.length_set]
  have hn := h.len
  have hi1 := h.low
  have hget : ∀ q, q < n - 1 → t.clauses_.getD q 0
      = if q = i then s.clauses_.getD (n - 1) 0 else s.clauses_.getD q 0 := by
    intro q hq
    rw [ec, getD_exchange _ _ _ _ (by omega) (by omega), if_neg (by omega)]
    by_cases e : i = q
    · rw [if_pos e, if_pos e.symm]
    · rw [if_neg e, if_neg (fun h => e h.symm)]
  refine ⟨hi1, by rw [hlen]; omega, ?_, ?_, ?_, ?_, ed, el⟩
  · intro k hk j hj hj1
    rw [hget k hk, hget j (by omega)]
    by_cases ek : k = i
    · rw [if_pos ek, if_neg (by omega)]
      exact h.distinct (n - 1) (by omega) j (by omega) hj1
    · rw [if_neg ek]
      by_cases ej : j = i
      · rw [if_pos ej]
        exact fun e => h.distinct (n - 1) (by omega) k (by omega) (by omega) e.symm
      · rw [if_neg ej]
        exact h.distinct k (by omega) j hj hj1
  · intro j hj1 hj
    rw [hget j hj]
    split
    · exact h.pos (n - 1) (by omega) (by omega)
    · exact h.pos j hj1 (by omega)
  · intro j hj1 hj
    rw [hget j hj, clause_of_pool ep]
    split
    · exact h.valid (n - 1) (by omega) (by omega)
    · exact h.valid j hj1 (by omega)
  · intro f x hx
    rw [ew] at hx
    obtain ⟨j, hj1, hji, hjn, hj⟩ := h.watched f x hx
    refine ⟨j, hj1, hji, by omega, ?_⟩
    rw [hget j (by omega), if_neg (by omega)]
    exact hj

theorem ClauseList_watch {s : Solver} {i n : Nat} (h : ClauseList s i n) (hin : i < n)
    (c : Clause) : ClauseList (s.UpdateWatchers (s.clauses_.getD i 0) c) (i + 1) n := by
  refine ⟨Nat.le_succ_of_le h.low, h.len, h.distinct, h.pos, h.valid, ?_, h.noreason, h.root⟩
  intro f x hx
  rcases mem_UpdateWatchers _ _ _ _ _ hx with e | e
  · exact ⟨i, h.low, Nat.lt_succ_self i, hin, e.symm⟩
  · obtain ⟨j, hj1, hji, hjn, hj⟩ := h.watched f x e
    exact ⟨j, hj1, Nat.lt_succ_of_lt hji, hjn, hj⟩

/-- The removal of the falsified literals from the clause at the counter `i` in the second loop
of `Init`. -/
theorem InitClauses_trim {sort : Nat → Nat} {s : Solver} {i n : Nat} (h : WF sort s)
    (hc : ClauseList s i n) (hin : i < n) :
    WF sort ({ s with clause_factory_ := (s.clause_factory_.set (s.clauses_.getD i 0)
      ((s.clause (s.clauses_.getD i 0)).RemoveIf (fun a => s.falsifies a (-1)))) } : Solver) ∧
    ClauseList ({ s with clause_factory_ := (s.clause_factory_.set (s.clauses_.getD i 0)
      ((s.clause (s.clauses_.getD i 0)).RemoveIf (fun a => s.falsifies a (-1)))) } : Solver)
        i n ∧
    ((s.clause (s.clauses_.getD i 0)).RemoveIf (fun a => s.falsifies a (-1))).valid = false ∧
    (∀ a ∈ ((s.clause (s.clauses_.getD i 0)).RemoveIf (fun a => s.falsifies a (-1))).lits,
      s.falsifies a (-1) = false) ∧
    (((s.clause (s.clauses_.getD i 0)).RemoveIf (fun a => s.falsifies a (-1))).lits ≠ [] →
      (s.clauses_.getD i 0).toNat < s.clause_factory_.pool.length ∧
      ({ s with clause_factory_ := (s.clause_factory_.set (s.clauses_.getD i 0)
        ((s.clause (s.clauses_.getD i 0)).RemoveIf (fun a => s.falsifies a (-1)))) }
          : Solver).clause (s.clauses_.getD i 0)
        = (s.clause (s.clauses_.getD i 0)).RemoveIf (fun a => s.falsifies a (-1))) := by
  refine ⟨?_, ClauseList_trim hc hin _ rfl, hc.valid i hc.low hin, ?_, ?_⟩
  · apply WF_trim h _ hc.noreason
    intro f x hx
    obtain ⟨j, hj1, hji, _, hj⟩ := hc.watched f x hx
    rw [← hj]
    exact fun e => hc.distinct i hin j hji hj1 e.symm
  · intro a ha
    unfold Clause.RemoveIf at ha
    have := (List.mem_filter.mp ha).2
    cases hx : s.falsifies a (-1)
    · rfl
    · have h2 : (!s.falsifies a (-1)) = true := this
      rw [hx] at h2
      exact Bool.noConfusion h2
  · intro hne
    have hpos : 0 < (s.clause (s.clauses_.getD i 0)).size := by
      obtain ⟨a, ha⟩ := List.exists_mem_of_ne_nil _ hne
      unfold Clause.RemoveIf at ha
      exact List.length_pos_of_mem (List.mem_filter.mp ha).1
    have hr := clause_in_range s _ hpos
    exact ⟨hr, clause_set_same s _ _ hr⟩

/-- The second loop of `Init` keeps the invariant, unless it meets an empty clause. -/
theorem WF_InitClauses (sort : Nat → Nat) (fuel : Nat) (s : Solver) (i n : Nat)
    (h : WF sort s) (hc : ClauseList s i n)
    (hflag : (InitClauses sort fuel s i n).2.2 = false) :
    WF sort (InitClauses sort fuel s i n).1 ∧
      (InitClauses sort fuel s i n).1.level_size_ = [0] := by
  have key := InitClauses_ind sort (fun s i n => WF sort s ∧ ClauseList s i n) ?_ ?_ ?_
    fuel s i n ⟨h, hc⟩ hflag
  · obtain ⟨j, hw, hl⟩ := key
    exact ⟨hw, hl.root⟩
  · intro s i n cr c s1 hP hin ecr ec es1 _ hsat
    subst ecr
    subst ec
    subst es1
    obtain ⟨W1, C1, _, _, hcl⟩ := InitClauses_trim hP.1 hP.2 hin
    generalize (s.clause (s.clauses_.getD i 0)).RemoveIf (fun a => s.falsifies a (-1)) = c
      at W1 C1 hcl hsat
    generalize hs1 : ({ s with clause_factory_ := s.clause_factory_.set (s.clauses_.getD i 0) c }
      : Solver) = s1 at W1 C1 hcl hsat
    have hcr : s1.clauses_.getD i 0 = s.clauses_.getD i 0 := by rw [← hs1]
    have hcs : s1.clauses_ = s.clauses_ := by rw [← hs1]
    have hpl : s1.clause_factory_.pool.length = s.clause_factory_.pool.length := by
      rw [← hs1]
      show (s.clause_factory_.pool.set _ c).length = _
      rw [List.length_set]
    unfold satisfiesClause at hsat
    obtain ⟨a, ha, hsa⟩ := List.any_eq_true.mp hsat
    obtain ⟨hr, hcl⟩ := hcl (List.ne_nil_of_mem ha)
    constructor
    · refine WF_drop W1 rfl ?_ (fun f x hx => ⟨f, hx⟩) rfl rfl rfl rfl rfl rfl rfl
      intro x hx
      rcases List.mem_cons.mp hx with e | e
      · right
        rw [e]
        refine ⟨by rw [hpl]; exact hr, Or.inr ⟨a, by rw [hcl]; exact ha, hsa, ?_, ?_⟩⟩
        · have hm : a ∈ (s1.clause (s.clauses_.getD i 0)).lits := by
            rw [hcl]
            exact ha
          exact (clause_registered W1.dom.dat W1.cls _ a hm).2.2
        · have := level_of_le W1.dat a
          have hcur : s1.current_level = 1 := by
            unfold current_level
            rw [C1.root]
            rfl
          rw [hcur] at this
          exact this
      · exact Or.inl e
    · apply ClauseList_swap C1 hin
      · show (s1.clauses_.set i (s1.clauses_.getD (n - 1) 0)).set (n - 1) (s1.clauses_.getD i 0)
          = _
        rfl
      · rfl
      · rfl
      · exact C1.noreason
      · exact C1.root
  · intro s i n cr c s1 hP hin ecr ec es1 _ hsat hsz
    subst ecr
    subst ec
    subst es1
    obtain ⟨W1, C1, _, hnf, hcl⟩ := InitClauses_trim hP.1 hP.2 hin
    generalize (s.clause (s.clauses_.getD i 0)).RemoveIf (fun a => s.falsifies a (-1)) = c
      at W1 C1 hcl hsat hnf hsz
    have hmem : c.get 0 ∈ c.lits := get_mem c 0 (by omega)
    obtain ⟨hr, hcl⟩ := hcl (List.ne_nil_of_mem hmem)
    have hnf0 := hnf _ hmem
    clear hnf
    generalize hs1 : ({ s with clause_factory_ := s.clause_factory_.set (s.clauses_.getD i 0) c }
      : Solver) = s1 at W1 C1 hcl hsat
    have hcs : s1.clauses_ = s.clauses_ := by rw [← hs1]
    have hpl : s1.clause_factory_.pool.length = s.clause_factory_.pool.length := by
      rw [← hs1]
      show (s.clause_factory_.pool.set _ c).length = _
      rw [List.length_set]
    have hnf1 : s1.falsifies (c.get 0) (-1) = false := by
      rw [← hs1]
      exact hnf0
    have hm : c.get 0 ∈ (s1.clause (s.clauses_.getD i 0)).lits := by
      rw [hcl]
      exact hmem
    have hreg := clause_registered W1.dom.dat W1.cls _ _ hm
    have W2 := WF_Enqueue sort s1 (c.get 0) kNullRef W1 hreg.1 (fun _ => hnf1) (Or.inl rfl)
    have hst := Enqueue_static sort s1 (c.get 0) kNullRef
    have hlv := Enqueue_level_size_ sort s1 (c.get 0) kNullRef
    have hrs := Enqueue_reason sort s1 (c.get 0) kNullRef (by decide) C1.noreason
    generalize Enqueue sort s1 (c.get 0) kNullRef = s2 at W2 hst hlv hrs
    have hcl2 : ∀ x, s2.clause x = s1.clause x := by
      intro x
      unfold clause
      rw [hst.2.1]
    constructor
    · refine WF_drop W2 rfl ?_ (fun f x hx => ⟨f, hx⟩) rfl rfl rfl rfl rfl rfl rfl
      intro x hx
      rcases List.mem_cons.mp hx with e | e
      · right
        rw [e, hst.2.1, hpl, hcl2, hcl]
        exact ⟨hr, Or.inl (by omega)⟩
      · exact Or.inl e
    · apply ClauseList_swap C1 hin
      · show (s2.clauses_.set i (s2.clauses_.getD (n - 1) 0)).set (n - 1) (s2.clauses_.getD i 0)
          = _
        rw [hst.2.2.1]
      · show s2.clause_factory_.pool = _
        rw [hst.2.1]
      · exact hst.1
      · exact hrs
      · show s2.level_size_ = [0]
        rw [hlv]
        exact C1.root
  · intro s i n cr c s1 hP hin ecr ec es1 hu hsat hsz
    subst ecr
    subst ec
    subst es1
    obtain ⟨W1, C1, hv, _, hcl⟩ := InitClauses_trim hP.1 hP.2 hin
    generalize (s.clause (s.clauses_.getD i 0)).RemoveIf (fun a => s.falsifies a (-1)) = c
      at W1 C1 hcl hsat hsz hu hv
    have hne : c.lits ≠ [] := by
      intro e
      unfold Clause.unsatisfiable at hu
      rw [hv, e] at hu
      exact Bool.noConfusion hu
    have hsz2 : 2 ≤ c.size := by
      have : c.size ≠ 0 := by
        unfold Clause.size
        exact fun e => hne (List.length_eq_zero.mp e)
      omega
    obtain ⟨_, hcl⟩ := hcl hne
    constructor
    · apply WF_watch W1
      · exact hP.2.pos i hP.2.low hin
      · rw [hcl]
        exact hsz2
    · exact ClauseList_watch C1 hin c

/-! ### The first part of `Init` keeps the invariant -/

/-- The first loop of `Init` keeps the invariant, unless it meets a falsified literal. -/
theorem WF_InitUnits (sort : Nat → Nat) (lits : List Literal) : ∀ s : Solver, WF sort s →
    (∀ g k, (s.data g k).reason ≤ 0) → s.level_size_ = [0] →
    (∀ a ∈ lits, (s.data a.lhs a.rhs).occurs = true) → (InitUnits sort lits s).2 = false →
    WF sort (InitUnits sort lits s).1 ∧
      (∀ g k, ((InitUnits sort lits s).1.data g k).reason ≤ 0) ∧
      (InitUnits sort lits s).1.level_size_ = [0] := by
  induction lits with
  | nil =>
    intro s h hr hl _ _
    exact ⟨h, hr, hl⟩
  | cons a lits ih =>
    intro s h hr hl hocc
    unfold InitUnits
    split
    · intro hflag
      exact Bool.noConfusion hflag
    · rename_i hf
      have hf2 : s.falsifies a (-1) = false := by
        cases hx : s.falsifies a (-1)
        · rfl
        · exact absurd hx hf
      apply ih
      · exact WF_Enqueue sort s a kNullRef h (hocc a (List.mem_cons_self a lits))
          (fun _ => hf2) (Or.inl rfl)
      · exact Enqueue_reason sort s a kNullRef (by decide) hr
      · rw [Enqueue_level_size_]
        exact hl
      · intro b hb
        rw [Enqueue_occurs]
        exact hocc b (List.mem_cons_of_mem a hb)

theorem InitUnits_flag (sort : Nat → Nat) (lits : List Literal) : ∀ s : Solver,
    (InitUnits sort lits s).2 = true → (InitUnits sort lits s).1.empty_clause_ = true := by
  induction lits with
  | nil =>
    intro s hflag
    exact Bool.noConfusion hflag
  | cons a lits ih =>
    intro s
    unfold InitUnits
    split
    · intro _
      rfl
    · exact ih _

theorem InitClauses_flag (sort : Nat → Nat) : ∀ (fuel : Nat) (s : Solver) (i n : Nat),
    (InitClauses sort fuel s i n).2.2 = true →
    (InitClauses sort fuel s i n).1.empty_clause_ = true := by
  intro fuel
  induction fuel with
  | zero =>
    intro s i n hflag
    exact Bool.noConfusion hflag
  | succ fuel ih =>
    intro s i n
    unfold InitClauses
    dsimp only
    split
    · split
      · intro _
        rfl
      · split
        · exact ih _ _ _
        · split
          · exact ih _ _ _
          · exact ih _ _ _
    · intro hflag
      exact Bool.noConfusion hflag

/-- When the first part of `Init` returns early, `empty_clause_` is set. -/
theorem InitLoad_flag (sort : Nat → Nat) (s : Solver) (h : (InitLoad sort s).2.2 = true) :
    (InitLoad sort s).1.empty_clause_ = true := by
  unfold InitLoad at h ⊢
  dsimp only at h ⊢
  have h1 := InitUnits_flag sort s.trail_ { s with trail_ := [] }
  generalize InitUnits sort s.trail_ { s with trail_ := [] } = q at h h1 ⊢
  by_cases hq : q.2 = true
  · rw [if_pos hq]
    exact h1 hq
  · rw [if_neg hq] at h ⊢
    have h2 := InitClauses_flag sort q.1.clauses_.length q.1 1 q.1.clauses_.length
    generalize InitClauses sort q.1.clauses_.length q.1 1 q.1.clauses_.length = q2 at h h2 ⊢
    by_cases hq2 : q2.2.2 = true
    · rw [if_pos hq2]
      exact h2 hq2
    · rw [if_neg hq2] at h
      exact Bool.noConfusion h

/-- The first part of `Init` keeps the invariant, unless it returns early. -/
theorem WF_InitLoad (sort : Nat → Nat) (s : Solver)
    (h : WF sort ({ s with trail_ := [] } : Solver))
    (hc : ClauseList ({ s with trail_ := [] } : Solver) 1 s.clauses_.length)
    (hocc : ∀ a ∈ s.trail_, (s.data a.lhs a.rhs).occurs = true)
    (hflag : (InitLoad sort s).2.2 = false) :
    WF sort (InitLoad sort s).1 ∧ (InitLoad sort s).1.level_size_ = [0] := by
  have r1 := WF_InitUnits sort s.trail_ ({ s with trail_ := [] } : Solver) h hc.noreason hc.root
    hocc
  have st := InitUnits_static sort s.trail_ ({ s with trail_ := [] } : Solver)
  unfold InitLoad at hflag ⊢
  dsimp only at hflag ⊢
  generalize InitUnits sort s.trail_ ({ s with trail_ := [] } : Solver) = q at r1 st hflag ⊢
  obtain ⟨st1, st2, st3⟩ := st
  have st1' : q.1.watchers_ = s.watchers_ := st1
  have st2' : q.1.clause_factory_ = s.clause_factory_ := st2
  have st3' : q.1.clauses_ = s.clauses_ := st3
  by_cases hq : q.2 = true
  · rw [if_pos hq] at hflag
    exact Bool.noConfusion hflag
  · rw [if_neg hq] at hflag ⊢
    have hq2 : q.2 = false := by
      cases hx : q.2
      · rfl
      · exact absurd hx hq
    obtain ⟨W1, R1, L1⟩ := r1 hq2
    have C1 : ClauseList q.1 1 q.1.clauses_.length := by
      refine ⟨Nat.le_refl _, Nat.le_refl _, ?_, ?_, ?_, ?_, R1, L1⟩
      · rw [st3']
        exact hc.distinct
      · rw [st3']
        exact hc.pos
      · intro j hj1 hj
        have e : q.1.clause (q.1.clauses_.getD j 0) = s.clause (s.clauses_.getD j 0) := by
          unfold clause
          rw [st2', st3']
        rw [e]
        rw [st3'] at hj
        exact hc.valid j hj1 hj
      · intro f x hx
        rw [st1'] at hx
        rw [st3']
        exact hc.watched f x hx
    have r2 := WF_InitClauses sort q.1.clauses_.length q.1 1 q.1.clauses_.length W1 C1
    generalize InitClauses sort q.1.clauses_.length q.1 1 q.1.clauses_.length = q2 at hflag r2 ⊢
    by_cases hq3 : q2.2.2 = true
    · rw [if_pos hq3] at hflag
      exact Bool.noConfusion hflag
    · rw [if_neg hq3]
      have hq4 : q2.2.2 = false := by
        cases hx : q2.2.2
        · rfl
        · exact absurd hx hq3
      obtain ⟨W2, L2⟩ := r2 hq4
      exact ⟨WF_frame W2 rfl rfl rfl rfl rfl rfl rfl rfl rfl, L2⟩

/-! ### The third loop of `Init` keeps the invariant -/

/-- Induction over the rounds of the third loop of `Init`. -/
theorem InitCompact_ind (P : Solver → Nat → Nat → Prop)
    (hdrop : ∀ (s : Solver) (i nu : Nat), P s i nu → i < nu → nu ≤ s.trail_.length →
      (!(s.trail_.getD i Literal.null).pos &&
        s.model (s.trail_.getD i Literal.null).lhs != 0) = true →
      P ({ s with trail_ := ((s.trail_.set i (s.trail_.getD (nu - 1) Literal.null)).set (nu - 1)
        (s.trail_.getD i Literal.null)) } : Solver) i (nu - 1))
    (hkeep : ∀ (s : Solver) (i nu : Nat), P s i nu → i < nu → nu ≤ s.trail_.length →
      ¬ (!(s.trail_.getD i Literal.null).pos &&
        s.model (s.trail_.getD i Literal.null).lhs != 0) = true →
      P s (i + 1) nu)
    (hrem : ∀ (s : Solver) (i nu : Nat) (a : Literal) (k : Nat), P s i nu → a ∈ s.trail_ →
      (s.reason_of a != kNullRef && s.reason_of a != kDomainRef) = true →
      P (({ s.RemoveWatchers (s.reason_of a) (s.clause (s.reason_of a)) with
        clause_factory_ := (s.RemoveWatchers (s.reason_of a)
          (s.clause (s.reason_of a))).clause_factory_.Delete (s.reason_of a) }
            : Solver).swapClauses (s.reason_of a).toNat k) i nu) :
    ∀ (fuel : Nat) (s : Solver) (i nu nc : Nat), P s i nu → nu ≤ s.trail_.length →
      ∃ j, P (InitCompact fuel s i nu nc).1 j (InitCompact fuel s i nu nc).2.1 ∧
        (nu - i ≤ fuel → (InitCompact fuel s i nu nc).2.1 ≤ j) := by
  intro fuel
  induction fuel with
  | zero =>
    intro s i nu nc hP _
    exact ⟨i, hP, fun h => by
      show nu ≤ i
      omega⟩
  | succ fuel ih =>
    intro s i nu nc hP hnu
    unfold InitCompact
    split
    · rename_i hi
      dsimp only
      have key : ∀ (s1 : Solver) (i1 nu1 : Nat), P s1 i1 nu1 → nu1 ≤ s1.trail_.length →
          s.trail_.getD i Literal.null ∈ s1.trail_ → nu1 - i1 + 1 ≤ nu - i →
          ∀ r : Solver × Nat × Nat,
          r = (if (s1.reason_of (s.trail_.getD i Literal.null) != kNullRef &&
              s1.reason_of (s.trail_.getD i Literal.null) != kDomainRef) = true then
            InitCompact fuel
              (({ s1.RemoveWatchers (s1.reason_of (s.trail_.getD i Literal.null))
                    (s1.clause (s1.reason_of (s.trail_.getD i Literal.null))) with
                  clause_factory_ :=
                    (s1.RemoveWatchers (s1.reason_of (s.trail_.getD i Literal.null))
                      (s1.clause (s1.reason_of (s.trail_.getD i Literal.null)))).clause_factory_.Delete
                        (s1.reason_of (s.trail_.getD i Literal.null)) } : Solver).swapClauses
                (s1.reason_of (s.trail_.getD i Literal.null)).toNat (nc - 1)) i1 nu1 (nc - 1)
          else InitCompact fuel s1 i1 nu1 nc) →
          ∃ j, P r.1 j r.2.1 ∧ (nu - i ≤ fuel + 1 → r.2.1 ≤ j) := by
        intro s1 i1 nu1 hP1 hn1 hmem hms r hr
        subst hr
        split
        · rename_i hc
          obtain ⟨j, h1, h2⟩ := ih _ i1 nu1 (nc - 1)
            (hrem s1 i1 nu1 _ (nc - 1) hP1 hmem hc) hn1
          exact ⟨j, h1, fun h => h2 (by omega)⟩
        · obtain ⟨j, h1, h2⟩ := ih s1 i1 nu1 nc hP1 hn1
          exact ⟨j, h1, fun h => h2 (by omega)⟩
      by_cases hd : (!(s.trail_.getD i Literal.null).pos &&
          s.model (s.trail_.getD i Literal.null).lhs != 0) = true
      · simp only [hd, if_true]
        refine key _ i (nu - 1) (hdrop s i nu hP hi hnu hd) ?_ ?_ (by omega) _ rfl
        · show nu - 1 ≤ ((s.trail_.set i _).set (nu - 1) _).length
          rw [List.length_set, List.length_set]
          omega
        · show s.trail_.getD i Literal.null ∈ (s.trail_.set i _).set (nu - 1) _
          have hlt : nu - 1 < (s.trail_.set i (s.trail_.getD (nu - 1) Literal.null)).length := by
            rw [List.length_set]
            omega
          have := getD_mem ((s.trail_.set i (s.trail_.getD (nu - 1) Literal.null)).set (nu - 1)
            (s.trail_.getD i Literal.null)) (nu - 1) Literal.null
            (by rw [List.length_set]; exact hlt)
          rw [getD_set_same _ _ _ _ hlt] at this
          exact this
      · simp only [hd, if_false]
        refine key s (i + 1) nu (hkeep s i nu hP hi hnu hd) hnu ?_ (by omega) _ rfl
        exact getD_mem _ _ _ (by omega)
    · rename_i hi
      exact ⟨i, hP, fun _ => by
        show nu ≤ i
        omega⟩

/-- The third loop of `Init` keeps the trail distinct, keeps before its counter only positive
literals and literals of unassigned functions, and returns only reasons of literals of the
trail to the factory. -/
theorem InitCompact_compacting (B : Solver) (fuel : Nat) (s : Solver) (i nu nc : Nat)
    (h : Compacting B s i) (hnu : nu ≤ s.trail_.length) (hfuel : nu - i ≤ fuel) :
    ∃ j, Compacting B (InitCompact fuel s i nu nc).1 j ∧ (InitCompact fuel s i nu nc).2.1 ≤ j := by
  have key := InitCompact_ind (fun s i _ => Compacting B s i) ?_ ?_ ?_ fuel s i nu nc h hnu
  · obtain ⟨j, h1, h2⟩ := key
    exact ⟨j, h1, h2 hfuel⟩
  · intro s i nu hP hi hnu _
    have hget := getD_exchange s.trail_ Literal.null i (nu - 1) (by omega) (by omega)
    have hlen : ((s.trail_.set i (s.trail_.getD (nu - 1) Literal.null)).set (nu - 1)
        (s.trail_.getD i Literal.null)).length = s.trail_.length := by
      rw [List.length_set, List.length_set]
    refine ⟨hP.model, hP.data, ?_, ?_, ?_, hP.freed⟩
    · intro a ha
      apply hP.mem
      rcases List.mem_or_eq_of_mem_set ha with ha | ha
      · rcases List.mem_or_eq_of_mem_set ha with ha | ha
        · exact ha
        · rw [ha]
          exact getD_mem _ _ _ (by omega)
      · rw [ha]
        exact getD_mem _ _ _ (by omega)
    · intro p q hp hq hpq
      have hp2 : p < s.trail_.length := by rw [← hlen]; exact hp
      have hq2 : q < s.trail_.length := by rw [← hlen]; exact hq
      show ((s.trail_.set i (s.trail_.getD (nu - 1) Literal.null)).set (nu - 1)
        (s.trail_.getD i Literal.null)).getD p Literal.null
        ≠ ((s.trail_.set i (s.trail_.getD (nu - 1) Literal.null)).set (nu - 1)
        (s.trail_.getD i Literal.null)).getD q Literal.null
      rw [hget p, hget q]
      split_ifs <;> (apply hP.distinct <;> omega)
    · intro k hk
      show (((s.trail_.set i (s.trail_.getD (nu - 1) Literal.null)).set (nu - 1)
        (s.trail_.getD i Literal.null)).getD k Literal.null).pos = true ∨
        B.model (((s.trail_.set i (s.trail_.getD (nu - 1) Literal.null)).set (nu - 1)
        (s.trail_.getD i Literal.null)).getD k Literal.null).lhs = 0
      rw [hget k, if_neg (by omega), if_neg (by omega)]
      exact hP.kept k hk
  · intro s i nu hP hi hnu hd
    refine ⟨hP.model, hP.data, hP.mem, hP.distinct, ?_, hP.freed⟩
    intro k hk
    by_cases e : k = i
    · rw [e]
      cases hp : (s.trail_.getD i Literal.null).pos
      · right
        rw [← model_congr hP.model]
        by_contra hm
        apply hd
        rw [hp]
        simpa using hm
      · exact Or.inl rfl
    · exact hP.kept k (by omega)
  · intro s i nu a k hP ha hc
    refine ⟨hP.model, hP.data, hP.mem, hP.distinct, hP.kept, ?_⟩
    intro cr hcr
    rcases List.mem_cons.mp hcr with e | e
    · right
      refine ⟨a, hP.mem a ha, ?_, ?_⟩
      · rw [e]
        exact (reason_of_frame B s hP.data hP.model a).symm
      · rw [e]
        simpa using hc
    · exact hP.freed cr e

/-- At the root level the invariant is kept when the trail is replaced by a list of pairwise
distinct literals of the trail that are positive or have an unassigned function, clauses that
are reasons of literals of the trail are returned to the factory, and watchers are dropped. -/
theorem WF_compact {sort : Nat → Nat} {B t : Solver} (h : WF sort B) (hl : B.level_size_ = [0])
    (hmem : ∀ a ∈ t.trail_, a ∈ B.trail_)
    (hdist : ∀ p q, p < t.trail_.length → q < t.trail_.length → p ≠ q →
      t.trail_.getD p Literal.null ≠ t.trail_.getD q Literal.null)
    (hkept : ∀ a ∈ t.trail_, a.pos = true ∨ B.model a.lhs = 0)
    (ep : t.clause_factory_.pool = B.clause_factory_.pool)
    (hfr : ∀ cr ∈ t.clause_factory_.freed, cr ∈ B.clause_factory_.freed ∨
      ∃ a ∈ B.trail_, B.reason_of a = cr ∧ cr ≠ kNullRef ∧ cr ≠ kDomainRef)
    (hwat : ∀ f, ∀ cr ∈ t.watchers_.getD f [], ∃ g, cr ∈ B.watchers_.getD g [])
    (e4 : t.level_size_ = B.level_size_) (e5 : t.model_ = B.model_) (e6 : t.data_ = B.data_)
    (e7 : t.domain_size_ = B.domain_size_) (e8 : t.funcs_ = B.funcs_)
    (e9 : t.names_ = B.names_) : WF sort t := by
  have hcur : B.current_level = 1 := by
    unfold current_level
    rw [hl]
    rfl
  have hA : WF sort ({ B with trail_ := t.trail_ } : Solver) := by
    refine ⟨?_, ⟨h.cls.pool, h.cls.watch⟩, DataWF_frame h.dat rfl rfl rfl, ⟨?_, ?_, ?_, ?_, ?_⟩,
      ?_, h.freed, h.wpos, h.names, h.funcs, ?_⟩
    · refine DomInv_root ({ B with trail_ := t.trail_ } : Solver)
        (DataInv_frame h.dom.dat rfl rfl rfl rfl rfl) hl ?_
      intro a ha hp
      exact h.dom.trocc a (hmem a ha) hp
    · intro a ha
      exact h.trl.recd a (hmem a ha)
    · intro i _ L hL1 hL2
      have : L < 1 := by
        rw [← hcur]
        exact hL1
      have : 1 ≤ L := hL2
      omega
    · intro f _ n _ hlev
      have h1 := h.dat.lev f n
      rw [hcur] at h1
      have h2 : 1 < (B.data f n).level := hlev
      omega
    · intro j hj i hij hlhs
      have hj' : j < t.trail_.length := hj
      have hx := h.trl.recd _ (hmem _ (getD_mem t.trail_ i Literal.null (by omega)))
      have hy := h.trl.recd _ (hmem _ (getD_mem t.trail_ j Literal.null hj'))
      have kx := hkept _ (getD_mem t.trail_ i Literal.null (by omega))
      have ky := hkept _ (getD_mem t.trail_ j Literal.null hj')
      have hne := hdist i j (by omega) hj' (by omega)
      have hlhs' : (t.trail_.getD i Literal.null).lhs = (t.trail_.getD j Literal.null).lhs :=
        hlhs
      show (t.trail_.getD i Literal.null).pos = false ∧
        (t.trail_.getD i Literal.null).rhs ≠ (t.trail_.getD j Literal.null).rhs
      generalize t.trail_.getD i Literal.null = x at hx kx hne hlhs' ⊢
      generalize t.trail_.getD j Literal.null = y at hy ky hne hlhs' ⊢
      obtain ⟨xp, xf, xn⟩ := x
      obtain ⟨yp, yf, yn⟩ := y
      dsimp only at hx hy kx ky hlhs' ⊢
      subst hlhs'
      cases xp with
      | true =>
        exfalso
        have mx := hx.2.1 rfl
        rcases ky with ky | ky
        · have my := hy.2.1 ky
          apply hne
          rw [ky, ← mx, ← my]
        · rw [ky] at mx
          exact hx.1 mx.symm
      | false =>
        refine ⟨rfl, ?_⟩
        intro e
        rcases kx with kx | kx
        · exact Bool.noConfusion kx
        · cases yp with
          | true =>
            have my := hy.2.1 rfl
            rw [kx] at my
            exact hy.1 my.symm
          | false =>
            apply hne
            rw [e]
    · intro i hi
      have hi' : i < B.level_size_.length := hi
      show B.level_size_.getD i 0 ≤ _
      rw [hl] at hi' ⊢
      have : i = 0 := by
        simp only [List.length_singleton] at hi'
        omega
      rw [this]
      exact Nat.zero_le _
    · intro a ha
      exact h.rsn a (hmem a ha)
    · exact h.flags
  refine WF_drop hA ep ?_ hwat rfl e4 e5 e6 e7 e8 e9
  intro cr hcr
  rcases hfr cr hcr with e | ⟨a, ha, hra, hn, hd⟩
  · exact Or.inl e
  · right
    rcases h.rsn a ha with r0 | ⟨r1, _⟩ | ⟨r1, r2, r3, _⟩
    · rw [hra] at r0
      exact absurd r0 hn
    · rw [hra] at r1
      exact absurd r1 hd
    · rw [hra] at r2 r3
      refine ⟨clause_in_range B cr (by omega), Or.inr ⟨a, r3, trail_satisfied h.trl.recd a ha,
        (h.trl.recd a ha).1, ?_⟩⟩
      have := level_of_le h.dat a
      rw [hcur] at this
      exact this

/-! ### `Init` establishes the invariant -/

theorem Compacting_start {sort : Nat → Nat} {B : Solver} (h : WF sort B) : Compacting B B 0 := by
  refine ⟨rfl, rfl, fun _ ha => ha, ?_, ?_, fun _ hcr => Or.inl hcr⟩
  · have key : ∀ p q, p < q → q < B.trail_.length →
        B.trail_.getD p Literal.null ≠ B.trail_.getD q Literal.null := by
      intro p q hpq hq e
      have := h.trl.one q hq p hpq (by rw [e])
      exact this.2 (by rw [e])
    intro p q hp hq hne
    rcases Nat.lt_or_gt_of_ne hne with c | c
    · exact key p q c hq
    · exact fun e => key q p c hp e.symm
  · intro k hk
    exact absurd hk (Nat.not_lt_zero k)

/-- `Init` establishes the invariant when the solver without its trail satisfies it, the
clause list is as `AddClause` leaves it, the literals of the trail are registered, and no
empty clause is met. -/
theorem WF_Init_of (sort : Nat → Nat) (s : Solver)
    (h : WF sort ({ s with trail_ := [] } : Solver))
    (hc : ClauseList ({ s with trail_ := [] } : Solver) 1 s.clauses_.length)
    (hocc : ∀ a ∈ s.trail_, (s.data a.lhs a.rhs).occurs = true)
    (he : (Init sort s).empty_clause_ = false) :
    WF sort (Init sort s) ∧ (Init sort s).level_size_ = [0] := by
  have hflag := InitLoad_flag sort s
  have r := WF_InitLoad sort s h hc hocc
  unfold Init at he ⊢
  dsimp only at he ⊢
  generalize InitLoad sort s = q at hflag r he ⊢
  by_cases hq : q.2.2 = true
  · rw [if_pos hq] at he
    rw [hflag hq] at he
    exact Bool.noConfusion he
  · rw [if_neg hq]
    have hq2 : q.2.2 = false := by
      cases hx : q.2.2
      · rfl
      · exact absurd hx hq
    obtain ⟨W1, L1⟩ := r hq2
    have W2 := (WF_Propagate sort q.1 W1).1
    have L2 := (DomInv_Propagate sort q.1 ⟨W1.dom, W1.cls⟩).2
    generalize (Propagate sort q.1).1 = B at W2 L2 ⊢
    have hl : B.level_size_ = [0] := L2.trans L1
    have c := InitCompact_compacted B.trail_.length B 0 B.trail_.length q.2.1 (Nat.le_refl _)
    obtain ⟨j, k1, k2⟩ := InitCompact_compacting B B.trail_.length B 0 B.trail_.length q.2.1
      (Compacting_start W2) (Nat.le_refl _) (Nat.le_refl _)
    generalize InitCompact B.trail_.length B 0 B.trail_.length q.2.1 = r3 at c k1 k2 ⊢
    obtain ⟨c1, c2, _⟩ := c
    have hle : r3.2.1 ≤ r3.1.trail_.length := by
      rw [c1.len]
      exact c2
    have htr : resize Literal.null r3.2.1 r3.1.trail_ = r3.1.trail_.take r3.2.1 :=
      resize_of_le _ _ _ hle
    have hlen : (r3.1.trail_.take r3.2.1).length = r3.2.1 := by
      rw [List.length_take]
      omega
    refine ⟨WF_compact W2 hl ?_ ?_ ?_ c1.pool k1.freed c1.watch c1.level c1.model c1.data c1.size
      c1.funcs c1.names, c1.level.trans hl⟩
    · intro a ha
      have ha' : a ∈ resize Literal.null r3.2.1 r3.1.trail_ := ha
      rw [htr] at ha'
      exact k1.mem a (List.mem_of_mem_take ha')
    · intro p q hp hq hne
      have hp' : p < (resize Literal.null r3.2.1 r3.1.trail_).length := hp
      have hq' : q < (resize Literal.null r3.2.1 r3.1.trail_).length := hq
      rw [htr, hlen] at hp' hq'
      show (resize Literal.null r3.2.1 r3.1.trail_).getD p Literal.null
        ≠ (resize Literal.null r3.2.1 r3.1.trail_).getD q Literal.null
      rw [htr, getD_take_of_lt _ _ _ hp', getD_take_of_lt _ _ _ hq']
      exact k1.distinct p q (by omega) (by omega) hne
    · intro a ha
      have ha' : a ∈ resize Literal.null r3.2.1 r3.1.trail_ := ha
      rw [htr] at ha'
      obtain ⟨k, hk, e⟩ := (mem_iff_getD _ a).mp ha'
      rw [hlen] at hk
      rw [getD_take_of_lt _ _ _ hk] at e
      rw [← e]
      exact k1.kept k (by omega)

/-! ### What `Register` keeps while the solver is loaded -/

theorem getD_map_rows (F : List Nat → List Nat) (l : List (List Nat)) (r : Nat) :
    (l.map F).getD r [] = if r < l.length then F (l.getD r []) else [] := by
  by_cases h : r < l.length
  · rw [if_pos h]
    simp only [List.getD_eq_getElem?_getD, List.getElem?_map, List.getElem?_eq_getElem h,
      Option.map_some', Option.getD_some]
  · rw [if_neg h]
    exact List.getD_eq_default _ _ (by rw [List.length_map]; omega)

/-- The growth of the name sets in `CapacitateMaps`, for a sort `srt` and a name `x`. -/
theorem names_capacitate (N : List (List Nat)) (sig nig : Nat) (cs cn : Bool) (x srt : Nat)
    (hcap : ∀ r, r < N.length → (N.getD 0 []).length ≤ (N.getD r []).length)
    (hs : cs = true → srt < sig + 1) (hs2 : cs = false → srt < N.length)
    (hn : (cs || cn) = true → x ≤ nig ∧ (N.getD 0 []).length ≤ nig + 1)
    (hn2 : (cs || cn) = false → x < (N.getD 0 []).length)
    (N2 : List (List Nat))
    (e : N2 = if (cs || cn) = true then
        (if cs = true then DenseMap.Capacitate [] sig N else N).map (DenseMap.Capacitate 0 nig)
      else (if cs = true then DenseMap.Capacitate [] sig N else N)) :
    (∀ r k, (N2.getD r []).getD k 0 = (N.getD r []).getD k 0) ∧ srt < N2.length ∧
    (∀ r, r < N2.length → x < (N2.getD r []).length) ∧
    (∀ r, r < N2.length → (N2.getD 0 []).length ≤ (N2.getD r []).length) := by
  by_cases hC : (cs || cn) = true
  · have c1 : ∀ r, (if cs = true then DenseMap.Capacitate [] sig N else N).getD r []
        = N.getD r [] := by
      intro r
      split
      · exact getD_Capacitate [] sig r N
      · rfl
    have l1 : srt < (if cs = true then DenseMap.Capacitate [] sig N else N).length := by
      cases hcs : cs
      · rw [if_neg (by simp)]
        exact hs2 hcs
      · rw [if_pos rfl, length_Capacitate]
        have := hs hcs
        omega
    have l2 : N.length ≤ (if cs = true then DenseMap.Capacitate [] sig N else N).length := by
      split
      · rw [length_Capacitate]
        omega
      · exact Nat.le_refl _
    generalize (if cs = true then DenseMap.Capacitate [] sig N else N) = N1 at e c1 l1 l2
    rw [if_pos hC] at e
    obtain ⟨hx, hL⟩ := hn hC
    have hrow : ∀ r, r < N1.length →
        (N2.getD r []).length = max (N.getD r []).length (nig + 1) := by
      intro r hr
      rw [e, getD_map_rows, if_pos hr, length_Capacitate, c1]
    have hlen : N2.length = N1.length := by
      rw [e, List.length_map]
    refine ⟨?_, by rw [hlen]; exact l1, ?_, ?_⟩
    · intro r k
      rw [e, getD_map_rows]
      split
      · rw [getD_Capacitate, c1]
      · rename_i hr
        rw [List.getD_eq_default N ([] : List Nat) (by omega : N.length ≤ r)]
    · intro r hr
      rw [hlen] at hr
      rw [hrow r hr]
      omega
    · intro r hr
      rw [hlen] at hr
      rw [hrow r hr, hrow 0 (by omega)]
      omega
  · have hC2 : (cs || cn) = false := by
      cases hx : (cs || cn)
      · rfl
      · exact absurd hx hC
    have hcs : cs = false := by
      cases hx : cs
      · rfl
      · rw [hx] at hC2
        exact Bool.noConfusion hC2
    rw [if_neg hC, if_neg (by rw [hcs]; exact Bool.noConfusion)] at e
    rw [e]
    have hx := hn2 hC2
    refine ⟨fun _ _ => rfl, hs2 hcs, ?_, hcap⟩
    intro r hr
    have := hcap r hr
    omega

theorem CapacitateWith_names_ (s : Solver) (fi si ni : Int) (fig sig nig : Nat) :
    (s.CapacitateWith fi si ni fig sig nig).names_
      = if (decide (si ≥ 0) || decide (ni ≥ 0)) = true then
          (if decide (si ≥ 0) = true then DenseMap.Capacitate [] sig s.names_
            else s.names_).map (DenseMap.Capacitate 0 nig)
        else (if decide (si ≥ 0) = true then DenseMap.Capacitate [] sig s.names_
          else s.names_) := by
  unfold CapacitateWith
  dsimp only
  by_cases h1 : si ≥ 0 <;> by_cases h2 : ni ≥ 0 <;> by_cases h3 : fi ≥ 0 <;>
    simp [h1, h2, h3, capacitateFuncs, capacitateSorts, capacitateData, capacitateNames]

/-- After `CapacitateMaps` the name sets hold what they held, the sort `srt` has a name set,
every name set has room for the names `n` and `e`, and every name set is at least as long as
that of the first sort. -/
theorem CapacitateMaps_names (s : Solver) (srt f n e x : Nat) (hx : x = n ∨ x = e)
    (hcap : ∀ r, r < s.names_.length → (s.names_.getD 0 []).length ≤ (s.names_.getD r []).length) :
    (∀ r k, ((s.CapacitateMaps srt f n e).names_.getD r []).getD k 0
      = (s.names_.getD r []).getD k 0) ∧
    srt < (s.CapacitateMaps srt f n e).names_.length ∧
    (∀ r, r < (s.CapacitateMaps srt f n e).names_.length →
      x < ((s.CapacitateMaps srt f n e).names_.getD r []).length) ∧
    (∀ r, r < (s.CapacitateMaps srt f n e).names_.length →
      ((s.CapacitateMaps srt f n e).names_.getD 0 []).length
        ≤ ((s.CapacitateMaps srt f n e).names_.getD r []).length) := by
  have hmax : (x : Int) ≤ (if n > e then (n : Int) else (e : Int)) := by
    rcases hx with hx | hx <;> (rw [hx]; split <;> omega)
  have hL0 : s.names_.length = 0 → (s.names_.getD 0 []).length = 0 := by
    intro h0
    rw [List.length_eq_zero.mp h0]
    rfl
  unfold CapacitateMaps
  dsimp only
  generalize (if n > e then (n : Int) else (e : Int)) = m at hmax
  refine names_capacitate s.names_ _ _ _ _ x srt hcap ?_ ?_ ?_ ?_ _
    (CapacitateWith_names_ s _ _ _ _ _ _)
  · intro hs
    by_cases hc : srt ≥ s.names_.length
    · rw [if_pos hc]
      have hk : ((((srt : Int) + 1) * 3 / 2).toNat : Int) = ((srt : Int) + 1) * 3 / 2 :=
        Int.toNat_of_nonneg (by omega)
      omega
    · rw [if_neg hc] at hs
      simp at hs
  · intro hs
    by_cases hc : srt ≥ s.names_.length
    · rw [if_pos hc] at hs
      simp at hs
    · omega
  · intro _
    by_cases hc : (s.names_.length == 0 ||
        decide (m ≥ ((s.names_.getD 0 []).length : Int))) = true
    · rw [if_pos hc]
      have hm0 : (0 : Int) ≤ m := by omega
      rw [if_pos hm0]
      have hk : (((m + 1) * 3 / 2).toNat : Int) = (m + 1) * 3 / 2 :=
        Int.toNat_of_nonneg (by omega)
      have hN : ((s.names_.getD 0 []).length : Int) ≤ m + 1 := by
        simp only [Bool.or_eq_true, beq_iff_eq, decide_eq_true_eq] at hc
        rcases hc with h0 | h1
        · rw [hL0 h0]
          omega
        · omega
      omega
    · rw [if_neg hc]
      rw [if_neg (by omega)]
      simp only [Bool.or_eq_true, beq_iff_eq, decide_eq_true_eq, not_or] at hc
      omega
  · intro hC
    by_cases hc : (s.names_.length == 0 ||
        decide (m ≥ ((s.names_.getD 0 []).length : Int))) = true
    · rw [if_pos hc] at hC
      have hm0 : (0 : Int) ≤ m := by omega
      simp [hm0] at hC
    · simp only [Bool.or_eq_true, beq_iff_eq, decide_eq_true_eq, not_or] at hc
      omega

theorem markOccurs_marks (s : Solver) (f n g k : Nat) :
    ({ (s.markOccurs f n).data g k with occurs := true } : Data)
      = { s.data g k with occurs := true } := by
  have hd : (s.markOccurs f n).data g k
      = (s.setData f n { s.data f n with occurs := true }).data g k := rfl
  rw [hd]
  rcases data_setData_or s f n g k { s.data f n with occurs := true } with e | ⟨e1, e2, e⟩
  · rw [e]
  · rw [e, e1, e2]

theorem markOccurs_cases (s : Solver) (f n g k : Nat)
    (h : ((s.markOccurs f n).data g k).occurs = true) :
    (s.data g k).occurs = true ∨ (g = f ∧ k = n) := by
  have hd : (s.markOccurs f n).data g k
      = (s.setData f n { s.data f n with occurs := true }).data g k := rfl
  rw [hd] at h
  rcases data_setData_or s f n g k { s.data f n with occurs := true } with e | ⟨e1, e2, _⟩
  · rw [e] at h
    exact Or.inl h
  · exact Or.inr ⟨e1, e2⟩

theorem Register_model_ (s : Solver) (srt f n e : Nat) (g : Nat) :
    (s.Register srt f n e).model g = s.model g := by
  have hm : (s.CapacitateMaps srt f n e).model g = s.model g := by
    unfold model CapacitateMaps
    dsimp only
    rw [CapacitateWith_model_]
    split
    · exact getD_Capacitate 0 _ g s.model_
    · rfl
  unfold Register
  dsimp only
  generalize s.CapacitateMaps srt f n e = s1 at hm ⊢
  split
  · exact hm
  · exact hm

/-- `Register` changes the flag `occurs` only, and sets it for the pair and, when the function
is new, for the pair of the function and the extra name. -/
theorem Register_marks (s : Solver) (srt f n e g k : Nat) :
    ({ (s.Register srt f n e).data g k with occurs := true } : Data)
      = { s.data g k with occurs := true } ∧
    (((s.Register srt f n e).data g k).occurs = true → (s.data g k).occurs = true ∨
      (g = f ∧ k = n) ∨
      (g = f ∧ k = e ∧ DenseSet.Contains (s.CapacitateMaps srt f n e).funcs_ f = false)) := by
  have hE := (Ext_CapacitateMaps s srt f n e).data g k
  unfold Register
  dsimp only
  generalize s.CapacitateMaps srt f n e = s1 at hE ⊢
  have key : ∀ s2 : Solver,
      ({ s2.data g k with occurs := true } : Data) = { s1.data g k with occurs := true } →
      ((s2.data g k).occurs = true → (s1.data g k).occurs = true ∨
        (g = f ∧ k = e ∧ DenseSet.Contains s1.funcs_ f = false)) →
      ({ ((s2.markOccurs f n).insertName srt n).data g k with occurs := true } : Data)
        = { s.data g k with occurs := true } ∧
      ((((s2.markOccurs f n).insertName srt n).data g k).occurs = true →
        (s.data g k).occurs = true ∨ (g = f ∧ k = n) ∨
        (g = f ∧ k = e ∧ DenseSet.Contains s1.funcs_ f = false)) := by
    intro s2 a1 a2
    have hi : ((s2.markOccurs f n).insertName srt n).data g k = (s2.markOccurs f n).data g k :=
      rfl
    rw [hi, markOccurs_marks, a1, hE]
    refine ⟨rfl, ?_⟩
    intro ho
    rcases markOccurs_cases s2 f n g k ho with c | c
    · rcases a2 c with d | d
      · rw [hE] at d
        exact Or.inl d
      · exact Or.inr (Or.inr d)
    · exact Or.inr (Or.inl c)
  split
  · rename_i hc
    have hc2 : DenseSet.Contains s1.funcs_ f = false := by
      cases hx : DenseSet.Contains s1.funcs_ f
      · rfl
      · rw [hx] at hc
        exact Bool.noConfusion hc
    apply key
    · exact markOccurs_marks _ f e g k
    · intro ho
      rcases markOccurs_cases _ f e g k ho with c | c
      · exact Or.inl c
      · exact Or.inr ⟨c.1, c.2, hc2⟩
  · exact key s1 rfl (fun ho => Or.inl ho)

theorem insert_row (N : List (List Nat)) (srt x r : Nat) :
    (N.set srt (DenseSet.Insert (N.getD srt []) x)).getD r []
      = if srt = r ∧ srt < N.length then (N.getD r []).set x x else N.getD r [] := by
  rw [getD_set_eq]
  split
  · rename_i h
    rw [h.1]
    rfl
  · rfl

theorem insert_row_length (N : List (List Nat)) (srt x r : Nat) :
    ((N.set srt (DenseSet.Insert (N.getD srt []) x)).getD r []).length
      = (N.getD r []).length := by
  rw [insert_row]
  split
  · rw [List.length_set]
  · rfl

theorem insert_keep (N : List (List Nat)) (srt x r k : Nat)
    (h : (N.getD r []).getD k 0 = k) :
    ((N.set srt (DenseSet.Insert (N.getD srt []) x)).getD r []).getD k 0 = k := by
  rw [insert_row]
  split
  · rw [getD_set_eq]
    split
    · rename_i e
      exact e.1
    · exact h
  · exact h

theorem insert_new (N : List (List Nat)) (srt x : Nat) (h1 : srt < N.length)
    (h2 : x < (N.getD srt []).length) :
    ((N.set srt (DenseSet.Insert (N.getD srt []) x)).getD srt []).getD x 0 = x := by
  rw [insert_row, if_pos ⟨rfl, h1⟩, getD_set_same _ _ _ _ h2]

theorem Register_names_ (s : Solver) (srt f n e : Nat) :
    (s.Register srt f n e).names_
      = if DenseSet.Contains (s.CapacitateMaps srt f n e).funcs_ f = false then
          ((s.CapacitateMaps srt f n e).names_.set srt (DenseSet.Insert
            ((s.CapacitateMaps srt f n e).names_.getD srt []) e)).set srt (DenseSet.Insert
              (((s.CapacitateMaps srt f n e).names_.set srt (DenseSet.Insert
                ((s.CapacitateMaps srt f n e).names_.getD srt []) e)).getD srt []) n)
        else (s.CapacitateMaps srt f n e).names_.set srt (DenseSet.Insert
          ((s.CapacitateMaps srt f n e).names_.getD srt []) n) := by
  unfold Register
  dsimp only
  generalize s.CapacitateMaps srt f n e = s1
  cases hx : DenseSet.Contains s1.funcs_ f
  · rw [if_pos rfl]
    rfl
  · rw [if_neg (by simp)]
    rfl

theorem Register_funcs_ (s : Solver) (srt f n e : Nat) :
    (s.Register srt f n e).funcs_
      = if DenseSet.Contains (s.CapacitateMaps srt f n e).funcs_ f = false then
          DenseSet.Insert (s.CapacitateMaps srt f n e).funcs_ f
        else (s.CapacitateMaps srt f n e).funcs_ := by
  unfold Register
  dsimp only
  generalize s.CapacitateMaps srt f n e = s1
  cases hx : DenseSet.Contains s1.funcs_ f
  · rw [if_pos rfl]
    rfl
  · rw [if_neg (by simp)]
    rfl

theorem CapacitateMaps_Contains (s : Solver) (srt f n e g : Nat) :
    DenseSet.Contains (s.CapacitateMaps srt f n e).funcs_ g = DenseSet.Contains s.funcs_ g := by
  unfold DenseSet.Contains CapacitateMaps
  dsimp only
  rw [CapacitateWith_funcs_]
  split
  · show (g != 0 && (DenseMap.Capacitate 0 _ s.funcs_).getD g 0 == g) = _
    rw [getD_Capacitate]
  · rfl

/-- `Register` for a function, a name and an extra name other than the null term keeps what
`Quiet` says. -/
theorem Quiet_Register (sort : Nat → Nat) (s : Solver) (f n e : Nat) (h : Quiet sort s)
    (hf0 : f ≠ 0) (hn0 : n ≠ 0) (he0 : e ≠ 0) : Quiet sort (s.Register (sort f) f n e) := by
  have hmarks := Register_marks s (sort f) f n e
  have hN := CapacitateMaps_names s (sort f) f n e n (Or.inl rfl) h.ncap
  have hE := (CapacitateMaps_names s (sort f) f n e e (Or.inr rfl) h.ncap).2.2.1
  have hF := CapacitateMaps_funcs_lt s (sort f) f n e
  have hC := CapacitateMaps_Contains s (sort f) f n e
  have hnames := Register_names_ s (sort f) f n e
  have hfuncs := Register_funcs_ s (sort f) f n e
  refine ⟨(Register_grows s (sort f) f n e h.dat hf0 hn0 he0).1, ?_, ?_, ?_, ?_, ?_⟩
  · intro g
    rw [Register_model_]
    exact h.model g
  · intro g k
    have e1 := (hmarks g k).1
    obtain ⟨a1, a2, a3, a4, a5⟩ := h.fresh g k
    refine ⟨?_, ?_, ?_, ?_, ?_⟩
    · exact (congrArg Data.model_neq e1).trans a1
    · exact (congrArg Data.level e1).trans a2
    · exact (congrArg Data.reason e1).trans a3
    · exact (congrArg Data.seen_subsumed e1).trans a4
    · exact (congrArg Data.wanted e1).trans a5
  · intro g k ho
    rw [hnames]
    obtain ⟨c1, c2, c3, _⟩ := hN
    generalize (s.CapacitateMaps (sort f) f n e).names_ = N at c1 c2 c3 hE ⊢
    rcases (hmarks g k).2 ho with ho | ⟨rfl, rfl⟩ | ⟨rfl, rfl, hc⟩
    · have hold : (N.getD (sort g) []).getD k 0 = k := by
        rw [c1]
        exact h.names g k ho
      split
      · exact insert_keep _ _ _ _ _ (insert_keep _ _ _ _ _ hold)
      · exact insert_keep _ _ _ _ _ hold
    · split
      · apply insert_new
        · rw [List.length_set]
          exact c2
        · rw [insert_row_length]
          exact c3 _ c2
      · exact insert_new _ _ _ c2 (c3 _ c2)
    · rw [if_pos hc]
      exact insert_keep _ _ _ _ _ (insert_new _ _ _ c2 (hE _ c2))
  · intro g k ho
    rw [hfuncs]
    have hins : ∀ x, DenseSet.Contains (s.CapacitateMaps (sort f) f n e).funcs_ x = true →
        DenseSet.Contains (DenseSet.Insert (s.CapacitateMaps (sort f) f n e).funcs_ f) x
          = true := by
      intro x hx
      unfold DenseSet.Contains at hx ⊢
      unfold DenseSet.Insert
      rw [getD_set_eq]
      split
      · rename_i e1
        rw [e1.1]
        simp only [Bool.and_eq_true, bne_iff_ne, ne_eq, beq_iff_eq] at hx ⊢
        exact ⟨hx.1, trivial⟩
      · exact hx
    have hnew : DenseSet.Contains (DenseSet.Insert (s.CapacitateMaps (sort f) f n e).funcs_ f) f
        = true := by
      unfold DenseSet.Contains DenseSet.Insert
      rw [getD_set_same _ _ _ _ hF]
      simp only [Bool.and_eq_true, bne_iff_ne, ne_eq, beq_iff_eq]
      exact ⟨hf0, trivial⟩
    have key : ∀ x, (DenseSet.Contains s.funcs_ x = true ∨ x = f) →
        DenseSet.Contains (if DenseSet.Contains (s.CapacitateMaps (sort f) f n e).funcs_ f = false
          then DenseSet.Insert (s.CapacitateMaps (sort f) f n e).funcs_ f
          else (s.CapacitateMaps (sort f) f n e).funcs_) x = true := by
      intro x hx
      split
      · rcases hx with hx | hx
        · exact hins x (by rw [hC]; exact hx)
        · rw [hx]
          exact hnew
      · rename_i hc
        rcases hx with hx | hx
        · rw [hC]
          exact hx
        · rw [hx]
          cases hy : DenseSet.Contains (s.CapacitateMaps (sort f) f n e).funcs_ f
          · exact absurd hy hc
          · rfl
    rcases (hmarks g k).2 ho with ho | ⟨e1, _⟩ | ⟨e1, _, _⟩
    · exact key g (Or.inl (h.funcs g k ho))
    · exact key g (Or.inr e1)
    · exact key g (Or.inr e1)
  · rw [hnames]
    obtain ⟨_, _, _, c4⟩ := hN
    generalize (s.CapacitateMaps (sort f) f n e).names_ = N at c4 ⊢
    split
    · intro r hr
      rw [List.length_set, List.length_set] at hr
      rw [insert_row_length, insert_row_length, insert_row_length, insert_row_length]
      exact c4 r hr
    · intro r hr
      rw [List.length_set] at hr
      rw [insert_row_length, insert_row_length]
      exact c4 r hr

/-! ### The solver that was loaded through `AddLiteral` and `AddClause` -/

theorem Quiet_frame {sort : Nat → Nat} {s t : Solver} (h : Quiet sort s)
    (e1 : t.data_ = s.data_) (e2 : t.domain_size_ = s.domain_size_)
    (e3 : t.model_ = s.model_) (e4 : t.funcs_ = s.funcs_) (e5 : t.names_ = s.names_) :
    Quiet sort t := by
  refine ⟨DataInv_frame h.dat e1 e2 (by rw [e3]) (by rw [e4]) (by rw [e5]), ?_, ?_, ?_, ?_, ?_⟩
  · intro f
    rw [model_congr e3]
    exact h.model f
  · intro f n
    rw [data_congr e1]
    exact h.fresh f n
  · intro f n ho
    rw [data_congr e1] at ho
    rw [e5]
    exact h.names f n ho
  · intro f n ho
    rw [data_congr e1] at ho
    rw [e4]
    exact h.funcs f n ho
  · rw [e5]
    exact h.ncap

theorem Quiet_foldl (sort extra_name : Nat → Nat) (lits : List Literal) :
    ∀ s : Solver, Quiet sort s →
      (∀ a ∈ lits, a.lhs ≠ 0 ∧ a.rhs ≠ 0 ∧ extra_name (sort a.lhs) ≠ 0) →
      Quiet sort (lits.foldl
        (fun t a => t.Register (sort a.lhs) a.lhs a.rhs (extra_name (sort a.lhs))) s) := by
  induction lits with
  | nil =>
    intro s h _
    exact h
  | cons x xs ih =>
    intro s h hx
    rw [List.foldl_cons]
    obtain ⟨x1, x2, x3⟩ := hx x (List.mem_cons_self _ _)
    exact ih _ (Quiet_Register sort s x.lhs x.rhs (extra_name (sort x.lhs)) h x1 x2 x3)
      (fun a ha => hx a (List.mem_cons_of_mem _ ha))

theorem DomInv_of_Prepared {sort : Nat → Nat} {s : Solver} (h : Prepared sort s) : DomInv s :=
  DomInv_root s h.quiet.dat h.root (fun a ha _ => h.trail a ha)

/-- The solver `t` results from the loaded solver `s` when registrations follow. -/
theorem Prepared_grow {sort : Nat → Nat} {s t : Solver} (h : Prepared sort s)
    (hq : Quiet sort t) (g : Grow s t) (ef : t.clause_factory_ = s.clause_factory_) :
    Prepared sort t := by
  refine ⟨hq, g.level.trans h.root, ?_, ?_, ?_, by rw [ef]; exact h.nonempty⟩
  · rw [g.clauses]
    exact h.clauses
  · intro cr hcr
    rw [ef] at hcr
    have e : t.clause cr = s.clause cr := by
      unfold clause
      rw [ef]
    rw [ef, e]
    exact h.freed cr hcr
  · intro a ha
    rw [g.trail] at ha
    exact g.occurs _ _ (h.trail a ha)

/-- The solver `t` results from the loaded solver `s` when a clause is added to the factory,
and either returned at once when it has fewer than two literals, or listed in `clauses_`. -/
theorem Prepared_new {sort : Nat → Nat} {s t : Solver} (h : Prepared sort s) (c : Clause)
    (e1 : t.data_ = s.data_) (e2 : t.domain_size_ = s.domain_size_)
    (e3 : t.model_ = s.model_) (e4 : t.funcs_ = s.funcs_) (e5 : t.names_ = s.names_)
    (e6 : t.level_size_ = s.level_size_) (e7 : t.trail_ = s.trail_)
    (ep : t.clause_factory_.pool = s.clause_factory_.pool ++ [c])
    (hfr : ∀ cr ∈ t.clause_factory_.freed, cr ∈ s.clause_factory_.freed ∨
      (cr = (s.clause_factory_.pool.length : Int) ∧ c.size < 2))
    (hcl : ∀ j, 1 ≤ j → j < t.clauses_.length → 0 < t.clauses_.getD j 0) :
    Prepared sort t := by
  have hlen : t.clause_factory_.pool.length = s.clause_factory_.pool.length + 1 := by
    rw [ep, List.length_append, List.length_singleton]
  refine ⟨Quiet_frame h.quiet e1 e2 e3 e4 e5, e6.trans h.root, hcl, ?_, ?_, by omega⟩
  · intro cr hcr
    rcases hfr cr hcr with hx | ⟨hx, hs⟩
    · obtain ⟨a1, a2⟩ := h.freed cr hx
      refine ⟨by omega, ?_⟩
      have e : t.clause cr = s.clause cr := by
        unfold clause Factory.get
        rw [ep, List.getD_append _ _ _ _ a1]
      rw [e]
      exact a2
    · have hn : cr.toNat = s.clause_factory_.pool.length := by
        rw [hx]
        rfl
      refine ⟨by omega, ?_⟩
      have e : t.clause cr = c := by
        unfold clause Factory.get
        rw [ep, hn, List.getD_eq_getElem?_getD, List.getElem?_append_right (Nat.le_refl _)]
        simp
      rw [e]
      exact hs
  · intro a ha
    rw [e7] at ha
    rw [data_congr e1]
    exact h.trail a ha

theorem Prepared_AddLiteral (sort extra_name : Nat → Nat) (s : Solver) (a : Literal)
    (h : Prepared sort s) (hf0 : a.lhs ≠ 0) (hn0 : a.rhs ≠ 0)
    (he0 : extra_name (sort a.lhs) ≠ 0) : Prepared sort (AddLiteral sort extra_name s a) := by
  unfold AddLiteral
  split
  · exact h
  · split
    · exact ⟨Quiet_frame h.quiet rfl rfl rfl rfl rfl, h.root, h.clauses, h.freed, h.trail,
        h.nonempty⟩
    · have hq : Quiet sort (s.pushTrail a) := Quiet_frame h.quiet rfl rfl rfl rfl rfl
      have g := (Register_grows (s.pushTrail a) (sort a.lhs) a.lhs a.rhs
        (extra_name (sort a.lhs)) hq.dat hf0 hn0 he0).2
      have ef := Register_factory (s.pushTrail a) (sort a.lhs) a.lhs a.rhs
        (extra_name (sort a.lhs))
      have ho := Register_occurs (s.pushTrail a) (sort a.lhs) a.lhs a.rhs
        (extra_name (sort a.lhs)) hq.dat.capd
      have hQ := Quiet_Register sort (s.pushTrail a) a.lhs a.rhs (extra_name (sort a.lhs)) hq
        hf0 hn0 he0
      generalize (s.pushTrail a).Register (sort a.lhs) a.lhs a.rhs (extra_name (sort a.lhs)) = t
        at g ef ho hQ
      refine ⟨hQ, g.level.trans h.root, ?_, ?_, ?_, ?_⟩
      · rw [g.clauses]
        exact h.clauses
      · intro cr hcr
        have e : t.clause cr = s.clause cr := by
          unfold clause
          rw [ef]
          rfl
        rw [ef] at hcr ⊢
        rw [e]
        exact h.freed cr hcr
      · intro b hb
        rw [g.trail] at hb
        rcases List.mem_append.mp hb with hb | hb
        · exact g.occurs _ _ (h.trail b hb)
        · rw [List.mem_singleton.mp hb]
          exact ho
      · rw [ef]
        exact h.nonempty

theorem Prepared_AddClause (sort extra_name : Nat → Nat) (s : Solver) (as : List Literal)
    (h : Prepared sort s) (hsz : (Clause.Normalize as).size ≠ 1) (h2 : 2 ≤ as.length)
    (hnn : ∀ a ∈ as, a.lhs ≠ 0 ∧ a.rhs ≠ 0 ∧ extra_name (sort a.lhs) ≠ 0) :
    Prepared sort (AddClause sort extra_name s as) := by
  have hdel : (Clause.Normalize as).lits = [] → ∀ b : Bool,
      Prepared sort ({ s with empty_clause_ := b, clause_factory_ :=
        (s.clause_factory_.New as).2.Delete (s.clause_factory_.New as).1 } : Solver) := by
    intro he b
    refine Prepared_new h (Clause.Normalize as) rfl rfl rfl rfl rfl rfl rfl rfl ?_ h.clauses
    intro cr hcr
    rcases List.mem_cons.mp hcr with e | e
    · right
      refine ⟨e, ?_⟩
      unfold Clause.size
      rw [he]
      decide
    · exact Or.inl e
  unfold AddClause
  split
  · rename_i h0
    have : as.length = 0 := by simpa using h0
    omega
  · split
    · rename_i h1
      have : as.length = 1 := by simpa using h1
      omega
    · dsimp only
      rw [clause_New]
      split
      · rename_i hv
        have he : (Clause.Normalize as).lits = [] := by
          unfold Clause.Normalize at hv ⊢
          dsimp only at hv ⊢
          split
          · rfl
          · rename_i hh
            rw [if_neg hh] at hv
            exact Bool.noConfusion hv
        exact hdel he s.empty_clause_
      · split
        · rename_i hu
          have he : (Clause.Normalize as).lits = [] := by
            unfold Clause.unsatisfiable at hu
            simp only [Bool.and_eq_true, List.isEmpty_iff] at hu
            exact hu.2
          exact hdel he true
        · split
          · rename_i h1
            exact absurd (by simpa using h1) hsz
          · have hp0 : Prepared sort ({ ({ s with clause_factory_ := (s.clause_factory_.New as).2 }
                : Solver) with clauses_ := s.clauses_ ++ [(s.clause_factory_.New as).1] }
                : Solver) := by
              refine Prepared_new h (Clause.Normalize as) rfl rfl rfl rfl rfl rfl rfl rfl
                (fun cr hcr => Or.inl hcr) ?_
              intro j hj1 hj
              have hj' : j < (s.clauses_ ++ [(s.clause_factory_.New as).1]).length := hj
              rw [List.length_append, List.length_singleton] at hj'
              show 0 < (s.clauses_ ++ [(s.clause_factory_.New as).1]).getD j 0
              by_cases hlt : j < s.clauses_.length
              · rw [List.getD_append _ _ _ _ hlt]
                exact h.clauses j hj1 hlt
              · have hje : j = s.clauses_.length := by omega
                rw [hje, List.getD_eq_getElem?_getD,
                  List.getElem?_append_right (Nat.le_refl _)]
                simp only [Nat.sub_self, List.getElem?_cons_zero, Option.getD_some]
                show (0 : Int) < (s.clause_factory_.pool.length : Int)
                have := h.nonempty
                omega
            have hq := Quiet_foldl sort extra_name (Clause.Normalize as).lits _ hp0.quiet
              (fun a ha => hnn a (mem_Normalize as a ha))
            obtain ⟨_, r2, r3, _⟩ := foldl_Register_inv sort extra_name
              (Clause.Normalize as).lits _ (DomInv_of_Prepared hp0)
              (fun a ha => hnn a (mem_Normalize as a ha))
            exact Prepared_grow hp0 hq r2 r3

/-- A solver that was loaded through `AddLiteral` and `AddClause` is at the root level, has
assigned and excluded nothing, and has registered the literals of its trail. -/
theorem Ready_Prepared {sort extra_name : Nat → Nat} {s : Solver}
    (h : Ready sort extra_name s) : Prepared sort s := by
  induction h with
  | fresh =>
    have hdata : ∀ f n, init.data f n = Data.null := by
      intro f n
      unfold data init
      simp
    refine ⟨⟨?_, ?_, ?_, ?_, ?_, ?_⟩, rfl, ?_, ?_, ?_, ?_⟩
    · refine ⟨⟨rfl, rfl, fun row hrow => absurd hrow (List.not_mem_nil row)⟩, rfl, ?_, ?_, ?_⟩
      · intro f
        rfl
      · intro f n hn
        rw [hdata] at hn
        exact absurd hn (by decide)
      · intro f n hn
        rw [hdata] at hn
        exact absurd hn (by decide)
    · intro f
      unfold model init
      simp
    · intro f n
      rw [hdata]
      exact ⟨rfl, rfl, rfl, rfl, rfl⟩
    · intro f n ho
      rw [hdata] at ho
      exact absurd ho (by decide)
    · intro f n ho
      rw [hdata] at ho
      exact absurd ho (by decide)
    · intro r hr
      exact absurd hr (Nat.not_lt_zero r)
    · intro j hj1 hj
      have : j < 1 := hj
      omega
    · intro cr hcr
      exact absurd hcr (List.not_mem_nil cr)
    · intro a ha
      exact absurd ha (List.not_mem_nil a)
    · decide
  | literal s a _ hf hn he ih => exact Prepared_AddLiteral sort extra_name s a ih hf hn he
  | clause s as _ hsz h2 hnn ih => exact Prepared_AddClause sort extra_name s as ih hsz h2 hnn

theorem Ready_Reach {sort extra_name : Nat → Nat} {s : Solver}
    (h : Ready sort extra_name s) : Reach sort s := by
  induction h with
  | fresh => exact Reach.fresh
  | literal s a hs hf hn he ih =>
    refine Reach.literal s extra_name a ih ?_ hf hn he
    unfold current_level
    rw [(Ready_Prepared hs).root]
    rfl
  | clause s as _ hsz h2 hnn ih => exact Reach.clause s extra_name as ih hsz h2 hnn

theorem Ready_Loaded {sort extra_name : Nat → Nat} {s : Solver}
    (h : Ready sort extra_name s) : Loaded sort extra_name s := by
  induction h with
  | fresh => exact Loaded.fresh
  | literal s a _ _ _ _ ih => exact Loaded.literal s a ih
  | clause s as _ hsz _ _ ih => exact Loaded.clause s as ih hsz

/-! ### The invariant holds in every round of the loop of `Solve` -/

/-- The loaded solver, without its trail, satisfies the invariant. -/
theorem WF_of_Ready {sort extra_name : Nat → Nat} {s : Solver}
    (h : Ready sort extra_name s) : WF sort ({ s with trail_ := [] } : Solver) := by
  have P := Ready_Prepared h
  have hD := DomInv_of_Reach sort s (Ready_Reach h)
  have hR := Loaded_InitReady (Ready_Loaded h)
  have hun := unwatched_of_InitReady s hR
  have hcur : s.current_level = 1 := by
    unfold current_level
    rw [P.root]
    rfl
  have hrec : ∀ f n, ¬ Recorded ({ s with trail_ := [] } : Solver) f n := by
    intro f n hr
    rcases hr with hr | ⟨hr, h0⟩
    · have := (P.quiet.fresh f n).1
      have hr' : (s.data f n).model_neq = true := hr
      rw [this] at hr'
      exact Bool.noConfusion hr'
    · have hr' : s.model f = n := hr
      rw [P.quiet.model f] at hr'
      exact h0 hr'.symm
  have hneq : ∀ f n, ¬ (s.data f n).model_neq = true := by
    intro f n hx
    rw [(P.quiet.fresh f n).1] at hx
    exact Bool.noConfusion hx
  refine ⟨?_, ⟨hD.2.pool, ?_⟩, ⟨?_, ?_, ?_, ?_, ?_, ?_, ?_, ?_⟩, ⟨?_, ?_, ?_, ?_, ?_⟩, ?_, ?_, ?_,
    P.quiet.names, P.quiet.funcs, ?_⟩
  · refine DomInv_root ({ s with trail_ := [] } : Solver)
      (DataInv_frame P.quiet.dat rfl rfl rfl rfl rfl) P.root ?_
    intro a ha
    exact absurd ha (List.not_mem_nil a)
  · intro f cr hcr
    have hcr' : cr ∈ s.watchers_.getD f [] := hcr
    rw [hun f] at hcr'
    exact absurd hcr' (List.not_mem_nil cr)
  · intro f n hx
    exact absurd hx (hneq f n)
  · intro f n
    show (s.data f n).level ≤ s.current_level
    rw [(P.quiet.fresh f n).2.1]
    exact Nat.zero_le _
  · intro f n hr
    exact absurd hr (hrec f n)
  · intro f n _
    exact (P.quiet.fresh f n).2.1
  · intro f n hx
    exact absurd hx (hneq f n)
  · intro f n hr
    exact absurd hr (hrec f n)
  · show s.current_level < 2 ^ 28
    rw [hcur]
    decide
  · show kRootLevel ≤ s.current_level
    rw [hcur]
    exact Nat.le_refl _
  · intro a ha
    exact absurd ha (List.not_mem_nil a)
  · intro i hi
    exact absurd hi (Nat.not_lt_zero i)
  · intro f _ n _ hlev
    have hlev' : kRootLevel < (s.data f n).level := hlev
    rw [(P.quiet.fresh f n).2.1] at hlev'
    exact absurd hlev' (Nat.not_lt_zero _)
  · intro j hj
    exact absurd hj (Nat.not_lt_zero j)
  · intro i hi
    have hi' : i < s.level_size_.length := hi
    show s.level_size_.getD i 0 ≤ 0
    rw [P.root] at hi' ⊢
    have : i = 0 := by
      simp only [List.length_singleton] at hi'
      omega
    rw [this]
    exact Nat.le_refl _
  · intro a ha
    exact absurd ha (List.not_mem_nil a)
  · intro cr hcr
    obtain ⟨a1, a2⟩ := P.freed cr hcr
    exact ⟨a1, Or.inl a2⟩
  · intro f cr hcr
    have hcr' : cr ∈ s.watchers_.getD f [] := hcr
    rw [hun f] at hcr'
    exact absurd hcr' (List.not_mem_nil cr)
  · rw [flagsClear_iff]
    intro g k
    exact ⟨(P.quiet.fresh g k).2.2.2.1, (P.quiet.fresh g k).2.2.2.2⟩

/-- The clause list of the loaded solver is as the second loop of `Init` needs it. -/
theorem ClauseList_of_Ready {sort extra_name : Nat → Nat} {s : Solver}
    (h : Ready sort extra_name s) :
    ClauseList ({ s with trail_ := [] } : Solver) 1 s.clauses_.length := by
  have P := Ready_Prepared h
  have hR := Loaded_InitReady (Ready_Loaded h)
  have hun := unwatched_of_InitReady s hR
  refine ⟨Nat.le_refl _, Nat.le_refl _, hR.2.1, P.clauses, ?_, ?_, ?_, P.root⟩
  · intro j hj1 hj
    exact hR.2.2 j hj hj1
  · intro f x hx
    have hx' : x ∈ s.watchers_.getD f [] := hx
    rw [hun f] at hx'
    exact absurd hx' (List.not_mem_nil x)
  · intro g k
    show (s.data g k).reason ≤ 0
    rw [(P.quiet.fresh g k).2.2.1]

/-- `Init` establishes the invariant of the loop of `Solve` for a loaded solver, unless it
meets an empty clause. -/
theorem WF_Init (sort extra_name : Nat → Nat) (s : Solver) (h : Ready sort extra_name s)
    (he : (Init sort s).empty_clause_ = false) : WF sort (Init sort s) :=
  (WF_Init_of sort s (WF_of_Ready h) (ClauseList_of_Ready h) (Ready_Prepared h).trail he).1

/-- The invariant holds whenever a round of the loop of `Solve` starts. -/
theorem Run_WF {sort extra_name : Nat → Nat} {s : Solver} (h : Run sort extra_name s) :
    WF sort s := by
  induction h with
  | start s hr he => exact WF_Init sort extra_name s hr he
  | conflict s _ hc hl hdef hrsv ih => exact WF_conflictRound sort s ih hc hl hdef hrsv
  | decision s _ _ _ hn hb ih => exact WF_firstDecision sort s ih hn hb

/-- When `Propagate` returns a conflict above the root level in a round of the loop of `Solve`,
the solver is in the state that `Analyze` needs. -/
theorem Run_conflict {sort extra_name : Nat → Nat} {s : Solver} (h : Run sort extra_name s)
    (hc : (Propagate sort s).2 ≠ kNullRef)
    (hl : (Propagate sort s).1.current_level ≠ kRootLevel) :
    ConflictState (Propagate sort s).1 (Propagate sort s).2 ∧
      TrailOrdered (Propagate sort s).1 := by
  obtain ⟨h1, hconf⟩ := WF_Propagate sort s (Run_WF h)
  obtain ⟨hlive, _, hall⟩ := hconf hc
  exact ConflictState_of_WF h1 _ hl hlive hall

/-! ### The learnt clause in the runs of `Solve` -/

theorem compactedInput_Ready : Ready oneSort extraNine compactedInput :=
  Ready.literal _ _
    (Ready.clause _ _
      (Ready.clause _ _
        (Ready.clause _ _ Ready.fresh (by decide) (by decide) (by decide))
        (by decide) (by decide) (by decide))
      (by decide) (by decide) (by decide))
    (by decide) (by decide) (by decide)

/-- The state `compactedRound` is reached by a run of `Solve`. -/
theorem compactedRound_Run : Run oneSort extraNine compactedRound :=
  Run.decision _
    (Run.decision _ (Run.start _ compactedInput_Ready (by decide!))
      (by decide!) (by decide!) (by decide!) (by decide!))
    (by decide!) (by decide!) (by decide!) (by decide!)

/-- C35: in a round of the loop of `Solve`, run on a solver that was loaded through `AddLiteral`
and `AddClause` and initialised by `Init`, in which `Propagate` returns a conflict above the root
level, and when the run of `Analyze` meets its assertions, the learnt clause is true in every
assignment that satisfies the clauses that the solver holds, what it records for the root
level, and the constraint that every registered function takes one of its occurring names. -/
theorem C35_learnt_clause_is_consequence (sort extra_name : Nat → Nat) (s : Solver)
    (M : Nat → Nat) (hrun : Run sort extra_name s) (hc : (Propagate sort s).2 ≠ kNullRef)
    (hl : (Propagate sort s).1.current_level ≠ kRootLevel)
    (hdef : AnalyzeDefined sort ((Propagate sort s).1.trail_.length + 1)
      (AnalyzeStart (Propagate sort s).1) (Propagate sort s).2 = true)
    (hrsv : AnalyzeResolves sort ((Propagate sort s).1.trail_.length + 1)
      (AnalyzeStart (Propagate sort s).1) (Propagate sort s).2 = true)
    (hM : Models sort (Propagate sort s).1 M) :
    ∃ a ∈ (Analyze sort (Propagate sort s).1 (Propagate sort s).2).2.1, holds M a = true :=
  Analyze_learnt_consequence sort (Propagate sort s).1 (Propagate sort s).2 M
    (Run_conflict hrun hc hl).1 hdef hrsv hM

/-- Witness for C35: the round that starts in `compactedRound`; `compactedModel` satisfies the
clauses that the factory holds, the record of the root level and the domain constraint, and it
makes the literal `h ≠ 9` of the learnt clause true. -/
theorem C35_learnt_clause_is_consequence_witness :
    Run oneSort extraNine compactedRound ∧
    (Propagate oneSort compactedRound).2 ≠ kNullRef ∧
    (Propagate oneSort compactedRound).1.current_level ≠ kRootLevel ∧
    AnalyzeDefined oneSort ((Propagate oneSort compactedRound).1.trail_.length + 1)
      (AnalyzeStart (Propagate oneSort compactedRound).1)
      (Propagate oneSort compactedRound).2 = true ∧
    AnalyzeResolves oneSort ((Propagate oneSort compactedRound).1.trail_.length + 1)
      (AnalyzeStart (Propagate oneSort compactedRound).1)
      (Propagate oneSort compactedRound).2 = true ∧
    Models oneSort (Propagate oneSort compactedRound).1 compactedModel ∧
    (∃ a ∈ (Analyze oneSort (Propagate oneSort compactedRound).1
        (Propagate oneSort compactedRound).2).2.1, holds compactedModel a = true) :=
  ⟨compactedRound_Run, by decide!, by decide!, by decide!, by decide!, by decide!,
    C35_learnt_clause_is_consequence oneSort extraNine compactedRound compactedModel
      compactedRound_Run (by decide!) (by decide!) (by decide!) (by decide!) (by decide!)⟩

/-! ### At most one assignment for each pair -/

theorem OneAssignment_of_WF {sort : Nat → Nat} {s : Solver} (h : WF sort s) :
    OneAssignment s := by
  refine ⟨?_, ?_, ?_⟩
  · intro j hj i hij hc
    exact (h.trl.one j hj i hij hc.1).2 hc.2
  · intro a hc
    exact not_satisfied_falsified h.dat a hc.1 hc.2
  · intro f n hc
    exact h.dat.cons f n hc.2 hc.1

/-- C21: at the points of the loop of `Solve`, run on a solver that was loaded through
`AddLiteral` and `AddClause` and initialised by `Init`, the trail holds no two literals with the
same function and name, no literal is both satisfied and falsified, and no name is both
assigned to a function and excluded for it: when a round starts, which covers the state that
`Init` leaves and the state in which every round ends; after `Propagate`; in a round with a
conflict above the root level in which `Analyze` meets its assertions, after `Analyze` and
after `Backtrack(btlevel)`; in a round with a decision, after `CandidateName` and after
`NewLevel`; and after the `Backtrack(kRootLevel)` with which `Solve` ends above the root
level. -/
theorem C21_one_assignment_per_pair (sort extra_name : Nat → Nat) (s : Solver)
    (hrun : Run sort extra_name s) :
    OneAssignment s ∧ OneAssignment (Propagate sort s).1 ∧
    ((Propagate sort s).2 ≠ kNullRef → (Propagate sort s).1.current_level ≠ kRootLevel →
      AnalyzeDefined sort ((Propagate sort s).1.trail_.length + 1)
        (AnalyzeStart (Propagate sort s).1) (Propagate sort s).2 = true →
      AnalyzeResolves sort ((Propagate sort s).1.trail_.length + 1)
        (AnalyzeStart (Propagate sort s).1) (Propagate sort s).2 = true →
      OneAssignment (Analyze sort (Propagate sort s).1 (Propagate sort s).2).1 ∧
      OneAssignment ((Analyze sort (Propagate sort s).1 (Propagate sort s).2).1.Backtrack
        (Analyze sort (Propagate sort s).1 (Propagate sort s).2).2.2) ∧
      OneAssignment (conflictRound sort s)) ∧
    ((Propagate sort s).2 = kNullRef →
      OneAssignment (CandidateName sort (Propagate sort s).1
        (Propagate sort s).1.order_.Top).2 ∧
      ((Propagate sort s).1.current_level + 1 < 2 ^ 28 →
        OneAssignment (CandidateName sort (Propagate sort s).1
          (Propagate sort s).1.order_.Top).2.NewLevel ∧
        ((CandidateName sort (Propagate sort s).1 (Propagate sort s).1.order_.Top).1 ≠ 0 →
          OneAssignment (firstDecision sort s)))) ∧
    (kRootLevel < s.current_level → OneAssignment (s.Backtrack kRootLevel)) := by
  have h := Run_WF hrun
  obtain ⟨h1, hconf⟩ := WF_Propagate sort s h
  refine ⟨OneAssignment_of_WF h, OneAssignment_of_WF h1, ?_, ?_, ?_⟩
  · intro hc hl hdef hrsv
    obtain ⟨hlive, _, hall⟩ := hconf hc
    obtain ⟨a1, a2, _⟩ := WF_analyzed sort _ _ h1 hl hlive hall hdef hrsv
    exact ⟨OneAssignment_of_WF a1, OneAssignment_of_WF a2,
      OneAssignment_of_WF (WF_conflictRound sort s h hc hl hdef hrsv)⟩
  · intro _
    have h2 := WF_CandidateName sort _ (Propagate sort s).1.order_.Top h1
    refine ⟨OneAssignment_of_WF h2, ?_⟩
    intro hb
    have hlv := CandidateName_level_size_ sort (Propagate sort s).1
      (Propagate sort s).1.order_.Top
    have hb2 : (CandidateName sort (Propagate sort s).1
        (Propagate sort s).1.order_.Top).2.current_level + 1 < 2 ^ 28 := by
      unfold current_level at hb ⊢
      rw [hlv]
      exact hb
    exact ⟨OneAssignment_of_WF (WF_NewLevel sort _ h2 hb2),
      fun hn => OneAssignment_of_WF (WF_firstDecision sort s h hn hb)⟩
  · intro hl
    exact OneAssignment_of_WF (WF_Backtrack sort s kRootLevel h (Nat.le_refl _) hl)

/-- Witness for C21: the round that starts in `compactedRound`. -/
theorem C21_one_assignment_per_pair_witness :
    Run oneSort extraNine compactedRound ∧ OneAssignment compactedRound ∧
    OneAssignment (Propagate oneSort compactedRound).1 :=
  ⟨compactedRound_Run,
    (C21_one_assignment_per_pair oneSort extraNine compactedRound compactedRound_Run).1,
    (C21_one_assignment_per_pair oneSort extraNine compactedRound compactedRound_Run).2.1⟩

/-! ### Cancellation by a callback -/

/-- When the loop of `Solve` is left because a callback has returned false, `Solve` calls
`Backtrack(kRootLevel)` and returns `0`. -/
theorem SolveLoop_stop {σ : Type} (sort : Nat → Nat)
    (cp : σ → Solver → Nat → Int → List Literal → Nat → Bool × σ)
    (dp : σ → Solver → Nat → Literal → Bool × σ) (fuel : Nat) (s : Solver) (cb : σ) :
    SolveLoop sort cp dp (fuel + 1) s cb false = some (0, s.Backtrack kRootLevel, cb) := by
  rw [SolveLoop]
  rfl

/-- A round of the loop of `Solve` with a conflict above the root level: the loop goes on in the
state `conflictRound` with what the conflict callback returns. -/
theorem SolveLoop_conflict_step {σ : Type} (sort : Nat → Nat)
    (cp : σ → Solver → Nat → Int → List Literal → Nat → Bool × σ)
    (dp : σ → Solver → Nat → Literal → Bool × σ) (fuel : Nat) (s : Solver) (cb : σ)
    (hc : (Propagate sort s).2 ≠ kNullRef)
    (hl : (Propagate sort s).1.current_level ≠ kRootLevel) :
    SolveLoop sort cp dp (fuel + 1) s cb true
      = SolveLoop sort cp dp fuel (conflictRound sort s)
          (cp cb (Analyze sort (Propagate sort s).1 (Propagate sort s).2).1
            (Analyze sort (Propagate sort s).1 (Propagate sort s).2).1.current_level
            (Propagate sort s).2
            (Analyze sort (Propagate sort s).1 (Propagate sort s).2).2.1
            (Analyze sort (Propagate sort s).1 (Propagate sort s).2).2.2).2
          (cp cb (Analyze sort (Propagate sort s).1 (Propagate sort s).2).1
            (Analyze sort (Propagate sort s).1 (Propagate sort s).2).1.current_level
            (Propagate sort s).2
            (Analyze sort (Propagate sort s).1 (Propagate sort s).2).2.1
            (Analyze sort (Propagate sort s).1 (Propagate sort s).2).2.2).1 := by
  have hc2 : ((Propagate sort s).2 != kNullRef) = true := bne_iff_ne.mpr hc
  have hl2 : ¬ ((Propagate sort s).1.current_level == kRootLevel) = true :=
    fun e => hl (beq_iff_eq.mp e)
  rw [SolveLoop]
  unfold conflictRound
  rw [if_pos rfl]
  dsimp only
  rw [if_pos hc2, if_neg hl2]
  by_cases hlen :
      ((Analyze sort (Propagate sort s).1 (Propagate sort s).2).2.1.length == 1) = true
  · rw [if_pos hlen, if_pos hlen]
    rfl
  · rw [if_neg hlen, if_neg hlen]
    rfl

/-- A round of the loop of `Solve` with a decision: the loop goes on in the state
`firstDecision` with what the decision callback returns. -/
theorem SolveLoop_decision_step {σ : Type} (sort : Nat → Nat)
    (cp : σ → Solver → Nat → Int → List Literal → Nat → Bool × σ)
    (dp : σ → Solver → Nat → Literal → Bool × σ) (fuel : Nat) (s : Solver) (cb : σ)
    (hc : (Propagate sort s).2 = kNullRef) (hf : (Propagate sort s).1.order_.Top ≠ 0)
    (hn : (CandidateName sort (Propagate sort s).1 (Propagate sort s).1.order_.Top).1 ≠ 0) :
    SolveLoop sort cp dp (fuel + 1) s cb true
      = SolveLoop sort cp dp fuel (firstDecision sort s)
          (dp cb (firstDecision sort s) (firstDecision sort s).current_level
            (Literal.Eq (Propagate sort s).1.order_.Top
              (CandidateName sort (Propagate sort s).1 (Propagate sort s).1.order_.Top).1)).2
          (dp cb (firstDecision sort s) (firstDecision sort s).current_level
            (Literal.Eq (Propagate sort s).1.order_.Top
              (CandidateName sort (Propagate sort s).1 (Propagate sort s).1.order_.Top).1)).1 := by
  have hc2 : ¬ ((Propagate sort s).2 != kNullRef) = true := fun e => bne_iff_ne.mp e hc
  have hf2 : ¬ ((Propagate sort s).1.order_.Top == 0) = true := fun e => hf (beq_iff_eq.mp e)
  have hn2 : ¬ ((CandidateName sort (Propagate sort s).1 (Propagate sort s).1.order_.Top).1
      == 0) = true := fun e => hn (beq_iff_eq.mp e)
  rw [SolveLoop]
  unfold firstDecision
  rw [if_pos rfl]
  dsimp only
  rw [if_neg hc2, if_neg hf2, if_neg hn2]
  rfl

/-- In a state of the invariant, each literal of the trail has a level from the root level up
to the current level. -/
theorem trail_level_bounds {sort : Nat → Nat} {s : Solver} (h : WF sort s) :
    ∀ a ∈ s.trail_, kRootLevel ≤ s.level_of a ∧ s.level_of a ≤ s.current_level := by
  intro a ha
  obtain ⟨h0, hp, hn⟩ := h.trl.recd a ha
  unfold level_of
  dsimp only
  cases hpos : a.pos with
  | false =>
    rw [hn hpos]
    exact ⟨h.dat.set _ _ (Or.inl (hn hpos)), h.dat.lev _ _⟩
  | true =>
    rw [hp hpos]
    exact ⟨h.dat.set _ _ (Or.inr ⟨hp hpos, h0⟩), h.dat.lev _ _⟩

/-- From a state of the invariant above the root level, `Backtrack(kRootLevel)` leads to the
root level, with a trail of literals of the root level and with clear flags. -/
theorem Backtrack_AtRoot (sort : Nat → Nat) (s : Solver) (h : WF sort s)
    (hl : kRootLevel < s.current_level) : AtRoot (s.Backtrack kRootLevel) := by
  have hw := WF_Backtrack sort s kRootLevel h (Nat.le_refl _) hl
  have hU := Backtrack_Undo s kRootLevel h.dat h.trl (Nat.le_refl _) hl
  have hcl := Undo_current_level hU hl
  refine ⟨hcl, fun a ha => ?_, hw.flags⟩
  have hb := trail_level_bounds hw a ha
  rw [hcl] at hb
  exact Nat.le_antisymm hb.2 hb.1

/-- The level that `Analyze` returns for a conflict above the root level lies between the root
level and the current level, the latter excluded. -/
theorem Analyze_btlevel_bounds (sort : Nat → Nat) (s1 : Solver) (conflict : Int)
    (h1 : WF sort s1) (hl : s1.current_level ≠ kRootLevel) (hlive : Live s1 conflict)
    (hall : ∀ a ∈ (s1.clause conflict).lits, s1.falsifies a (-1) = true)
    (hdef : AnalyzeDefined sort (s1.trail_.length + 1) (AnalyzeStart s1) conflict = true)
    (hrsv : AnalyzeResolves sort (s1.trail_.length + 1) (AnalyzeStart s1) conflict = true) :
    kRootLevel ≤ (Analyze sort s1 conflict).2.2 ∧
    (Analyze sort s1 conflict).2.2 < (Analyze sort s1 conflict).1.current_level := by
  obtain ⟨hCS, hTO⟩ := ConflictState_of_WF h1 conflict hl hlive hall
  have hfacts := Analyze_loop_facts sort s1 conflict hCS hdef hrsv
  have hres := Analyze_result sort s1 conflict _ _ rfl rfl
  have hfr : Frame s1 (Analyze sort s1 conflict).1 :=
    Frame_trans _ _ _ hfacts.1.frame hres.1
  have hA := Analyze_learnt_asserting sort s1 conflict hCS hTO hdef hrsv
  have hcl := Frame_current_level s1 _ hfr
  obtain ⟨_, hA2, _, _, hA5, hA6⟩ := hA
  refine ⟨hA5, ?_⟩
  rw [hcl, ← hA2]
  exact hA6

/-- The round with a conflict leaves the level marks as `Backtrack(btlevel)` has set them. -/
theorem conflictRound_level_size_ (sort : Nat → Nat) (s : Solver) :
    (conflictRound sort s).level_size_
      = ((Analyze sort (Propagate sort s).1 (Propagate sort s).2).1.Backtrack
          (Analyze sort (Propagate sort s).1 (Propagate sort s).2).2.2).level_size_ := by
  unfold conflictRound
  dsimp only
  split
  · rw [Enqueue_level_size_]
  · rw [Enqueue_level_size_]
    rfl

/-- After a round with a conflict above the root level, the current level is the level that
`Analyze` has returned. -/
theorem conflictRound_current_level (sort : Nat → Nat) (s : Solver) (h : WF sort s)
    (hc : (Propagate sort s).2 ≠ kNullRef)
    (hl : (Propagate sort s).1.current_level ≠ kRootLevel)
    (hdef : AnalyzeDefined sort ((Propagate sort s).1.trail_.length + 1)
      (AnalyzeStart (Propagate sort s).1) (Propagate sort s).2 = true)
    (hrsv : AnalyzeResolves sort ((Propagate sort s).1.trail_.length + 1)
      (AnalyzeStart (Propagate sort s).1) (Propagate sort s).2 = true) :
    (conflictRound sort s).current_level
      = (Analyze sort (Propagate sort s).1 (Propagate sort s).2).2.2 := by
  have hp := WF_Propagate sort s h
  have hb := Analyze_btlevel_bounds sort _ _ hp.1 hl (hp.2 hc).1 (hp.2 hc).2.2 hdef hrsv
  have h2 := (WF_analyzed sort _ _ hp.1 hl (hp.2 hc).1 (hp.2 hc).2.2 hdef hrsv).1
  have hU := Backtrack_Undo _ _ h2.dat h2.trl hb.1 hb.2
  have e := Undo_current_level hU hb.2
  unfold current_level at e ⊢
  rw [conflictRound_level_size_]
  exact e

/-- A decision opens a new level. -/
theorem firstDecision_current_level (sort : Nat → Nat) (s : Solver) :
    (firstDecision sort s).current_level = (Propagate sort s).1.current_level + 1 := by
  unfold firstDecision current_level
  dsimp only
  rw [Enqueue_level_size_]
  unfold NewLevel
  dsimp only
  rw [List.length_append, CandidateName_level_size_]
  rfl

/-- Cancellation by the decision callback: in a round of a run of `Solve` in which a decision is
made and the decision callback returns false, `Solve` returns `0`, at the root level, with a
trail of literals of the root level and with clear flags. -/
theorem Solve_cancel_decision {σ : Type} (sort extra_name : Nat → Nat)
    (cp : σ → Solver → Nat → Int → List Literal → Nat → Bool × σ)
    (dp : σ → Solver → Nat → Literal → Bool × σ) (fuel : Nat) (s : Solver) (cb : σ)
    (hrun : Run sort extra_name s)
    (hc : (Propagate sort s).2 = kNullRef) (hf : (Propagate sort s).1.order_.Top ≠ 0)
    (hn : (CandidateName sort (Propagate sort s).1 (Propagate sort s).1.order_.Top).1 ≠ 0)
    (hb : (Propagate sort s).1.current_level + 1 < 2 ^ 28)
    (hfalse : (dp cb (firstDecision sort s) (firstDecision sort s).current_level
      (Literal.Eq (Propagate sort s).1.order_.Top
        (CandidateName sort (Propagate sort s).1 (Propagate sort s).1.order_.Top).1)).1
      = false) :
    SolveLoop sort cp dp (fuel + 2) s cb true
      = some (0, (firstDecision sort s).Backtrack kRootLevel,
          (dp cb (firstDecision sort s) (firstDecision sort s).current_level
            (Literal.Eq (Propagate sort s).1.order_.Top
              (CandidateName sort (Propagate sort s).1
                (Propagate sort s).1.order_.Top).1)).2) ∧
    AtRoot ((firstDecision sort s).Backtrack kRootLevel) := by
  have hw := Run_WF hrun
  have hw2 := WF_firstDecision sort s hw hn hb
  have hlev : kRootLevel < (firstDecision sort s).current_level := by
    rw [firstDecision_current_level]
    have := (WF_Propagate sort s hw).1.dat.root
    omega
  refine ⟨?_, Backtrack_AtRoot sort _ hw2 hlev⟩
  rw [SolveLoop_decision_step sort cp dp (fuel + 1) s cb hc hf hn, hfalse]
  exact SolveLoop_stop sort cp dp fuel _ _

/-- Cancellation by the conflict callback above the root level: in a round of a run of `Solve`
with a conflict for which `Analyze` returns a level above the root level, and in which the
conflict callback returns false, `Solve` returns `0`, at the root level, with a trail of
literals of the root level and with clear flags. -/
theorem Solve_cancel_conflict {σ : Type} (sort extra_name : Nat → Nat)
    (cp : σ → Solver → Nat → Int → List Literal → Nat → Bool × σ)
    (dp : σ → Solver → Nat → Literal → Bool × σ) (fuel : Nat) (s : Solver) (cb : σ)
    (hrun : Run sort extra_name s)
    (hc : (Propagate sort s).2 ≠ kNullRef)
    (hl : (Propagate sort s).1.current_level ≠ kRootLevel)
    (hdef : AnalyzeDefined sort ((Propagate sort s).1.trail_.length + 1)
      (AnalyzeStart (Propagate sort s).1) (Propagate sort s).2 = true)
    (hrsv : AnalyzeResolves sort ((Propagate sort s).1.trail_.length + 1)
      (AnalyzeStart (Propagate sort s).1) (Propagate sort s).2 = true)
    (hbt : (Analyze sort (Propagate sort s).1 (Propagate sort s).2).2.2 ≠ kRootLevel)
    (hfalse : (cp cb (Analyze sort (Propagate sort s).1 (Propagate sort s).2).1
      (Analyze sort (Propagate sort s).1 (Propagate sort s).2).1.current_level
      (Propagate sort s).2
      (Analyze sort (Propagate sort s).1 (Propagate sort s).2).2.1
      (Analyze sort (Propagate sort s).1 (Propagate sort s).2).2.2).1 = false) :
    SolveLoop sort cp dp (fuel + 2) s cb true
      = some (0, (conflictRound sort s).Backtrack kRootLevel,
          (cp cb (Analyze sort (Propagate sort s).1 (Propagate sort s).2).1
            (Analyze sort (Propagate sort s).1 (Propagate sort s).2).1.current_level
            (Propagate sort s).2
            (Analyze sort (Propagate sort s).1 (Propagate sort s).2).2.1
            (Analyze sort (Propagate sort s).1 (Propagate sort s).2).2.2).2) ∧
    AtRoot ((conflictRound sort s).Backtrack kRootLevel) := by
  have hw := Run_WF hrun
  have hw2 := WF_conflictRound sort s hw hc hl hdef hrsv
  have hp := WF_Propagate sort s hw
  have hb := Analyze_btlevel_bounds sort _ _ hp.1 hl (hp.2 hc).1 (hp.2 hc).2.2 hdef hrsv
  have hlev : kRootLevel < (conflictRound sort s).current_level := by
    rw [conflictRound_current_level sort s hw hc hl hdef hrsv]
    exact Nat.lt_of_le_of_ne hb.1 (Ne.symm hbt)
  refine ⟨?_, Backtrack_AtRoot sort _ hw2 hlev⟩
  rw [SolveLoop_conflict_step sort cp dp (fuel + 1) s cb hc hl, hfalse]
  exact SolveLoop_stop sort cp dp fuel _ _

theorem unitLearntInput_Ready : Ready oneSort extraNine unitLearntInput :=
  Ready.literal _ _
    (Ready.clause _ _
      (Ready.clause _ _ Ready.fresh (by decide) (by decide) (by decide))
      (by decide) (by decide) (by decide))
    (by decide) (by decide) (by decide)

/-- An instance of `Solve_cancel_decision`: for `unitLearntInput` and a decision callback that
returns false, `Solve` returns `0` after the decision `f = 9`, at the root level with the trail
`h = 1`. -/
theorem Solve_cancel_decision_example :
    Solve oneSort conflictCancel decisionCancel 2 (Init oneSort unitLearntInput) ()
      = some (0, (firstDecision oneSort (Init oneSort unitLearntInput)).Backtrack kRootLevel,
          ()) ∧
    AtRoot ((firstDecision oneSort (Init oneSort unitLearntInput)).Backtrack kRootLevel) ∧
    ((firstDecision oneSort (Init oneSort unitLearntInput)).Backtrack kRootLevel).trail_
      = [⟨true, 3, 1⟩] := by
  have h := Solve_cancel_decision oneSort extraNine conflictCancel decisionCancel 0
    (Init oneSort unitLearntInput) () (Run.start _ unitLearntInput_Ready (by decide!))
    (by decide!) (by decide!) (by decide!) (by decide!) rfl
  refine ⟨?_, h.2, by decide!⟩
  unfold Solve
  rw [if_neg (by decide!)]
  exact h.1

/-- An instance of `Solve_cancel_conflict`: in the round that starts in `compactedRound`,
`Analyze` returns the level `2`; with a conflict callback that returns false, `Solve` returns
`0` at the root level. -/
theorem Solve_cancel_conflict_example :
    (Analyze oneSort (Propagate oneSort compactedRound).1
      (Propagate oneSort compactedRound).2).2.2 = 2 ∧
    SolveLoop oneSort conflictCancel decisionGo 2 compactedRound () true
      = some (0, (conflictRound oneSort compactedRound).Backtrack kRootLevel, ()) ∧
    AtRoot ((conflictRound oneSort compactedRound).Backtrack kRootLevel) :=
  ⟨by decide!,
    Solve_cancel_conflict oneSort extraNine conflictCancel decisionGo 0 compactedRound ()
      compactedRound_Run (by decide!) (by decide!) (by decide!) (by decide!) (by decide!) rfl⟩

/-! ### Domain propagation in the states of the invariant -/

theorem freeCount_pos_of (row : List Data) (j : Nat) (hj : j < row.length)
    (hf : (row.getD j Data.null).free = true) : 0 < freeCount row := by
  unfold freeCount
  have hmem : row.getD j Data.null ∈ row.filter Data.free :=
    List.mem_filter.mpr ⟨getD_mem _ _ _ hj, hf⟩
  have := List.length_pos_of_mem hmem
  omega

theorem free_iff (d : Data) : d.free = true ↔ d.occurs = true ∧ d.model_neq = false := by
  unfold Data.free
  cases d.occurs <;> cases d.model_neq <;> simp

/-- In a row with one free entry, the free entry is the only one. -/
theorem freeCount_one (row : List Data) (k : Nat) (hc : freeCount row = 1)
    (hk : k < row.length) (hf : (row.getD k Data.null).free = true) :
    ∀ j, j < row.length → (row.getD j Data.null).free = true → j = k := by
  intro j hj hjf
  by_contra hne
  have e := freeCount_set row k Data.null hk
  rw [hc, if_pos hf, if_neg (by decide)] at e
  have hj2 : j < (row.set k Data.null).length := by
    rw [List.length_set]
    exact hj
  have hjf2 : ((row.set k Data.null).getD j Data.null).free = true := by
    rw [getD_set_ne _ _ _ _ _ (fun e => hne e.symm)]
    exact hjf
  have := freeCount_pos_of _ j hj2 hjf2
  omega

/-- In a row with two free entries, a free entry has exactly one free companion. -/
theorem freeCount_two (row : List Data) (n : Nat) (hc : freeCount row = 2)
    (hn : n < row.length) (hf : (row.getD n Data.null).free = true) :
    ∃ k, k < row.length ∧ k ≠ n ∧ (row.getD k Data.null).free = true ∧
      ∀ j, j < row.length → (row.getD j Data.null).free = true → j = k ∨ j = n := by
  have e := freeCount_set row n Data.null hn
  rw [hc, if_pos hf, if_neg (by decide)] at e
  have e1 : freeCount (row.set n Data.null) = 1 := by omega
  obtain ⟨k, hk, hko, hkn⟩ := freeCount_pos (row.set n Data.null) (by omega)
  have hkne : k ≠ n := by
    intro ekn
    rw [ekn, getD_set_same _ _ _ _ hn] at hko
    exact Bool.noConfusion hko
  have hk2 : k < row.length := by
    rw [List.length_set] at hk
    exact hk
  have hkf1 : ((row.set n Data.null).getD k Data.null).free = true :=
    (free_iff _).mpr ⟨hko, hkn⟩
  have hkf : (row.getD k Data.null).free = true := by
    rw [getD_set_ne _ _ _ _ _ (fun e => hkne e.symm)] at hkf1
    exact hkf1
  refine ⟨k, hk2, hkne, hkf, fun j hj hjf => ?_⟩
  by_cases hjn : j = n
  · exact Or.inr hjn
  · left
    refine freeCount_one (row.set n Data.null) k e1 hk hkf1 j ?_ ?_
    · rw [List.length_set]
      exact hj
    · rw [getD_set_ne _ _ _ _ _ (fun e => hjn e.symm)]
      exact hjf

/-- Domain propagation: in a state in which `domain_size_` counts the names that are left and
the registered names are in the name sets, when `Enqueue` of a registered negative literal
`f ≠ n` takes effect (`f` is unassigned and `n` is not yet excluded) and lowers
`domain_size_[f]` from `2` to `1`, the same `Enqueue` puts `f ≠ n` and `f = k` on the trail
and sets `model_[f] = k` with the reason `kDomainRef`, where `k` is the only name with `occurs`
and not `model_neq` for `f` afterwards. -/
theorem Enqueue_last_name (sort : Nat → Nat) (s : Solver) (a : Literal) (r : Int)
    (hD : DomInv s) (hN : NamesOK sort s) (hneg : a.pos = false)
    (hocc : (s.data a.lhs a.rhs).occurs = true) (hun : s.model a.lhs = 0)
    (hneq : (s.data a.lhs a.rhs).model_neq = false)
    (hds : s.domain_size_.getD a.lhs 0 = 2) :
    ∃ k, k ≠ 0 ∧ k ≠ a.rhs ∧
      (Enqueue sort s a r).trail_ = s.trail_ ++ [a, Literal.Eq a.lhs k] ∧
      (Enqueue sort s a r).model a.lhs = k ∧
      ((Enqueue sort s a r).data a.lhs k).reason = kDomainRef ∧
      (Enqueue sort s a r).domain_size_.getD a.lhs 0 = 1 ∧
      ∀ n, (((Enqueue sort s a r).data a.lhs n).occurs = true ∧
        ((Enqueue sort s a r).data a.lhs n).model_neq = false) ↔ n = k := by
  obtain ⟨hcd, hcn⟩ := occurs_in_capacity s _ _ hocc
  obtain ⟨hf0, hn0⟩ := hD.dat.nonnull _ _ hocc
  have hcm : a.lhs < s.model_.length := by
    rw [hD.dat.capd.1, ← hD.dat.capd.2.1]
    exact hcd
  have hfd : a.lhs < s.domain_size_.length := by
    rw [hD.dat.cap]
    exact hcd
  have hcount := hD.dat.count a.lhs
  rw [hds] at hcount
  have hfree : ((s.data_.getD a.lhs []).getD a.rhs Data.null).free = true :=
    (free_iff _).mpr ⟨hocc, hneq⟩
  obtain ⟨k, hk, hkn, hkf, huniq⟩ :=
    freeCount_two (s.data_.getD a.lhs []) a.rhs hcount.symm hcn hfree
  obtain ⟨hko, hkq⟩ := (free_iff _).mp hkf
  have hko2 : (s.data a.lhs k).occurs = true := hko
  have hkq2 : (s.data a.lhs k).model_neq = false := hkq
  have hk0 := (hD.dat.nonnull a.lhs k hko2).2
  have hname := hN a.lhs k hko2
  have hklt : k < (s.names_.getD (sort a.lhs) []).length := by
    by_contra hc
    rw [List.getD_eq_default _ _ (Nat.le_of_not_lt hc)] at hname
    exact hk0 hname.symm
  have hprop := Enqueue_domain_propagation sort s a r k k hneg hun hneq hds hfd
    ⟨hcm, hcd, hcn⟩ hklt hname hk0 hkn hk hko2 hkq2
    (fun j _ hj0 hjo hjq => by
      have hjc := (occurs_in_capacity s _ _ hjo).2
      exact huniq _ hjc ((free_iff _).mpr ⟨hjo, hjq⟩))
  obtain ⟨p1, p2, p3, p4, _, p6⟩ := hprop
  have hfals : s.falsifies a (-1) = false := by
    cases hx : s.falsifies a (-1)
    · rfl
    · rcases (falsifies_iff s a).mp hx with ⟨_, e⟩ | ⟨e, _⟩
      · rw [hun] at e
        exact absurd e.symm hn0
      · rw [hneg] at e
        exact Bool.noConfusion e
  have hD2 := DomInv_Enqueue sort s a r hD hfals (fun _ => hocc)
  have hcount2 := hD2.dat.count a.lhs
  rw [p6] at hcount2
  have hko3 : ((Enqueue sort s a r).data a.lhs k).occurs = true := by
    rw [Enqueue_occurs]
    exact hko2
  have hk3 := (occurs_in_capacity _ _ _ hko3).2
  have hkf3 : (((Enqueue sort s a r).data_.getD a.lhs []).getD k Data.null).free = true :=
    (free_iff _).mpr ⟨hko3, p4⟩
  refine ⟨k, hk0, hkn, p1, p2, p3, p6, fun n => ⟨fun hn => ?_, fun hn => ?_⟩⟩
  · exact freeCount_one _ k hcount2.symm hk3 hkf3 n (occurs_in_capacity _ _ _ hn.1).2
      ((free_iff _).mpr hn)
  · rw [hn]
    exact ⟨hko3, p4⟩

/-- An instance of `Enqueue_last_name`: the first `Enqueue` of `Init` for the clause
`f = 1 ∨ g = 2` and the unit `f ≠ 1`, where the only other name of `f` is the extra name `9`.
`Init` has moved the trail to `lits`; `Enqueue(f ≠ 1)` lowers `domain_size_[f]` from `2` to `1`
and assigns `f = 9`, the only name left. -/
theorem Enqueue_last_name_scenario :
    (Enqueue oneSort ({ domainScenarioInput with trail_ := [] } : Solver) ⟨false, 1, 1⟩
      kNullRef).model 1 = 9 ∧
    ∃ k, k ≠ 0 ∧ k ≠ 1 ∧
      (Enqueue oneSort ({ domainScenarioInput with trail_ := [] } : Solver) ⟨false, 1, 1⟩
        kNullRef).trail_ = [⟨false, 1, 1⟩, Literal.Eq 1 k] ∧
      (Enqueue oneSort ({ domainScenarioInput with trail_ := [] } : Solver) ⟨false, 1, 1⟩
        kNullRef).model 1 = k ∧
      ((Enqueue oneSort ({ domainScenarioInput with trail_ := [] } : Solver) ⟨false, 1, 1⟩
        kNullRef).data 1 k).reason = kDomainRef ∧
      (Enqueue oneSort ({ domainScenarioInput with trail_ := [] } : Solver) ⟨false, 1, 1⟩
        kNullRef).domain_size_.getD 1 0 = 1 ∧
      ∀ n, (((Enqueue oneSort ({ domainScenarioInput with trail_ := [] } : Solver)
          ⟨false, 1, 1⟩ kNullRef).data 1 n).occurs = true ∧
        ((Enqueue oneSort ({ domainScenarioInput with trail_ := [] } : Solver)
          ⟨false, 1, 1⟩ kNullRef).data 1 n).model_neq = false) ↔ n = k := by
  have hR : Ready oneSort extraNine domainScenarioInput :=
    Ready.literal _ _ (Ready.clause _ _ Ready.fresh (by decide) (by decide) (by decide))
      (by decide) (by decide) (by decide)
  have hW := WF_of_Ready hR
  exact ⟨by decide!,
    Enqueue_last_name oneSort ({ domainScenarioInput with trail_ := [] } : Solver)
      ⟨false, 1, 1⟩ kNullRef hW.dom hW.names rfl (by decide!) (by decide!) (by decide!)
      (by decide!)⟩

end Solver


end limbo
